import Mathlib

/-!
# simplefeatures: segment intersection and the DCEL overlay engine

A shallow embedding of `geom/line.go` and `geom/doubly_connected_edge_list.go`.
Coordinates are exact rationals; pointers are indices into an explicit heap. Where
the result of the code depends on the rounding of `float64`, the operations of
`float64` are modelled with their rounding.
-/

namespace Geom

/-! ## The type `float64` -/

/-- A value of the type `float64`: a finite number, an infinity or NaN. The finite
values are rationals; the sign of a zero is not kept. -/
inductive float64 where
  | finite (q : ℚ)
  | inf (negative : Bool)
  | nan
deriving DecidableEq

/-- The number of binary digits of `n`; the first argument bounds the recursion. -/
def bitLength : Nat → Nat → Nat
  | 0, _ => 0
  | fuel + 1, n => if n = 0 then 0 else bitLength fuel (n / 2) + 1

/-- The power `2^z` for an integer `z`. -/
def pow2 (z : Int) : ℚ :=
  if 0 ≤ z then ((2 ^ z.toNat : Nat) : ℚ) else 1 / ((2 ^ (-z).toNat : Nat) : ℚ)

/-- The binary exponent of a rational `q ≠ 0`: the `e` with `2^e ≤ |q| < 2^(e+1)`. -/
def binaryExponent (q : ℚ) : Int :=
  let e0 : Int := (bitLength q.num.natAbs q.num.natAbs : Int) - (bitLength q.den q.den : Int)
  if (if q < 0 then -q else q) < pow2 e0 then e0 - 1 else e0

/-- The integer nearest to a rational that is not negative, the even one of two
that are equally near. -/
def roundHalfEven (q : ℚ) : Int :=
  let fl : Int := q.num / q.den
  let r : ℚ := q - fl
  if r < 1 / 2 then fl else if 1 / 2 < r then fl + 1 else if fl % 2 = 0 then fl else fl + 1

/-- The `float64` nearest to a rational, as the operations of IEEE-754 round their
exact result: 53 binary digits from the binary exponent -1022 on and fewer below
it, the even one of two values that are equally near, and an infinity where the
rounded value reaches `2^1024`. -/
def roundToFloat64 (q : ℚ) : float64 :=
  if q.num = 0 then float64.finite 0
  else
    let e := max (binaryExponent q) (-1022)
    let ulp := pow2 (e - 52)
    let m := roundHalfEven ((if q < 0 then -q else q) / ulp)
    if 1024 ≤ e ∨ (e = 1023 ∧ m = 2 ^ 53) then float64.inf (decide (q < 0))
    else float64.finite (if q < 0 then -((m : ℚ) * ulp) else (m : ℚ) * ulp)

/-- Whether a rational is a value of `float64`. -/
def isFloat64 (q : ℚ) : Bool :=
  match roundToFloat64 q with
  | float64.finite r => decide (r.num = q.num) && decide (r.den = q.den)
  | _ => false

/-- The product of two `float64` values. -/
def float64.mul : float64 → float64 → float64
  | float64.finite x, float64.finite y => roundToFloat64 (x * y)
  | float64.finite x, float64.inf s =>
    if x.num = 0 then float64.nan else float64.inf (xor s (decide (x < 0)))
  | float64.inf s, float64.finite y =>
    if y.num = 0 then float64.nan else float64.inf (xor s (decide (y < 0)))
  | float64.inf s, float64.inf t => float64.inf (xor s t)
  | _, _ => float64.nan

/-- The sum of two `float64` values. -/
def float64.add : float64 → float64 → float64
  | float64.finite x, float64.finite y => roundToFloat64 (x + y)
  | float64.finite _, float64.inf s => float64.inf s
  | float64.inf s, float64.finite _ => float64.inf s
  | float64.inf s, float64.inf t => if s = t then float64.inf s else float64.nan
  | _, _ => float64.nan

/-- The negation of a `float64` value. -/
def float64.neg : float64 → float64
  | float64.finite x => float64.finite (-x)
  | float64.inf s => float64.inf (!s)
  | float64.nan => float64.nan

/-- The difference of two `float64` values. -/
def float64.sub (x y : float64) : float64 := x.add y.neg

/-- The quotient of two `float64` values; a zero divisor is taken as `+0`, so that
a number that is not zero divided by zero is the infinity of its sign. -/
def float64.div : float64 → float64 → float64
  | float64.finite x, float64.finite y =>
    if y.num = 0 then (if x.num = 0 then float64.nan else float64.inf (decide (x < 0)))
    else roundToFloat64 (x / y)
  | float64.finite _, float64.inf _ => float64.finite 0
  | float64.inf s, float64.finite y => float64.inf (xor s (decide (y < 0)))
  | _, _ => float64.nan

/-- The sign of a `float64` value: -1, 0 or 1, and 0 for NaN. -/
def float64.sign : float64 → Int
  | float64.finite q => q.num.sign
  | float64.inf s => if s then -1 else 1
  | float64.nan => 0

/-- The conversion `int64(x)` of a `float64`: the value truncated towards zero. For
a value that does not fit in an `int64`, for an infinity and for NaN the result
depends on the implementation; it is that of amd64 here, `-2^63`. -/
def float64.toInt64 : float64 → Int
  | float64.finite q =>
    if -2 ^ 63 ≤ q.num.tdiv q.den ∧ q.num.tdiv q.den < 2 ^ 63 then q.num.tdiv q.den
    else -2 ^ 63
  | _ => -2 ^ 63

/-! ## Coordinates and predicates -/

/-- An `XY` value: a pair of coordinates, read as exact rationals. -/
structure XY where
  X : ℚ
  Y : ℚ
deriving DecidableEq

/-- The zero value of `XY`, which Go gives to fields that are not set. -/
def XY.zero : XY := ⟨0, 0⟩

instance : Inhabited XY := ⟨XY.zero⟩

/-- Modelled from the spec: `XY.Sub` is declared outside the given sources; it is
the componentwise difference used in `b.Sub(a).Scale(p).Add(a)`, which the spec
reads as `a + (e/f)·(b − a)`. -/
def XY.Sub (w o : XY) : XY := ⟨w.X - o.X, w.Y - o.Y⟩

/-- Modelled from the spec: `XY.Scale` is declared outside the given sources;
multiplication of both components by a scalar. -/
def XY.Scale (w : XY) (s : ℚ) : XY := ⟨w.X * s, w.Y * s⟩

/-- Modelled from the spec: `XY.Add` is declared outside the given sources; the
componentwise sum. -/
def XY.Add (w o : XY) : XY := ⟨w.X + o.X, w.Y + o.Y⟩

/-- Modelled from the spec: `XY.Less` is declared outside the given sources;
"lexicographic: smaller X wins; on equal X, smaller Y wins". -/
def XY.Less (w o : XY) : Bool := decide (w.X < o.X ∨ (w.X = o.X ∧ w.Y < o.Y))

/-- The three results of `orientation`. -/
inductive threePointOrientation where
  | rightTurn
  | collinear
  | leftTurn
deriving DecidableEq

open threePointOrientation

/-- The cross product whose sign `orientation` reports:
`(q.x−p.x)(r.y−p.y) − (q.y−p.y)(r.x−p.x)`. -/
def crossProduct (p q r : XY) : ℚ :=
  (q.X - p.X) * (r.Y - p.Y) - (q.Y - p.Y) * (r.X - p.X)

/-- The cross product of `orientation`, with every operation in `float64`. -/
def crossProductFloat64 (p q r : XY) : float64 :=
  (((float64.finite q.X).sub (float64.finite p.X)).mul
      ((float64.finite r.Y).sub (float64.finite p.Y))).sub
    (((float64.finite q.Y).sub (float64.finite p.Y)).mul
      ((float64.finite r.X).sub (float64.finite p.X)))

/-- Modelled from the spec: `orientation` is declared outside the given sources;
"returns one of {leftTurn, rightTurn, collinear}, computed from the sign of
(q.x−p.x)(r.y−p.y) − (q.y−p.y)(r.x−p.x). Ties evaluate to collinear." -/
def orientation (p q r : XY) : threePointOrientation :=
  if 0 < crossProduct p q r then leftTurn
  else if crossProduct p q r < 0 then rightTurn
  else collinear

/-! ## `line.go` -/

/-- A line segment between two XY locations. -/
structure line where
  a : XY
  b : XY
deriving DecidableEq

/-- The result of intersecting two line segments: empty (flag set), a single
point (both points the same), or a segment (given by the two points). -/
structure lineWithLineIntersection where
  empty : Bool
  ptA : XY
  ptB : XY
deriving DecidableEq

/-- The source's `onSegment`: `r` within the bounding box of `p` and `q`. -/
def onSegment (p q r : XY) : Bool :=
  decide (r.X ≤ max p.X q.X) && decide (r.X ≥ min p.X q.X) &&
  decide (r.Y ≤ max p.Y q.Y) && decide (r.Y ≥ min p.Y q.Y)

/-- Loop of `rightmostThenHighestIndex`: `rest` holds `ps[i:]`, `rpi` the best
index so far. -/
def rightmostThenHighestLoop (ps : List XY) : Nat → Nat → List XY → Nat
  | rpi, _, [] => rpi
  | rpi, i, p :: rest =>
    if p.X > (ps.getD rpi XY.zero).X ∨
        (p.X = (ps.getD rpi XY.zero).X ∧ p.Y > (ps.getD rpi XY.zero).Y) then
      rightmostThenHighestLoop ps i (i + 1) rest
    else
      rightmostThenHighestLoop ps rpi (i + 1) rest

/-- The index of the rightmost-then-highest point. -/
def rightmostThenHighestIndex (ps : List XY) : Nat :=
  rightmostThenHighestLoop ps 0 1 (ps.drop 1)

/-- Loop of `leftmostThenLowestIndex`. -/
def leftmostThenLowestLoop (ps : List XY) : Nat → Nat → List XY → Nat
  | rpi, _, [] => rpi
  | rpi, i, p :: rest =>
    if p.X < (ps.getD rpi XY.zero).X ∨
        (p.X = (ps.getD rpi XY.zero).X ∧ p.Y < (ps.getD rpi XY.zero).Y) then
      leftmostThenLowestLoop ps i (i + 1) rest
    else
      leftmostThenLowestLoop ps rpi (i + 1) rest

/-- The index of the leftmost-then-lowest point. -/
def leftmostThenLowestIndex (ps : List XY) : Nat :=
  leftmostThenLowestLoop ps 0 1 (ps.drop 1)

/-- The numerator `e` of the crossing parameter in `intersectLine`. -/
def crossingNumerator (a c d : XY) : ℚ :=
  (c.Y - d.Y) * (a.X - c.X) + (d.X - c.X) * (a.Y - c.Y)

/-- The denominator `f` of the crossing parameter in `intersectLine`. -/
def crossingDenominator (a b c d : XY) : ℚ :=
  (d.X - c.X) * (a.Y - b.Y) - (a.X - b.X) * (d.Y - c.Y)

/-- The numerator `e := (c.Y-d.Y)*(a.X-c.X) + (d.X-c.X)*(a.Y-c.Y)` of
`intersectLine`, with every operation in `float64` as the code has it. -/
def crossingNumeratorFloat64 (a c d : XY) : float64 :=
  (((float64.finite c.Y).sub (float64.finite d.Y)).mul
      ((float64.finite a.X).sub (float64.finite c.X))).add
    (((float64.finite d.X).sub (float64.finite c.X)).mul
      ((float64.finite a.Y).sub (float64.finite c.Y)))

/-- The denominator `f := (d.X-c.X)*(a.Y-b.Y) - (a.X-b.X)*(d.Y-c.Y)` of
`intersectLine`, with every operation in `float64` as the code has it. -/
def crossingDenominatorFloat64 (a b c d : XY) : float64 :=
  (((float64.finite d.X).sub (float64.finite c.X)).mul
      ((float64.finite a.Y).sub (float64.finite b.Y))).sub
    (((float64.finite a.X).sub (float64.finite b.X)).mul
      ((float64.finite d.Y).sub (float64.finite c.Y)))

/-- The endpoints left of `a, b, c, d` after removing the rightmost-then-highest
and then the leftmost-then-lowest: the collinear block of `intersectLine`. -/
def collinearRemainder (a b c d : XY) : List XY :=
  let pts := [a, b, c, d]
  let rth := rightmostThenHighestIndex pts
  let pts := pts.eraseIdx rth
  let ltl := leftmostThenLowestIndex pts
  pts.eraseIdx ltl

/-- The intersection of two line segments, `line.intersectLine`. -/
def line.intersectLine (ln other : line) : lineWithLineIntersection :=
  let a := ln.a
  let b := ln.b
  let c := other.a
  let d := other.b
  let o1 := orientation a b c
  let o2 := orientation a b d
  let o3 := orientation c d a
  let o4 := orientation c d b
  if o1 ≠ o2 ∧ o3 ≠ o4 then
    if o1 = collinear then ⟨false, c, c⟩
    else if o2 = collinear then ⟨false, d, d⟩
    else if o3 = collinear then ⟨false, a, a⟩
    else if o4 = collinear then ⟨false, b, b⟩
    else
      let e := crossingNumerator a c d
      let f := crossingDenominator a b c d
      let p := e / f
      let pt := ((b.Sub a).Scale p).Add a
      ⟨false, pt, pt⟩
  else if o1 = collinear ∧ o2 = collinear then
    if (!onSegment a b c && !onSegment a b d) && (!onSegment c d a && !onSegment c d b) then
      ⟨true, XY.zero, XY.zero⟩
    else
      let pts := collinearRemainder a b c d
      ⟨false, pts.getD 0 XY.zero, pts.getD 1 XY.zero⟩
  else
    ⟨true, XY.zero, XY.zero⟩

/-- The path condition of the division `p := e / f` in `intersectLine`: the
crossing branch is taken and none of the four endpoint returns fires. -/
def reachesDivision (ln other : line) : Bool :=
  let o1 := orientation ln.a ln.b other.a
  let o2 := orientation ln.a ln.b other.b
  let o3 := orientation other.a other.b ln.a
  let o4 := orientation other.a other.b ln.b
  decide (o1 ≠ o2 ∧ o3 ≠ o4) && decide (o1 ≠ collinear) && decide (o2 ≠ collinear) &&
    decide (o3 ≠ collinear) && decide (o4 ≠ collinear)

/-! ## Specification predicates -/

/-- The point `p` lies on the closed segment from `a` to `b`: it is
`a + t·(b − a)` for some `t` in `[0, 1]`. -/
def InClosedSegment (a b p : XY) : Prop :=
  ∃ t : ℚ, 0 ≤ t ∧ t ≤ 1 ∧ p = ((b.Sub a).Scale t).Add a

/-- The two closed segments have a common point. -/
def SegmentsMeet (a b c d : XY) : Prop :=
  ∃ p : XY, InClosedSegment a b p ∧ InClosedSegment c d p

/-- Lexicographic order on points, non-strict: X first, then Y. -/
def LexLE (p q : XY) : Prop := p.X < q.X ∨ (p.X = q.X ∧ p.Y ≤ q.Y)

/-- The point `a + (e/f)·(b − a)` computed in the crossing branch. -/
def crossingPoint (a b c d : XY) : XY :=
  ((b.Sub a).Scale (crossingNumerator a c d / crossingDenominator a b c d)).Add a

/-- The point at parameter `t` on the line from `a` to `b`. -/
def pointAt (a b : XY) (t : ℚ) : XY := ((b.Sub a).Scale t).Add a

/-- Lexicographic order on points, strict. -/
def LexLT (p q : XY) : Prop := p.X < q.X ∨ (p.X = q.X ∧ p.Y < q.Y)

/-- The rational `t` lies between `u` and `v`, in either order. -/
def Between (u v t : ℚ) : Prop := (u ≤ t ∧ t ≤ v) ∨ (v ≤ t ∧ t ≤ u)

/-- The parameter of a point of the line through `a` and `b`. -/
def lineParam (a b q : XY) : ℚ :=
  if a.X = b.X then (q.Y - a.Y) / (b.Y - a.Y) else (q.X - a.X) / (b.X - a.X)

/-! ## `doubly_connected_edge_list.go`: records and the heap -/

/-- A `vertexRecord`; `incident` is a pointer to a half-edge record (`none` is nil). -/
structure vertexRecord where
  coords : XY
  incident : Option Nat
deriving DecidableEq

/-- A `halfEdgeRecord`; every field is a pointer (`none` is nil). -/
structure halfEdgeRecord where
  origin : Option Nat
  twin : Option Nat
  incident : Option Nat
  next : Option Nat
  prev : Option Nat
deriving DecidableEq

/-- A `faceRecord`. -/
structure faceRecord where
  outerComponent : Option Nat
  innerComponents : List Nat
  labelA : Bool
  labelB : Bool
deriving DecidableEq

/-- The records allocated so far. A pointer is an index into one of the three
lists; allocation appends. -/
structure Heap where
  vertexRecords : List vertexRecord
  halfEdgeRecords : List halfEdgeRecord
  faceRecords : List faceRecord
deriving DecidableEq

/-- The `doublyConnectedEdgeList`: pointers to its faces and half-edges, and the
map from coordinates to vertex pointers. -/
structure doublyConnectedEdgeList where
  faces : List Nat
  halfEdges : List Nat
  vertices : List (XY × Nat)
deriving DecidableEq

/-- The empty heap. -/
def Heap.empty : Heap := ⟨[], [], []⟩

/-- Allocation of a vertex record: the new heap and the new pointer. -/
def Heap.allocVertex (h : Heap) (r : vertexRecord) : Heap × Nat :=
  ({ h with vertexRecords := h.vertexRecords ++ [r] }, h.vertexRecords.length)

/-- Allocation of a half-edge record. -/
def Heap.allocHalfEdge (h : Heap) (r : halfEdgeRecord) : Heap × Nat :=
  ({ h with halfEdgeRecords := h.halfEdgeRecords ++ [r] }, h.halfEdgeRecords.length)

/-- Allocation of a face record. -/
def Heap.allocFace (h : Heap) (r : faceRecord) : Heap × Nat :=
  ({ h with faceRecords := h.faceRecords ++ [r] }, h.faceRecords.length)

/-- A write through a half-edge pointer; `none` when the pointer is not allocated. -/
def Heap.updHalfEdge (h : Heap) (p : Nat) (f : halfEdgeRecord → halfEdgeRecord) : Option Heap :=
  match h.halfEdgeRecords[p]? with
  | some r => some { h with halfEdgeRecords := h.halfEdgeRecords.set p (f r) }
  | none => none

/-- A write through a vertex pointer. -/
def Heap.updVertex (h : Heap) (p : Nat) (f : vertexRecord → vertexRecord) : Option Heap :=
  match h.vertexRecords[p]? with
  | some r => some { h with vertexRecords := h.vertexRecords.set p (f r) }
  | none => none

/-- A write through a face pointer. -/
def Heap.updFace (h : Heap) (p : Nat) (f : faceRecord → faceRecord) : Option Heap :=
  match h.faceRecords[p]? with
  | some r => some { h with faceRecords := h.faceRecords.set p (f r) }
  | none => none

/-- The field `twin` read through a pointer. -/
def Heap.twinOf (h : Heap) (p : Nat) : Option Nat := (h.halfEdgeRecords[p]?).bind (·.twin)

/-- The field `next` read through a pointer. -/
def Heap.nextOf (h : Heap) (p : Nat) : Option Nat := (h.halfEdgeRecords[p]?).bind (·.next)

/-- The field `prev` read through a pointer. -/
def Heap.prevOf (h : Heap) (p : Nat) : Option Nat := (h.halfEdgeRecords[p]?).bind (·.prev)

/-- The field `origin` read through a pointer. -/
def Heap.originOf (h : Heap) (p : Nat) : Option Nat := (h.halfEdgeRecords[p]?).bind (·.origin)

/-- The field `incident` of a half-edge read through a pointer. -/
def Heap.incidentOf (h : Heap) (p : Nat) : Option Nat :=
  (h.halfEdgeRecords[p]?).bind (·.incident)

/-- The coordinates of the origin of a half-edge. -/
def Heap.originCoords (h : Heap) (p : Nat) : Option XY :=
  ((h.originOf p).bind (h.vertexRecords[·]?)).map (·.coords)

/-- The write `p.origin = v`. -/
def Heap.setOrigin (h : Heap) (p : Nat) (v : Option Nat) : Option Heap :=
  h.updHalfEdge p (fun r => { r with origin := v })

/-- The write `p.twin = v`. -/
def Heap.setTwin (h : Heap) (p : Nat) (v : Option Nat) : Option Heap :=
  h.updHalfEdge p (fun r => { r with twin := v })

/-- The write `p.next = v`. -/
def Heap.setNext (h : Heap) (p : Nat) (v : Option Nat) : Option Heap :=
  h.updHalfEdge p (fun r => { r with next := v })

/-- The write `p.prev = v`. -/
def Heap.setPrev (h : Heap) (p : Nat) (v : Option Nat) : Option Heap :=
  h.updHalfEdge p (fun r => { r with prev := v })

/-- The write `p.incident = v` on a half-edge. -/
def Heap.setIncident (h : Heap) (p : Nat) (v : Option Nat) : Option Heap :=
  h.updHalfEdge p (fun r => { r with incident := v })

/-- The write `p.incident = v` on a vertex. -/
def Heap.setVertexIncident (h : Heap) (p : Nat) (v : Option Nat) : Option Heap :=
  h.updVertex p (fun r => { r with incident := v })

/-- The pointer writes of `reNodeEdge` on the old half-edges, from `e.twin.origin = cut`
to `e.prev.twin.prev = e.twin`; `n` is the saved `next`. -/
def reNodeEdgeRewire (h3 : Heap) (e cut n ePrime ePrimeTwin : Nat) : Option Heap := do
  -- e.twin.origin = cut
  let t1 ← h3.twinOf e
  let h4 ← h3.setOrigin t1 (some cut)
  -- e.next = ePrime
  let h5 ← h4.setNext e (some ePrime)
  -- next.twin.next = ePrimeTwin
  let nt ← h5.twinOf n
  let h6 ← h5.setNext nt (some ePrimeTwin)
  -- next.prev = ePrime
  let h7 ← h6.setPrev n (some ePrime)
  -- e.twin.prev = ePrimeTwin
  let t2 ← h7.twinOf e
  h7.setPrev t2 (some ePrimeTwin)

/-- The statement `e.prev.twin.prev = e.twin` of `reNodeEdge`. -/
def reNodeEdgePrevTwin (h8 : Heap) (e : Nat) : Option Heap := do
  let p ← h8.prevOf e
  let pt ← h8.twinOf p
  let er2 ← h8.halfEdgeRecords[e]?
  h8.setPrev pt er2.twin

/-- The statements `cut.incident = ePrime` and `dest.incident = ePrimeTwin`. -/
def reNodeEdgeVertices (h9 : Heap) (cut : Nat) (dest : Option Nat) (ePrime ePrimeTwin : Nat) :
    Option Heap := do
  let h10 ← h9.setVertexIncident cut (some ePrime)
  let dv ← dest
  h10.setVertexIncident dv (some ePrimeTwin)

/-- `reNodeEdge(e, cut)`: splits `e` at the vertex `cut`. Every statement reads
its pointers from the heap as it is at that statement; `none` is a nil
dereference. -/
def reNodeEdge (h : Heap) (d : doublyConnectedEdgeList) (e cut : Nat) :
    Option (Heap × doublyConnectedEdgeList) := do
  -- dest := e.twin.origin; next := e.next
  let er ← h.halfEdgeRecords[e]?
  let t ← er.twin
  let tr ← h.halfEdgeRecords[t]?
  let dest := tr.origin
  let next := er.next
  -- ePrime := &halfEdgeRecord{cut, nil, e.incident, next, e}
  let ePrime := h.halfEdgeRecords.length
  let h1 := (h.allocHalfEdge ⟨some cut, none, er.incident, next, some e⟩).1
  -- ePrimeTwin := &halfEdgeRecord{dest, ePrime, e.twin.incident, e.twin, next.twin}
  let n ← next
  let nr ← h1.halfEdgeRecords[n]?
  let ePrimeTwin := h1.halfEdgeRecords.length
  let h2 := (h1.allocHalfEdge ⟨dest, some ePrime, tr.incident, some t, nr.twin⟩).1
  -- ePrime.twin = ePrimeTwin
  let h3 ← h2.setTwin ePrime (some ePrimeTwin)
  let h8 ← reNodeEdgeRewire h3 e cut n ePrime ePrimeTwin
  let h9 ← reNodeEdgePrevTwin h8 e
  let h11 ← reNodeEdgeVertices h9 cut dest ePrime ePrimeTwin
  -- d.halfEdges = append(d.halfEdges, ePrime, ePrimeTwin)
  pure (h11, { d with halfEdges := d.halfEdges ++ [ePrime, ePrimeTwin] })

/-- The invariant of a DCEL under edge splits: besides the four pointer laws, the
twin cycle mirrors the cycle (`twin.next = prev.twin`), and no half-edge is its own
twin, its own next, or has its twin as next. -/
structure SplitInv (h : Heap) (d : doublyConnectedEdgeList) : Prop where
  twin_mem : ∀ e ∈ d.halfEdges, ∃ t ∈ d.halfEdges, h.twinOf e = some t
  next_mem : ∀ e ∈ d.halfEdges, ∃ n ∈ d.halfEdges, h.nextOf e = some n
  prev_mem : ∀ e ∈ d.halfEdges, ∃ p ∈ d.halfEdges, h.prevOf e = some p
  origin_some : ∀ e ∈ d.halfEdges, ∃ v, v < h.vertexRecords.length ∧ h.originOf e = some v
  lt_length : ∀ e ∈ d.halfEdges, e < h.halfEdgeRecords.length
  twin_twin : ∀ e t, e ∈ d.halfEdges → h.twinOf e = some t → h.twinOf t = some e
  next_prev : ∀ e n, e ∈ d.halfEdges → h.nextOf e = some n → h.prevOf n = some e
  prev_next : ∀ e p, e ∈ d.halfEdges → h.prevOf e = some p → h.nextOf p = some e
  twin_origin : ∀ e t n, e ∈ d.halfEdges → h.twinOf e = some t → h.nextOf e = some n →
    h.originOf t = h.originOf n
  mirror : ∀ e t p, e ∈ d.halfEdges → h.twinOf e = some t → h.prevOf e = some p →
    h.nextOf t = h.twinOf p
  twin_ne : ∀ e ∈ d.halfEdges, h.twinOf e ≠ some e
  next_ne : ∀ e ∈ d.halfEdges, h.nextOf e ≠ some e
  next_ne_twin : ∀ e ∈ d.halfEdges, h.nextOf e ≠ h.twinOf e

/-- The four pointer laws at the half-edge `e`: `e.twin.twin = e`, `e.next.prev = e`,
`e.prev.next = e`, and `e.twin.origin = e.next.origin` (a vertex, not nil). -/
def PointerLaws (h : Heap) (e : Nat) : Prop :=
  (h.twinOf e).bind h.twinOf = some e ∧
  (h.nextOf e).bind h.prevOf = some e ∧
  (h.prevOf e).bind h.nextOf = some e ∧
  ∃ v, (h.twinOf e).bind h.originOf = some v ∧ (h.nextOf e).bind h.originOf = some v

/-! ## `newDCELFromPolygon` -/

/-- Modelled from the spec: the `Polygon` type is declared outside the given
sources; "one exterior ring plus zero or more interior rings", a ring being a
finite sequence of XY values (`Sequence`, read with `Length` and `GetXY`). -/
structure Polygon where
  exterior : List XY
  interiors : List (List XY)
deriving DecidableEq

/-- Modelled from the spec: twice the signed area of a ring (shoelace sum), positive
for counter-clockwise winding; used only by `Polygon.ForceCCW`. -/
def signedArea2 (ring : List XY) : ℚ :=
  ((ring.zip ring.tail).map (fun pq => pq.1.X * pq.2.Y - pq.2.X * pq.1.Y)).sum

/-- Modelled from the spec: `Polygon.ForceCCW` is declared outside the given
sources; "the exterior is forced to counter-clockwise winding and interiors to
clockwise winding". -/
def Polygon.ForceCCW (poly : Polygon) : Polygon :=
  ⟨if signedArea2 poly.exterior < 0 then poly.exterior.reverse else poly.exterior,
   poly.interiors.map (fun r => if 0 < signedArea2 r then r.reverse else r)⟩

/-- Modelled from the spec: `getLine` is declared outside the given sources; the
segment from entry `i` of the ring to the next entry, with `ok` false (`none`)
when there is no next entry or the two entries coincide (a segment is "an ordered
pair of distinct XY values"). -/
def getLine (ring : List XY) (i : Nat) : Option line :=
  match ring[i]?, ring[i + 1]? with
  | some a, some b => if a = b then none else some ⟨a, b⟩
  | _, _ => none

/-- The lines for which the loop `for i := 0; i < ring.Length(); i++` of
`newDCELFromPolygon` does not `continue`, in order. -/
def ringLines (ring : List XY) : List line :=
  (List.range ring.length).filterMap (getLine ring)

/-- One iteration of the loop that populates the vertices. -/
def populateVertex (s : Heap × List (XY × Nat)) (xy : XY) : Heap × List (XY × Nat) :=
  match s.2.lookup xy with
  | some _ => s
  | none => ((s.1.allocVertex ⟨xy, none⟩).1, s.2 ++ [(xy, s.1.vertexRecords.length)])

/-- The loop "Populate vertices" over all rings. -/
def populateVertices (h : Heap) (rings : List (List XY)) : Heap × List (XY × Nat) :=
  rings.foldl (fun s ring => ring.foldl populateVertex s) (h, [])

/-- The block "Set interior/exterior face linkage" for the first edge of a ring. -/
def linkFaces (h : Heap) (ringIdx interiorFace exteriorFace internalEdge externalEdge : Nat) :
    Option Heap :=
  if ringIdx = 0 then do
    let h1 ← h.updFace exteriorFace
      (fun f => { f with innerComponents := f.innerComponents ++ [externalEdge] })
    let fi ← h1.faceRecords[interiorFace]?
    if fi.outerComponent = none then
      h1.updFace interiorFace (fun f => { f with outerComponent := some internalEdge })
    else pure h1
  else do
    let h1 ← h.updFace interiorFace
      (fun f => { f with innerComponents := f.innerComponents ++ [internalEdge] })
    let fe ← h1.faceRecords[exteriorFace]?
    if fe.outerComponent = none then
      h1.updFace exteriorFace (fun f => { f with outerComponent := some externalEdge })
    else pure h1

/-- The state of the loop over the lines of one ring. -/
structure RingState where
  heap : Heap
  newEdges : List Nat
  first : Bool

/-- The two allocations and the twin and vertex writes for one line of a ring. -/
def allocRingEdge (vertices : List (XY × Nat)) (interiorFace exteriorFace : Nat)
    (h : Heap) (ln : line) : Option Heap := do
  let internalEdge := h.halfEdgeRecords.length
  let h1 := (h.allocHalfEdge ⟨vertices.lookup ln.a, none, some interiorFace, none, none⟩).1
  let externalEdge := h1.halfEdgeRecords.length
  let h2 := (h1.allocHalfEdge
    ⟨vertices.lookup ln.b, some internalEdge, some exteriorFace, none, none⟩).1
  -- internalEdge.twin = externalEdge
  let h3 ← h2.setTwin internalEdge (some externalEdge)
  -- dcel.vertices[ln.a].incident = internalEdge
  let va ← vertices.lookup ln.a
  h3.setVertexIncident va (some internalEdge)

/-- The body of the loop over the lines of one ring. -/
def addRingEdge (vertices : List (XY × Nat)) (ringIdx interiorFace exteriorFace : Nat)
    (s : RingState) (ln : line) : Option RingState := do
  let internalEdge := s.heap.halfEdgeRecords.length
  let externalEdge := s.heap.halfEdgeRecords.length + 1
  let h4 ← allocRingEdge vertices interiorFace exteriorFace s.heap ln
  let newEdges := s.newEdges ++ [internalEdge, externalEdge]
  if s.first then do
    let h5 ← linkFaces h4 ringIdx interiorFace exteriorFace internalEdge externalEdge
    pure ⟨h5, newEdges, false⟩
  else pure ⟨h4, newEdges, false⟩

/-- One iteration of the loop that sets `next` and `prev` along a ring. The Go index
expressions `(i*2-1+numEdges)%numEdges` and `(2*i-2+numEdges)%numEdges` are
evaluated in `int`; here the additions come first, as `numEdges ≥ 2` in the loop. -/
def wireRingEdge (newEdges : List Nat) (h : Heap) (i : Nat) : Option Heap := do
  let numEdges := newEdges.length
  let e0 ← newEdges[i * 2]?
  let e1 ← newEdges[i * 2 + 1]?
  let n0 ← newEdges[(2 * i + 2) % numEdges]?
  let h1 ← h.setNext e0 (some n0)
  let n1 ← newEdges[(i * 2 + numEdges - 1) % numEdges]?
  let h2 ← h1.setNext e1 (some n1)
  let p0 ← newEdges[(2 * i + numEdges - 2) % numEdges]?
  let h3 ← h2.setPrev e0 (some p0)
  let p1 ← newEdges[(2 * i + 3) % numEdges]?
  h3.setPrev e1 (some p1)

/-- The body of the loop over the rings. -/
def processRing (infFace polyFace : Nat) (s : Heap × doublyConnectedEdgeList)
    (ir : Nat × List XY) : Option (Heap × doublyConnectedEdgeList) := do
  let interiorFace := polyFace
  let exteriorFace := if ir.1 > 0 then s.1.faceRecords.length else infFace
  let h0 := if ir.1 > 0 then (s.1.allocFace ⟨none, [], false, false⟩).1 else s.1
  let faces := if ir.1 > 0 then s.2.faces ++ [exteriorFace] else s.2.faces
  let rs ← (ringLines ir.2).foldlM
    (addRingEdge s.2.vertices ir.1 interiorFace exteriorFace) ⟨h0, [], true⟩
  let h1 ← (List.range (rs.newEdges.length / 2)).foldlM (wireRingEdge rs.newEdges) rs.heap
  pure (h1, { s.2 with faces := faces, halfEdges := s.2.halfEdges ++ rs.newEdges })

/-- `newDCELFromPolygon(poly, isPolyA)`, run on the heap `h`; `none` is a panic. -/
def newDCELFromPolygon (h : Heap) (poly : Polygon) (isPolyA : Bool) :
    Option (Heap × doublyConnectedEdgeList) :=
  let poly := poly.ForceCCW
  let rings := poly.exterior :: poly.interiors
  let hv := populateVertices h rings
  let infFace := hv.1.faceRecords.length
  let h1 := (hv.1.allocFace ⟨none, [], false, false⟩).1
  let polyFace := h1.faceRecords.length
  let h2 := (h1.allocFace ⟨none, [], isPolyA, !isPolyA⟩).1
  rings.enum.foldlM (processRing infFace polyFace) (h2, ⟨[infFace, polyFace], [], hv.2⟩)

/-- The unit square, as a polygon without holes. -/
def unitSquare : Polygon := ⟨[⟨0, 0⟩, ⟨1, 0⟩, ⟨1, 1⟩, ⟨0, 1⟩, ⟨0, 0⟩], []⟩

/-- A polygon with a notch: its boundary has the level edges (0,0)-(1,0) and
(2,0)-(3,0) at the same height, apart. -/
def notchedPolygon : Polygon :=
  ⟨[⟨0, 0⟩, ⟨1, 0⟩, ⟨1, 1⟩, ⟨2, 1⟩, ⟨2, 0⟩, ⟨3, 0⟩, ⟨3, 2⟩, ⟨0, 2⟩, ⟨0, 0⟩], []⟩

/-- The lines form a path from `u` to `v`: each starts where the one before ends. -/
def IsPath : XY → XY → List line → Prop
  | u, v, [] => u = v
  | u, v, l :: rest => l.a = u ∧ IsPath l.b v rest

/-- The recursive reading of `ringLines`. -/
def ringLinesRec : List XY → List line
  | [] => []
  | [_] => []
  | a :: b :: rest => if a = b then ringLinesRec (b :: rest) else ⟨a, b⟩ :: ringLinesRec (b :: rest)

/-- A ring is closed: its first and last entries coincide. -/
def RingClosed (ring : List XY) : Prop := ring.head? = ring.getLast?

instance (ring : List XY) : Decidable (RingClosed ring) := by
  unfold RingClosed; infer_instance

/-- The vertex map points at allocated records that carry the key's coordinates. -/
def VMapOK (h : Heap) (m : List (XY × Nat)) : Prop :=
  ∀ xy v, m.lookup xy = some v → ∃ r, h.vertexRecords[v]? = some r ∧ r.coords = xy

/-- The half-edge records the loop over the lines of a ring allocates, before
`next` and `prev` are set: for each line the internal and the external edge. -/
def blockRecords (vertices : List (XY × Nat)) (interiorFace exteriorFace : Nat) :
    Nat → List line → List halfEdgeRecord
  | _, [] => []
  | L, ln :: rest =>
    ⟨vertices.lookup ln.a, some (L + 1), some interiorFace, none, none⟩ ::
    ⟨vertices.lookup ln.b, some L, some exteriorFace, none, none⟩ ::
    blockRecords vertices interiorFace exteriorFace (L + 2) rest

/-- The record at position `j` of a ring's block once `next` and `prev` are set:
internal edges (even `j`) go forward along the ring, external edges backward. -/
def wiredRecord (n L : Nat) (r : halfEdgeRecord) (j : Nat) : halfEdgeRecord :=
  if j % 2 = 0 then
    { r with next := some (L + (j + 2) % n), prev := some (L + (j + n - 2) % n) }
  else
    { r with next := some (L + (j + n - 2) % n), prev := some (L + (j + 2) % n) }

/-- The fields of the half-edges of one ring's block, as `processRing` leaves them:
`oa i` and `ob i` are the origins of the internal and external edge of line `i`. -/
structure RingBlock (h : Heap) (L k : Nat) (oa ob : Nat → Nat) : Prop where
  twin_even : ∀ i, i < k → h.twinOf (L + 2 * i) = some (L + 2 * i + 1)
  twin_odd : ∀ i, i < k → h.twinOf (L + (2 * i + 1)) = some (L + 2 * i)
  next_even : ∀ i, i < k → h.nextOf (L + 2 * i) = some (L + 2 * ((i + 1) % k))
  next_odd : ∀ i, i < k → h.nextOf (L + (2 * i + 1)) = some (L + (2 * ((i + k - 1) % k) + 1))
  prev_even : ∀ i, i < k → h.prevOf (L + 2 * i) = some (L + 2 * ((i + k - 1) % k))
  prev_odd : ∀ i, i < k → h.prevOf (L + (2 * i + 1)) = some (L + (2 * ((i + 1) % k) + 1))
  origin_even : ∀ i, i < k → h.originOf (L + 2 * i) = some (oa i)
  origin_odd : ∀ i, i < k → h.originOf (L + (2 * i + 1)) = some (ob i)
  origin_lt : ∀ i, i < k → oa i < h.vertexRecords.length ∧ ob i < h.vertexRecords.length
  chain : ∀ i, i < k → ob i = oa ((i + 1) % k)

/-- Every ring of the polygon is closed: first and last entry coincide. -/
def PolygonClosed (poly : Polygon) : Prop :=
  RingClosed poly.exterior ∧ ∀ r ∈ poly.interiors, RingClosed r

/-- The DCELs obtained from `newDCELFromPolygon` on a polygon with closed rings by
edge splits; between splits vertex records may be allocated and entered in the
vertex map, as `reNodeComponent` does. -/
inductive SplitReachable : Heap → doublyConnectedEdgeList → Prop
  | construct (h0 : Heap) (poly : Polygon) (isPolyA : Bool) (h : Heap)
      (d : doublyConnectedEdgeList) :
      PolygonClosed poly → newDCELFromPolygon h0 poly isPolyA = some (h, d) →
      SplitReachable h d
  | split (h : Heap) (d : doublyConnectedEdgeList) (e cut : Nat) (h2 : Heap)
      (d2 : doublyConnectedEdgeList) :
      SplitReachable h d → e ∈ d.halfEdges → cut < h.vertexRecords.length →
      reNodeEdge h d e cut = some (h2, d2) → SplitReachable h2 d2
  | vertex (h : Heap) (d : doublyConnectedEdgeList) (r : vertexRecord)
      (vs : List (XY × Nat)) :
      SplitReachable h d →
      SplitReachable { h with vertexRecords := h.vertexRecords ++ [r] } { d with vertices := vs }

/-! ## `fixVertices` -/

/-- The loop of `fixVertex` that finds the edges that start at `v`: the half-edges
`e` of the list with `e.origin.coords == v`, in order. -/
def collectIncident (h : Heap) (v : XY) : List Nat → Option (List Nat)
  | [] => some []
  | e :: rest => do
    let c ← h.originCoords e
    let tl ← collectIncident h v rest
    pure (if c = v then e :: tl else tl)

/-- One iteration of the loop "Fix pointers" of `fixVertex`. -/
def fixPointers (incident : List Nat) (h : Heap) (i : Nat) : Option Heap := do
  let ei ← incident[i]?
  let ej ← incident[(i + 1) % incident.length]?
  -- ei.prev = ej.twin
  let rj ← h.halfEdgeRecords[ej]?
  let h1 ← h.setPrev ei rj.twin
  -- ej.twin.next = ei
  let tj ← h1.twinOf ej
  h1.setNext tj (some ei)

/-- `fixVertex(v)`. The call `sort.Slice(incident, ...)` orders the edges by
`math.Atan2` of their direction, a floating-point value; the order it leaves is
the parameter `radialSort`, a function of the heap and the slice. -/
def fixVertex (radialSort : Heap → List Nat → List Nat) (h : Heap)
    (d : doublyConnectedEdgeList) (v : XY) : Option Heap := do
  let incident ← collectIncident h v d.halfEdges
  let sorted := radialSort h incident
  (List.range sorted.length).foldlM (fixPointers sorted) h

/-- `fixVertices()`: `fixVertex` for every key of `d.vertices`. Go leaves the
iteration order of a map unspecified; `order` lists the keys in the order of the
iteration. -/
def fixVertices (radialSort : Heap → List Nat → List Nat) (order : List XY) (h : Heap)
    (d : doublyConnectedEdgeList) : Option Heap :=
  order.foldlM (fun g v => fixVertex radialSort g d v) h

/-- The heap `g` differs from `h` at most in the fields `next` and `prev` of
half-edge records. -/
structure NextPrevFrame (h g : Heap) : Prop where
  vertexRecords : g.vertexRecords = h.vertexRecords
  faceRecords : g.faceRecords = h.faceRecords
  length : g.halfEdgeRecords.length = h.halfEdgeRecords.length
  twinOf : ∀ x, g.twinOf x = h.twinOf x
  originOf : ∀ x, g.originOf x = h.originOf x
  incidentOf : ∀ x, g.incidentOf x = h.incidentOf x

/-- The half-edges of `d` that start at `v`, in the order of `d.halfEdges`. -/
def incidentAt (h : Heap) (d : doublyConnectedEdgeList) (v : XY) : List Nat :=
  d.halfEdges.filter (fun e => decide (h.originCoords e = some v))

/-- Along the list `L`, read cyclically: for consecutive `ei`, `ej` the heap has
`ei.prev = ej.twin` and `ej.twin.next = ei`. -/
def WiredAt (g : Heap) (L : List Nat) : Prop :=
  ∀ i, i < L.length → ∃ ei ej tj, L[i]? = some ei ∧ L[(i + 1) % L.length]? = some ej ∧
    g.twinOf ej = some tj ∧ g.prevOf ei = some tj ∧ g.nextOf tj = some ei

/-- What the radial fix assumes of a merged DCEL: the half-edge list has no
duplicates, twins are in the list and `twin.twin = self`, and every origin is the
vertex record that `d.vertices` holds at its coordinates. -/
structure MergedOK (h : Heap) (d : doublyConnectedEdgeList) : Prop where
  nodup : d.halfEdges.Nodup
  twin_mem : ∀ e ∈ d.halfEdges, ∃ t ∈ d.halfEdges, h.twinOf e = some t
  twin_twin : ∀ e t, e ∈ d.halfEdges → h.twinOf e = some t → h.twinOf t = some e
  origin_vertex : ∀ e ∈ d.halfEdges, ∃ v r, h.originOf e = some v ∧
    h.vertexRecords[v]? = some r ∧ d.vertices.lookup r.coords = some v

/-- The edges that start at `v` are wired cyclically in `g`, in the order the sort
left them when `v` was visited (in some heap `gv` that differs from `h` in `next`
and `prev` only). -/
def WiredVertex (radialSort : Heap → List Nat → List Nat) (h : Heap)
    (d : doublyConnectedEdgeList) (g : Heap) (v : XY) : Prop :=
  ∃ gv, NextPrevFrame h gv ∧ WiredAt g (radialSort gv (incidentAt h d v))

/-- The direction the comparison of the radial sort reads for the edge `e`:
`e.twin.origin.coords.Sub(e.origin.coords)`. -/
def direction (h : Heap) (e : Nat) : Option XY := do
  let t ← h.twinOf e
  let a ← h.originCoords t
  let b ← h.originCoords e
  pure (a.Sub b)

/-- A decision procedure for `MergedOK`. -/
def mergedOKCheck (h : Heap) (d : doublyConnectedEdgeList) : Bool :=
  decide d.halfEdges.Nodup &&
  d.halfEdges.all (fun e => match h.twinOf e with
    | some t => decide (t ∈ d.halfEdges) && decide (h.twinOf t = some e)
    | none => false) &&
  d.halfEdges.all (fun e => match h.originOf e with
    | some v => match h.vertexRecords[v]? with
      | some r => decide (d.vertices.lookup r.coords = some v)
      | none => false
    | none => false)

/-! ## `reNodeComponent` -/

/-- Modelled from the spec: the `Envelope` type is declared outside the given
sources; an axis-aligned box given by its lower and upper corner. -/
structure Envelope where
  min : XY
  max : XY
deriving DecidableEq

/-- The bounding box of a line, `line.envelope`. -/
def line.envelope (ln : line) : Envelope :=
  let e : Envelope := ⟨ln.a, ln.b⟩
  let e : Envelope :=
    if e.min.X > e.max.X then ⟨⟨e.max.X, e.min.Y⟩, ⟨e.min.X, e.max.Y⟩⟩ else e
  if e.min.Y > e.max.Y then ⟨⟨e.min.X, e.max.Y⟩, ⟨e.max.X, e.min.Y⟩⟩ else e

/-- Modelled from the spec: two boxes intersect when they overlap on both axes,
borders included. -/
def Envelope.intersects (e o : Envelope) : Bool :=
  decide (e.min.X ≤ o.max.X ∧ o.min.X ≤ e.max.X ∧ e.min.Y ≤ o.max.Y ∧ o.min.Y ≤ e.max.Y)

/-- Modelled from the spec: the index over the boundary segments of the other
polygon and its range search are declared outside the given sources; "all segments
of Q whose envelope intersects the envelope of (u,v)", here in the order of the
list of segments. -/
def rangeSearch (lines : List line) (ln : line) : List line :=
  lines.filter (fun other => ln.envelope.intersects other.envelope)

/-- Modelled from the spec: `sortAndUniquifyXYs` is declared outside the given
sources; "the sorted unique set" of the points, in the order of `XY.Less`. -/
def sortAndUniquifyXYs (xys : List XY) : List XY :=
  (xys.insertionSort (fun p q => q.Less p = false)).dedup

/-- The callback of the range search in `reNodeComponent`, run over the candidates
in the order the search reports them: the points appended to `xys`. -/
def gatherCuts (ln : line) : List line → List XY
  | [] => []
  | other :: rest =>
    let inter := ln.intersectLine other
    if inter.empty then gatherCuts ln rest
    else inter.ptA :: inter.ptB :: gatherCuts ln rest

/-- The slice `xys` of `reNodeComponent` when the cuts are performed: the end
points and the gathered points, sorted and uniquified, and reversed if the first is
not `ln.a` (the slice holds `ln.a`, so `xys[0]` is there). -/
def orientedXYs (search : line → List line) (ln : line) : List XY :=
  let xys := sortAndUniquifyXYs ([ln.a, ln.b] ++ gatherCuts ln (search ln))
  if xys.head? ≠ some ln.a then xys.reverse else xys

/-- The points `xys[i+1]` for `i < len(xys) - 2`, at which the edge is cut. -/
def cutPoints (search : line → List line) (ln : line) : List XY :=
  ((orientedXYs search ln).drop 1).take ((orientedXYs search ln).length - 2)

/-- The lookup `d.vertices[xy]` and, if there is no entry, the new vertex record
that is entered in the map. -/
def findOrCreateVertex (h : Heap) (d : doublyConnectedEdgeList) (xy : XY) :
    Heap × doublyConnectedEdgeList × Nat :=
  match d.vertices.lookup xy with
  | some v => (h, d, v)
  | none => ((h.allocVertex ⟨xy, none⟩).1,
      { d with vertices := d.vertices ++ [(xy, h.vertexRecords.length)] },
      h.vertexRecords.length)

/-- One iteration of the loop "Perform cuts": `reNodeEdge(e, cutVert)` and
`e = e.next`. -/
def performCut (s : Heap × doublyConnectedEdgeList × Nat) (xy : XY) :
    Option (Heap × doublyConnectedEdgeList × Nat) := do
  let (h1, d1, cutVert) := findOrCreateVertex s.1 s.2.1 xy
  let (h2, d2) ← reNodeEdge h1 d1 s.2.2 cutVert
  let e2 ← h2.nextOf s.2.2
  pure (h2, d2, e2)

/-- The loop "Perform cuts". -/
def performCuts (cuts : List XY) (s : Heap × doublyConnectedEdgeList × Nat) :
    Option (Heap × doublyConnectedEdgeList × Nat) :=
  cuts.foldlM performCut s

/-- The line of the half-edge `e`: from `e.origin.coords` to `e.twin.origin.coords`. -/
def edgeLine (h : Heap) (e : Nat) : Option line := do
  let a ← h.originCoords e
  let t ← h.twinOf e
  let b ← h.originCoords t
  pure ⟨a, b⟩

/-- The body of the loop of `reNodeComponent` for the half-edge `e`, up to and
including the last `e = e.next`. -/
def reNodeComponentStep (search : line → List line) (h : Heap) (d : doublyConnectedEdgeList)
    (e : Nat) : Option (Heap × doublyConnectedEdgeList × Nat) := do
  let ln ← edgeLine h e
  let (h1, d1, e1) ← performCuts (cutPoints search ln) (h, d, e)
  let e2 ← h1.nextOf e1
  pure (h1, d1, e2)

/-- The loop of `reNodeComponent`, with fuel for the number of iterations. -/
def reNodeComponentLoop (search : line → List line) (start : Nat) :
    Nat → Heap → doublyConnectedEdgeList → Nat → Option (Heap × doublyConnectedEdgeList)
  | 0, _, _, _ => none
  | fuel + 1, h, d, e => do
    let (h1, d1, e2) ← reNodeComponentStep search h d e
    if e2 = start then pure (h1, d1) else reNodeComponentLoop search start fuel h1 d1 e2

/-- The method `reNodeComponent(start, indexed)`. -/
def reNodeComponent (search : line → List line) (fuel : Nat) (h : Heap)
    (d : doublyConnectedEdgeList) (start : Nat) : Option (Heap × doublyConnectedEdgeList) :=
  reNodeComponentLoop search start fuel h d start

/-- The boundary of the unit square moved by 1/2 to the right. -/
def shiftedSquareLines : List line :=
  [⟨⟨1/2, 0⟩, ⟨3/2, 0⟩⟩, ⟨⟨3/2, 0⟩, ⟨3/2, 1⟩⟩, ⟨⟨3/2, 1⟩, ⟨1/2, 1⟩⟩, ⟨⟨1/2, 1⟩, ⟨1/2, 0⟩⟩]

/-- The coordinates of the destination of a half-edge: `e.twin.origin.coords`. -/
def Heap.destCoords (h : Heap) (e : Nat) : Option XY := (h.twinOf e).bind h.originCoords

/-- The list `walk` is the cycle of `next` through `start`, begun at `start`: each
half-edge is followed by its `next`, the last by `start`; no half-edge comes twice
and none comes together with its twin. -/
structure Walk (h : Heap) (d : doublyConnectedEdgeList) (start : Nat) (walk : List Nat) :
    Prop where
  head : walk.head? = some start
  linked : List.Chain' (fun a b => h.nextOf a = some b) (walk ++ [start])
  nodup : walk.Nodup
  mem : ∀ x ∈ walk, x ∈ d.halfEdges
  twin_free : ∀ x ∈ walk, ∀ t, h.twinOf x = some t → t ∉ walk

/-- The chain that has replaced the half-edge `e` with line `ln`: it begins with
`e`, the origins along it are `ln.a` and then the cut points in order, its last
half-edge ends at `ln.b`, and every cut point has an entry in `d.vertices`. -/
structure ChainFor (search : line → List line) (h : Heap) (d : doublyConnectedEdgeList)
    (e : Nat) (ln : line) (chain : List Nat) : Prop where
  head : chain.head? = some e
  origins : chain.map h.originCoords = (ln.a :: cutPoints search ln).map some
  last : ∃ l, chain.getLast? = some l ∧ h.destCoords l = some ln.b
  vertices : ∀ x ∈ cutPoints search ln, ∃ v r, d.vertices.lookup x = some v ∧
    h.vertexRecords[v]? = some r ∧ r.coords = x

/-- The number of cuts of the half-edge `e`. -/
def cutCount (search : line → List line) (h : Heap) (e : Nat) : Nat :=
  match edgeLine h e with
  | some ln => (cutPoints search ln).length
  | none => 0

/-- A decision procedure for `Walk`. -/
def walkCheck (h : Heap) (d : doublyConnectedEdgeList) (start : Nat) (walk : List Nat) : Bool :=
  decide (walk.head? = some start) &&
  ((walk.zip (walk.tail ++ [start])).all (fun ab => decide (h.nextOf ab.1 = some ab.2))) &&
  decide walk.Nodup &&
  walk.all (fun x => decide (x ∈ d.halfEdges)) &&
  walk.all (fun x => match h.twinOf x with
    | some t => decide (t ∉ walk)
    | none => true)

/-! ## `alg_point_in_ring.go` -/

/-- Modelled from the spec: the intersection of a line and a point is declared
outside the given sources; `ln.Intersection(ptg)` is not empty exactly when the
point "lies on the segment": collinear with its end points and within their box. -/
def lineHoldsPoint (ln : line) (pt : XY) : Bool :=
  decide (orientation ln.a ln.b pt = collinear) && onSegment ln.a ln.b pt

/-- The first loop of `isPointInsideOrOnRing`: the running maximum of the X
coordinates, or `none` when the loop returns true (the point is on a line). -/
def findMaxX (pt : XY) : ℚ → List line → Option ℚ
  | maxX, [] => some maxX
  | maxX, ln :: rest =>
    if lineHoldsPoint ln pt then none else findMaxX pt (max maxX ln.b.X) rest

/-- One iteration of the counting loop of `isPointInsideOrOnRing`. Modelled from the
spec: the intersection of two lines is declared outside the given sources for this
file; it is "empty", "point(p)" or "overlap(p,q)" as `intersectLine` computes it, of
dimension 1 when the two points differ. -/
def countSegment (pt : XY) (ray : line) (count : Nat) (seg : line) : Nat :=
  let inter := seg.intersectLine ray
  if inter.empty then count
  else if inter.ptA ≠ inter.ptB then count
  else if inter.ptA = seg.a ∨ inter.ptA = seg.b then
    let otherY := if inter.ptA = seg.a then seg.b.Y else seg.a.Y
    if otherY < pt.Y then count + 1 else count
  else count + 1

/-- The function `isPointInsideOrOnRing`, over the lines of the ring; `none` is a
panic (`lines[0]` of a ring without lines, or a ray without length). -/
def isPointInsideOrOnRing (pt : XY) (lines : List line) : Option Bool := do
  let first ← lines.head?
  match findMaxX pt first.a.X lines with
  | none => pure true
  | some maxX =>
    if pt.X > maxX then pure false
    else
      let far : XY := ⟨maxX + 1, pt.Y⟩
      if pt = far then none
      else
        let ray : line := ⟨pt, far⟩
        pure (decide ((lines.foldl (countSegment pt ray) 0) % 2 = 1))

/-- The ring of scenario S5. -/
def squareTen : List XY := [⟨0, 0⟩, ⟨10, 0⟩, ⟨10, 10⟩, ⟨0, 10⟩, ⟨0, 0⟩]

/-- The parameter at which the line through the end points of `s` has height `y`. -/
def heightParam (s : line) (y : ℚ) : ℚ := (y - s.a.Y) / (s.b.Y - s.a.Y)

/-- Specification of the crossing count: the segment `s` is counted for the point
`c` when one of its ends is strictly below the horizontal line through `c`, the
other on or above it, and its point on that line is to the right of `c`. -/
def crossesRay (c : XY) (s : line) : Bool :=
  decide (min s.a.Y s.b.Y < c.Y ∧ c.Y ≤ max s.a.Y s.b.Y ∧
    c.X < (pointAt s.a s.b (heightParam s c.Y)).X)

/-! ## `forEachEdge`, `reNodeGraph` and `overlay` -/

/-- The loop `forEachEdge(start, fn)`: `fn` at `start`, then at its `next`, until
`next` is `start` again; the state `s` holds what `fn` reads and writes, `next`
reads the field `next` in it. With fuel for the number of iterations; `none` is a
panic (or no fuel). -/
def forEachEdge {σ : Type} (next : σ → Nat → Option Nat) (fn : σ → Nat → Option σ)
    (start : Nat) : Nat → σ → Nat → Option σ
  | 0, _, _ => none
  | fuel + 1, s, e => do
    let s1 ← fn s e
    let n ← next s1 e
    if n = start then pure s1 else forEachEdge next fn start fuel s1 n

/-- The loops over the components of faces: for each face of the list, `fn` at
its outer component if it is not nil, then at each of its inner components. -/
def forEachComponent {σ : Type} (faceRec : σ → Nat → Option faceRecord)
    (fn : σ → Nat → Option σ) (faces : List Nat) (s : σ) : Option σ :=
  faces.foldlM (fun s face => do
    let fr ← faceRec s face
    let s1 ← match fr.outerComponent with
      | some cmp => fn s cmp
      | none => pure s
    fr.innerComponents.foldlM fn s1) s

/-- Modelled from the spec: `Polygon.Boundary().asLines()` is declared outside the
given sources; the "boundary segments" of the polygon are the lines of its rings. -/
def Polygon.boundaryLines (poly : Polygon) : List line :=
  (poly.exterior :: poly.interiors).flatMap ringLines

/-- The method `reNodeGraph(other)`: `reNodeFace` for each face of `d.faces`. -/
def reNodeGraph (fuel : Nat) (h : Heap) (d : doublyConnectedEdgeList) (other : Polygon) :
    Option (Heap × doublyConnectedEdgeList) :=
  forEachComponent (fun s face => s.1.faceRecords[face]?)
    (fun s cmp => reNodeComponent (rangeSearch other.boundaryLines) fuel s.1 s.2 cmp)
    d.faces (h, d)

/-- The callback of `overlayVerticesInComponent`. -/
def overlayVertexStep (s : Heap × List (XY × Nat)) (e : Nat) :
    Option (Heap × List (XY × Nat)) := do
  let o ← s.1.originOf e
  let r ← s.1.vertexRecords[o]?
  match s.2.lookup r.coords with
  | some existing => do
    let h ← s.1.setOrigin e (some existing)
    pure (h, s.2)
  | none => pure (s.1, s.2 ++ [(r.coords, o)])

/-- The method `overlayVertices(other)`, on the heap and the vertex map of `d`. -/
def overlayVertices (fuel : Nat) (h : Heap) (vertices : List (XY × Nat))
    (other : doublyConnectedEdgeList) : Option (Heap × List (XY × Nat)) :=
  forEachComponent (fun s face => s.1.faceRecords[face]?)
    (fun s cmp => forEachEdge (fun t e => t.1.nextOf e) overlayVertexStep cmp fuel s cmp)
    other.faces (h, vertices)

/-- The method `overlayEdges(other)`, on the half-edge list of `d`. -/
def overlayEdges (fuel : Nat) (h : Heap) (halfEdges : List Nat)
    (other : doublyConnectedEdgeList) : Option (List Nat) :=
  forEachComponent (fun _ face => h.faceRecords[face]?)
    (fun s cmp => forEachEdge (fun _ e => h.nextOf e) (fun t e => some (t ++ [e])) cmp fuel s cmp)
    other.faces halfEdges

/-- Modelled from the spec: the class of the angle `math.Atan2(d.Y, d.X)` in
`(−π, π]`: 0 below the X axis, 1 on its positive half (and at the zero vector), 2
above it, 3 on its negative half. -/
def angleClass (d : XY) : Nat :=
  if d.Y = 0 then (if d.X < 0 then 3 else 1) else if d.Y < 0 then 0 else 2

/-- Modelled from the spec: the comparison `aI < aJ` of the angles of two direction
vectors, without trigonometry: "sort by quadrant first and then by a cross-product
comparator"; "both define the same total order". -/
def angleLess (di dj : XY) : Bool :=
  decide (angleClass di < angleClass dj ∨
    (angleClass di = angleClass dj ∧ 0 < di.X * dj.Y - di.Y * dj.X))

/-- The radial sort of `fixVertex`, by the angle of the direction of each edge. A
half-edge without a direction (a nil pointer on the way to `twin.origin.coords`) is
given the zero vector. -/
def radialSort (h : Heap) (incident : List Nat) : List Nat :=
  incident.insertionSort (fun ei ej =>
    angleLess ((direction h ej).getD XY.zero) ((direction h ei).getD XY.zero) = false)

/-! ## `reAssignFaces` -/

/-- The function `edgeLoopLeftmostLowest`. -/
def edgeLoopLeftmostLowest (fuel : Nat) (h : Heap) (start : Nat) : Option Nat :=
  (forEachEdge (fun _ e => h.nextOf e)
    (fun (best : Option Nat) e => match best with
      | none => some (some e)
      | some b => do
        let ce ← h.originCoords e
        let cb ← h.originCoords b
        pure (if ce.Less cb then some e else some b))
    start fuel none start).join

/-- The function `edgeLoopIsOuterComponent`. -/
def edgeLoopIsOuterComponent (h : Heap) (leftmostLowest : Nat) : Option Bool := do
  let p ← h.prevOf leftmostLowest
  let prev ← h.originCoords p
  let here ← h.originCoords leftmostLowest
  let n ← h.nextOf leftmostLowest
  let next ← h.originCoords n
  pure (decide (orientation prev here next = leftTurn))

/-- The function `signedHorizontalDistanceBetweenXYAndLine`, in exact arithmetic. -/
def signedHorizontalDistanceBetweenXYAndLine (xy : XY) (ln : line) : ℚ :=
  if ln.b.Y = ln.a.Y then xy.X - max ln.a.X ln.b.X
  else
    let rat := (xy.Y - ln.a.Y) / (ln.b.Y - ln.a.Y)
    let x := (1 - rat) * ln.a.X + rat * ln.b.X
    xy.X - x

/-- One iteration of the loop of `findNextDownEdgeToTheLeft`; the state is
`bestEdge` and `bestDist`. -/
def nextDownStep (h : Heap) (edge : Nat) (s : Option Nat × ℚ) (e : Nat) :
    Option (Option Nat × ℚ) := do
  let origin ← h.originCoords e
  let n ← h.nextOf e
  let destin ← h.originCoords n
  let pt ← h.originCoords edge
  if ¬ (destin.Y ≤ pt.Y ∧ pt.Y ≤ origin.Y) then pure s
  else
    let dist := signedHorizontalDistanceBetweenXYAndLine pt ⟨origin, destin⟩
    if dist ≤ 0 then pure s
    else if s.1 = none ∨ dist < s.2 then pure (some e, dist)
    else pure s

/-- The method `findNextDownEdgeToTheLeft`; the inner option is the pointer
returned (`none` is nil), the outer one a panic. -/
def findNextDownEdgeToTheLeft (h : Heap) (d : doublyConnectedEdgeList) (edge : Nat) :
    Option (Option Nat) :=
  (d.halfEdges.foldlM (nextDownStep h edge) (none, 0)).map Prod.fst

/-- The state of the first loop of `reAssignFaces`. -/
structure CycleScan where
  seen : List Nat
  innerComponents : List Nat
  outerComponents : List Nat
deriving DecidableEq

/-- One iteration of the loop "Find all boundary cycles". -/
def scanCycle (fuel : Nat) (h : Heap) (s : CycleScan) (e : Nat) : Option CycleScan :=
  if e ∈ s.seen then pure s
  else do
    let leftmostLowest ← edgeLoopLeftmostLowest fuel h e
    let isOuter ← edgeLoopIsOuterComponent h leftmostLowest
    let seen ← forEachEdge (fun _ x => h.nextOf x) (fun seen x => some (x :: seen)) e fuel
      s.seen e
    pure (if isOuter then ⟨seen, s.innerComponents, s.outerComponents ++ [leftmostLowest]⟩
      else ⟨seen, s.innerComponents ++ [leftmostLowest], s.outerComponents⟩)

/-- The index search of `disjointEdgeSet.union`: the index of the set that holds
`e`; a panic when `e` is found twice or not at all. -/
def findSetIndex (sets : List (List (Option Nat))) (e : Option Nat) : Option Nat :=
  match sets.enum.flatMap (fun p => (p.2.filter (fun x => decide (x = e))).map (fun _ => p.1)) with
  | [i] => some i
  | _ => none

/-- The swap `sets[i], sets[j] = sets[j], sets[i]`. -/
def swapSets (sets : List (List (Option Nat))) (i j : Nat) : Option (List (List (Option Nat))) := do
  let a ← sets[i]?
  let b ← sets[j]?
  pure ((sets.set i b).set j a)

/-- The method `disjointEdgeSet.union`. -/
def disjointEdgeSet.union (sets : List (List (Option Nat))) (e1 e2 : Option Nat) :
    Option (List (List (Option Nat))) := do
  let idx1 ← findSetIndex sets e1
  let idx2 ← findSetIndex sets e2
  if idx1 = idx2 then none
  else do
    let set1 ← sets[idx1]?
    let set2 ← sets[idx2]?
    let n := sets.length
    let sets1 ← swapSets sets idx1 (n - 1)
    let idx2 := if idx2 = n - 1 then idx1 else idx2
    let sets2 ← swapSets sets1 idx2 (n - 2)
    pure (sets2.take (n - 2) ++ [set1 ++ set2])

/-- One iteration of the loop over `innerComponents` that unions each inner
component with the cycle to its left, or with nil. -/
def unionInner (fuel : Nat) (h : Heap) (d : doublyConnectedEdgeList)
    (sets : List (List (Option Nat))) (leftmostLowest : Nat) :
    Option (List (List (Option Nat))) := do
  let nextLeft ← findNextDownEdgeToTheLeft h d leftmostLowest
  let nextLeft ← match nextLeft with
    | some e => (edgeLoopLeftmostLowest fuel h e).map some
    | none => pure none
  disjointEdgeSet.union sets (some leftmostLowest) nextLeft

/-- The write of `f.outerComponent`, with the panic "double outer component". -/
def setOuterComponent (h : Heap) (f : Nat) (e : Option Nat) : Option Heap := do
  let fr ← h.faceRecords[f]?
  if fr.outerComponent ≠ none then none
  else h.updFace f (fun r => { r with outerComponent := e })

/-- The body of the loop over the elements of one set in "Construct new faces". -/
def assignComponent (fuel : Nat) (f : Nat) (h : Heap) (e : Option Nat) : Option Heap :=
  match e with
  | none => setOuterComponent h f none
  | some x => do
    let isOuter ← edgeLoopIsOuterComponent h x
    let h1 ← if isOuter then setOuterComponent h f (some x)
      else h.updFace f (fun r => { r with innerComponents := r.innerComponents ++ [x] })
    forEachEdge (fun t y => t.nextOf y) (fun t y => t.setIncident y (some f)) x fuel h1 x

/-- The body of the loop over the sets in "Construct new faces". -/
def constructFace (fuel : Nat) (s : Heap × List Nat) (set : List (Option Nat)) :
    Option (Heap × List Nat) := do
  let hf := s.1.allocFace ⟨none, [], false, false⟩
  let h2 ← set.foldlM (assignComponent fuel hf.2) hf.1
  pure (h2, s.2 ++ [hf.2])

/-- The sets of the graph before the unions: the inner components, the outer
components, and nil. -/
def initialSets (s : CycleScan) : List (List (Option Nat)) :=
  s.innerComponents.map (fun e => [some e]) ++ s.outerComponents.map (fun e => [some e]) ++
    [[none]]

/-- The method `reAssignFaces`. -/
def reAssignFaces (fuel : Nat) (h : Heap) (d : doublyConnectedEdgeList) :
    Option (Heap × doublyConnectedEdgeList) := do
  let scan ← d.halfEdges.foldlM (scanCycle fuel h) ⟨[], [], []⟩
  let sets ← scan.innerComponents.foldlM (unionInner fuel h d) (initialSets scan)
  let r ← sets.foldlM (constructFace fuel) (h, [])
  pure (r.1, { d with faces := r.2 })

/-- The method `overlay(other)`; the keys of `d.vertices` are visited in the order
of the list. -/
def overlay (fuel : Nat) (h : Heap) (d other : doublyConnectedEdgeList) :
    Option (Heap × doublyConnectedEdgeList) := do
  let hv ← overlayVertices fuel h d.vertices other
  let halfEdges ← overlayEdges fuel hv.1 d.halfEdges other
  let d1 : doublyConnectedEdgeList := { d with halfEdges := halfEdges, vertices := hv.2 }
  let h2 ← fixVertices radialSort (d1.vertices.map Prod.fst) hv.1 d1
  reAssignFaces fuel h2 d1

/-- Modelled from the spec: the caller of the overlay is declared outside the given
sources; "build both DCELs, re-node each against the other polygon, overlay". -/
def overlayPolygons (fuel : Nat) (polyA polyB : Polygon) :
    Option (Heap × doublyConnectedEdgeList) := do
  let a ← newDCELFromPolygon Heap.empty polyA true
  let b ← newDCELFromPolygon a.1 polyB false
  let a2 ← reNodeGraph fuel b.1 a.2 polyB
  let b2 ← reNodeGraph fuel a2.1 b.2 polyA
  overlay fuel b2.1 a2.2 b2.2

/-- The origins along the cycle of `next` from `start`. -/
def cycleCoords (fuel : Nat) (h : Heap) (start : Nat) : Option (List XY) :=
  forEachEdge (fun _ e => h.nextOf e)
    (fun cs e => (h.originCoords e).map (fun c => cs ++ [c])) start fuel [] start

/-- What a face is, for reading off a result: the origins along the cycle of its
outer component (if it has one), those along the cycles of its inner components,
and its two labels. -/
structure FaceSummary where
  outer : Option (List XY)
  inners : List (List XY)
  labelA : Bool
  labelB : Bool
deriving DecidableEq

/-- The summary of the face `f`. -/
def faceSummary (fuel : Nat) (h : Heap) (f : Nat) : Option FaceSummary := do
  let fr ← h.faceRecords[f]?
  let outer ← match fr.outerComponent with
    | some e => (cycleCoords fuel h e).map some
    | none => pure none
  let inners ← fr.innerComponents.mapM (cycleCoords fuel h)
  pure ⟨outer, inners, fr.labelA, fr.labelB⟩

/-- The summaries of the faces of `d.faces`, in order. -/
def faceSummaries (fuel : Nat) (s : Heap × doublyConnectedEdgeList) : Option (List FaceSummary) :=
  s.2.faces.mapM (faceSummary fuel s.1)

/-- A square with sides parallel to the axes, as a polygon without holes. -/
def squarePolygon (x0 y0 x1 y1 : ℚ) : Polygon :=
  ⟨[⟨x0, y0⟩, ⟨x1, y0⟩, ⟨x1, y1⟩, ⟨x0, y1⟩, ⟨x0, y0⟩], []⟩

/-- The half-edges `forEachEdge` visits from the half-edge `e` on until `next` is
`start`, in order. -/
def edgeLoop (h : Heap) (start : Nat) : Nat → Nat → Option (List Nat)
  | 0, _ => none
  | fuel + 1, e => do
    let n ← h.nextOf e
    if n = start then pure [e] else (edgeLoop h start fuel n).map (fun l => e :: l)

/-- The field `next` as a total function (a nil `next` is read as the half-edge
itself). -/
def Heap.nextD (h : Heap) (e : Nat) : Nat := (h.nextOf e).getD e

/-- From `e`, `k` steps of `next` lead to `s` for the first time, and no `next` on
the way is nil. -/
structure ReachesIn (h : Heap) (s e k : Nat) : Prop where
  pos : 0 < k
  defined : ∀ i, i < k → h.nextOf (h.nextD^[i] e) = some (h.nextD^[i + 1] e)
  back : h.nextD^[k] e = s
  first : ∀ i, 0 < i → i < k → h.nextD^[i] e ≠ s

/-- The heap `g` differs from `h` at most in the field `incident` of half-edges and
in the face records. -/
structure FaceFrame (h g : Heap) : Prop where
  vertexRecords : g.vertexRecords = h.vertexRecords
  nextOf : ∀ x, g.nextOf x = h.nextOf x
  prevOf : ∀ x, g.prevOf x = h.prevOf x
  originOf : ∀ x, g.originOf x = h.originOf x
  twinOf : ∀ x, g.twinOf x = h.twinOf x

/-- The loops of half-edges that are in different sets have no half-edge in common. -/
def LoopsDisjoint (h0 : Heap) (fuel : Nat) (sets : List (List (Option Nat))) : Prop :=
  ∀ (i j : Nat) (s1 s2 : List (Option Nat)) (x1 x2 : Nat) (L1 L2 : List Nat) (y : Nat),
    sets[i]? = some s1 → sets[j]? = some s2 → some x1 ∈ s1 → some x2 ∈ s2 →
    edgeLoop h0 x1 fuel x1 = some L1 → edgeLoop h0 x2 fuel x2 = some L2 →
    y ∈ L1 → y ∈ L2 → i = j

/-- The face `f` has been constructed from the set `set`: both labels are false,
its components are the half-edges of the set, the outer one with
`edgeLoopIsOuterComponent` true and the inner ones with it false (read in the heap
`h0` before the construction), and, where `D` holds, `f` is the incident face of
every half-edge on the loops of its components. -/
structure FaceOf (D : Prop) (h0 : Heap) (fuel : Nat) (g : Heap) (set : List (Option Nat))
    (f : Nat) (fr : faceRecord) : Prop where
  record : g.faceRecords[f]? = some fr
  labelA : fr.labelA = false
  labelB : fr.labelB = false
  components : ∀ x, (fr.outerComponent = some x ∨ x ∈ fr.innerComponents) ↔ some x ∈ set
  outer : ∀ x, fr.outerComponent = some x → edgeLoopIsOuterComponent h0 x = some true
  inner : ∀ x ∈ fr.innerComponents, edgeLoopIsOuterComponent h0 x = some false
  incident : ∀ x, some x ∈ set → ∃ L, edgeLoop h0 x fuel x = some L ∧
    (D → ∀ y ∈ L, g.incidentOf y = some f)

/-- The faces constructed so far, one for each set, in order. -/
structure Built (D : Prop) (h0 : Heap) (fuel : Nat) (g : Heap)
    (sets : List (List (Option Nat))) (faces : List Nat) : Prop where
  length : faces.length = sets.length
  nodup : faces.Nodup
  face : ∀ (i : Nat) (set : List (Option Nat)), sets[i]? = some set →
    ∃ f fr, faces[i]? = some f ∧ FaceOf D h0 fuel g set f fr

/-- The origin of the half-edge `b` is not after that of `y` in the order "leftmost,
then lowest" (or `y` is `b` itself). -/
def NotBelow (h : Heap) (b y : Nat) : Prop :=
  y = b ∨ ∃ cy cb, h.originCoords y = some cy ∧ h.originCoords b = some cb ∧ LexLE cb cy

/-- The loops of two half-edges (where the pointers are not nil) have no half-edge
in common. -/
def Apart (h : Heap) (fuel : Nat) (a b : Option Nat) : Prop :=
  ∀ (x1 x2 : Nat) (L1 L2 : List Nat) (y : Nat), a = some x1 → b = some x2 →
    edgeLoop h x1 fuel x1 = some L1 → edgeLoop h x2 fuel x2 = some L2 → y ∈ L1 → y ∉ L2

/-- What holds of the state of the loop "Find all boundary cycles": every half-edge
seen is on the loop of a component found, the loops of the components found are
seen, no two of them have a half-edge in common, and each component is the
leftmost, then lowest half-edge of its loop. -/
structure ScanInv (h : Heap) (fuel : Nat) (s : CycleScan) : Prop where
  covered : ∀ y ∈ s.seen, ∃ x ∈ s.innerComponents ++ s.outerComponents,
    ∃ L, edgeLoop h x fuel x = some L ∧ y ∈ L
  closed : ∀ x ∈ s.innerComponents ++ s.outerComponents, ∀ L,
    edgeLoop h x fuel x = some L → ∀ y ∈ L, y ∈ s.seen
  apart : ((s.innerComponents ++ s.outerComponents).map some).Pairwise (Apart h fuel)
  lowest : ∀ x ∈ s.innerComponents ++ s.outerComponents,
    edgeLoopLeftmostLowest fuel h x = some x

/-- The half-edge `e` passes the two tests of `findNextDownEdgeToTheLeft` for the
point `pt`: it goes down or level across the height of `pt`
(`destin.Y ≤ pt.Y ≤ origin.Y`), and its signed horizontal distance `dist` from `pt`
is positive. -/
def DownCandidate (h : Heap) (pt : XY) (e : Nat) (dist : ℚ) : Prop :=
  ∃ o n dst, h.originCoords e = some o ∧ h.nextOf e = some n ∧ h.originCoords n = some dst ∧
    dst.Y ≤ pt.Y ∧ pt.Y ≤ o.Y ∧
    dist = signedHorizontalDistanceBetweenXYAndLine pt ⟨o, dst⟩ ∧ 0 < dist

/-- The y-range of the half-edge `e`, end points included, contains the height of
`pt`, and its signed horizontal distance `dist` from `pt` is positive. -/
def SpanCandidate (h : Heap) (pt : XY) (e : Nat) (dist : ℚ) : Prop :=
  ∃ o n dst, h.originCoords e = some o ∧ h.nextOf e = some n ∧ h.originCoords n = some dst ∧
    min o.Y dst.Y ≤ pt.Y ∧ pt.Y ≤ max o.Y dst.Y ∧
    dist = signedHorizontalDistanceBetweenXYAndLine pt ⟨o, dst⟩ ∧ 0 < dist

/-- The y-range of the half-edge `e` strictly contains the height of `pt`, and its
signed horizontal distance `dist` from `pt` is positive. -/
def StrictCandidate (h : Heap) (pt : XY) (e : Nat) (dist : ℚ) : Prop :=
  ∃ o n dst, h.originCoords e = some o ∧ h.nextOf e = some n ∧ h.originCoords n = some dst ∧
    min o.Y dst.Y < pt.Y ∧ pt.Y < max o.Y dst.Y ∧
    dist = signedHorizontalDistanceBetweenXYAndLine pt ⟨o, dst⟩ ∧ 0 < dist

/-- The half-edge `e` is level at the height of `pt` (`origin.Y = destin.Y = pt.Y`)
and its signed horizontal distance from `pt` is positive. -/
def LevelCandidate (h : Heap) (pt : XY) (e : Nat) : Prop :=
  ∃ o n dst, h.originCoords e = some o ∧ h.nextOf e = some n ∧ h.originCoords n = some dst ∧
    o.Y = pt.Y ∧ dst.Y = pt.Y ∧ 0 < signedHorizontalDistanceBetweenXYAndLine pt ⟨o, dst⟩

/-- The half-edge `e` is not level, its y-range, end points included, contains the
height of `pt`, and its signed horizontal distance `dist` from `pt` is positive. -/
def SlopeCandidate (h : Heap) (pt : XY) (e : Nat) (dist : ℚ) : Prop :=
  ∃ o n dst, h.originCoords e = some o ∧ h.nextOf e = some n ∧ h.originCoords n = some dst ∧
    o.Y ≠ dst.Y ∧ min o.Y dst.Y ≤ pt.Y ∧ pt.Y ≤ max o.Y dst.Y ∧
    dist = signedHorizontalDistanceBetweenXYAndLine pt ⟨o, dst⟩ ∧ 0 < dist

/-- The half-edge list holds, for each half-edge, one that runs the other way
between the same two points (as the twin does under the pointer laws). -/
def TwinsListed (h : Heap) (d : doublyConnectedEdgeList) : Prop :=
  ∀ e ∈ d.halfEdges, ∀ o n dst, h.originCoords e = some o → h.nextOf e = some n →
    h.originCoords n = some dst →
    ∃ t ∈ d.halfEdges, ∃ nt, h.originCoords t = some dst ∧ h.nextOf t = some nt ∧
      h.originCoords nt = some o

/-- What holds of `bestEdge` and `bestDist` after the half-edges of `P`. -/
def BestOf (h : Heap) (pt : XY) (P : List Nat) (s : Option Nat × ℚ) : Prop :=
  (s.1 = none → ∀ e ∈ P, ∀ dist, ¬ DownCandidate h pt e dist) ∧
  (∀ b, s.1 = some b → b ∈ P ∧ DownCandidate h pt b s.2 ∧
    ∀ e ∈ P, ∀ dist, DownCandidate h pt e dist → s.2 ≤ dist)

/-- What holds during `overlayVertices`, run from the heap `h0` and the vertex map
`vs0`, once the half-edges of `V` have been visited: only origins have changed, and
no coordinates of an origin; the map points at records with the key's coordinates;
the entries of `vs0` are kept; a new entry holds the origin a visited half-edge had
in `h0`; the origin of a visited half-edge is what the map holds at its coordinates;
the half-edges not visited have their origin of `h0`. -/
structure MergeInv (h0 : Heap) (vs0 : List (XY × Nat)) (V : List Nat)
    (s : Heap × List (XY × Nat)) : Prop where
  vertexRecords : s.1.vertexRecords = h0.vertexRecords
  faceRecords : s.1.faceRecords = h0.faceRecords
  nextOf : ∀ x, s.1.nextOf x = h0.nextOf x
  coords : ∀ x, s.1.originCoords x = h0.originCoords x
  vmap : VMapOK s.1 s.2
  mono : ∀ xy v, vs0.lookup xy = some v → s.2.lookup xy = some v
  fresh : ∀ xy v, s.2.lookup xy = some v → vs0.lookup xy = some v ∨
    (vs0.lookup xy = none ∧ ∃ e ∈ V, h0.originOf e = some v ∧ h0.originCoords e = some xy)
  done : ∀ e ∈ V, ∃ o r, s.1.originOf e = some o ∧ s.1.vertexRecords[o]? = some r ∧
    s.2.lookup r.coords = some o
  rest : ∀ e, e ∉ V → s.1.originOf e = h0.originOf e

/-- The half-edge `e` is on the cycle of a component of one of the faces. -/
def OnComponent (h0 : Heap) (fuel : Nat) (faces : List Nat) (e : Nat) : Prop :=
  ∃ face ∈ faces, ∃ fr, h0.faceRecords[face]? = some fr ∧
    ∃ c, (fr.outerComponent = some c ∨ c ∈ fr.innerComponents) ∧
      ∃ L, edgeLoop h0 c fuel c = some L ∧ e ∈ L

/-- A check of `VMapOK` that can be evaluated. -/
def vmapCheck (h : Heap) (m : List (XY × Nat)) : Bool :=
  m.all (fun p => match m.lookup p.1 with
    | some v => (match h.vertexRecords[v]? with
      | some r => decide (r.coords = p.1)
      | none => false)
    | none => true)

/-! ## `twkb_write.go` -/

/-- Modelled from the spec: `CoordinatesType` is declared outside the given sources;
the four kinds of coordinates the writer switches on. `DimXY` is the zero value. -/
inductive CoordinatesType where
  | DimXY
  | DimXYZ
  | DimXYM
  | DimXYZM
deriving DecidableEq

/-- Modelled from the spec: the geometry value types are "external collaborators,
referenced only through their interfaces"; a `Point` is what the writer reads of it:
`CoordinatesType()`, `IsEmpty()` and the fields of `coords`. The coordinates are
finite `float64` values, given as rationals. -/
structure Point where
  ctype : CoordinatesType
  isEmpty : Bool
  X : ℚ
  Y : ℚ
  Z : ℚ
  M : ℚ
deriving DecidableEq

/-- Modelled from the spec: a `LineString` is what the writer reads of it:
`CoordinatesType()`, `IsEmpty()`, and of `Coordinates()` the `Length()` and the
slice `floats`. -/
structure LineString where
  ctype : CoordinatesType
  isEmpty : Bool
  numPoints : Nat
  floats : List ℚ
deriving DecidableEq

/-- Modelled from the spec: a polygon value as the writer reads it:
`CoordinatesType()`, `IsEmpty()`, `NumRings()`, `ExteriorRing()`, and the rings
`InteriorRingN(i)` for `i < NumInteriorRings()`. (The name `Polygon` is taken by the
polygon of the DCEL construction.) -/
structure PolygonValue where
  ctype : CoordinatesType
  isEmpty : Bool
  numRings : Nat
  exteriorRing : LineString
  interiorRings : List LineString
deriving DecidableEq

/-- Modelled from the spec: a `MultiPoint` as the writer reads it; `points` are the
`PointN(i)` for `i < NumPoints()`. -/
structure MultiPoint where
  ctype : CoordinatesType
  isEmpty : Bool
  points : List Point
deriving DecidableEq

/-- Modelled from the spec: a `MultiLineString` as the writer reads it. -/
structure MultiLineString where
  ctype : CoordinatesType
  isEmpty : Bool
  lineStrings : List LineString
deriving DecidableEq

/-- Modelled from the spec: a `MultiPolygon` as the writer reads it. -/
structure MultiPolygon where
  ctype : CoordinatesType
  isEmpty : Bool
  polygons : List PolygonValue
deriving DecidableEq

/-- Modelled from the spec: a `Geometry` is one of the seven geometry types (the
switch on `geom.gtype`); a geometry collection is given by what the writer reads of
it: `CoordinatesType()`, `IsEmpty()`, and the `GeometryN(i)` for
`i < NumGeometries()`. -/
inductive Geometry where
  | point (pt : Point)
  | lineString (ls : LineString)
  | polygon (poly : PolygonValue)
  | multiPoint (mp : MultiPoint)
  | multiLineString (ml : MultiLineString)
  | multiPolygon (mp : MultiPolygon)
  | geometryCollection (ctype : CoordinatesType) (isEmpty : Bool) (geoms : List Geometry)

/-- Modelled from the spec: the constant is declared outside the given sources; the
dimensions X, Y, Z, M. -/
def twkbMaxDimensions : Nat := 4

/-- Modelled from the spec: the geometry type codes of the TWKB format, declared
outside the given sources. -/
def twkbTypePoint : Nat := 1

/-- Modelled from the spec: see `twkbTypePoint`. -/
def twkbTypeLineString : Nat := 2

/-- Modelled from the spec: see `twkbTypePoint`. -/
def twkbTypePolygon : Nat := 3

/-- Modelled from the spec: see `twkbTypePoint`. -/
def twkbTypeMultiPoint : Nat := 4

/-- Modelled from the spec: see `twkbTypePoint`. -/
def twkbTypeMultiLineString : Nat := 5

/-- Modelled from the spec: see `twkbTypePoint`. -/
def twkbTypeMultiPolygon : Nat := 6

/-- Modelled from the spec: see `twkbTypePoint`. -/
def twkbTypeGeometryCollection : Nat := 7

/-- Modelled from the spec: the bits of the metadata header of the TWKB format,
declared outside the given sources. -/
def twkbHasBBox : Nat := 1

/-- Modelled from the spec: see `twkbHasBBox`. -/
def twkbHasSize : Nat := 2

/-- Modelled from the spec: see `twkbHasBBox`. -/
def twkbHasIDs : Nat := 4

/-- Modelled from the spec: see `twkbHasBBox`. -/
def twkbHasExtPrec : Nat := 8

/-- Modelled from the spec: see `twkbHasBBox`. -/
def twkbIsEmpty : Nat := 16

/-- The conversion to `int32`: the value modulo 2^32, in the signed range. -/
def wrapInt32 (x : Int) : Int := (x + 2 ^ 31) % 2 ^ 32 - 2 ^ 31

/-- The conversion to `int64`: the value modulo 2^64, in the signed range. -/
def wrapInt64 (x : Int) : Int := (x + 2 ^ 63) % 2 ^ 64 - 2 ^ 63

/-- Modelled from the spec: `EncodeZigZagInt32` is declared outside the given
sources; the zigzag code of the TWKB format, `(n << 1) ^ (n >> 31)` on 32 bits. -/
def EncodeZigZagInt32 (n : Int) : Nat :=
  (if 0 ≤ n then 2 * n else -2 * n - 1).toNat % 2 ^ 32

/-- The loop of `binary.PutUvarint`: seven bits at a time, least significant first,
the high bit set on every byte but the last. The fuel covers the ten bytes of a
`uint64`. -/
def putUvarintLoop : Nat → Nat → List Nat
  | 0, x => [x % 256]
  | fuel + 1, x => if x < 128 then [x] else (x % 128 + 128) :: putUvarintLoop fuel (x / 128)

/-- The bytes `binary.PutUvarint` writes for `uint64(x)`. -/
def PutUvarint (x : Nat) : List Nat := putUvarintLoop 10 (x % 2 ^ 64)

/-- The bytes `binary.PutVarint` writes for `int64(x)`: the zigzag code of the value
as an unsigned varint. -/
def PutVarint (x : Int) : List Nat :=
  PutUvarint ((if 0 ≤ wrapInt64 x then 2 * wrapInt64 x else -2 * wrapInt64 x - 1).toNat)

/-- The value `binary.Uvarint` reads back from the bytes of one varint. -/
def uvarintValue : List Nat → Nat
  | [] => 0
  | b :: rest => b % 128 + 128 * uvarintValue rest

/-- The struct `twkbWriter`; bytes are numbers below 256, the arrays of length
`twkbMaxDimensions` are lists. -/
structure twkbWriter where
  twkbHeaders : List Nat
  twkbBBox : List Nat
  twkbContents : List Nat
  kind : Nat
  ctype : CoordinatesType
  dimensions : Nat
  precXY : Int
  hasZ : Bool
  hasM : Bool
  precZ : Int
  precM : Int
  scalings : List float64
  hasBBox : Bool
  hasSize : Bool
  hasIDs : Bool
  hasExt : Bool
  isEmpty : Bool
  refpoint : List Int
  bboxValid : Bool
  bboxMin : List Int
  bboxMax : List Int
  idList : List Int
  closeRings : Bool
deriving DecidableEq

/-- The function `math.Pow10` of the Go standard library: the product of two table
entries for `0 ≤ n ≤ 308` (`pow10postab32[n/32] * pow10tab[n%32]`), the quotient of
two for `-323 ≤ n ≤ 0` (`pow10negtab32[-n/32] / pow10tab[-n%32]`), `+Inf` above and
0 below; a table entry is the `float64` nearest to its power of ten. -/
def pow10 (n : Int) : float64 :=
  if 0 ≤ n ∧ n ≤ 308 then
    (roundToFloat64 ((10 ^ (32 * (n.toNat / 32)) : Nat) : ℚ)).mul
      (roundToFloat64 ((10 ^ (n.toNat % 32) : Nat) : ℚ))
  else if -323 ≤ n ∧ n ≤ 0 then
    (roundToFloat64 (1 / ((10 ^ (32 * ((-n).toNat / 32)) : Nat) : ℚ))).div
      (roundToFloat64 ((10 ^ ((-n).toNat % 32) : Nat) : ℚ))
  else if 0 < n then float64.inf false
  else float64.finite 0

/-- The function `newtwkbWriter`. -/
def newtwkbWriter (hasZ hasM : Bool) (precXY precZ precM : Int)
    (hasSize hasBBox closeRings : Bool) (idList : List Int) : twkbWriter :=
  let w0 : twkbWriter :=
    { twkbHeaders := [], twkbBBox := [], twkbContents := [], kind := 0,
      ctype := CoordinatesType.DimXY, dimensions := 0, precXY := 0, hasZ := false,
      hasM := false, precZ := 0, precM := 0,
      scalings := [float64.finite 0, float64.finite 0, float64.finite 0, float64.finite 0],
      hasBBox := hasBBox, hasSize := hasSize, hasIDs := false, hasExt := false,
      isEmpty := false, refpoint := [0, 0, 0, 0], bboxValid := false,
      bboxMin := [0, 0, 0, 0], bboxMax := [0, 0, 0, 0], idList := [],
      closeRings := closeRings }
  let w1 := { w0 with
    precXY := precXY,
    scalings := (w0.scalings.set 0 (pow10 precXY)).set 1 (pow10 precXY),
    dimensions := 2 }
  let w2 := if hasZ then { w1 with
      hasZ := true,
      precZ := precZ,
      scalings := w1.scalings.set w1.dimensions (pow10 precZ),
      dimensions := w1.dimensions + 1 }
    else w1
  let w3 := if hasM then { w2 with
      hasM := true,
      precM := precM,
      scalings := w2.scalings.set w2.dimensions (pow10 precM),
      dimensions := w2.dimensions + 1 }
    else w2
  let w4 := { w3 with
    ctype := if hasZ && hasM then CoordinatesType.DimXYZM
      else if hasZ then CoordinatesType.DimXYZ
      else if hasM then CoordinatesType.DimXYM
      else CoordinatesType.DimXY,
    hasExt := hasZ || hasM }
  if idList.length > 0 then { w4 with hasIDs := true, idList := idList } else w4

/-- The function `copytwkbWriter`. -/
def copytwkbWriter (other : twkbWriter) : twkbWriter :=
  newtwkbWriter other.hasZ other.hasM other.precXY other.precZ other.precM other.hasSize
    false other.closeRings []

/-- The method `formTWKB`. -/
def formTWKB (w : twkbWriter) : List Nat :=
  w.twkbHeaders ++ w.twkbBBox ++ w.twkbContents

/-- The method `writeHeaderByte`. -/
def writeHeaderByte (w : twkbWriter) (b : Nat) : twkbWriter :=
  { w with twkbHeaders := w.twkbHeaders ++ [b] }

/-- The method `writeTypeAndPrecision`. -/
def writeTypeAndPrecision (w : twkbWriter) (kind : Nat) : twkbWriter :=
  writeHeaderByte { w with kind := kind }
    (((EncodeZigZagInt32 (wrapInt32 w.precXY) * 16) % 256) ||| (kind % 256))

/-- The method `writeMetadataHeader`. -/
def writeMetadataHeader (w : twkbWriter) (metaheader : Nat) : twkbWriter :=
  writeHeaderByte (if metaheader &&& twkbIsEmpty ≠ 0 then { w with isEmpty := true } else w)
    (metaheader % 256)

/-- The method `writeIsEmptyHeader`. -/
def writeIsEmptyHeader (w : twkbWriter) : twkbWriter :=
  writeMetadataHeader { w with isEmpty := true } twkbIsEmpty

/-- The method `writeExtendedPrecision`. -/
def writeExtendedPrecision (w : twkbWriter) : twkbWriter :=
  let ext : Nat := 0
  let ext := if w.hasZ then
      (ext ||| 1) ||| ((EncodeZigZagInt32 (wrapInt32 w.precZ) * 4) % 256)
    else ext
  let ext := if w.hasM then
      (ext ||| 2) ||| ((EncodeZigZagInt32 (wrapInt32 w.precM) * 32) % 256)
    else ext
  writeHeaderByte w ext

/-- The method `writeInitialHeaders`. -/
def writeInitialHeaders (w : twkbWriter) : twkbWriter :=
  let metaheader : Nat := 0
  let metaheader := if w.hasExt then metaheader ||| twkbHasExtPrec else metaheader
  let metaheader := if w.hasSize then metaheader ||| twkbHasSize else metaheader
  let metaheader := if w.hasBBox then metaheader ||| twkbHasBBox else metaheader
  let metaheader := if w.hasIDs then metaheader ||| twkbHasIDs else metaheader
  let w1 := writeMetadataHeader w metaheader
  if w1.hasExt then writeExtendedPrecision w1 else w1

/-- The conversion `int64(fval * w.scalings[d])`: the product of the two `float64`
values, rounded to a `float64`, and truncated towards zero. The coordinate `fval`
is a finite `float64`, given as a rational. -/
def scaledCoord (w : twkbWriter) (d : Nat) (fval : ℚ) : Int :=
  ((float64.finite fval).mul (w.scalings.getD d (float64.finite 0))).toInt64

/-- The body of the inner loop of `writePointArray`, for the dimension `d` and the
value `fval = coords[c]`. -/
def writeCoord (w : twkbWriter) (d : Nat) (fval : ℚ) : twkbWriter :=
  let ival := scaledCoord w d fval
  let w1 :=
    if ¬ w.bboxValid then
      { w with bboxMin := w.bboxMin.set d ival, bboxMax := w.bboxMax.set d ival }
    else if ival < w.bboxMin.getD d 0 then { w with bboxMin := w.bboxMin.set d ival }
    else if ival > w.bboxMax.getD d 0 then { w with bboxMax := w.bboxMax.set d ival }
    else w
  let delta := wrapInt64 (ival - w1.refpoint.getD d 0)
  { w1 with
    twkbContents := w1.twkbContents ++ PutVarint delta,
    refpoint := w1.refpoint.set d (wrapInt64 (w1.refpoint.getD d 0 + delta)) }

/-- The body of the outer loop of `writePointArray` for the point `i`; `none` is an
index out of range in `coords`. -/
def writePointAt (coords : List ℚ) (w : twkbWriter) (i : Nat) : Option twkbWriter := do
  let w1 ← (List.range w.dimensions).foldlM (fun (t : twkbWriter) d => do
    let fval ← coords[i * w.dimensions + d]?
    pure (writeCoord t d fval)) w
  pure (if i = 0 then { w1 with bboxValid := true } else w1)

/-- The method `writePointArray`. -/
def writePointArray (w : twkbWriter) (numPoints : Nat) (coords : List ℚ) :
    Option twkbWriter :=
  (List.range numPoints).foldlM (writePointAt coords) w

/-- The method `writePoints`. -/
def writePoints (w : twkbWriter) (numPoints : Nat) (coords : List ℚ) : Option twkbWriter :=
  writePointArray w numPoints coords

/-- The method `writeSignedVarint`, without the count it returns. -/
def writeSignedVarint (w : twkbWriter) (val : Int) : twkbWriter :=
  { w with twkbContents := w.twkbContents ++ PutVarint val }

/-- The method `writeUnsignedVarint`, without the count it returns. -/
def writeUnsignedVarint (w : twkbWriter) (val : Nat) : twkbWriter :=
  { w with twkbContents := w.twkbContents ++ PutUvarint val }

/-- The method `writeIDList`; the flag is true when an error is returned. -/
def writeIDList (w : twkbWriter) (num : Nat) : twkbWriter × Bool :=
  if ¬ w.hasIDs then (w, false)
  else if num ≠ w.idList.length then (w, true)
  else (w.idList.foldl writeSignedVarint w, false)

/-- The method `writeBBoxHeader`. -/
def writeBBoxHeader (w : twkbWriter) : twkbWriter :=
  { w with twkbBBox := w.twkbBBox ++ (List.range w.dimensions).flatMap (fun d =>
      PutVarint (w.bboxMin.getD d 0) ++
        PutVarint (wrapInt64 (w.bboxMax.getD d 0 - w.bboxMin.getD d 0))) }

/-- The method `writeSizeHeader`. -/
def writeSizeHeader (w : twkbWriter) (bboxLength contentsLength : Nat) : twkbWriter :=
  { w with twkbHeaders := w.twkbHeaders ++ PutUvarint (bboxLength + contentsLength) }

/-- The method `writeAdditionalHeaders`. -/
def writeAdditionalHeaders (w : twkbWriter) : twkbWriter :=
  let w1 := if w.hasBBox then writeBBoxHeader w else w
  if w1.hasSize then writeSizeHeader w1 w1.twkbBBox.length w1.twkbContents.length else w1

/-- The method `writePointCoords`; the `default` case of the switch is not
reachable. -/
def writePointCoords (w : twkbWriter) (pt : Point) : Option twkbWriter :=
  match pt.ctype with
  | CoordinatesType.DimXY => writePoints w 1 [pt.X, pt.Y]
  | CoordinatesType.DimXYZ => writePoints w 1 [pt.X, pt.Y, pt.Z]
  | CoordinatesType.DimXYM => writePoints w 1 [pt.X, pt.Y, pt.M]
  | CoordinatesType.DimXYZM => writePoints w 1 [pt.X, pt.Y, pt.Z, pt.M]

/-- The method `writePoint`. The result is the writer as the method leaves it and
whether an error is returned; `none` is a panic. -/
def writePoint (w : twkbWriter) (pt : Point) : Option (twkbWriter × Bool) :=
  let w1 := writeTypeAndPrecision w twkbTypePoint
  if pt.ctype ≠ w1.ctype then some (w1, true)
  else if pt.isEmpty then some (writeIsEmptyHeader w1, false)
  else (writePointCoords (writeInitialHeaders w1) pt).map (fun t => (t, false))

/-- The method `writeLineStringCoords`. -/
def writeLineStringCoords (w : twkbWriter) (ls : LineString) : Option twkbWriter :=
  writePointArray (writeUnsignedVarint w ls.numPoints) ls.numPoints ls.floats

/-- The method `writeRing`. -/
def writeRing (w : twkbWriter) (ls : LineString) : Option twkbWriter :=
  let numPoints := if ¬ w.closeRings ∧ ls.numPoints ≥ 2 then ls.numPoints - 1 else ls.numPoints
  writePointArray (writeUnsignedVarint w numPoints) numPoints ls.floats

/-- The method `writeLineString`. -/
def writeLineString (w : twkbWriter) (ls : LineString) : Option (twkbWriter × Bool) :=
  let w1 := writeTypeAndPrecision w twkbTypeLineString
  if ls.ctype ≠ w1.ctype then some (w1, true)
  else if ls.isEmpty then some (writeIsEmptyHeader w1, false)
  else (writeLineStringCoords (writeInitialHeaders w1) ls).map (fun t => (t, false))

/-- The method `writePolygonRings`. -/
def writePolygonRings (w : twkbWriter) (poly : PolygonValue) : Option twkbWriter :=
  let w1 := writeUnsignedVarint w poly.numRings
  if poly.numRings = 0 then some w1
  else do
    let w2 ← writeRing w1 poly.exteriorRing
    poly.interiorRings.foldlM writeRing w2

/-- The method `writePolygon`. -/
def writePolygon (w : twkbWriter) (poly : PolygonValue) : Option (twkbWriter × Bool) :=
  let w1 := writeTypeAndPrecision w twkbTypePolygon
  if poly.ctype ≠ w1.ctype then some (w1, true)
  else if poly.isEmpty then some (writeIsEmptyHeader w1, false)
  else (writePolygonRings (writeInitialHeaders w1) poly).map (fun t => (t, false))

/-- The method `writeMultiPoint`. -/
def writeMultiPoint (w : twkbWriter) (mp : MultiPoint) : Option (twkbWriter × Bool) :=
  let w1 := writeTypeAndPrecision w twkbTypeMultiPoint
  if mp.ctype ≠ w1.ctype then some (w1, true)
  else if mp.isEmpty then some (writeIsEmptyHeader w1, false)
  else
    let w2 := writeUnsignedVarint (writeInitialHeaders w1) mp.points.length
    let r := writeIDList w2 mp.points.length
    if r.2 then some (r.1, true)
    else (mp.points.foldlM writePointCoords r.1).map (fun t => (t, false))

/-- The method `writeMultiLineString`. -/
def writeMultiLineString (w : twkbWriter) (ml : MultiLineString) :
    Option (twkbWriter × Bool) :=
  let w1 := writeTypeAndPrecision w twkbTypeMultiLineString
  if ml.ctype ≠ w1.ctype then some (w1, true)
  else if ml.isEmpty then some (writeIsEmptyHeader w1, false)
  else
    let w2 := writeUnsignedVarint (writeInitialHeaders w1) ml.lineStrings.length
    let r := writeIDList w2 ml.lineStrings.length
    if r.2 then some (r.1, true)
    else (ml.lineStrings.foldlM writeLineStringCoords r.1).map (fun t => (t, false))

/-- The method `writeMultiPolygon`. -/
def writeMultiPolygon (w : twkbWriter) (mp : MultiPolygon) : Option (twkbWriter × Bool) :=
  let w1 := writeTypeAndPrecision w twkbTypeMultiPolygon
  if mp.ctype ≠ w1.ctype then some (w1, true)
  else if mp.isEmpty then some (writeIsEmptyHeader w1, false)
  else
    let w2 := writeUnsignedVarint (writeInitialHeaders w1) mp.polygons.length
    let r := writeIDList w2 mp.polygons.length
    if r.2 then some (r.1, true)
    else (mp.polygons.foldlM writePolygonRings r.1).map (fun t => (t, false))

mutual
/-- The method `writeGeometryByType`, with `writeGeometryCollection` as its last
case. -/
def writeGeometryByType : twkbWriter → Geometry → Option (twkbWriter × Bool)
  | w, Geometry.point pt => writePoint w pt
  | w, Geometry.lineString ls => writeLineString w ls
  | w, Geometry.polygon poly => writePolygon w poly
  | w, Geometry.multiPoint mp => writeMultiPoint w mp
  | w, Geometry.multiLineString ml => writeMultiLineString w ml
  | w, Geometry.multiPolygon mp => writeMultiPolygon w mp
  | w, Geometry.geometryCollection ctype isEmpty geoms =>
    let w1 := writeTypeAndPrecision w twkbTypeGeometryCollection
    if ctype ≠ w1.ctype then some (w1, true)
    else if isEmpty then some (writeIsEmptyHeader w1, false)
    else
      let w2 := writeUnsignedVarint (writeInitialHeaders w1) geoms.length
      let r := writeIDList w2 geoms.length
      if r.2 then some (r.1, true)
      else (writeSubGeometries r.1 geoms).map (fun t => (t, false))
/-- The loop of `writeGeometryCollection` over the sub-geometries: each is written
by a writer of its own (`writeGeometry`: `writeGeometryByType`, then, if that
returns no error, `writeAdditionalHeaders`), the error is dropped, and the bytes
`formTWKB` gives are appended to the contents. -/
def writeSubGeometries : twkbWriter → List Geometry → Option twkbWriter
  | w, [] => some w
  | w, geom :: rest =>
    match writeGeometryByType (copytwkbWriter w) geom with
    | none => none
    | some (sub, err) =>
      let sub1 := if err then sub else writeAdditionalHeaders sub
      writeSubGeometries { w with twkbContents := w.twkbContents ++ formTWKB sub1 } rest
end

/-- The method `writeGeometry`. -/
def writeGeometry (w : twkbWriter) (geom : Geometry) : Option (twkbWriter × Bool) :=
  (writeGeometryByType w geom).map (fun r =>
    if r.2 then r else (writeAdditionalHeaders r.1, false))

/-- The function `MarshalTWKB`: `some (some bytes)` when it returns the bytes,
`some none` when it returns an error, `none` when it panics. -/
def MarshalTWKB (geom : Geometry) (hasZ hasM : Bool) (precXY precZ precM : Int)
    (hasSize hasBBox closeRings : Bool) (idList : List Int) : Option (Option (List Nat)) :=
  (writeGeometry (newtwkbWriter hasZ hasM precXY precZ precM hasSize hasBBox closeRings
    idList) geom).map (fun r => if r.2 then none else some (formTWKB r.1))

/-- The writer `w2` has the configuration of `w`: the methods that write a geometry
change the three byte slices, the reference point, the bounding box and `kind` and
`isEmpty`, and nothing else. -/
structure SameConfig (w w2 : twkbWriter) : Prop where
  hasSize : w2.hasSize = w.hasSize
  hasBBox : w2.hasBBox = w.hasBBox
  hasIDs : w2.hasIDs = w.hasIDs
  hasExt : w2.hasExt = w.hasExt
  hasZ : w2.hasZ = w.hasZ
  hasM : w2.hasM = w.hasM
  precXY : w2.precXY = w.precXY
  precZ : w2.precZ = w.precZ
  precM : w2.precM = w.precM
  ctype : w2.ctype = w.ctype
  dimensions : w2.dimensions = w.dimensions
  scalings : w2.scalings = w.scalings
  idList : w2.idList = w.idList
  closeRings : w2.closeRings = w.closeRings
  twkbBBox : w2.twkbBBox = w.twkbBBox

/-- What `IsEmpty()` returns for a geometry. -/
def Geometry.IsEmpty : Geometry → Bool
  | Geometry.point pt => pt.isEmpty
  | Geometry.lineString ls => ls.isEmpty
  | Geometry.polygon poly => poly.isEmpty
  | Geometry.multiPoint mp => mp.isEmpty
  | Geometry.multiLineString ml => ml.isEmpty
  | Geometry.multiPolygon mp => mp.isEmpty
  | Geometry.geometryCollection _ isEmpty _ => isEmpty

/-- What `CoordinatesType()` returns for a geometry. -/
def Geometry.CoordinatesType : Geometry → CoordinatesType
  | Geometry.point pt => pt.ctype
  | Geometry.lineString ls => ls.ctype
  | Geometry.polygon poly => poly.ctype
  | Geometry.multiPoint mp => mp.ctype
  | Geometry.multiLineString ml => ml.ctype
  | Geometry.multiPolygon mp => mp.ctype
  | Geometry.geometryCollection ctype _ _ => ctype

/-- The TWKB type code written for a geometry. -/
def Geometry.twkbType : Geometry → Nat
  | Geometry.point _ => twkbTypePoint
  | Geometry.lineString _ => twkbTypeLineString
  | Geometry.polygon _ => twkbTypePolygon
  | Geometry.multiPoint _ => twkbTypeMultiPoint
  | Geometry.multiLineString _ => twkbTypeMultiLineString
  | Geometry.multiPolygon _ => twkbTypeMultiPolygon
  | Geometry.geometryCollection _ _ _ => twkbTypeGeometryCollection

/-- The coordinates type `newtwkbWriter` sets for `hasZ` and `hasM`. -/
def coordinatesTypeOf (hasZ hasM : Bool) : CoordinatesType :=
  if hasZ && hasM then CoordinatesType.DimXYZM
  else if hasZ then CoordinatesType.DimXYZ
  else if hasM then CoordinatesType.DimXYM
  else CoordinatesType.DimXY

/-- The number of dimensions `newtwkbWriter` sets for `hasZ` and `hasM`. -/
def dimensionsOf (hasZ hasM : Bool) : Nat :=
  2 + (if hasZ then 1 else 0) + (if hasM then 1 else 0)

/-- The record of the face `f` after the block "Set interior/exterior face linkage"
has run on the record `fr`. -/
def linkedFace (ringIdx interiorFace exteriorFace internalEdge externalEdge f : Nat)
    (fr : faceRecord) : faceRecord :=
  if ringIdx = 0 then
    if f = exteriorFace then
      { fr with innerComponents := fr.innerComponents ++ [externalEdge] }
    else if f = interiorFace then
      (if fr.outerComponent = none then { fr with outerComponent := some internalEdge } else fr)
    else fr
  else
    if f = interiorFace then
      { fr with innerComponents := fr.innerComponents ++ [internalEdge] }
    else if f = exteriorFace then
      (if fr.outerComponent = none then { fr with outerComponent := some externalEdge } else fr)
    else fr

/-- The half-edges of one ring as `newDCELFromPolygon` leaves them, for the block
of records that starts at `L`: the internal edge of line `i` is `L + 2 i` and runs
along the line, the external edge is `L + 2 i + 1` and runs against it; `next` goes
to the following line on internal edges and to the line before on external ones. -/
structure RingCycle (h : Heap) (ls : List line) (L iF eF : Nat) : Prop where
  bound : L + 2 * ls.length ≤ h.halfEdgeRecords.length
  next_even : ∀ i, i < ls.length → h.nextOf (L + 2 * i) = some (L + 2 * ((i + 1) % ls.length))
  next_odd : ∀ i, i < ls.length →
    h.nextOf (L + (2 * i + 1)) = some (L + (2 * ((i + ls.length - 1) % ls.length) + 1))
  twin_even : ∀ i, i < ls.length → h.twinOf (L + 2 * i) = some (L + (2 * i + 1))
  twin_odd : ∀ i, i < ls.length → h.twinOf (L + (2 * i + 1)) = some (L + 2 * i)
  incident_even : ∀ i, i < ls.length → h.incidentOf (L + 2 * i) = some iF
  incident_odd : ∀ i, i < ls.length → h.incidentOf (L + (2 * i + 1)) = some eF
  coords_even : ∀ i l, ls[i]? = some l → h.originCoords (L + 2 * i) = some l.a
  coords_odd : ∀ i l, ls[i]? = some l → h.originCoords (L + (2 * i + 1)) = some l.b

/-- The state of the loop over the rings of `newDCELFromPolygon` once the rings
`done` are processed; `infFace` is the pointer to the unbounded face and
`infFace + 1` the pointer to the polygon face. -/
structure BuildInv (infFace : Nat) (isPolyA : Bool) (done : List (Nat × List XY)) (h : Heap)
    (d : doublyConnectedEdgeList) : Prop where
  faces : d.faces = List.range' infFace (2 + done.countP (fun ir => decide (0 < ir.1)))
  faceLen : h.faceRecords.length = infFace + 2 + done.countP (fun ir => decide (0 < ir.1))
  inf_rec : ∃ fr, h.faceRecords[infFace]? = some fr ∧ fr.outerComponent = none ∧
    fr.labelA = false ∧ fr.labelB = false
  poly_rec : ∃ fr, h.faceRecords[infFace + 1]? = some fr ∧ fr.labelA = isPolyA ∧
    fr.labelB = !isPolyA
  hole_rec : ∀ f, infFace + 1 < f → f < h.faceRecords.length →
    ∃ fr, h.faceRecords[f]? = some fr ∧ fr.labelA = false ∧ fr.labelB = false
  comps : ∀ f fr, infFace ≤ f → h.faceRecords[f]? = some fr →
    ∀ x, (fr.outerComponent = some x ∨ x ∈ fr.innerComponents) →
      x ∈ d.halfEdges ∧ h.incidentOf x = some f
  blocks : ∀ e ∈ d.halfEdges, ∃ ir ∈ done, ∃ L eF, infFace ≤ eF ∧ eF < h.faceRecords.length ∧
    RingCycle h (ringLines ir.2) L (infFace + 1) eF ∧
    L ≤ e ∧ e < L + 2 * (ringLines ir.2).length ∧
    ∀ x, L ≤ x → x < L + 2 * (ringLines ir.2).length → x ∈ d.halfEdges

/-- Consistent incidence: `next` keeps the incident face, and the components of
every face of the list are half-edges of the list with that face as incident
face. -/
structure IncidenceInv (h : Heap) (d : doublyConnectedEdgeList) : Prop where
  step : ∀ e ∈ d.halfEdges, ∀ n, h.nextOf e = some n → h.incidentOf n = h.incidentOf e
  comps : ∀ f ∈ d.faces, ∃ fr, h.faceRecords[f]? = some fr ∧
    ∀ x, (fr.outerComponent = some x ∨ x ∈ fr.innerComponents) →
      x ∈ d.halfEdges ∧ h.incidentOf x = some f

/-- The method `addSingleton`: a new set containing just `e` is appended. -/
def disjointEdgeSet.addSingleton (sets : List (List (Option Nat))) (e : Option Nat) :
    List (List (Option Nat)) :=
  sets ++ [[e]]

/-- The indices `union` meets for `e` in its double loop: the index of a set once
for each occurrence of `e` in it. -/
def occurrenceIndices (sets : List (List (Option Nat))) (e : Option Nat) : List Nat :=
  sets.enum.flatMap (fun p => (p.2.filter (fun x => decide (x = e))).map (fun _ => p.1))

/-- The element `e` of a set is nil or an outer cycle: the test
`e == nil || edgeLoopIsOuterComponent(e)` of "Construct new faces", read in the
heap `h`. -/
def isOuterOrNil (h : Heap) (e : Option Nat) : Bool :=
  match e with
  | none => true
  | some x => decide (edgeLoopIsOuterComponent h x = some true)

/-- The number of elements of the set `S` that are not among the inner components
`P` (those already united with what lies to their left). -/
def pendingCount (P : List Nat) (S : List (Option Nat)) : Nat :=
  (S.filter (fun e => decide (e ∉ P.map some))).length

/-- The swap `(*h)[i], (*h)[j] = (*h)[j], (*h)[i]` of `line_heap.go`; an index out
of range is a panic. -/
def heap.swap (h : List Int) (i j : Nat) : Option (List Int) := do
  let a ← h[i]?
  let b ← h[j]?
  pure ((h.set i b).set j a)

/-- The loop `for i > 0` of `heap.push`. The comparator `less` takes two positions
and may read the heap; `fuel` bounds the number of iterations. -/
def heap.pushLoop (less : List Int → Nat → Nat → Bool) :
    Nat → List Int → Nat → Option (List Int)
  | 0, h, i => if i > 0 then none else some h
  | fuel + 1, h, i =>
    if i > 0 then
      let parent := (i - 1) / 2
      if less h parent i then some h
      else do
        let h2 ← heap.swap h parent i
        heap.pushLoop less fuel h2 parent
    else some h

/-- The method `heap.push`. -/
def heap.push (h : List Int) (element : Int) (less : List Int → Nat → Nat → Bool) :
    Option (List Int) :=
  let h1 := h ++ [element]
  heap.pushLoop less h1.length h1 (h1.length - 1)

/-- The `switch` in the loop of `heap.pop`: the position to swap with, `none` for
`swapWith == -1`. -/
def heap.swapWith (less : List Int → Nat → Nat → Bool) (h : List Int) (i : Nat) : Option Nat :=
  let childA := 2 * i + 1
  let childB := 2 * i + 2
  if childA < h.length ∧ childB < h.length then
    if less h i childA then
      (if less h childB i then some childB else none)
    else
      (if less h childB childA then some childB else some childA)
  else if childA < h.length then
    (if less h childA i then some childA else none)
  else if childB < h.length then
    (if less h childB i then some childB else none)
  else none

/-- The loop of `heap.pop`; `fuel` bounds the number of iterations. -/
def heap.popLoop (less : List Int → Nat → Nat → Bool) :
    Nat → List Int → Nat → Option (List Int)
  | 0, _, _ => none
  | fuel + 1, h, i =>
    match heap.swapWith less h i with
    | none => some h
    | some s => do
      let h2 ← heap.swap h s i
      heap.popLoop less fuel h2 s

/-- The method `heap.pop`; on the empty heap the index `len-1` is out of range, a
panic. -/
def heap.pop (h : List Int) (less : List Int → Nat → Nat → Bool) : Option (List Int) :=
  if h.length = 0 then none
  else do
    let last ← h[h.length - 1]?
    let h1 := (h.set 0 last).take (h.length - 1)
    heap.popLoop less (h1.length + 1) h1 0

/-- A comparator `less(i, j)` that compares the elements stored at the positions
`i` and `j` with the order `lt`. -/
def elementLess (lt : Int → Int → Bool) (h : List Int) (i j : Nat) : Bool :=
  match h[i]?, h[j]? with
  | some a, some b => lt a b
  | _, _ => false

/-- The comparator of `TestLineHeap`: it compares the positions themselves. -/
def positionLess (_ : List Int) (i j : Nat) : Bool := decide (i < j)

/-- A strict weak order: irreflexive, transitive, and an element between which and
`a`, `c` nothing is decided cannot separate `a < c`. -/
structure StrictWeakOrder (lt : Int → Int → Bool) : Prop where
  irrefl : ∀ a, lt a a = false
  trans : ∀ a b c, lt a b = true → lt b c = true → lt a c = true
  between : ∀ a b c, lt a c = true → lt a b = true ∨ lt b c = true

/-- The heap invariant: the element at a child position `2i+1` or `2i+2` is not
less than the element at `i`. -/
def HeapOrdered (lt : Int → Int → Bool) (h : List Int) : Prop :=
  ∀ (i c : Nat) (a b : Int), (c = 2 * i + 1 ∨ c = 2 * i + 2) → h[i]? = some a →
    h[c]? = some b → lt b a = false

/-- One operation on a heap: the push of an element, or a pop. -/
inductive heapOp where
  | push (element : Int)
  | pop
deriving DecidableEq

/-- One operation, applied. -/
def heap.apply (less : List Int → Nat → Nat → Bool) (h : List Int) : heapOp → Option (List Int)
  | heapOp.push element => heap.push h element less
  | heapOp.pop => heap.pop h less

/-- A sequence of operations, applied from left to right. -/
def heap.run (less : List Int → Nat → Nat → Bool) (ops : List heapOp) (h : List Int) :
    Option (List Int) :=
  ops.foldlM (heap.apply less) h

/-- The number of pushes in a sequence of operations. -/
def pushCount (ops : List heapOp) : Nat :=
  (ops.filter (fun o => decide (o ≠ heapOp.pop))).length

/-- The number of pops in a sequence of operations. -/
def popCount (ops : List heapOp) : Nat :=
  (ops.filter (fun o => decide (o = heapOp.pop))).length

/-- The state of the loop of `heap.push` at the position `i`: the heap invariant
holds for every pair but the one of `i` and its parent, and the children of `i`
are not less than the parent of `i`. -/
def UpInv (lt : Int → Int → Bool) (h : List Int) (i : Nat) : Prop :=
  (∀ (p c : Nat) (a b : Int), (c = 2 * p + 1 ∨ c = 2 * p + 2) → c ≠ i → h[p]? = some a →
    h[c]? = some b → lt b a = false) ∧
  (∀ (c : Nat) (a b : Int), 0 < i → (c = 2 * i + 1 ∨ c = 2 * i + 2) →
    h[(i - 1) / 2]? = some a → h[c]? = some b → lt b a = false)

/-- The state of the loop of `heap.pop` at the position `i`: the heap invariant
holds for every pair but those of `i` and its children, and the children of `i`
are not less than the parent of `i`. -/
def DownInv (lt : Int → Int → Bool) (h : List Int) (i : Nat) : Prop :=
  (∀ (p c : Nat) (a b : Int), (c = 2 * p + 1 ∨ c = 2 * p + 2) → p ≠ i → h[p]? = some a →
    h[c]? = some b → lt b a = false) ∧
  (∀ (c : Nat) (a b : Int), 0 < i → (c = 2 * i + 1 ∨ c = 2 * i + 2) →
    h[(i - 1) / 2]? = some a → h[c]? = some b → lt b a = false)

/-- The order of the integers, as a comparator. -/
def intLess (a b : Int) : Bool := decide (a < b)

/-- The scaled integer coordinate of the point `i` of a coordinate array in the
dimension `d`: `int64(coords[i*dimensions+d] * scalings[d])`. -/
def scaledAt (w : twkbWriter) (coords : List ℚ) (i d : Nat) : Int :=
  scaledCoord w d (coords.getD (i * w.dimensions + d) 0)

/-- The reference point in the dimension `d` when the point `i` of an array is
written: the scaled coordinate of the point before it, and for the first point
the reference point the writer has at the call. -/
def refBefore (w : twkbWriter) (coords : List ℚ) (i d : Nat) : Int :=
  if i = 0 then w.refpoint.getD d 0 else scaledAt w coords (i - 1) d

/-- The differences written for the point `i`, one for each dimension, in `int64`
arithmetic. -/
def pointDeltas (w : twkbWriter) (coords : List ℚ) (i : Nat) : List Int :=
  (List.range w.dimensions).map (fun d =>
    wrapInt64 (scaledAt w coords i d - refBefore w coords i d))

/-- The differences written for the points of an array, in order. -/
def arrayDeltas (w : twkbWriter) (numPoints : Nat) (coords : List ℚ) : List Int :=
  (List.range numPoints).flatMap (pointDeltas w coords)

/-- The arrays of the writer have the length `twkbMaxDimensions`, and the
dimensions are at most this. -/
structure ArraysOK (w : twkbWriter) : Prop where
  dims : w.dimensions ≤ 4
  refpoint : w.refpoint.length = 4
  bboxMin : w.bboxMin.length = 4
  bboxMax : w.bboxMax.length = 4

/-- The scaled integer coordinates of the point `i` of a coordinate array. -/
def scaledPoint (w : twkbWriter) (coords : List ℚ) (i : Nat) : List Int :=
  (List.range w.dimensions).map (scaledAt w coords i)

/-- The scaled integer coordinates of the first `numPoints` points of a coordinate
array. -/
def scaledPoints (w : twkbWriter) (numPoints : Nat) (coords : List ℚ) : List (List Int) :=
  (List.range numPoints).map (scaledPoint w coords)

/-- The bounding box of the writer is that of the points `pts`: it is not valid
while there is no point, and once it is valid, in every dimension its minimum and
maximum bound the coordinates of the points and are coordinates of points. -/
structure Box (dims : Nat) (w : twkbWriter) (pts : List (List Int)) : Prop where
  start : w.bboxValid = false → pts = []
  bounds : w.bboxValid = true → ∀ d, d < dims →
    (∀ p ∈ pts, w.bboxMin.getD d 0 ≤ p.getD d 0 ∧ p.getD d 0 ≤ w.bboxMax.getD d 0) ∧
    (∃ p ∈ pts, p.getD d 0 = w.bboxMin.getD d 0) ∧
    (∃ p ∈ pts, p.getD d 0 = w.bboxMax.getD d 0)

/-- The writer `w2` has the headers of `w`, and its contents are those of `w` with
bytes appended. -/
structure Appends (w w2 : twkbWriter) : Prop where
  headers : w2.twkbHeaders = w.twkbHeaders
  contents : ∃ rest, w2.twkbContents = w.twkbContents ++ rest

/-- The number of sub-geometries of a geometry that has sub-geometries. -/
def Geometry.numParts : Geometry → Option Nat
  | Geometry.multiPoint mp => some mp.points.length
  | Geometry.multiLineString ml => some ml.lineStrings.length
  | Geometry.multiPolygon mp => some mp.polygons.length
  | Geometry.geometryCollection _ _ geoms => some geoms.length
  | _ => none

/-- The loop over the sub-geometries in the four methods that write a geometry
with sub-geometries. -/
def partsLoop : Geometry → twkbWriter → Option twkbWriter
  | Geometry.multiPoint mp, t => mp.points.foldlM writePointCoords t
  | Geometry.multiLineString ml, t => ml.lineStrings.foldlM writeLineStringCoords t
  | Geometry.multiPolygon mp, t => mp.polygons.foldlM writePolygonRings t
  | Geometry.geometryCollection _ _ geoms, t => writeSubGeometries t geoms
  | _, t => some t

/-- The metadata header `writeInitialHeaders` builds from the four flags. -/
def initialMetaheader (hasExt hasSize hasBBox hasIDs : Bool) : Nat :=
  let metaheader : Nat := 0
  let metaheader := if hasExt then metaheader ||| twkbHasExtPrec else metaheader
  let metaheader := if hasSize then metaheader ||| twkbHasSize else metaheader
  let metaheader := if hasBBox then metaheader ||| twkbHasBBox else metaheader
  if hasIDs then metaheader ||| twkbHasIDs else metaheader

/-- The coordinates `writePointCoords` passes on for a point, by its coordinates
type. -/
def Point.coordList (pt : Point) : List ℚ :=
  match pt.ctype with
  | CoordinatesType.DimXY => [pt.X, pt.Y]
  | CoordinatesType.DimXYZ => [pt.X, pt.Y, pt.Z]
  | CoordinatesType.DimXYM => [pt.X, pt.Y, pt.M]
  | CoordinatesType.DimXYZM => [pt.X, pt.Y, pt.Z, pt.M]

/-- The number of points `writeRing` writes for a ring. -/
def ringCount (w : twkbWriter) (ls : LineString) : Nat :=
  if ¬ w.closeRings ∧ ls.numPoints ≥ 2 then ls.numPoints - 1 else ls.numPoints

/-- The scaled integer coordinates of the points written for a polygon. -/
def polygonPoints (w : twkbWriter) (poly : PolygonValue) : List (List Int) :=
  if poly.numRings = 0 then []
  else scaledPoints w (ringCount w poly.exteriorRing) poly.exteriorRing.floats ++
    poly.interiorRings.flatMap (fun ls => scaledPoints w (ringCount w ls) ls.floats)

/-- The scaled integer coordinates of the points written for a geometry that is
not a collection, in the order they are written. -/
def Geometry.scaledPointsOf (w : twkbWriter) : Geometry → List (List Int)
  | Geometry.point pt => scaledPoints w 1 pt.coordList
  | Geometry.lineString ls => scaledPoints w ls.numPoints ls.floats
  | Geometry.polygon poly => polygonPoints w poly
  | Geometry.multiPoint mp => mp.points.flatMap (fun pt => scaledPoints w 1 pt.coordList)
  | Geometry.multiLineString ml =>
    ml.lineStrings.flatMap (fun ls => scaledPoints w ls.numPoints ls.floats)
  | Geometry.multiPolygon mp => mp.polygons.flatMap (polygonPoints w)
  | Geometry.geometryCollection _ _ _ => []

/-- The coordinate array of a line string holds the coordinates of its points. -/
def LineString.fits (dims : Nat) (ls : LineString) : Prop :=
  ls.numPoints * dims ≤ ls.floats.length

/-- The coordinate arrays of the rings of a polygon hold the coordinates of their
points. -/
def PolygonValue.fits (dims : Nat) (poly : PolygonValue) : Prop :=
  poly.exteriorRing.fits dims ∧ ∀ ls ∈ poly.interiorRings, ls.fits dims

/-- The coordinate arrays of a geometry that is not a collection hold the
coordinates of its points, `dims` for each point. -/
def Geometry.WellFormed (dims : Nat) : Geometry → Prop
  | Geometry.point pt => dims ≤ pt.coordList.length
  | Geometry.lineString ls => ls.fits dims
  | Geometry.polygon poly => poly.fits dims
  | Geometry.multiPoint mp => ∀ pt ∈ mp.points, dims ≤ pt.coordList.length
  | Geometry.multiLineString ml => ∀ ls ∈ ml.lineStrings, ls.fits dims
  | Geometry.multiPolygon mp => ∀ poly ∈ mp.polygons, poly.fits dims
  | Geometry.geometryCollection _ _ _ => True

/-- Whether a geometry is a geometry collection. -/
def Geometry.isCollection : Geometry → Bool
  | Geometry.geometryCollection _ _ _ => true
  | _ => false

/-- The loop that writes the coordinates of a geometry: for a point, a line string
and a polygon the one call, for the others the loop over the sub-geometries. -/
def coordsLoop : Geometry → twkbWriter → Option twkbWriter
  | Geometry.point pt, t => writePointCoords t pt
  | Geometry.lineString ls, t => writeLineStringCoords t ls
  | Geometry.polygon poly, t => writePolygonRings t poly
  | g, t => partsLoop g t

/-- The minimum of the scaled integer coordinates of the points `pts` in the
dimension `d`, as the claim words it; 0 where there is no point. -/
def minScaledCoord (pts : List (List Int)) (d : Nat) : Int :=
  match pts.map (fun p => p.getD d 0) with
  | [] => 0
  | a :: rest => rest.foldl min a

/-- The maximum of the scaled integer coordinates of the points `pts` in the
dimension `d`, as the claim words it; 0 where there is no point. -/
def maxScaledCoord (pts : List (List Int)) (d : Nat) : Int :=
  match pts.map (fun p => p.getD d 0) with
  | [] => 0
  | a :: rest => rest.foldl max a

/-- The bounding-box header as the claim words it: for each dimension in order the
signed varint of the minimum and the signed varint of the extent, the difference of
the maximum and the minimum as an `int64`. -/
def bboxHeaderOf (dims : Nat) (pts : List (List Int)) : List Nat :=
  (List.range dims).flatMap (fun d =>
    PutVarint (minScaledCoord pts d) ++
      PutVarint (wrapInt64 (maxScaledCoord pts d - minScaledCoord pts d)))

/-- The writer `t2` has the bounding box, the reference point and the arrays of
`t`. -/
structure SameBox (t t2 : twkbWriter) : Prop where
  bboxValid : t2.bboxValid = t.bboxValid
  bboxMin : t2.bboxMin = t.bboxMin
  bboxMax : t2.bboxMax = t.bboxMax
  refpoint : t2.refpoint = t.refpoint

/-- From the writer `t` to the writer `t2` the points `new` have been written: the
configuration of the writer is kept, and the bounding box has been widened by these
points. -/
structure Tracks (dims : Nat) (t t2 : twkbWriter) (new : List (List Int)) : Prop where
  arrays : ArraysOK t2
  config : SameConfig t t2
  box : ∀ pts, Box dims t pts → Box dims t2 (pts ++ new)

/-- The vertex `v` has an incident half-edge, and the origin of that half-edge is
`v`. -/
def IncidentOK (h : Heap) (v : Nat) : Prop :=
  ∃ r inc, h.vertexRecords[v]? = some r ∧ r.incident = some inc ∧ h.originOf inc = some v

/-- From the heap `h` to the heap `h2` every half-edge keeps the origin it has, and
every vertex with an incident half-edge that starts at it still has one. -/
structure IncStep (h h2 : Heap) : Prop where
  origins : ∀ x v, h.originOf x = some v → h2.originOf x = some v
  incident : ∀ v, IncidentOK h v → IncidentOK h2 v

/-- The vertex invariant of a DCEL: each key `xy` of `d.vertices` maps to a record
whose `coords` equal `xy`; the origin of every half-edge of `d.halfEdges` is the
vertex the map holds for its coordinates; and every vertex that is the origin of a
half-edge of `d.halfEdges` has an incident half-edge (not nil) whose origin is that
vertex. -/
structure VertexInv (h : Heap) (d : doublyConnectedEdgeList) : Prop where
  keys : VMapOK h d.vertices
  origins : ∀ e ∈ d.halfEdges, ∀ v, h.originOf e = some v →
    ∃ r, h.vertexRecords[v]? = some r ∧ d.vertices.lookup r.coords = some v
  incident : ∀ e ∈ d.halfEdges, ∀ v, h.originOf e = some v → IncidentOK h v

/-! # Theorems -/

/-! ## Orientation and the crossing point -/

theorem orientation_collinear_iff (p q r : XY) :
    orientation p q r = collinear ↔ crossProduct p q r = 0 := by
  unfold orientation
  split_ifs with h1 h2
  · simp; exact ne_of_gt h1
  · simp; exact ne_of_lt h2
  · simp; exact le_antisymm (not_lt.mp h1) (not_lt.mp h2)

theorem orientation_ne_cases {p q r s : XY} (h : orientation p q r ≠ orientation p q s) :
    (0 < crossProduct p q r ∧ crossProduct p q s ≤ 0) ∨
    (crossProduct p q r < 0 ∧ 0 ≤ crossProduct p q s) ∨
    (crossProduct p q r = 0 ∧ crossProduct p q s ≠ 0) := by
  unfold orientation at h
  split_ifs at h with h1 h2 h3 h4 h5 h6 h7 h8 <;> simp at h
  all_goals first
    | (left; exact ⟨by assumption, by linarith⟩)
    | (right; left; exact ⟨by assumption, by linarith⟩)
    | (right; right; refine ⟨by linarith, ?_⟩; intro h0; linarith)

theorem crossingNumerator_eq (a c d : XY) : crossingNumerator a c d = crossProduct c d a := by
  unfold crossingNumerator crossProduct; ring

theorem crossingDenominator_eq (a b c d : XY) :
    crossingDenominator a b c d = crossProduct c d a - crossProduct c d b := by
  unfold crossingDenominator crossProduct; ring

theorem crossingDenominator_eq2 (a b c d : XY) :
    crossingDenominator a b c d = crossProduct a b d - crossProduct a b c := by
  unfold crossingDenominator crossProduct; ring

theorem crossingDenominator_ne_zero {a b c d : XY}
    (h : orientation a b c ≠ orientation a b d) : crossingDenominator a b c d ≠ 0 := by
  rw [crossingDenominator_eq2]
  rcases orientation_ne_cases h with ⟨h1, h2⟩ | ⟨h1, h2⟩ | ⟨h1, h2⟩
  · intro h0; linarith
  · intro h0; linarith
  · intro h0; apply h2; linarith

theorem XY.eq_iff (p q : XY) : p = q ↔ p.X = q.X ∧ p.Y = q.Y := by
  cases p; cases q; simp

/-- The cross product is affine in its last argument along a segment. -/
theorem crossProduct_along (p q a b : XY) (t : ℚ) :
    crossProduct p q (((b.Sub a).Scale t).Add a) =
      (1 - t) * crossProduct p q a + t * crossProduct p q b := by
  simp only [crossProduct, XY.Sub, XY.Scale, XY.Add]; ring

theorem crossProduct_of_inClosedSegment {a b p : XY} (h : InClosedSegment a b p) :
    crossProduct a b p = 0 := by
  obtain ⟨t, -, -, rfl⟩ := h
  simp only [crossProduct, XY.Sub, XY.Scale, XY.Add]; ring

theorem crossingPoint_on_first {a b c d : XY}
    (h34 : orientation c d a ≠ orientation c d b) :
    InClosedSegment a b (crossingPoint a b c d) := by
  refine ⟨crossingNumerator a c d / crossingDenominator a b c d, ?_, ?_, rfl⟩
  · rw [crossingNumerator_eq, crossingDenominator_eq]
    rcases orientation_ne_cases h34 with ⟨h1, h2⟩ | ⟨h1, h2⟩ | ⟨h1, h2⟩
    · apply div_nonneg <;> linarith
    · apply div_nonneg_of_nonpos <;> linarith
    · simp [h1]
  · rw [crossingNumerator_eq, crossingDenominator_eq]
    rcases orientation_ne_cases h34 with ⟨h1, h2⟩ | ⟨h1, h2⟩ | ⟨h1, h2⟩
    · rw [div_le_one (by linarith)]; linarith
    · rw [div_le_one_of_neg (by linarith)]; linarith
    · simp [h1]

theorem crossingPoint_eq_second {a b c d : XY}
    (h12 : orientation a b c ≠ orientation a b d) :
    crossingPoint a b c d =
      ((d.Sub c).Scale (crossProduct a b c / (crossProduct a b c - crossProduct a b d))).Add c := by
  have hf := crossingDenominator_ne_zero h12
  have hf2 : crossProduct a b c - crossProduct a b d ≠ 0 := by
    rw [crossingDenominator_eq2] at hf
    intro h0; apply hf; linarith
  rw [XY.eq_iff]
  simp only [crossingPoint, XY.Sub, XY.Scale, XY.Add]
  constructor
  · field_simp
    simp only [crossingNumerator, crossingDenominator, crossProduct]; ring
  · field_simp
    simp only [crossingNumerator, crossingDenominator, crossProduct]; ring

theorem crossingPoint_on_second {a b c d : XY}
    (h12 : orientation a b c ≠ orientation a b d) :
    InClosedSegment c d (crossingPoint a b c d) := by
  refine ⟨crossProduct a b c / (crossProduct a b c - crossProduct a b d), ?_, ?_,
    crossingPoint_eq_second h12⟩
  · rcases orientation_ne_cases h12 with ⟨h1, h2⟩ | ⟨h1, h2⟩ | ⟨h1, h2⟩
    · apply div_nonneg <;> linarith
    · apply div_nonneg_of_nonpos <;> linarith
    · simp [h1]
  · rcases orientation_ne_cases h12 with ⟨h1, h2⟩ | ⟨h1, h2⟩ | ⟨h1, h2⟩
    · rw [div_le_one (by linarith)]; linarith
    · rw [div_le_one_of_neg (by linarith)]; linarith
    · simp [h1]

/-- A point of the line through `a, b` that is also on the line through `c, d`
is the crossing point, when the lines are not parallel. -/
theorem eq_crossingPoint {a b c d p : XY} (hf : crossingDenominator a b c d ≠ 0)
    (hab : InClosedSegment a b p) (hcd : InClosedSegment c d p) :
    p = crossingPoint a b c d := by
  have h0 := crossProduct_of_inClosedSegment hcd
  obtain ⟨t, -, -, rfl⟩ := hab
  rw [crossProduct_along] at h0
  have ht : t = crossingNumerator a c d / crossingDenominator a b c d := by
    rw [eq_div_iff hf, crossingNumerator_eq, crossingDenominator_eq]; linarith
  rw [ht]; rfl


/-- In the crossing branch every return statement yields the crossing point. -/
theorem intersectLine_crossing {a b c d : XY}
    (h12 : orientation a b c ≠ orientation a b d)
    (h34 : orientation c d a ≠ orientation c d b) :
    (line.mk a b).intersectLine (line.mk c d) =
      ⟨false, crossingPoint a b c d, crossingPoint a b c d⟩ := by
  have hP2 := crossingPoint_eq_second h12
  have hf := crossingDenominator_ne_zero h12
  simp only [line.intersectLine]
  rw [if_pos ⟨h12, h34⟩]
  split_ifs with h1 h2 h3 h4
  · have hc : crossingPoint a b c d = c := by
      rw [hP2, (orientation_collinear_iff _ _ _).mp h1, XY.eq_iff]
      simp [XY.Sub, XY.Scale, XY.Add]
    rw [hc]
  · have h2' := (orientation_collinear_iff _ _ _).mp h2
    have h1' : crossProduct a b c ≠ 0 := fun h => h1 ((orientation_collinear_iff _ _ _).mpr h)
    have hd : crossingPoint a b c d = d := by
      rw [hP2, h2', XY.eq_iff]
      simp [XY.Sub, XY.Scale, XY.Add, h1']
    rw [hd]
  · have h3' := (orientation_collinear_iff _ _ _).mp h3
    have ha : crossingPoint a b c d = a := by
      rw [XY.eq_iff]
      simp [crossingPoint, crossingNumerator_eq, h3', XY.Sub, XY.Scale, XY.Add]
    rw [ha]
  · have h4' := (orientation_collinear_iff _ _ _).mp h4
    have h3' : crossProduct c d a ≠ 0 := fun h => h3 ((orientation_collinear_iff _ _ _).mpr h)
    have hb : crossingPoint a b c d = b := by
      rw [XY.eq_iff]
      simp [crossingPoint, crossingNumerator_eq, crossingDenominator_eq, h4', h3', XY.Sub,
        XY.Scale, XY.Add]
    rw [hb]
  · rfl

theorem onSegment_iff (p q r : XY) :
    onSegment p q r = true ↔
      (min p.X q.X ≤ r.X ∧ r.X ≤ max p.X q.X) ∧ (min p.Y q.Y ≤ r.Y ∧ r.Y ≤ max p.Y q.Y) := by
  simp only [onSegment, Bool.and_eq_true, decide_eq_true_eq, ge_iff_le]
  tauto

theorem between_of_convex {x y t : ℚ} (h0 : 0 ≤ t) (h1 : t ≤ 1) :
    min x y ≤ (y - x) * t + x ∧ (y - x) * t + x ≤ max x y := by
  rcases le_total x y with h | h
  · rw [min_eq_left h, max_eq_right h]
    constructor <;> nlinarith
  · rw [min_eq_right h, max_eq_left h]
    constructor <;> nlinarith

/-- A point of the closed segment is inside its bounding box. -/
theorem onSegment_of_inClosedSegment {a b r : XY} (h : InClosedSegment a b r) :
    onSegment a b r = true := by
  obtain ⟨t, h0, h1, rfl⟩ := h
  rw [onSegment_iff]
  simp only [XY.Sub, XY.Scale, XY.Add]
  exact ⟨between_of_convex h0 h1, between_of_convex h0 h1⟩

theorem convex_of_between {x y z : ℚ} (hxy : x ≠ y) (h : min x y ≤ z ∧ z ≤ max x y) :
    0 ≤ (z - x) / (y - x) ∧ (z - x) / (y - x) ≤ 1 := by
  rcases lt_or_gt_of_ne hxy with hlt | hgt
  · rw [min_eq_left hlt.le, max_eq_right hlt.le] at h
    constructor
    · apply div_nonneg <;> linarith
    · rw [div_le_one (by linarith)]; linarith
  · rw [min_eq_right hgt.le, max_eq_left hgt.le] at h
    constructor
    · apply div_nonneg_of_nonpos <;> linarith
    · rw [div_le_one_of_neg (by linarith)]; linarith

/-- For a point collinear with a non-degenerate segment, the bounding-box test
decides membership in the closed segment. -/
theorem inClosedSegment_of_onSegment {a b r : XY} (hab : a ≠ b)
    (hc : crossProduct a b r = 0) (h : onSegment a b r = true) : InClosedSegment a b r := by
  rw [onSegment_iff] at h
  obtain ⟨hx, hy⟩ := h
  by_cases hX : a.X = b.X
  · have hY : a.Y ≠ b.Y := by
      intro hY; apply hab; rw [XY.eq_iff]; exact ⟨hX, hY⟩
    obtain ⟨t0, t1⟩ := convex_of_between hY hy
    refine ⟨(r.Y - a.Y) / (b.Y - a.Y), t0, t1, ?_⟩
    have hY' : b.Y - a.Y ≠ 0 := sub_ne_zero.mpr (Ne.symm hY)
    rw [XY.eq_iff]
    simp only [XY.Sub, XY.Scale, XY.Add]
    have hrx : r.X = a.X := by
      rw [← hX, min_self, max_self] at hx; linarith [hx.1, hx.2]
    constructor
    · rw [hrx, ← hX]; simp
    · field_simp
  · obtain ⟨t0, t1⟩ := convex_of_between hX hx
    refine ⟨(r.X - a.X) / (b.X - a.X), t0, t1, ?_⟩
    have hX' : b.X - a.X ≠ 0 := sub_ne_zero.mpr (Ne.symm hX)
    rw [XY.eq_iff]
    simp only [XY.Sub, XY.Scale, XY.Add]
    constructor
    · field_simp
    · field_simp
      simp only [crossProduct] at hc
      linarith


theorem pointAt_zero (a b : XY) : pointAt a b 0 = a := by
  rw [XY.eq_iff]; simp [pointAt, XY.Sub, XY.Scale, XY.Add]

theorem pointAt_one (a b : XY) : pointAt a b 1 = b := by
  rw [XY.eq_iff]; simp [pointAt, XY.Sub, XY.Scale, XY.Add]

theorem inClosedSegment_left (a b : XY) : InClosedSegment a b a :=
  ⟨0, le_refl _, zero_le_one, (pointAt_zero a b).symm⟩

theorem inClosedSegment_right (a b : XY) : InClosedSegment a b b :=
  ⟨1, zero_le_one, le_refl _, (pointAt_one a b).symm⟩

theorem pointAt_pointAt (a b : XY) (g e s : ℚ) :
    pointAt (pointAt a b g) (pointAt a b e) s = pointAt a b (g + s * (e - g)) := by
  rw [XY.eq_iff]; simp only [pointAt, XY.Sub, XY.Scale, XY.Add]
  constructor <;> ring

theorem pointAt_injective {a b : XY} (hab : a ≠ b) {s t : ℚ}
    (h : pointAt a b s = pointAt a b t) : s = t := by
  rw [XY.eq_iff] at h
  simp only [pointAt, XY.Sub, XY.Scale, XY.Add] at h
  obtain ⟨hx, hy⟩ := h
  by_contra hst
  apply hab
  have hst' : s - t ≠ 0 := sub_ne_zero.mpr hst
  rw [XY.eq_iff]
  constructor
  · have : (b.X - a.X) * (s - t) = 0 := by linarith
    rcases mul_eq_zero.mp this with h | h
    · linarith
    · exact absurd h hst'
  · have : (b.Y - a.Y) * (s - t) = 0 := by linarith
    rcases mul_eq_zero.mp this with h | h
    · linarith
    · exact absurd h hst'

/-- A point collinear with a non-degenerate segment has a parameter on its line. -/
theorem exists_pointAt_of_collinear {a b r : XY} (hab : a ≠ b)
    (hc : crossProduct a b r = 0) : ∃ g : ℚ, r = pointAt a b g := by
  by_cases hX : a.X = b.X
  · have hY : a.Y ≠ b.Y := by
      intro hY; apply hab; rw [XY.eq_iff]; exact ⟨hX, hY⟩
    have hY' : b.Y - a.Y ≠ 0 := sub_ne_zero.mpr (Ne.symm hY)
    refine ⟨(r.Y - a.Y) / (b.Y - a.Y), ?_⟩
    rw [XY.eq_iff]
    simp only [pointAt, XY.Sub, XY.Scale, XY.Add]
    simp only [crossProduct] at hc
    constructor
    · rw [← hX]; simp
      have : (b.Y - a.Y) * (r.X - a.X) = 0 := by rw [← hX] at hc; linarith
      rcases mul_eq_zero.mp this with h | h
      · exact absurd h hY'
      · linarith
    · field_simp
  · have hX' : b.X - a.X ≠ 0 := sub_ne_zero.mpr (Ne.symm hX)
    refine ⟨(r.X - a.X) / (b.X - a.X), ?_⟩
    rw [XY.eq_iff]
    simp only [pointAt, XY.Sub, XY.Scale, XY.Add]
    constructor
    · field_simp
    · field_simp
      simp only [crossProduct] at hc
      linarith

theorem crossProduct_pointAt (a b : XY) (g e s : ℚ) :
    crossProduct (pointAt a b g) (pointAt a b e) (pointAt a b s) = 0 := by
  simp only [crossProduct, pointAt, XY.Sub, XY.Scale, XY.Add]; ring

/-- Segments whose endpoints lie strictly on one side of the other's line do not meet. -/
theorem not_meet_of_same_side {a b c d : XY}
    (h : (0 < crossProduct a b c ∧ 0 < crossProduct a b d) ∨
         (crossProduct a b c < 0 ∧ crossProduct a b d < 0)) :
    ¬ SegmentsMeet a b c d := by
  rintro ⟨p, hab, hcd⟩
  have h0 := crossProduct_of_inClosedSegment hab
  obtain ⟨s, s0, s1, rfl⟩ := hcd
  rw [crossProduct_along] at h0
  rcases h with ⟨h1, h2⟩ | ⟨h1, h2⟩
  · rcases eq_or_lt_of_le s0 with hs | hs
    · subst hs; simp at h0; linarith
    · have := mul_pos hs h2
      have := mul_nonneg (sub_nonneg.mpr s1) h1.le
      linarith
  · rcases eq_or_lt_of_le s0 with hs | hs
    · subst hs; simp at h0; linarith
    · have := mul_neg_of_pos_of_neg hs h2
      have := mul_nonpos_of_nonneg_of_nonpos (sub_nonneg.mpr s1) h1.le
      linarith

theorem segmentsMeet_symm {a b c d : XY} (h : SegmentsMeet a b c d) : SegmentsMeet c d a b := by
  obtain ⟨p, h1, h2⟩ := h
  exact ⟨p, h2, h1⟩

/-- On one line, two segments that meet have an endpoint of one on the other. -/
theorem endpoint_on_other_of_meet {a b : XY} (hab : a ≠ b) {g e : ℚ}
    (h : SegmentsMeet a b (pointAt a b g) (pointAt a b e)) :
    InClosedSegment a b (pointAt a b g) ∨ InClosedSegment a b (pointAt a b e) ∨
      InClosedSegment (pointAt a b g) (pointAt a b e) a ∨
      InClosedSegment (pointAt a b g) (pointAt a b e) b := by
  obtain ⟨p, ⟨t, t0, t1, hp⟩, ⟨s, s0, s1, hp'⟩⟩ := h
  have hts : t = g + s * (e - g) := by
    apply pointAt_injective hab
    rw [← pointAt_pointAt]
    exact hp.symm.trans hp'
  by_cases hg : 0 ≤ g ∧ g ≤ 1
  · exact Or.inl ⟨g, hg.1, hg.2, rfl⟩
  by_cases he : 0 ≤ e ∧ e ≤ 1
  · exact Or.inr (Or.inl ⟨e, he.1, he.2, rfl⟩)
  right; right; left
  rw [not_and_or, not_le, not_le] at hg he
  have hge : g < 0 ∧ 1 < e ∨ 1 < g ∧ e < 0 := by
    have hconv : t = (1 - s) * g + s * e := by rw [hts]; ring
    rcases hg with hg | hg <;> rcases he with he | he
    · exfalso
      rcases eq_or_lt_of_le s1 with hs | hs
      · subst hs; linarith
      · have := mul_neg_of_pos_of_neg (sub_pos.mpr hs) hg
        have := mul_nonpos_of_nonneg_of_nonpos s0 he.le
        linarith
    · exact Or.inl ⟨hg, he⟩
    · exact Or.inr ⟨hg, he⟩
    · exfalso
      rcases eq_or_lt_of_le s1 with hs | hs
      · subst hs; linarith
      · have := mul_lt_mul_of_pos_left hg (sub_pos.mpr hs)
        have := mul_le_mul_of_nonneg_left he.le s0
        linarith
  have hne : e - g ≠ 0 := by
    rcases hge with ⟨h1, h2⟩ | ⟨h1, h2⟩
    · exact ne_of_gt (by linarith)
    · exact ne_of_lt (by linarith)
  refine ⟨-g / (e - g), ?_, ?_, ?_⟩
  · rcases hge with ⟨h1, h2⟩ | ⟨h1, h2⟩
    · apply div_nonneg <;> linarith
    · apply div_nonneg_of_nonpos <;> linarith
  · rcases hge with ⟨h1, h2⟩ | ⟨h1, h2⟩
    · rw [div_le_one (by linarith)]; linarith
    · rw [div_le_one_of_neg (by linarith)]; linarith
  · have h0 : g + -g / (e - g) * (e - g) = 0 := by field_simp
    show a = pointAt (pointAt a b g) (pointAt a b e) (-g / (e - g))
    rw [pointAt_pointAt, h0, pointAt_zero]


theorem orientation_leftTurn_iff (p q r : XY) :
    orientation p q r = leftTurn ↔ 0 < crossProduct p q r := by
  unfold orientation
  split_ifs with h1 h2 <;> simp [h1]

theorem orientation_rightTurn_iff (p q r : XY) :
    orientation p q r = rightTurn ↔ crossProduct p q r < 0 := by
  unfold orientation
  split_ifs with h1 h2
  · simp; exact le_of_lt h1
  · simp [h2]
  · simp; exact not_lt.mp h2

theorem orientation_eq_not_collinear {p q r s : XY}
    (h : orientation p q r = orientation p q s) (hc : orientation p q r ≠ collinear) :
    (0 < crossProduct p q r ∧ 0 < crossProduct p q s) ∨
      (crossProduct p q r < 0 ∧ crossProduct p q s < 0) := by
  rw [Ne, orientation_collinear_iff] at hc
  rcases lt_or_gt_of_ne hc with hlt | hgt
  · right
    have hr := (orientation_rightTurn_iff p q r).mpr hlt
    exact ⟨hlt, (orientation_rightTurn_iff p q s).mp (h ▸ hr)⟩
  · left
    have hl := (orientation_leftTurn_iff p q r).mpr hgt
    exact ⟨hgt, (orientation_leftTurn_iff p q s).mp (h ▸ hl)⟩

/-- In the collinear branch of `intersectLine` the four `onSegment` tests decide
whether the segments meet. -/
theorem collinear_meet_iff {a b c d : XY} (hab : a ≠ b) (hcd : c ≠ d)
    (h1 : crossProduct a b c = 0) (h2 : crossProduct a b d = 0) :
    SegmentsMeet a b c d ↔
      (onSegment a b c = true ∨ onSegment a b d = true ∨ onSegment c d a = true ∨
        onSegment c d b = true) := by
  obtain ⟨g, hg⟩ := exists_pointAt_of_collinear hab h1
  obtain ⟨e, he⟩ := exists_pointAt_of_collinear hab h2
  have h3 : crossProduct c d a = 0 := by
    have := crossProduct_pointAt a b g e 0
    rwa [pointAt_zero, ← hg, ← he] at this
  have h4 : crossProduct c d b = 0 := by
    have := crossProduct_pointAt a b g e 1
    rwa [pointAt_one, ← hg, ← he] at this
  constructor
  · intro h
    rw [hg, he] at h
    rcases endpoint_on_other_of_meet hab h with h | h | h | h
    · rw [← hg] at h; exact Or.inl (onSegment_of_inClosedSegment h)
    · rw [← he] at h; exact Or.inr (Or.inl (onSegment_of_inClosedSegment h))
    · rw [← hg, ← he] at h; exact Or.inr (Or.inr (Or.inl (onSegment_of_inClosedSegment h)))
    · rw [← hg, ← he] at h; exact Or.inr (Or.inr (Or.inr (onSegment_of_inClosedSegment h)))
  · rintro (h | h | h | h)
    · exact ⟨c, inClosedSegment_of_onSegment hab h1 h, inClosedSegment_left c d⟩
    · exact ⟨d, inClosedSegment_of_onSegment hab h2 h, inClosedSegment_right c d⟩
    · exact ⟨a, inClosedSegment_left a b, inClosedSegment_of_onSegment hcd h3 h⟩
    · exact ⟨b, inClosedSegment_right a b, inClosedSegment_of_onSegment hcd h4 h⟩

/-- `intersectLine` reports empty exactly when the closed segments do not meet. -/
theorem intersectLine_empty_iff (a b c d : XY) (hab : a ≠ b) (hcd : c ≠ d) :
    ((line.mk a b).intersectLine (line.mk c d)).empty = true ↔ ¬ SegmentsMeet a b c d := by
  by_cases hx : orientation a b c ≠ orientation a b d ∧ orientation c d a ≠ orientation c d b
  · rw [intersectLine_crossing hx.1 hx.2]
    simp only [Bool.false_eq_true, false_iff, not_not]
    exact ⟨_, crossingPoint_on_first hx.2, crossingPoint_on_second hx.1⟩
  · by_cases hc : orientation a b c = collinear ∧ orientation a b d = collinear
    · have h1 := (orientation_collinear_iff _ _ _).mp hc.1
      have h2 := (orientation_collinear_iff _ _ _).mp hc.2
      rw [collinear_meet_iff hab hcd h1 h2]
      simp only [line.intersectLine]
      rw [if_neg hx, if_pos hc]
      split_ifs with hs
      · simp only [Bool.and_eq_true, Bool.not_eq_true', true_iff] at hs ⊢
        simp [hs.1.1, hs.1.2, hs.2.1, hs.2.2]
      · simp only [Bool.and_eq_true, Bool.not_eq_true'] at hs
        simp only [Bool.false_eq_true, false_iff, not_not]
        by_contra hn
        apply hs
        simp only [not_or, Bool.not_eq_true] at hn
        exact ⟨⟨hn.1, hn.2.1⟩, hn.2.2.1, hn.2.2.2⟩
    · have hemp : ((line.mk a b).intersectLine (line.mk c d)).empty = true := by
        simp only [line.intersectLine]
        rw [if_neg hx, if_neg hc]
      simp only [hemp, true_iff]
      by_cases h12 : orientation a b c = orientation a b d
      · have hnc : orientation a b c ≠ collinear := by
          intro h; exact hc ⟨h, h12 ▸ h⟩
        exact not_meet_of_same_side (orientation_eq_not_collinear h12 hnc)
      · have h34 : orientation c d a = orientation c d b := by
          by_contra h; exact hx ⟨h12, h⟩
        have hnc : orientation c d a ≠ collinear := by
          intro h
          have h3 := (orientation_collinear_iff _ _ _).mp h
          have h4 := (orientation_collinear_iff _ _ _).mp (h34 ▸ h)
          have hf := crossingDenominator_ne_zero h12
          rw [crossingDenominator_eq, h3, h4] at hf
          simp at hf
        intro hm
        exact not_meet_of_same_side (orientation_eq_not_collinear h34 hnc) (segmentsMeet_symm hm)

/-! ## The collinear block -/

theorem lexLE_refl (p : XY) : LexLE p p := Or.inr ⟨rfl, le_refl _⟩

theorem lexLE_total (p q : XY) : LexLE p q ∨ LexLE q p := by
  unfold LexLE
  rcases lt_trichotomy p.X q.X with h | h | h
  · exact Or.inl (Or.inl h)
  · rcases le_total p.Y q.Y with h' | h'
    · exact Or.inl (Or.inr ⟨h, h'⟩)
    · exact Or.inr (Or.inr ⟨h.symm, h'⟩)
  · exact Or.inr (Or.inl h)

theorem lexLE_trans {p q r : XY} (h1 : LexLE p q) (h2 : LexLE q r) : LexLE p r := by
  unfold LexLE at *
  rcases h1 with h1 | ⟨h1, h1'⟩ <;> rcases h2 with h2 | ⟨h2, h2'⟩
  · exact Or.inl (lt_trans h1 h2)
  · exact Or.inl (h2 ▸ h1)
  · exact Or.inl (h1 ▸ h2)
  · exact Or.inr ⟨h1.trans h2, le_trans h1' h2'⟩

theorem lexLE_antisymm {p q : XY} (h1 : LexLE p q) (h2 : LexLE q p) : p = q := by
  unfold LexLE at *
  rw [XY.eq_iff]
  rcases h1 with h1 | ⟨h1, h1'⟩ <;> rcases h2 with h2 | ⟨h2, h2'⟩
  · exact absurd h1 (not_lt.mpr h2.le)
  · rw [h2] at h1; exact absurd h1 (lt_irrefl _)
  · rw [h1] at h2; exact absurd h2 (lt_irrefl _)
  · exact ⟨h1, le_antisymm h1' h2'⟩

theorem lexLE_of_not_lexLT {p q : XY} (h : ¬ LexLT p q) : LexLE q p := by
  unfold LexLT at h
  unfold LexLE
  rw [not_or, not_and, not_lt, not_lt] at h
  rcases eq_or_lt_of_le h.1 with h' | h'
  · exact Or.inr ⟨h', h.2 h'.symm⟩
  · exact Or.inl h'

theorem lexLE_of_lexLT {p q : XY} (h : LexLT p q) : LexLE p q := by
  rcases h with h | ⟨h, h'⟩
  · exact Or.inl h
  · exact Or.inr ⟨h, h'.le⟩

theorem getD_of_drop_eq_cons {ps : List XY} {i : Nat} {p : XY} {rest : List XY}
    (h : ps.drop i = p :: rest) : i < ps.length ∧ ps.getD i XY.zero = p ∧
      ps.drop (i + 1) = rest := by
  have hi : i < ps.length := by
    by_contra hn
    rw [List.drop_eq_nil_of_le (not_lt.mp hn)] at h
    exact List.noConfusion h
  refine ⟨hi, ?_, ?_⟩
  · rw [List.getD_eq_getElem _ _ hi]
    have h0 : (ps.drop i)[0]? = some p := by rw [h]; simp
    rw [List.getElem?_drop, add_zero, List.getElem?_eq_getElem hi] at h0
    exact Option.some.inj h0
  · have := congrArg (List.drop 1) h
    simpa [List.drop_drop, add_comm] using this

/-- Loop invariant of `rightmostThenHighestIndex`: the index returned is in range
and its point is lexicographically greatest. -/
theorem rightmostThenHighestLoop_spec (ps : List XY) :
    ∀ (rest : List XY) (rpi i : Nat), ps.drop i = rest → rpi < ps.length →
      (∀ j, j < i → LexLE (ps.getD j XY.zero) (ps.getD rpi XY.zero)) →
      rightmostThenHighestLoop ps rpi i rest < ps.length ∧
      ∀ j, j < ps.length →
        LexLE (ps.getD j XY.zero) (ps.getD (rightmostThenHighestLoop ps rpi i rest) XY.zero) := by
  intro rest
  induction rest with
  | nil =>
    intro rpi i hd hr hinv
    simp only [rightmostThenHighestLoop]
    refine ⟨hr, fun j hj => hinv j ?_⟩
    have := List.drop_eq_nil_iff.mp hd
    omega
  | cons p rest ih =>
    intro rpi i hd hr hinv
    obtain ⟨hi, hp, hd'⟩ := getD_of_drop_eq_cons hd
    simp only [rightmostThenHighestLoop]
    split_ifs with hc
    · apply ih i (i + 1) hd' hi
      intro j hj
      have hlt : LexLT (ps.getD rpi XY.zero) (ps.getD i XY.zero) := by
        rw [hp]; unfold LexLT
        rcases hc with h | ⟨h1, h2⟩
        · exact Or.inl h
        · exact Or.inr ⟨h1.symm, h2⟩
      rcases Nat.lt_succ_iff_lt_or_eq.mp hj with h | h
      · exact lexLE_trans (hinv j h) (lexLE_of_lexLT hlt)
      · rw [h]; exact lexLE_refl _
    · apply ih rpi (i + 1) hd' hr
      intro j hj
      have hnlt : ¬ LexLT (ps.getD rpi XY.zero) (ps.getD i XY.zero) := by
        rw [hp]; unfold LexLT
        intro h; apply hc
        rcases h with h | ⟨h1, h2⟩
        · exact Or.inl h
        · exact Or.inr ⟨h1.symm, h2⟩
      rcases Nat.lt_succ_iff_lt_or_eq.mp hj with h | h
      · exact hinv j h
      · rw [h]; exact lexLE_of_not_lexLT hnlt

theorem rightmostThenHighestIndex_spec (ps : List XY) (hne : 0 < ps.length) :
    rightmostThenHighestIndex ps < ps.length ∧
    ∀ j, j < ps.length →
      LexLE (ps.getD j XY.zero) (ps.getD (rightmostThenHighestIndex ps) XY.zero) := by
  apply rightmostThenHighestLoop_spec ps (ps.drop 1) 0 1 rfl hne
  intro j hj
  have : j = 0 := by omega
  rw [this]; exact lexLE_refl _

/-- Loop invariant of `leftmostThenLowestIndex`. -/
theorem leftmostThenLowestLoop_spec (ps : List XY) :
    ∀ (rest : List XY) (rpi i : Nat), ps.drop i = rest → rpi < ps.length →
      (∀ j, j < i → LexLE (ps.getD rpi XY.zero) (ps.getD j XY.zero)) →
      leftmostThenLowestLoop ps rpi i rest < ps.length ∧
      ∀ j, j < ps.length →
        LexLE (ps.getD (leftmostThenLowestLoop ps rpi i rest) XY.zero) (ps.getD j XY.zero) := by
  intro rest
  induction rest with
  | nil =>
    intro rpi i hd hr hinv
    simp only [leftmostThenLowestLoop]
    refine ⟨hr, fun j hj => hinv j ?_⟩
    have := List.drop_eq_nil_iff.mp hd
    omega
  | cons p rest ih =>
    intro rpi i hd hr hinv
    obtain ⟨hi, hp, hd'⟩ := getD_of_drop_eq_cons hd
    simp only [leftmostThenLowestLoop]
    split_ifs with hc
    · apply ih i (i + 1) hd' hi
      intro j hj
      have hlt : LexLT (ps.getD i XY.zero) (ps.getD rpi XY.zero) := by
        rw [hp]; exact hc
      rcases Nat.lt_succ_iff_lt_or_eq.mp hj with h | h
      · exact lexLE_trans (lexLE_of_lexLT hlt) (hinv j h)
      · rw [h]; exact lexLE_refl _
    · apply ih rpi (i + 1) hd' hr
      intro j hj
      have hnlt : ¬ LexLT (ps.getD i XY.zero) (ps.getD rpi XY.zero) := by
        rw [hp]; exact hc
      rcases Nat.lt_succ_iff_lt_or_eq.mp hj with h | h
      · exact hinv j h
      · rw [h]; exact lexLE_of_not_lexLT hnlt

theorem leftmostThenLowestIndex_spec (ps : List XY) (hne : 0 < ps.length) :
    leftmostThenLowestIndex ps < ps.length ∧
    ∀ j, j < ps.length →
      LexLE (ps.getD (leftmostThenLowestIndex ps) XY.zero) (ps.getD j XY.zero) := by
  apply leftmostThenLowestLoop_spec ps (ps.drop 1) 0 1 rfl hne
  intro j hj
  have : j = 0 := by omega
  rw [this]; exact lexLE_refl _

theorem perm_getD_cons_eraseIdx (l : List XY) (i : Nat) (hi : i < l.length) :
    List.Perm l (l.getD i XY.zero :: l.eraseIdx i) := by
  induction l generalizing i with
  | nil => simp at hi
  | cons x xs ih =>
    cases i with
    | zero => simp
    | succ n =>
      have hn : n < xs.length := by simpa using hi
      have := ih n hn
      simp only [List.getD_cons_succ, List.eraseIdx_cons_succ]
      exact (List.Perm.cons x this).trans (List.Perm.swap _ _ _)

theorem forall_mem_of_forall_getD {l : List XY} {P : XY → Prop}
    (h : ∀ j, j < l.length → P (l.getD j XY.zero)) : ∀ q ∈ l, P q := by
  intro q hq
  obtain ⟨n, hn, rfl⟩ := List.getElem_of_mem hq
  have := h n hn
  rwa [List.getD_eq_getElem _ _ hn] at this

/-- What the collinear block of `intersectLine` leaves: the four endpoints without
a lexicographically greatest and a lexicographically least one. -/
theorem collinearRemainder_spec (a b c d : XY) :
    ∃ hi lo x y : XY, collinearRemainder a b c d = [x, y] ∧
      List.Perm [a, b, c, d] [hi, lo, x, y] ∧
      (∀ q ∈ [a, b, c, d], LexLE q hi) ∧ (∀ q ∈ [a, b, c, d], LexLE lo q) := by
  obtain ⟨hi1, hi2⟩ := rightmostThenHighestIndex_spec [a, b, c, d] (by simp)
  have hp1 := perm_getD_cons_eraseIdx [a, b, c, d] _ hi1
  have hlen1 : ([a, b, c, d].eraseIdx (rightmostThenHighestIndex [a, b, c, d])).length = 3 := by
    rw [List.length_eraseIdx, if_pos hi1]; rfl
  obtain ⟨lo1, lo2⟩ := leftmostThenLowestIndex_spec
    ([a, b, c, d].eraseIdx (rightmostThenHighestIndex [a, b, c, d])) (by omega)
  have hp2 := perm_getD_cons_eraseIdx _ _ lo1
  have hlen2 : (collinearRemainder a b c d).length = 2 := by
    unfold collinearRemainder
    simp only []
    rw [List.length_eraseIdx, if_pos lo1, hlen1]
  obtain ⟨x, y, hxy⟩ : ∃ x y, collinearRemainder a b c d = [x, y] := by
    match h : collinearRemainder a b c d, hlen2 with
    | [x, y], _ => exact ⟨x, y, rfl⟩
  have hrem : ([a, b, c, d].eraseIdx (rightmostThenHighestIndex [a, b, c, d])).eraseIdx
      (leftmostThenLowestIndex ([a, b, c, d].eraseIdx (rightmostThenHighestIndex [a, b, c, d])))
      = [x, y] := hxy
  rw [hrem] at hp2
  have hall := forall_mem_of_forall_getD (P := fun q =>
    LexLE q ([a, b, c, d].getD (rightmostThenHighestIndex [a, b, c, d]) XY.zero)) hi2
  have hall2 := forall_mem_of_forall_getD (P := fun q =>
    LexLE (([a, b, c, d].eraseIdx (rightmostThenHighestIndex [a, b, c, d])).getD
      (leftmostThenLowestIndex ([a, b, c, d].eraseIdx (rightmostThenHighestIndex [a, b, c, d])))
      XY.zero) q) lo2
  refine ⟨_, _, x, y, hxy, hp1.trans (List.Perm.cons _ hp2), hall, ?_⟩
  intro q hq
  have hq' := hp1.mem_iff.mp hq
  rcases List.mem_cons.mp hq' with h | h
  · rw [h]
    apply hall
    apply hp1.mem_iff.mpr
    apply List.mem_cons_of_mem
    apply hp2.mem_iff.mpr
    exact List.mem_cons_self _ _
  · exact hall2 q h

theorem pair_perm_cases {x y u v : XY} (h : List.Perm [x, y] [u, v]) :
    (x = u ∧ y = v) ∨ (x = v ∧ y = u) := by
  have hx : x ∈ [u, v] := h.mem_iff.mp (List.mem_cons_self _ _)
  simp only [List.mem_cons, List.mem_singleton, List.not_mem_nil, or_false] at hx
  rcases hx with rfl | rfl
  · left
    have := List.Perm.cons_inv h
    exact ⟨rfl, List.perm_singleton.mp this |> List.singleton_inj.mp⟩
  · right
    have h2 : List.Perm [x, y] [x, u] := h.trans (List.Perm.swap _ _ _)
    have := List.Perm.cons_inv h2
    exact ⟨rfl, List.perm_singleton.mp this |> List.singleton_inj.mp⟩

/-- The collinear block gives the same two points, up to order, when the two
segments are exchanged. -/
theorem collinearRemainder_comm (a b c d : XY) :
    ∃ x y u v : XY, collinearRemainder a b c d = [x, y] ∧ collinearRemainder c d a b = [u, v] ∧
      ((x = u ∧ y = v) ∨ (x = v ∧ y = u)) := by
  obtain ⟨hi, lo, x, y, hr, hp, hhi, hlo⟩ := collinearRemainder_spec a b c d
  obtain ⟨hi2, lo2, u, v, hr2, hp2, hhi2, hlo2⟩ := collinearRemainder_spec c d a b
  refine ⟨x, y, u, v, hr, hr2, ?_⟩
  have hsw : List.Perm [a, b, c, d] [c, d, a, b] := by
    have : [a, b, c, d] = [a, b] ++ [c, d] := rfl
    rw [this]; exact List.perm_append_comm
  have hmem1 : hi ∈ [a, b, c, d] := hp.mem_iff.mpr (List.mem_cons_self _ _)
  have hmem2 : hi2 ∈ [c, d, a, b] := hp2.mem_iff.mpr (List.mem_cons_self _ _)
  have hlm1 : lo ∈ [a, b, c, d] :=
    hp.mem_iff.mpr (List.mem_cons_of_mem _ (List.mem_cons_self _ _))
  have hlm2 : lo2 ∈ [c, d, a, b] :=
    hp2.mem_iff.mpr (List.mem_cons_of_mem _ (List.mem_cons_self _ _))
  have e1 : hi = hi2 :=
    lexLE_antisymm (hhi2 hi (hsw.mem_iff.mp hmem1)) (hhi hi2 (hsw.mem_iff.mpr hmem2))
  have e2 : lo = lo2 :=
    lexLE_antisymm (hlo lo2 (hsw.mem_iff.mpr hlm2)) (hlo2 lo (hsw.mem_iff.mp hlm1))
  subst e1 e2
  have hpp : List.Perm [hi, lo, x, y] [hi, lo, u, v] := hp.symm.trans (hsw.trans hp2)
  exact pair_perm_cases (List.Perm.cons_inv (List.Perm.cons_inv hpp))

theorem onSegment_tests_comm (a b c d : XY) :
    ((!onSegment a b c && !onSegment a b d) && (!onSegment c d a && !onSegment c d b)) =
    ((!onSegment c d a && !onSegment c d b) && (!onSegment a b c && !onSegment a b d)) := by
  rw [Bool.and_comm]

/-- C2: for segments s = (a,b) and s2 = (c,d), `s.intersectLine(s2)` and
`s2.intersectLine(s)` agree: both are empty, or both are non-empty with the same
unordered pair of points {ptA, ptB}. -/
theorem C2_intersectLine_comm (a b c d : XY) (hab : a ≠ b) (hcd : c ≠ d) :
    (((line.mk a b).intersectLine (line.mk c d)).empty = true ∧
      ((line.mk c d).intersectLine (line.mk a b)).empty = true) ∨
    (((line.mk a b).intersectLine (line.mk c d)).empty = false ∧
      ((line.mk c d).intersectLine (line.mk a b)).empty = false ∧
      ((((line.mk a b).intersectLine (line.mk c d)).ptA =
          ((line.mk c d).intersectLine (line.mk a b)).ptA ∧
        ((line.mk a b).intersectLine (line.mk c d)).ptB =
          ((line.mk c d).intersectLine (line.mk a b)).ptB) ∨
       (((line.mk a b).intersectLine (line.mk c d)).ptA =
          ((line.mk c d).intersectLine (line.mk a b)).ptB ∧
        ((line.mk a b).intersectLine (line.mk c d)).ptB =
          ((line.mk c d).intersectLine (line.mk a b)).ptA))) := by
  by_cases hx : orientation a b c ≠ orientation a b d ∧ orientation c d a ≠ orientation c d b
  · right
    have hP : crossingPoint c d a b = crossingPoint a b c d :=
      eq_crossingPoint (crossingDenominator_ne_zero hx.1) (crossingPoint_on_second hx.2)
        (crossingPoint_on_first hx.1)
    rw [intersectLine_crossing hx.1 hx.2, intersectLine_crossing hx.2 hx.1, hP]
    exact ⟨rfl, rfl, Or.inl ⟨rfl, rfl⟩⟩
  · have hx2 : ¬ (orientation c d a ≠ orientation c d b ∧
        orientation a b c ≠ orientation a b d) := fun h => hx ⟨h.2, h.1⟩
    by_cases hc : orientation a b c = collinear ∧ orientation a b d = collinear
    · have h1 := (orientation_collinear_iff _ _ _).mp hc.1
      have h2 := (orientation_collinear_iff _ _ _).mp hc.2
      obtain ⟨g, hg⟩ := exists_pointAt_of_collinear hab h1
      obtain ⟨e, he⟩ := exists_pointAt_of_collinear hab h2
      have h3 : crossProduct c d a = 0 := by
        have := crossProduct_pointAt a b g e 0
        rwa [pointAt_zero, ← hg, ← he] at this
      have h4 : crossProduct c d b = 0 := by
        have := crossProduct_pointAt a b g e 1
        rwa [pointAt_one, ← hg, ← he] at this
      have hc2 : orientation c d a = collinear ∧ orientation c d b = collinear :=
        ⟨(orientation_collinear_iff _ _ _).mpr h3, (orientation_collinear_iff _ _ _).mpr h4⟩
      obtain ⟨x, y, u, v, hr, hr2, hxy⟩ := collinearRemainder_comm a b c d
      simp only [line.intersectLine]
      rw [if_neg hx, if_pos hc, if_neg hx2, if_pos hc2, onSegment_tests_comm c d a b, hr, hr2]
      split_ifs with hs
      · exact Or.inl ⟨rfl, rfl⟩
      · right
        refine ⟨rfl, rfl, ?_⟩
        simpa using hxy
    · left
      have hemp : ((line.mk a b).intersectLine (line.mk c d)).empty = true := by
        simp only [line.intersectLine]
        rw [if_neg hx, if_neg hc]
      refine ⟨hemp, ?_⟩
      rw [intersectLine_empty_iff a b c d hab hcd] at hemp
      rw [intersectLine_empty_iff c d a b hcd hab]
      exact fun h => hemp (segmentsMeet_symm h)

theorem between_iff_min_max (u v t : ℚ) : Between u v t ↔ min u v ≤ t ∧ t ≤ max u v := by
  unfold Between
  rcases le_total u v with h | h
  · rw [min_eq_left h, max_eq_right h]
    constructor
    · rintro (h1 | h1)
      · exact h1
      · exact ⟨by linarith [h1.1, h1.2], by linarith [h1.1, h1.2]⟩
    · exact fun h1 => Or.inl h1
  · rw [min_eq_right h, max_eq_left h]
    constructor
    · rintro (h1 | h1)
      · exact ⟨by linarith [h1.1, h1.2], by linarith [h1.1, h1.2]⟩
      · exact h1
    · exact fun h1 => Or.inr h1

theorem pair_perm_min_max (u v : ℚ) : List.Perm [u, v] [min u v, max u v] := by
  rcases le_total u v with h | h
  · rw [min_eq_left h, max_eq_right h]
  · rw [min_eq_right h, max_eq_left h]; exact List.Perm.swap _ _ _

theorem pair_perm_cases_rat {x y u v : ℚ} (h : List.Perm [x, y] [u, v]) :
    (x = u ∧ y = v) ∨ (x = v ∧ y = u) := by
  have hx : x ∈ [u, v] := h.mem_iff.mp (List.mem_cons_self _ _)
  simp only [List.mem_cons, List.mem_singleton, List.not_mem_nil, or_false] at hx
  rcases hx with rfl | rfl
  · left
    exact ⟨rfl, List.singleton_inj.mp (List.perm_singleton.mp (List.Perm.cons_inv h))⟩
  · right
    have h2 : List.Perm [x, y] [x, u] := h.trans (List.Perm.swap _ _ _)
    exact ⟨rfl, List.singleton_inj.mp (List.perm_singleton.mp (List.Perm.cons_inv h2))⟩

/-- Of four rationals, those left after removing a greatest and a least bound the
intersection of the two intervals, when the intervals meet. -/
theorem middle_two_between {ka kb kc kd khi klo kx ky : ℚ}
    (hp : List.Perm [ka, kb, kc, kd] [khi, klo, kx, ky])
    (hhi : ∀ q ∈ [ka, kb, kc, kd], q ≤ khi) (hlo : ∀ q ∈ [ka, kb, kc, kd], klo ≤ q)
    (hm : ∃ t0, Between ka kb t0 ∧ Between kc kd t0) (t : ℚ) :
    (Between ka kb t ∧ Between kc kd t) ↔ Between kx ky t := by
  have ha1 := hhi ka (by simp)
  have hb1 := hhi kb (by simp)
  have hc1 := hhi kc (by simp)
  have hd1 := hhi kd (by simp)
  have ha2 := hlo ka (by simp)
  have hb2 := hlo kb (by simp)
  have hc2 := hlo kc (by simp)
  have hd2 := hlo kd (by simp)
  have hLR : max (min ka kb) (min kc kd) ≤ min (max ka kb) (max kc kd) := by
    obtain ⟨t0, h1, h2⟩ := hm
    rw [between_iff_min_max] at h1 h2
    exact le_trans (max_le h1.1 h2.1) (le_min h1.2 h2.2)
  have hmemhi : khi ∈ [ka, kb, kc, kd] := hp.mem_iff.mpr (List.mem_cons_self _ _)
  have hmemlo : klo ∈ [ka, kb, kc, kd] :=
    hp.mem_iff.mpr (List.mem_cons_of_mem _ (List.mem_cons_self _ _))
  have hHI : khi = max (max ka kb) (max kc kd) := by
    apply le_antisymm
    · simp only [List.mem_cons, List.mem_singleton, List.not_mem_nil, or_false] at hmemhi
      rcases hmemhi with h | h | h | h <;> rw [h] <;> simp
    · exact max_le (max_le ha1 hb1) (max_le hc1 hd1)
  have hLO : klo = min (min ka kb) (min kc kd) := by
    apply le_antisymm
    · exact le_min (le_min ha2 hb2) (le_min hc2 hd2)
    · simp only [List.mem_cons, List.mem_singleton, List.not_mem_nil, or_false] at hmemlo
      rcases hmemlo with h | h | h | h <;> rw [h] <;> simp
  have hq1 : List.Perm [ka, kb, kc, kd] [min ka kb, max ka kb, min kc kd, max kc kd] :=
    List.Perm.append (pair_perm_min_max ka kb) (pair_perm_min_max kc kd)
  have hq2 : List.Perm [min ka kb, max ka kb, min kc kd, max kc kd]
      [min ka kb, min kc kd, max ka kb, max kc kd] :=
    List.Perm.cons _ (List.Perm.swap _ _ _)
  have hq3 : List.Perm [min ka kb, min kc kd, max ka kb, max kc kd]
      [min (min ka kb) (min kc kd), max (min ka kb) (min kc kd),
       min (max ka kb) (max kc kd), max (max ka kb) (max kc kd)] :=
    List.Perm.append (pair_perm_min_max _ _) (pair_perm_min_max _ _)
  have hq4 : List.Perm [min (min ka kb) (min kc kd), max (min ka kb) (min kc kd),
       min (max ka kb) (max kc kd), max (max ka kb) (max kc kd)]
      [max (max ka kb) (max kc kd), min (min ka kb) (min kc kd),
       max (min ka kb) (min kc kd), min (max ka kb) (max kc kd)] :=
    @List.perm_append_comm ℚ [_, _, _] [_]
  have hall := hp.symm.trans (hq1.trans (hq2.trans (hq3.trans hq4)))
  rw [hHI, hLO] at hall
  have hxy := pair_perm_cases_rat (List.Perm.cons_inv (List.Perm.cons_inv hall))
  rw [between_iff_min_max ka kb, between_iff_min_max kc kd]
  have key : (min ka kb ≤ t ∧ t ≤ max ka kb) ∧ (min kc kd ≤ t ∧ t ≤ max kc kd) ↔
      (max (min ka kb) (min kc kd) ≤ t ∧ t ≤ min (max ka kb) (max kc kd)) := by
    rw [max_le_iff, le_min_iff]; tauto
  rw [key]
  unfold Between
  rcases hxy with ⟨h1, h2⟩ | ⟨h1, h2⟩
  · rw [h1, h2]
    constructor
    · exact fun h => Or.inl h
    · rintro (h | h)
      · exact h
      · exact ⟨by linarith [h.1, h.2], by linarith [h.1, h.2]⟩
  · rw [h1, h2]
    constructor
    · exact fun h => Or.inr h
    · rintro (h | h)
      · exact ⟨by linarith [h.1, h.2], by linarith [h.1, h.2]⟩
      · exact h

theorem lexLT_or_of_ne {a b : XY} (hab : a ≠ b) : LexLT a b ∨ LexLT b a := by
  unfold LexLT
  rcases lt_trichotomy a.X b.X with h | h | h
  · exact Or.inl (Or.inl h)
  · rcases lt_trichotomy a.Y b.Y with h2 | h2 | h2
    · exact Or.inl (Or.inr ⟨h, h2⟩)
    · exact absurd ((XY.eq_iff a b).mpr ⟨h, h2⟩) hab
    · exact Or.inr (Or.inr ⟨h.symm, h2⟩)
  · exact Or.inr (Or.inl h)

theorem lexLE_pointAt_of_lexLT {a b : XY} (hab : LexLT a b) (s t : ℚ) :
    LexLE (pointAt a b s) (pointAt a b t) ↔ s ≤ t := by
  simp only [LexLE, pointAt, XY.Sub, XY.Scale, XY.Add]
  rcases hab with h | ⟨h1, h2⟩
  · have hd : 0 < b.X - a.X := sub_pos.mpr h
    constructor
    · rintro (h3 | ⟨h3, -⟩)
      · have : (b.X - a.X) * s < (b.X - a.X) * t := by linarith
        exact ((mul_lt_mul_left hd).mp this).le
      · have : (b.X - a.X) * s = (b.X - a.X) * t := by linarith
        exact (mul_left_cancel₀ (ne_of_gt hd) this).le
    · intro hst
      rcases eq_or_lt_of_le hst with h3 | h3
      · right; rw [h3]; exact ⟨rfl, le_refl _⟩
      · left
        have := (mul_lt_mul_left hd).mpr h3
        linarith
  · have hd : 0 < b.Y - a.Y := sub_pos.mpr h2
    rw [h1]
    simp only [sub_self, zero_mul, zero_add, lt_self_iff_false, true_and, false_or]
    constructor
    · intro h3
      have : (b.Y - a.Y) * s ≤ (b.Y - a.Y) * t := by linarith
      exact (mul_le_mul_left hd).mp this
    · intro hst
      have := (mul_le_mul_left hd).mpr hst
      linarith

theorem pointAt_reverse (a b : XY) (t : ℚ) : pointAt a b t = pointAt b a (1 - t) := by
  rw [XY.eq_iff]; simp only [pointAt, XY.Sub, XY.Scale, XY.Add]
  constructor <;> ring

theorem lexLE_pointAt_of_lexGT {a b : XY} (hab : LexLT b a) (s t : ℚ) :
    LexLE (pointAt a b s) (pointAt a b t) ↔ t ≤ s := by
  rw [pointAt_reverse a b s, pointAt_reverse a b t, lexLE_pointAt_of_lexLT hab]
  constructor <;> intro h <;> linarith

/-- A segment between two points of the line through `a, b`, in parameters. -/
theorem inClosedSegment_pointAt {a b : XY} (hab : a ≠ b) (s1 s2 : ℚ) (p : XY) :
    InClosedSegment (pointAt a b s1) (pointAt a b s2) p ↔
      ∃ t, p = pointAt a b t ∧ Between s1 s2 t := by
  constructor
  · rintro ⟨u, u0, u1, hp⟩
    refine ⟨s1 + u * (s2 - s1), ?_, ?_⟩
    · rw [← pointAt_pointAt]; exact hp
    · unfold Between
      rcases le_total s1 s2 with h | h
      · left; constructor <;> nlinarith
      · right; constructor <;> nlinarith
  · rintro ⟨t, rfl, hb⟩
    by_cases hs : s1 = s2
    · subst hs
      have ht : t = s1 := by
        rcases hb with hb | hb <;> linarith [hb.1, hb.2]
      subst ht
      exact inClosedSegment_left _ _
    · have hbt : min s1 s2 ≤ t ∧ t ≤ max s1 s2 := by
        rcases hb with hb | hb
        · exact ⟨le_trans (min_le_left _ _) hb.1, le_trans hb.2 (le_max_right _ _)⟩
        · exact ⟨le_trans (min_le_right _ _) hb.1, le_trans hb.2 (le_max_left _ _)⟩
      obtain ⟨u0, u1⟩ := convex_of_between hs hbt
      refine ⟨(t - s1) / (s2 - s1), u0, u1, ?_⟩
      show pointAt a b t = pointAt (pointAt a b s1) (pointAt a b s2) ((t - s1) / (s2 - s1))
      rw [pointAt_pointAt]
      have hne : s2 - s1 ≠ 0 := sub_ne_zero.mpr (Ne.symm hs)
      congr 1
      field_simp

theorem eq_pointAt_lineParam {a b q : XY} (hab : a ≠ b) (hc : crossProduct a b q = 0) :
    q = pointAt a b (lineParam a b q) := by
  unfold lineParam
  by_cases hX : a.X = b.X
  · have hY : a.Y ≠ b.Y := by
      intro hY; apply hab; rw [XY.eq_iff]; exact ⟨hX, hY⟩
    have hY2 : b.Y - a.Y ≠ 0 := sub_ne_zero.mpr (Ne.symm hY)
    rw [if_pos hX, XY.eq_iff]
    simp only [pointAt, XY.Sub, XY.Scale, XY.Add]
    simp only [crossProduct] at hc
    constructor
    · rw [← hX]; simp
      have : (b.Y - a.Y) * (q.X - a.X) = 0 := by rw [← hX] at hc; linarith
      rcases mul_eq_zero.mp this with h | h
      · exact absurd h hY2
      · linarith
    · field_simp
  · have hX2 : b.X - a.X ≠ 0 := sub_ne_zero.mpr (Ne.symm hX)
    rw [if_neg hX, XY.eq_iff]
    simp only [pointAt, XY.Sub, XY.Scale, XY.Add]
    constructor
    · field_simp
    · field_simp
      simp only [crossProduct] at hc
      linarith

theorem crossProduct_line_pointAt (a b : XY) (t : ℚ) : crossProduct a b (pointAt a b t) = 0 := by
  simp only [crossProduct, pointAt, XY.Sub, XY.Scale, XY.Add]; ring

theorem lineParam_pointAt {a b : XY} (hab : a ≠ b) (t : ℚ) :
    lineParam a b (pointAt a b t) = t :=
  (pointAt_injective hab (eq_pointAt_lineParam hab (crossProduct_line_pointAt a b t))).symm

theorem between_comm (u v t : ℚ) : Between u v t ↔ Between v u t := by
  unfold Between; tauto

/-- On one line, the common part of two segments that meet is the segment between
the two endpoints left after removing a lexicographically greatest and a least one. -/
theorem collinear_common_iff {a b c d hi lo x y : XY} (hab : a ≠ b)
    (h1 : crossProduct a b c = 0) (h2 : crossProduct a b d = 0)
    (hm : SegmentsMeet a b c d)
    (hp : List.Perm [a, b, c, d] [hi, lo, x, y])
    (hhi : ∀ q ∈ [a, b, c, d], LexLE q hi) (hlo : ∀ q ∈ [a, b, c, d], LexLE lo q) (p : XY) :
    (InClosedSegment a b p ∧ InClosedSegment c d p) ↔ InClosedSegment x y p := by
  have hcol : ∀ q ∈ [a, b, c, d], q = pointAt a b (lineParam a b q) := by
    intro q hq
    apply eq_pointAt_lineParam hab
    simp only [List.mem_cons, List.mem_singleton, List.not_mem_nil, or_false] at hq
    rcases hq with rfl | rfl | rfl | rfl
    · simp [crossProduct]
    · simp only [crossProduct]; ring
    · exact h1
    · exact h2
  have hpa : lineParam a b a = 0 := by
    have := lineParam_pointAt hab 0; rwa [pointAt_zero] at this
  have hpb : lineParam a b b = 1 := by
    have := lineParam_pointAt hab 1; rwa [pointAt_one] at this
  have hmhi : hi ∈ [a, b, c, d] := hp.mem_iff.mpr (by simp)
  have hmlo : lo ∈ [a, b, c, d] := hp.mem_iff.mpr (by simp)
  have hmx : x ∈ [a, b, c, d] := hp.mem_iff.mpr (by simp)
  have hmy : y ∈ [a, b, c, d] := hp.mem_iff.mpr (by simp)
  have hc := hcol c (by simp)
  have hd := hcol d (by simp)
  have hx := hcol x hmx
  have hy := hcol y hmy
  have hpk := hp.map (lineParam a b)
  simp only [List.map_cons, List.map_nil, hpa, hpb] at hpk
  -- the two segments in parameters
  have seg1 : ∀ q, InClosedSegment a b q ↔ ∃ t, q = pointAt a b t ∧ Between 0 1 t := by
    intro q
    have := inClosedSegment_pointAt hab 0 1 q
    rwa [pointAt_zero, pointAt_one] at this
  have seg2 : ∀ q, InClosedSegment c d q ↔
      ∃ t, q = pointAt a b t ∧ Between (lineParam a b c) (lineParam a b d) t := by
    intro q
    have := inClosedSegment_pointAt hab (lineParam a b c) (lineParam a b d) q
    rwa [← hc, ← hd] at this
  have seg3 : ∀ q, InClosedSegment x y q ↔
      ∃ t, q = pointAt a b t ∧ Between (lineParam a b x) (lineParam a b y) t := by
    intro q
    have := inClosedSegment_pointAt hab (lineParam a b x) (lineParam a b y) q
    rwa [← hx, ← hy] at this
  have hmeet : ∃ t0, Between 0 1 t0 ∧ Between (lineParam a b c) (lineParam a b d) t0 := by
    obtain ⟨p0, hp1, hp2⟩ := hm
    obtain ⟨t, ht, hbt⟩ := (seg1 p0).mp hp1
    obtain ⟨t2, ht2, hbt2⟩ := (seg2 p0).mp hp2
    have : t = t2 := pointAt_injective hab (ht.symm.trans ht2)
    subst this
    exact ⟨t, hbt, hbt2⟩
  have key : ∀ t, (Between 0 1 t ∧ Between (lineParam a b c) (lineParam a b d) t) ↔
      Between (lineParam a b x) (lineParam a b y) t := by
    intro t
    rcases lexLT_or_of_ne hab with hdir | hdir
    · apply middle_two_between hpk _ _ hmeet t
      · intro k hk
        have : ∀ q ∈ [a, b, c, d], lineParam a b q ≤ lineParam a b hi := by
          intro q hq
          have := hhi q hq
          rw [hcol q hq, hcol hi hmhi, lexLE_pointAt_of_lexLT hdir] at this
          exact this
        simp only [List.mem_cons, List.mem_singleton, List.not_mem_nil, or_false] at hk
        rcases hk with rfl | rfl | rfl | rfl
        · rw [← hpa]; exact this a (by simp)
        · rw [← hpb]; exact this b (by simp)
        · exact this c (by simp)
        · exact this d (by simp)
      · intro k hk
        have : ∀ q ∈ [a, b, c, d], lineParam a b lo ≤ lineParam a b q := by
          intro q hq
          have := hlo q hq
          rw [hcol q hq, hcol lo hmlo, lexLE_pointAt_of_lexLT hdir] at this
          exact this
        simp only [List.mem_cons, List.mem_singleton, List.not_mem_nil, or_false] at hk
        rcases hk with rfl | rfl | rfl | rfl
        · rw [← hpa]; exact this a (by simp)
        · rw [← hpb]; exact this b (by simp)
        · exact this c (by simp)
        · exact this d (by simp)
    · have hpk2 := hpk.trans (List.Perm.swap (lineParam a b lo) (lineParam a b hi) _)
      apply middle_two_between hpk2 _ _ hmeet t
      · intro k hk
        have : ∀ q ∈ [a, b, c, d], lineParam a b q ≤ lineParam a b lo := by
          intro q hq
          have := hlo q hq
          rw [hcol q hq, hcol lo hmlo, lexLE_pointAt_of_lexGT hdir] at this
          exact this
        simp only [List.mem_cons, List.mem_singleton, List.not_mem_nil, or_false] at hk
        rcases hk with rfl | rfl | rfl | rfl
        · rw [← hpa]; exact this a (by simp)
        · rw [← hpb]; exact this b (by simp)
        · exact this c (by simp)
        · exact this d (by simp)
      · intro k hk
        have : ∀ q ∈ [a, b, c, d], lineParam a b hi ≤ lineParam a b q := by
          intro q hq
          have := hhi q hq
          rw [hcol q hq, hcol hi hmhi, lexLE_pointAt_of_lexGT hdir] at this
          exact this
        simp only [List.mem_cons, List.mem_singleton, List.not_mem_nil, or_false] at hk
        rcases hk with rfl | rfl | rfl | rfl
        · rw [← hpa]; exact this a (by simp)
        · rw [← hpb]; exact this b (by simp)
        · exact this c (by simp)
        · exact this d (by simp)
  rw [seg1, seg2, seg3]
  constructor
  · rintro ⟨⟨t, ht, hbt⟩, ⟨t2, ht2, hbt2⟩⟩
    have : t = t2 := pointAt_injective hab (ht.symm.trans ht2)
    subst this
    exact ⟨t, ht, (key t).mp ⟨hbt, hbt2⟩⟩
  · rintro ⟨t, ht, hbt⟩
    have := (key t).mpr hbt
    exact ⟨⟨t, ht, this.1⟩, ⟨t, ht, this.2⟩⟩

/-! ## Claims on segment intersection -/

theorem inClosedSegment_self_iff (x p : XY) : InClosedSegment x x p ↔ p = x := by
  constructor
  · rintro ⟨t, -, -, rfl⟩
    rw [XY.eq_iff]; simp [XY.Sub, XY.Scale, XY.Add]
  · rintro rfl; exact inClosedSegment_left _ _

/-- C1: for segments (a,b), (c,d) with a ≠ b and c ≠ d, `intersectLine` returns
`empty = true` if and only if the two closed segments have no common point. -/
theorem C1_intersectLine_empty_iff (a b c d : XY) (hab : a ≠ b) (hcd : c ≠ d) :
    ((line.mk a b).intersectLine (line.mk c d)).empty = true ↔ ¬ SegmentsMeet a b c d :=
  intersectLine_empty_iff a b c d hab hcd

/-- C1 at the crossing segments (0,0)-(2,2) and (0,2)-(2,0). -/
theorem C1_intersectLine_empty_iff_witness :
    (XY.mk 0 0 ≠ XY.mk 2 2 ∧ XY.mk 0 2 ≠ XY.mk 2 0) ∧
    (((line.mk ⟨0, 0⟩ ⟨2, 2⟩).intersectLine (line.mk ⟨0, 2⟩ ⟨2, 0⟩)).empty = true ↔
      ¬ SegmentsMeet ⟨0, 0⟩ ⟨2, 2⟩ ⟨0, 2⟩ ⟨2, 0⟩) :=
  ⟨⟨by simp, by simp⟩, C1_intersectLine_empty_iff ⟨0, 0⟩ ⟨2, 2⟩ ⟨0, 2⟩ ⟨2, 0⟩ (by simp) (by simp)⟩

/-- C2 at the overlapping segments (0,0)-(2,0) and (1,0)-(3,0). -/
theorem C2_intersectLine_comm_witness :
    (XY.mk 0 0 ≠ XY.mk 2 0 ∧ XY.mk 1 0 ≠ XY.mk 3 0) ∧
    ((((line.mk ⟨0, 0⟩ ⟨2, 0⟩).intersectLine (line.mk ⟨1, 0⟩ ⟨3, 0⟩)).empty = true ∧
      ((line.mk ⟨1, 0⟩ ⟨3, 0⟩).intersectLine (line.mk ⟨0, 0⟩ ⟨2, 0⟩)).empty = true) ∨
    (((line.mk ⟨0, 0⟩ ⟨2, 0⟩).intersectLine (line.mk ⟨1, 0⟩ ⟨3, 0⟩)).empty = false ∧
      ((line.mk ⟨1, 0⟩ ⟨3, 0⟩).intersectLine (line.mk ⟨0, 0⟩ ⟨2, 0⟩)).empty = false ∧
      ((((line.mk ⟨0, 0⟩ ⟨2, 0⟩).intersectLine (line.mk ⟨1, 0⟩ ⟨3, 0⟩)).ptA =
          ((line.mk ⟨1, 0⟩ ⟨3, 0⟩).intersectLine (line.mk ⟨0, 0⟩ ⟨2, 0⟩)).ptA ∧
        ((line.mk ⟨0, 0⟩ ⟨2, 0⟩).intersectLine (line.mk ⟨1, 0⟩ ⟨3, 0⟩)).ptB =
          ((line.mk ⟨1, 0⟩ ⟨3, 0⟩).intersectLine (line.mk ⟨0, 0⟩ ⟨2, 0⟩)).ptB) ∨
       (((line.mk ⟨0, 0⟩ ⟨2, 0⟩).intersectLine (line.mk ⟨1, 0⟩ ⟨3, 0⟩)).ptA =
          ((line.mk ⟨1, 0⟩ ⟨3, 0⟩).intersectLine (line.mk ⟨0, 0⟩ ⟨2, 0⟩)).ptB ∧
        ((line.mk ⟨0, 0⟩ ⟨2, 0⟩).intersectLine (line.mk ⟨1, 0⟩ ⟨3, 0⟩)).ptB =
          ((line.mk ⟨1, 0⟩ ⟨3, 0⟩).intersectLine (line.mk ⟨0, 0⟩ ⟨2, 0⟩)).ptA)))) :=
  ⟨⟨by simp, by simp⟩, C2_intersectLine_comm ⟨0, 0⟩ ⟨2, 0⟩ ⟨1, 0⟩ ⟨3, 0⟩ (by simp) (by simp)⟩

/-- C3: for collinear segments (a,b), (c,d) that share a point, `intersectLine`
returns a non-empty result whose points ptA, ptB are the two of the four
endpoints left after dropping a rightmost-then-highest and a leftmost-then-lowest
one; a point lies on both segments iff it lies on [ptA, ptB]; and ptA = ptB
exactly when the segments have a single common point. For collinear segments
with no common point the result is empty. -/
theorem C3_collinear_overlap (a b c d : XY) (hab : a ≠ b) (hcd : c ≠ d)
    (h1 : orientation a b c = collinear) (h2 : orientation a b d = collinear) :
    (SegmentsMeet a b c d →
      ((line.mk a b).intersectLine (line.mk c d)).empty = false ∧
      (∃ hi lo : XY,
        List.Perm [a, b, c, d]
          [hi, lo, ((line.mk a b).intersectLine (line.mk c d)).ptA,
            ((line.mk a b).intersectLine (line.mk c d)).ptB] ∧
        (∀ q ∈ [a, b, c, d], LexLE q hi) ∧ (∀ q ∈ [a, b, c, d], LexLE lo q)) ∧
      (∀ p : XY, (InClosedSegment a b p ∧ InClosedSegment c d p) ↔
        InClosedSegment ((line.mk a b).intersectLine (line.mk c d)).ptA
          ((line.mk a b).intersectLine (line.mk c d)).ptB p) ∧
      (((line.mk a b).intersectLine (line.mk c d)).ptA =
          ((line.mk a b).intersectLine (line.mk c d)).ptB ↔
        ∃! p : XY, InClosedSegment a b p ∧ InClosedSegment c d p)) ∧
    (¬ SegmentsMeet a b c d →
      ((line.mk a b).intersectLine (line.mk c d)).empty = true) := by
  have hemp := intersectLine_empty_iff a b c d hab hcd
  refine ⟨fun hm => ?_, fun hm => hemp.mpr hm⟩
  have hne : ((line.mk a b).intersectLine (line.mk c d)).empty = false := by
    cases he : ((line.mk a b).intersectLine (line.mk c d)).empty
    · rfl
    · exact absurd hm (hemp.mp he)
  have c1 := (orientation_collinear_iff _ _ _).mp h1
  have c2 := (orientation_collinear_iff _ _ _).mp h2
  obtain ⟨hi, lo, x, y, hr, hp, hhi, hlo⟩ := collinearRemainder_spec a b c d
  have hx : ¬ (orientation a b c ≠ orientation a b d ∧
      orientation c d a ≠ orientation c d b) := by
    rw [h1, h2]; simp
  have hres : (line.mk a b).intersectLine (line.mk c d) = ⟨false, x, y⟩ := by
    have hne2 := hne
    simp only [line.intersectLine] at hne2 ⊢
    rw [if_neg hx, if_pos ⟨h1, h2⟩] at hne2 ⊢
    split_ifs at hne2 ⊢ with hs
    rw [hr]; rfl
  rw [hres]
  have hcommon := collinear_common_iff hab c1 c2 hm hp hhi hlo
  refine ⟨rfl, ⟨hi, lo, hp, hhi, hlo⟩, hcommon, ?_⟩
  constructor
  · intro hxy
    simp only at hxy
    subst hxy
    refine ⟨x, (hcommon x).mpr (inClosedSegment_left _ _), ?_⟩
    intro p hpc
    exact (inClosedSegment_self_iff x p).mp ((hcommon p).mp hpc)
  · rintro ⟨p, -, huniq⟩
    have hxp := huniq x ((hcommon x).mpr (inClosedSegment_left _ _))
    have hyp := huniq y ((hcommon y).mpr (inClosedSegment_right _ _))
    exact hxp.trans hyp.symm

/-- C3 at the overlapping segments (0,0)-(2,0) and (1,0)-(3,0). -/
theorem C3_collinear_overlap_witness :
    (XY.mk 0 0 ≠ XY.mk 2 0 ∧ XY.mk 1 0 ≠ XY.mk 3 0 ∧
      orientation ⟨0, 0⟩ ⟨2, 0⟩ ⟨1, 0⟩ = collinear ∧
      orientation ⟨0, 0⟩ ⟨2, 0⟩ ⟨3, 0⟩ = collinear ∧
      SegmentsMeet ⟨0, 0⟩ ⟨2, 0⟩ ⟨1, 0⟩ ⟨3, 0⟩) ∧
    ((line.mk ⟨0, 0⟩ ⟨2, 0⟩).intersectLine (line.mk ⟨1, 0⟩ ⟨3, 0⟩)).empty = false ∧
    (∀ p : XY, (InClosedSegment ⟨0, 0⟩ ⟨2, 0⟩ p ∧ InClosedSegment ⟨1, 0⟩ ⟨3, 0⟩ p) ↔
        InClosedSegment ((line.mk ⟨0, 0⟩ ⟨2, 0⟩).intersectLine (line.mk ⟨1, 0⟩ ⟨3, 0⟩)).ptA
          ((line.mk ⟨0, 0⟩ ⟨2, 0⟩).intersectLine (line.mk ⟨1, 0⟩ ⟨3, 0⟩)).ptB p) := by
  have hab : XY.mk 0 0 ≠ XY.mk 2 0 := by simp
  have hcd : XY.mk 1 0 ≠ XY.mk 3 0 := by simp
  have h1 : orientation ⟨0, 0⟩ ⟨2, 0⟩ ⟨1, 0⟩ = collinear := by
    rw [orientation_collinear_iff]; norm_num [crossProduct]
  have h2 : orientation ⟨0, 0⟩ ⟨2, 0⟩ ⟨3, 0⟩ = collinear := by
    rw [orientation_collinear_iff]; norm_num [crossProduct]
  have hm : SegmentsMeet ⟨0, 0⟩ ⟨2, 0⟩ ⟨1, 0⟩ ⟨3, 0⟩ :=
    ⟨⟨1, 0⟩, ⟨1 / 2, by norm_num, by norm_num, by norm_num [XY.Sub, XY.Scale, XY.Add]⟩,
      ⟨0, by norm_num, by norm_num, by norm_num [XY.Sub, XY.Scale, XY.Add]⟩⟩
  have h := (C3_collinear_overlap ⟨0, 0⟩ ⟨2, 0⟩ ⟨1, 0⟩ ⟨3, 0⟩ hab hcd h1 h2).1 hm
  exact ⟨⟨hab, hcd, h1, h2, hm⟩, h.1, h.2.2.1⟩

/-- C4: whenever o1 ≠ o2 and o3 ≠ o4, `intersectLine` returns a single point
(`empty = false`, `ptA = ptB`) that lies on both closed segments and is their
only common point; where some `oi` is collinear the point is the corresponding
endpoint (c for o1, d for o2, a for o3, b for o4), and where none is it is
`a + (e/f)·(b − a)`. -/
theorem C4_intersectLine_crossing_point (a b c d : XY)
    (h12 : orientation a b c ≠ orientation a b d)
    (h34 : orientation c d a ≠ orientation c d b) :
    ((line.mk a b).intersectLine (line.mk c d)).empty = false ∧
    ((line.mk a b).intersectLine (line.mk c d)).ptA =
      ((line.mk a b).intersectLine (line.mk c d)).ptB ∧
    InClosedSegment a b ((line.mk a b).intersectLine (line.mk c d)).ptA ∧
    InClosedSegment c d ((line.mk a b).intersectLine (line.mk c d)).ptA ∧
    (∀ p : XY, InClosedSegment a b p → InClosedSegment c d p →
      p = ((line.mk a b).intersectLine (line.mk c d)).ptA) ∧
    (orientation a b c = collinear → ((line.mk a b).intersectLine (line.mk c d)).ptA = c) ∧
    (orientation a b d = collinear → ((line.mk a b).intersectLine (line.mk c d)).ptA = d) ∧
    (orientation c d a = collinear → ((line.mk a b).intersectLine (line.mk c d)).ptA = a) ∧
    (orientation c d b = collinear → ((line.mk a b).intersectLine (line.mk c d)).ptA = b) ∧
    (orientation a b c ≠ collinear → orientation a b d ≠ collinear →
      orientation c d a ≠ collinear → orientation c d b ≠ collinear →
      ((line.mk a b).intersectLine (line.mk c d)).ptA =
        ((b.Sub a).Scale (crossingNumerator a c d / crossingDenominator a b c d)).Add a) := by
  have hf := crossingDenominator_ne_zero h12
  have hon1 := crossingPoint_on_first (a := a) (b := b) h34
  have hon2 := crossingPoint_on_second (c := c) (d := d) h12
  have huniq : ∀ p : XY, InClosedSegment a b p → InClosedSegment c d p →
      p = crossingPoint a b c d := fun p h1 h2 => eq_crossingPoint hf h1 h2
  rw [intersectLine_crossing h12 h34]
  refine ⟨rfl, rfl, hon1, hon2, huniq, ?_, ?_, ?_, ?_, fun _ _ _ _ => rfl⟩
  · intro h
    have hc : crossProduct a b c = 0 := (orientation_collinear_iff _ _ _).mp h
    refine (huniq c ?_ (inClosedSegment_left c d)).symm
    rw [crossingPoint_eq_second h12, hc] at hon1
    simpa [XY.eq_iff, XY.Sub, XY.Scale, XY.Add, InClosedSegment] using hon1
  · intro h
    have hc : crossProduct a b d = 0 := (orientation_collinear_iff _ _ _).mp h
    have hc1 : crossProduct a b c ≠ 0 := by
      intro h0; rw [crossingDenominator_eq2, hc, h0] at hf; simp at hf
    refine (huniq d ?_ (inClosedSegment_right c d)).symm
    have hd : crossingPoint a b c d = d := by
      rw [crossingPoint_eq_second h12, hc, XY.eq_iff]
      simp [XY.Sub, XY.Scale, XY.Add, hc1]
    rwa [hd] at hon1
  · intro h
    have hc : crossProduct c d a = 0 := (orientation_collinear_iff _ _ _).mp h
    refine (huniq a (inClosedSegment_left a b) ?_).symm
    have ha : crossingPoint a b c d = a := by
      rw [XY.eq_iff]
      simp [crossingPoint, crossingNumerator_eq, hc, XY.Sub, XY.Scale, XY.Add]
    rwa [ha] at hon2
  · intro h
    have hc : crossProduct c d b = 0 := (orientation_collinear_iff _ _ _).mp h
    have hc3 : crossProduct c d a ≠ 0 := by
      intro h0; rw [crossingDenominator_eq, hc, h0] at hf; simp at hf
    refine (huniq b (inClosedSegment_right a b) ?_).symm
    have hb : crossingPoint a b c d = b := by
      rw [XY.eq_iff]
      simp [crossingPoint, crossingNumerator_eq, crossingDenominator_eq, hc, hc3, XY.Sub,
        XY.Scale, XY.Add]
    rwa [hb] at hon2

/-- C4 at the crossing segments (0,0)-(2,2) and (0,2)-(2,0). -/
theorem C4_intersectLine_crossing_point_witness :
    (orientation ⟨0, 0⟩ ⟨2, 2⟩ ⟨0, 2⟩ ≠ orientation ⟨0, 0⟩ ⟨2, 2⟩ ⟨2, 0⟩ ∧
      orientation ⟨0, 2⟩ ⟨2, 0⟩ ⟨0, 0⟩ ≠ orientation ⟨0, 2⟩ ⟨2, 0⟩ ⟨2, 2⟩) ∧
    ((line.mk ⟨0, 0⟩ ⟨2, 2⟩).intersectLine (line.mk ⟨0, 2⟩ ⟨2, 0⟩)).empty = false ∧
    InClosedSegment ⟨0, 0⟩ ⟨2, 2⟩
      ((line.mk ⟨0, 0⟩ ⟨2, 2⟩).intersectLine (line.mk ⟨0, 2⟩ ⟨2, 0⟩)).ptA ∧
    InClosedSegment ⟨0, 2⟩ ⟨2, 0⟩
      ((line.mk ⟨0, 0⟩ ⟨2, 2⟩).intersectLine (line.mk ⟨0, 2⟩ ⟨2, 0⟩)).ptA := by
  have h12 : orientation ⟨0, 0⟩ ⟨2, 2⟩ ⟨0, 2⟩ ≠ orientation ⟨0, 0⟩ ⟨2, 2⟩ ⟨2, 0⟩ := by
    have e1 : orientation ⟨0, 0⟩ ⟨2, 2⟩ ⟨0, 2⟩ = leftTurn := by
      rw [orientation_leftTurn_iff]; norm_num [crossProduct]
    have e2 : orientation ⟨0, 0⟩ ⟨2, 2⟩ ⟨2, 0⟩ = rightTurn := by
      rw [orientation_rightTurn_iff]; norm_num [crossProduct]
    rw [e1, e2]; simp
  have h34 : orientation ⟨0, 2⟩ ⟨2, 0⟩ ⟨0, 0⟩ ≠ orientation ⟨0, 2⟩ ⟨2, 0⟩ ⟨2, 2⟩ := by
    have e1 : orientation ⟨0, 2⟩ ⟨2, 0⟩ ⟨0, 0⟩ = rightTurn := by
      rw [orientation_rightTurn_iff]; norm_num [crossProduct]
    have e2 : orientation ⟨0, 2⟩ ⟨2, 0⟩ ⟨2, 2⟩ = leftTurn := by
      rw [orientation_leftTurn_iff]; norm_num [crossProduct]
    rw [e1, e2]; simp
  have h := C4_intersectLine_crossing_point ⟨0, 0⟩ ⟨2, 2⟩ ⟨0, 2⟩ ⟨2, 0⟩ h12 h34
  exact ⟨⟨h12, h34⟩, h.1, h.2.2.1, h.2.2.2.1⟩

theorem scenario_overlap_value :
    (line.mk ⟨0, 0⟩ ⟨2, 0⟩).intersectLine (line.mk ⟨1, 0⟩ ⟨3, 0⟩) = ⟨false, ⟨2, 0⟩, ⟨1, 0⟩⟩ := by
  norm_num [line.intersectLine, orientation, crossProduct, onSegment, collinearRemainder,
    rightmostThenHighestIndex, rightmostThenHighestLoop, leftmostThenLowestIndex,
    leftmostThenLowestLoop]

/-- C5, as stated, fails: for (0,0)-(2,0) and (1,0)-(3,0) the result does not have
ptA = (1,0) and ptB = (2,0). -/
theorem C5_scenario_counterexample :
    ¬ ((line.mk ⟨0, 0⟩ ⟨2, 2⟩).intersectLine (line.mk ⟨0, 2⟩ ⟨2, 0⟩) = ⟨false, ⟨1, 1⟩, ⟨1, 1⟩⟩ ∧
      (((line.mk ⟨0, 0⟩ ⟨2, 0⟩).intersectLine (line.mk ⟨1, 0⟩ ⟨3, 0⟩)).empty = false ∧
        ((line.mk ⟨0, 0⟩ ⟨2, 0⟩).intersectLine (line.mk ⟨1, 0⟩ ⟨3, 0⟩)).ptA = ⟨1, 0⟩ ∧
        ((line.mk ⟨0, 0⟩ ⟨2, 0⟩).intersectLine (line.mk ⟨1, 0⟩ ⟨3, 0⟩)).ptB = ⟨2, 0⟩) ∧
      ((line.mk ⟨0, 0⟩ ⟨1, 1⟩).intersectLine (line.mk ⟨2, 2⟩ ⟨3, 3⟩)).empty = true) := by
  rw [scenario_overlap_value]
  rintro ⟨-, ⟨-, h, -⟩, -⟩
  rw [XY.eq_iff] at h
  norm_num at h

/-- C5, amended: scenario S6 gives point(1,1) for (0,0)-(2,2) and (0,2)-(2,0); the
overlap of (0,0)-(2,0) and (1,0)-(3,0) between (1,0) and (2,0), returned as
ptA = (2,0) and ptB = (1,0); and empty for (0,0)-(1,1) and (2,2)-(3,3). -/
theorem C5_scenario_amended :
    (line.mk ⟨0, 0⟩ ⟨2, 2⟩).intersectLine (line.mk ⟨0, 2⟩ ⟨2, 0⟩) = ⟨false, ⟨1, 1⟩, ⟨1, 1⟩⟩ ∧
    (line.mk ⟨0, 0⟩ ⟨2, 0⟩).intersectLine (line.mk ⟨1, 0⟩ ⟨3, 0⟩) = ⟨false, ⟨2, 0⟩, ⟨1, 0⟩⟩ ∧
    ((line.mk ⟨0, 0⟩ ⟨1, 1⟩).intersectLine (line.mk ⟨2, 2⟩ ⟨3, 3⟩)).empty = true := by
  refine ⟨?_, scenario_overlap_value, ?_⟩
  · norm_num [line.intersectLine, orientation, crossProduct, crossingNumerator,
      crossingDenominator, XY.Sub, XY.Scale, XY.Add]
    simp
  · norm_num [line.intersectLine, orientation, crossProduct, onSegment, collinearRemainder,
      rightmostThenHighestIndex, rightmostThenHighestLoop, leftmostThenLowestIndex,
      leftmostThenLowestLoop]

theorem reachesDivision_iff (a b c d : XY) :
    reachesDivision (line.mk a b) (line.mk c d) = true ↔
      ((orientation a b c ≠ orientation a b d ∧ orientation c d a ≠ orientation c d b) ∧
        orientation a b c ≠ collinear ∧ orientation a b d ≠ collinear ∧
        orientation c d a ≠ collinear ∧ orientation c d b ≠ collinear) := by
  simp only [reachesDivision, Bool.and_eq_true, decide_eq_true_eq]
  tauto

/-- When the division is reached, `intersectLine` returns the quotient point. -/
theorem intersectLine_of_reachesDivision {a b c d : XY}
    (h : reachesDivision (line.mk a b) (line.mk c d) = true) :
    (line.mk a b).intersectLine (line.mk c d) =
      ⟨false, ((b.Sub a).Scale (crossingNumerator a c d / crossingDenominator a b c d)).Add a,
        ((b.Sub a).Scale (crossingNumerator a c d / crossingDenominator a b c d)).Add a⟩ := by
  rw [reachesDivision_iff] at h
  obtain ⟨hx, n1, n2, n3, n4⟩ := h
  simp only [line.intersectLine]
  rw [if_pos hx, if_neg n1, if_neg n2, if_neg n3, if_neg n4]

/-- In exact arithmetic: in the only branch of `intersectLine` that divides
(o1 ≠ o2, o3 ≠ o4 and none of o1..o4 collinear) the denominator
f = (d.X−c.X)(a.Y−b.Y) − (a.X−b.X)(d.Y−c.Y) is nonzero; configurations with
c and d collinear with (a,b) never reach the division. -/
theorem denominator_nonzero_exact (a b c d : XY) :
    (orientation a b c ≠ orientation a b d → orientation c d a ≠ orientation c d b →
      orientation a b c ≠ collinear → orientation a b d ≠ collinear →
      orientation c d a ≠ collinear → orientation c d b ≠ collinear →
      reachesDivision (line.mk a b) (line.mk c d) = true ∧
      (d.X - c.X) * (a.Y - b.Y) - (a.X - b.X) * (d.Y - c.Y) ≠ 0) ∧
    (reachesDivision (line.mk a b) (line.mk c d) = true →
      crossingDenominator a b c d ≠ 0 ∧
      (line.mk a b).intersectLine (line.mk c d) =
        ⟨false,
          ((b.Sub a).Scale (crossingNumerator a c d / crossingDenominator a b c d)).Add a,
          ((b.Sub a).Scale (crossingNumerator a c d / crossingDenominator a b c d)).Add a⟩) ∧
    (orientation a b c = collinear → orientation a b d = collinear →
      reachesDivision (line.mk a b) (line.mk c d) = false) ∧
    (crossingDenominator a b c d = 0 →
      reachesDivision (line.mk a b) (line.mk c d) = false) := by
  refine ⟨?_, ?_, ?_, ?_⟩
  · intro h12 h34 n1 n2 n3 n4
    exact ⟨(reachesDivision_iff a b c d).mpr ⟨⟨h12, h34⟩, n1, n2, n3, n4⟩,
      crossingDenominator_ne_zero h12⟩
  · intro h
    exact ⟨crossingDenominator_ne_zero ((reachesDivision_iff a b c d).mp h).1.1,
      intersectLine_of_reachesDivision h⟩
  · intro h1 h2
    cases hr : reachesDivision (line.mk a b) (line.mk c d)
    · rfl
    · exact absurd h1 ((reachesDivision_iff a b c d).mp hr).2.1
  · intro hf
    cases hr : reachesDivision (line.mk a b) (line.mk c d)
    · rfl
    · exact absurd hf (crossingDenominator_ne_zero ((reachesDivision_iff a b c d).mp hr).1.1)

theorem float64_denominator_facts :
    (isFloat64 92899743 && isFloat64 86678834 && isFloat64 (-18366403 / 2) &&
      isFloat64 (-17136521 / 2) && isFloat64 (204165889 / 2) && isFloat64 (190494189 / 2) &&
      reachesDivision (line.mk ⟨0, 0⟩ ⟨92899743, 86678834⟩)
        (line.mk ⟨-18366403 / 2, -17136521 / 2⟩ ⟨204165889 / 2, 190494189 / 2⟩) &&
      decide ((crossProductFloat64 ⟨0, 0⟩ ⟨92899743, 86678834⟩
        ⟨-18366403 / 2, -17136521 / 2⟩).sign = -1) &&
      decide ((crossProductFloat64 ⟨0, 0⟩ ⟨92899743, 86678834⟩
        ⟨204165889 / 2, 190494189 / 2⟩).sign = 1) &&
      decide ((crossProductFloat64 ⟨-18366403 / 2, -17136521 / 2⟩
        ⟨204165889 / 2, 190494189 / 2⟩ ⟨0, 0⟩).sign = 1) &&
      decide ((crossProductFloat64 ⟨-18366403 / 2, -17136521 / 2⟩
        ⟨204165889 / 2, 190494189 / 2⟩ ⟨92899743, 86678834⟩).sign = -1) &&
      decide (crossingDenominatorFloat64 ⟨0, 0⟩ ⟨92899743, 86678834⟩
        ⟨-18366403 / 2, -17136521 / 2⟩ ⟨204165889 / 2, 190494189 / 2⟩ = float64.finite 0) &&
      decide (crossingNumeratorFloat64 ⟨0, 0⟩ ⟨-18366403 / 2, -17136521 / 2⟩
        ⟨204165889 / 2, 190494189 / 2⟩ = float64.finite (1 / 2)) &&
      decide ((crossingNumeratorFloat64 ⟨0, 0⟩ ⟨-18366403 / 2, -17136521 / 2⟩
          ⟨204165889 / 2, 190494189 / 2⟩).div
        (crossingDenominatorFloat64 ⟨0, 0⟩ ⟨92899743, 86678834⟩
          ⟨-18366403 / 2, -17136521 / 2⟩ ⟨204165889 / 2, 190494189 / 2⟩) =
        float64.inf false)) = true := by
  with_unfolding_all decide

/-- C6: the claim does not hold of the code, which computes the denominator in
`float64`. Take the segment from a = (0, 0) to b = (92899743, 86678834) and the
segment from c = (−9183201.5, −8568260.5) to d = (102082944.5, 95247094.5); the
coordinates are values of `float64`. The division is reached: o1 ≠ o2, o3 ≠ o4 and
no orientation is collinear, with the cross products exact as well as with every
operation of them in `float64` (right, left, left, right). In exact arithmetic
the denominator is 1 and the segments cross at (46449871.5, 43339417), the point
of the parameter 1/2. In `float64` the second product of the denominator,
−9644419798953765, rounds to −9644419798953764, the value of the first, so that
`f` is 0; the numerator `e` is 1/2, and `p := e / f` is `+Inf`. -/
theorem C6_denominator_zero_in_float64 :
    (isFloat64 92899743 = true ∧ isFloat64 86678834 = true ∧
      isFloat64 (-18366403 / 2) = true ∧ isFloat64 (-17136521 / 2) = true ∧
      isFloat64 (204165889 / 2) = true ∧ isFloat64 (190494189 / 2) = true) ∧
    reachesDivision (line.mk ⟨0, 0⟩ ⟨92899743, 86678834⟩)
      (line.mk ⟨-18366403 / 2, -17136521 / 2⟩ ⟨204165889 / 2, 190494189 / 2⟩) = true ∧
    ((crossProductFloat64 ⟨0, 0⟩ ⟨92899743, 86678834⟩
        ⟨-18366403 / 2, -17136521 / 2⟩).sign = -1 ∧
      (crossProductFloat64 ⟨0, 0⟩ ⟨92899743, 86678834⟩
        ⟨204165889 / 2, 190494189 / 2⟩).sign = 1 ∧
      (crossProductFloat64 ⟨-18366403 / 2, -17136521 / 2⟩
        ⟨204165889 / 2, 190494189 / 2⟩ ⟨0, 0⟩).sign = 1 ∧
      (crossProductFloat64 ⟨-18366403 / 2, -17136521 / 2⟩
        ⟨204165889 / 2, 190494189 / 2⟩ ⟨92899743, 86678834⟩).sign = -1) ∧
    crossingDenominator ⟨0, 0⟩ ⟨92899743, 86678834⟩
      ⟨-18366403 / 2, -17136521 / 2⟩ ⟨204165889 / 2, 190494189 / 2⟩ = 1 ∧
    (line.mk ⟨0, 0⟩ ⟨92899743, 86678834⟩).intersectLine
        (line.mk ⟨-18366403 / 2, -17136521 / 2⟩ ⟨204165889 / 2, 190494189 / 2⟩) =
      ⟨false, ⟨92899743 / 2, 43339417⟩, ⟨92899743 / 2, 43339417⟩⟩ ∧
    crossingDenominatorFloat64 ⟨0, 0⟩ ⟨92899743, 86678834⟩
      ⟨-18366403 / 2, -17136521 / 2⟩ ⟨204165889 / 2, 190494189 / 2⟩ = float64.finite 0 ∧
    crossingNumeratorFloat64 ⟨0, 0⟩ ⟨-18366403 / 2, -17136521 / 2⟩
      ⟨204165889 / 2, 190494189 / 2⟩ = float64.finite (1 / 2) ∧
    (crossingNumeratorFloat64 ⟨0, 0⟩ ⟨-18366403 / 2, -17136521 / 2⟩
        ⟨204165889 / 2, 190494189 / 2⟩).div
      (crossingDenominatorFloat64 ⟨0, 0⟩ ⟨92899743, 86678834⟩
        ⟨-18366403 / 2, -17136521 / 2⟩ ⟨204165889 / 2, 190494189 / 2⟩) =
      float64.inf false := by
  have hf := float64_denominator_facts
  simp only [Bool.and_eq_true, decide_eq_true_eq] at hf
  obtain ⟨⟨⟨⟨⟨⟨⟨⟨⟨⟨⟨⟨⟨f1, f2⟩, f3⟩, f4⟩, f5⟩, f6⟩, hr⟩, s1⟩, s2⟩, s3⟩, s4⟩, hz⟩, he⟩, hp⟩ := hf
  have hden : crossingDenominator ⟨0, 0⟩ ⟨92899743, 86678834⟩
      ⟨-18366403 / 2, -17136521 / 2⟩ ⟨204165889 / 2, 190494189 / 2⟩ = 1 := by
    norm_num [crossingDenominator]
  refine ⟨⟨f1, f2, f3, f4, f5, f6⟩, hr, ⟨s1, s2, s3, s4⟩, hden, ?_, hz, he, hp⟩
  rw [intersectLine_of_reachesDivision hr, hden]
  norm_num [crossingNumerator, XY.Sub, XY.Scale, XY.Add]

/-! ## Heap writes and reNodeEdge -/

theorem getElem?_set_halfEdge {l : List halfEdgeRecord} {p : Nat} {r r2 : halfEdgeRecord}
    (hr : l[p]? = some r) (x : Nat) :
    (l.set p r2)[x]? = if x = p then some r2 else l[x]? := by
  have hp : p < l.length := by
    by_contra hn
    rw [List.getElem?_eq_none (not_lt.mp hn)] at hr
    exact Option.noConfusion hr
  rw [List.getElem?_set]
  by_cases hx : x = p
  · subst hx; simp [hp]
  · rw [if_neg (Ne.symm hx), if_neg hx]

/-- A field write keeps the other records and changes the one written. -/
theorem updHalfEdge_spec {h : Heap} {p : Nat} {r : halfEdgeRecord}
    (f : halfEdgeRecord → halfEdgeRecord) (hr : h.halfEdgeRecords[p]? = some r) :
    ∃ h2, h.updHalfEdge p f = some h2 ∧ h2.vertexRecords = h.vertexRecords ∧
      h2.faceRecords = h.faceRecords ∧
      h2.halfEdgeRecords.length = h.halfEdgeRecords.length ∧
      ∀ x, h2.halfEdgeRecords[x]? = if x = p then some (f r) else h.halfEdgeRecords[x]? := by
  refine ⟨{ h with halfEdgeRecords := h.halfEdgeRecords.set p (f r) }, ?_, rfl, rfl, ?_, ?_⟩
  · simp [Heap.updHalfEdge, hr]
  · simp
  · intro x; exact getElem?_set_halfEdge hr x

theorem lt_length_of_getElem?_eq_some {α : Type} {l : List α} {p : Nat} {r : α}
    (hr : l[p]? = some r) : p < l.length := by
  by_contra hn
  rw [List.getElem?_eq_none (not_lt.mp hn)] at hr
  exact Option.noConfusion hr

/-- The rewiring statements of `reNodeEdge`, on the records. -/
theorem reNodeEdgeRewire_spec {h3 : Heap} {e n t nt : Nat} (cut a b : Nat)
    {er tr nr ntr : halfEdgeRecord}
    (he : h3.halfEdgeRecords[e]? = some er) (ht : h3.halfEdgeRecords[t]? = some tr)
    (hn : h3.halfEdgeRecords[n]? = some nr) (hnt : h3.halfEdgeRecords[nt]? = some ntr)
    (het : er.twin = some t) (hnn : nr.twin = some nt)
    (d1 : t ≠ e) (d2 : n ≠ e) (d3 : n ≠ t) (d4 : nt ≠ e) (d5 : nt ≠ t) (d6 : nt ≠ n) :
    ∃ h8, reNodeEdgeRewire h3 e cut n a b = some h8 ∧
      h8.vertexRecords = h3.vertexRecords ∧ h8.faceRecords = h3.faceRecords ∧
      h8.halfEdgeRecords.length = h3.halfEdgeRecords.length ∧
      ∀ x, h8.halfEdgeRecords[x]? =
        if x = t then some { tr with origin := some cut, prev := some b }
        else if x = n then some { nr with prev := some a }
        else if x = nt then some { ntr with next := some b }
        else if x = e then some { er with next := some a }
        else h3.halfEdgeRecords[x]? := by
  obtain ⟨h4, e4, v4, f4, l4, r4⟩ :=
    updHalfEdge_spec (fun r => { r with origin := some cut }) ht
  have he4 : h4.halfEdgeRecords[e]? = some er := by rw [r4, if_neg d1.symm, he]
  obtain ⟨h5, e5, v5, f5, l5, r5⟩ :=
    updHalfEdge_spec (fun r => { r with next := some a }) he4
  have hn5 : h5.halfEdgeRecords[n]? = some nr := by
    rw [r5, if_neg d2, r4, if_neg d3, hn]
  have hnt5 : h5.halfEdgeRecords[nt]? = some ntr := by
    rw [r5, if_neg d4, r4, if_neg d5, hnt]
  obtain ⟨h6, e6, v6, f6, l6, r6⟩ :=
    updHalfEdge_spec (fun r => { r with next := some b }) hnt5
  have hn6 : h6.halfEdgeRecords[n]? = some nr := by
    rw [r6, if_neg d6.symm, hn5]
  obtain ⟨h7, e7, v7, f7, l7, r7⟩ :=
    updHalfEdge_spec (fun r => { r with prev := some a }) hn6
  have he7 : h7.halfEdgeRecords[e]? = some { er with next := some a } := by
    rw [r7, if_neg d2.symm, r6, if_neg d4.symm, r5, if_pos rfl]
  have ht7 : h7.halfEdgeRecords[t]? = some { tr with origin := some cut } := by
    rw [r7, if_neg d3.symm, r6, if_neg d5.symm, r5, if_neg d1, r4, if_pos rfl]
  obtain ⟨h8, e8, v8, f8, l8, r8⟩ :=
    updHalfEdge_spec (fun r => { r with prev := some b }) ht7
  refine ⟨h8, ?_, ?_, ?_, ?_, ?_⟩
  · simp only [reNodeEdgeRewire, Heap.setOrigin, Heap.setNext, Heap.setPrev, Heap.twinOf,
      Option.bind_eq_bind]
    simp only [he, het, Option.some_bind, e4, e5, hn5, hnn, e6, e7, he7, e8]
  · rw [v8, v7, v6, v5, v4]
  · rw [f8, f7, f6, f5, f4]
  · rw [l8, l7, l6, l5, l4]
  · intro x
    rw [r8, r7, r6, r5, r4]
    by_cases x1 : x = t
    · simp [x1]
    · by_cases x2 : x = n
      · simp [x1, x2]
      · by_cases x3 : x = nt
        · simp [x1, x2, x3]
        · by_cases x4 : x = e
          · simp [x1, x2, x3, x4, d1.symm] 
          · simp [x1, x2, x3, x4]

theorem updVertex_spec {h : Heap} {p : Nat} {r : vertexRecord}
    (f : vertexRecord → vertexRecord) (hr : h.vertexRecords[p]? = some r) :
    ∃ h2, h.updVertex p f = some h2 ∧ h2.halfEdgeRecords = h.halfEdgeRecords ∧
      h2.faceRecords = h.faceRecords ∧
      h2.vertexRecords.length = h.vertexRecords.length ∧
      ∀ x, h2.vertexRecords[x]? = if x = p then some (f r) else h.vertexRecords[x]? := by
  have hp := lt_length_of_getElem?_eq_some hr
  refine ⟨{ h with vertexRecords := h.vertexRecords.set p (f r) }, ?_, rfl, rfl, ?_, ?_⟩
  · simp [Heap.updVertex, hr]
  · simp
  · intro x
    show (h.vertexRecords.set p (f r))[x]? = _
    rw [List.getElem?_set]
    by_cases hx : x = p
    · subst hx; simp [hp]
    · rw [if_neg (Ne.symm hx), if_neg hx]

/-- The two vertex writes of `reNodeEdge` keep the coordinates of every vertex. -/
theorem reNodeEdgeVertices_spec {h9 : Heap} {cut dv : Nat} (a b : Nat)
    (hc : cut < h9.vertexRecords.length) (hd : dv < h9.vertexRecords.length) :
    ∃ h11, reNodeEdgeVertices h9 cut (some dv) a b = some h11 ∧
      h11.halfEdgeRecords = h9.halfEdgeRecords ∧ h11.faceRecords = h9.faceRecords ∧
      h11.vertexRecords.length = h9.vertexRecords.length ∧
      ∀ x : Nat, (h11.vertexRecords[x]?).map vertexRecord.coords =
        (h9.vertexRecords[x]?).map vertexRecord.coords := by
  obtain ⟨rc, hrc⟩ : ∃ r, h9.vertexRecords[cut]? = some r :=
    ⟨_, List.getElem?_eq_getElem hc⟩
  obtain ⟨h10, e10, s10, f10, l10, r10⟩ :=
    updVertex_spec (fun r => { r with incident := some a }) hrc
  obtain ⟨rd, hrd⟩ : ∃ r, h10.vertexRecords[dv]? = some r :=
    ⟨_, List.getElem?_eq_getElem (l10 ▸ hd)⟩
  obtain ⟨h11, e11, s11, f11, l11, r11⟩ :=
    updVertex_spec (fun r => { r with incident := some b }) hrd
  refine ⟨h11, ?_, by rw [s11, s10], by rw [f11, f10], by rw [l11, l10], ?_⟩
  · simp only [reNodeEdgeVertices, Heap.setVertexIncident, Option.bind_eq_bind, e10,
      Option.some_bind, e11]
  · intro x
    rw [r11]
    by_cases hx : x = dv
    · subst hx
      rw [if_pos rfl]
      rw [r10] at hrd
      by_cases hx2 : x = cut
      · subst hx2
        rw [if_pos rfl] at hrd
        rw [hrc, ← Option.some.inj hrd]; rfl
      · rw [if_neg hx2] at hrd
        rw [hrd]; rfl
    · rw [if_neg hx, r10]
      by_cases hx2 : x = cut
      · subst hx2; rw [if_pos rfl, hrc]; rfl
      · rw [if_neg hx2]

/-- The statement `e.prev.twin.prev = e.twin` writes a value that is already there. -/
theorem reNodeEdgePrevTwin_spec {h8 : Heap} {e p pt t : Nat} {er pr ptr : halfEdgeRecord}
    (he : h8.halfEdgeRecords[e]? = some er) (hp : h8.halfEdgeRecords[p]? = some pr)
    (hpt : h8.halfEdgeRecords[pt]? = some ptr)
    (h1 : er.prev = some p) (h2 : pr.twin = some pt) (h3 : er.twin = some t)
    (h4 : ptr.prev = some t) :
    reNodeEdgePrevTwin h8 e = some h8 := by
  simp only [reNodeEdgePrevTwin, Heap.prevOf, Heap.twinOf, Heap.setPrev, Heap.updHalfEdge,
    Option.bind_eq_bind, he, h1, Option.some_bind, hp, h2, hpt, h3]
  have : ({ ptr with prev := some t } : halfEdgeRecord) = ptr := by
    cases ptr; simp only [halfEdgeRecord.mk.injEq, true_and, and_true]; exact h4.symm
  rw [this]
  have hl := lt_length_of_getElem?_eq_some hpt
  have hset : h8.halfEdgeRecords.set pt ptr = h8.halfEdgeRecords := by
    apply List.ext_getElem?
    intro x
    rw [getElem?_set_halfEdge hpt]
    split_ifs with hx
    · rw [hx, hpt]
    · rfl
  rw [hset]

theorem getElem?_append_one {l : List halfEdgeRecord} (r : halfEdgeRecord) (x : Nat) :
    (l ++ [r])[x]? = if x = l.length then some r else l[x]? := by
  by_cases hx : x < l.length
  · rw [List.getElem?_append_left hx, if_neg (Nat.ne_of_lt hx)]
  · rw [List.getElem?_append_right (not_lt.mp hx)]
    by_cases hx2 : x = l.length
    · subst hx2; simp
    · rw [if_neg hx2, List.getElem?_eq_none (not_lt.mp hx)]
      have : 0 < x - l.length := by omega
      rw [List.getElem?_eq_none]; simp; omega

/-- What `reNodeEdge` does to the heap, record by record. -/
theorem reNodeEdge_spec {h : Heap} (d : doublyConnectedEdgeList) {e cut t n p nt pt dv : Nat}
    {er tr nr ntr pr ptr : halfEdgeRecord}
    (he : h.halfEdgeRecords[e]? = some er) (ht : h.halfEdgeRecords[t]? = some tr)
    (hn : h.halfEdgeRecords[n]? = some nr) (hnt : h.halfEdgeRecords[nt]? = some ntr)
    (hp : h.halfEdgeRecords[p]? = some pr) (hpt : h.halfEdgeRecords[pt]? = some ptr)
    (het : er.twin = some t) (hen : er.next = some n) (hep : er.prev = some p)
    (hto : tr.origin = some dv) (hnn : nr.twin = some nt) (hpp : pr.twin = some pt)
    (hptp : ptr.prev = some t)
    (d1 : t ≠ e) (d2 : n ≠ e) (d3 : n ≠ t) (d4 : nt ≠ e) (d5 : nt ≠ t) (d6 : nt ≠ n)
    (d7 : pt ≠ t) (d8 : pt ≠ n)
    (hc : cut < h.vertexRecords.length) (hd : dv < h.vertexRecords.length) :
    ∃ h2, reNodeEdge h d e cut =
        some (h2, { d with halfEdges := d.halfEdges ++
          [h.halfEdgeRecords.length, h.halfEdgeRecords.length + 1] }) ∧
      h2.faceRecords = h.faceRecords ∧
      h2.vertexRecords.length = h.vertexRecords.length ∧
      (∀ x : Nat, (h2.vertexRecords[x]?).map vertexRecord.coords =
        (h.vertexRecords[x]?).map vertexRecord.coords) ∧
      h2.halfEdgeRecords.length = h.halfEdgeRecords.length + 2 ∧
      ∀ x, h2.halfEdgeRecords[x]? =
        if x = h.halfEdgeRecords.length then
          some ⟨some cut, some (h.halfEdgeRecords.length + 1), er.incident, some n, some e⟩
        else if x = h.halfEdgeRecords.length + 1 then
          some ⟨some dv, some h.halfEdgeRecords.length, tr.incident, some t, some nt⟩
        else if x = t then
          some { tr with origin := some cut, prev := some (h.halfEdgeRecords.length + 1) }
        else if x = n then some { nr with prev := some h.halfEdgeRecords.length }
        else if x = nt then some { ntr with next := some (h.halfEdgeRecords.length + 1) }
        else if x = e then some { er with next := some h.halfEdgeRecords.length }
        else h.halfEdgeRecords[x]? := by
  have le := lt_length_of_getElem?_eq_some he
  have lt := lt_length_of_getElem?_eq_some ht
  have ln := lt_length_of_getElem?_eq_some hn
  have lnt := lt_length_of_getElem?_eq_some hnt
  have lp := lt_length_of_getElem?_eq_some hp
  have lpt := lt_length_of_getElem?_eq_some hpt
  -- the two allocations
  let r1 : halfEdgeRecord := ⟨some cut, none, er.incident, some n, some e⟩
  let r2 : halfEdgeRecord :=
    ⟨some dv, some h.halfEdgeRecords.length, tr.incident, some t, some nt⟩
  let h2 : Heap := { h with halfEdgeRecords := (h.halfEdgeRecords ++ [r1]) ++ [r2] }
  have rec2 : ∀ x, h2.halfEdgeRecords[x]? =
      if x = h.halfEdgeRecords.length + 1 then some r2
      else if x = h.halfEdgeRecords.length then some r1 else h.halfEdgeRecords[x]? := by
    intro x
    show ((h.halfEdgeRecords ++ [r1]) ++ [r2])[x]? = _
    rw [getElem?_append_one, getElem?_append_one]
    simp
  have hr1 : h2.halfEdgeRecords[h.halfEdgeRecords.length]? = some r1 := by
    rw [rec2]; simp
  obtain ⟨h3, e3, v3, f3, l3, rec3⟩ :=
    updHalfEdge_spec (fun r => { r with twin := some (h.halfEdgeRecords.length + 1) }) hr1
  have old3 : ∀ x, x < h.halfEdgeRecords.length →
      h3.halfEdgeRecords[x]? = h.halfEdgeRecords[x]? := by
    intro x hx
    rw [rec3, rec2, if_neg (by omega), if_neg (by omega), if_neg (by omega)]
  have he3 := (old3 e le).trans he
  have ht3 := (old3 t lt).trans ht
  have hn3 := (old3 n ln).trans hn
  have hnt3 := (old3 nt lnt).trans hnt
  obtain ⟨h8, e8, v8, f8, l8, rec8⟩ := reNodeEdgeRewire_spec cut
    h.halfEdgeRecords.length (h.halfEdgeRecords.length + 1)
    he3 ht3 hn3 hnt3 het hnn d1 d2 d3 d4 d5 d6
  -- the write through e.prev.twin changes nothing
  have twin8 : ∀ x r, h.halfEdgeRecords[x]? = some r →
      ∃ r8, h8.halfEdgeRecords[x]? = some r8 ∧ r8.twin = r.twin ∧
        (x ≠ t → x ≠ n → r8.prev = r.prev) := by
    intro x r hx
    have lx := lt_length_of_getElem?_eq_some hx
    rw [rec8, old3 x lx, hx]
    by_cases x1 : x = t
    · subst x1
      rw [ht] at hx
      rw [if_pos rfl, ← Option.some.inj hx]
      exact ⟨_, rfl, rfl, fun h0 => absurd rfl h0⟩
    · by_cases x2 : x = n
      · subst x2
        rw [hn] at hx
        rw [if_neg x1, if_pos rfl, ← Option.some.inj hx]
        exact ⟨_, rfl, rfl, fun _ h0 => absurd rfl h0⟩
      · by_cases x3 : x = nt
        · subst x3
          rw [hnt] at hx
          rw [if_neg x1, if_neg x2, if_pos rfl, ← Option.some.inj hx]
          exact ⟨_, rfl, rfl, fun _ _ => rfl⟩
        · by_cases x4 : x = e
          · subst x4
            rw [he] at hx
            rw [if_neg x1, if_neg x2, if_neg x3, if_pos rfl, ← Option.some.inj hx]
            exact ⟨_, rfl, rfl, fun _ _ => rfl⟩
          · rw [if_neg x1, if_neg x2, if_neg x3, if_neg x4]
            exact ⟨_, rfl, rfl, fun _ _ => rfl⟩
  obtain ⟨er8, he8, het8, hep8⟩ := twin8 e er he
  obtain ⟨pr8, hp8, hpt8, -⟩ := twin8 p pr hp
  obtain ⟨ptr8, hpt8r, -, hptp8⟩ := twin8 pt ptr hpt
  have e9 : reNodeEdgePrevTwin h8 e = some h8 :=
    reNodeEdgePrevTwin_spec he8 hp8 hpt8r ((hep8 d1.symm d2.symm).trans hep)
      (hpt8.trans hpp) (het8.trans het) ((hptp8 d7 d8).trans hptp)
  -- the vertex writes
  have hv8 : h8.vertexRecords = h.vertexRecords := by rw [v8, v3]
  obtain ⟨h11, e11, s11, f11, l11, c11⟩ := reNodeEdgeVertices_spec
    h.halfEdgeRecords.length (h.halfEdgeRecords.length + 1)
    (hv8 ▸ hc : cut < h8.vertexRecords.length) (hv8 ▸ hd : dv < h8.vertexRecords.length)
  refine ⟨h11, ?_, ?_, ?_, ?_, ?_, ?_⟩
  · have hn1 : (h.allocHalfEdge r1).1.halfEdgeRecords[n]? = some nr := by
      show (h.halfEdgeRecords ++ [r1])[n]? = some nr
      rw [getElem?_append_one, if_neg (Nat.ne_of_lt ln), hn]
    simp only [reNodeEdge, Option.bind_eq_bind, he, Option.some_bind, het, ht, hen, hto]
    simp only [hn1, Option.some_bind, hnn]
    have e3b : ((h.allocHalfEdge r1).1.allocHalfEdge r2).1 = h2 := rfl
    have l1 : (h.allocHalfEdge r1).1.halfEdgeRecords.length = h.halfEdgeRecords.length + 1 := by
      show (h.halfEdgeRecords ++ [r1]).length = _
      simp
    simp only [l1]
    show (Option.bind (Heap.setTwin h2 _ _) _) = _
    simp only [Heap.setTwin, e3, Option.some_bind, e8, e9, e11]
    rfl
  · rw [f11, f8, f3]
  · rw [l11, hv8]
  · intro x; rw [c11, hv8]
  · rw [s11, l8, l3]
    show ((h.halfEdgeRecords ++ [r1]) ++ [r2]).length = _
    simp
  · intro x
    rw [s11, rec8, rec3, rec2]
    by_cases x1 : x = h.halfEdgeRecords.length
    · subst x1
      rw [if_neg (Nat.ne_of_gt lt), if_neg (Nat.ne_of_gt ln), if_neg (Nat.ne_of_gt lnt),
        if_neg (Nat.ne_of_gt le), if_pos rfl, if_pos rfl]
    · by_cases x2 : x = h.halfEdgeRecords.length + 1
      · subst x2
        rw [if_neg (by omega), if_neg (by omega), if_neg (by omega), if_neg (by omega),
          if_neg (by omega), if_pos rfl, if_neg (by omega), if_pos rfl]
      · rw [if_neg x1, if_neg x2, if_neg x1, if_neg x2, if_neg x1]

/-! ## The split invariant -/

theorem SplitInv.pointerLaws {h : Heap} {d : doublyConnectedEdgeList} (inv : SplitInv h d)
    {e : Nat} (he : e ∈ d.halfEdges) : PointerLaws h e := by
  obtain ⟨t, ht, e1⟩ := inv.twin_mem e he
  obtain ⟨n, hn, e2⟩ := inv.next_mem e he
  obtain ⟨p, hp, e3⟩ := inv.prev_mem e he
  obtain ⟨v, -, e4⟩ := inv.origin_some t ht
  refine ⟨?_, ?_, ?_, v, ?_, ?_⟩
  · rw [e1]; exact inv.twin_twin e t he e1
  · rw [e2]; exact inv.next_prev e n he e2
  · rw [e3]; exact inv.prev_next e p he e3
  · rw [e1]; exact e4
  · rw [e2]; exact (inv.twin_origin e t n he e1 e2).symm.trans e4

/-- What holds around a half-edge `e` of a DCEL with the split invariant: the
records `reNodeEdge` reads, and that they are different records. -/
theorem SplitInv.around {h : Heap} {d : doublyConnectedEdgeList} (inv : SplitInv h d)
    {e : Nat} (he : e ∈ d.halfEdges) :
    ∃ t n p nt pt dv : Nat,
      (t ∈ d.halfEdges ∧ n ∈ d.halfEdges ∧ p ∈ d.halfEdges ∧ nt ∈ d.halfEdges ∧
        pt ∈ d.halfEdges) ∧
      (h.twinOf e = some t ∧ h.nextOf e = some n ∧ h.prevOf e = some p ∧
        h.twinOf n = some nt ∧ h.twinOf p = some pt ∧ h.originOf t = some dv ∧
        h.prevOf pt = some t ∧ h.prevOf t = some nt ∧ h.nextOf nt = some t ∧
        h.originOf n = some dv ∧ h.twinOf t = some e ∧ h.twinOf nt = some n ∧
        h.prevOf n = some e) ∧
      (t ≠ e ∧ n ≠ e ∧ n ≠ t ∧ nt ≠ e ∧ nt ≠ t ∧ nt ≠ n ∧ pt ≠ t ∧ pt ≠ n) ∧
      dv < h.vertexRecords.length := by
  obtain ⟨t, ht, e1⟩ := inv.twin_mem e he
  obtain ⟨n, hn, e2⟩ := inv.next_mem e he
  obtain ⟨p, hp, e3⟩ := inv.prev_mem e he
  obtain ⟨nt, hnt, e4⟩ := inv.twin_mem n hn
  obtain ⟨pt, hpt, e5⟩ := inv.twin_mem p hp
  obtain ⟨dv, hdv, e6⟩ := inv.origin_some t ht
  have tt := inv.twin_twin e t he e1
  have ntt := inv.twin_twin n nt hn e4
  have pn := inv.next_prev e n he e2
  have np := inv.prev_next e p he e3
  have m1 : h.nextOf t = some pt := (inv.mirror e t p he e1 e3).trans e5
  have ptp : h.prevOf pt = some t := inv.next_prev t pt ht m1
  have m2 : h.nextOf nt = some t := (inv.mirror n nt e hn e4 pn).trans e1
  have tp : h.prevOf t = some nt := inv.next_prev nt t hnt m2
  have hon : h.originOf n = some dv := (inv.twin_origin e t n he e1 e2).symm.trans e6
  have d1 : t ≠ e := fun hh => inv.twin_ne e he (hh ▸ e1)
  have d2 : n ≠ e := fun hh => inv.next_ne e he (hh ▸ e2)
  have d3 : n ≠ t := fun hh => inv.next_ne_twin e he (by rw [e1, e2, hh])
  have d4 : nt ≠ e := by
    intro hh; rw [hh] at ntt; rw [e1] at ntt; exact d3 (Option.some.inj ntt).symm
  have d5 : nt ≠ t := by
    intro hh; rw [hh, tt] at ntt; exact d2 (Option.some.inj ntt).symm
  have d6 : nt ≠ n := fun hh => inv.twin_ne n hn (hh ▸ e4)
  have d7 : pt ≠ t := by
    intro hh
    have := inv.twin_twin p pt hp e5
    rw [hh, tt] at this
    have hpe : p = e := (Option.some.inj this).symm
    rw [hpe, e2] at np
    exact d2 (Option.some.inj np)
  have d8 : pt ≠ n := by
    intro hh
    rw [hh, pn] at ptp
    exact d1 (Option.some.inj ptp).symm
  exact ⟨t, n, p, nt, pt, dv, ⟨ht, hn, hp, hnt, hpt⟩,
    ⟨e1, e2, e3, e4, e5, e6, ptp, tp, m2, hon, tt, ntt, pn⟩,
    ⟨d1, d2, d3, d4, d5, d6, d7, d8⟩, hdv⟩

theorem twinOf_eq_some {h : Heap} {x y : Nat} (hx : h.twinOf x = some y) :
    ∃ r, h.halfEdgeRecords[x]? = some r ∧ r.twin = some y := by
  unfold Heap.twinOf at hx
  cases hr : h.halfEdgeRecords[x]? with
  | none => rw [hr] at hx; exact Option.noConfusion hx
  | some r => rw [hr] at hx; exact ⟨r, rfl, hx⟩

theorem nextOf_eq_some {h : Heap} {x y : Nat} (hx : h.nextOf x = some y) :
    ∃ r, h.halfEdgeRecords[x]? = some r ∧ r.next = some y := by
  unfold Heap.nextOf at hx
  cases hr : h.halfEdgeRecords[x]? with
  | none => rw [hr] at hx; exact Option.noConfusion hx
  | some r => rw [hr] at hx; exact ⟨r, rfl, hx⟩

theorem prevOf_eq_some {h : Heap} {x y : Nat} (hx : h.prevOf x = some y) :
    ∃ r, h.halfEdgeRecords[x]? = some r ∧ r.prev = some y := by
  unfold Heap.prevOf at hx
  cases hr : h.halfEdgeRecords[x]? with
  | none => rw [hr] at hx; exact Option.noConfusion hx
  | some r => rw [hr] at hx; exact ⟨r, rfl, hx⟩

theorem originOf_eq_some {h : Heap} {x y : Nat} (hx : h.originOf x = some y) :
    ∃ r, h.halfEdgeRecords[x]? = some r ∧ r.origin = some y := by
  unfold Heap.originOf at hx
  cases hr : h.halfEdgeRecords[x]? with
  | none => rw [hr] at hx; exact Option.noConfusion hx
  | some r => rw [hr] at hx; exact ⟨r, rfl, hx⟩

/-- The fields of every half-edge after `reNodeEdge(e, cut)`, in a DCEL with the
split invariant. `L` is the old number of half-edge records: the new half-edges
are `L` (ePrime) and `L + 1` (its twin). -/
theorem reNodeEdge_fields {h : Heap} {d : doublyConnectedEdgeList} (inv : SplitInv h d)
    {e cut t n nt dv : Nat} (he : e ∈ d.halfEdges) (hc : cut < h.vertexRecords.length)
    (e1 : h.twinOf e = some t) (e2 : h.nextOf e = some n) (e4 : h.twinOf n = some nt)
    (e6 : h.originOf t = some dv) :
    ∃ h2, reNodeEdge h d e cut =
        some (h2, { d with halfEdges := d.halfEdges ++
          [h.halfEdgeRecords.length, h.halfEdgeRecords.length + 1] }) ∧
      h2.faceRecords = h.faceRecords ∧
      h2.vertexRecords.length = h.vertexRecords.length ∧
      (∀ x : Nat, (h2.vertexRecords[x]?).map vertexRecord.coords =
        (h.vertexRecords[x]?).map vertexRecord.coords) ∧
      h2.halfEdgeRecords.length = h.halfEdgeRecords.length + 2 ∧
      (∀ x, h2.twinOf x =
        if x = h.halfEdgeRecords.length then some (h.halfEdgeRecords.length + 1)
        else if x = h.halfEdgeRecords.length + 1 then some h.halfEdgeRecords.length
        else h.twinOf x) ∧
      (∀ x, h2.nextOf x =
        if x = h.halfEdgeRecords.length then some n
        else if x = h.halfEdgeRecords.length + 1 then some t
        else if x = nt then some (h.halfEdgeRecords.length + 1)
        else if x = e then some h.halfEdgeRecords.length
        else h.nextOf x) ∧
      (∀ x, h2.prevOf x =
        if x = h.halfEdgeRecords.length then some e
        else if x = h.halfEdgeRecords.length + 1 then some nt
        else if x = t then some (h.halfEdgeRecords.length + 1)
        else if x = n then some h.halfEdgeRecords.length
        else h.prevOf x) ∧
      (∀ x, h2.originOf x =
        if x = h.halfEdgeRecords.length then some cut
        else if x = h.halfEdgeRecords.length + 1 then some dv
        else if x = t then some cut
        else h.originOf x) ∧
      (∀ x, h2.incidentOf x =
        if x = h.halfEdgeRecords.length then h.incidentOf e
        else if x = h.halfEdgeRecords.length + 1 then h.incidentOf t
        else h.incidentOf x) := by
  obtain ⟨t2, n2, p, nt2, pt, dv2, ⟨ht, hn, hp, hnt, hpt⟩,
    ⟨a1, a2, a3, a4, a5, a6, a7, a8, a9, a10, a11, a12, a13⟩,
    ⟨d1, d2, d3, d4, d5, d6, d7, d8⟩, hdv⟩ := inv.around he
  obtain rfl : t = t2 := Option.some.inj (e1.symm.trans a1)
  obtain rfl : n = n2 := Option.some.inj (e2.symm.trans a2)
  obtain rfl : nt = nt2 := Option.some.inj (e4.symm.trans a4)
  obtain rfl : dv = dv2 := Option.some.inj (e6.symm.trans a6)
  obtain ⟨er, hre, ret⟩ := twinOf_eq_some a1
  obtain ⟨er2, hre2, ren⟩ := nextOf_eq_some a2
  obtain rfl : er = er2 := Option.some.inj (hre.symm.trans hre2)
  obtain ⟨er3, hre3, rep⟩ := prevOf_eq_some a3
  obtain rfl : er = er3 := Option.some.inj (hre.symm.trans hre3)
  obtain ⟨tr, hrt, rto⟩ := originOf_eq_some a6
  obtain ⟨nr, hrn, rnt⟩ := twinOf_eq_some a4
  obtain ⟨ntr, hrnt, -⟩ := twinOf_eq_some a12
  obtain ⟨pr, hrp, rpt⟩ := twinOf_eq_some a5
  obtain ⟨ptr, hrpt, rptp⟩ := prevOf_eq_some a7
  obtain ⟨h2, r1, r2, r3, r4, r5, r6⟩ := reNodeEdge_spec d hre hrt hrn hrnt hrp hrpt
    ret ren rep rto rnt rpt rptp d1 d2 d3 d4 d5 d6 d7 d8 hc hdv
  have le := lt_length_of_getElem?_eq_some hre
  have lt := lt_length_of_getElem?_eq_some hrt
  have ln := lt_length_of_getElem?_eq_some hrn
  have lnt := lt_length_of_getElem?_eq_some hrnt
  refine ⟨h2, r1, r2, r3, r4, r5, ?_, ?_, ?_, ?_, ?_⟩ <;> intro x <;>
    simp only [Heap.twinOf, Heap.nextOf, Heap.prevOf, Heap.originOf, Heap.incidentOf, r6] <;>
    (by_cases x1 : x = h.halfEdgeRecords.length
     · simp [x1, hre, hrt]
     by_cases x2 : x = h.halfEdgeRecords.length + 1
     · simp [x2, hre, hrt]
     by_cases x3 : x = t
     · subst x3; simp [x1, x2, hrt, hre, d1, d3.symm, d5.symm]
     by_cases x4 : x = n
     · subst x4; simp [x1, x2, x3, hrn, hre, d2, d6.symm]
     by_cases x5 : x = nt
     · subst x5; simp [x1, x2, x3, x4, hrnt, hre, d4]
     by_cases x6 : x = e
     · subst x6; simp [x1, x2, x3, x4, x5, hre, hrt]
     simp [x1, x2, x3, x4, x5, x6])

/-- `reNodeEdge` keeps the split invariant, and so the four pointer laws. -/
theorem reNodeEdge_preserves {h : Heap} {d : doublyConnectedEdgeList} (inv : SplitInv h d)
    {e cut : Nat} (he : e ∈ d.halfEdges) (hc : cut < h.vertexRecords.length) :
    ∃ h2, reNodeEdge h d e cut =
        some (h2, { d with halfEdges := d.halfEdges ++
          [h.halfEdgeRecords.length, h.halfEdgeRecords.length + 1] }) ∧
      SplitInv h2 { d with halfEdges := d.halfEdges ++
          [h.halfEdgeRecords.length, h.halfEdgeRecords.length + 1] } := by
  obtain ⟨t, n, p, nt, pt, dv, ⟨ht, hn, hp, hnt, hpt⟩,
    ⟨a1, a2, a3, a4, a5, a6, a7, a8, a9, a10, a11, a12, a13⟩,
    ⟨d1, d2, d3, d4, d5, d6, d7, d8⟩, hdv⟩ := inv.around he
  obtain ⟨h2, r1, -, rv, -, rl, T, N, P, O, -⟩ := reNodeEdge_fields inv he hc a1 a2 a4 a6
  refine ⟨h2, r1, ?_⟩
  have le := inv.lt_length e he
  have lt := inv.lt_length t ht
  have ln := inv.lt_length n hn
  have lnt := inv.lt_length nt hnt
  have mem : ∀ x, x ∈ d.halfEdges ++ [h.halfEdgeRecords.length, h.halfEdgeRecords.length + 1] ↔
      (x ∈ d.halfEdges ∨ x = h.halfEdgeRecords.length ∨ x = h.halfEdgeRecords.length + 1) := by
    intro x; simp
  have old : ∀ x, x ∈ d.halfEdges →
      x ≠ h.halfEdgeRecords.length ∧ x ≠ h.halfEdgeRecords.length + 1 := by
    intro x hx
    have := inv.lt_length x hx
    constructor <;> omega
  -- old fields of old half-edges
  have Told : ∀ x, x ∈ d.halfEdges → h2.twinOf x = h.twinOf x := by
    intro x hx; rw [T, if_neg (old x hx).1, if_neg (old x hx).2]
  have Oold : ∀ x, x ∈ d.halfEdges → x ≠ t → h2.originOf x = h.originOf x := by
    intro x hx hxt; rw [O, if_neg (old x hx).1, if_neg (old x hx).2, if_neg hxt]
  have Nold : ∀ x, x ∈ d.halfEdges → x ≠ nt → x ≠ e → h2.nextOf x = h.nextOf x := by
    intro x hx h1 h2'; rw [N, if_neg (old x hx).1, if_neg (old x hx).2, if_neg h1, if_neg h2']
  have Pold : ∀ x, x ∈ d.halfEdges → x ≠ t → x ≠ n → h2.prevOf x = h.prevOf x := by
    intro x hx h1 h2'; rw [P, if_neg (old x hx).1, if_neg (old x hx).2, if_neg h1, if_neg h2']
  have TL : h2.twinOf h.halfEdgeRecords.length = some (h.halfEdgeRecords.length + 1) := by
    rw [T, if_pos rfl]
  have TL1 : h2.twinOf (h.halfEdgeRecords.length + 1) = some h.halfEdgeRecords.length := by
    rw [T, if_neg (by omega), if_pos rfl]
  have NL : h2.nextOf h.halfEdgeRecords.length = some n := by rw [N, if_pos rfl]
  have NL1 : h2.nextOf (h.halfEdgeRecords.length + 1) = some t := by
    rw [N, if_neg (by omega), if_pos rfl]
  have Nnt : h2.nextOf nt = some (h.halfEdgeRecords.length + 1) := by
    rw [N, if_neg (by omega), if_neg (by omega), if_pos rfl]
  have Ne : h2.nextOf e = some h.halfEdgeRecords.length := by
    rw [N, if_neg (by omega), if_neg (by omega), if_neg d4.symm, if_pos rfl]
  have PL : h2.prevOf h.halfEdgeRecords.length = some e := by rw [P, if_pos rfl]
  have PL1 : h2.prevOf (h.halfEdgeRecords.length + 1) = some nt := by
    rw [P, if_neg (by omega), if_pos rfl]
  have Pt : h2.prevOf t = some (h.halfEdgeRecords.length + 1) := by
    rw [P, if_neg (by omega), if_neg (by omega), if_pos rfl]
  have Pn : h2.prevOf n = some h.halfEdgeRecords.length := by
    rw [P, if_neg (by omega), if_neg (by omega), if_neg d3, if_pos rfl]
  have OL : h2.originOf h.halfEdgeRecords.length = some cut := by rw [O, if_pos rfl]
  have OL1 : h2.originOf (h.halfEdgeRecords.length + 1) = some dv := by
    rw [O, if_neg (by omega), if_pos rfl]
  have Ot : h2.originOf t = some cut := by
    rw [O, if_neg (by omega), if_neg (by omega), if_pos rfl]
  -- injectivity facts of the old heap
  have next_inj : ∀ x y z, x ∈ d.halfEdges → y ∈ d.halfEdges → h.nextOf x = some z →
      h.nextOf y = some z → x = y := by
    intro x y z hx hy h1 h2'
    have := (inv.next_prev x z hx h1).symm.trans (inv.next_prev y z hy h2')
    exact Option.some.inj this
  have prev_inj : ∀ x y z, x ∈ d.halfEdges → y ∈ d.halfEdges → h.prevOf x = some z →
      h.prevOf y = some z → x = y := by
    intro x y z hx hy h1 h2'
    have := (inv.prev_next x z hx h1).symm.trans (inv.prev_next y z hy h2')
    exact Option.some.inj this
  have twin_inj : ∀ x y z, x ∈ d.halfEdges → y ∈ d.halfEdges → h.twinOf x = some z →
      h.twinOf y = some z → x = y := by
    intro x y z hx hy h1 h2'
    have := (inv.twin_twin x z hx h1).symm.trans (inv.twin_twin y z hy h2')
    exact Option.some.inj this
  constructor
  · -- twin_mem
    intro x hx
    rcases (mem x).mp hx with hx | rfl | rfl
    · obtain ⟨y, hy, e1⟩ := inv.twin_mem x hx
      exact ⟨y, (mem y).mpr (Or.inl hy), (Told x hx).trans e1⟩
    · exact ⟨_, (mem _).mpr (Or.inr (Or.inr rfl)), TL⟩
    · exact ⟨_, (mem _).mpr (Or.inr (Or.inl rfl)), TL1⟩
  · -- next_mem
    intro x hx
    rcases (mem x).mp hx with hx | rfl | rfl
    · by_cases x1 : x = nt
      · subst x1; exact ⟨_, (mem _).mpr (Or.inr (Or.inr rfl)), Nnt⟩
      · by_cases x2 : x = e
        · subst x2; exact ⟨_, (mem _).mpr (Or.inr (Or.inl rfl)), Ne⟩
        · obtain ⟨y, hy, e1⟩ := inv.next_mem x hx
          exact ⟨y, (mem y).mpr (Or.inl hy), (Nold x hx x1 x2).trans e1⟩
    · exact ⟨n, (mem n).mpr (Or.inl hn), NL⟩
    · exact ⟨t, (mem t).mpr (Or.inl ht), NL1⟩
  · -- prev_mem
    intro x hx
    rcases (mem x).mp hx with hx | rfl | rfl
    · by_cases x1 : x = t
      · subst x1; exact ⟨_, (mem _).mpr (Or.inr (Or.inr rfl)), Pt⟩
      · by_cases x2 : x = n
        · subst x2; exact ⟨_, (mem _).mpr (Or.inr (Or.inl rfl)), Pn⟩
        · obtain ⟨y, hy, e1⟩ := inv.prev_mem x hx
          exact ⟨y, (mem y).mpr (Or.inl hy), (Pold x hx x1 x2).trans e1⟩
    · exact ⟨e, (mem e).mpr (Or.inl he), PL⟩
    · exact ⟨nt, (mem nt).mpr (Or.inl hnt), PL1⟩
  · -- origin_some
    intro x hx
    rcases (mem x).mp hx with hx | rfl | rfl
    · by_cases x1 : x = t
      · subst x1; exact ⟨cut, rv ▸ hc, Ot⟩
      · obtain ⟨v, hv, e1⟩ := inv.origin_some x hx
        exact ⟨v, rv ▸ hv, (Oold x hx x1).trans e1⟩
    · exact ⟨cut, rv ▸ hc, OL⟩
    · exact ⟨dv, rv ▸ hdv, OL1⟩
  · -- lt_length
    intro x hx
    rw [rl]
    rcases (mem x).mp hx with hx | rfl | rfl
    · have := inv.lt_length x hx; omega
    · omega
    · omega
  · -- twin_twin
    intro x y hx hxy
    rcases (mem x).mp hx with hx | rfl | rfl
    · rw [Told x hx] at hxy
      obtain ⟨y2, hy, e1⟩ := inv.twin_mem x hx
      obtain rfl : y2 = y := Option.some.inj (e1.symm.trans hxy)
      rw [Told y2 hy]; exact inv.twin_twin x y2 hx hxy
    · rw [TL] at hxy; rw [← Option.some.inj hxy]; exact TL1
    · rw [TL1] at hxy; rw [← Option.some.inj hxy]; exact TL
  · -- next_prev
    intro x y hx hxy
    rcases (mem x).mp hx with hx | rfl | rfl
    · by_cases x1 : x = nt
      · subst x1; rw [Nnt] at hxy; rw [← Option.some.inj hxy]; exact PL1
      · by_cases x2 : x = e
        · subst x2; rw [Ne] at hxy; rw [← Option.some.inj hxy]; exact PL
        · rw [Nold x hx x1 x2] at hxy
          obtain ⟨y2, hy, e1⟩ := inv.next_mem x hx
          obtain rfl : y2 = y := Option.some.inj (e1.symm.trans hxy)
          have y1 : y2 ≠ t := fun hh => x1 (next_inj x nt t hx hnt (hh ▸ hxy) a9)
          have y2' : y2 ≠ n := fun hh => x2 (next_inj x e n hx he (hh ▸ hxy) a2)
          rw [Pold y2 hy y1 y2']; exact inv.next_prev x y2 hx hxy
    · rw [NL] at hxy; rw [← Option.some.inj hxy]; exact Pn
    · rw [NL1] at hxy; rw [← Option.some.inj hxy]; exact Pt
  · -- prev_next
    intro x y hx hxy
    rcases (mem x).mp hx with hx | rfl | rfl
    · by_cases x1 : x = t
      · subst x1; rw [Pt] at hxy; rw [← Option.some.inj hxy]; exact NL1
      · by_cases x2 : x = n
        · subst x2; rw [Pn] at hxy; rw [← Option.some.inj hxy]; exact NL
        · rw [Pold x hx x1 x2] at hxy
          obtain ⟨y2, hy, e1⟩ := inv.prev_mem x hx
          obtain rfl : y2 = y := Option.some.inj (e1.symm.trans hxy)
          have y1 : y2 ≠ nt := fun hh => x1 (prev_inj x t nt hx ht (hh ▸ hxy) a8)
          have y2' : y2 ≠ e := fun hh => x2 (prev_inj x n e hx hn (hh ▸ hxy) a13)
          rw [Nold y2 hy y1 y2']; exact inv.prev_next x y2 hx hxy
    · rw [PL] at hxy; rw [← Option.some.inj hxy]; exact Ne
    · rw [PL1] at hxy; rw [← Option.some.inj hxy]; exact Nnt
  · -- twin_origin
    intro x a b hx hxa hxb
    rcases (mem x).mp hx with hx | rfl | rfl
    · rw [Told x hx] at hxa
      obtain ⟨a2', ha, e1⟩ := inv.twin_mem x hx
      obtain rfl : a2' = a := Option.some.inj (e1.symm.trans hxa)
      by_cases x1 : x = nt
      · subst x1
        rw [Nnt] at hxb; rw [← Option.some.inj hxb, OL1]
        obtain rfl : a2' = n := Option.some.inj (hxa.symm.trans a12)
        rw [Oold a2' hn d3]; exact a10
      · by_cases x2 : x = e
        · subst x2
          rw [Ne] at hxb; rw [← Option.some.inj hxb, OL]
          obtain rfl : a2' = t := Option.some.inj (hxa.symm.trans a1)
          exact Ot
        · rw [Nold x hx x1 x2] at hxb
          obtain ⟨b2, hb, e2⟩ := inv.next_mem x hx
          obtain rfl : b2 = b := Option.some.inj (e2.symm.trans hxb)
          have y1 : a2' ≠ t := fun hh => x2 (twin_inj x e t hx he (hh ▸ hxa) a1)
          have y2 : b2 ≠ t := fun hh => x1 (next_inj x nt t hx hnt (hh ▸ hxb) a9)
          rw [Oold a2' ha y1, Oold b2 hb y2]
          exact inv.twin_origin x a2' b2 hx hxa hxb
    · rw [TL] at hxa; rw [NL] at hxb
      rw [← Option.some.inj hxa, ← Option.some.inj hxb, OL1, Oold n hn d3]; exact a10.symm
    · rw [TL1] at hxa; rw [NL1] at hxb
      rw [← Option.some.inj hxa, ← Option.some.inj hxb, OL, Ot]
  · -- mirror
    intro x a b hx hxa hxb
    rcases (mem x).mp hx with hx | rfl | rfl
    · rw [Told x hx] at hxa
      obtain ⟨a2', ha, e1⟩ := inv.twin_mem x hx
      obtain rfl : a2' = a := Option.some.inj (e1.symm.trans hxa)
      by_cases x1 : x = t
      · subst x1
        rw [Pt] at hxb; rw [← Option.some.inj hxb, TL1]
        obtain rfl : a2' = e := Option.some.inj (hxa.symm.trans a11)
        exact Ne
      · by_cases x2 : x = n
        · subst x2
          rw [Pn] at hxb; rw [← Option.some.inj hxb, TL]
          obtain rfl : a2' = nt := Option.some.inj (hxa.symm.trans a4)
          exact Nnt
        · rw [Pold x hx x1 x2] at hxb
          obtain ⟨b2, hb, e2⟩ := inv.prev_mem x hx
          obtain rfl : b2 = b := Option.some.inj (e2.symm.trans hxb)
          have y1 : a2' ≠ nt := fun hh => x2 (twin_inj x n nt hx hn (hh ▸ hxa) a4)
          have y2 : a2' ≠ e := fun hh => x1 (twin_inj x t e hx ht (hh ▸ hxa) a11)
          rw [Nold a2' ha y1 y2, Told b2 hb]
          exact inv.mirror x a2' b2 hx hxa hxb
    · rw [TL] at hxa; rw [PL] at hxb
      rw [← Option.some.inj hxa, ← Option.some.inj hxb, NL1, Told e he]; exact a1.symm
    · rw [TL1] at hxa; rw [PL1] at hxb
      rw [← Option.some.inj hxa, ← Option.some.inj hxb, NL, Told nt hnt]; exact a12.symm
  · -- twin_ne
    intro x hx
    rcases (mem x).mp hx with hx | rfl | rfl
    · rw [Told x hx]; exact inv.twin_ne x hx
    · rw [TL]; intro hh; have := Option.some.inj hh; omega
    · rw [TL1]; intro hh; have := Option.some.inj hh; omega
  · -- next_ne
    intro x hx
    rcases (mem x).mp hx with hx | rfl | rfl
    · by_cases x1 : x = nt
      · subst x1; rw [Nnt]; intro hh; have := Option.some.inj hh; omega
      · by_cases x2 : x = e
        · subst x2; rw [Ne]; intro hh; have := Option.some.inj hh; omega
        · rw [Nold x hx x1 x2]; exact inv.next_ne x hx
    · rw [NL]; intro hh; have := Option.some.inj hh; omega
    · rw [NL1]; intro hh; have := Option.some.inj hh; omega
  · -- next_ne_twin
    intro x hx
    rcases (mem x).mp hx with hx | rfl | rfl
    · rw [Told x hx]
      by_cases x1 : x = nt
      · subst x1; rw [Nnt, a12]; intro hh; have := Option.some.inj hh; omega
      · by_cases x2 : x = e
        · subst x2; rw [Ne, a1]; intro hh; have := Option.some.inj hh; omega
        · rw [Nold x hx x1 x2]; exact inv.next_ne_twin x hx
    · rw [NL, TL]; intro hh; have := Option.some.inj hh; omega
    · rw [NL1, TL1]; intro hh; have := Option.some.inj hh; omega

/-! ## Rings and the vertex map -/

theorem getLine_cons_succ (a : XY) (ring : List XY) (i : Nat) :
    getLine (a :: ring) (i + 1) = getLine ring i := by
  simp [getLine]

theorem ringLines_cons (a : XY) (ring : List XY) :
    ringLines (a :: ring) = (getLine (a :: ring) 0).toList ++ ringLines ring := by
  unfold ringLines
  rw [List.length_cons, List.range_succ_eq_map, List.filterMap_cons, List.filterMap_map]
  have : (getLine (a :: ring) ∘ Nat.succ) = getLine ring := by
    funext i; exact getLine_cons_succ a ring i
  rw [this]
  cases getLine (a :: ring) 0 <;> simp

theorem ringLines_eq_rec (ring : List XY) : ringLines ring = ringLinesRec ring := by
  induction ring with
  | nil => rfl
  | cons a rest ih =>
    rw [ringLines_cons, ih]
    cases rest with
    | nil => simp [getLine, ringLinesRec]
    | cons b rest2 =>
      simp only [getLine, List.getElem?_cons_zero, List.getElem?_cons_succ, zero_add,
        ringLinesRec]
      split_ifs <;> simp

theorem isPath_ringLinesRec (a : XY) (ring : List XY) :
    IsPath a ((a :: ring).getLast (List.cons_ne_nil _ _)) (ringLinesRec (a :: ring)) := by
  induction ring generalizing a with
  | nil => simp [ringLinesRec, IsPath]
  | cons b rest ih =>
    rw [List.getLast_cons (List.cons_ne_nil _ _)]
    simp only [ringLinesRec]
    split_ifs with hab
    · rw [hab]; exact ih b
    · exact ⟨rfl, ih b⟩

theorem ringLinesRec_ne (ring : List XY) : ∀ l ∈ ringLinesRec ring, l.a ≠ l.b := by
  induction ring with
  | nil => intro l hl; simp [ringLinesRec] at hl
  | cons a rest ih =>
    cases rest with
    | nil => intro l hl; simp [ringLinesRec] at hl
    | cons b rest2 =>
      intro l hl
      simp only [ringLinesRec] at hl
      split_ifs at hl with hab
      · exact ih l hl
      · rcases List.mem_cons.mp hl with rfl | h
        · exact hab
        · exact ih l h

theorem ringLinesRec_mem (ring : List XY) :
    ∀ l ∈ ringLinesRec ring, l.a ∈ ring ∧ l.b ∈ ring := by
  induction ring with
  | nil => intro l hl; simp [ringLinesRec] at hl
  | cons a rest ih =>
    cases rest with
    | nil => intro l hl; simp [ringLinesRec] at hl
    | cons b rest2 =>
      intro l hl
      simp only [ringLinesRec] at hl
      split_ifs at hl with hab
      · have := ih l hl
        exact ⟨List.mem_cons_of_mem _ this.1, List.mem_cons_of_mem _ this.2⟩
      · rcases List.mem_cons.mp hl with rfl | h
        · simp
        · have := ih l h
          exact ⟨List.mem_cons_of_mem _ this.1, List.mem_cons_of_mem _ this.2⟩

/-- In a path, each line ends where the next one starts. -/
theorem isPath_getElem {u v : XY} {ls : List line} (hp : IsPath u v ls) (i : Nat)
    (hi : i + 1 < ls.length) : (ls[i]).b = (ls[i + 1]).a := by
  induction ls generalizing u i with
  | nil => simp at hi
  | cons l rest ih =>
    cases i with
    | zero =>
      cases rest with
      | nil => simp at hi
      | cons l2 rest2 => exact hp.2.1.symm
    | succ j =>
      have hj : j + 1 < rest.length := by simpa using hi
      exact ih hp.2 j hj

theorem isPath_first {u v : XY} {ls : List line} (hp : IsPath u v ls) (h0 : 0 < ls.length) :
    (ls[0]).a = u := by
  cases ls with
  | nil => simp at h0
  | cons l rest => exact hp.1

theorem isPath_last {u v : XY} {ls : List line} (hp : IsPath u v ls) (h0 : 0 < ls.length) :
    (ls[ls.length - 1]).b = v := by
  induction ls generalizing u with
  | nil => simp at h0
  | cons l rest ih =>
    cases rest with
    | nil => exact hp.2
    | cons l2 rest2 =>
      have := ih hp.2 (by simp)
      simpa using this

/-- The lines of a closed ring form a cycle: each ends where the cyclically next
one starts. -/
theorem ringLines_cycle {ring : List XY} (hc : RingClosed ring) (i : Nat)
    (hi : i < (ringLines ring).length) :
    ∃ l l2, (ringLines ring)[i]? = some l ∧
      (ringLines ring)[(i + 1) % (ringLines ring).length]? = some l2 ∧ l.b = l2.a := by
  have hm : (i + 1) % (ringLines ring).length < (ringLines ring).length :=
    Nat.mod_lt _ (by omega)
  refine ⟨(ringLines ring)[i], (ringLines ring)[(i + 1) % (ringLines ring).length],
    List.getElem?_eq_getElem hi, List.getElem?_eq_getElem hm, ?_⟩
  cases ring with
  | nil => simp [ringLines] at hi
  | cons a rest =>
    have hp := isPath_ringLinesRec a rest
    have hlast : (a :: rest).getLast (List.cons_ne_nil _ _) = a := by
      unfold RingClosed at hc
      rw [List.getLast?_eq_getLast _ (List.cons_ne_nil _ _)] at hc
      simp only [List.head?_cons] at hc
      exact (Option.some.inj hc).symm
    rw [hlast, ← ringLines_eq_rec] at hp
    by_cases hlt : i + 1 < (ringLines (a :: rest)).length
    · have := isPath_getElem hp i hlt
      simp only [Nat.mod_eq_of_lt hlt]
      exact this
    · have hi1 : i + 1 = (ringLines (a :: rest)).length := by omega
      have h1 := isPath_last hp (by omega)
      have h0 := isPath_first hp (by omega)
      have hi2 : i = (ringLines (a :: rest)).length - 1 := by omega
      simp only [hi1, Nat.mod_self]
      rw [h0]
      subst hi2
      exact h1

theorem ringLines_ne (ring : List XY) : ∀ l ∈ ringLines ring, l.a ≠ l.b := by
  rw [ringLines_eq_rec]; exact ringLinesRec_ne ring

theorem ringLines_mem (ring : List XY) : ∀ l ∈ ringLines ring, l.a ∈ ring ∧ l.b ∈ ring := by
  rw [ringLines_eq_rec]; exact ringLinesRec_mem ring

/-- A closed ring does not have exactly one line. -/
theorem ringLines_length_ne_one {ring : List XY} (hc : RingClosed ring) :
    (ringLines ring).length ≠ 1 := by
  intro h1
  obtain ⟨l, l2, e1, e2, e3⟩ := ringLines_cycle hc 0 (by omega)
  rw [h1] at e2
  simp only [zero_add, Nat.mod_self] at e2
  rw [e1] at e2
  obtain rfl := Option.some.inj e2
  exact ringLines_ne ring l (List.getElem?_mem e1) e3.symm

theorem lookup_append_single (m : List (XY × Nat)) (k x : XY) (v : Nat) :
    (m ++ [(k, v)]).lookup x =
      match m.lookup x with
      | some w => some w
      | none => if x = k then some v else none := by
  induction m with
  | nil =>
    simp only [List.nil_append, List.lookup_cons, List.lookup_nil]
    by_cases hx : x = k
    · simp [hx]
    · have : (x == k) = false := by simpa using hx
      simp [this, hx]
  | cons kv rest ih =>
    obtain ⟨k2, v2⟩ := kv
    simp only [List.cons_append, List.lookup_cons]
    cases hk : (x == k2)
    · simp only [ih]
    · rfl

theorem populateVertex_spec (s : Heap × List (XY × Nat)) (xy : XY) (hok : VMapOK s.1 s.2) :
    VMapOK (populateVertex s xy).1 (populateVertex s xy).2 ∧
    (∃ v, (populateVertex s xy).2.lookup xy = some v) ∧
    (∀ x v, s.2.lookup x = some v → (populateVertex s xy).2.lookup x = some v) ∧
    (populateVertex s xy).1.halfEdgeRecords = s.1.halfEdgeRecords ∧
    (populateVertex s xy).1.faceRecords = s.1.faceRecords := by
  unfold populateVertex
  cases hl : s.2.lookup xy with
  | some v => exact ⟨hok, ⟨v, hl⟩, fun _ _ h => h, rfl, rfl⟩
  | none =>
    refine ⟨?_, ?_, ?_, rfl, rfl⟩
    · intro x v hx
      simp only [lookup_append_single] at hx
      cases hl2 : s.2.lookup x with
      | some w =>
        rw [hl2] at hx
        obtain ⟨r, hr, hc⟩ := hok x w hl2
        obtain rfl := Option.some.inj hx
        refine ⟨r, ?_, hc⟩
        show (s.1.vertexRecords ++ [_])[w]? = some r
        rw [List.getElem?_append_left (lt_length_of_getElem?_eq_some hr)]
        exact hr
      | none =>
        rw [hl2] at hx
        simp only at hx
        split_ifs at hx with hxk
        obtain rfl := Option.some.inj hx
        refine ⟨⟨xy, none⟩, ?_, hxk.symm⟩
        show (s.1.vertexRecords ++ [_])[s.1.vertexRecords.length]? = _
        simp
    · refine ⟨s.1.vertexRecords.length, ?_⟩
      simp only [lookup_append_single, hl, if_true]
    · intro x v hx
      simp only [lookup_append_single, hx]

theorem populateRing_spec (ring : List XY) (s : Heap × List (XY × Nat)) (hok : VMapOK s.1 s.2) :
    VMapOK (ring.foldl populateVertex s).1 (ring.foldl populateVertex s).2 ∧
    (∀ xy ∈ ring, ∃ v, (ring.foldl populateVertex s).2.lookup xy = some v) ∧
    (∀ x v, s.2.lookup x = some v → (ring.foldl populateVertex s).2.lookup x = some v) ∧
    (ring.foldl populateVertex s).1.halfEdgeRecords = s.1.halfEdgeRecords ∧
    (ring.foldl populateVertex s).1.faceRecords = s.1.faceRecords := by
  induction ring generalizing s with
  | nil => exact ⟨hok, fun _ h => absurd h (List.not_mem_nil _), fun _ _ h => h, rfl, rfl⟩
  | cons a rest ih =>
    obtain ⟨h1, ⟨v, h2⟩, h3, h4, h5⟩ := populateVertex_spec s a hok
    obtain ⟨i1, i2, i3, i4, i5⟩ := ih (populateVertex s a) h1
    simp only [List.foldl_cons]
    refine ⟨i1, ?_, fun x w hx => i3 x w (h3 x w hx), i4.trans h4, i5.trans h5⟩
    intro xy hxy
    rcases List.mem_cons.mp hxy with rfl | hm
    · exact ⟨v, i3 _ v h2⟩
    · exact i2 xy hm

theorem populateRings_spec (rings : List (List XY)) (s : Heap × List (XY × Nat))
    (hok : VMapOK s.1 s.2) :
    VMapOK (rings.foldl (fun s ring => ring.foldl populateVertex s) s).1
      (rings.foldl (fun s ring => ring.foldl populateVertex s) s).2 ∧
    (∀ ring ∈ rings, ∀ xy ∈ ring,
      ∃ v, (rings.foldl (fun s ring => ring.foldl populateVertex s) s).2.lookup xy = some v) ∧
    (∀ x v, s.2.lookup x = some v →
      (rings.foldl (fun s ring => ring.foldl populateVertex s) s).2.lookup x = some v) ∧
    (rings.foldl (fun s ring => ring.foldl populateVertex s) s).1.halfEdgeRecords =
      s.1.halfEdgeRecords ∧
    (rings.foldl (fun s ring => ring.foldl populateVertex s) s).1.faceRecords =
      s.1.faceRecords := by
  induction rings generalizing s with
  | nil =>
    exact ⟨hok, fun _ h => absurd h (List.not_mem_nil _), fun _ _ h => h, rfl, rfl⟩
  | cons r rest ih =>
    obtain ⟨h1, h2, h3, h4, h5⟩ := populateRing_spec r s hok
    obtain ⟨i1, i2, i3, i4, i5⟩ := ih (r.foldl populateVertex s) h1
    simp only [List.foldl_cons]
    refine ⟨i1, ?_, fun x w hx => i3 x w (h3 x w hx), i4.trans h4, i5.trans h5⟩
    intro ring hring xy hxy
    rcases List.mem_cons.mp hring with rfl | hm
    · obtain ⟨v, hv⟩ := h2 xy hxy
      exact ⟨v, i3 _ v hv⟩
    · exact i2 ring hm xy hxy

/-! ## The loop over the lines of a ring -/

theorem updFace_spec {h : Heap} {p : Nat} (f : faceRecord → faceRecord)
    (hp : p < h.faceRecords.length) :
    ∃ h2, h.updFace p f = some h2 ∧ h2.halfEdgeRecords = h.halfEdgeRecords ∧
      h2.vertexRecords = h.vertexRecords ∧ h2.faceRecords.length = h.faceRecords.length := by
  refine ⟨{ h with faceRecords := h.faceRecords.set p (f h.faceRecords[p]) }, ?_, rfl, rfl, ?_⟩
  · simp [Heap.updFace, List.getElem?_eq_getElem hp]
  · simp

theorem linkFaces_spec {h : Heap} (ringIdx : Nat) {interiorFace exteriorFace : Nat} (a b : Nat)
    (hi : interiorFace < h.faceRecords.length) (he : exteriorFace < h.faceRecords.length) :
    ∃ h2, linkFaces h ringIdx interiorFace exteriorFace a b = some h2 ∧
      h2.halfEdgeRecords = h.halfEdgeRecords ∧ h2.vertexRecords = h.vertexRecords ∧
      h2.faceRecords.length = h.faceRecords.length := by
  unfold linkFaces
  split_ifs with h0
  · obtain ⟨h1, e1, s1, v1, l1⟩ := updFace_spec
      (fun f => { f with innerComponents := f.innerComponents ++ [b] }) he
    have hi1 : interiorFace < h1.faceRecords.length := l1 ▸ hi
    simp only [Option.bind_eq_bind, e1, Option.some_bind, List.getElem?_eq_getElem hi1]
    split_ifs with hn
    · obtain ⟨h2, e2, s2, v2, l2⟩ := updFace_spec
        (fun f => { f with outerComponent := some a }) hi1
      exact ⟨h2, e2, s2.trans s1, v2.trans v1, l2.trans l1⟩
    · exact ⟨h1, rfl, s1, v1, l1⟩
  · obtain ⟨h1, e1, s1, v1, l1⟩ := updFace_spec
      (fun f => { f with innerComponents := f.innerComponents ++ [a] }) hi
    have he1 : exteriorFace < h1.faceRecords.length := l1 ▸ he
    simp only [Option.bind_eq_bind, e1, Option.some_bind, List.getElem?_eq_getElem he1]
    split_ifs with hn
    · obtain ⟨h2, e2, s2, v2, l2⟩ := updFace_spec
        (fun f => { f with outerComponent := some b }) he1
      exact ⟨h2, e2, s2.trans s1, v2.trans v1, l2.trans l1⟩
    · exact ⟨h1, rfl, s1, v1, l1⟩

theorem allocRingEdge_spec {h : Heap} (vertices : List (XY × Nat))
    (interiorFace exteriorFace : Nat) {ln : line} {va : Nat}
    (hl : vertices.lookup ln.a = some va) (hva : va < h.vertexRecords.length) :
    ∃ h4, allocRingEdge vertices interiorFace exteriorFace h ln = some h4 ∧
      h4.halfEdgeRecords = h.halfEdgeRecords ++
        [⟨some va, some (h.halfEdgeRecords.length + 1), some interiorFace, none, none⟩,
         ⟨vertices.lookup ln.b, some h.halfEdgeRecords.length, some exteriorFace,
           none, none⟩] ∧
      h4.faceRecords = h.faceRecords ∧
      h4.vertexRecords.length = h.vertexRecords.length ∧
      ∀ x : Nat, (h4.vertexRecords[x]?).map vertexRecord.coords =
        (h.vertexRecords[x]?).map vertexRecord.coords := by
  obtain ⟨rv, hrv⟩ : ∃ r, h.vertexRecords[va]? = some r := ⟨_, List.getElem?_eq_getElem hva⟩
  let r1 : halfEdgeRecord := ⟨some va, none, some interiorFace, none, none⟩
  let r2 : halfEdgeRecord :=
    ⟨vertices.lookup ln.b, some h.halfEdgeRecords.length, some exteriorFace, none, none⟩
  let h2 : Heap := { h with halfEdgeRecords := (h.halfEdgeRecords ++ [r1]) ++ [r2] }
  have hr1 : h2.halfEdgeRecords[h.halfEdgeRecords.length]? = some r1 := by
    show ((h.halfEdgeRecords ++ [r1]) ++ [r2])[h.halfEdgeRecords.length]? = some r1
    rw [List.getElem?_append_left (by simp)]
    simp
  have e3 : h2.setTwin h.halfEdgeRecords.length (some (h.halfEdgeRecords.length + 1)) =
      some { h with halfEdgeRecords := h.halfEdgeRecords ++
        [⟨some va, some (h.halfEdgeRecords.length + 1), some interiorFace, none, none⟩, r2] } := by
    simp only [Heap.setTwin, Heap.updHalfEdge, hr1]
    congr 2
    show ((h.halfEdgeRecords ++ [r1]) ++ [r2]).set h.halfEdgeRecords.length _ = _
    rw [List.append_assoc, List.set_append_right _ _ (le_refl _)]
    simp
  obtain ⟨h4, e4, s4, f4, l4, r4⟩ := updVertex_spec
    (h := { h with halfEdgeRecords := h.halfEdgeRecords ++
        [⟨some va, some (h.halfEdgeRecords.length + 1), some interiorFace, none, none⟩, r2] })
    (fun r => { r with incident := some h.halfEdgeRecords.length }) hrv
  refine ⟨h4, ?_, s4, f4, l4, ?_⟩
  · simp only [allocRingEdge, Option.bind_eq_bind, hl, Heap.setVertexIncident]
    have l1 : (h.allocHalfEdge ⟨some va, none, some interiorFace, none, none⟩).1.halfEdgeRecords.length
        = h.halfEdgeRecords.length + 1 := by
      show (h.halfEdgeRecords ++ [_]).length = _
      simp
    simp only [l1]
    have : ((h.allocHalfEdge r1).1.allocHalfEdge r2).1 = h2 := rfl
    show Option.bind (Heap.setTwin h2 _ _) _ = _
    rw [e3]
    simp only [Option.some_bind, e4]
  · intro x
    rw [r4]
    split_ifs with hx
    · subst hx
      show _ = Option.map vertexRecord.coords (h.vertexRecords[x]?)
      rw [hrv]; rfl
    · rfl

theorem addRingEdge_spec (vertices : List (XY × Nat)) (ringIdx interiorFace exteriorFace : Nat)
    (s : RingState) {ln : line} {va : Nat}
    (hl : vertices.lookup ln.a = some va) (hva : va < s.heap.vertexRecords.length)
    (hi : interiorFace < s.heap.faceRecords.length)
    (he : exteriorFace < s.heap.faceRecords.length) :
    ∃ s2, addRingEdge vertices ringIdx interiorFace exteriorFace s ln = some s2 ∧
      s2.heap.halfEdgeRecords = s.heap.halfEdgeRecords ++
        blockRecords vertices interiorFace exteriorFace s.heap.halfEdgeRecords.length [ln] ∧
      s2.newEdges = s.newEdges ++
        [s.heap.halfEdgeRecords.length, s.heap.halfEdgeRecords.length + 1] ∧
      s2.heap.vertexRecords.length = s.heap.vertexRecords.length ∧
      (∀ x : Nat, (s2.heap.vertexRecords[x]?).map vertexRecord.coords =
        (s.heap.vertexRecords[x]?).map vertexRecord.coords) ∧
      s2.heap.faceRecords.length = s.heap.faceRecords.length := by
  obtain ⟨h4, e4, s4, f4, l4, c4⟩ :=
    allocRingEdge_spec vertices interiorFace exteriorFace hl hva
  have hb : blockRecords vertices interiorFace exteriorFace s.heap.halfEdgeRecords.length [ln] =
      [⟨some va, some (s.heap.halfEdgeRecords.length + 1), some interiorFace, none, none⟩,
       ⟨vertices.lookup ln.b, some s.heap.halfEdgeRecords.length, some exteriorFace,
         none, none⟩] := by
    simp only [blockRecords, hl]
  unfold addRingEdge
  simp only [Option.bind_eq_bind, e4, Option.some_bind]
  split_ifs with hf
  · obtain ⟨h5, e5, s5, v5, l5⟩ := linkFaces_spec ringIdx s.heap.halfEdgeRecords.length
      (s.heap.halfEdgeRecords.length + 1) (f4 ▸ hi : interiorFace < h4.faceRecords.length)
      (f4 ▸ he : exteriorFace < h4.faceRecords.length)
    refine ⟨⟨h5, _, false⟩, ?_, ?_, rfl, ?_, ?_, ?_⟩
    · simp only [e5, Option.some_bind]; rfl
    · show h5.halfEdgeRecords = _
      rw [s5, s4, hb]
    · show h5.vertexRecords.length = _
      rw [v5, l4]
    · intro x
      show Option.map vertexRecord.coords (h5.vertexRecords[x]?) = _
      rw [v5]; exact c4 x
    · show h5.faceRecords.length = _
      rw [l5, f4]
  · refine ⟨⟨h4, _, false⟩, rfl, ?_, rfl, l4, c4, ?_⟩
    · show h4.halfEdgeRecords = _
      rw [s4, hb]
    · show h4.faceRecords.length = _
      rw [f4]

/-- The loop over the lines of a ring: the records it appends and the pointers it
collects in `newEdges`. -/
theorem addRingEdges_spec (vertices : List (XY × Nat))
    (ringIdx interiorFace exteriorFace : Nat) :
    ∀ (ls : List line) (s : RingState),
      (∀ l ∈ ls, ∃ va, vertices.lookup l.a = some va ∧ va < s.heap.vertexRecords.length) →
      interiorFace < s.heap.faceRecords.length → exteriorFace < s.heap.faceRecords.length →
      ∃ s2, ls.foldlM (addRingEdge vertices ringIdx interiorFace exteriorFace) s = some s2 ∧
        s2.heap.halfEdgeRecords = s.heap.halfEdgeRecords ++
          blockRecords vertices interiorFace exteriorFace s.heap.halfEdgeRecords.length ls ∧
        s2.newEdges = s.newEdges ++ List.range' s.heap.halfEdgeRecords.length (2 * ls.length) ∧
        s2.heap.vertexRecords.length = s.heap.vertexRecords.length ∧
        (∀ x : Nat, (s2.heap.vertexRecords[x]?).map vertexRecord.coords =
          (s.heap.vertexRecords[x]?).map vertexRecord.coords) ∧
        s2.heap.faceRecords.length = s.heap.faceRecords.length := by
  intro ls
  induction ls with
  | nil =>
    intro s _ _ _
    exact ⟨s, rfl, by simp [blockRecords], by simp, rfl, fun _ => rfl, rfl⟩
  | cons ln rest ih =>
    intro s hv hi he
    obtain ⟨va, hl, hva⟩ := hv ln (List.mem_cons_self _ _)
    obtain ⟨s1, e1, b1, n1, v1, c1, f1⟩ :=
      addRingEdge_spec vertices ringIdx interiorFace exteriorFace s hl hva hi he
    have len1 : s1.heap.halfEdgeRecords.length = s.heap.halfEdgeRecords.length + 2 := by
      rw [b1]; simp [blockRecords]
    obtain ⟨s2, e2, b2, n2, v2, c2, f2⟩ := ih s1
      (fun l hl2 => by
        obtain ⟨w, h1, h2⟩ := hv l (List.mem_cons_of_mem _ hl2)
        exact ⟨w, h1, v1 ▸ h2⟩)
      (f1 ▸ hi) (f1 ▸ he)
    refine ⟨s2, ?_, ?_, ?_, v2.trans v1, fun x => (c2 x).trans (c1 x), f2.trans f1⟩
    · simp only [List.foldlM_cons, Option.bind_eq_bind, e1, Option.some_bind, e2]
    · rw [b2, len1, b1]
      simp [blockRecords]
    · rw [n2, n1, len1, List.length_cons]
      have : 2 * (rest.length + 1) = (2 * rest.length + 1) + 1 := by ring
      rw [this, List.range'_succ, List.range'_succ]
      simp [Nat.add_assoc]

/-! ## The wiring loop -/

theorem getElem?_range'_one (L n j : Nat) (hj : j < n) : (List.range' L n)[j]? = some (L + j) := by
  rw [List.getElem?_range' L 1 hj]; simp

/-- One iteration of the wiring loop, on the records. -/
theorem wireRingEdge_spec {h : Heap} {L n m : Nat} {r0 r1 : halfEdgeRecord}
    (hm : 2 * m + 1 < n)
    (h0 : h.halfEdgeRecords[L + 2 * m]? = some r0)
    (h1 : h.halfEdgeRecords[L + (2 * m + 1)]? = some r1) :
    ∃ h2, wireRingEdge (List.range' L n) h m = some h2 ∧
      h2.vertexRecords = h.vertexRecords ∧ h2.faceRecords = h.faceRecords ∧
      h2.halfEdgeRecords.length = h.halfEdgeRecords.length ∧
      ∀ x, h2.halfEdgeRecords[x]? =
        if x = L + (2 * m + 1) then some (wiredRecord n L r1 (2 * m + 1))
        else if x = L + 2 * m then some (wiredRecord n L r0 (2 * m))
        else h.halfEdgeRecords[x]? := by
  have hn : 0 < n := by omega
  have g0 : (List.range' L n)[m * 2]? = some (L + 2 * m) := by
    rw [getElem?_range'_one L n _ (by omega)]; congr 1; omega
  have g1 : (List.range' L n)[m * 2 + 1]? = some (L + (2 * m + 1)) := by
    rw [getElem?_range'_one L n _ (by omega)]; congr 1; omega
  have gm : ∀ j, (List.range' L n)[j % n]? = some (L + j % n) :=
    fun j => getElem?_range'_one L n _ (Nat.mod_lt _ hn)
  have ne01 : L + 2 * m ≠ L + (2 * m + 1) := by omega
  obtain ⟨a1, e1, v1, f1, l1, q1⟩ :=
    updHalfEdge_spec (fun r => { r with next := some (L + (2 * m + 2) % n) }) h0
  have h1a : a1.halfEdgeRecords[L + (2 * m + 1)]? = some r1 := by
    rw [q1, if_neg ne01.symm, h1]
  obtain ⟨a2, e2, v2, f2, l2, q2⟩ :=
    updHalfEdge_spec (fun r => { r with next := some (L + (m * 2 + n - 1) % n) }) h1a
  have h0b : a2.halfEdgeRecords[L + 2 * m]? =
      some { r0 with next := some (L + (2 * m + 2) % n) } := by
    rw [q2, if_neg ne01, q1, if_pos rfl]
  obtain ⟨a3, e3, v3, f3, l3, q3⟩ :=
    updHalfEdge_spec (fun r => { r with prev := some (L + (2 * m + n - 2) % n) }) h0b
  have h1c : a3.halfEdgeRecords[L + (2 * m + 1)]? =
      some { r1 with next := some (L + (m * 2 + n - 1) % n) } := by
    rw [q3, if_neg ne01.symm, q2, if_pos rfl]
  obtain ⟨a4, e4, v4, f4, l4, q4⟩ :=
    updHalfEdge_spec (fun r => { r with prev := some (L + (2 * m + 3) % n) }) h1c
  refine ⟨a4, ?_, ?_, ?_, ?_, ?_⟩
  · simp only [wireRingEdge, Option.bind_eq_bind, g0, g1, gm, List.length_range',
      Option.some_bind, Heap.setNext, Heap.setPrev, e1, e2, e3, e4]
  · rw [v4, v3, v2, v1]
  · rw [f4, f3, f2, f1]
  · rw [l4, l3, l2, l1]
  · intro x
    rw [q4]
    by_cases x1 : x = L + (2 * m + 1)
    · rw [if_pos x1, if_pos x1]
      unfold wiredRecord
      rw [if_neg (by omega)]
      have a : (m * 2 + n - 1) = (2 * m + 1 + n - 2) := by omega
      have b : (2 * m + 3) = (2 * m + 1 + 2) := by omega
      rw [a, b]
    · rw [if_neg x1, if_neg x1, q3]
      by_cases x2 : x = L + 2 * m
      · rw [if_pos x2, if_pos x2]
        unfold wiredRecord
        rw [if_pos (by omega)]
      · rw [if_neg x2, if_neg x2, q2, if_neg x1, q1, if_neg x2]

/-- The wiring loop: after `m` iterations the first `2 m` records of the block have
`next` and `prev` set, and nothing else has changed. -/
theorem wireRing_spec {hA : Heap} {L n k : Nat} (hn : n = 2 * k)
    (hlen : L + n ≤ hA.halfEdgeRecords.length) :
    ∀ m, m ≤ k →
      ∃ h2, (List.range m).foldlM (wireRingEdge (List.range' L n)) hA = some h2 ∧
        h2.vertexRecords = hA.vertexRecords ∧ h2.faceRecords = hA.faceRecords ∧
        h2.halfEdgeRecords.length = hA.halfEdgeRecords.length ∧
        ∀ x, h2.halfEdgeRecords[x]? =
          if L ≤ x ∧ x < L + 2 * m then
            (hA.halfEdgeRecords[x]?).map (fun r => wiredRecord n L r (x - L))
          else hA.halfEdgeRecords[x]? := by
  intro m
  induction m with
  | zero =>
    intro _
    refine ⟨hA, rfl, rfl, rfl, rfl, fun x => ?_⟩
    rw [if_neg (by omega)]
  | succ m ih =>
    intro hm
    obtain ⟨h1, e1, v1, f1, l1, q1⟩ := ih (by omega)
    have lt0 : L + 2 * m < hA.halfEdgeRecords.length := by omega
    have lt1 : L + (2 * m + 1) < hA.halfEdgeRecords.length := by omega
    have g0 : h1.halfEdgeRecords[L + 2 * m]? = some hA.halfEdgeRecords[L + 2 * m] := by
      rw [q1, if_neg (by omega), List.getElem?_eq_getElem lt0]
    have g1 : h1.halfEdgeRecords[L + (2 * m + 1)]? =
        some hA.halfEdgeRecords[L + (2 * m + 1)] := by
      rw [q1, if_neg (by omega), List.getElem?_eq_getElem lt1]
    obtain ⟨h2, e2, v2, f2, l2, q2⟩ := wireRingEdge_spec (n := n) (by omega) g0 g1
    refine ⟨h2, ?_, v2.trans v1, f2.trans f1, l2.trans l1, ?_⟩
    · rw [List.range_succ, List.foldlM_append, e1]
      simp only [Option.bind_eq_bind, Option.some_bind, List.foldlM_cons, List.foldlM_nil, e2]
      rfl
    · intro x
      rw [q2]
      by_cases x1 : x = L + (2 * m + 1)
      · subst x1
        rw [if_pos rfl, if_pos (by omega), List.getElem?_eq_getElem lt1]
        simp
      · by_cases x2 : x = L + 2 * m
        · subst x2
          rw [if_neg x1, if_pos rfl, if_pos (by omega), List.getElem?_eq_getElem lt0]
          simp
        · rw [if_neg x1, if_neg x2, q1]
          by_cases x3 : L ≤ x ∧ x < L + 2 * m
          · rw [if_pos x3, if_pos (by omega)]
          · rw [if_neg x3, if_neg (by omega)]

theorem blockRecords_length (vertices : List (XY × Nat)) (iF eF : Nat) (L : Nat)
    (ls : List line) : (blockRecords vertices iF eF L ls).length = 2 * ls.length := by
  induction ls generalizing L with
  | nil => rfl
  | cons l rest ih => simp only [blockRecords, List.length_cons, ih]; omega

theorem blockRecords_even (vertices : List (XY × Nat)) (iF eF : Nat) (L : Nat)
    (ls : List line) (i : Nat) (l : line) (hl : ls[i]? = some l) :
    (blockRecords vertices iF eF L ls)[2 * i]? =
      some ⟨vertices.lookup l.a, some (L + 2 * i + 1), some iF, none, none⟩ := by
  induction ls generalizing L i with
  | nil => simp at hl
  | cons l0 rest ih =>
    cases i with
    | zero =>
      simp only [List.getElem?_cons_zero] at hl
      obtain rfl := Option.some.inj hl
      simp [blockRecords]
    | succ j =>
      simp only [List.getElem?_cons_succ] at hl
      have := ih (L + 2) j hl
      have e : 2 * (j + 1) = (2 * j + 1) + 1 := by ring
      rw [e]
      simp only [blockRecords, List.getElem?_cons_succ, this]
      congr 3; omega

theorem blockRecords_odd (vertices : List (XY × Nat)) (iF eF : Nat) (L : Nat)
    (ls : List line) (i : Nat) (l : line) (hl : ls[i]? = some l) :
    (blockRecords vertices iF eF L ls)[2 * i + 1]? =
      some ⟨vertices.lookup l.b, some (L + 2 * i), some eF, none, none⟩ := by
  induction ls generalizing L i with
  | nil => simp at hl
  | cons l0 rest ih =>
    cases i with
    | zero =>
      simp only [List.getElem?_cons_zero] at hl
      obtain rfl := Option.some.inj hl
      simp [blockRecords]
    | succ j =>
      simp only [List.getElem?_cons_succ] at hl
      have := ih (L + 2) j hl
      have e : 2 * (j + 1) + 1 = (2 * j + 1 + 1) + 1 := by ring
      rw [e]
      simp only [blockRecords, List.getElem?_cons_succ, this]
      congr 3; omega

/-! ## The loop over the rings -/

theorem mod_succ_double {i k : Nat} (hi : i < k) : (2 * i + 2) % (2 * k) = 2 * ((i + 1) % k) := by
  by_cases h : i + 1 < k
  · rw [Nat.mod_eq_of_lt h, Nat.mod_eq_of_lt (by omega)]; ring
  · have : i + 1 = k := by omega
    rw [this, Nat.mod_self]
    have : 2 * i + 2 = 2 * k := by omega
    rw [this, Nat.mod_self]

theorem mod_pred_double {i k : Nat} (hi : i < k) :
    (2 * i + 2 * k - 2) % (2 * k) = 2 * ((i + k - 1) % k) := by
  by_cases h : i = 0
  · subst h
    rw [Nat.mod_eq_of_lt (by omega), Nat.zero_add, Nat.mod_eq_of_lt (by omega)]
    omega
  · have e1 : 2 * i + 2 * k - 2 = (2 * i - 2) + 2 * k := by omega
    have e2 : i + k - 1 = (i - 1) + k := by omega
    rw [e1, e2, Nat.add_mod_right, Nat.add_mod_right, Nat.mod_eq_of_lt (by omega),
      Nat.mod_eq_of_lt (by omega)]
    omega

theorem mod_pred_double_odd {i k : Nat} (hi : i < k) :
    (2 * i + 1 + 2 * k - 2) % (2 * k) = 2 * ((i + k - 1) % k) + 1 := by
  by_cases h : i = 0
  · subst h
    rw [Nat.zero_add, Nat.mod_eq_of_lt (by omega), Nat.mod_eq_of_lt (by omega)]
    omega
  · have e1 : 2 * i + 1 + 2 * k - 2 = (2 * i - 1) + 2 * k := by omega
    have e2 : i + k - 1 = (i - 1) + k := by omega
    rw [e1, e2, Nat.add_mod_right, Nat.add_mod_right, Nat.mod_eq_of_lt (by omega),
      Nat.mod_eq_of_lt (by omega)]
    omega

theorem mod_succ_double_odd {i k : Nat} (hi : i < k) (hk : 2 ≤ k) :
    (2 * i + 1 + 2) % (2 * k) = 2 * ((i + 1) % k) + 1 := by
  by_cases h : i + 1 < k
  · rw [Nat.mod_eq_of_lt h, Nat.mod_eq_of_lt (by omega)]; ring
  · have : i + 1 = k := by omega
    rw [this, Nat.mod_self]
    have : 2 * i + 1 + 2 = 1 + 2 * k := by omega
    rw [this, Nat.add_mod_right, Nat.mod_eq_of_lt (by omega)]

/-- What `processRing` does: it appends the block of the ring's half-edges, fully
wired, and leaves the older half-edge records as they were. -/
theorem processRing_spec {h : Heap} {d : doublyConnectedEdgeList} (infFace polyFace idx : Nat)
    (ring : List XY)
    (hv : ∀ l ∈ ringLines ring,
      ∃ va, d.vertices.lookup l.a = some va ∧ va < h.vertexRecords.length)
    (hi : infFace < h.faceRecords.length) (hp : polyFace < h.faceRecords.length)
    (hk : 2 ≤ (ringLines ring).length ∨ (ringLines ring).length = 0) :
    ∃ h2 d2, processRing infFace polyFace (h, d) (idx, ring) = some (h2, d2) ∧
      d2.halfEdges = d.halfEdges ++
        List.range' h.halfEdgeRecords.length (2 * (ringLines ring).length) ∧
      d2.vertices = d.vertices ∧
      h2.vertexRecords.length = h.vertexRecords.length ∧
      (∀ x : Nat, (h2.vertexRecords[x]?).map vertexRecord.coords =
        (h.vertexRecords[x]?).map vertexRecord.coords) ∧
      h.faceRecords.length ≤ h2.faceRecords.length ∧
      h2.halfEdgeRecords.length = h.halfEdgeRecords.length + 2 * (ringLines ring).length ∧
      (∀ x, x < h.halfEdgeRecords.length → h2.halfEdgeRecords[x]? = h.halfEdgeRecords[x]?) ∧
      (∀ i l, (ringLines ring)[i]? = some l →
        ∃ f, h2.halfEdgeRecords[h.halfEdgeRecords.length + 2 * i]? =
            some ⟨d.vertices.lookup l.a, some (h.halfEdgeRecords.length + 2 * i + 1),
              some polyFace,
              some (h.halfEdgeRecords.length + 2 * ((i + 1) % (ringLines ring).length)),
              some (h.halfEdgeRecords.length +
                2 * ((i + (ringLines ring).length - 1) % (ringLines ring).length))⟩ ∧
          h2.halfEdgeRecords[h.halfEdgeRecords.length + (2 * i + 1)]? =
            some ⟨d.vertices.lookup l.b, some (h.halfEdgeRecords.length + 2 * i), some f,
              some (h.halfEdgeRecords.length +
                (2 * ((i + (ringLines ring).length - 1) % (ringLines ring).length) + 1)),
              some (h.halfEdgeRecords.length +
                (2 * ((i + 1) % (ringLines ring).length) + 1))⟩) := by
  -- the exterior face and the heap the line loop starts from
  let eF : Nat := if idx > 0 then h.faceRecords.length else infFace
  let h0 : Heap := if idx > 0 then (h.allocFace ⟨none, [], false, false⟩).1 else h
  have h0s : h0.halfEdgeRecords = h.halfEdgeRecords := by
    show (if idx > 0 then _ else h).halfEdgeRecords = _
    split_ifs <;> rfl
  have h0v : h0.vertexRecords = h.vertexRecords := by
    show (if idx > 0 then _ else h).vertexRecords = _
    split_ifs <;> rfl
  have h0f : h.faceRecords.length ≤ h0.faceRecords.length ∧ eF < h0.faceRecords.length := by
    show h.faceRecords.length ≤ (if idx > 0 then _ else h).faceRecords.length ∧
      (if idx > 0 then h.faceRecords.length else infFace) <
        (if idx > 0 then _ else h).faceRecords.length
    split_ifs
    · show _ ≤ (h.faceRecords ++ [_]).length ∧ _ < (h.faceRecords ++ [_]).length
      simp
    · exact ⟨le_refl _, hi⟩
  obtain ⟨rs, e1, b1, n1, v1, c1, f1⟩ := addRingEdges_spec d.vertices idx polyFace eF
    (ringLines ring) ⟨h0, [], true⟩
    (fun l hl => by
      obtain ⟨w, g1, g2⟩ := hv l hl
      exact ⟨w, g1, (by show w < h0.vertexRecords.length; rw [h0v]; exact g2)⟩)
    (lt_of_lt_of_le hp h0f.1) h0f.2
  simp only [List.nil_append] at n1
  have b1x : rs.heap.halfEdgeRecords = h.halfEdgeRecords ++
      blockRecords d.vertices polyFace eF h.halfEdgeRecords.length (ringLines ring) := by
    rw [b1]; show h0.halfEdgeRecords ++ _ = _; rw [h0s]
  have n1x : rs.newEdges =
      List.range' h.halfEdgeRecords.length (2 * (ringLines ring).length) := by
    rw [n1]; show List.range' h0.halfEdgeRecords.length _ = _; rw [h0s]
  have lenA : rs.heap.halfEdgeRecords.length =
      h.halfEdgeRecords.length + 2 * (ringLines ring).length := by
    rw [b1x, List.length_append, blockRecords_length]
  obtain ⟨h2, e2, v2, f2, l2, q2⟩ := @wireRing_spec rs.heap h.halfEdgeRecords.length
    (2 * (ringLines ring).length) (ringLines ring).length rfl (by omega)
    (ringLines ring).length (le_refl _)
  have hdiv : rs.newEdges.length / 2 = (ringLines ring).length := by
    rw [n1x, List.length_range']; omega
  refine ⟨h2, ⟨if idx > 0 then d.faces ++ [eF] else d.faces,
    d.halfEdges ++ List.range' h.halfEdgeRecords.length (2 * (ringLines ring).length),
    d.vertices⟩, ?_, rfl, rfl, ?_, ?_, ?_, ?_, ?_, ?_⟩
  · simp only [processRing, Option.bind_eq_bind]
    show Option.bind (List.foldlM _ (⟨h0, [], true⟩ : RingState) (ringLines ring)) _ = _
    rw [e1]
    have hdiv2 : (List.range' h.halfEdgeRecords.length (2 * (ringLines ring).length)).length / 2
        = (ringLines ring).length := by
      rw [List.length_range']; omega
    simp only [Option.some_bind, n1x, hdiv2, e2]
    rfl
  · rw [v2, v1]; show h0.vertexRecords.length = _; rw [h0v]
  · intro x
    rw [v2, c1]; show Option.map _ (h0.vertexRecords[x]?) = _; rw [h0v]
  · rw [f2, f1]; exact h0f.1
  · rw [l2, lenA]
  · intro x hx
    rw [q2, if_neg (by omega), b1x, List.getElem?_append_left hx]
  · intro i l hl
    have hik : i < (ringLines ring).length := lt_length_of_getElem?_eq_some hl
    have hk2 : 2 ≤ (ringLines ring).length := by omega
    refine ⟨eF, ?_, ?_⟩
    · rw [q2, if_pos (by omega), b1x, List.getElem?_append_right (by omega)]
      have : h.halfEdgeRecords.length + 2 * i - h.halfEdgeRecords.length = 2 * i := by omega
      rw [this, blockRecords_even _ _ _ _ _ i l hl]
      simp only [Option.map_some', wiredRecord]
      rw [if_pos (by omega), mod_succ_double hik, mod_pred_double hik]
    · rw [q2, if_pos (by omega), b1x, List.getElem?_append_right (by omega)]
      have : h.halfEdgeRecords.length + (2 * i + 1) - h.halfEdgeRecords.length = 2 * i + 1 := by
        omega
      rw [this, blockRecords_odd _ _ _ _ _ i l hl]
      simp only [Option.map_some', wiredRecord]
      rw [if_neg (by omega), mod_succ_double_odd hik hk2, mod_pred_double_odd hik]

/-! ## The split invariant after construction -/

theorem cyc_succ_lt {i k : Nat} (hk : 0 < k) : (i + 1) % k < k := Nat.mod_lt _ hk

theorem cyc_pred_lt {i k : Nat} (hk : 0 < k) : (i + k - 1) % k < k := Nat.mod_lt _ hk

theorem cyc_pred_succ {i k : Nat} (hi : i < k) : ((i + 1) % k + k - 1) % k = i := by
  by_cases h : i + 1 < k
  · have e : (i + 1) % k = i + 1 := Nat.mod_eq_of_lt h
    have e2 : i + 1 + k - 1 = i + k := by omega
    rw [e, e2, Nat.add_mod_right]; exact Nat.mod_eq_of_lt hi
  · have e : (i + 1) % k = 0 := by
      have : i + 1 = k := by omega
      rw [this, Nat.mod_self]
    rw [e, Nat.zero_add, Nat.mod_eq_of_lt (by omega)]
    omega

theorem cyc_succ_pred {i k : Nat} (hi : i < k) : ((i + k - 1) % k + 1) % k = i := by
  by_cases h : i = 0
  · subst h
    have e : (0 + k - 1) % k = k - 1 := by
      rw [Nat.zero_add]; exact Nat.mod_eq_of_lt (by omega)
    have e2 : k - 1 + 1 = k := by omega
    rw [e, e2, Nat.mod_self]
  · have e : (i + k - 1) % k = i - 1 := by
      have : i + k - 1 = (i - 1) + k := by omega
      rw [this, Nat.add_mod_right]; exact Nat.mod_eq_of_lt (by omega)
    have e2 : i - 1 + 1 = i := by omega
    rw [e, e2]; exact Nat.mod_eq_of_lt hi

theorem cyc_succ_ne {i k : Nat} (hi : i < k) (hk : 2 ≤ k) : (i + 1) % k ≠ i := by
  by_cases h : i + 1 < k
  · rw [Nat.mod_eq_of_lt h]; omega
  · have : i + 1 = k := by omega
    rw [this, Nat.mod_self]; omega

theorem cyc_pred_ne {i k : Nat} (hi : i < k) (hk : 2 ≤ k) : (i + k - 1) % k ≠ i := by
  intro h
  have := cyc_succ_pred hi
  rw [h] at this
  exact cyc_succ_ne hi hk this

theorem twinOf_of_record {h : Heap} {x : Nat} {r : halfEdgeRecord}
    (hr : h.halfEdgeRecords[x]? = some r) : h.twinOf x = r.twin := by
  simp [Heap.twinOf, hr]

theorem nextOf_of_record {h : Heap} {x : Nat} {r : halfEdgeRecord}
    (hr : h.halfEdgeRecords[x]? = some r) : h.nextOf x = r.next := by
  simp [Heap.nextOf, hr]

theorem prevOf_of_record {h : Heap} {x : Nat} {r : halfEdgeRecord}
    (hr : h.halfEdgeRecords[x]? = some r) : h.prevOf x = r.prev := by
  simp [Heap.prevOf, hr]

theorem originOf_of_record {h : Heap} {x : Nat} {r : halfEdgeRecord}
    (hr : h.halfEdgeRecords[x]? = some r) : h.originOf x = r.origin := by
  simp [Heap.originOf, hr]

/-- Appending the wired block of a ring to a DCEL with the split invariant gives a
DCEL with the split invariant. -/
theorem splitInv_append_block {h h2 : Heap} {d d2 : doublyConnectedEdgeList} {k : Nat}
    (oa ob : Nat → Nat) (inv : SplitInv h d) (hk : k ≠ 1)
    (hd2 : d2.halfEdges = d.halfEdges ++ List.range' h.halfEdgeRecords.length (2 * k))
    (hv : h2.vertexRecords.length = h.vertexRecords.length)
    (hlen : h2.halfEdgeRecords.length = h.halfEdgeRecords.length + 2 * k)
    (old : ∀ x, x < h.halfEdgeRecords.length → h2.halfEdgeRecords[x]? = h.halfEdgeRecords[x]?)
    (blk : RingBlock h2 h.halfEdgeRecords.length k oa ob) : SplitInv h2 d2 := by
  have mem : ∀ x, x ∈ d2.halfEdges ↔ (x ∈ d.halfEdges ∨
      ∃ i, i < k ∧ (x = h.halfEdgeRecords.length + 2 * i ∨
        x = h.halfEdgeRecords.length + (2 * i + 1))) := by
    intro x
    rw [hd2, List.mem_append, List.mem_range'_1]
    constructor
    · rintro (hx | ⟨h1, h2'⟩)
      · exact Or.inl hx
      · right
        refine ⟨(x - h.halfEdgeRecords.length) / 2, by omega, ?_⟩
        omega
    · rintro (hx | ⟨i, hi, hx | hx⟩)
      · exact Or.inl hx
      · right; omega
      · right; omega
  have memE : ∀ i, i < k → h.halfEdgeRecords.length + 2 * i ∈ d2.halfEdges :=
    fun i hi => (mem _).mpr (Or.inr ⟨i, hi, Or.inl rfl⟩)
  have memO : ∀ i, i < k → h.halfEdgeRecords.length + (2 * i + 1) ∈ d2.halfEdges :=
    fun i hi => (mem _).mpr (Or.inr ⟨i, hi, Or.inr rfl⟩)
  have memOld : ∀ x, x ∈ d.halfEdges → x ∈ d2.halfEdges := fun x hx => (mem x).mpr (Or.inl hx)
  have Told : ∀ x, x ∈ d.halfEdges → h2.twinOf x = h.twinOf x := by
    intro x hx; simp only [Heap.twinOf, old x (inv.lt_length x hx)]
  have Nold : ∀ x, x ∈ d.halfEdges → h2.nextOf x = h.nextOf x := by
    intro x hx; simp only [Heap.nextOf, old x (inv.lt_length x hx)]
  have Pold : ∀ x, x ∈ d.halfEdges → h2.prevOf x = h.prevOf x := by
    intro x hx; simp only [Heap.prevOf, old x (inv.lt_length x hx)]
  have Oold : ∀ x, x ∈ d.halfEdges → h2.originOf x = h.originOf x := by
    intro x hx; simp only [Heap.originOf, old x (inv.lt_length x hx)]
  have e1 : ∀ i, h.halfEdgeRecords.length + 2 * i + 1 =
      h.halfEdgeRecords.length + (2 * i + 1) := fun i => by omega
  have sl : ∀ i j, j < k → (i + 1) % k < k := fun i j hj => cyc_succ_lt (by omega)
  have pl : ∀ i j, j < k → (i + k - 1) % k < k := fun i j hj => cyc_pred_lt (by omega)
  constructor
  · -- twin_mem
    intro x hx
    rcases (mem x).mp hx with hx | ⟨i, hi, rfl | rfl⟩
    · obtain ⟨y, hy, e⟩ := inv.twin_mem x hx
      exact ⟨y, memOld y hy, (Told x hx).trans e⟩
    · exact ⟨_, e1 i ▸ memO i hi, blk.twin_even i hi⟩
    · exact ⟨_, memE i hi, blk.twin_odd i hi⟩
  · -- next_mem
    intro x hx
    rcases (mem x).mp hx with hx | ⟨i, hi, rfl | rfl⟩
    · obtain ⟨y, hy, e⟩ := inv.next_mem x hx
      exact ⟨y, memOld y hy, (Nold x hx).trans e⟩
    · exact ⟨_, memE _ (sl i i hi), blk.next_even i hi⟩
    · exact ⟨_, memO _ (pl i i hi), blk.next_odd i hi⟩
  · -- prev_mem
    intro x hx
    rcases (mem x).mp hx with hx | ⟨i, hi, rfl | rfl⟩
    · obtain ⟨y, hy, e⟩ := inv.prev_mem x hx
      exact ⟨y, memOld y hy, (Pold x hx).trans e⟩
    · exact ⟨_, memE _ (pl i i hi), blk.prev_even i hi⟩
    · exact ⟨_, memO _ (sl i i hi), blk.prev_odd i hi⟩
  · -- origin_some
    intro x hx
    rcases (mem x).mp hx with hx | ⟨i, hi, rfl | rfl⟩
    · obtain ⟨v, hv', e⟩ := inv.origin_some x hx
      exact ⟨v, hv ▸ hv', (Oold x hx).trans e⟩
    · exact ⟨_, (blk.origin_lt i hi).1, blk.origin_even i hi⟩
    · exact ⟨_, (blk.origin_lt i hi).2, blk.origin_odd i hi⟩
  · -- lt_length
    intro x hx
    rw [hlen]
    rcases (mem x).mp hx with hx | ⟨i, hi, rfl | rfl⟩
    · have := inv.lt_length x hx; omega
    · omega
    · omega
  · -- twin_twin
    intro x y hx hxy
    rcases (mem x).mp hx with hx | ⟨i, hi, rfl | rfl⟩
    · rw [Told x hx] at hxy
      obtain ⟨y2, hy, e⟩ := inv.twin_mem x hx
      obtain rfl : y2 = y := Option.some.inj (e.symm.trans hxy)
      rw [Told y2 hy]; exact inv.twin_twin x y2 hx hxy
    · rw [blk.twin_even i hi] at hxy
      rw [← Option.some.inj hxy, e1]; exact blk.twin_odd i hi
    · rw [blk.twin_odd i hi] at hxy
      rw [← Option.some.inj hxy, blk.twin_even i hi, e1]
  · -- next_prev
    intro x y hx hxy
    rcases (mem x).mp hx with hx | ⟨i, hi, rfl | rfl⟩
    · rw [Nold x hx] at hxy
      obtain ⟨y2, hy, e⟩ := inv.next_mem x hx
      obtain rfl : y2 = y := Option.some.inj (e.symm.trans hxy)
      rw [Pold y2 hy]; exact inv.next_prev x y2 hx hxy
    · rw [blk.next_even i hi] at hxy
      rw [← Option.some.inj hxy, blk.prev_even _ (sl i i hi), cyc_pred_succ hi]
    · rw [blk.next_odd i hi] at hxy
      rw [← Option.some.inj hxy, blk.prev_odd _ (pl i i hi), cyc_succ_pred hi]
  · -- prev_next
    intro x y hx hxy
    rcases (mem x).mp hx with hx | ⟨i, hi, rfl | rfl⟩
    · rw [Pold x hx] at hxy
      obtain ⟨y2, hy, e⟩ := inv.prev_mem x hx
      obtain rfl : y2 = y := Option.some.inj (e.symm.trans hxy)
      rw [Nold y2 hy]; exact inv.prev_next x y2 hx hxy
    · rw [blk.prev_even i hi] at hxy
      rw [← Option.some.inj hxy, blk.next_even _ (pl i i hi), cyc_succ_pred hi]
    · rw [blk.prev_odd i hi] at hxy
      rw [← Option.some.inj hxy, blk.next_odd _ (sl i i hi), cyc_pred_succ hi]
  · -- twin_origin
    intro x a b hx hxa hxb
    rcases (mem x).mp hx with hx | ⟨i, hi, rfl | rfl⟩
    · rw [Told x hx] at hxa
      rw [Nold x hx] at hxb
      obtain ⟨a2, ha, ea⟩ := inv.twin_mem x hx
      obtain rfl : a2 = a := Option.some.inj (ea.symm.trans hxa)
      obtain ⟨b2, hb, eb⟩ := inv.next_mem x hx
      obtain rfl : b2 = b := Option.some.inj (eb.symm.trans hxb)
      rw [Oold a2 ha, Oold b2 hb]; exact inv.twin_origin x a2 b2 hx hxa hxb
    · rw [blk.twin_even i hi] at hxa
      rw [blk.next_even i hi] at hxb
      rw [← Option.some.inj hxa, ← Option.some.inj hxb, e1, blk.origin_odd i hi,
        blk.origin_even _ (sl i i hi), blk.chain i hi]
    · rw [blk.twin_odd i hi] at hxa
      rw [blk.next_odd i hi] at hxb
      rw [← Option.some.inj hxa, ← Option.some.inj hxb, blk.origin_even i hi,
        blk.origin_odd _ (pl i i hi), blk.chain _ (pl i i hi), cyc_succ_pred hi]
  · -- mirror
    intro x a b hx hxa hxb
    rcases (mem x).mp hx with hx | ⟨i, hi, rfl | rfl⟩
    · rw [Told x hx] at hxa
      rw [Pold x hx] at hxb
      obtain ⟨a2, ha, ea⟩ := inv.twin_mem x hx
      obtain rfl : a2 = a := Option.some.inj (ea.symm.trans hxa)
      obtain ⟨b2, hb, eb⟩ := inv.prev_mem x hx
      obtain rfl : b2 = b := Option.some.inj (eb.symm.trans hxb)
      rw [Nold a2 ha, Told b2 hb]; exact inv.mirror x a2 b2 hx hxa hxb
    · rw [blk.twin_even i hi] at hxa
      rw [blk.prev_even i hi] at hxb
      rw [← Option.some.inj hxa, ← Option.some.inj hxb, e1, blk.next_odd i hi,
        blk.twin_even _ (pl i i hi), e1]
    · rw [blk.twin_odd i hi] at hxa
      rw [blk.prev_odd i hi] at hxb
      rw [← Option.some.inj hxa, ← Option.some.inj hxb, blk.next_even i hi,
        blk.twin_odd _ (sl i i hi)]
  · -- twin_ne
    intro x hx
    rcases (mem x).mp hx with hx | ⟨i, hi, rfl | rfl⟩
    · rw [Told x hx]; exact inv.twin_ne x hx
    · rw [blk.twin_even i hi]; intro hh; have := Option.some.inj hh; omega
    · rw [blk.twin_odd i hi]; intro hh; have := Option.some.inj hh; omega
  · -- next_ne
    intro x hx
    rcases (mem x).mp hx with hx | ⟨i, hi, rfl | rfl⟩
    · rw [Nold x hx]; exact inv.next_ne x hx
    · rw [blk.next_even i hi]; intro hh
      have := Option.some.inj hh
      have := cyc_succ_ne hi (by omega)
      omega
    · rw [blk.next_odd i hi]; intro hh
      have := Option.some.inj hh
      have := cyc_pred_ne hi (by omega)
      omega
  · -- next_ne_twin
    intro x hx
    rcases (mem x).mp hx with hx | ⟨i, hi, rfl | rfl⟩
    · rw [Nold x hx, Told x hx]; exact inv.next_ne_twin x hx
    · rw [blk.next_even i hi, blk.twin_even i hi]; intro hh
      have := Option.some.inj hh; omega
    · rw [blk.next_odd i hi, blk.twin_odd i hi]; intro hh
      have := Option.some.inj hh; omega

theorem vmapOK_of_coords {h h2 : Heap} {m : List (XY × Nat)} (hok : VMapOK h m)
    (hc : ∀ x : Nat, (h2.vertexRecords[x]?).map vertexRecord.coords =
      (h.vertexRecords[x]?).map vertexRecord.coords) : VMapOK h2 m := by
  intro xy v hl
  obtain ⟨r, hr, hrc⟩ := hok xy v hl
  have := hc v
  rw [hr] at this
  cases h2v : h2.vertexRecords[v]? with
  | none => rw [h2v] at this; exact Option.noConfusion this
  | some r2 =>
    rw [h2v] at this
    exact ⟨r2, rfl, (Option.some.inj this).trans hrc⟩

/-- `processRing` on a closed ring whose points are all in the vertex map keeps the
split invariant. -/
theorem processRing_inv {h : Heap} {d : doublyConnectedEdgeList} (infFace polyFace idx : Nat)
    {ring : List XY} (inv : SplitInv h d) (hok : VMapOK h d.vertices)
    (hc : RingClosed ring)
    (hmap : ∀ xy ∈ ring, ∃ v, d.vertices.lookup xy = some v)
    (hi : infFace < h.faceRecords.length) (hp : polyFace < h.faceRecords.length) :
    ∃ h2 d2, processRing infFace polyFace (h, d) (idx, ring) = some (h2, d2) ∧
      SplitInv h2 d2 ∧ VMapOK h2 d2.vertices ∧ d2.vertices = d.vertices ∧
      h.faceRecords.length ≤ h2.faceRecords.length ∧
      d2.halfEdges = d.halfEdges ++
        List.range' h.halfEdgeRecords.length (2 * (ringLines ring).length) ∧
      h2.halfEdgeRecords.length = h.halfEdgeRecords.length + 2 * (ringLines ring).length := by
  have hk1 := ringLines_length_ne_one hc
  have look : ∀ xy ∈ ring, ∃ v, d.vertices.lookup xy = some v ∧ v < h.vertexRecords.length := by
    intro xy hxy
    obtain ⟨v, hv⟩ := hmap xy hxy
    obtain ⟨r, hr, -⟩ := hok xy v hv
    exact ⟨v, hv, lt_length_of_getElem?_eq_some hr⟩
  obtain ⟨h2, d2, e, hd2, hvs, hvl, hco, hfl, hlen, hold, hblk⟩ :=
    processRing_spec (h := h) (d := d) infFace polyFace idx ring
      (fun l hl => look l.a (ringLines_mem ring l hl).1) hi hp (by omega)
  refine ⟨h2, d2, e, ?_, hvs ▸ vmapOK_of_coords hok hco, hvs, hfl, hd2, hlen⟩
  let oa : Nat → Nat := fun i =>
    (((ringLines ring)[i]?).bind (fun l => d.vertices.lookup l.a)).getD 0
  let ob : Nat → Nat := fun i =>
    (((ringLines ring)[i]?).bind (fun l => d.vertices.lookup l.b)).getD 0
  have hoa : ∀ i l, (ringLines ring)[i]? = some l → d.vertices.lookup l.a = some (oa i) := by
    intro i l hl
    obtain ⟨v, hv, -⟩ := look l.a (ringLines_mem ring l (List.getElem?_mem hl)).1
    show _ = some ((((ringLines ring)[i]?).bind (fun l => d.vertices.lookup l.a)).getD 0)
    rw [hl, Option.some_bind, hv]; rfl
  have hob : ∀ i l, (ringLines ring)[i]? = some l → d.vertices.lookup l.b = some (ob i) := by
    intro i l hl
    obtain ⟨v, hv, -⟩ := look l.b (ringLines_mem ring l (List.getElem?_mem hl)).2
    show _ = some ((((ringLines ring)[i]?).bind (fun l => d.vertices.lookup l.b)).getD 0)
    rw [hl, Option.some_bind, hv]; rfl
  have getl : ∀ i, i < (ringLines ring).length → ∃ l, (ringLines ring)[i]? = some l :=
    fun i hi => ⟨_, List.getElem?_eq_getElem hi⟩
  apply splitInv_append_block oa ob inv hk1 hd2 hvl hlen hold
  constructor
  · intro i hi
    obtain ⟨l, hl⟩ := getl i hi
    obtain ⟨f, r0, r1⟩ := hblk i l hl
    rw [twinOf_of_record r0]
  · intro i hi
    obtain ⟨l, hl⟩ := getl i hi
    obtain ⟨f, r0, r1⟩ := hblk i l hl
    rw [twinOf_of_record r1]
  · intro i hi
    obtain ⟨l, hl⟩ := getl i hi
    obtain ⟨f, r0, r1⟩ := hblk i l hl
    rw [nextOf_of_record r0]
  · intro i hi
    obtain ⟨l, hl⟩ := getl i hi
    obtain ⟨f, r0, r1⟩ := hblk i l hl
    rw [nextOf_of_record r1]
  · intro i hi
    obtain ⟨l, hl⟩ := getl i hi
    obtain ⟨f, r0, r1⟩ := hblk i l hl
    rw [prevOf_of_record r0]
  · intro i hi
    obtain ⟨l, hl⟩ := getl i hi
    obtain ⟨f, r0, r1⟩ := hblk i l hl
    rw [prevOf_of_record r1]
  · intro i hi
    obtain ⟨l, hl⟩ := getl i hi
    obtain ⟨f, r0, r1⟩ := hblk i l hl
    rw [originOf_of_record r0]
    exact hoa i l hl
  · intro i hi
    obtain ⟨l, hl⟩ := getl i hi
    obtain ⟨f, r0, r1⟩ := hblk i l hl
    rw [originOf_of_record r1]
    exact hob i l hl
  · intro i hi
    obtain ⟨l, hl⟩ := getl i hi
    have ha := hoa i l hl
    have hb := hob i l hl
    obtain ⟨ra, hra, -⟩ := hok _ _ ha
    obtain ⟨rb, hrb, -⟩ := hok _ _ hb
    rw [hvl]
    exact ⟨lt_length_of_getElem?_eq_some hra, lt_length_of_getElem?_eq_some hrb⟩
  · intro i hi
    obtain ⟨l, l2, hl, hl2, hab⟩ := ringLines_cycle hc i hi
    have hb := hob i l hl
    have ha := hoa _ l2 hl2
    rw [hab, ha] at hb
    exact (Option.some.inj hb).symm

theorem ringClosed_reverse {ring : List XY} (hc : RingClosed ring) : RingClosed ring.reverse := by
  unfold RingClosed at *
  rw [List.head?_reverse, List.getLast?_reverse]
  exact hc.symm

theorem polygonClosed_forceCCW {poly : Polygon} (hc : PolygonClosed poly) :
    PolygonClosed poly.ForceCCW := by
  constructor
  · show RingClosed (if _ then _ else _)
    split_ifs
    · exact ringClosed_reverse hc.1
    · exact hc.1
  · intro r hr
    have hr2 : r ∈ poly.interiors.map (fun r => if 0 < signedArea2 r then r.reverse else r) := hr
    obtain ⟨r0, h0, rfl⟩ := List.mem_map.mp hr2
    split_ifs
    · exact ringClosed_reverse (hc.2 r0 h0)
    · exact hc.2 r0 h0

theorem splitInv_nil (h : Heap) (d : doublyConnectedEdgeList) (hd : d.halfEdges = []) :
    SplitInv h d := by
  constructor <;> intro e <;> simp [hd]

/-- The loop over the rings keeps the split invariant. -/
theorem processRings_inv (infFace polyFace : Nat) :
    ∀ (irs : List (Nat × List XY)) (h : Heap) (d : doublyConnectedEdgeList),
      SplitInv h d → VMapOK h d.vertices →
      (∀ ir ∈ irs, RingClosed ir.2 ∧ ∀ xy ∈ ir.2, ∃ v, d.vertices.lookup xy = some v) →
      infFace < h.faceRecords.length → polyFace < h.faceRecords.length →
      ∃ h2 d2, irs.foldlM (processRing infFace polyFace) (h, d) = some (h2, d2) ∧
        SplitInv h2 d2 ∧ VMapOK h2 d2.vertices ∧ d2.vertices = d.vertices := by
  intro irs
  induction irs with
  | nil =>
    intro h d inv hok _ _ _
    exact ⟨h, d, rfl, inv, hok, rfl⟩
  | cons ir rest ih =>
    intro h d inv hok hr hi hp
    obtain ⟨idx, ring⟩ := ir
    obtain ⟨hc, hmap⟩ := hr (idx, ring) (List.mem_cons_self _ _)
    obtain ⟨h1, d1, e1, inv1, ok1, hv1, hf1, -, -⟩ :=
      processRing_inv infFace polyFace idx inv hok hc hmap hi hp
    obtain ⟨h2, d2, e2, inv2, ok2, hv2⟩ := ih h1 d1 inv1 ok1
      (fun ir hir => by
        rw [hv1]; exact hr ir (List.mem_cons_of_mem _ hir))
      (lt_of_lt_of_le hi hf1) (lt_of_lt_of_le hp hf1)
    refine ⟨h2, d2, ?_, inv2, ok2, hv2.trans hv1⟩
    simp only [List.foldlM_cons, Option.bind_eq_bind, e1, Option.some_bind, e2]

/-- `newDCELFromPolygon` on a polygon with closed rings returns a DCEL with the
split invariant. -/
theorem newDCELFromPolygon_inv (h0 : Heap) (poly : Polygon) (isPolyA : Bool)
    (hc : PolygonClosed poly) :
    ∃ h d, newDCELFromPolygon h0 poly isPolyA = some (h, d) ∧ SplitInv h d ∧
      VMapOK h d.vertices := by
  have hcc := polygonClosed_forceCCW hc
  obtain ⟨p1, p2, -, p4, p5⟩ := populateRings_spec
    (poly.ForceCCW.exterior :: poly.ForceCCW.interiors) (h0, [])
    (fun xy v hl => by simp at hl)
  obtain ⟨h, d, e, inv, ok, -⟩ := processRings_inv
    (populateVertices h0 (poly.ForceCCW.exterior :: poly.ForceCCW.interiors)).1.faceRecords.length
    (((populateVertices h0
      (poly.ForceCCW.exterior :: poly.ForceCCW.interiors)).1.allocFace
        ⟨none, [], false, false⟩).1.faceRecords.length)
    (poly.ForceCCW.exterior :: poly.ForceCCW.interiors).enum
    (((populateVertices h0 (poly.ForceCCW.exterior :: poly.ForceCCW.interiors)).1.allocFace
        ⟨none, [], false, false⟩).1.allocFace ⟨none, [], isPolyA, !isPolyA⟩).1
    ⟨[(populateVertices h0
        (poly.ForceCCW.exterior :: poly.ForceCCW.interiors)).1.faceRecords.length,
      ((populateVertices h0 (poly.ForceCCW.exterior :: poly.ForceCCW.interiors)).1.allocFace
        ⟨none, [], false, false⟩).1.faceRecords.length], [],
      (populateVertices h0 (poly.ForceCCW.exterior :: poly.ForceCCW.interiors)).2⟩
    (splitInv_nil _ _ rfl) p1
    (fun ir hir => by
      have hm := List.snd_mem_of_mem_enum hir
      refine ⟨?_, fun xy hxy => p2 ir.2 hm xy hxy⟩
      rcases List.mem_cons.mp hm with h1 | h1
      · rw [h1]; exact hcc.1
      · exact hcc.2 _ h1)
    (by
      show _ < ((_ ++ [_]) ++ [_]).length
      simp only [List.length_append, List.length_singleton]; omega)
    (by
      show (_ ++ [_]).length < ((_ ++ [_]) ++ [_]).length
      simp only [List.length_append, List.length_singleton]; omega)
  exact ⟨h, d, e, inv, ok⟩

/-! ## Claims on construction and edge splits -/

theorem splitInv_frame {h h2 : Heap} {d d2 : doublyConnectedEdgeList} (inv : SplitInv h d)
    (hs : h2.halfEdgeRecords = h.halfEdgeRecords)
    (hv : h.vertexRecords.length ≤ h2.vertexRecords.length)
    (hd : d2.halfEdges = d.halfEdges) : SplitInv h2 d2 := by
  have T : ∀ x, h2.twinOf x = h.twinOf x := fun x => by simp only [Heap.twinOf, hs]
  have N : ∀ x, h2.nextOf x = h.nextOf x := fun x => by simp only [Heap.nextOf, hs]
  have P : ∀ x, h2.prevOf x = h.prevOf x := fun x => by simp only [Heap.prevOf, hs]
  have O : ∀ x, h2.originOf x = h.originOf x := fun x => by simp only [Heap.originOf, hs]
  constructor
  · intro e he; rw [hd] at he ⊢; rw [T]; exact inv.twin_mem e he
  · intro e he; rw [hd] at he ⊢; rw [N]; exact inv.next_mem e he
  · intro e he; rw [hd] at he ⊢; rw [P]; exact inv.prev_mem e he
  · intro e he; rw [hd] at he; rw [O]
    obtain ⟨v, h1, h2'⟩ := inv.origin_some e he
    exact ⟨v, lt_of_lt_of_le h1 hv, h2'⟩
  · intro e he; rw [hd] at he; rw [hs]; exact inv.lt_length e he
  · intro e t he; rw [hd] at he; rw [T, T]; exact inv.twin_twin e t he
  · intro e t he; rw [hd] at he; rw [N, P]; exact inv.next_prev e t he
  · intro e t he; rw [hd] at he; rw [P, N]; exact inv.prev_next e t he
  · intro e t n he; rw [hd] at he; rw [T, N, O, O]; exact inv.twin_origin e t n he
  · intro e t p he; rw [hd] at he; rw [T, P, N, T]; exact inv.mirror e t p he
  · intro e he; rw [hd] at he; rw [T]; exact inv.twin_ne e he
  · intro e he; rw [hd] at he; rw [N]; exact inv.next_ne e he
  · intro e he; rw [hd] at he; rw [N, T]; exact inv.next_ne_twin e he

/-- Every reachable DCEL has the split invariant. -/
theorem SplitReachable.inv {h : Heap} {d : doublyConnectedEdgeList}
    (hr : SplitReachable h d) : SplitInv h d := by
  induction hr with
  | construct h0 poly isPolyA h d hc he =>
    obtain ⟨h2, d2, e2, inv, -⟩ := newDCELFromPolygon_inv h0 poly isPolyA hc
    rw [he] at e2
    obtain ⟨rfl, rfl⟩ := Prod.mk.inj (Option.some.inj e2)
    exact inv
  | split h d e cut h2 d2 _ he hc hs ih =>
    obtain ⟨h3, e3, inv3⟩ := reNodeEdge_preserves ih he hc
    rw [hs] at e3
    obtain ⟨rfl, rfl⟩ := Prod.mk.inj (Option.some.inj e3)
    exact inv3
  | vertex h d r vs _ ih =>
    exact splitInv_frame ih rfl (by simp) rfl

/-- C7: for every polygon whose rings are closed (in particular every valid
polygon) and either label, `newDCELFromPolygon` returns a DCEL in which every
half-edge `e` of `halfEdges` satisfies `e.twin.twin = e`, `e.next.prev = e`,
`e.prev.next = e` and `e.twin.origin = e.next.origin`. -/
theorem C7_newDCELFromPolygon_pointer_laws (h0 : Heap) (poly : Polygon) (isPolyA : Bool)
    (hc : PolygonClosed poly) :
    ∃ h d, newDCELFromPolygon h0 poly isPolyA = some (h, d) ∧
      ∀ e ∈ d.halfEdges, PointerLaws h e := by
  obtain ⟨h, d, e, inv, -⟩ := newDCELFromPolygon_inv h0 poly isPolyA hc
  exact ⟨h, d, e, fun x hx => inv.pointerLaws hx⟩

theorem unitSquare_closed : PolygonClosed unitSquare := by
  constructor
  · simp [unitSquare, RingClosed]
  · intro r hr; simp [unitSquare] at hr

/-- C7 at the unit square in the empty heap. -/
theorem C7_newDCELFromPolygon_pointer_laws_witness :
    PolygonClosed unitSquare ∧
    ∃ h d, newDCELFromPolygon Heap.empty unitSquare true = some (h, d) ∧
      ∀ e ∈ d.halfEdges, PointerLaws h e :=
  ⟨unitSquare_closed,
    C7_newDCELFromPolygon_pointer_laws Heap.empty unitSquare true unitSquare_closed⟩

/-- C8: in every DCEL obtained from `newDCELFromPolygon` by edge splits,
`reNodeEdge(e, cut)` appends exactly two half-edges, `ePrime` (pointer `L`, from
`cut` to the old destination of `e`, between `e` and the old `e.next`) and its twin
(pointer `L + 1`); afterwards every half-edge satisfies the four pointer laws, `e`
ends at `cut`, `ePrime` has the incident face of `e` and its twin that of `e.twin`. -/
theorem C8_reNodeEdge_pointer_laws (h : Heap) (d : doublyConnectedEdgeList)
    (hr : SplitReachable h d) (e cut : Nat) (he : e ∈ d.halfEdges)
    (hc : cut < h.vertexRecords.length) :
    ∃ h2 t n dest,
      h.twinOf e = some t ∧ h.nextOf e = some n ∧ h.originOf t = some dest ∧
      reNodeEdge h d e cut = some (h2, { d with halfEdges := d.halfEdges ++
        [h.halfEdgeRecords.length, h.halfEdgeRecords.length + 1] }) ∧
      h2.halfEdgeRecords.length = h.halfEdgeRecords.length + 2 ∧
      (h2.originOf h.halfEdgeRecords.length = some cut ∧
        h2.twinOf h.halfEdgeRecords.length = some (h.halfEdgeRecords.length + 1) ∧
        h2.twinOf (h.halfEdgeRecords.length + 1) = some h.halfEdgeRecords.length ∧
        h2.originOf (h.halfEdgeRecords.length + 1) = some dest) ∧
      (h2.nextOf e = some h.halfEdgeRecords.length ∧
        h2.prevOf h.halfEdgeRecords.length = some e ∧
        h2.nextOf h.halfEdgeRecords.length = some n ∧
        h2.prevOf n = some h.halfEdgeRecords.length) ∧
      (h2.twinOf e = some t ∧ h2.originOf t = some cut ∧ h2.originOf e = h.originOf e) ∧
      (h2.incidentOf h.halfEdgeRecords.length = h.incidentOf e ∧
        h2.incidentOf (h.halfEdgeRecords.length + 1) = h.incidentOf t ∧
        h2.incidentOf e = h.incidentOf e ∧ h2.incidentOf t = h.incidentOf t) ∧
      (∀ x ∈ d.halfEdges ++ [h.halfEdgeRecords.length, h.halfEdgeRecords.length + 1],
        PointerLaws h2 x) := by
  have inv := hr.inv
  obtain ⟨t, n, p, nt, pt, dv, ⟨ht, hn, hp, hnt, hpt⟩,
    ⟨a1, a2, a3, a4, a5, a6, a7, a8, a9, a10, a11, a12, a13⟩,
    ⟨d1, d2, d3, d4, d5, d6, d7, d8⟩, hdv⟩ := inv.around he
  obtain ⟨h2, r1, -, rv, -, rl, T, N, P, O, I⟩ := reNodeEdge_fields inv he hc a1 a2 a4 a6
  obtain ⟨h3, r3, inv3⟩ := reNodeEdge_preserves inv he hc
  rw [r1] at r3
  obtain rfl : h2 = h3 := (Prod.mk.inj (Option.some.inj r3)).1
  have le := inv.lt_length e he
  have lt := inv.lt_length t ht
  have ln := inv.lt_length n hn
  refine ⟨h2, t, n, dv, a1, a2, a6, r1, rl, ⟨?_, ?_, ?_, ?_⟩, ⟨?_, ?_, ?_, ?_⟩,
    ⟨?_, ?_, ?_⟩, ⟨?_, ?_, ?_, ?_⟩, fun x hx => inv3.pointerLaws hx⟩
  · rw [O, if_pos rfl]
  · rw [T, if_pos rfl]
  · rw [T, if_neg (by omega), if_pos rfl]
  · rw [O, if_neg (by omega), if_pos rfl]
  · rw [N, if_neg (by omega), if_neg (by omega), if_neg d4.symm, if_pos rfl]
  · rw [P, if_pos rfl]
  · rw [N, if_pos rfl]
  · rw [P, if_neg (by omega), if_neg (by omega), if_neg d3, if_pos rfl]
  · rw [T, if_neg (by omega), if_neg (by omega), a1]
  · rw [O, if_neg (by omega), if_neg (by omega), if_pos rfl]
  · rw [O, if_neg (by omega), if_neg (by omega), if_neg d1.symm]
  · rw [I, if_pos rfl]
  · rw [I, if_neg (by omega), if_pos rfl]
  · rw [I, if_neg (by omega), if_neg (by omega)]
  · rw [I, if_neg (by omega), if_neg (by omega)]

theorem unitSquare_dcel_facts :
    ((newDCELFromPolygon Heap.empty unitSquare true).all
      (fun s => decide (0 ∈ s.2.halfEdges) && decide (2 < s.1.vertexRecords.length))) = true := by
  with_unfolding_all decide

/-- C8 at the unit square: the first half-edge is split at the vertex record 2. -/
theorem C8_reNodeEdge_pointer_laws_witness :
    ∃ h d, SplitReachable h d ∧ 0 ∈ d.halfEdges ∧ 2 < h.vertexRecords.length ∧
      ∃ h2, reNodeEdge h d 0 2 = some (h2, { d with halfEdges := d.halfEdges ++
        [h.halfEdgeRecords.length, h.halfEdgeRecords.length + 1] }) ∧
      ∀ x ∈ d.halfEdges ++ [h.halfEdgeRecords.length, h.halfEdgeRecords.length + 1],
        PointerLaws h2 x := by
  obtain ⟨h, d, e, -, -⟩ := newDCELFromPolygon_inv Heap.empty unitSquare true unitSquare_closed
  have hf := unitSquare_dcel_facts
  rw [e] at hf
  simp only [Option.all_some, Bool.and_eq_true, decide_eq_true_eq] at hf
  have hr : SplitReachable h d :=
    SplitReachable.construct Heap.empty unitSquare true h d unitSquare_closed e
  obtain ⟨h2, t, n, dest, -, -, -, r, -, -, -, -, -, laws⟩ :=
    C8_reNodeEdge_pointer_laws h d hr 0 2 hf.1 hf.2
  exact ⟨h, d, hr, hf.1, hf.2, h2, r, laws⟩

/-! ## The loop of fixVertex -/

theorem NextPrevFrame.refl (h : Heap) : NextPrevFrame h h :=
  ⟨rfl, rfl, rfl, fun _ => rfl, fun _ => rfl, fun _ => rfl⟩

theorem NextPrevFrame.trans {h g k : Heap} (a : NextPrevFrame h g) (b : NextPrevFrame g k) :
    NextPrevFrame h k :=
  ⟨b.vertexRecords.trans a.vertexRecords, b.faceRecords.trans a.faceRecords,
    b.length.trans a.length, fun x => (b.twinOf x).trans (a.twinOf x),
    fun x => (b.originOf x).trans (a.originOf x),
    fun x => (b.incidentOf x).trans (a.incidentOf x)⟩

theorem NextPrevFrame.originCoords {h g : Heap} (a : NextPrevFrame h g) (x : Nat) :
    g.originCoords x = h.originCoords x := by
  simp only [Heap.originCoords, a.originOf, a.vertexRecords]

theorem setPrev_frame {h : Heap} {p : Nat} {r : halfEdgeRecord} (v : Option Nat)
    (hr : h.halfEdgeRecords[p]? = some r) :
    ∃ g, h.setPrev p v = some g ∧ NextPrevFrame h g ∧
      (∀ x, g.prevOf x = if x = p then v else h.prevOf x) ∧
      (∀ x, g.nextOf x = h.nextOf x) := by
  obtain ⟨g, e1, e2, e3, e4, e5⟩ := updHalfEdge_spec (fun r => { r with prev := v }) hr
  refine ⟨g, e1, ⟨e2, e3, e4, ?_, ?_, ?_⟩, ?_, ?_⟩ <;> intro x <;>
    simp only [Heap.incidentOf, Heap.twinOf, Heap.nextOf, Heap.prevOf, Heap.originOf, e5] <;>
    split_ifs with hx <;> simp [hx, hr]

theorem setNext_frame {h : Heap} {p : Nat} {r : halfEdgeRecord} (v : Option Nat)
    (hr : h.halfEdgeRecords[p]? = some r) :
    ∃ g, h.setNext p v = some g ∧ NextPrevFrame h g ∧
      (∀ x, g.nextOf x = if x = p then v else h.nextOf x) ∧
      (∀ x, g.prevOf x = h.prevOf x) := by
  obtain ⟨g, e1, e2, e3, e4, e5⟩ := updHalfEdge_spec (fun r => { r with next := v }) hr
  refine ⟨g, e1, ⟨e2, e3, e4, ?_, ?_, ?_⟩, ?_, ?_⟩ <;> intro x <;>
    simp only [Heap.incidentOf, Heap.twinOf, Heap.nextOf, Heap.prevOf, Heap.originOf, e5] <;>
    split_ifs with hx <;> simp [hx, hr]

theorem exists_record_of_lt {h : Heap} {x : Nat} (hx : x < h.halfEdgeRecords.length) :
    ∃ r, h.halfEdgeRecords[x]? = some r := ⟨_, List.getElem?_eq_getElem hx⟩

/-- One iteration of "Fix pointers": `ei.prev = ej.twin` and `ej.twin.next = ei`. -/
theorem fixPointers_spec {h : Heap} {L : List Nat} {i ei ej tj : Nat}
    (h1 : L[i]? = some ei) (h2 : L[(i + 1) % L.length]? = some ej)
    (h3 : h.twinOf ej = some tj) (h4 : ei < h.halfEdgeRecords.length)
    (h5 : tj < h.halfEdgeRecords.length) :
    ∃ g, fixPointers L h i = some g ∧ NextPrevFrame h g ∧
      (∀ x, g.prevOf x = if x = ei then some tj else h.prevOf x) ∧
      (∀ x, g.nextOf x = if x = tj then some ei else h.nextOf x) := by
  obtain ⟨rj, hrj, hrt⟩ := twinOf_eq_some h3
  obtain ⟨ri, hri⟩ := exists_record_of_lt h4
  obtain ⟨g1, e1, f1, p1, n1⟩ := setPrev_frame (some tj) hri
  have h5b : tj < g1.halfEdgeRecords.length := f1.length ▸ h5
  obtain ⟨rt, hrt2⟩ := exists_record_of_lt h5b
  obtain ⟨g2, e2, f2, n2, p2⟩ := setNext_frame (some ei) hrt2
  refine ⟨g2, ?_, f1.trans f2, ?_, ?_⟩
  · simp only [fixPointers, Option.bind_eq_bind, h1, h2, Option.some_bind, hrj, hrt, e1,
      f1.twinOf, h3, e2]
  · intro x; rw [p2, p1]
  · intro x; rw [n2, n1]

theorem cyc_succ_inj {i m n : Nat} (hi : i < n) (hm : m < n)
    (h : (i + 1) % n = (m + 1) % n) : i = m := by
  have a := cyc_pred_succ hi
  have b := cyc_pred_succ hm
  rw [h] at a
  exact a.symm.trans b

/-- The loop "Fix pointers" after `m` iterations. -/
theorem fixLoop_spec {h : Heap} {L : List Nat} (hnd : L.Nodup)
    (hlt : ∀ e ∈ L, e < h.halfEdgeRecords.length)
    (htw : ∀ e ∈ L, ∃ t, h.twinOf e = some t ∧ t < h.halfEdgeRecords.length)
    (hinj : ∀ e ∈ L, ∀ e2 ∈ L, h.twinOf e = h.twinOf e2 → e = e2) :
    ∀ m, m ≤ L.length →
      ∃ g, (List.range m).foldlM (fixPointers L) h = some g ∧ NextPrevFrame h g ∧
        (∀ i ei ej tj, i < m → L[i]? = some ei → L[(i + 1) % L.length]? = some ej →
          h.twinOf ej = some tj → g.prevOf ei = some tj ∧ g.nextOf tj = some ei) ∧
        (∀ x, (∀ i, i < m → L[i]? ≠ some x) → g.prevOf x = h.prevOf x) ∧
        (∀ y, (∀ i ej, i < m → L[(i + 1) % L.length]? = some ej → h.twinOf ej ≠ some y) →
          g.nextOf y = h.nextOf y) := by
  intro m
  induction m with
  | zero =>
    intro _
    exact ⟨h, rfl, NextPrevFrame.refl h, fun _ _ _ _ hi => absurd hi (Nat.not_lt_zero _),
      fun _ _ => rfl, fun _ _ => rfl⟩
  | succ m ih =>
    intro hm
    obtain ⟨g, e1, f1, A, C, D⟩ := ih (by omega)
    have hmL : m < L.length := by omega
    have hsL : (m + 1) % L.length < L.length := Nat.mod_lt _ (by omega)
    have g1 : L[m]? = some L[m] := List.getElem?_eq_getElem hmL
    have g2 : L[(m + 1) % L.length]? = some L[(m + 1) % L.length] :=
      List.getElem?_eq_getElem hsL
    have m1 : L[m] ∈ L := List.getElem_mem hmL
    have m2 : L[(m + 1) % L.length] ∈ L := List.getElem_mem hsL
    obtain ⟨tj, t1, t2⟩ := htw _ m2
    obtain ⟨g', e2, f2, P2, N2⟩ := fixPointers_spec (h := g) g1 g2
      ((f1.twinOf _).trans t1) (f1.length ▸ hlt _ m1) (f1.length ▸ t2)
    refine ⟨g', ?_, f1.trans f2, ?_, ?_, ?_⟩
    · rw [List.range_succ, List.foldlM_append, e1]
      simp only [Option.bind_eq_bind, Option.some_bind, List.foldlM_cons, List.foldlM_nil, e2]
      rfl
    · intro i ei ej tj2 hi hei hej htj
      by_cases him : i = m
      · subst him
        obtain rfl : L[i] = ei := Option.some.inj (g1.symm.trans hei)
        obtain rfl : L[(i + 1) % L.length] = ej := Option.some.inj (g2.symm.trans hej)
        obtain rfl : tj = tj2 := Option.some.inj (t1.symm.trans htj)
        rw [P2, N2, if_pos rfl, if_pos rfl]
        exact ⟨rfl, rfl⟩
      · have hi2 : i < m := by omega
        obtain ⟨a1, a2⟩ := A i ei ej tj2 hi2 hei hej htj
        have hiL : i < L.length := by omega
        have ne1 : ei ≠ L[m] := by
          intro hh
          rw [hh, ← g1] at hei
          exact him ((List.getElem?_inj hiL hnd hei))
        have ne2 : tj2 ≠ tj := by
          intro hh
          rw [hh, ← t1] at htj
          have hej2 : ej ∈ L := List.getElem?_mem hej
          have := hinj ej hej2 _ m2 htj
          rw [this, ← g2] at hej
          have hsi : (i + 1) % L.length < L.length := Nat.mod_lt _ (by omega)
          exact him (cyc_succ_inj hiL hmL (List.getElem?_inj hsi hnd hej))
        rw [P2, N2, if_neg ne1, if_neg ne2]
        exact ⟨a1, a2⟩
    · intro x hx
      have ne1 : x ≠ L[m] := by
        intro hh; exact hx m (by omega) (hh ▸ g1)
      rw [P2, if_neg ne1]
      exact C x (fun i hi => hx i (by omega))
    · intro y hy
      have ne2 : y ≠ tj := by
        intro hh; exact hy m _ (by omega) g2 (hh ▸ t1)
      rw [N2, if_neg ne2]
      exact D y (fun i ej hi => hy i ej (by omega))

/-! ## One vertex of the radial fix -/

theorem MergedOK.frame {h g : Heap} {d : doublyConnectedEdgeList} (ok : MergedOK h d)
    (f : NextPrevFrame h g) : MergedOK g d := by
  refine ⟨ok.nodup, ?_, ?_, ?_⟩
  · intro e he; rw [f.twinOf]; exact ok.twin_mem e he
  · intro e t he; rw [f.twinOf, f.twinOf]; exact ok.twin_twin e t he
  · intro e he; rw [f.originOf, f.vertexRecords]; exact ok.origin_vertex e he

theorem MergedOK.lt_length {h : Heap} {d : doublyConnectedEdgeList} (ok : MergedOK h d)
    {e : Nat} (he : e ∈ d.halfEdges) : e < h.halfEdgeRecords.length := by
  obtain ⟨t, -, ht⟩ := ok.twin_mem e he
  obtain ⟨r, hr, -⟩ := twinOf_eq_some ht
  exact lt_length_of_getElem?_eq_some hr

theorem MergedOK.origin_record {h : Heap} {d : doublyConnectedEdgeList} (ok : MergedOK h d)
    {e : Nat} (he : e ∈ d.halfEdges) :
    ∃ v r, h.originOf e = some v ∧ h.vertexRecords[v]? = some r ∧
      h.originCoords e = some r.coords ∧ d.vertices.lookup r.coords = some v := by
  obtain ⟨v, r, h1, h2, h3⟩ := ok.origin_vertex e he
  refine ⟨v, r, h1, h2, ?_, h3⟩
  simp [Heap.originCoords, h1, h2]

theorem MergedOK.twin_inj {h : Heap} {d : doublyConnectedEdgeList} (ok : MergedOK h d)
    {e e2 : Nat} (he : e ∈ d.halfEdges) (he2 : e2 ∈ d.halfEdges)
    (hh : h.twinOf e = h.twinOf e2) : e = e2 := by
  obtain ⟨t, -, ht⟩ := ok.twin_mem e he
  have a := ok.twin_twin e t he ht
  have b := ok.twin_twin e2 t he2 (hh ▸ ht)
  exact Option.some.inj (a.symm.trans b)

theorem collectIncident_spec (h : Heap) (v : XY) (es : List Nat)
    (hc : ∀ e ∈ es, ∃ c, h.originCoords e = some c) :
    collectIncident h v es = some (es.filter (fun e => decide (h.originCoords e = some v))) := by
  induction es with
  | nil => rfl
  | cons e rest ih =>
    obtain ⟨c, hce⟩ := hc e (List.mem_cons_self _ _)
    have := ih (fun e2 h2 => hc e2 (List.mem_cons_of_mem _ h2))
    simp only [collectIncident, Option.bind_eq_bind, hce, Option.some_bind, this,
      List.filter_cons]
    by_cases hcv : c = v
    · simp [hcv]
    · have : ¬ (some c = some v) := fun hh => hcv (Option.some.inj hh)
      simp [hcv, this]

theorem mem_incidentAt {h : Heap} {d : doublyConnectedEdgeList} {v : XY} {e : Nat} :
    e ∈ incidentAt h d v ↔ e ∈ d.halfEdges ∧ h.originCoords e = some v := by
  simp [incidentAt, List.mem_filter]

/-- `fixVertex(v)`: the edges that start at `v`, in the order the sort leaves them,
are wired cyclically; `prev` changes only on those edges and `next` only on the
twins of those edges. -/
theorem fixVertex_spec {radialSort : Heap → List Nat → List Nat}
    (hsort : ∀ g l, (radialSort g l).Perm l) {g : Heap} {d : doublyConnectedEdgeList}
    (ok : MergedOK g d) (v : XY) :
    ∃ g2, fixVertex radialSort g d v = some g2 ∧ NextPrevFrame g g2 ∧
      WiredAt g2 (radialSort g (incidentAt g d v)) ∧
      (∀ x, x ∉ radialSort g (incidentAt g d v) → g2.prevOf x = g.prevOf x) ∧
      (∀ y, (∀ e ∈ radialSort g (incidentAt g d v), g.twinOf e ≠ some y) →
        g2.nextOf y = g.nextOf y) := by
  have hmem : ∀ e, e ∈ radialSort g (incidentAt g d v) → e ∈ d.halfEdges := by
    intro e he
    exact (mem_incidentAt.mp ((hsort _ _).mem_iff.mp he)).1
  have hnd : (radialSort g (incidentAt g d v)).Nodup :=
    (hsort _ _).nodup_iff.mpr (ok.nodup.filter _)
  obtain ⟨g2, e2, f2, A, C, D⟩ := fixLoop_spec (h := g) hnd
    (fun e he => ok.lt_length (hmem e he))
    (fun e he => by
      obtain ⟨t, ht, e1⟩ := ok.twin_mem e (hmem e he)
      exact ⟨t, e1, ok.lt_length ht⟩)
    (fun e he e' he' hh => ok.twin_inj (hmem e he) (hmem e' he') hh)
    (radialSort g (incidentAt g d v)).length (le_refl _)
  refine ⟨g2, ?_, f2, ?_, ?_, ?_⟩
  · have hc := collectIncident_spec g v d.halfEdges (fun e he => by
      obtain ⟨w, r, -, -, h3, -⟩ := ok.origin_record he
      exact ⟨_, h3⟩)
    simp only [fixVertex, Option.bind_eq_bind, hc, Option.some_bind]
    exact e2
  · intro i hi
    have hs : (i + 1) % (radialSort g (incidentAt g d v)).length <
        (radialSort g (incidentAt g d v)).length := Nat.mod_lt _ (by omega)
    have g1 := List.getElem?_eq_getElem hi
    have g2' := List.getElem?_eq_getElem hs
    obtain ⟨t, -, e1⟩ := ok.twin_mem _ (hmem _ (List.getElem_mem hs))
    obtain ⟨a1, a2⟩ := A i _ _ t hi g1 g2' e1
    exact ⟨_, _, t, g1, g2', (f2.twinOf _).trans e1, a1, a2⟩
  · intro x hx
    apply C
    intro i _ hh
    exact hx (List.getElem?_mem hh)
  · intro y hy
    apply D
    intro i ej _ hej
    exact hy ej (List.getElem?_mem hej)

/-! ## The radial fix over all vertices -/

theorem incidentAt_frame {h g : Heap} (f : NextPrevFrame h g) (d : doublyConnectedEdgeList)
    (v : XY) : incidentAt g d v = incidentAt h d v := by
  unfold incidentAt
  congr 1
  funext e
  rw [f.originCoords]

theorem wiredAt_preserved {g g1 : Heap} {d : doublyConnectedEdgeList} (ok : MergedOK g d)
    (f : NextPrevFrame g g1) {L L1 : List Nat} {v w : XY} (hvw : w ≠ v)
    (hL : ∀ e ∈ L, e ∈ d.halfEdges ∧ g.originCoords e = some w)
    (hL1 : ∀ e ∈ L1, e ∈ d.halfEdges ∧ g.originCoords e = some v)
    (hp : ∀ x, x ∉ L1 → g1.prevOf x = g.prevOf x)
    (hn : ∀ y, (∀ e ∈ L1, g.twinOf e ≠ some y) → g1.nextOf y = g.nextOf y)
    (hw : WiredAt g L) : WiredAt g1 L := by
  intro i hi
  obtain ⟨ei, ej, tj, a1, a2, a3, a4, a5⟩ := hw i hi
  have mi := hL ei (List.getElem?_mem a1)
  have mj := hL ej (List.getElem?_mem a2)
  refine ⟨ei, ej, tj, a1, a2, (f.twinOf _).trans a3, ?_, ?_⟩
  · rw [hp ei, a4]
    intro hin
    have := (hL1 ei hin).2
    rw [mi.2] at this
    exact hvw (Option.some.inj this)
  · rw [hn tj, a5]
    intro e he hh
    have : e = ej := ok.twin_inj (hL1 e he).1 mj.1 (hh.trans a3.symm)
    subst this
    have := (hL1 e he).2
    rw [mj.2] at this
    exact hvw (Option.some.inj this)

theorem fixVertices_fold {radialSort : Heap → List Nat → List Nat}
    (hsort : ∀ g l, (radialSort g l).Perm l) {h : Heap} {d : doublyConnectedEdgeList}
    (ok : MergedOK h d) :
    ∀ (order done : List XY) (g : Heap), NextPrevFrame h g → (done ++ order).Nodup →
      (∀ v ∈ done, WiredVertex radialSort h d g v) →
      ∃ g2, order.foldlM (fun k v => fixVertex radialSort k d v) g = some g2 ∧
        NextPrevFrame h g2 ∧ ∀ v ∈ done ++ order, WiredVertex radialSort h d g2 v := by
  intro order
  induction order with
  | nil =>
    intro done g f _ hd
    exact ⟨g, rfl, f, by simpa using hd⟩
  | cons v rest ih =>
    intro done g f hnd hd
    have okg := ok.frame f
    obtain ⟨g1, e1, f1, w1, p1, n1⟩ := fixVertex_spec hsort okg v
    have hnd2 : ((done ++ [v]) ++ rest).Nodup := by simpa using hnd
    have hvdone : v ∉ done := by
      intro hv
      have := List.nodup_append.mp hnd
      exact this.2.2 hv (List.mem_cons_self _ _)
    have hmemL1 : ∀ e ∈ radialSort g (incidentAt g d v),
        e ∈ d.halfEdges ∧ g.originCoords e = some v := fun e he =>
      mem_incidentAt.mp ((hsort _ _).mem_iff.mp he)
    obtain ⟨g2, e2, f2, w2⟩ := ih (done ++ [v]) g1 (f.trans f1) hnd2 (by
      intro w hw
      rcases List.mem_append.mp hw with hw | hw
      · obtain ⟨gv, fv, wv⟩ := hd w hw
        refine ⟨gv, fv, ?_⟩
        have hwv : w ≠ v := fun hh => hvdone (hh ▸ hw)
        refine wiredAt_preserved okg f1 hwv ?_ hmemL1 p1 n1 wv
        intro e he
        have := mem_incidentAt.mp ((hsort _ _).mem_iff.mp he)
        exact ⟨this.1, (f.originCoords e).trans this.2⟩
      · have : w = v := by simpa using hw
        subst this
        refine ⟨g, f, ?_⟩
        rw [← incidentAt_frame f]
        exact w1)
    refine ⟨g2, ?_, f2, by simpa using w2⟩
    simp only [List.foldlM, Option.bind_eq_bind, e1, Option.some_bind]
    exact e2

theorem mem_keys_of_lookup {α β : Type} [BEq α] [LawfulBEq α] {k : α} {v : β} :
    ∀ {l : List (α × β)}, l.lookup k = some v → k ∈ l.map Prod.fst := by
  intro l
  induction l with
  | nil => intro h; simp at h
  | cons p rest ih =>
    intro h
    obtain ⟨a, b⟩ := p
    by_cases hk : k = a
    · subst hk; simp
    · have : (k == a) = false := by simpa using hk
      rw [List.lookup_cons, this] at h
      simp only [List.map_cons, List.mem_cons]
      exact Or.inr (ih h)

theorem exists_index_of_mem {L : List Nat} {e : Nat} (he : e ∈ L) :
    ∃ i, i < L.length ∧ L[i]? = some e := by
  obtain ⟨i, hi, hh⟩ := List.getElem_of_mem he
  exact ⟨i, hi, by rw [List.getElem?_eq_getElem hi, hh]⟩

/-- From the wiring at every vertex: each half-edge has a `next` and a `prev` in the
list, `next.prev = e`, `prev.next = e`, and `next.origin = twin.origin`. -/
theorem pointerLaws_of_wired {radialSort : Heap → List Nat → List Nat}
    (hsort : ∀ g l, (radialSort g l).Perm l) {h g : Heap} {d : doublyConnectedEdgeList}
    (ok : MergedOK h d) (f : NextPrevFrame h g)
    (hw : ∀ v ∈ d.vertices.map Prod.fst, WiredVertex radialSort h d g v)
    (e : Nat) (he : e ∈ d.halfEdges) :
    ∃ n p t, g.nextOf e = some n ∧ g.prevOf e = some p ∧ g.twinOf e = some t ∧
      n ∈ d.halfEdges ∧ p ∈ d.halfEdges ∧
      g.prevOf n = some e ∧ g.nextOf p = some e ∧
      ∃ o, g.originOf n = some o ∧ g.originOf t = some o := by
  obtain ⟨t, ht, e1⟩ := ok.twin_mem e he
  have e2 := ok.twin_twin e t he e1
  -- the vertex of e
  obtain ⟨v, r, o1, o2, o3, o4⟩ := ok.origin_record he
  obtain ⟨gv, fv, wv⟩ := hw _ (mem_keys_of_lookup o4)
  have heL : e ∈ radialSort gv (incidentAt h d r.coords) :=
    (hsort _ _).mem_iff.mpr (mem_incidentAt.mpr ⟨he, o3⟩)
  obtain ⟨i, hi, gi⟩ := exists_index_of_mem heL
  obtain ⟨ei, ej, tj, a1, a2, a3, a4, a5⟩ := wv i hi
  have : ei = e := Option.some.inj (a1.symm.trans gi)
  subst this
  have mj := (mem_incidentAt.mp ((hsort _ _).mem_iff.mp (List.getElem?_mem a2))).1
  obtain ⟨tj2, htj2, e3⟩ := ok.twin_mem ej mj
  have : tj2 = tj := Option.some.inj (e3.symm.trans ((f.twinOf ej).symm.trans a3))
  subst this
  -- the vertex of the twin
  obtain ⟨v2, r2, p1, p2, p3, p4⟩ := ok.origin_record ht
  obtain ⟨gv2, fv2, wv2⟩ := hw _ (mem_keys_of_lookup p4)
  have htL : t ∈ radialSort gv2 (incidentAt h d r2.coords) :=
    (hsort _ _).mem_iff.mpr (mem_incidentAt.mpr ⟨ht, p3⟩)
  obtain ⟨k, hk, gk⟩ := exists_index_of_mem htL
  have hpos : 0 < (radialSort gv2 (incidentAt h d r2.coords)).length := by omega
  obtain ⟨ei2, ej2, tk, b1, b2, b3, b4, b5⟩ := wv2 _ (cyc_pred_lt (i := k) hpos)
  rw [cyc_succ_pred hk] at b2
  have : ej2 = t := Option.some.inj (b2.symm.trans gk)
  subst this
  have : tk = ei := Option.some.inj (b3.symm.trans ((f.twinOf ej2).trans e2))
  subst this
  have mn := mem_incidentAt.mp ((hsort _ _).mem_iff.mp (List.getElem?_mem b1))
  obtain ⟨v3, r3, q1, q2, q3, q4⟩ := ok.origin_record mn.1
  have hc : r3.coords = r2.coords := Option.some.inj (q3.symm.trans mn.2)
  have hv : v3 = v2 := by
    rw [hc] at q4
    exact Option.some.inj (q4.symm.trans p4)
  refine ⟨ei2, tj2, ej2, b5, a4, (f.twinOf _).trans e1, mn.1, htj2, b4, a5, v2, ?_, ?_⟩
  · rw [f.originOf, q1, hv]
  · rw [f.originOf, p1]

/-- The whole of `fixVertices`: it returns, changes only `next` and `prev`, and
leaves every vertex wired and every half-edge of the list satisfying the pointer
laws. -/
theorem fixVertices_spec {radialSort : Heap → List Nat → List Nat}
    (hsort : ∀ g l, (radialSort g l).Perm l) {h : Heap} {d : doublyConnectedEdgeList}
    (ok : MergedOK h d) {order : List XY} (hord : order.Perm (d.vertices.map Prod.fst))
    (hkeys : (d.vertices.map Prod.fst).Nodup) :
    ∃ g, fixVertices radialSort order h d = some g ∧ NextPrevFrame h g ∧
      (∀ v ∈ d.vertices.map Prod.fst, WiredVertex radialSort h d g v) ∧
      ∀ e ∈ d.halfEdges, ∃ n p t, g.nextOf e = some n ∧ g.prevOf e = some p ∧
        g.twinOf e = some t ∧ n ∈ d.halfEdges ∧ p ∈ d.halfEdges ∧
        g.prevOf n = some e ∧ g.nextOf p = some e ∧
      ∃ o, g.originOf n = some o ∧ g.originOf t = some o := by
  obtain ⟨g, e1, f, w⟩ := fixVertices_fold hsort ok order [] h (NextPrevFrame.refl h)
    (by simpa using hord.nodup_iff.mpr hkeys) (by simp)
  have w2 : ∀ v ∈ d.vertices.map Prod.fst, WiredVertex radialSort h d g v := by
    intro v hv
    exact w v (by simpa using hord.mem_iff.mpr hv)
  exact ⟨g, e1, f, w2, pointerLaws_of_wired hsort ok f w2⟩

theorem direction_frame {h g : Heap} (f : NextPrevFrame h g) : direction g = direction h := by
  funext e
  simp only [direction, f.twinOf, f.originCoords]

theorem mergedOK_of_check {h : Heap} {d : doublyConnectedEdgeList}
    (hc : mergedOKCheck h d = true) : MergedOK h d := by
  simp only [mergedOKCheck, Bool.and_eq_true, decide_eq_true_eq, List.all_eq_true] at hc
  obtain ⟨⟨h1, h2⟩, h3⟩ := hc
  refine ⟨h1, ?_, ?_, ?_⟩
  · intro e he
    have := h2 e he
    cases ht : h.twinOf e with
    | none => rw [ht] at this; simp at this
    | some t =>
      rw [ht] at this
      simp only [Bool.and_eq_true, decide_eq_true_eq] at this
      exact ⟨t, this.1, rfl⟩
  · intro e t he ht
    have := h2 e he
    rw [ht] at this
    simp only [Bool.and_eq_true, decide_eq_true_eq] at this
    exact this.2
  · intro e he
    have := h3 e he
    cases ho : h.originOf e with
    | none => rw [ho] at this; simp at this
    | some v =>
      rw [ho] at this
      cases hr : h.vertexRecords[v]? with
      | none => simp [hr] at this
      | some r =>
        simp only [hr, decide_eq_true_eq] at this
        exact ⟨v, r, rfl, hr, this⟩

theorem unitSquare_merged_facts :
    ((newDCELFromPolygon Heap.empty unitSquare true).all
      (fun s => mergedOKCheck s.1 s.2 && decide (s.2.vertices.map Prod.fst).Nodup)) = true := by
  with_unfolding_all decide

/-! ## Claim C10 -/

/-- C10: in a merged DCEL (the half-edge slice lists each record once, twins are in
the slice, `twin.twin = self`, every origin is the vertex record `d.vertices` holds
at its coordinates), with the radial sort any rearrangement of the incident edges
that reads their directions and with the keys of `d.vertices` visited in any order,
`fixVertices` returns; afterwards every half-edge `e` of the slice has
`e.next.prev = e`, `e.prev.next = e` and `e.next.origin = e.twin.origin`, and at
each vertex the outgoing edges, in the order the sort gives them read cyclically,
satisfy `ei.prev = ej.twin` and `ej.twin.next = ei` for consecutive `ei`, `ej`. -/
theorem C10_fixVertices_pointer_laws (sortBy : (Nat → Option XY) → List Nat → List Nat)
    (hsort : ∀ k l, (sortBy k l).Perm l) (h : Heap) (d : doublyConnectedEdgeList)
    (ok : MergedOK h d) (order : List XY)
    (hord : order.Perm (d.vertices.map Prod.fst))
    (hkeys : (d.vertices.map Prod.fst).Nodup) :
    ∃ g, fixVertices (fun k l => sortBy (direction k) l) order h d = some g ∧
      (∀ e ∈ d.halfEdges, ∃ n p t o, g.nextOf e = some n ∧ g.prevOf e = some p ∧
        g.twinOf e = some t ∧ g.prevOf n = some e ∧ g.nextOf p = some e ∧
        g.originOf n = some o ∧ g.originOf t = some o) ∧
      (∀ v ∈ d.vertices.map Prod.fst,
        WiredAt g (sortBy (direction h) (incidentAt h d v))) := by
  obtain ⟨g, e1, f, w, laws⟩ := @fixVertices_spec (fun k l => sortBy (direction k) l)
    (fun k l => hsort _ l) h d ok order hord hkeys
  refine ⟨g, e1, ?_, ?_⟩
  · intro e he
    obtain ⟨n, p, t, a1, a2, a3, -, -, a6, a7, o, a8, a9⟩ := laws e he
    exact ⟨n, p, t, o, a1, a2, a3, a6, a7, a8, a9⟩
  · intro v hv
    obtain ⟨gv, fv, wv⟩ := w v hv
    have : sortBy (direction gv) (incidentAt h d v) = sortBy (direction h) (incidentAt h d v) := by
      rw [direction_frame fv]
    rw [← this]
    exact wv

/-- C10 at the DCEL of the unit square, the sort leaving the edges as found. -/
theorem C10_fixVertices_pointer_laws_witness :
    ∃ h d, newDCELFromPolygon Heap.empty unitSquare true = some (h, d) ∧ MergedOK h d ∧
      (d.vertices.map Prod.fst).Nodup ∧
      ∃ g, fixVertices (fun _ l => l) (d.vertices.map Prod.fst) h d = some g ∧
        (∀ e ∈ d.halfEdges, ∃ n p t o, g.nextOf e = some n ∧ g.prevOf e = some p ∧
          g.twinOf e = some t ∧ g.prevOf n = some e ∧ g.nextOf p = some e ∧
          g.originOf n = some o ∧ g.originOf t = some o) ∧
        (∀ v ∈ d.vertices.map Prod.fst, WiredAt g (incidentAt h d v)) := by
  obtain ⟨h, d, e, -, -⟩ := newDCELFromPolygon_inv Heap.empty unitSquare true unitSquare_closed
  have hf := unitSquare_merged_facts
  rw [e] at hf
  simp only [Option.all_some, Bool.and_eq_true, decide_eq_true_eq] at hf
  exact ⟨h, d, e, mergedOK_of_check hf.1, hf.2,
    C10_fixVertices_pointer_laws (fun _ l => l) (fun _ l => List.Perm.refl l) h d
      (mergedOK_of_check hf.1) (d.vertices.map Prod.fst) (List.Perm.refl _) hf.2⟩

/-! ## The cut points of an edge -/

theorem less_eq_false_iff (p q : XY) : q.Less p = false ↔ LexLE p q := by
  simp only [XY.Less, decide_eq_false_iff_not]
  constructor
  · intro h; exact lexLE_of_not_lexLT h
  · intro h hlt
    have h2 : LexLE q p := lexLE_of_lexLT hlt
    have := lexLE_antisymm h h2
    subst this
    rcases hlt with h3 | ⟨-, h3⟩ <;> exact lt_irrefl _ h3

theorem lexLT_of_lexLE_of_ne {p q : XY} (h : LexLE p q) (hne : p ≠ q) : LexLT p q := by
  rcases h with h | ⟨h1, h2⟩
  · exact Or.inl h
  · rcases eq_or_lt_of_le h2 with h3 | h3
    · exact absurd ((XY.eq_iff p q).mpr ⟨h1, h3⟩) hne
    · exact Or.inr ⟨h1, h3⟩

theorem mem_sortAndUniquifyXYs (xys : List XY) (x : XY) :
    x ∈ sortAndUniquifyXYs xys ↔ x ∈ xys := by
  unfold sortAndUniquifyXYs
  rw [List.mem_dedup]
  exact (List.perm_insertionSort _ xys).mem_iff

theorem sortAndUniquifyXYs_pairwise (xys : List XY) :
    (sortAndUniquifyXYs xys).Pairwise LexLT := by
  unfold sortAndUniquifyXYs
  haveI : IsTotal XY (fun p q => q.Less p = false) :=
    ⟨fun p q => by
      simp only [less_eq_false_iff]
      exact lexLE_total p q⟩
  haveI : IsTrans XY (fun p q => q.Less p = false) :=
    ⟨fun p q r => by
      simp only [less_eq_false_iff]
      exact lexLE_trans⟩
  have hs : (xys.insertionSort (fun p q => q.Less p = false)).Pairwise
      (fun p q => q.Less p = false) := List.sorted_insertionSort _ xys
  have hs2 := hs.sublist (List.dedup_sublist _)
  have hn : (xys.insertionSort (fun p q => q.Less p = false)).dedup.Pairwise (fun p q => p ≠ q) :=
    List.nodup_dedup _
  refine (hs2.and hn).imp ?_
  rintro p q ⟨h1, h2⟩
  exact lexLT_of_lexLE_of_ne ((less_eq_false_iff p q).mp h1) h2

/-- The points of a non-empty result of `intersectLine` lie on both segments. -/
theorem intersectLine_points_on {a b c d : XY} (hab : a ≠ b) (hcd : c ≠ d)
    (hne : ((line.mk a b).intersectLine (line.mk c d)).empty = false) :
    (InClosedSegment a b ((line.mk a b).intersectLine (line.mk c d)).ptA ∧
      InClosedSegment c d ((line.mk a b).intersectLine (line.mk c d)).ptA) ∧
    (InClosedSegment a b ((line.mk a b).intersectLine (line.mk c d)).ptB ∧
      InClosedSegment c d ((line.mk a b).intersectLine (line.mk c d)).ptB) := by
  have hemp := intersectLine_empty_iff a b c d hab hcd
  have hm : SegmentsMeet a b c d := by
    by_contra hm
    rw [hemp.mpr hm] at hne
    exact absurd hne (by simp)
  by_cases hx : orientation a b c ≠ orientation a b d ∧ orientation c d a ≠ orientation c d b
  · rw [intersectLine_crossing hx.1 hx.2]
    exact ⟨⟨crossingPoint_on_first hx.2, crossingPoint_on_second hx.1⟩,
      ⟨crossingPoint_on_first hx.2, crossingPoint_on_second hx.1⟩⟩
  · by_cases hc : orientation a b c = collinear ∧ orientation a b d = collinear
    · have c1 := (orientation_collinear_iff _ _ _).mp hc.1
      have c2 := (orientation_collinear_iff _ _ _).mp hc.2
      obtain ⟨hi, lo, x, y, hr, hp, hhi, hlo⟩ := collinearRemainder_spec a b c d
      have hres : (line.mk a b).intersectLine (line.mk c d) = ⟨false, x, y⟩ := by
        have hne2 := hne
        simp only [line.intersectLine] at hne2 ⊢
        rw [if_neg hx, if_pos hc] at hne2 ⊢
        split_ifs at hne2 ⊢ with hs
        rw [hr]; rfl
      rw [hres]
      have hcommon := collinear_common_iff hab c1 c2 hm hp hhi hlo
      exact ⟨(hcommon x).mpr (inClosedSegment_left _ _),
        (hcommon y).mpr (inClosedSegment_right _ _)⟩
    · exfalso
      simp only [line.intersectLine] at hne
      rw [if_neg hx, if_neg hc] at hne
      exact absurd hne (by simp)

theorem mem_gatherCuts (ln : line) (cands : List line) (p : XY) :
    p ∈ gatherCuts ln cands ↔
      ∃ s ∈ cands, (ln.intersectLine s).empty = false ∧
        (p = (ln.intersectLine s).ptA ∨ p = (ln.intersectLine s).ptB) := by
  induction cands with
  | nil => simp [gatherCuts]
  | cons s rest ih =>
    simp only [gatherCuts]
    cases he : (ln.intersectLine s).empty
    · simp only [Bool.false_eq_true, if_false, List.mem_cons, ih]
      constructor
      · rintro (h | h | ⟨s2, h1, h2⟩)
        · exact ⟨s, Or.inl rfl, he, Or.inl h⟩
        · exact ⟨s, Or.inl rfl, he, Or.inr h⟩
        · exact ⟨s2, Or.inr h1, h2⟩
      · rintro ⟨s2, h1 | h1, h2, h3⟩
        · subst h1
          rcases h3 with h3 | h3
          · exact Or.inl h3
          · exact Or.inr (Or.inl h3)
        · exact Or.inr (Or.inr ⟨s2, h1, h2, h3⟩)
    · simp only [if_true, ih, List.mem_cons]
      constructor
      · rintro ⟨s2, h1, h2⟩
        exact ⟨s2, Or.inr h1, h2⟩
      · rintro ⟨s2, h1 | h1, h2, h3⟩
        · subst h1; rw [he] at h2; exact absurd h2 (by simp)
        · exact ⟨s2, h1, h2, h3⟩

theorem gatherCuts_on (ln : line) (hab : ln.a ≠ ln.b) (cands : List line)
    (hc : ∀ s ∈ cands, s.a ≠ s.b) (p : XY) (hp : p ∈ gatherCuts ln cands) :
    InClosedSegment ln.a ln.b p := by
  obtain ⟨s, hs, hne, h⟩ := (mem_gatherCuts ln cands p).mp hp
  have := intersectLine_points_on hab (hc s hs) hne
  rcases h with h | h
  · rw [h]; exact this.1.1
  · rw [h]; exact this.2.1

/-- A list that is strictly increasing in the key `k` and holds a least element `a`
and a greatest element `b` begins with `a` and ends with `b`. -/
theorem sorted_ends {k : XY → ℚ} {O : List XY} {a b : XY}
    (hs : O.Pairwise (fun p q => k p < k q)) (ha : a ∈ O) (hb : b ∈ O)
    (hmin : ∀ p ∈ O, k a ≤ k p) (hmax : ∀ p ∈ O, k p ≤ k b) (hab : k a < k b) :
    ∃ mid, O = a :: (mid ++ [b]) := by
  cases O with
  | nil => simp at ha
  | cons x rest =>
    rw [List.pairwise_cons] at hs
    have hx : x = a := by
      by_contra hne
      have : a ∈ rest := by
        rcases List.mem_cons.mp ha with h | h
        · exact absurd h.symm hne
        · exact h
      have h1 := hs.1 a this
      have h2 := hmin x (List.mem_cons_self _ _)
      linarith
    subst hx
    have hbr : b ∈ rest := by
      rcases List.mem_cons.mp hb with h | h
      · rw [h] at hab; exact absurd hab (lt_irrefl _)
      · exact h
    have hne : rest ≠ [] := List.ne_nil_of_mem hbr
    obtain ⟨mid, y, hy⟩ : ∃ mid y, rest = mid ++ [y] :=
      ⟨rest.dropLast, rest.getLast hne, (List.dropLast_append_getLast hne).symm⟩
    subst hy
    have hyb : y = b := by
      by_contra hne2
      have : b ∈ mid := by
        rcases List.mem_append.mp hbr with h | h
        · exact h
        · simp at h; exact absurd h.symm hne2
      have h1 := (List.pairwise_append.mp hs.2).2.2 b this y (by simp)
      have h2 := hmax y (by simp)
      linarith
    subst hyb
    exact ⟨mid, rfl⟩

theorem lexLT_pointAt_of_lexLT {a b : XY} (hab : LexLT a b) {s t : ℚ}
    (h : LexLT (pointAt a b s) (pointAt a b t)) : s < t := by
  have h1 := (lexLE_pointAt_of_lexLT hab s t).mp (lexLE_of_lexLT h)
  rcases eq_or_lt_of_le h1 with h2 | h2
  · subst h2
    rcases h with h3 | ⟨-, h3⟩ <;> exact absurd h3 (lt_irrefl _)
  · exact h2

theorem lexLT_pointAt_of_lexGT {a b : XY} (hab : LexLT b a) {s t : ℚ}
    (h : LexLT (pointAt a b s) (pointAt a b t)) : t < s := by
  have h1 := (lexLE_pointAt_of_lexGT hab s t).mp (lexLE_of_lexLT h)
  rcases eq_or_lt_of_le h1 with h2 | h2
  · subst h2
    rcases h with h3 | ⟨-, h3⟩ <;> exact absurd h3 (lt_irrefl _)
  · exact h2

theorem lexLT_asymm {p q : XY} (h1 : LexLT p q) (h2 : LexLT q p) : False := by
  have := lexLE_antisymm (lexLE_of_lexLT h1) (lexLE_of_lexLT h2)
  subst this
  rcases h1 with h3 | ⟨-, h3⟩ <;> exact lt_irrefl _ h3

/-- The slice `xys` when the cuts are performed: it runs from `ln.a` to `ln.b`, is
strictly increasing along the line, and holds the end points and the gathered
points. -/
theorem orientedXYs_spec (search : line → List line) (ln : line) (hab : ln.a ≠ ln.b)
    (hc : ∀ s ∈ search ln, s.a ≠ s.b) :
    (orientedXYs search ln).Pairwise
      (fun p q => lineParam ln.a ln.b p < lineParam ln.a ln.b q) ∧
    (∀ x, x ∈ orientedXYs search ln ↔
      (x = ln.a ∨ x = ln.b ∨ x ∈ gatherCuts ln (search ln))) ∧
    (∀ x ∈ orientedXYs search ln, 0 ≤ lineParam ln.a ln.b x ∧ lineParam ln.a ln.b x ≤ 1 ∧
      x = pointAt ln.a ln.b (lineParam ln.a ln.b x)) := by
  have hP : ∀ x, x ∈ [ln.a, ln.b] ++ gatherCuts ln (search ln) →
      0 ≤ lineParam ln.a ln.b x ∧ lineParam ln.a ln.b x ≤ 1 ∧
      x = pointAt ln.a ln.b (lineParam ln.a ln.b x) := by
    intro x hx
    have hon : InClosedSegment ln.a ln.b x := by
      simp only [List.cons_append, List.nil_append, List.mem_cons] at hx
      rcases hx with h | h | h
      · rw [h]; exact inClosedSegment_left _ _
      · rw [h]; exact inClosedSegment_right _ _
      · exact gatherCuts_on ln hab _ hc x h
    obtain ⟨t, t0, t1, ht⟩ := hon
    have hx2 : x = pointAt ln.a ln.b t := ht
    have hk : lineParam ln.a ln.b x = t := by rw [hx2]; exact lineParam_pointAt hab t
    rw [hk]; exact ⟨t0, t1, hx2⟩
  have hmemS := mem_sortAndUniquifyXYs ([ln.a, ln.b] ++ gatherCuts ln (search ln))
  have hsort := sortAndUniquifyXYs_pairwise ([ln.a, ln.b] ++ gatherCuts ln (search ln))
  have hmemP : ∀ x, x ∈ [ln.a, ln.b] ++ gatherCuts ln (search ln) ↔
      (x = ln.a ∨ x = ln.b ∨ x ∈ gatherCuts ln (search ln)) := by
    intro x; simp
  have haS : ln.a ∈ sortAndUniquifyXYs ([ln.a, ln.b] ++ gatherCuts ln (search ln)) :=
    (hmemS _).mpr (by simp)
  have hbS : ln.b ∈ sortAndUniquifyXYs ([ln.a, ln.b] ++ gatherCuts ln (search ln)) :=
    (hmemS _).mpr (by simp)
  have hka : lineParam ln.a ln.b ln.a = 0 := by
    have := lineParam_pointAt hab 0
    rwa [pointAt_zero] at this
  rcases lexLT_or_of_ne hab with hlt | hlt
  · -- the sorted slice begins with `ln.a`
    have hinc : (sortAndUniquifyXYs ([ln.a, ln.b] ++ gatherCuts ln (search ln))).Pairwise
        (fun p q => lineParam ln.a ln.b p < lineParam ln.a ln.b q) := by
      rw [List.pairwise_iff_forall_sublist] at hsort ⊢
      intro p q hpq
      have hp := hP p ((hmemS p).mp (hpq.subset (by simp)))
      have hq := hP q ((hmemS q).mp (hpq.subset (by simp)))
      have := hsort hpq
      rw [hp.2.2, hq.2.2] at this
      exact lexLT_pointAt_of_lexLT hlt this
    have hhead : (sortAndUniquifyXYs ([ln.a, ln.b] ++ gatherCuts ln (search ln))).head? =
        some ln.a := by
      cases hS : sortAndUniquifyXYs ([ln.a, ln.b] ++ gatherCuts ln (search ln)) with
      | nil => rw [hS] at haS; simp at haS
      | cons x rest =>
        rw [hS] at haS hinc
        simp only [List.head?_cons, Option.some.injEq]
        by_contra hne
        have har : ln.a ∈ rest := by
          rcases List.mem_cons.mp haS with h | h
          · exact absurd h.symm hne
          · exact h
        have h1 := (List.pairwise_cons.mp hinc).1 ln.a har
        have h2 := (hP x ((hmemS x).mp (by rw [hS]; simp))).1
        rw [hka] at h1
        linarith
    have hO : orientedXYs search ln =
        sortAndUniquifyXYs ([ln.a, ln.b] ++ gatherCuts ln (search ln)) := by
      simp only [orientedXYs, hhead, ne_eq, not_true_eq_false, if_false]
    rw [hO]
    refine ⟨hinc, fun x => (hmemS x).trans (hmemP x), fun x hx => hP x ((hmemS x).mp hx)⟩
  · -- the sorted slice begins with another point, and is reversed
    have hdec : (sortAndUniquifyXYs ([ln.a, ln.b] ++ gatherCuts ln (search ln))).Pairwise
        (fun p q => lineParam ln.a ln.b q < lineParam ln.a ln.b p) := by
      rw [List.pairwise_iff_forall_sublist] at hsort ⊢
      intro p q hpq
      have hp := hP p ((hmemS p).mp (hpq.subset (by simp)))
      have hq := hP q ((hmemS q).mp (hpq.subset (by simp)))
      have := hsort hpq
      rw [hp.2.2, hq.2.2] at this
      exact lexLT_pointAt_of_lexGT hlt this
    have hhead : (sortAndUniquifyXYs ([ln.a, ln.b] ++ gatherCuts ln (search ln))).head? ≠
        some ln.a := by
      cases hS : sortAndUniquifyXYs ([ln.a, ln.b] ++ gatherCuts ln (search ln)) with
      | nil => simp
      | cons x rest =>
        rw [hS] at hbS hsort
        simp only [List.head?_cons, ne_eq, Option.some.injEq]
        intro hxa
        subst hxa
        have hbr : ln.b ∈ rest := by
          rcases List.mem_cons.mp hbS with h | h
          · exact absurd h.symm hab
          · exact h
        exact lexLT_asymm hlt ((List.pairwise_cons.mp hsort).1 ln.b hbr)
    have hO : orientedXYs search ln =
        (sortAndUniquifyXYs ([ln.a, ln.b] ++ gatherCuts ln (search ln))).reverse := by
      simp only [orientedXYs, if_pos hhead]
    rw [hO]
    refine ⟨List.pairwise_reverse.mpr hdec, fun x => ?_, fun x hx => ?_⟩
    · rw [List.mem_reverse]; exact (hmemS x).trans (hmemP x)
    · exact hP x ((hmemS x).mp (List.mem_reverse.mp hx))

/-- The cut points of an edge: the reported intersection points other than the end
points, each once, in the order from `ln.a` to `ln.b`. -/
theorem cutPoints_spec (search : line → List line) (ln : line) (hab : ln.a ≠ ln.b)
    (hc : ∀ s ∈ search ln, s.a ≠ s.b) :
    orientedXYs search ln = ln.a :: (cutPoints search ln ++ [ln.b]) ∧
    (∀ x, x ∈ cutPoints search ln ↔
      (x ≠ ln.a ∧ x ≠ ln.b ∧ ∃ s ∈ search ln, (ln.intersectLine s).empty = false ∧
        (x = (ln.intersectLine s).ptA ∨ x = (ln.intersectLine s).ptB))) ∧
    (cutPoints search ln).Pairwise
      (fun p q => lineParam ln.a ln.b p < lineParam ln.a ln.b q) ∧
    (∀ x ∈ cutPoints search ln, 0 < lineParam ln.a ln.b x ∧ lineParam ln.a ln.b x < 1 ∧
      x = pointAt ln.a ln.b (lineParam ln.a ln.b x)) := by
  obtain ⟨hs, hmem, hon⟩ := orientedXYs_spec search ln hab hc
  have hka : lineParam ln.a ln.b ln.a = 0 := by
    have := lineParam_pointAt hab 0
    rwa [pointAt_zero] at this
  have hkb : lineParam ln.a ln.b ln.b = 1 := by
    have := lineParam_pointAt hab 1
    rwa [pointAt_one] at this
  obtain ⟨mid, hmid⟩ := sorted_ends hs ((hmem _).mpr (Or.inl rfl))
    ((hmem _).mpr (Or.inr (Or.inl rfl)))
    (fun p hp => by rw [hka]; exact (hon p hp).1)
    (fun p hp => by rw [hkb]; exact (hon p hp).2.1)
    (by rw [hka, hkb]; exact zero_lt_one)
  have hcp : cutPoints search ln = mid := by
    simp only [cutPoints, hmid, List.drop_succ_cons, List.drop_zero, List.length_cons,
      List.length_append, List.length_nil]
    have : mid.length + (0 + 1) + 1 - 2 = mid.length := by omega
    rw [this, List.take_left']
    rfl
  rw [hcp]
  rw [hmid] at hs hmem hon
  have hs1 := List.pairwise_cons.mp hs
  have hs2 := List.pairwise_append.mp hs1.2
  have hin : ∀ x ∈ mid, 0 < lineParam ln.a ln.b x ∧ lineParam ln.a ln.b x < 1 := by
    intro x hx
    have h1 := hs1.1 x (List.mem_append_left _ hx)
    have h2 := hs2.2.2 x hx ln.b (by simp)
    rw [hka] at h1; rw [hkb] at h2
    exact ⟨h1, h2⟩
  refine ⟨hmid, fun x => ?_, hs2.1, fun x hx => ?_⟩
  · constructor
    · intro hx
      have hk := hin x hx
      have hxa : x ≠ ln.a := by
        intro h; rw [h, hka] at hk; exact lt_irrefl _ hk.1
      have hxb : x ≠ ln.b := by
        intro h; rw [h, hkb] at hk; exact lt_irrefl _ hk.2
      have := (hmem x).mp (by simp [hx])
      rcases this with h | h | h
      · exact absurd h hxa
      · exact absurd h hxb
      · exact ⟨hxa, hxb, (mem_gatherCuts ln _ x).mp h⟩
    · rintro ⟨hxa, hxb, hg⟩
      have := (hmem x).mpr (Or.inr (Or.inr ((mem_gatherCuts ln _ x).mpr hg)))
      simp only [List.mem_cons, List.mem_append, List.mem_singleton, List.not_mem_nil,
        or_false] at this
      rcases this with h | h | h
      · exact absurd h hxa
      · exact h
      · exact absurd h hxb
  · have hk := hin x hx
    exact ⟨hk.1, hk.2, (hon x (by simp [hx])).2.2⟩

/-! ## Walks and cuts -/

theorem chain_sources {R S : Nat → Nat → Prop} :
    ∀ (l : List Nat) (z : Nat), List.Chain' R (l ++ [z]) →
      (∀ x ∈ l, ∀ y, R x y → S x y) → List.Chain' S (l ++ [z]) := by
  intro l
  induction l with
  | nil => intro z _ _; simp
  | cons x rest ih =>
    intro z hc hs
    rw [List.cons_append, List.chain'_cons'] at hc ⊢
    refine ⟨fun y hy => hs x (List.mem_cons_self _ _) y (hc.1 y hy), ?_⟩
    exact ih z hc.2 (fun x2 hx2 => hs x2 (List.mem_cons_of_mem _ hx2))

theorem edgeLine_eq_some {h : Heap} {e : Nat} {ln : line} :
    edgeLine h e = some ln ↔ h.originCoords e = some ln.a ∧ h.destCoords e = some ln.b := by
  simp only [edgeLine, Heap.destCoords, Option.bind_eq_bind, Option.pure_def]
  cases ha : h.originCoords e with
  | none => simp
  | some a =>
    cases ht : h.twinOf e with
    | none => simp
    | some t =>
      cases hb : h.originCoords t with
      | none => simp [hb]
      | some b =>
        cases ln
        simp [hb]

/-- The half-edge after `c` in a walk. -/
theorem Walk.next_of_split {h : Heap} {d : doublyConnectedEdgeList} {start c : Nat}
    {pre post : List Nat} (w : Walk h d start (pre ++ c :: post)) :
    ∃ n, (post ++ [start]).head? = some n ∧ h.nextOf c = some n ∧ n ∈ pre ++ c :: post := by
  have hl := w.linked
  rw [List.append_assoc, List.cons_append] at hl
  have hl2 := (List.chain'_split.mp hl).2
  have hstart : start ∈ pre ++ c :: post := List.mem_of_mem_head? w.head
  cases post with
  | nil =>
    refine ⟨start, rfl, ?_, hstart⟩
    simp only [List.nil_append, List.chain'_cons, List.chain'_singleton, and_true] at hl2
    exact hl2
  | cons n rest =>
    refine ⟨n, rfl, ?_, by simp⟩
    rw [List.cons_append, List.chain'_cons] at hl2
    exact hl2.1

/-- A cut of the half-edge `c` of a walk: the new half-edge comes after `c` in the
walk; origins along the walk, and destinations other than that of `c`, stay. -/
theorem cut_walk {h : Heap} {d : doublyConnectedEdgeList} (inv : SplitInv h d)
    {start c cut : Nat} {pre post : List Nat} (w : Walk h d start (pre ++ c :: post))
    (hc : cut < h.vertexRecords.length) :
    ∃ h2, reNodeEdge h d c cut = some (h2, { d with halfEdges := d.halfEdges ++
        [h.halfEdgeRecords.length, h.halfEdgeRecords.length + 1] }) ∧
      SplitInv h2 { d with halfEdges := d.halfEdges ++
        [h.halfEdgeRecords.length, h.halfEdgeRecords.length + 1] } ∧
      Walk h2 { d with halfEdges := d.halfEdges ++
        [h.halfEdgeRecords.length, h.halfEdgeRecords.length + 1] } start
        (pre ++ c :: h.halfEdgeRecords.length :: post) ∧
      h2.nextOf c = some h.halfEdgeRecords.length ∧
      h2.originOf h.halfEdgeRecords.length = some cut ∧
      h2.vertexRecords.length = h.vertexRecords.length ∧
      (∀ x : Nat, (h2.vertexRecords[x]?).map vertexRecord.coords =
        (h.vertexRecords[x]?).map vertexRecord.coords) ∧
      (∀ x ∈ pre ++ c :: post, h2.originOf x = h.originOf x) ∧
      (∀ x ∈ pre ++ c :: post, x ≠ c → ∀ t, h.twinOf x = some t →
        h2.twinOf x = some t ∧ h2.originOf t = h.originOf t) ∧
      (∃ t, h.twinOf c = some t ∧
        h2.twinOf h.halfEdgeRecords.length = some (h.halfEdgeRecords.length + 1) ∧
        h2.originOf (h.halfEdgeRecords.length + 1) = h.originOf t) := by
  have he : c ∈ d.halfEdges := w.mem c (by simp)
  obtain ⟨t, n, p, nt, pt, dv, ⟨ht, hn, hp, hnt, hpt⟩,
    ⟨a1, a2, a3, a4, a5, a6, a7, a8, a9, a10, a11, a12, a13⟩,
    ⟨d1, d2, d3, d4, d5, d6, d7, d8⟩, hdv⟩ := inv.around he
  obtain ⟨h2, r1, -, rv1, rv, rl, T, N, P, O, -⟩ := reNodeEdge_fields inv he hc a1 a2 a4 a6
  obtain ⟨h3, r2, inv2⟩ := reNodeEdge_preserves inv he hc
  have h32 : h2 = h3 := by
    have := r1.symm.trans r2
    simp only [Option.some.injEq, Prod.mk.injEq] at this
    exact this.1
  subst h32
  obtain ⟨n2, hhead, hn2, hnw⟩ := w.next_of_split
  have hnn : n2 = n := Option.some.inj (hn2.symm.trans a2)
  subst hnn
  have old : ∀ x, x ∈ d.halfEdges →
      x ≠ h.halfEdgeRecords.length ∧ x ≠ h.halfEdgeRecords.length + 1 := by
    intro x hx
    have := inv.lt_length x hx
    constructor <;> omega
  have tw : t ∉ pre ++ c :: post := w.twin_free c (by simp) t a1
  have ntw : nt ∉ pre ++ c :: post := w.twin_free n2 hnw nt a4
  have Nold : ∀ x, x ∈ pre ++ c :: post → x ≠ c → h2.nextOf x = h.nextOf x := by
    intro x hx hxc
    have o := old x (w.mem x hx)
    rw [N, if_neg o.1, if_neg o.2, if_neg (fun hh : x = nt => ntw (hh ▸ hx)), if_neg hxc]
  have Told : ∀ x, x ∈ d.halfEdges → h2.twinOf x = h.twinOf x := by
    intro x hx
    have o := old x hx
    rw [T, if_neg o.1, if_neg o.2]
  have hnd := w.nodup
  have hcpre : c ∉ pre := fun hh => by
    have := (List.nodup_append.mp hnd).2.2 hh (List.mem_cons_self _ _)
    exact this
  have hcpost : c ∉ post := fun hh => by
    have := (List.nodup_cons.mp (List.nodup_append.mp hnd).2.1).1
    exact this hh
  refine ⟨h2, r1, inv2, ?_, ?_, ?_, rv1, rv, ?_, ?_, ?_⟩
  · -- the walk
    constructor
    · have := w.head
      cases pre with
      | nil => simpa using this
      | cons x rest => simpa using this
    · have hl := w.linked
      rw [List.append_assoc, List.cons_append] at hl ⊢
      obtain ⟨hl1, hl2⟩ := List.chain'_split.mp hl
      rw [List.chain'_split]
      refine ⟨chain_sources pre c hl1 (fun x hx y hxy => ?_), ?_⟩
      · show h2.nextOf x = some y
        rw [Nold x (by simp [hx]) (fun hh => hcpre (hh ▸ hx))]
        exact hxy
      · rw [List.cons_append, List.chain'_cons, List.chain'_cons']
        refine ⟨?_, ?_, ?_⟩
        · show h2.nextOf c = some h.halfEdgeRecords.length
          rw [N, if_neg (old c he).1, if_neg (old c he).2, if_neg d4.symm, if_pos rfl]
        · intro y hy
          show h2.nextOf h.halfEdgeRecords.length = some y
          rw [N, if_pos rfl]
          rw [hhead] at hy
          simp only [Option.mem_def, Option.some.injEq] at hy
          rw [hy]
        · rw [List.chain'_cons'] at hl2
          refine chain_sources post start hl2.2 (fun x hx y hxy => ?_)
          show h2.nextOf x = some y
          rw [Nold x (by simp [hx]) (fun hh => hcpost (hh ▸ hx))]
          exact hxy
    · have hL : h.halfEdgeRecords.length ∉ pre ++ c :: post := fun hh =>
        (old _ (w.mem _ hh)).1 rfl
      have hperm : List.Perm (pre ++ c :: h.halfEdgeRecords.length :: post)
          (h.halfEdgeRecords.length :: (pre ++ c :: post)) := by
        have h1 : List.Perm (c :: h.halfEdgeRecords.length :: post)
            (h.halfEdgeRecords.length :: c :: post) := List.Perm.swap _ _ _
        exact ((List.Perm.append_left pre h1).trans List.perm_middle)
      exact hperm.nodup_iff.mpr (List.nodup_cons.mpr ⟨hL, hnd⟩)
    · intro x hx
      simp only [List.mem_append, List.mem_cons, List.mem_singleton, List.not_mem_nil,
        or_false] at hx ⊢
      rcases hx with hx | hx | hx | hx
      · exact Or.inl (w.mem x (by simp [hx]))
      · exact Or.inl (hx ▸ he)
      · exact Or.inr (Or.inl hx)
      · exact Or.inl (w.mem x (by simp [hx]))
    · intro x hx t2 ht2 hin
      have hx2 : x ∈ pre ++ c :: post ∨ x = h.halfEdgeRecords.length := by
        simp only [List.mem_append, List.mem_cons] at hx ⊢
        tauto
      have hin2 : t2 ∈ pre ++ c :: post ∨ t2 = h.halfEdgeRecords.length := by
        simp only [List.mem_append, List.mem_cons] at hin ⊢
        tauto
      rcases hx2 with hx2 | hx2
      · rw [Told x (w.mem x hx2)] at ht2
        rcases hin2 with hin2 | hin2
        · exact w.twin_free x hx2 t2 ht2 hin2
        · obtain ⟨t3, ht3, e3⟩ := inv.twin_mem x (w.mem x hx2)
          have : t3 = t2 := Option.some.inj (e3.symm.trans ht2)
          subst this
          exact (old _ ht3).1 hin2
      · subst hx2
        rw [T, if_pos rfl] at ht2
        have : t2 = h.halfEdgeRecords.length + 1 := (Option.some.inj ht2).symm
        subst this
        rcases hin2 with hin2 | hin2
        · exact (old _ (w.mem _ hin2)).2 rfl
        · omega
  · rw [N, if_neg (old c he).1, if_neg (old c he).2, if_neg d4.symm, if_pos rfl]
  · rw [O, if_pos rfl]
  · intro x hx
    have o := old x (w.mem x hx)
    rw [O, if_neg o.1, if_neg o.2, if_neg (fun hh : x = t => tw (hh ▸ hx))]
  · intro x hx hxc t2 ht2
    refine ⟨(Told x (w.mem x hx)).trans ht2, ?_⟩
    obtain ⟨t3, ht3, e3⟩ := inv.twin_mem x (w.mem x hx)
    have : t3 = t2 := Option.some.inj (e3.symm.trans ht2)
    subst this
    have o := old t3 ht3
    have hne : t3 ≠ t := by
      intro hh
      subst hh
      have b1 := inv.twin_twin x t3 (w.mem x hx) e3
      have b2 := inv.twin_twin c t3 he a1
      exact hxc (Option.some.inj (b1.symm.trans b2))
    rw [O, if_neg o.1, if_neg o.2, if_neg hne]
  · refine ⟨t, a1, ?_, ?_⟩
    · rw [T, if_pos rfl]
    · rw [O, if_neg (by omega), if_pos rfl, a6]

theorem findOrCreateVertex_spec (h : Heap) (d : doublyConnectedEdgeList) (xy : XY)
    (hv : VMapOK h d.vertices) :
    ∃ h1 vs v, findOrCreateVertex h d xy = (h1, { d with vertices := vs }, v) ∧
      h1.halfEdgeRecords = h.halfEdgeRecords ∧
      (∃ ext, h1.vertexRecords = h.vertexRecords ++ ext) ∧
      VMapOK h1 vs ∧ vs.lookup xy = some v ∧
      (∀ k w, d.vertices.lookup k = some w → vs.lookup k = some w) := by
  unfold findOrCreateVertex
  cases hl : d.vertices.lookup xy with
  | some v =>
    exact ⟨h, d.vertices, v, rfl, rfl, ⟨[], by simp⟩, hv, hl, fun _ _ hh => hh⟩
  | none =>
    refine ⟨(h.allocVertex ⟨xy, none⟩).1, d.vertices ++ [(xy, h.vertexRecords.length)],
      h.vertexRecords.length, rfl, rfl, ⟨[⟨xy, none⟩], rfl⟩, ?_, ?_, ?_⟩
    · intro k w hk
      rw [lookup_append_single] at hk
      cases hm : d.vertices.lookup k with
      | some w2 =>
        rw [hm] at hk
        simp only [Option.some.injEq] at hk
        subst hk
        obtain ⟨r, hr, hrc⟩ := hv k w2 hm
        refine ⟨r, ?_, hrc⟩
        show (h.vertexRecords ++ [⟨xy, none⟩])[w2]? = some r
        rw [List.getElem?_append_left (lt_length_of_getElem?_eq_some hr)]
        exact hr
      | none =>
        rw [hm] at hk
        by_cases hkx : k = xy
        · rw [if_pos hkx] at hk
          simp only [Option.some.injEq] at hk
          subst hk
          refine ⟨⟨xy, none⟩, ?_, hkx.symm⟩
          show (h.vertexRecords ++ [⟨xy, none⟩])[h.vertexRecords.length]? = some _
          simp
        · rw [if_neg hkx] at hk
          exact Option.noConfusion hk
    · rw [lookup_append_single, hl]
      simp
    · intro k w hk
      rw [lookup_append_single, hk]

theorem originCoords_congr {h h2 : Heap} {x y : Nat} (ho : h2.originOf x = h.originOf y)
    (hc : ∀ v : Nat, (h2.vertexRecords[v]?).map vertexRecord.coords =
      (h.vertexRecords[v]?).map vertexRecord.coords) :
    h2.originCoords x = h.originCoords y := by
  unfold Heap.originCoords
  rw [ho]
  cases h.originOf y with
  | none => rfl
  | some v => exact hc v

theorem walk_frame {h h2 : Heap} {d d2 : doublyConnectedEdgeList} {start : Nat}
    {walk : List Nat} (w : Walk h d start walk)
    (hs : h2.halfEdgeRecords = h.halfEdgeRecords) (hd : d2.halfEdges = d.halfEdges) :
    Walk h2 d2 start walk := by
  have T : ∀ x, h2.twinOf x = h.twinOf x := fun x => by simp only [Heap.twinOf, hs]
  have N : ∀ x, h2.nextOf x = h.nextOf x := fun x => by simp only [Heap.nextOf, hs]
  refine ⟨w.head, ?_, w.nodup, ?_, ?_⟩
  · exact w.linked.imp (fun {a b} hab => (N a).trans hab)
  · intro x hx; rw [hd]; exact w.mem x hx
  · intro x hx t ht; rw [T] at ht; exact w.twin_free x hx t ht

/-- The coordinates of origins and destinations of the half-edges of the list stay
when vertex records are appended. -/
theorem coords_append {h h1 : Heap} {d : doublyConnectedEdgeList} (inv : SplitInv h d)
    (hs : h1.halfEdgeRecords = h.halfEdgeRecords)
    (hx : ∃ ext, h1.vertexRecords = h.vertexRecords ++ ext) :
    (∀ x ∈ d.halfEdges, h1.originCoords x = h.originCoords x) ∧
    (∀ x ∈ d.halfEdges, h1.destCoords x = h.destCoords x) := by
  obtain ⟨ext, hext⟩ := hx
  have T : ∀ x, h1.twinOf x = h.twinOf x := fun x => by simp only [Heap.twinOf, hs]
  have O : ∀ x, h1.originOf x = h.originOf x := fun x => by simp only [Heap.originOf, hs]
  have A : ∀ x ∈ d.halfEdges, h1.originCoords x = h.originCoords x := by
    intro x hx
    obtain ⟨v, hv, e⟩ := inv.origin_some x hx
    simp only [Heap.originCoords, O, e, Option.some_bind, hext]
    rw [List.getElem?_append_left hv]
  refine ⟨A, fun x hx => ?_⟩
  obtain ⟨t, ht, e⟩ := inv.twin_mem x hx
  simp only [Heap.destCoords, T, e, Option.some_bind]
  exact A t ht

/-- One iteration of the loop "Perform cuts". -/
theorem performCut_spec {h : Heap} {d : doublyConnectedEdgeList} (inv : SplitInv h d)
    (hv : VMapOK h d.vertices) {start c : Nat} {pre post : List Nat}
    (w : Walk h d start (pre ++ c :: post)) (xy : XY) :
    ∃ h2 d2, performCut (h, d, c) xy = some (h2, d2, h.halfEdgeRecords.length) ∧
      SplitInv h2 d2 ∧ VMapOK h2 d2.vertices ∧
      Walk h2 d2 start (pre ++ c :: h.halfEdgeRecords.length :: post) ∧
      d2.halfEdges.length = d.halfEdges.length + 2 ∧
      h2.originCoords h.halfEdgeRecords.length = some xy ∧
      (∀ x ∈ pre ++ c :: post, h2.originCoords x = h.originCoords x) ∧
      (∀ x ∈ pre ++ c :: post, x ≠ c → h2.destCoords x = h.destCoords x) ∧
      h2.destCoords h.halfEdgeRecords.length = h.destCoords c ∧
      (∀ k v, d.vertices.lookup k = some v → d2.vertices.lookup k = some v) ∧
      (∃ v, d2.vertices.lookup xy = some v) := by
  obtain ⟨h1, vs, v, e1, hs, hext, hv1, hl, hp⟩ := findOrCreateVertex_spec h d xy hv
  have inv1 : SplitInv h1 { d with vertices := vs } := by
    obtain ⟨ext, he⟩ := hext
    exact splitInv_frame inv hs (by rw [he]; simp) rfl
  have w1 : Walk h1 { d with vertices := vs } start (pre ++ c :: post) := walk_frame w hs rfl
  obtain ⟨r, hr, hrc⟩ := hv1 xy v hl
  have hvlt : v < h1.vertexRecords.length := lt_length_of_getElem?_eq_some hr
  obtain ⟨h2, e2, inv2, w2, n2, o2, -, rv, O, TD, ⟨t, tc, tL, oL⟩⟩ := cut_walk inv1 w1 hvlt
  have hlen : h1.halfEdgeRecords.length = h.halfEdgeRecords.length := by rw [hs]
  rw [hlen] at e2 inv2 w2 n2 o2 tL oL
  obtain ⟨A, B⟩ := coords_append inv hs hext
  have T1 : ∀ x, h1.twinOf x = h.twinOf x := fun x => by simp only [Heap.twinOf, hs]
  refine ⟨h2, _, ?_, inv2, vmapOK_of_coords hv1 rv, w2, ?_, ?_, ?_, ?_, ?_, hp, ⟨v, hl⟩⟩
  · simp only [performCut, e1, Option.bind_eq_bind, Option.pure_def]
    rw [e2]
    simp only [Option.some_bind, n2]
  · simp
  · simp only [Heap.originCoords, o2, Option.some_bind]
    have := rv v
    rw [hr] at this
    rw [this]
    simp [hrc]
  · intro x hx
    rw [← A x (w.mem x hx)]
    exact originCoords_congr (O x hx) rv
  · intro x hx hxc
    rw [← B x (w.mem x hx)]
    obtain ⟨t2, ht2, e⟩ := inv1.twin_mem x (w1.mem x hx)
    obtain ⟨q1, q2⟩ := TD x hx hxc t2 e
    simp only [Heap.destCoords, q1, e, Option.some_bind]
    exact originCoords_congr q2 rv
  · rw [← B c (w.mem c (by simp))]
    simp only [Heap.destCoords, tL, tc, Option.some_bind]
    exact originCoords_congr oL rv

/-- The loop "Perform cuts" on the half-edge `c` of a walk: the new half-edges come
after `c` in the walk, their origins are the cut points in order, and the last one
has the destination `c` had. -/
theorem performCuts_spec : ∀ (xs : List XY) {h : Heap} {d : doublyConnectedEdgeList}
    (_ : SplitInv h d) (_ : VMapOK h d.vertices) {start c : Nat} {pre post : List Nat}
    (_ : Walk h d start (pre ++ c :: post)),
    ∃ h2 d2 news c2, performCuts xs (h, d, c) = some (h2, d2, c2) ∧
      SplitInv h2 d2 ∧ VMapOK h2 d2.vertices ∧
      Walk h2 d2 start (pre ++ (c :: news) ++ post) ∧
      (c :: news).getLast? = some c2 ∧
      d2.halfEdges.length = d.halfEdges.length + 2 * xs.length ∧
      news.map h2.originCoords = xs.map some ∧
      (∀ x ∈ pre ++ c :: post, h2.originCoords x = h.originCoords x) ∧
      (∀ x ∈ pre ++ post, h2.destCoords x = h.destCoords x) ∧
      h2.destCoords c2 = h.destCoords c ∧
      (∀ k v, d.vertices.lookup k = some v → d2.vertices.lookup k = some v) ∧
      (∀ x ∈ xs, ∃ v, d2.vertices.lookup x = some v) := by
  intro xs
  induction xs with
  | nil =>
    intro h d inv hv start c pre post w
    refine ⟨h, d, [], c, rfl, inv, hv, by simpa using w, rfl, rfl, rfl, fun _ _ => rfl,
      fun _ _ => rfl, rfl, fun _ _ hh => hh, fun x hx => by simp at hx⟩
  | cons xy rest ih =>
    intro h d inv hv start c pre post w
    obtain ⟨h1, d1, e1, inv1, hv1, w1, l1, o1, O1, D1, dL, p1, q1⟩ :=
      performCut_spec inv hv w xy
    have w1b : Walk h1 d1 start ((pre ++ [c]) ++ h.halfEdgeRecords.length :: post) := by
      simpa using w1
    obtain ⟨h2, d2, news, c2, e2, inv2, hv2, w2, g2, l2, o2, O2, D2, dc2, p2, q2⟩ :=
      ih inv1 hv1 w1b
    have hcnot : c ∉ pre ++ post := by
      have hnd := w.nodup
      intro hh
      rcases List.mem_append.mp hh with hh | hh
      · exact (List.nodup_append.mp hnd).2.2 hh (List.mem_cons_self _ _)
      · exact (List.nodup_cons.mp (List.nodup_append.mp hnd).2.1).1 hh
    refine ⟨h2, d2, h.halfEdgeRecords.length :: news, c2, ?_, inv2, hv2, ?_, ?_, ?_, ?_, ?_,
      ?_, ?_, ?_, ?_⟩
    · simp only [performCuts, List.foldlM_cons, Option.bind_eq_bind, e1, Option.some_bind]
      exact e2
    · simpa using w2
    · rw [List.getLast?_cons_cons]; exact g2
    · rw [l2, l1, List.length_cons]; ring
    · rw [List.map_cons, List.map_cons, o2]
      congr 1
      rw [O2 _ (by simp)]
      exact o1
    · intro x hx
      rw [O2 x (by
        simp only [List.mem_append, List.mem_cons, List.mem_singleton] at hx ⊢
        tauto)]
      exact O1 x hx
    · intro x hx
      rw [D2 x (by
        simp only [List.mem_append, List.mem_cons, List.mem_singleton] at hx ⊢
        tauto)]
      exact D1 x (by
        simp only [List.mem_append, List.mem_cons] at hx ⊢
        tauto) (fun hh => hcnot (hh ▸ hx))
    · rw [dc2]; exact dL
    · intro k v hk; exact p2 k v (p1 k v hk)
    · intro x hx
      rcases List.mem_cons.mp hx with hx | hx
      · obtain ⟨v, hvv⟩ := q1
        exact ⟨v, hx ▸ p2 xy v hvv⟩
      · exact q2 x hx

theorem edgeLine_congr {h h2 : Heap} {x : Nat} (ho : h2.originCoords x = h.originCoords x)
    (hd : h2.destCoords x = h.destCoords x) : edgeLine h2 x = edgeLine h x := by
  cases hl : edgeLine h x with
  | some ln =>
    rw [edgeLine_eq_some] at hl ⊢
    rw [ho, hd]; exact hl
  | none =>
    cases hl2 : edgeLine h2 x with
    | none => rfl
    | some ln =>
      rw [edgeLine_eq_some, ho, hd, ← edgeLine_eq_some, hl] at hl2
      exact Option.noConfusion hl2

theorem ChainFor.persist {search : line → List line} {h h2 : Heap}
    {d d2 : doublyConnectedEdgeList} {e : Nat} {ln : line} {chain : List Nat}
    (cf : ChainFor search h d e ln chain)
    (ho : ∀ x ∈ chain, h2.originCoords x = h.originCoords x)
    (hd : ∀ x ∈ chain, h2.destCoords x = h.destCoords x)
    (hv : VMapOK h2 d2.vertices)
    (hp : ∀ k v, d.vertices.lookup k = some v → d2.vertices.lookup k = some v) :
    ChainFor search h2 d2 e ln chain := by
  refine ⟨cf.head, ?_, ?_, ?_⟩
  · rw [← cf.origins]
    exact List.map_congr_left ho
  · obtain ⟨l, hl, hdl⟩ := cf.last
    exact ⟨l, hl, (hd l (List.mem_of_mem_getLast? hl)).trans hdl⟩
  · intro x hx
    obtain ⟨v, r, hl, -, -⟩ := cf.vertices x hx
    obtain ⟨r2, hr2, hc2⟩ := hv x v (hp x v hl)
    exact ⟨v, r2, hp x v hl, hr2, hc2⟩

/-- The body of the loop of `reNodeComponent` at the half-edge `c` of a walk. -/
theorem reNodeComponentStep_spec (search : line → List line) {h : Heap}
    {d : doublyConnectedEdgeList} (inv : SplitInv h d) (hv : VMapOK h d.vertices)
    {start c : Nat} {pre post : List Nat} (w : Walk h d start (pre ++ c :: post))
    {ln : line} (hln : edgeLine h c = some ln) :
    ∃ h2 d2 chain n, reNodeComponentStep search h d c = some (h2, d2, n) ∧
      (post ++ [start]).head? = some n ∧
      SplitInv h2 d2 ∧ VMapOK h2 d2.vertices ∧
      Walk h2 d2 start (pre ++ chain ++ post) ∧
      ChainFor search h2 d2 c ln chain ∧
      d2.halfEdges.length = d.halfEdges.length + 2 * (cutPoints search ln).length ∧
      (∀ x ∈ pre ++ post, h2.originCoords x = h.originCoords x ∧
        h2.destCoords x = h.destCoords x) ∧
      (∀ k v, d.vertices.lookup k = some v → d2.vertices.lookup k = some v) := by
  obtain ⟨h2, d2, news, c2, e2, inv2, hv2, w2, g2, l2, o2, O2, D2, dc2, p2, q2⟩ :=
    performCuts_spec (cutPoints search ln) inv hv w
  obtain ⟨ha, hb⟩ := edgeLine_eq_some.mp hln
  -- the half-edge after the chain
  have hsplit : c :: news = (c :: news).dropLast ++ [c2] := by
    have hne : c :: news ≠ [] := by simp
    have := List.dropLast_append_getLast hne
    rw [List.getLast?_eq_getLast _ hne] at g2
    rw [← Option.some.inj g2]
    exact this.symm
  have w3 : Walk h2 d2 start ((pre ++ (c :: news).dropLast) ++ c2 :: post) := by
    have : (pre ++ (c :: news).dropLast) ++ c2 :: post = pre ++ (c :: news) ++ post := by
      conv_rhs => rw [hsplit]
      simp
    rw [this]; exact w2
  obtain ⟨n, hn1, hn2, -⟩ := w3.next_of_split
  refine ⟨h2, d2, c :: news, n, ?_, hn1, inv2, hv2, w2, ?_, l2, ?_, p2⟩
  · simp only [reNodeComponentStep, hln, Option.bind_eq_bind, Option.some_bind, Option.pure_def]
    rw [e2]
    simp only [Option.some_bind, hn2]
  · refine ⟨rfl, ?_, ⟨c2, g2, dc2.trans hb⟩, ?_⟩
    · rw [List.map_cons, List.map_cons, o2, O2 c (by simp), ha]
    · intro x hx
      obtain ⟨v, hl⟩ := q2 x hx
      obtain ⟨r, hr, hc⟩ := hv2 x v hl
      exact ⟨v, r, hl, hr, hc⟩
  · intro x hx
    refine ⟨O2 x ?_, D2 x hx⟩
    simp only [List.mem_append, List.mem_cons] at hx ⊢
    tauto

/-! ## The loop of reNodeComponent -/

/-- The loop of `reNodeComponent` from the half-edge `c` of a walk on: with
`todo` the half-edges of the walk after `c`, it returns after `todo.length + 1`
iterations, and each of these half-edges has been replaced by its chain. -/
theorem reNodeComponentLoop_spec (search : line → List line) (start : Nat) (h0 : Heap) :
    ∀ (todo : List Nat) (h : Heap) (d : doublyConnectedEdgeList) (pre : List Nat) (c : Nat),
      SplitInv h d → VMapOK h d.vertices → Walk h d start (pre ++ c :: todo) →
      (∀ x ∈ c :: todo, ∃ ln, edgeLine h0 x = some ln ∧ edgeLine h x = some ln) →
      ∀ fuel, todo.length < fuel →
      ∃ (hF : Heap) (dF : doublyConnectedEdgeList) (cs : List (List Nat)),
        reNodeComponentLoop search start fuel h d c = some (hF, dF) ∧
        SplitInv hF dF ∧ VMapOK hF dF.vertices ∧
        Walk hF dF start (pre ++ cs.flatten) ∧
        cs.length = todo.length + 1 ∧
        dF.halfEdges.length =
          d.halfEdges.length + 2 * ((c :: todo).map (cutCount search h0)).sum ∧
        (∀ (i : Nat) (e : Nat), (c :: todo)[i]? = some e → ∃ ln chain, edgeLine h0 e = some ln ∧
          cs[i]? = some chain ∧ ChainFor search hF dF e ln chain) ∧
        (∀ x ∈ pre, hF.originCoords x = h.originCoords x ∧
          hF.destCoords x = h.destCoords x) ∧
        (∀ k v, d.vertices.lookup k = some v → dF.vertices.lookup k = some v) := by
  intro todo
  induction todo with
  | nil =>
    intro h d pre c inv hv w hl fuel hf
    obtain ⟨ln, hl0, hl1⟩ := hl c (by simp)
    obtain ⟨h2, d2, chain, n, e2, hn, inv2, hv2, w2, cf, l2, OD, p2⟩ :=
      reNodeComponentStep_spec search inv hv w hl1
    have hns : n = start := by
      simp only [List.nil_append, List.head?_cons, Option.some.injEq] at hn
      exact hn.symm
    obtain ⟨f, rfl⟩ : ∃ f, fuel = f + 1 := ⟨fuel - 1, by omega⟩
    refine ⟨h2, d2, [chain], ?_, inv2, hv2, by simpa using w2, rfl, ?_, ?_, ?_, p2⟩
    · simp only [reNodeComponentLoop, e2, Option.bind_eq_bind, Option.some_bind, hns,
        if_true, Option.pure_def]
    · simp only [List.map_cons, List.map_nil, List.sum_cons, List.sum_nil, add_zero,
        cutCount, hl0]
      exact l2
    · intro i e hi
      cases i with
      | zero =>
        simp only [List.getElem?_cons_zero, Option.some.injEq] at hi
        subst hi
        exact ⟨ln, chain, hl0, by simp, cf⟩
      | succ j => simp at hi
    · intro x hx
      exact OD x (by simp [hx])
  | cons c1 todo ih =>
    intro h d pre c inv hv w hl fuel hf
    obtain ⟨ln, hl0, hl1⟩ := hl c (by simp)
    obtain ⟨h2, d2, chain, n, e2, hn, inv2, hv2, w2, cf, l2, OD, p2⟩ :=
      reNodeComponentStep_spec search inv hv w hl1
    have hnc : n = c1 := by
      simp only [List.cons_append, List.head?_cons, Option.some.injEq] at hn
      exact hn.symm
    subst hnc
    -- the next half-edge is not `start`
    have hstart : start ∈ pre ++ chain := by
      have hh := w2.head
      have hc := cf.head
      cases pre with
      | nil =>
        cases chain with
        | nil => simp at hc
        | cons y ys =>
          simp only [List.nil_append, List.cons_append, List.head?_cons,
            Option.some.injEq] at hh
          simp [hh]
      | cons y ys =>
        simp only [List.cons_append, List.head?_cons, Option.some.injEq] at hh
        simp [hh]
    have hne : n ≠ start := by
      intro hh
      have hnd := w2.nodup
      exact (List.nodup_append.mp hnd).2.2 hstart (by simp [hh])
    obtain ⟨f, rfl⟩ : ∃ f, fuel = f + 1 := ⟨fuel - 1, by omega⟩
    have w3 : Walk h2 d2 start ((pre ++ chain) ++ n :: todo) := w2
    obtain ⟨hF, dF, cs, eF, invF, hvF, wF, lenF, lF, chF, ODF, pF⟩ :=
      ih h2 d2 (pre ++ chain) n inv2 hv2 w3 (fun x hx => by
        obtain ⟨lx, hx0, hx1⟩ := hl x (List.mem_cons_of_mem _ hx)
        have hxm : x ∈ pre ++ n :: todo := by
          simp only [List.mem_append, List.mem_cons] at hx ⊢
          tauto
        exact ⟨lx, hx0, (edgeLine_congr (OD x hxm).1 (OD x hxm).2).trans hx1⟩) f
        (by simp only [List.length_cons] at hf; omega)
    refine ⟨hF, dF, chain :: cs, ?_, invF, hvF, by simpa using wF, by simp [lenF], ?_, ?_, ?_,
      fun k v hk => pF k v (p2 k v hk)⟩
    · simp only [reNodeComponentLoop, e2, Option.bind_eq_bind, Option.some_bind, if_neg hne]
      exact eF
    · rw [lF, l2]
      simp only [List.map_cons, List.sum_cons, cutCount, hl0]
      ring
    · intro i e hi
      cases i with
      | zero =>
        simp only [List.getElem?_cons_zero, Option.some.injEq] at hi
        subst hi
        refine ⟨ln, chain, hl0, by simp, cf.persist ?_ ?_ hvF pF⟩
        · intro x hx; exact (ODF x (by simp [hx])).1
        · intro x hx; exact (ODF x (by simp [hx])).2
      | succ j =>
        simp only [List.getElem?_cons_succ] at hi ⊢
        exact chF j e hi
    · intro x hx
      have a := ODF x (by simp [hx])
      have b := OD x (by simp [hx])
      exact ⟨a.1.trans b.1, a.2.trans b.2⟩

/-! ## The range search and checks -/

theorem envelope_bounds (ln : line) :
    ln.envelope.min.X = min ln.a.X ln.b.X ∧ ln.envelope.max.X = max ln.a.X ln.b.X ∧
    ln.envelope.min.Y = min ln.a.Y ln.b.Y ∧ ln.envelope.max.Y = max ln.a.Y ln.b.Y := by
  simp only [line.envelope, gt_iff_lt]
  by_cases hx : ln.b.X < ln.a.X
  · by_cases hy : ln.b.Y < ln.a.Y
    · simp only [hx, hy, if_true]
      exact ⟨(min_eq_right hx.le).symm, (max_eq_left hx.le).symm,
        (min_eq_right hy.le).symm, (max_eq_left hy.le).symm⟩
    · simp only [hx, hy, if_true, if_false]
      exact ⟨(min_eq_right hx.le).symm, (max_eq_left hx.le).symm,
        (min_eq_left (not_lt.mp hy)).symm, (max_eq_right (not_lt.mp hy)).symm⟩
  · by_cases hy : ln.b.Y < ln.a.Y
    · simp only [hx, hy, if_true, if_false]
      exact ⟨(min_eq_left (not_lt.mp hx)).symm, (max_eq_right (not_lt.mp hx)).symm,
        (min_eq_right hy.le).symm, (max_eq_left hy.le).symm⟩
    · simp only [hx, hy, if_false]
      exact ⟨(min_eq_left (not_lt.mp hx)).symm, (max_eq_right (not_lt.mp hx)).symm,
        (min_eq_left (not_lt.mp hy)).symm, (max_eq_right (not_lt.mp hy)).symm⟩

theorem inClosedSegment_in_envelope {ln : line} {p : XY} (h : InClosedSegment ln.a ln.b p) :
    ln.envelope.min.X ≤ p.X ∧ p.X ≤ ln.envelope.max.X ∧
    ln.envelope.min.Y ≤ p.Y ∧ p.Y ≤ ln.envelope.max.Y := by
  obtain ⟨e1, e2, e3, e4⟩ := envelope_bounds ln
  have := (onSegment_iff _ _ _).mp (onSegment_of_inClosedSegment h)
  rw [e1, e2, e3, e4]
  exact ⟨this.1.1, this.1.2, this.2.1, this.2.2⟩

theorem intersectLine_points_on_lines {ln s : line} (hab : ln.a ≠ ln.b) (hcd : s.a ≠ s.b)
    (hne : (ln.intersectLine s).empty = false) :
    (InClosedSegment ln.a ln.b (ln.intersectLine s).ptA ∧
      InClosedSegment s.a s.b (ln.intersectLine s).ptA) ∧
    (InClosedSegment ln.a ln.b (ln.intersectLine s).ptB ∧
      InClosedSegment s.a s.b (ln.intersectLine s).ptB) := by
  cases ln; cases s
  exact intersectLine_points_on hab hcd hne

theorem intersectLine_nonempty_of_common {ln s : line} (hab : ln.a ≠ ln.b) (hcd : s.a ≠ s.b)
    {p : XY} (h1 : InClosedSegment ln.a ln.b p) (h2 : InClosedSegment s.a s.b p) :
    (ln.intersectLine s).empty = false := by
  cases ln; cases s
  have := intersectLine_empty_iff _ _ _ _ hab hcd
  cases he : (line.intersectLine _ _).empty
  · rfl
  · exact absurd ⟨p, h1, h2⟩ (this.mp he)

/-- The range search by envelopes reports boundary segments only, and every
boundary segment that intersects the line. -/
theorem rangeSearch_spec (lines : List line) (hl : ∀ s ∈ lines, s.a ≠ s.b) :
    (∀ ln s, s ∈ rangeSearch lines ln → s ∈ lines) ∧
    (∀ ln s, ln.a ≠ ln.b → s ∈ lines → (ln.intersectLine s).empty = false →
      s ∈ rangeSearch lines ln) := by
  constructor
  · intro ln s hs
    exact (List.mem_filter.mp hs).1
  · intro ln s hab hs hne
    refine List.mem_filter.mpr ⟨hs, ?_⟩
    obtain ⟨⟨p1, p2⟩, -⟩ := intersectLine_points_on_lines hab (hl s hs) hne
    obtain ⟨a1, a2, a3, a4⟩ := inClosedSegment_in_envelope p1
    obtain ⟨b1, b2, b3, b4⟩ := inClosedSegment_in_envelope p2
    simp only [Envelope.intersects, decide_eq_true_eq]
    exact ⟨le_trans a1 b2, le_trans b1 a2, le_trans a3 b4, le_trans b3 a4⟩

theorem chain_of_zip {R : Nat → Nat → Prop} : ∀ (l : List Nat) (z : Nat),
    (∀ ab ∈ l.zip (l.tail ++ [z]), R ab.1 ab.2) → List.Chain' R (l ++ [z]) := by
  intro l
  induction l with
  | nil => intro z _; simp
  | cons x rest ih =>
    intro z hz
    cases rest with
    | nil =>
      simp only [List.nil_append, List.cons_append, List.chain'_cons, List.chain'_singleton,
        and_true]
      exact hz (x, z) (by simp)
    | cons y ys =>
      rw [List.cons_append, List.cons_append, List.chain'_cons]
      refine ⟨hz (x, y) (by simp), ?_⟩
      have := ih z (fun ab hab => hz ab (by
        simp only [List.tail_cons, List.cons_append, List.zip_cons_cons, List.mem_cons] at hab ⊢
        exact Or.inr hab))
      simpa using this

theorem walk_of_check {h : Heap} {d : doublyConnectedEdgeList} {start : Nat} {walk : List Nat}
    (hc : walkCheck h d start walk = true) : Walk h d start walk := by
  simp only [walkCheck, Bool.and_eq_true, decide_eq_true_eq, List.all_eq_true] at hc
  obtain ⟨⟨⟨⟨h1, h2⟩, h3⟩, h4⟩, h5⟩ := hc
  refine ⟨h1, chain_of_zip walk start h2, h3, h4, ?_⟩
  intro x hx t ht
  have := h5 x hx
  rw [ht] at this
  simpa using this

/-! ## Claim C9 -/

/-- C9, amended: in a DCEL with the split invariant and a vertex map that points at
records with the right coordinates, for a cycle of `next` from `start` that holds no
half-edge together with its twin and whose edges have distinct end points, and a
range search that reports the boundary segments intersecting a line,
`reNodeComponent` returns once the fuel covers the cycle. Afterwards every
half-edge `e = (u,v)` of the cycle has been replaced by a chain of `|X| + 1`
half-edges linked by `next`, beginning with `e`, with origins `u` and then the
points of `X` in order from `u` to `v`, the last ending at `v`; every point of `X`
has a vertex record in `d.vertices`; the half-edge list has grown by `2·|X|` for
each edge; the pointer laws hold. Here `X` is the set of points other than `u`, `v`
that `intersectLine` reports for `uv` against the boundary segments: each lies on
`uv` and on a boundary segment, and a point in which `uv` meets a boundary segment
in that point alone is in `X`. -/
theorem C9_reNodeComponent_chains (search : line → List line) (lines : List line)
    (hsub : ∀ ln s, s ∈ search ln → s ∈ lines)
    (hall : ∀ ln s, ln.a ≠ ln.b → s ∈ lines → (ln.intersectLine s).empty = false →
      s ∈ search ln)
    (hlines : ∀ s ∈ lines, s.a ≠ s.b)
    (h : Heap) (d : doublyConnectedEdgeList) (inv : SplitInv h d) (hv : VMapOK h d.vertices)
    (start : Nat) (cyc : List Nat) (w : Walk h d start cyc)
    (hedges : ∀ e ∈ cyc, ∃ ln, edgeLine h e = some ln ∧ ln.a ≠ ln.b)
    (fuel : Nat) (hfuel : cyc.length ≤ fuel) :
    ∃ (hF : Heap) (dF : doublyConnectedEdgeList) (cs : List (List Nat)),
      reNodeComponent search fuel h d start = some (hF, dF) ∧
      (∀ e ∈ dF.halfEdges, PointerLaws hF e) ∧
      Walk hF dF start cs.flatten ∧ cs.length = cyc.length ∧
      dF.halfEdges.length = d.halfEdges.length + 2 * (cyc.map (cutCount search h)).sum ∧
      ∀ (i e : Nat), cyc[i]? = some e → ∃ ln chain, edgeLine h e = some ln ∧
        cs[i]? = some chain ∧
        chain.length = (cutPoints search ln).length + 1 ∧
        List.Chain' (fun a b => hF.nextOf a = some b) chain ∧
        ChainFor search hF dF e ln chain ∧
        (∀ x, x ∈ cutPoints search ln ↔
          (x ≠ ln.a ∧ x ≠ ln.b ∧ ∃ s ∈ lines, (ln.intersectLine s).empty = false ∧
            (x = (ln.intersectLine s).ptA ∨ x = (ln.intersectLine s).ptB))) ∧
        (cutPoints search ln).Pairwise
          (fun p q => lineParam ln.a ln.b p < lineParam ln.a ln.b q) ∧
        (∀ x ∈ cutPoints search ln, ∃ s ∈ lines,
          InClosedSegment ln.a ln.b x ∧ InClosedSegment s.a s.b x) ∧
        (∀ x s, x ≠ ln.a → x ≠ ln.b → s ∈ lines → InClosedSegment ln.a ln.b x →
          InClosedSegment s.a s.b x →
          (∀ q, InClosedSegment ln.a ln.b q → InClosedSegment s.a s.b q → q = x) →
          x ∈ cutPoints search ln) := by
  obtain ⟨todo, rfl⟩ : ∃ todo, cyc = start :: todo := by
    have := w.head
    cases cyc with
    | nil => simp at this
    | cons x rest =>
      simp only [List.head?_cons, Option.some.injEq] at this
      exact ⟨rest, by rw [this]⟩
  obtain ⟨hF, dF, cs, eF, invF, -, wF, lenF, lF, chF, -, -⟩ :=
    reNodeComponentLoop_spec search start h todo h d [] start inv hv w
      (fun x hx => by
        obtain ⟨ln, hl, -⟩ := hedges x hx
        exact ⟨ln, hl, hl⟩) fuel (by simpa using hfuel)
  refine ⟨hF, dF, cs, eF, fun e he => invF.pointerLaws he, by simpa using wF, by simpa using lenF,
    lF, ?_⟩
  intro i e hi
  obtain ⟨ln, chain, hl, hc, cf⟩ := chF i e hi
  obtain ⟨ln2, hl2, hab⟩ := hedges e (List.getElem?_mem hi)
  obtain rfl : ln2 = ln := Option.some.inj (hl2.symm.trans hl)
  have hcs : ∀ s ∈ search ln2, s.a ≠ s.b := fun s hs => hlines s (hsub ln2 s hs)
  obtain ⟨-, hmem, hsorted, -⟩ := cutPoints_spec search ln2 hab hcs
  have hmem2 : ∀ x, x ∈ cutPoints search ln2 ↔
      (x ≠ ln2.a ∧ x ≠ ln2.b ∧ ∃ s ∈ lines, (ln2.intersectLine s).empty = false ∧
        (x = (ln2.intersectLine s).ptA ∨ x = (ln2.intersectLine s).ptB)) := by
    intro x
    rw [hmem]
    constructor
    · rintro ⟨h1, h2, s, hs, h3⟩
      exact ⟨h1, h2, s, hsub ln2 s hs, h3⟩
    · rintro ⟨h1, h2, s, hs, h3⟩
      exact ⟨h1, h2, s, hall ln2 s hab hs h3.1, h3⟩
  refine ⟨ln2, chain, hl, hc, ?_, ?_, cf, hmem2, hsorted, ?_, ?_⟩
  · have := congrArg List.length cf.origins
    simpa using this
  · have hin : chain <:+: cs.flatten ++ [start] :=
      (List.infix_of_mem_flatten (List.getElem?_mem hc)).trans
        (List.prefix_append _ _).isInfix
    have hlk := wF.linked
    simp only [List.nil_append] at hlk
    exact hlk.infix hin
  · intro x hx
    obtain ⟨-, -, s, hs, hne, hpt⟩ := (hmem2 x).mp hx
    have := intersectLine_points_on_lines hab (hlines s hs) hne
    rcases hpt with hpt | hpt
    · exact ⟨s, hs, hpt ▸ this.1.1, hpt ▸ this.1.2⟩
    · exact ⟨s, hs, hpt ▸ this.2.1, hpt ▸ this.2.2⟩
  · intro x s hxa hxb hs h1 h2 huniq
    have hne := intersectLine_nonempty_of_common hab (hlines s hs) h1 h2
    have := intersectLine_points_on_lines hab (hlines s hs) hne
    exact (hmem2 x).mpr ⟨hxa, hxb, s, hs, hne, Or.inl (huniq _ this.1.1 this.1.2).symm⟩

theorem shiftedSquare_facts :
    ((newDCELFromPolygon Heap.empty unitSquare true).all
      (fun s => walkCheck s.1 s.2 0 [0, 2, 4, 6] &&
        decide (edgeLine s.1 0 = some ⟨⟨0, 0⟩, ⟨1, 0⟩⟩) &&
        [0, 2, 4, 6].all (fun e => match edgeLine s.1 e with
          | some ln => decide (ln.a ≠ ln.b)
          | none => false))) = true := by
  with_unfolding_all decide

theorem shiftedSquare_run :
    (((newDCELFromPolygon Heap.empty unitSquare true).bind
      (fun s => reNodeComponent (rangeSearch shiftedSquareLines) 4 s.1 s.2 0)).any
      (fun s => s.2.halfEdges.all (fun e => decide (s.1.originCoords e ≠ some ⟨3/4, 0⟩)))) =
      true := by
  with_unfolding_all decide

theorem shiftedSquareLines_ne : ∀ s ∈ shiftedSquareLines, s.a ≠ s.b := by
  with_unfolding_all decide

/-- C9, as stated, fails where an edge overlaps a boundary segment: the edge from
(0,0) to (1,0) of the unit square meets the boundary segment from (1/2,0) to
(3/2,0) in the point (3/4,0), which is neither end point, and after
`reNodeComponent` no half-edge has its origin there. -/
theorem C9_overlap_counterexample :
    ∃ h d hF dF, newDCELFromPolygon Heap.empty unitSquare true = some (h, d) ∧
      reNodeComponent (rangeSearch shiftedSquareLines) 4 h d 0 = some (hF, dF) ∧
      edgeLine h 0 = some ⟨⟨0, 0⟩, ⟨1, 0⟩⟩ ∧
      (XY.mk (3/4) 0 ≠ ⟨0, 0⟩ ∧ XY.mk (3/4) 0 ≠ ⟨1, 0⟩ ∧
        InClosedSegment ⟨0, 0⟩ ⟨1, 0⟩ ⟨3/4, 0⟩ ∧
        ∃ s ∈ shiftedSquareLines, InClosedSegment s.a s.b ⟨3/4, 0⟩) ∧
      ∀ e ∈ dF.halfEdges, hF.originCoords e ≠ some ⟨3/4, 0⟩ := by
  obtain ⟨h, d, e, -, -⟩ := newDCELFromPolygon_inv Heap.empty unitSquare true unitSquare_closed
  have hf := shiftedSquare_facts
  have hr := shiftedSquare_run
  rw [e] at hf hr
  simp only [Option.all_some, Bool.and_eq_true, decide_eq_true_eq] at hf
  simp only [Option.some_bind] at hr
  cases hres : reNodeComponent (rangeSearch shiftedSquareLines) 4 h d 0 with
  | none => rw [hres] at hr; simp at hr
  | some s =>
    rw [hres] at hr
    simp only [Option.any_some, List.all_eq_true, decide_eq_true_eq] at hr
    refine ⟨h, d, s.1, s.2, e, hres, hf.1.2, ⟨?_, ?_, ?_, ?_⟩, hr⟩
    · rw [Ne, XY.eq_iff]; norm_num
    · rw [Ne, XY.eq_iff]; norm_num
    · exact ⟨3/4, by norm_num, by norm_num, by
        rw [XY.eq_iff]; norm_num [XY.Sub, XY.Scale, XY.Add]⟩
    · refine ⟨⟨⟨1/2, 0⟩, ⟨3/2, 0⟩⟩, by simp [shiftedSquareLines], 1/4, by norm_num,
        by norm_num, ?_⟩
      rw [XY.eq_iff]; norm_num [XY.Sub, XY.Scale, XY.Add]

/-- C9 at the unit square, re-noded against the square moved by 1/2 to the right. -/
theorem C9_reNodeComponent_chains_witness :
    ∃ h d, newDCELFromPolygon Heap.empty unitSquare true = some (h, d) ∧
      SplitInv h d ∧ VMapOK h d.vertices ∧ Walk h d 0 [0, 2, 4, 6] ∧
      (∀ e ∈ [0, 2, 4, 6], ∃ ln, edgeLine h e = some ln ∧ ln.a ≠ ln.b) ∧
      ∃ (hF : Heap) (dF : doublyConnectedEdgeList) (cs : List (List Nat)),
        reNodeComponent (rangeSearch shiftedSquareLines) 4 h d 0 = some (hF, dF) ∧
        (∀ e ∈ dF.halfEdges, PointerLaws hF e) ∧
        Walk hF dF 0 cs.flatten ∧ cs.length = 4 ∧
        dF.halfEdges.length = d.halfEdges.length +
          2 * (([0, 2, 4, 6] : List Nat).map
            (cutCount (rangeSearch shiftedSquareLines) h)).sum := by
  obtain ⟨h, d, e, inv, hv⟩ := newDCELFromPolygon_inv Heap.empty unitSquare true unitSquare_closed
  have hf := shiftedSquare_facts
  rw [e] at hf
  simp only [Option.all_some, Bool.and_eq_true, decide_eq_true_eq, List.all_eq_true] at hf
  have w := walk_of_check hf.1.1
  have hedges : ∀ e ∈ ([0, 2, 4, 6] : List Nat), ∃ ln, edgeLine h e = some ln ∧ ln.a ≠ ln.b := by
    intro x hx
    have := hf.2 x hx
    cases hl : edgeLine h x with
    | none => rw [hl] at this; simp at this
    | some ln =>
      rw [hl] at this
      exact ⟨ln, rfl, by simpa using this⟩
  have hs := rangeSearch_spec shiftedSquareLines shiftedSquareLines_ne
  obtain ⟨hF, dF, cs, r1, r2, r3, r4, r5, -⟩ :=
    C9_reNodeComponent_chains (rangeSearch shiftedSquareLines) shiftedSquareLines hs.1 hs.2
      shiftedSquareLines_ne h d inv hv 0 [0, 2, 4, 6] w hedges 4 (by simp)
  exact ⟨h, d, e, inv, hv, w, hedges, hF, dF, cs, r1, r2, r3, r4, r5⟩

/-! ## Point in ring -/

theorem lineHoldsPoint_of_inClosedSegment {ln : line} {pt : XY}
    (h : InClosedSegment ln.a ln.b pt) : lineHoldsPoint ln pt = true := by
  simp only [lineHoldsPoint, Bool.and_eq_true, decide_eq_true_eq]
  exact ⟨(orientation_collinear_iff _ _ _).mpr (crossProduct_of_inClosedSegment h),
    onSegment_of_inClosedSegment h⟩

theorem findMaxX_none (pt : XY) : ∀ (lines : List line) (m : ℚ),
    (∃ ln ∈ lines, lineHoldsPoint ln pt = true) → findMaxX pt m lines = none := by
  intro lines
  induction lines with
  | nil => intro m h; obtain ⟨ln, hl, -⟩ := h; simp at hl
  | cons l rest ih =>
    intro m h
    simp only [findMaxX]
    by_cases hl : lineHoldsPoint l pt = true
    · rw [if_pos hl]
    · rw [if_neg hl]
      obtain ⟨ln, hmem, hh⟩ := h
      rcases List.mem_cons.mp hmem with h1 | h1
      · subst h1; exact absurd hh hl
      · exact ih _ ⟨ln, h1, hh⟩

theorem findMaxX_some (pt : XY) : ∀ (lines : List line) (m : ℚ),
    (∀ ln ∈ lines, lineHoldsPoint ln pt = false) →
    findMaxX pt m lines = some (lines.foldl (fun k ln => max k ln.b.X) m) := by
  intro lines
  induction lines with
  | nil => intro m _; rfl
  | cons l rest ih =>
    intro m h
    simp only [findMaxX, List.foldl_cons]
    rw [if_neg (by rw [h l (List.mem_cons_self _ _)]; simp)]
    exact ih _ (fun ln hln => h ln (List.mem_cons_of_mem _ hln))

theorem foldl_max_lt (x : ℚ) : ∀ (lines : List line) (m : ℚ), m < x →
    (∀ ln ∈ lines, ln.b.X < x) → lines.foldl (fun k ln => max k ln.b.X) m < x := by
  intro lines
  induction lines with
  | nil => intro m hm _; exact hm
  | cons l rest ih =>
    intro m hm h
    simp only [List.foldl_cons]
    exact ih _ (max_lt hm (h l (List.mem_cons_self _ _)))
      (fun ln hln => h ln (List.mem_cons_of_mem _ hln))

theorem foldl_max_ge : ∀ (lines : List line) (m : ℚ),
    m ≤ lines.foldl (fun k ln => max k ln.b.X) m ∧
    ∀ ln ∈ lines, ln.b.X ≤ lines.foldl (fun k ln => max k ln.b.X) m := by
  intro lines
  induction lines with
  | nil => intro m; exact ⟨le_refl _, fun ln h => by simp at h⟩
  | cons l rest ih =>
    intro m
    simp only [List.foldl_cons]
    obtain ⟨h1, h2⟩ := ih (max m l.b.X)
    refine ⟨le_trans (le_max_left _ _) h1, fun ln hln => ?_⟩
    rcases List.mem_cons.mp hln with h | h
    · subst h; exact le_trans (le_max_right _ _) h1
    · exact h2 ln h

/-- C17: for every ring and every point that lies on one of its segments, in
particular every end point of a segment, `isPointInsideOrOnRing` returns true. -/
theorem C17_point_on_ring (pt : XY) (lines : List line)
    (h : ∃ ln ∈ lines, InClosedSegment ln.a ln.b pt) :
    isPointInsideOrOnRing pt lines = some true := by
  obtain ⟨ln, hmem, hon⟩ := h
  cases lines with
  | nil => simp at hmem
  | cons first rest =>
    have := findMaxX_none pt (first :: rest) first.a.X
      ⟨ln, hmem, lineHoldsPoint_of_inClosedSegment hon⟩
    simp only [isPointInsideOrOnRing, List.head?_cons, Option.bind_eq_bind, Option.some_bind,
      this, Option.pure_def]

/-- C17 at the ring of scenario S5: a point within a segment, and every vertex. -/
theorem C17_point_on_ring_witness :
    (∃ ln ∈ ringLinesRec squareTen, InClosedSegment ln.a ln.b ⟨10, 5⟩) ∧
    isPointInsideOrOnRing ⟨10, 5⟩ (ringLinesRec squareTen) = some true ∧
    ∀ v ∈ squareTen, isPointInsideOrOnRing v (ringLinesRec squareTen) = some true := by
  have h1 : ∃ ln ∈ ringLinesRec squareTen, InClosedSegment ln.a ln.b ⟨10, 5⟩ := by
    refine ⟨⟨⟨10, 0⟩, ⟨10, 10⟩⟩, by with_unfolding_all decide, 1/2, by norm_num, by norm_num, ?_⟩
    rw [XY.eq_iff]; norm_num [XY.Sub, XY.Scale, XY.Add]
  refine ⟨h1, C17_point_on_ring _ _ h1, ?_⟩
  with_unfolding_all decide

/-- C19: scenario S5, for the ring (0,0), (10,0), (10,10), (0,10), (0,0):
`isPointInsideOrOnRing` is true at (5,5) (inside), true at (10,5) (on the
boundary), false at (11,5) (outside) and true at (0,0) (on the boundary). -/
theorem C19_scenario_square :
    isPointInsideOrOnRing ⟨5, 5⟩ (ringLinesRec squareTen) = some true ∧
    isPointInsideOrOnRing ⟨10, 5⟩ (ringLinesRec squareTen) = some true ∧
    isPointInsideOrOnRing ⟨11, 5⟩ (ringLinesRec squareTen) = some false ∧
    isPointInsideOrOnRing ⟨0, 0⟩ (ringLinesRec squareTen) = some true := by
  with_unfolding_all decide

/-- C20: for every ring with at least one line and every point whose X is greater
than the X of every vertex (such a point lies on no segment),
`isPointInsideOrOnRing` returns false at the test `pt.X > maxX`, before the ray is
made: the first loop ends with a `maxX` below `pt.X`. -/
theorem C20_right_of_ring (pt : XY) (lines : List line) (hne : lines ≠ [])
    (hx : ∀ ln ∈ lines, ln.a.X < pt.X ∧ ln.b.X < pt.X) :
    isPointInsideOrOnRing pt lines = some false ∧
    ∃ first maxX, lines.head? = some first ∧ findMaxX pt first.a.X lines = some maxX ∧
      maxX < pt.X := by
  cases lines with
  | nil => exact absurd rfl hne
  | cons first rest =>
    have hoff : ∀ ln ∈ first :: rest, lineHoldsPoint ln pt = false := by
      intro ln hln
      have hb := hx ln hln
      simp only [lineHoldsPoint, Bool.and_eq_false_iff]
      right
      cases hs : onSegment ln.a ln.b pt
      · rfl
      · rw [onSegment_iff] at hs
        have := hs.1.2
        have h2 : max ln.a.X ln.b.X < pt.X := max_lt hb.1 hb.2
        linarith
    have hm := findMaxX_some pt (first :: rest) first.a.X hoff
    have hlt := foldl_max_lt pt.X (first :: rest) first.a.X
      (hx first (List.mem_cons_self _ _)).1 (fun ln hln => (hx ln hln).2)
    refine ⟨?_, first, _, rfl, hm, hlt⟩
    simp only [isPointInsideOrOnRing, List.head?_cons, Option.bind_eq_bind, Option.some_bind,
      hm, gt_iff_lt, hlt, if_true, Option.pure_def]

/-- C20 at the ring of scenario S5 and the point (11,5). -/
theorem C20_right_of_ring_witness :
    ringLinesRec squareTen ≠ [] ∧
    (∀ ln ∈ ringLinesRec squareTen, ln.a.X < (11 : ℚ) ∧ ln.b.X < (11 : ℚ)) ∧
    isPointInsideOrOnRing ⟨11, 5⟩ (ringLinesRec squareTen) = some false := by
  have h1 : ringLinesRec squareTen ≠ [] := by with_unfolding_all decide
  have h2 : ∀ ln ∈ ringLinesRec squareTen, ln.a.X < (11 : ℚ) ∧ ln.b.X < (11 : ℚ) := by
    with_unfolding_all decide
  exact ⟨h1, h2, (C20_right_of_ring ⟨11, 5⟩ _ h1 h2).1⟩

/-! ## The crossing count -/

theorem pointAt_heightParam_Y {s : line} (hY : s.a.Y ≠ s.b.Y) (y : ℚ) :
    (pointAt s.a s.b (heightParam s y)).Y = y := by
  have h : s.b.Y - s.a.Y ≠ 0 := sub_ne_zero.mpr (Ne.symm hY)
  simp only [pointAt, heightParam, XY.Sub, XY.Scale, XY.Add]
  field_simp

theorem on_seg_height {s : line} (hY : s.a.Y ≠ s.b.Y) {q : XY}
    (hq : InClosedSegment s.a s.b q) :
    0 ≤ heightParam s q.Y ∧ heightParam s q.Y ≤ 1 ∧ q = pointAt s.a s.b (heightParam s q.Y) := by
  have h : s.b.Y - s.a.Y ≠ 0 := sub_ne_zero.mpr (Ne.symm hY)
  obtain ⟨t, t0, t1, rfl⟩ := hq
  have ht : heightParam s (((s.b.Sub s.a).Scale t).Add s.a).Y = t := by
    simp only [heightParam, XY.Sub, XY.Scale, XY.Add]
    field_simp
  rw [ht]
  exact ⟨t0, t1, rfl⟩

theorem on_ray_iff {pt : XY} {m : ℚ} (hm : pt.X < m) (q : XY) :
    InClosedSegment pt ⟨m, pt.Y⟩ q ↔ q.Y = pt.Y ∧ pt.X ≤ q.X ∧ q.X ≤ m := by
  have hd : 0 < m - pt.X := sub_pos.mpr hm
  constructor
  · rintro ⟨t, t0, t1, rfl⟩
    simp only [XY.Sub, XY.Scale, XY.Add]
    refine ⟨by ring, by nlinarith, by nlinarith⟩
  · rintro ⟨h1, h2, h3⟩
    refine ⟨(q.X - pt.X) / (m - pt.X), div_nonneg (by linarith) hd.le,
      (div_le_one hd).mpr (by linarith), ?_⟩
    rw [XY.eq_iff]
    simp only [XY.Sub, XY.Scale, XY.Add]
    constructor
    · field_simp
    · rw [h1]; ring

theorem seg_X_le {a b q : XY} {m : ℚ} (hq : InClosedSegment a b q) (ha : a.X ≤ m)
    (hb : b.X ≤ m) : q.X ≤ m := by
  have := (onSegment_iff _ _ _).mp (onSegment_of_inClosedSegment hq)
  exact le_trans this.1.2 (max_le ha hb)

/-- In the collinear block a non-empty result has end points of the two lines as
its points. -/
theorem intersectLine_collinear_endpoint {ln s : line}
    (h1 : crossProduct ln.a ln.b s.a = 0) (h2 : crossProduct ln.a ln.b s.b = 0)
    (hne : (ln.intersectLine s).empty = false) :
    (ln.intersectLine s).ptA ∈ [ln.a, ln.b, s.a, s.b] := by
  have o1 := (orientation_collinear_iff ln.a ln.b s.a).mpr h1
  have o2 := (orientation_collinear_iff ln.a ln.b s.b).mpr h2
  obtain ⟨hi, lo, x, y, hr, hp, -, -⟩ := collinearRemainder_spec ln.a ln.b s.a s.b
  have hx : ¬ (orientation ln.a ln.b s.a ≠ orientation ln.a ln.b s.b ∧
      orientation s.a s.b ln.a ≠ orientation s.a s.b ln.b) := by
    rw [o1, o2]; simp
  have hres : ln.intersectLine s = ⟨false, x, y⟩ := by
    have hne2 := hne
    simp only [line.intersectLine] at hne2 ⊢
    rw [if_neg hx, if_pos ⟨o1, o2⟩] at hne2 ⊢
    split_ifs at hne2 ⊢ with hs
    rw [hr]; rfl
  rw [hres]
  exact hp.mem_iff.mpr (by simp)

theorem intersectLine_empty_of_no_common {ln s : line} (hab : ln.a ≠ ln.b) (hcd : s.a ≠ s.b)
    (h : ∀ q, InClosedSegment ln.a ln.b q → InClosedSegment s.a s.b q → False) :
    (ln.intersectLine s).empty = true := by
  cases he : (ln.intersectLine s).empty
  · have := intersectLine_points_on_lines hab hcd he
    exact absurd this.1.2 (fun h2 => h _ this.1.1 h2)
  · rfl

/-- One iteration of the counting loop against the specification: for a segment
with distinct end points that does not hold `pt` and lies left of `m + 1`, the
count grows by one exactly when the segment is counted for `pt`. -/
theorem countSegment_eq {pt : XY} {m : ℚ} {seg : line} (n : Nat) (hm : pt.X ≤ m)
    (hab : seg.a ≠ seg.b) (hoff : ¬ InClosedSegment seg.a seg.b pt)
    (hxa : seg.a.X ≤ m) (hxb : seg.b.X ≤ m) :
    countSegment pt ⟨pt, ⟨m + 1, pt.Y⟩⟩ n seg = n + (if crossesRay pt seg then 1 else 0) := by
  have hlt : pt.X < m + 1 := by linarith
  have hray : (line.mk pt ⟨m + 1, pt.Y⟩).a ≠ (line.mk pt ⟨m + 1, pt.Y⟩).b := by
    intro h
    have := (XY.eq_iff _ _).mp h
    simp only at this
    linarith [this.1]
  have honray : ∀ q, InClosedSegment pt ⟨m + 1, pt.Y⟩ q ↔
      q.Y = pt.Y ∧ pt.X ≤ q.X ∧ q.X ≤ m + 1 := on_ray_iff hlt
  by_cases hY : seg.a.Y = seg.b.Y
  · -- a horizontal segment is never counted
    have hcr : crossesRay pt seg = false := by
      simp only [crossesRay, decide_eq_false_iff_not, hY, min_self, max_self]
      rintro ⟨h1, h2, -⟩
      linarith
    rw [hcr]
    simp only [Bool.false_eq_true, if_false, add_zero]
    unfold countSegment
    simp only []
    by_cases he : (seg.intersectLine ⟨pt, ⟨m + 1, pt.Y⟩⟩).empty = true
    · rw [if_pos he]
    · rw [if_neg he]
      have he2 : (seg.intersectLine ⟨pt, ⟨m + 1, pt.Y⟩⟩).empty = false := by
        simpa using he
      by_cases hd : (seg.intersectLine ⟨pt, ⟨m + 1, pt.Y⟩⟩).ptA ≠
          (seg.intersectLine ⟨pt, ⟨m + 1, pt.Y⟩⟩).ptB
      · rw [if_pos hd]
      · rw [if_neg hd]
        obtain ⟨⟨p1, p2⟩, -⟩ := intersectLine_points_on_lines hab hray he2
        have hpy := ((honray _).mp p2).1
        have hsy := (onSegment_iff _ _ _).mp (onSegment_of_inClosedSegment p1)
        rw [hY, min_self, max_self] at hsy
        have hbY : seg.b.Y = pt.Y := by linarith [hsy.2.1, hsy.2.2]
        have haY : seg.a.Y = pt.Y := hY.trans hbY
        have c1 : crossProduct seg.a seg.b (line.mk pt ⟨m + 1, pt.Y⟩).a = 0 := by
          simp only [crossProduct, haY, hbY]; ring
        have c2 : crossProduct seg.a seg.b (line.mk pt ⟨m + 1, pt.Y⟩).b = 0 := by
          simp only [crossProduct, haY, hbY]; ring
        have hmem := intersectLine_collinear_endpoint c1 c2 he2
        simp only [List.mem_cons, List.mem_singleton, List.not_mem_nil, or_false] at hmem
        have hends : (seg.intersectLine ⟨pt, ⟨m + 1, pt.Y⟩⟩).ptA = seg.a ∨
            (seg.intersectLine ⟨pt, ⟨m + 1, pt.Y⟩⟩).ptA = seg.b := by
          rcases hmem with h | h | h | h
          · exact Or.inl h
          · exact Or.inr h
          · rw [h] at p1; exact absurd p1 hoff
          · have := seg_X_le p1 hxa hxb
            rw [h] at this
            simp only at this
            linarith
        rw [if_pos hends]
        have hother : ¬ ((if (seg.intersectLine ⟨pt, ⟨m + 1, pt.Y⟩⟩).ptA = seg.a
            then seg.b.Y else seg.a.Y) < pt.Y) := by
          split_ifs <;> linarith
        rw [if_neg hother]
  · -- the segment meets the line of the ray in at most one point
    have hpY := pointAt_heightParam_Y hY pt.Y
    have huniq : ∀ q, InClosedSegment seg.a seg.b q → InClosedSegment pt ⟨m + 1, pt.Y⟩ q →
        (0 ≤ heightParam seg pt.Y ∧ heightParam seg pt.Y ≤ 1) ∧
        q = pointAt seg.a seg.b (heightParam seg pt.Y) := by
      intro q h1 h2
      have hq := on_seg_height hY h1
      rw [((honray q).mp h2).1] at hq
      exact ⟨⟨hq.1, hq.2.1⟩, hq.2.2⟩
    have hempty_n : (seg.intersectLine ⟨pt, ⟨m + 1, pt.Y⟩⟩).empty = true →
        countSegment pt ⟨pt, ⟨m + 1, pt.Y⟩⟩ n seg = n := by
      intro he
      unfold countSegment
      simp only []
      rw [if_pos he]
    by_cases ht : 0 ≤ heightParam seg pt.Y ∧ heightParam seg pt.Y ≤ 1
    · have hpon : InClosedSegment seg.a seg.b (pointAt seg.a seg.b (heightParam seg pt.Y)) :=
        ⟨_, ht.1, ht.2, rfl⟩
      have hpne : pointAt seg.a seg.b (heightParam seg pt.Y) ≠ pt := by
        intro h; rw [h] at hpon; exact hoff hpon
      by_cases hpx : pt.X < (pointAt seg.a seg.b (heightParam seg pt.Y)).X
      · -- the point at the height of `pt` is on the ray
        have hpray : InClosedSegment pt ⟨m + 1, pt.Y⟩
            (pointAt seg.a seg.b (heightParam seg pt.Y)) :=
          (honray _).mpr ⟨hpY, hpx.le, by linarith [seg_X_le hpon hxa hxb]⟩
        have he2 := intersectLine_nonempty_of_common hab hray hpon hpray
        obtain ⟨⟨p1, p2⟩, ⟨p3, p4⟩⟩ := intersectLine_points_on_lines hab hray he2
        have hA := (huniq _ p1 p2).2
        have hB := (huniq _ p3 p4).2
        unfold countSegment
        simp only []
        rw [if_neg (by rw [he2]; simp), if_neg (by rw [hA, hB]; simp), hA]
        by_cases hpa : pointAt seg.a seg.b (heightParam seg pt.Y) = seg.a
        · rw [if_pos (Or.inl hpa), if_pos hpa]
          have haY : seg.a.Y = pt.Y := by rw [← hpa]; exact hpY
          have hcr : crossesRay pt seg = decide (seg.b.Y < pt.Y) := by
            simp only [crossesRay, hpx, and_true]
            congr 1
            rw [haY]
            apply propext
            constructor
            · rintro ⟨h1, -⟩
              rcases min_lt_iff.mp h1 with h | h
              · exact absurd h (lt_irrefl _)
              · exact h
            · intro h
              exact ⟨min_lt_iff.mpr (Or.inr h), le_max_left _ _⟩
          rw [hcr]
          by_cases hb : seg.b.Y < pt.Y
          · simp [hb]
          · simp [hb]
        · by_cases hpb : pointAt seg.a seg.b (heightParam seg pt.Y) = seg.b
          · rw [if_pos (Or.inr hpb), if_neg hpa]
            have hbY : seg.b.Y = pt.Y := by rw [← hpb]; exact hpY
            have hcr : crossesRay pt seg = decide (seg.a.Y < pt.Y) := by
              simp only [crossesRay, hpx, and_true]
              congr 1
              rw [hbY]
              apply propext
              constructor
              · rintro ⟨h1, -⟩
                rcases min_lt_iff.mp h1 with h | h
                · exact h
                · exact absurd h (lt_irrefl _)
              · intro h
                exact ⟨min_lt_iff.mpr (Or.inl h), le_max_right _ _⟩
            rw [hcr]
            by_cases ha : seg.a.Y < pt.Y
            · simp [ha]
            · simp [ha]
          · rw [if_neg (by
              intro h
              rcases h with h | h
              · exact hpa h
              · exact hpb h)]
            have haY : seg.a.Y ≠ pt.Y := by
              intro h
              apply hpa
              have h0 : heightParam seg pt.Y = 0 := by simp [heightParam, h]
              rw [h0, pointAt_zero]
            have hbY : seg.b.Y ≠ pt.Y := by
              intro h
              apply hpb
              have hne : seg.b.Y - seg.a.Y ≠ 0 := sub_ne_zero.mpr (Ne.symm hY)
              have h1 : heightParam seg pt.Y = 1 := by
                simp only [heightParam, ← h]
                exact div_self hne
              rw [h1, pointAt_one]
            have hbt := between_of_convex (x := seg.a.Y) (y := seg.b.Y) ht.1 ht.2
            have hpY2 : (seg.b.Y - seg.a.Y) * heightParam seg pt.Y + seg.a.Y = pt.Y := by
              have := hpY
              simpa only [pointAt, XY.Sub, XY.Scale, XY.Add] using this
            rw [hpY2] at hbt
            have hcr : crossesRay pt seg = true := by
              simp only [crossesRay, decide_eq_true_eq]
              refine ⟨?_, hbt.2, hpx⟩
              rcases lt_or_eq_of_le hbt.1 with h | h
              · exact h
              · exfalso
                rcases min_choice seg.a.Y seg.b.Y with h2 | h2
                · exact haY (h2.symm.trans h)
                · exact hbY (h2.symm.trans h)
            rw [hcr]
            simp
      · -- the point at the height of `pt` is left of `pt`
        have hno : ∀ q, InClosedSegment seg.a seg.b q →
            InClosedSegment pt ⟨m + 1, pt.Y⟩ q → False := by
          intro q h1 h2
          have hq := (huniq q h1 h2).2
          have hqx := ((honray q).mp h2).2.1
          rw [hq] at hqx
          have hx : (pointAt seg.a seg.b (heightParam seg pt.Y)).X = pt.X := by linarith
          exact hpne ((XY.eq_iff _ _).mpr ⟨hx, hpY⟩)
        rw [hempty_n (intersectLine_empty_of_no_common hab hray hno)]
        have hcr : crossesRay pt seg = false := by
          simp only [crossesRay, decide_eq_false_iff_not]
          rintro ⟨-, -, h⟩
          exact hpx h
        rw [hcr]; simp
    · -- the segment does not reach the height of `pt`
      have hno : ∀ q, InClosedSegment seg.a seg.b q →
          InClosedSegment pt ⟨m + 1, pt.Y⟩ q → False := by
        intro q h1 h2
        exact ht (huniq q h1 h2).1
      rw [hempty_n (intersectLine_empty_of_no_common hab hray hno)]
      have hcr : crossesRay pt seg = false := by
        simp only [crossesRay, decide_eq_false_iff_not]
        rintro ⟨h1, h2, -⟩
        exact ht (convex_of_between hY ⟨h1.le, h2⟩)
      rw [hcr]; simp

/-! ## Claim C18 -/

theorem isPath_a_le {m : ℚ} : ∀ (lines : List line) (u v : XY), IsPath u v lines → u.X ≤ m →
    (∀ ln ∈ lines, ln.b.X ≤ m) → ∀ ln ∈ lines, ln.a.X ≤ m := by
  intro lines
  induction lines with
  | nil => intro u v _ _ _ ln hln; simp at hln
  | cons l rest ih =>
    intro u v hp hu hb ln hln
    rcases List.mem_cons.mp hln with h | h
    · rw [h, hp.1]; exact hu
    · exact ih l.b v hp.2 (hb l (List.mem_cons_self _ _))
        (fun x hx => hb x (List.mem_cons_of_mem _ hx)) ln h

theorem foldl_countSegment {pt : XY} {m : ℚ} (hm : pt.X ≤ m) : ∀ (lines : List line) (n : Nat),
    (∀ seg ∈ lines, seg.a ≠ seg.b ∧ ¬ InClosedSegment seg.a seg.b pt ∧
      seg.a.X ≤ m ∧ seg.b.X ≤ m) →
    lines.foldl (countSegment pt ⟨pt, ⟨m + 1, pt.Y⟩⟩) n = n + lines.countP (crossesRay pt) := by
  intro lines
  induction lines with
  | nil => intro n _; simp
  | cons seg rest ih =>
    intro n h
    obtain ⟨h1, h2, h3, h4⟩ := h seg (List.mem_cons_self _ _)
    rw [List.foldl_cons, countSegment_eq n hm h1 h2 h3 h4,
      ih _ (fun s hs => h s (List.mem_cons_of_mem _ hs)), List.countP_cons]
    by_cases hc : crossesRay pt seg = true
    · simp only [hc, if_true]; omega
    · simp only [hc, Bool.false_eq_true, if_false]; omega

theorem crossesRay_false_of_right {pt : XY} {m : ℚ} {seg : line} (hm : m < pt.X)
    (hxa : seg.a.X ≤ m) (hxb : seg.b.X ≤ m) : crossesRay pt seg = false := by
  simp only [crossesRay, decide_eq_false_iff_not]
  rintro ⟨h1, h2, h3⟩
  have hY : seg.a.Y ≠ seg.b.Y := by
    intro h
    rw [h, min_self] at h1
    rw [h, max_self] at h2
    linarith
  have ht := convex_of_between hY ⟨h1.le, h2⟩
  have hon : InClosedSegment seg.a seg.b (pointAt seg.a seg.b (heightParam seg pt.Y)) :=
    ⟨_, ht.1, ht.2, rfl⟩
  have := seg_X_le hon hxa hxb
  linarith

theorem lineHoldsPoint_false {ln : line} {pt : XY} (hab : ln.a ≠ ln.b)
    (hoff : ¬ InClosedSegment ln.a ln.b pt) : lineHoldsPoint ln pt = false := by
  cases h : lineHoldsPoint ln pt
  · rfl
  · exfalso
    simp only [lineHoldsPoint, Bool.and_eq_true, decide_eq_true_eq] at h
    exact hoff (inClosedSegment_of_onSegment hab ((orientation_collinear_iff _ _ _).mp h.1) h.2)

/-- C18: for every ring (a path of lines with distinct end points, at least one)
and every point `c` on none of its segments, `isPointInsideOrOnRing` returns true
exactly when the number of segments counted along the horizontal ray from `c` is
odd, which is when `c` is in the region the ring bounds: a segment is counted when
one end is strictly below the line of the ray, the other on or above it, and it
meets that line to the right of `c`. -/
theorem C18_crossing_parity (c : XY) (lines : List line) (u v : XY) (hne : lines ≠ [])
    (hpath : IsPath u v lines) (hnd : ∀ ln ∈ lines, ln.a ≠ ln.b)
    (hoff : ∀ ln ∈ lines, ¬ InClosedSegment ln.a ln.b c) :
    isPointInsideOrOnRing c lines = some (decide (lines.countP (crossesRay c) % 2 = 1)) := by
  cases lines with
  | nil => exact absurd rfl hne
  | cons first rest =>
    have hfm := findMaxX_some c (first :: rest) first.a.X
      (fun ln hln => lineHoldsPoint_false (hnd ln hln) (hoff ln hln))
    obtain ⟨g1, g2⟩ := foldl_max_ge (first :: rest) first.a.X
    have hu : u = first.a := hpath.1.symm
    have ha := isPath_a_le (first :: rest) u v hpath (by rw [hu]; exact g1) g2
    simp only [isPointInsideOrOnRing, List.head?_cons, Option.bind_eq_bind, Option.some_bind,
      hfm, gt_iff_lt, Option.pure_def]
    by_cases hx : (first :: rest).foldl (fun k ln => max k ln.b.X) first.a.X < c.X
    · rw [if_pos hx]
      have h0 : (first :: rest).countP (crossesRay c) = 0 := by
        rw [List.countP_eq_zero]
        intro s hs
        rw [crossesRay_false_of_right hx (ha s hs) (g2 s hs)]
        simp
      rw [h0]
      simp
    · rw [if_neg hx]
      have hm := not_lt.mp hx
      have hfar : c ≠ ⟨(first :: rest).foldl (fun k ln => max k ln.b.X) first.a.X + 1, c.Y⟩ := by
        intro h
        have := (XY.eq_iff _ _).mp h
        simp only at this
        linarith [this.1]
      rw [if_neg hfar]
      rw [foldl_countSegment hm (first :: rest) 0
        (fun s hs => ⟨hnd s hs, hoff s hs, ha s hs, g2 s hs⟩)]
      simp

theorem squareTen_off :
    (ringLinesRec squareTen).all (fun ln => !lineHoldsPoint ln ⟨5, 5⟩) = true := by
  with_unfolding_all decide

/-- C18 at the ring of scenario S5 and the point (5,5): one segment is counted. -/
theorem C18_crossing_parity_witness :
    ringLinesRec squareTen ≠ [] ∧ IsPath ⟨0, 0⟩ ⟨0, 0⟩ (ringLinesRec squareTen) ∧
    (∀ ln ∈ ringLinesRec squareTen, ln.a ≠ ln.b) ∧
    (∀ ln ∈ ringLinesRec squareTen, ¬ InClosedSegment ln.a ln.b ⟨5, 5⟩) ∧
    (ringLinesRec squareTen).countP (crossesRay ⟨5, 5⟩) = 1 ∧
    isPointInsideOrOnRing ⟨5, 5⟩ (ringLinesRec squareTen) = some true := by
  have h1 : ringLinesRec squareTen ≠ [] := by with_unfolding_all decide
  have h2 : IsPath ⟨0, 0⟩ ⟨0, 0⟩ (ringLinesRec squareTen) :=
    isPath_ringLinesRec ⟨0, 0⟩ [⟨10, 0⟩, ⟨10, 10⟩, ⟨0, 10⟩, ⟨0, 0⟩]
  have h3 := ringLinesRec_ne squareTen
  have h4 : ∀ ln ∈ ringLinesRec squareTen, ¬ InClosedSegment ln.a ln.b ⟨5, 5⟩ := by
    intro ln hln hon
    have := List.all_eq_true.mp squareTen_off ln hln
    rw [lineHoldsPoint_of_inClosedSegment hon] at this
    simp at this
  have h5 : (ringLinesRec squareTen).countP (crossesRay ⟨5, 5⟩) = 1 := by
    with_unfolding_all decide
  have := C18_crossing_parity ⟨5, 5⟩ (ringLinesRec squareTen) ⟨0, 0⟩ ⟨0, 0⟩ h1 h2 h3 h4
  rw [h5] at this
  exact ⟨h1, h2, h3, h4, h5, this⟩

/-! ## Scenarios of the overlay -/

theorem mapM_some_length {α β : Type} (f : α → Option β) :
    ∀ (l : List α) (r : List β), l.mapM f = some r → r.length = l.length := by
  intro l
  induction l with
  | nil =>
    intro r h
    rw [List.mapM_nil] at h
    have : r = [] := (Option.some.inj h).symm
    subst this; rfl
  | cons a rest ih =>
    intro r h
    rw [List.mapM_cons] at h
    cases ha : f a with
    | none => rw [ha] at h; exact Option.noConfusion h
    | some b =>
      rw [ha] at h
      cases hr : rest.mapM f with
      | none => rw [hr] at h; exact Option.noConfusion h
      | some r2 =>
        rw [hr] at h
        have : r = b :: r2 := (Option.some.inj h).symm
        subst this
        simp [ih r2 hr]

theorem disjointSquares_faces :
    (overlayPolygons 100 (squarePolygon 0 0 1 1) (squarePolygon 2 2 3 3)).bind
      (faceSummaries 100) =
    some [⟨some [⟨2, 2⟩, ⟨3, 2⟩, ⟨3, 3⟩, ⟨2, 3⟩], [], false, false⟩,
      ⟨some [⟨0, 0⟩, ⟨1, 0⟩, ⟨1, 1⟩, ⟨0, 1⟩], [], false, false⟩,
      ⟨none, [[⟨2, 2⟩, ⟨2, 3⟩, ⟨3, 3⟩, ⟨3, 2⟩], [⟨0, 0⟩, ⟨0, 1⟩, ⟨1, 1⟩, ⟨1, 0⟩]],
        false, false⟩] := by
  with_unfolding_all decide

theorem disjointSquares_labels :
    (overlayPolygons 100 (squarePolygon 0 0 1 1) (squarePolygon 2 2 3 3)).any
      (fun s => s.2.faces.all (fun f => match s.1.faceRecords[f]? with
        | some fr => !fr.labelA && !fr.labelB
        | none => false)) = true := by
  with_unfolding_all decide

/-- C15, as stated, fails: after the overlay of the disjoint squares of scenario S4
no face of `d.faces` has the labels (A,B) = (true,false). -/
theorem C15_disjoint_squares_counterexample :
    ∃ h d, overlayPolygons 100 (squarePolygon 0 0 1 1) (squarePolygon 2 2 3 3) = some (h, d) ∧
      ¬ ∃ f ∈ d.faces, ∃ fr, h.faceRecords[f]? = some fr ∧ fr.labelA = true ∧
        fr.labelB = false := by
  have hl := disjointSquares_labels
  cases hr : overlayPolygons 100 (squarePolygon 0 0 1 1) (squarePolygon 2 2 3 3) with
  | none => rw [hr] at hl; simp at hl
  | some s =>
    rw [hr] at hl
    simp only [Option.any_some, List.all_eq_true] at hl
    refine ⟨s.1, s.2, rfl, ?_⟩
    rintro ⟨f, hf, fr, hfr, ha, -⟩
    have := hl f hf
    rw [hfr] at this
    simp [ha] at this

/-- C15, amended: scenario S4, the overlay of the squares (0,0)-(1,1) and
(2,2)-(3,3), has exactly three faces: two bounded faces, whose outer cycles are
square B and square A and which have no inner components, and one unbounded face
(no outer component) with the outer boundaries of both squares as its inner
components; every face has both labels false. -/
theorem C15_disjoint_squares_amended :
    ∃ h d, overlayPolygons 100 (squarePolygon 0 0 1 1) (squarePolygon 2 2 3 3) = some (h, d) ∧
      d.faces.length = 3 ∧
      faceSummaries 100 (h, d) =
        some [⟨some [⟨2, 2⟩, ⟨3, 2⟩, ⟨3, 3⟩, ⟨2, 3⟩], [], false, false⟩,
          ⟨some [⟨0, 0⟩, ⟨1, 0⟩, ⟨1, 1⟩, ⟨0, 1⟩], [], false, false⟩,
          ⟨none, [[⟨2, 2⟩, ⟨2, 3⟩, ⟨3, 3⟩, ⟨3, 2⟩], [⟨0, 0⟩, ⟨0, 1⟩, ⟨1, 1⟩, ⟨1, 0⟩]],
            false, false⟩] := by
  have hf := disjointSquares_faces
  cases hr : overlayPolygons 100 (squarePolygon 0 0 1 1) (squarePolygon 2 2 3 3) with
  | none => rw [hr] at hf; simp at hf
  | some s =>
    rw [hr] at hf
    simp only [Option.some_bind] at hf
    refine ⟨s.1, s.2, rfl, ?_, hf⟩
    have := hf
    simp only [faceSummaries] at this
    have hlen := mapM_some_length _ _ _ this
    simpa using hlen.symm

/-- C13 at two squares side by side, (0,0)-(1,1) and (2,0)-(3,1): after the
overlay the outer boundary of the second square is an inner component of the
bounded face within the first square, not of the unbounded face. -/
theorem C13_adjacent_squares_faces :
    (overlayPolygons 100 (squarePolygon 0 0 1 1) (squarePolygon 2 0 3 1)).bind
      (faceSummaries 100) =
    some [⟨some [⟨2, 0⟩, ⟨3, 0⟩, ⟨3, 1⟩, ⟨2, 1⟩], [], false, false⟩,
      ⟨none, [[⟨0, 0⟩, ⟨0, 1⟩, ⟨1, 1⟩, ⟨1, 0⟩]], false, false⟩,
      ⟨some [⟨0, 0⟩, ⟨1, 0⟩, ⟨1, 1⟩, ⟨0, 1⟩], [[⟨2, 0⟩, ⟨2, 1⟩, ⟨3, 1⟩, ⟨3, 0⟩]],
        false, false⟩] := by
  with_unfolding_all decide

theorem overlappingSquares_faces :
    (overlayPolygons 100 (squarePolygon 0 0 4 4) (squarePolygon 2 2 6 6)).bind
      (fun s => (faceSummaries 100 s).map (fun fs => (fs, s.2.vertices.map Prod.fst))) =
    some ([⟨some [⟨2, 4⟩, ⟨4, 4⟩, ⟨4, 2⟩, ⟨6, 2⟩, ⟨6, 6⟩, ⟨2, 6⟩], [], false, false⟩,
      ⟨some [⟨0, 0⟩, ⟨4, 0⟩, ⟨4, 2⟩, ⟨2, 2⟩, ⟨2, 4⟩, ⟨0, 4⟩], [], false, false⟩,
      ⟨some [⟨2, 2⟩, ⟨4, 2⟩, ⟨4, 4⟩, ⟨2, 4⟩], [], false, false⟩,
      ⟨none, [[⟨0, 0⟩, ⟨0, 4⟩, ⟨2, 4⟩, ⟨2, 6⟩, ⟨6, 6⟩, ⟨6, 2⟩, ⟨4, 2⟩, ⟨4, 0⟩]],
        false, false⟩],
      [⟨0, 0⟩, ⟨4, 0⟩, ⟨4, 4⟩, ⟨0, 4⟩, ⟨2, 4⟩, ⟨4, 2⟩, ⟨6, 2⟩, ⟨2, 2⟩, ⟨2, 6⟩, ⟨6, 6⟩]) := by
  with_unfolding_all decide

/-- C16: scenario S1, the overlay of the squares (0,0)-(4,4) and (2,2)-(6,6): the
vertex map holds the crossings (4,2) and (2,4); the faces are the two L-shaped
faces, the unbounded face, and one face whose outer cycle visits exactly (2,2),
(4,2), (4,4), (2,4) and which has no inner component; no other face has an outer
cycle on those four vertices. -/
theorem C16_overlapping_squares :
    ∃ h d fs, overlayPolygons 100 (squarePolygon 0 0 4 4) (squarePolygon 2 2 6 6) =
        some (h, d) ∧
      (⟨4, 2⟩ : XY) ∈ d.vertices.map Prod.fst ∧ (⟨2, 4⟩ : XY) ∈ d.vertices.map Prod.fst ∧
      faceSummaries 100 (h, d) = some fs ∧
      fs = [⟨some [⟨2, 4⟩, ⟨4, 4⟩, ⟨4, 2⟩, ⟨6, 2⟩, ⟨6, 6⟩, ⟨2, 6⟩], [], false, false⟩,
        ⟨some [⟨0, 0⟩, ⟨4, 0⟩, ⟨4, 2⟩, ⟨2, 2⟩, ⟨2, 4⟩, ⟨0, 4⟩], [], false, false⟩,
        ⟨some [⟨2, 2⟩, ⟨4, 2⟩, ⟨4, 4⟩, ⟨2, 4⟩], [], false, false⟩,
        ⟨none, [[⟨0, 0⟩, ⟨0, 4⟩, ⟨2, 4⟩, ⟨2, 6⟩, ⟨6, 6⟩, ⟨6, 2⟩, ⟨4, 2⟩, ⟨4, 0⟩]],
          false, false⟩] ∧
      fs.filter (fun f => f.outer.any (fun o =>
          o.all (fun p => decide (p ∈ [(⟨2, 2⟩ : XY), ⟨4, 2⟩, ⟨4, 4⟩, ⟨2, 4⟩])) &&
          [(⟨2, 2⟩ : XY), ⟨4, 2⟩, ⟨4, 4⟩, ⟨2, 4⟩].all (fun p => decide (p ∈ o)))) =
        [⟨some [⟨2, 2⟩, ⟨4, 2⟩, ⟨4, 4⟩, ⟨2, 4⟩], [], false, false⟩] := by
  have hf := overlappingSquares_faces
  cases hr : overlayPolygons 100 (squarePolygon 0 0 4 4) (squarePolygon 2 2 6 6) with
  | none => rw [hr] at hf; simp at hf
  | some s =>
    rw [hr] at hf
    simp only [Option.some_bind] at hf
    cases hs : faceSummaries 100 s with
    | none => rw [hs] at hf; simp at hf
    | some fs =>
      rw [hs] at hf
      simp only [Option.map_some', Option.some.injEq, Prod.mk.injEq] at hf
      obtain ⟨h1, h2⟩ := hf
      refine ⟨s.1, s.2, fs, rfl, ?_, ?_, hs, h1, ?_⟩
      · rw [h2]; with_unfolding_all decide
      · rw [h2]; with_unfolding_all decide
      · rw [h1]; with_unfolding_all decide

/-! ## Cycles of next -/

theorem nextD_of_some {h : Heap} {e n : Nat} (hn : h.nextOf e = some n) : h.nextD e = n := by
  simp [Heap.nextD, hn]

theorem edgeLoop_eq_some {h : Heap} {s : Nat} : ∀ (fuel e : Nat) (L : List Nat),
    edgeLoop h s fuel e = some L ↔
      ∃ k, k ≤ fuel ∧ ReachesIn h s e k ∧ L = List.iterate h.nextD e k := by
  intro fuel
  induction fuel with
  | zero =>
    intro e L
    simp only [edgeLoop, Nat.le_zero]
    constructor
    · intro hh; exact Option.noConfusion hh
    · rintro ⟨k, hk, hr, -⟩
      have := hr.pos
      omega
  | succ fuel ih =>
    intro e L
    simp only [edgeLoop, Option.bind_eq_bind, Option.pure_def]
    cases hn : h.nextOf e with
    | none =>
      simp only [Option.none_bind]
      constructor
      · intro hh; exact Option.noConfusion hh
      · rintro ⟨k, -, hr, -⟩
        have := hr.defined 0 hr.pos
        simp only [Function.iterate_zero, id_eq] at this
        rw [hn] at this
        exact Option.noConfusion this
    | some n =>
      have hd : h.nextD e = n := nextD_of_some hn
      simp only [Option.some_bind]
      by_cases hns : n = s
      · rw [if_pos hns]
        constructor
        · intro hh
          have hL : L = [e] := (Option.some.inj hh).symm
          refine ⟨1, by omega, ⟨by omega, ?_, ?_, ?_⟩, ?_⟩
          · intro i hi
            have : i = 0 := by omega
            subst this
            simp only [Function.iterate_zero, id_eq, zero_add, Function.iterate_one, hd]
            exact hn
          · simp only [Function.iterate_one, hd]; exact hns
          · intro i h1 h2; omega
          · rw [hL]; rfl
        · rintro ⟨k, -, hr, hL⟩
          have hk1 : k = 1 := by
            by_contra hne
            have := hr.first 1 (by omega) (by have := hr.pos; omega)
            simp only [Function.iterate_one, hd] at this
            exact this hns
          subst hk1
          rw [hL]; rfl
      · rw [if_neg hns]
        constructor
        · intro hh
          cases hrec : edgeLoop h s fuel n with
          | none => rw [hrec] at hh; exact Option.noConfusion hh
          | some L2 =>
            rw [hrec] at hh
            have hL : L = e :: L2 := (Option.some.inj hh).symm
            obtain ⟨k, hk, hr, hL2⟩ := (ih n L2).mp hrec
            refine ⟨k + 1, by omega, ⟨by omega, ?_, ?_, ?_⟩, ?_⟩
            · intro i hi
              cases i with
              | zero =>
                simp only [Function.iterate_zero, id_eq, zero_add, Function.iterate_one, hd]
                exact hn
              | succ j =>
                have := hr.defined j (by omega)
                rw [Function.iterate_succ_apply, Function.iterate_succ_apply, hd]
                exact this
            · rw [Function.iterate_succ_apply, hd]; exact hr.back
            · intro i h1 h2
              cases i with
              | zero => omega
              | succ j =>
                rw [Function.iterate_succ_apply, hd]
                cases j with
                | zero => simpa using hns
                | succ m => exact hr.first (m + 1) (by omega) (by omega)
            · rw [hL, hL2, List.iterate, hd]
        · rintro ⟨k, hk, hr, hL⟩
          obtain ⟨j, rfl⟩ : ∃ j, k = j + 1 := ⟨k - 1, by have := hr.pos; omega⟩
          have hj : 0 < j := by
            by_contra h0
            have : j = 0 := by omega
            subst this
            have := hr.back
            simp only [zero_add, Function.iterate_one, hd] at this
            exact hns this
          have hrec : edgeLoop h s fuel n = some (List.iterate h.nextD n j) := by
            refine (ih n _).mpr ⟨j, by omega, ⟨hj, ?_, ?_, ?_⟩, rfl⟩
            · intro i hi
              have := hr.defined (i + 1) (by omega)
              rw [Function.iterate_succ_apply, Function.iterate_succ_apply, hd] at this
              exact this
            · have := hr.back
              rw [Function.iterate_succ_apply, hd] at this
              exact this
            · intro i h1 h2
              have := hr.first (i + 1) (by omega) (by omega)
              rw [Function.iterate_succ_apply, hd] at this
              exact this
          rw [hrec, hL, List.iterate, hd]
          rfl

theorem iter_add_period {f : Nat → Nat} {s k : Nat} (hb : f^[k] s = s) (n : Nat) :
    f^[n + k] s = f^[n] s := by
  rw [Function.iterate_add_apply, hb]

theorem iter_mod_period {f : Nat → Nat} {s k : Nat} (hb : f^[k] s = s) (n : Nat) :
    f^[n] s = f^[n % k] s := by
  induction n using Nat.strong_induction_on with
  | _ n ih =>
    by_cases hk0 : k = 0
    · subst hk0; simp
    by_cases hlt : n < k
    · rw [Nat.mod_eq_of_lt hlt]
    · have hge : k ≤ n := not_lt.mp hlt
      have h1 : n = (n - k) + k := by omega
      have h2 : n % k = (n - k) % k := by
        conv_lhs => rw [h1]
        exact Nat.add_mod_right _ _
      rw [h2, ← ih (n - k) (by omega)]
      conv_lhs => rw [h1]
      exact iter_add_period hb _

theorem ReachesIn.iter_injective {h : Heap} {s k : Nat} (r : ReachesIn h s s k) {i j : Nat}
    (hi : i < j) (hj : j < k) : h.nextD^[i] s ≠ h.nextD^[j] s := by
  intro heq
  have h1 : h.nextD^[(k - j) + i] s = h.nextD^[(k - j) + j] s := by
    rw [Function.iterate_add_apply, Function.iterate_add_apply h.nextD (k - j) j, heq]
  have h2 : (k - j) + j = k := by omega
  rw [h2, r.back] at h1
  exact r.first ((k - j) + i) (by omega) (by omega) h1

theorem ReachesIn.rotate {h : Heap} {s k : Nat} (r : ReachesIn h s s k) (i : Nat) :
    ReachesIn h (h.nextD^[i] s) (h.nextD^[i] s) k := by
  refine ⟨r.pos, ?_, ?_, ?_⟩
  · intro j hj
    rw [← Function.iterate_add_apply, ← Function.iterate_add_apply]
    have e1 := iter_mod_period r.back (j + i)
    have hlt : (j + i) % k < k := Nat.mod_lt _ r.pos
    have hd := r.defined _ hlt
    have e2 : h.nextD^[j + 1 + i] s = h.nextD^[(j + i) % k + 1] s := by
      have : j + 1 + i = (j + i) + 1 := by omega
      rw [this, Function.iterate_succ_apply', Function.iterate_succ_apply', e1]
    rw [e1, e2]
    exact hd
  · rw [← Function.iterate_add_apply, Nat.add_comm, Function.iterate_add_apply, r.back]
  · intro j h1 h2 heq
    rw [← Function.iterate_add_apply] at heq
    -- apply `k - i % k` more steps
    have e1 := iter_mod_period r.back i
    have hlt : i % k < k := Nat.mod_lt _ r.pos
    have heq2 : h.nextD^[j + i % k] s = h.nextD^[i % k] s := by
      rw [Function.iterate_add_apply, ← e1, ← Function.iterate_add_apply]
      exact heq
    have h3 : h.nextD^[(k - i % k) + (j + i % k)] s = h.nextD^[(k - i % k) + i % k] s := by
      rw [Function.iterate_add_apply, Function.iterate_add_apply h.nextD (k - i % k) (i % k),
        heq2]
    have h4 : (k - i % k) + i % k = k := by omega
    have h5 : (k - i % k) + (j + i % k) = j + k := by omega
    rw [h4, h5, r.back, iter_add_period r.back] at h3
    exact r.first j h1 h2 h3

theorem ReachesIn.mem_rotate {h : Heap} {s k : Nat} (r : ReachesIn h s s k) (i : Nat)
    (y : Nat) :
    y ∈ List.iterate h.nextD (h.nextD^[i] s) k ↔ y ∈ List.iterate h.nextD s k := by
  rw [List.mem_iterate, List.mem_iterate]
  constructor
  · rintro ⟨m, -, rfl⟩
    refine ⟨(m + i) % k, Nat.mod_lt _ r.pos, ?_⟩
    rw [← Function.iterate_add_apply]
    exact iter_mod_period r.back _
  · rintro ⟨m, hm, rfl⟩
    -- m = ((m + k - i % k) % k + i) mod k
    refine ⟨(m + (k - i % k)) % k, Nat.mod_lt _ r.pos, ?_⟩
    rw [← Function.iterate_add_apply, iter_mod_period r.back ((m + (k - i % k)) % k + i)]
    congr 1
    have hlt : i % k < k := Nat.mod_lt _ r.pos
    have e2 : m + (k - i % k) + i % k = m + k := by omega
    symm
    rw [Nat.mod_add_mod, ← Nat.add_mod_mod, e2, Nat.add_mod_right, Nat.mod_eq_of_lt hm]

theorem ReachesIn.nodup {h : Heap} {s k : Nat} (r : ReachesIn h s s k) :
    (List.iterate h.nextD s k).Nodup := by
  rw [List.nodup_iff_getElem?_ne_getElem?]
  intro i j hij hj
  rw [List.length_iterate] at hj
  rw [List.getElem?_iterate _ _ _ _ (by omega), List.getElem?_iterate _ _ _ _ hj]
  intro heq
  exact r.iter_injective hij hj (Option.some.inj heq)

theorem ReachesIn.unique {h : Heap} {s e k k2 : Nat} (r : ReachesIn h s e k)
    (r2 : ReachesIn h s e k2) : k = k2 := by
  rcases Nat.lt_trichotomy k k2 with hlt | heq | hgt
  · exact absurd r.back (r2.first k r.pos hlt)
  · exact heq
  · exact absurd r2.back (r.first k2 r2.pos hgt)

/-- The loop from a half-edge of a loop is that loop, begun elsewhere. -/
theorem edgeLoop_rotate {h : Heap} {s fuel : Nat} {L : List Nat}
    (hL : edgeLoop h s fuel s = some L) :
    s ∈ L ∧ L.Nodup ∧ ∀ x ∈ L, ∃ L2, edgeLoop h x fuel x = some L2 ∧ ∀ y, y ∈ L2 ↔ y ∈ L := by
  obtain ⟨k, hk, r, rfl⟩ := (edgeLoop_eq_some fuel s L).mp hL
  refine ⟨List.mem_iterate.mpr ⟨0, r.pos, rfl⟩, r.nodup, ?_⟩
  intro x hx
  obtain ⟨i, -, rfl⟩ := List.mem_iterate.mp hx
  exact ⟨_, (edgeLoop_eq_some fuel _ _).mpr ⟨k, hk, r.rotate i, rfl⟩, r.mem_rotate i⟩

/-- Where the callback keeps the field `next`, `forEachEdge` is the fold of the
callback over the loop. -/
theorem forEachEdge_eq_foldlM {σ : Type} (h : Heap) (next : σ → Nat → Option Nat)
    (fn : σ → Nat → Option σ) (Inv : σ → Prop)
    (hnext : ∀ s e, Inv s → next s e = h.nextOf e)
    (hfn : ∀ s e s2, Inv s → fn s e = some s2 → Inv s2) (start : Nat) :
    ∀ (fuel : Nat) (s : σ) (e : Nat), Inv s →
      forEachEdge next fn start fuel s e =
        (edgeLoop h start fuel e).bind (fun L => L.foldlM fn s) := by
  intro fuel
  induction fuel with
  | zero => intro s e _; rfl
  | succ fuel ih =>
    intro s e hs
    simp only [forEachEdge, edgeLoop, Option.bind_eq_bind, Option.pure_def]
    cases hf : fn s e with
    | none =>
      simp only [Option.none_bind]
      cases hn : h.nextOf e with
      | none => rfl
      | some n =>
        simp only [Option.some_bind]
        by_cases hns : n = start
        · simp [hns, List.foldlM_cons, hf]
        · rw [if_neg hns]
          cases hl : edgeLoop h start fuel n with
          | none => rfl
          | some L2 => simp [List.foldlM_cons, hf]
    | some s1 =>
      have hs1 := hfn s e s1 hs hf
      simp only [Option.some_bind, hnext s1 e hs1]
      cases hn : h.nextOf e with
      | none => rfl
      | some n =>
        simp only [Option.some_bind]
        by_cases hns : n = start
        · simp [hns, List.foldlM_cons, hf]
        · rw [if_neg hns, if_neg hns, ih s1 n hs1]
          cases hl : edgeLoop h start fuel n with
          | none => rfl
          | some L2 => simp [List.foldlM_cons, hf]

/-- A fold that only collects: the state after it. -/
theorem foldlM_some_eq {σ α : Type} (f : σ → α → σ) : ∀ (L : List α) (s : σ),
    L.foldlM (fun t x => some (f t x)) s = some (L.foldl f s) := by
  intro L
  induction L with
  | nil => intro s; rfl
  | cons x rest ih => intro s; simp only [List.foldlM_cons, Option.bind_eq_bind,
      Option.some_bind, List.foldl_cons]; exact ih _

theorem updHalfEdge_eq_some {h h2 : Heap} {p : Nat} {f : halfEdgeRecord → halfEdgeRecord}
    (e : h.updHalfEdge p f = some h2) :
    ∃ r, h.halfEdgeRecords[p]? = some r ∧
      h2 = { h with halfEdgeRecords := h.halfEdgeRecords.set p (f r) } := by
  unfold Heap.updHalfEdge at e
  cases hr : h.halfEdgeRecords[p]? with
  | none => rw [hr] at e; exact Option.noConfusion e
  | some r =>
    rw [hr] at e
    exact ⟨r, rfl, (Option.some.inj e).symm⟩

theorem updFace_eq_some {h h2 : Heap} {p : Nat} {f : faceRecord → faceRecord}
    (e : h.updFace p f = some h2) :
    ∃ r, h.faceRecords[p]? = some r ∧
      h2 = { h with faceRecords := h.faceRecords.set p (f r) } := by
  unfold Heap.updFace at e
  cases hr : h.faceRecords[p]? with
  | none => rw [hr] at e; exact Option.noConfusion e
  | some r =>
    rw [hr] at e
    exact ⟨r, rfl, (Option.some.inj e).symm⟩

/-! ## The faces of reAssignFaces -/

theorem FaceFrame.same (h : Heap) : FaceFrame h h :=
  ⟨rfl, fun _ => rfl, fun _ => rfl, fun _ => rfl, fun _ => rfl⟩

theorem FaceFrame.andThen {h g k : Heap} (a : FaceFrame h g) (b : FaceFrame g k) :
    FaceFrame h k :=
  ⟨b.vertexRecords.trans a.vertexRecords, fun x => (b.nextOf x).trans (a.nextOf x),
    fun x => (b.prevOf x).trans (a.prevOf x), fun x => (b.originOf x).trans (a.originOf x),
    fun x => (b.twinOf x).trans (a.twinOf x)⟩

theorem FaceFrame.coords {h g : Heap} (a : FaceFrame h g) (x : Nat) :
    g.originCoords x = h.originCoords x := by
  simp only [Heap.originCoords, a.originOf, a.vertexRecords]

theorem FaceFrame.isOuter {h g : Heap} (a : FaceFrame h g) (x : Nat) :
    edgeLoopIsOuterComponent g x = edgeLoopIsOuterComponent h x := by
  simp only [edgeLoopIsOuterComponent, a.prevOf, a.nextOf, a.coords]

theorem FaceFrame.edgeLoop {h g : Heap} (a : FaceFrame h g) (s : Nat) :
    ∀ fuel e, edgeLoop g s fuel e = edgeLoop h s fuel e := by
  intro fuel
  induction fuel with
  | zero => intro e; rfl
  | succ fuel ih =>
    intro e
    simp only [Geom.edgeLoop, a.nextOf, ih]

theorem faceFrame_of_faces {h g : Heap} (h1 : g.halfEdgeRecords = h.halfEdgeRecords)
    (h2 : g.vertexRecords = h.vertexRecords) : FaceFrame h g :=
  ⟨h2, fun x => by simp only [Heap.nextOf, h1], fun x => by simp only [Heap.prevOf, h1],
    fun x => by simp only [Heap.originOf, h1], fun x => by simp only [Heap.twinOf, h1]⟩

/-- The write `y.incident = v`. -/
theorem setIncident_spec {h h2 : Heap} {y : Nat} {v : Option Nat}
    (e : h.setIncident y v = some h2) :
    FaceFrame h h2 ∧ h2.faceRecords = h.faceRecords ∧ h2.incidentOf y = v ∧
      ∀ x, x ≠ y → h2.incidentOf x = h.incidentOf x := by
  obtain ⟨r, hr, rfl⟩ := updHalfEdge_eq_some e
  have hg : ∀ x, (h.halfEdgeRecords.set y { r with incident := v })[x]? =
      if x = y then some { r with incident := v } else h.halfEdgeRecords[x]? :=
    getElem?_set_halfEdge hr
  have field : ∀ (p : halfEdgeRecord → Option Nat),
      p { r with incident := v } = p r →
      ∀ x : Nat, ((h.halfEdgeRecords.set y { r with incident := v })[x]?).bind p =
        (h.halfEdgeRecords[x]?).bind p := by
    intro p hp x
    rw [hg]
    by_cases hx : x = y
    · rw [if_pos hx, hx, hr]; simp [hp]
    · rw [if_neg hx]
  refine ⟨⟨rfl, field _ rfl, field _ rfl, field _ rfl, field _ rfl⟩, rfl, ?_, ?_⟩
  · show ((h.halfEdgeRecords.set y { r with incident := v })[y]?).bind _ = v
    rw [hg, if_pos rfl]; rfl
  · intro x hx
    show ((h.halfEdgeRecords.set y { r with incident := v })[x]?).bind _ = _
    rw [hg, if_neg hx]; rfl

theorem foldlM_setIncident {f : Nat} : ∀ (L : List Nat) (t t2 : Heap),
    L.foldlM (fun (t : Heap) y => t.setIncident y (some f)) t = some t2 →
    FaceFrame t t2 ∧ t2.faceRecords = t.faceRecords ∧
      (∀ y ∈ L, t2.incidentOf y = some f) ∧ (∀ y, y ∉ L → t2.incidentOf y = t.incidentOf y) := by
  intro L
  induction L with
  | nil =>
    intro t t2 e
    have : t2 = t := (Option.some.inj e).symm
    subst this
    exact ⟨FaceFrame.same _, rfl, fun y hy => by simp at hy, fun _ _ => rfl⟩
  | cons y rest ih =>
    intro t t2 e
    rw [List.foldlM_cons] at e
    cases h1 : t.setIncident y (some f) with
    | none => rw [h1] at e; exact Option.noConfusion e
    | some t1 =>
      rw [h1] at e
      obtain ⟨a1, a2, a3, a4⟩ := setIncident_spec h1
      obtain ⟨b1, b2, b3, b4⟩ := ih t1 t2 e
      refine ⟨a1.andThen b1, b2.trans a2, ?_, ?_⟩
      · intro z hz
        by_cases hzr : z ∈ rest
        · exact b3 z hzr
        · have hzy : z = y := by
            rcases List.mem_cons.mp hz with h | h
            · exact h
            · exact absurd h hzr
          rw [b4 z hzr, hzy]; exact a3
      · intro z hz
        have h1' : z ≠ y := fun hh => hz (hh ▸ List.mem_cons_self _ _)
        have h2' : z ∉ rest := fun hh => hz (List.mem_cons_of_mem _ hh)
        rw [b4 z h2', a4 z h1']

/-- The loop that sets the incident face along a cycle. -/
theorem assignLoop_spec {h1 h2 : Heap} {x fuel f : Nat}
    (e : forEachEdge (fun (t : Heap) y => t.nextOf y)
      (fun (t : Heap) y => t.setIncident y (some f)) x fuel h1 x = some h2) :
    ∃ L, edgeLoop h1 x fuel x = some L ∧ FaceFrame h1 h2 ∧
      h2.faceRecords = h1.faceRecords ∧
      (∀ y ∈ L, h2.incidentOf y = some f) ∧ (∀ y, y ∉ L → h2.incidentOf y = h1.incidentOf y) := by
  rw [forEachEdge_eq_foldlM h1 _ _ (fun t => FaceFrame h1 t) (fun s e hs => hs.nextOf e)
    (fun s e s2 hs hf => hs.andThen (setIncident_spec hf).1) x fuel h1 x (FaceFrame.same _)] at e
  cases hL : edgeLoop h1 x fuel x with
  | none => rw [hL] at e; exact Option.noConfusion e
  | some L =>
    rw [hL] at e
    exact ⟨L, rfl, foldlM_setIncident L h1 h2 e⟩

theorem getElem?_set_some {α : Type} {l : List α} {p : Nat} {r r2 : α}
    (hr : l[p]? = some r) (x : Nat) :
    (l.set p r2)[x]? = if x = p then some r2 else l[x]? := by
  have hp : p < l.length := lt_length_of_getElem?_eq_some hr
  rw [List.getElem?_set]
  by_cases hx : x = p
  · subst hx; simp [hp]
  · rw [if_neg (Ne.symm hx), if_neg hx]

/-- A write to the face record `f`. -/
theorem updFace_frame {h h2 : Heap} {f : Nat} {g : faceRecord → faceRecord}
    (e : h.updFace f g = some h2) :
    ∃ r, h.faceRecords[f]? = some r ∧ FaceFrame h h2 ∧
      h2.faceRecords.length = h.faceRecords.length ∧
      h2.faceRecords[f]? = some (g r) ∧
      (∀ f2 : Nat, f2 ≠ f → h2.faceRecords[f2]? = h.faceRecords[f2]?) ∧
      (∀ y, h2.incidentOf y = h.incidentOf y) := by
  obtain ⟨r, hr, rfl⟩ := updFace_eq_some e
  refine ⟨r, hr, faceFrame_of_faces rfl rfl, by simp, ?_, ?_, fun y => rfl⟩
  · show (h.faceRecords.set f (g r))[f]? = _
    rw [getElem?_set_some hr, if_pos rfl]
  · intro f2 hf2
    show (h.faceRecords.set f (g r))[f2]? = _
    rw [getElem?_set_some hr, if_neg hf2]

theorem setOuterComponent_spec {h h2 : Heap} {f : Nat} {e : Option Nat}
    (hs : setOuterComponent h f e = some h2) :
    ∃ r, h.faceRecords[f]? = some r ∧ r.outerComponent = none ∧ FaceFrame h h2 ∧
      h2.faceRecords.length = h.faceRecords.length ∧
      h2.faceRecords[f]? = some { r with outerComponent := e } ∧
      (∀ f2 : Nat, f2 ≠ f → h2.faceRecords[f2]? = h.faceRecords[f2]?) ∧
      (∀ y, h2.incidentOf y = h.incidentOf y) := by
  simp only [setOuterComponent, Option.bind_eq_bind] at hs
  cases hr : h.faceRecords[f]? with
  | none => rw [hr] at hs; exact Option.noConfusion hs
  | some r =>
    rw [hr] at hs
    simp only [Option.some_bind] at hs
    by_cases ho : r.outerComponent ≠ none
    · rw [if_pos ho] at hs; exact Option.noConfusion hs
    · rw [if_neg ho] at hs
      obtain ⟨r2, hr2, a, b, c, d, e2⟩ := updFace_frame hs
      obtain rfl : r2 = r := Option.some.inj (hr2.symm.trans hr)
      exact ⟨r2, rfl, by simpa using ho, a, b, c, d, e2⟩

/-- The loop body of "Construct new faces" at nil. -/
theorem assignComponent_none {t t1 : Heap} {fuel f : Nat} {fr0 : faceRecord}
    (hf : t.faceRecords[f]? = some fr0) (hs : assignComponent fuel f t none = some t1) :
    FaceFrame t t1 ∧ t1.faceRecords.length = t.faceRecords.length ∧
      (∀ f2 : Nat, f2 ≠ f → t1.faceRecords[f2]? = t.faceRecords[f2]?) ∧
      t1.faceRecords[f]? = some fr0 ∧ ∀ y, t1.incidentOf y = t.incidentOf y := by
  obtain ⟨r, hr, ho, a, b, c, d, e⟩ := setOuterComponent_spec hs
  obtain rfl : r = fr0 := Option.some.inj (hr.symm.trans hf)
  refine ⟨a, b, d, ?_, e⟩
  rw [c]
  cases r
  simp only at ho
  simp [ho]

/-- The loop body of "Construct new faces" at a half-edge. -/
theorem assignComponent_some {t t1 : Heap} {fuel f x : Nat} {fr0 : faceRecord}
    (hf : t.faceRecords[f]? = some fr0) (hs : assignComponent fuel f t (some x) = some t1) :
    FaceFrame t t1 ∧ t1.faceRecords.length = t.faceRecords.length ∧
      (∀ f2 : Nat, f2 ≠ f → t1.faceRecords[f2]? = t.faceRecords[f2]?) ∧
      ∃ b L, edgeLoopIsOuterComponent t x = some b ∧ edgeLoop t x fuel x = some L ∧
        t1.faceRecords[f]? = some (if b then { fr0 with outerComponent := some x }
          else { fr0 with innerComponents := fr0.innerComponents ++ [x] }) ∧
        (b = true → fr0.outerComponent = none) ∧
        (∀ y ∈ L, t1.incidentOf y = some f) ∧
        (∀ y, y ∉ L → t1.incidentOf y = t.incidentOf y) := by
  simp only [assignComponent, Option.bind_eq_bind] at hs
  cases hb : edgeLoopIsOuterComponent t x with
  | none => rw [hb] at hs; exact Option.noConfusion hs
  | some b =>
    rw [hb] at hs
    simp only [Option.some_bind] at hs
    cases b with
    | true =>
      simp only [if_true] at hs
      cases h1 : setOuterComponent t f (some x) with
      | none => rw [h1] at hs; exact Option.noConfusion hs
      | some u =>
        rw [h1] at hs
        simp only [Option.some_bind] at hs
        obtain ⟨r, hr, ho, a, b, c, d, e⟩ := setOuterComponent_spec h1
        obtain rfl : r = fr0 := Option.some.inj (hr.symm.trans hf)
        obtain ⟨L, l1, l2, l3, l4, l5⟩ := assignLoop_spec hs
        refine ⟨a.andThen l2, by rw [l3, b], fun f2 hf2 => by rw [l3]; exact d f2 hf2,
          true, L, rfl, ?_, ?_, fun _ => ho, l4, fun y hy => (l5 y hy).trans (e y)⟩
        · rw [← a.edgeLoop]; exact l1
        · rw [l3, c]; rfl
    | false =>
      simp only [Bool.false_eq_true, if_false] at hs
      cases h1 : t.updFace f (fun r => { r with innerComponents := r.innerComponents ++ [x] }) with
      | none => rw [h1] at hs; exact Option.noConfusion hs
      | some u =>
        rw [h1] at hs
        simp only [Option.some_bind] at hs
        obtain ⟨r, hr, a, b, c, d, e⟩ := updFace_frame h1
        obtain rfl : r = fr0 := Option.some.inj (hr.symm.trans hf)
        obtain ⟨L, l1, l2, l3, l4, l5⟩ := assignLoop_spec hs
        refine ⟨a.andThen l2, by rw [l3, b], fun f2 hf2 => by rw [l3]; exact d f2 hf2,
          false, L, rfl, ?_, ?_, fun hh => by simp at hh, l4,
          fun y hy => (l5 y hy).trans (e y)⟩
        · rw [← a.edgeLoop]; exact l1
        · rw [l3, c]; rfl

/-- The loop over the elements of one set in "Construct new faces", for the face
`f`: what the face record holds afterwards and which half-edges have `f` as their
incident face. `h0` is the heap before the faces are constructed. -/
theorem assignSet_spec (h0 : Heap) (fuel f : Nat) : ∀ (set : List (Option Nat)) (t g : Heap)
    (fr0 : faceRecord), FaceFrame h0 t → t.faceRecords[f]? = some fr0 →
    set.foldlM (assignComponent fuel f) t = some g →
    FaceFrame h0 g ∧ g.faceRecords.length = t.faceRecords.length ∧
    (∀ f2 : Nat, f2 ≠ f → g.faceRecords[f2]? = t.faceRecords[f2]?) ∧
    ∃ fr, g.faceRecords[f]? = some fr ∧ fr.labelA = fr0.labelA ∧ fr.labelB = fr0.labelB ∧
      (∀ x, (fr.outerComponent = some x ∨ x ∈ fr.innerComponents) ↔
        (fr0.outerComponent = some x ∨ x ∈ fr0.innerComponents ∨ some x ∈ set)) ∧
      (∀ x, fr.outerComponent = some x →
        fr0.outerComponent = some x ∨ edgeLoopIsOuterComponent h0 x = some true) ∧
      (∀ x ∈ fr.innerComponents,
        x ∈ fr0.innerComponents ∨ edgeLoopIsOuterComponent h0 x = some false) ∧
      (∀ x, some x ∈ set → ∃ L, edgeLoop h0 x fuel x = some L ∧
        ∀ y ∈ L, g.incidentOf y = some f) ∧
      (∀ y, (∀ x L, some x ∈ set → edgeLoop h0 x fuel x = some L → y ∉ L) →
        g.incidentOf y = t.incidentOf y) := by
  intro set
  induction set with
  | nil =>
    intro t g fr0 ft hf hs
    have : g = t := (Option.some.inj hs).symm
    subst this
    refine ⟨ft, rfl, fun _ _ => rfl, fr0, hf, rfl, rfl, ?_, fun x hx => Or.inl hx,
      fun x hx => Or.inl hx, fun x hx => by simp at hx, fun _ _ => rfl⟩
    intro x; simp
  | cons e rest ih =>
    intro t g fr0 ft hf hs
    rw [List.foldlM_cons] at hs
    cases h1 : assignComponent fuel f t e with
    | none => rw [h1] at hs; exact Option.noConfusion hs
    | some t1 =>
      rw [h1] at hs
      cases e with
      | none =>
        obtain ⟨a1, a2, a3, a4, a5⟩ := assignComponent_none hf h1
        obtain ⟨b1, b2, b3, fr, c1, c2, c3, c4, c5, c6, c7, c8⟩ :=
          ih t1 g fr0 (ft.andThen a1) a4 hs
        refine ⟨b1, b2.trans a2, fun f2 hf2 => (b3 f2 hf2).trans (a3 f2 hf2), fr, c1, c2, c3,
          ?_, c5, c6, ?_, ?_⟩
        · intro x
          rw [c4 x]
          simp
        · intro x hx
          exact c7 x (by simpa using hx)
        · intro y hy
          rw [c8 y (fun x L hx => hy x L (List.mem_cons_of_mem _ hx)), a5]
      | some x0 =>
        obtain ⟨a1, a2, a3, b, L0, a4, a5, a6, a7, a8, a9⟩ := assignComponent_some hf h1
        rw [ft.isOuter] at a4
        rw [ft.edgeLoop] at a5
        obtain ⟨b1, b2, b3, fr, c1, c2, c3, c4, c5, c6, c7, c8⟩ :=
          ih t1 g _ (ft.andThen a1) a6 hs
        refine ⟨b1, b2.trans a2, fun f2 hf2 => (b3 f2 hf2).trans (a3 f2 hf2), fr, c1, ?_, ?_,
          ?_, ?_, ?_, ?_, ?_⟩
        · rw [c2]; cases b <;> rfl
        · rw [c3]; cases b <;> rfl
        · intro x
          rw [c4 x]
          cases b with
          | true =>
            have ho := a7 rfl
            simp only [if_true, List.mem_cons, Option.some.injEq, ho]
            constructor
            · rintro (h | h | h)
              · exact Or.inr (Or.inr (Or.inl h.symm))
              · exact Or.inr (Or.inl h)
              · exact Or.inr (Or.inr (Or.inr h))
            · rintro (h | h | h | h)
              · exact absurd h (by simp)
              · exact Or.inr (Or.inl h)
              · exact Or.inl h.symm
              · exact Or.inr (Or.inr h)
          | false =>
            simp only [Bool.false_eq_true, if_false, List.mem_append, List.mem_singleton,
              List.mem_cons, Option.some.injEq, List.not_mem_nil, or_false]
            constructor
            · rintro (h | (h | h) | h)
              · exact Or.inl h
              · exact Or.inr (Or.inl h)
              · exact Or.inr (Or.inr (Or.inl h))
              · exact Or.inr (Or.inr (Or.inr h))
            · rintro (h | h | h | h)
              · exact Or.inl h
              · exact Or.inr (Or.inl (Or.inl h))
              · exact Or.inr (Or.inl (Or.inr h))
              · exact Or.inr (Or.inr h)
        · intro x hx
          rcases c5 x hx with h | h
          · cases b with
            | true =>
              simp only [if_true, Option.some.injEq] at h
              right; rw [← h]; exact a4
            | false =>
              simp only [Bool.false_eq_true, if_false] at h
              exact Or.inl h
          · exact Or.inr h
        · intro x hx
          rcases c6 x hx with h | h
          · cases b with
            | true =>
              simp only [if_true] at h
              exact Or.inl h
            | false =>
              simp only [Bool.false_eq_true, if_false, List.mem_append,
                List.mem_singleton] at h
              rcases h with h | h
              · exact Or.inl h
              · right; rw [h]; exact a4
          · exact Or.inr h
        · intro x hx
          rcases List.mem_cons.mp hx with h | h
          · have hxx : x = x0 := Option.some.inj h
            subst hxx
            refine ⟨L0, a5, fun y hy => ?_⟩
            by_cases hex : ∃ x2 L2, some x2 ∈ rest ∧ edgeLoop h0 x2 fuel x2 = some L2 ∧ y ∈ L2
            · obtain ⟨x2, L2, m1, m2, m3⟩ := hex
              obtain ⟨L3, n1, n2⟩ := c7 x2 m1
              obtain rfl : L3 = L2 := Option.some.inj (n1.symm.trans m2)
              exact n2 y m3
            · rw [c8 y (fun x2 L2 m1 m2 m3 => hex ⟨x2, L2, m1, m2, m3⟩)]
              exact a8 y hy
          · exact c7 x h
        · intro y hy
          rw [c8 y (fun x L hx => hy x L (List.mem_cons_of_mem _ hx))]
          exact a9 y (hy x0 L0 (List.mem_cons_self _ _) a5)

theorem getElem?_append_single {α : Type} (l : List α) (a : α) (i : Nat) (b : α) :
    (l ++ [a])[i]? = some b ↔ (l[i]? = some b ∨ (i = l.length ∧ b = a)) := by
  by_cases hi : i < l.length
  · rw [List.getElem?_append_left hi]
    constructor
    · exact Or.inl
    · rintro (h | ⟨h, -⟩)
      · exact h
      · omega
  · rw [List.getElem?_append_right (not_lt.mp hi)]
    have hn : l[i]? = none := List.getElem?_eq_none (not_lt.mp hi)
    rw [hn]
    by_cases h0 : i = l.length
    · subst h0; simp [eq_comm]
    · have : i - l.length ≠ 0 := by omega
      cases hk : i - l.length with
      | zero => exact absurd hk this
      | succ k => simp [h0]

/-- The loop over the sets in "Construct new faces". -/
theorem constructFaces_spec (D : Prop) (h0 : Heap) (fuel : Nat) :
    ∀ (sets done : List (List (Option Nat))) (g : Heap) (faces : List Nat)
      (r : Heap × List Nat), FaceFrame h0 g → Built D h0 fuel g done faces →
      (D → LoopsDisjoint h0 fuel (done ++ sets)) →
      sets.foldlM (constructFace fuel) (g, faces) = some r →
      FaceFrame h0 r.1 ∧ Built D h0 fuel r.1 (done ++ sets) r.2 := by
  intro sets
  induction sets with
  | nil =>
    intro done g faces r fg hb _ hs
    have : r = (g, faces) := (Option.some.inj hs).symm
    subst this
    simpa using ⟨fg, hb⟩
  | cons set rest ih =>
    intro done g faces r fg hb hD hs
    rw [List.foldlM_cons] at hs
    cases h1 : constructFace fuel (g, faces) set with
    | none => rw [h1] at hs; exact Option.noConfusion hs
    | some s1 =>
      rw [h1] at hs
      simp only [constructFace, Heap.allocFace, Option.bind_eq_bind, Option.pure_def] at h1
      cases h2 : set.foldlM (assignComponent fuel g.faceRecords.length)
          { g with faceRecords := g.faceRecords ++ [⟨none, [], false, false⟩] } with
      | none => rw [h2] at h1; exact Option.noConfusion h1
      | some g2 =>
        rw [h2] at h1
        have hs1 : s1 = (g2, faces ++ [g.faceRecords.length]) := (Option.some.inj h1).symm
        subst hs1
        have fa : FaceFrame g { g with faceRecords := g.faceRecords ++ [⟨none, [], false, false⟩] } :=
          faceFrame_of_faces rfl rfl
        have hrec : ({ g with faceRecords := g.faceRecords ++ [⟨none, [], false, false⟩] } :
            Heap).faceRecords[g.faceRecords.length]? = some ⟨none, [], false, false⟩ := by
          show (g.faceRecords ++ [_])[g.faceRecords.length]? = _
          simp
        obtain ⟨a1, a2, a3, fr, c1, c2, c3, c4, c5, c6, c7, c8⟩ :=
          assignSet_spec h0 fuel g.faceRecords.length set _ g2 _ (fg.andThen fa) hrec h2
        have hold : ∀ f2 : Nat, f2 < g.faceRecords.length →
            g2.faceRecords[f2]? = g.faceRecords[f2]? := by
          intro f2 hf2
          rw [a3 f2 (by omega)]
          show (g.faceRecords ++ [_])[f2]? = _
          rw [List.getElem?_append_left hf2]
        have hflt : ∀ f ∈ faces, f < g.faceRecords.length := by
          intro f hf
          obtain ⟨i, hi, hfi⟩ := List.getElem_of_mem hf
          have hi2 : i < done.length := by rw [← hb.length]; exact hi
          obtain ⟨f2, fr2, e1, fo⟩ := hb.face i _ (List.getElem?_eq_getElem hi2)
          rw [List.getElem?_eq_getElem hi, hfi] at e1
          obtain rfl : f = f2 := Option.some.inj e1
          exact lt_length_of_getElem?_eq_some fo.record
        have hb2 : Built D h0 fuel g2 (done ++ [set]) (faces ++ [g.faceRecords.length]) := by
          refine ⟨by simp [hb.length], ?_, ?_⟩
          · rw [List.nodup_append]
            refine ⟨hb.nodup, by simp, ?_⟩
            intro f hf hf2
            simp only [List.mem_singleton] at hf2
            have := hflt f hf
            omega
          · intro i st hi
            rcases (getElem?_append_single done set i st).mp hi with hi1 | ⟨hi1, hi2⟩
            · obtain ⟨f, fr2, e1, fo⟩ := hb.face i st hi1
              have hfl := lt_length_of_getElem?_eq_some fo.record
              have hil : i < done.length := lt_length_of_getElem?_eq_some hi1
              refine ⟨f, fr2, ?_, ⟨(hold f hfl).trans fo.record, fo.labelA, fo.labelB,
                fo.components, fo.outer, fo.inner, ?_⟩⟩
              · rw [List.getElem?_append_left (by rw [hb.length]; exact hil)]; exact e1
              · intro x hx
                obtain ⟨L, l1, l2⟩ := fo.incident x hx
                refine ⟨L, l1, fun hd y hy => ?_⟩
                rw [c8 y ?_]
                · exact l2 hd y hy
                · intro x2 L2 m1 m2 m3
                  have := hD hd i done.length st set x x2 L L2 y
                    (by rw [List.getElem?_append_left hil]; exact hi1)
                    (by rw [List.getElem?_append_right (le_refl _)]; simp) hx m1 l1 m2 hy m3
                  omega
            · subst hi2
              refine ⟨g.faceRecords.length, fr, ?_, ⟨c1, c2, c3, ?_, ?_, ?_, ?_⟩⟩
              · rw [hi1, ← hb.length]; simp
              · intro x; rw [c4 x]; simp
              · intro x hx
                rcases c5 x hx with h | h
                · simp at h
                · exact h
              · intro x hx
                rcases c6 x hx with h | h
                · simp at h
                · exact h
              · intro x hx
                obtain ⟨L, l1, l2⟩ := c7 x hx
                exact ⟨L, l1, fun _ => l2⟩
        have := ih (done ++ [set]) g2 (faces ++ [g.faceRecords.length]) r a1 hb2
          (by simpa using hD) hs
        simpa using this

/-! ## The result of reAssignFaces -/

/-- The three loops of `reAssignFaces`, one after the other. -/
theorem reAssignFaces_stages {fuel : Nat} {h hF : Heap} {d dF : doublyConnectedEdgeList}
    (hr : reAssignFaces fuel h d = some (hF, dF)) :
    ∃ scan sets, d.halfEdges.foldlM (scanCycle fuel h) ⟨[], [], []⟩ = some scan ∧
      scan.innerComponents.foldlM (unionInner fuel h d) (initialSets scan) = some sets ∧
      sets.foldlM (constructFace fuel) (h, []) = some (hF, dF.faces) ∧
      dF = { d with faces := dF.faces } := by
  simp only [reAssignFaces, Option.bind_eq_bind, Option.pure_def, Option.bind_eq_some] at hr
  obtain ⟨scan, h1, sets, h2, r, h3, h4⟩ := hr
  simp only [Option.some.injEq, Prod.mk.injEq] at h4
  obtain ⟨rfl, rfl⟩ := h4
  exact ⟨scan, sets, h1, h2, h3, rfl⟩

/-- After `reAssignFaces` the heap differs from the one before at most in the
incident faces and the face records, and `d.faces` holds one face for each set of
the graph, constructed from it. -/
theorem reAssignFaces_built {fuel : Nat} {h hF : Heap} {faces : List Nat}
    {sets : List (List (Option Nat))}
    (h3 : sets.foldlM (constructFace fuel) (h, []) = some (hF, faces)) :
    FaceFrame h hF ∧ Built (LoopsDisjoint h fuel sets) h fuel hF sets faces := by
  have := constructFaces_spec (LoopsDisjoint h fuel sets) h fuel sets [] h [] (hF, faces)
    (FaceFrame.same h) ⟨rfl, List.nodup_nil, fun i set hi => by simp at hi⟩
    (by simp) h3
  simpa using this

theorem built_face_of_mem {D : Prop} {h0 g : Heap} {fuel : Nat}
    {sets : List (List (Option Nat))} {faces : List Nat}
    (hb : Built D h0 fuel g sets faces) {f : Nat} (hf : f ∈ faces) :
    ∃ set fr, set ∈ sets ∧ FaceOf D h0 fuel g set f fr := by
  obtain ⟨i, hi, hfi⟩ := List.getElem_of_mem hf
  have hi2 : i < sets.length := by rw [← hb.length]; exact hi
  obtain ⟨f2, fr, e1, fo⟩ := hb.face i _ (List.getElem?_eq_getElem hi2)
  rw [List.getElem?_eq_getElem hi, hfi] at e1
  obtain rfl : f = f2 := Option.some.inj e1
  exact ⟨sets[i], fr, List.getElem_mem _, fo⟩

/-- The steps of `overlay`, one after the other. -/
theorem overlay_stages {fuel : Nat} {h : Heap} {d other : doublyConnectedEdgeList}
    {s : Heap × doublyConnectedEdgeList} (ho : overlay fuel h d other = some s) :
    ∃ hv halfEdges h2, overlayVertices fuel h d.vertices other = some hv ∧
      overlayEdges fuel hv.1 d.halfEdges other = some halfEdges ∧
      fixVertices radialSort (hv.2.map Prod.fst) hv.1
        { d with halfEdges := halfEdges, vertices := hv.2 } = some h2 ∧
      reAssignFaces fuel h2 { d with halfEdges := halfEdges, vertices := hv.2 } = some s := by
  simp only [overlay, Option.bind_eq_bind, Option.bind_eq_some] at ho
  obtain ⟨hv, h1, he, h2, g, h3, h4⟩ := ho
  exact ⟨hv, he, g, h1, h2, h3, h4⟩

/-- The steps of the pipeline, one after the other. -/
theorem overlayPolygons_stages {fuel : Nat} {polyA polyB : Polygon}
    {s : Heap × doublyConnectedEdgeList} (ho : overlayPolygons fuel polyA polyB = some s) :
    ∃ a b a2 b2, newDCELFromPolygon Heap.empty polyA true = some a ∧
      newDCELFromPolygon a.1 polyB false = some b ∧
      reNodeGraph fuel b.1 a.2 polyB = some a2 ∧
      reNodeGraph fuel a2.1 b.2 polyA = some b2 ∧
      overlay fuel b2.1 a2.2 b2.2 = some s := by
  simp only [overlayPolygons, Option.bind_eq_bind, Option.bind_eq_some] at ho
  obtain ⟨a, h1, b, h2, a2, h3, b2, h4, h5⟩ := ho
  exact ⟨a, b, a2, b2, h1, h2, h3, h4, h5⟩

theorem overlappingSquares_some :
    (overlayPolygons 100 (squarePolygon 0 0 4 4) (squarePolygon 2 2 6 6)).isSome = true := by
  have hf := overlappingSquares_faces
  cases hr : overlayPolygons 100 (squarePolygon 0 0 4 4) (squarePolygon 2 2 6 6) with
  | none => rw [hr] at hf; simp at hf
  | some s => rfl

/-! ## Claim C14 -/

/-- C14, as stated, fails: after the overlay of the squares (0,0)-(4,4) and
(2,2)-(6,6) the face whose outer cycle is the square (2,2)-(4,4), which lies in the
interior of both polygons, has both labels false. -/
theorem C14_labels_counterexample :
    ∃ s fs, overlayPolygons 100 (squarePolygon 0 0 4 4) (squarePolygon 2 2 6 6) = some s ∧
      faceSummaries 100 s = some fs ∧
      (⟨some [⟨2, 2⟩, ⟨4, 2⟩, ⟨4, 4⟩, ⟨2, 4⟩], [], false, false⟩ : FaceSummary) ∈ fs := by
  have hf := overlappingSquares_faces
  cases hr : overlayPolygons 100 (squarePolygon 0 0 4 4) (squarePolygon 2 2 6 6) with
  | none => rw [hr] at hf; simp at hf
  | some s =>
    rw [hr] at hf
    simp only [Option.some_bind] at hf
    cases hs : faceSummaries 100 s with
    | none => rw [hs] at hf; simp at hf
    | some fs =>
      rw [hs] at hf
      simp only [Option.map_some', Option.some.injEq, Prod.mk.injEq] at hf
      refine ⟨s, fs, rfl, hs, ?_⟩
      rw [hf.1]
      simp

/-- C14, amended: after `overlay` every face of the rebuilt face list has
`labelA = false` and `labelB = false`, whatever the labels set at construction
were: they are not restored on the rebuilt faces. -/
theorem C14_rebuilt_labels_false (fuel : Nat) (h hF : Heap)
    (d other dF : doublyConnectedEdgeList)
    (ho : overlay fuel h d other = some (hF, dF)) :
    ∀ f ∈ dF.faces, ∃ fr, hF.faceRecords[f]? = some fr ∧ fr.labelA = false ∧
      fr.labelB = false := by
  obtain ⟨hv, he, h2, -, -, -, hr⟩ := overlay_stages ho
  obtain ⟨scan, sets, -, -, h3, -⟩ := reAssignFaces_stages hr
  obtain ⟨-, hb⟩ := reAssignFaces_built h3
  intro f hf
  obtain ⟨set, fr, -, fo⟩ := built_face_of_mem hb hf
  exact ⟨fr, fo.record, fo.labelA, fo.labelB⟩

/-- C14, amended, at the overlay of the squares (0,0)-(4,4) and (2,2)-(6,6). -/
theorem C14_rebuilt_labels_false_witness :
    ∃ a b a2 b2 hF dF,
      newDCELFromPolygon Heap.empty (squarePolygon 0 0 4 4) true = some a ∧
      newDCELFromPolygon a.1 (squarePolygon 2 2 6 6) false = some b ∧
      reNodeGraph 100 b.1 a.2 (squarePolygon 2 2 6 6) = some a2 ∧
      reNodeGraph 100 a2.1 b.2 (squarePolygon 0 0 4 4) = some b2 ∧
      overlay 100 b2.1 a2.2 b2.2 = some (hF, dF) ∧
      ∀ f ∈ dF.faces, ∃ fr, hF.faceRecords[f]? = some fr ∧ fr.labelA = false ∧
        fr.labelB = false := by
  obtain ⟨s, hs⟩ := Option.isSome_iff_exists.mp overlappingSquares_some
  obtain ⟨a, b, a2, b2, h1, h2, h3, h4, h5⟩ := overlayPolygons_stages hs
  exact ⟨a, b, a2, b2, s.1, s.2, h1, h2, h3, h4, h5,
    C14_rebuilt_labels_false 100 b2.1 s.1 a2.2 b2.2 s.2 h5⟩

/-! ## The leftmost, then lowest half-edge of a loop -/

theorem edgeLoop_cons {h : Heap} {s fuel : Nat} {L : List Nat}
    (hL : edgeLoop h s fuel s = some L) : ∃ rest, L = s :: rest := by
  obtain ⟨k, -, r, rfl⟩ := (edgeLoop_eq_some fuel s L).mp hL
  obtain ⟨k2, rfl⟩ : ∃ k2, k = k2 + 1 := ⟨k - 1, by have := r.pos; omega⟩
  exact ⟨_, rfl⟩

/-- The fold of `edgeLoopLeftmostLowest` from a best half-edge on. -/
theorem leftmost_fold (h : Heap) (F : Option Nat → Nat → Option (Option Nat))
    (hF : ∀ b e, F (some b) e = (h.originCoords e).bind (fun ce =>
      (h.originCoords b).bind (fun cb => some (if ce.Less cb then some e else some b)))) :
    ∀ (L P : List Nat) (b : Nat) (r : Option Nat), b ∈ P → (∀ y ∈ P, NotBelow h b y) →
      L.foldlM F (some b) = some r →
      ∃ b2, r = some b2 ∧ b2 ∈ P ++ L ∧ ∀ y ∈ P ++ L, NotBelow h b2 y := by
  intro L
  induction L with
  | nil =>
    intro P b r hb hP hr
    have : r = some b := (Option.some.inj hr).symm
    exact ⟨b, this, by simpa using hb, by simpa using hP⟩
  | cons e rest ih =>
    intro P b r hb hP hr
    rw [List.foldlM_cons, hF] at hr
    cases hce : h.originCoords e with
    | none => rw [hce] at hr; exact Option.noConfusion hr
    | some ce =>
      cases hcb : h.originCoords b with
      | none => rw [hce, hcb] at hr; exact Option.noConfusion hr
      | some cb =>
        rw [hce, hcb] at hr
        simp only [Option.some_bind, Option.bind_eq_bind] at hr
        by_cases hl : ce.Less cb = true
        · rw [if_pos hl] at hr
          have hlt : LexLT ce cb := by simpa [XY.Less, LexLT] using hl
          have := ih (P ++ [e]) e r (by simp) (by
            intro y hy
            rcases List.mem_append.mp hy with hy | hy
            · rcases hP y hy with rfl | ⟨cy, cb2, h1, h2, h3⟩
              · exact Or.inr ⟨cb, ce, hcb, hce, lexLE_of_lexLT hlt⟩
              · rw [hcb] at h2
                obtain rfl := Option.some.inj h2
                exact Or.inr ⟨cy, ce, h1, hce, lexLE_trans (lexLE_of_lexLT hlt) h3⟩
            · exact Or.inl (List.mem_singleton.mp hy)) hr
          simpa using this
        · rw [if_neg hl] at hr
          have hle : LexLE cb ce := (less_eq_false_iff cb ce).mp (by simpa using hl)
          have := ih (P ++ [e]) b r (by simp [hb]) (by
            intro y hy
            rcases List.mem_append.mp hy with hy | hy
            · exact hP y hy
            · rw [List.mem_singleton.mp hy]
              exact Or.inr ⟨ce, cb, hce, hcb, hle⟩) hr
          simpa using this

/-- The fold of `edgeLoopLeftmostLowest` keeps a best half-edge that none of the
others is before. -/
theorem leftmost_fold_keep (h : Heap) (F : Option Nat → Nat → Option (Option Nat))
    (hF : ∀ b e, F (some b) e = (h.originCoords e).bind (fun ce =>
      (h.originCoords b).bind (fun cb => some (if ce.Less cb then some e else some b))))
    (b : Nat) : ∀ (L : List Nat), (∀ y ∈ L, y ≠ b ∧ NotBelow h b y) →
      L.foldlM F (some b) = some (some b) := by
  intro L
  induction L with
  | nil => intro _; rfl
  | cons e rest ih =>
    intro hL
    rw [List.foldlM_cons, hF]
    obtain ⟨hne, hnb⟩ := hL e (List.mem_cons_self _ _)
    rcases hnb with rfl | ⟨ce, cb, h1, h2, h3⟩
    · exact absurd rfl hne
    · rw [h1, h2]
      simp only [Option.some_bind, Option.bind_eq_bind]
      have : ce.Less cb = false := (less_eq_false_iff cb ce).mpr h3
      rw [this]
      exact ih (fun y hy => hL y (List.mem_cons_of_mem _ hy))

theorem edgeLoopLeftmostLowest_eq (fuel : Nat) (h : Heap) (s : Nat) :
    edgeLoopLeftmostLowest fuel h s =
      ((edgeLoop h s fuel s).bind (fun L => L.foldlM
        (fun (best : Option Nat) e => match best with
          | none => some (some e)
          | some b => (h.originCoords e).bind (fun ce =>
            (h.originCoords b).bind (fun cb => some (if ce.Less cb then some e else some b))))
        none)).join := by
  unfold edgeLoopLeftmostLowest
  rw [forEachEdge_eq_foldlM h _ _ (fun _ => True) (fun _ _ _ => rfl) (fun _ _ _ _ _ => trivial)
    s fuel none s trivial]
  rfl

/-- The half-edge `edgeLoopLeftmostLowest` returns is on the loop of `start`, and
the origin of no half-edge of the loop is before its origin. -/
theorem edgeLoopLeftmostLowest_spec {fuel : Nat} {h : Heap} {s b : Nat}
    (hb : edgeLoopLeftmostLowest fuel h s = some b) :
    ∃ L, edgeLoop h s fuel s = some L ∧ b ∈ L ∧ ∀ y ∈ L, NotBelow h b y := by
  rw [edgeLoopLeftmostLowest_eq] at hb
  cases hL : edgeLoop h s fuel s with
  | none => rw [hL] at hb; simp at hb
  | some L =>
    rw [hL] at hb
    obtain ⟨rest, rfl⟩ := edgeLoop_cons hL
    simp only [Option.some_bind, List.foldlM_cons, Option.bind_eq_bind] at hb
    cases hf : rest.foldlM (fun (best : Option Nat) e => match best with
          | none => some (some e)
          | some b => (h.originCoords e).bind (fun ce =>
            (h.originCoords b).bind (fun cb => some (if ce.Less cb then some e else some b))))
        (some s) with
    | none => rw [hf] at hb; simp at hb
    | some r =>
      rw [hf] at hb
      obtain ⟨b2, rfl, h1, h2⟩ := leftmost_fold h _ (fun _ _ => rfl) rest [s] s r
        (List.mem_singleton_self s) (fun y hy => Or.inl (List.mem_singleton.mp hy)) hf
      simp only [Option.join, Option.some_bind, id, Option.some.injEq] at hb
      subst hb
      exact ⟨_, rfl, h1, h2⟩

/-- The half-edge `edgeLoopLeftmostLowest` returns is the one it returns from
itself. -/
theorem edgeLoopLeftmostLowest_idem {fuel : Nat} {h : Heap} {s b : Nat}
    (hb : edgeLoopLeftmostLowest fuel h s = some b) :
    edgeLoopLeftmostLowest fuel h b = some b := by
  obtain ⟨L, hL, hbL, hmin⟩ := edgeLoopLeftmostLowest_spec hb
  obtain ⟨-, -, hrot⟩ := edgeLoop_rotate hL
  obtain ⟨L2, hL2, hmem⟩ := hrot b hbL
  obtain ⟨-, hnd, -⟩ := edgeLoop_rotate hL2
  obtain ⟨rest, rfl⟩ := edgeLoop_cons hL2
  rw [edgeLoopLeftmostLowest_eq, hL2]
  simp only [Option.some_bind, List.foldlM_cons, Option.bind_eq_bind]
  rw [leftmost_fold_keep h _ (fun _ _ => rfl) b rest (fun y hy =>
    ⟨fun e => (List.nodup_cons.mp hnd).1 (e ▸ hy),
      hmin y ((hmem y).mp (List.mem_cons_of_mem _ hy))⟩)]
  rfl

/-! ## The loop that finds the boundary cycles -/

theorem Apart.symm {h : Heap} {fuel : Nat} {a b : Option Nat} (hab : Apart h fuel a b) :
    Apart h fuel b a :=
  fun x1 x2 L1 L2 y h1 h2 h3 h4 h5 h6 => hab x2 x1 L2 L1 y h2 h1 h4 h3 h6 h5

theorem mem_foldl_cons {α : Type} (L : List α) : ∀ (s : List α) (y : α),
    y ∈ L.foldl (fun seen x => x :: seen) s ↔ y ∈ L ∨ y ∈ s := by
  induction L with
  | nil => intro s y; simp
  | cons a rest ih =>
    intro s y
    rw [List.foldl_cons, ih]
    simp only [List.mem_cons]
    tauto

/-- Two loops with a half-edge in common have the same half-edges. -/
theorem edgeLoop_mem_of_common {h : Heap} {fuel a b : Nat} {La Lb : List Nat} {y : Nat}
    (ha : edgeLoop h a fuel a = some La) (hb : edgeLoop h b fuel b = some Lb)
    (hya : y ∈ La) (hyb : y ∈ Lb) : ∀ z, z ∈ La ↔ z ∈ Lb := by
  obtain ⟨L1, h1, m1⟩ := (edgeLoop_rotate ha).2.2 y hya
  obtain ⟨L2, h2, m2⟩ := (edgeLoop_rotate hb).2.2 y hyb
  rw [h1] at h2
  obtain rfl := Option.some.inj h2
  intro z
  rw [← m1 z, m2 z]

/-- A new component joins the components found. -/
theorem scanInv_add {h : Heap} {fuel : Nat} {s s2 : CycleScan} {e ll : Nat} {L : List Nat}
    (inv : ScanInv h fuel s) (he : e ∉ s.seen) (hL : edgeLoop h e fuel e = some L)
    (hll : edgeLoopLeftmostLowest fuel h e = some ll)
    (hseen : ∀ y, y ∈ s2.seen ↔ y ∈ L ∨ y ∈ s.seen)
    (hperm : (s2.innerComponents ++ s2.outerComponents).Perm
      (ll :: (s.innerComponents ++ s.outerComponents))) : ScanInv h fuel s2 := by
  obtain ⟨L0, hL0, hllL, -⟩ := edgeLoopLeftmostLowest_spec hll
  rw [hL] at hL0
  obtain rfl := Option.some.inj hL0
  obtain ⟨heL, -, hrot⟩ := edgeLoop_rotate hL
  obtain ⟨L2, hL2, hmem⟩ := hrot ll hllL
  refine ⟨?_, ?_, ?_, ?_⟩
  · intro y hy
    rcases (hseen y).mp hy with hy | hy
    · exact ⟨ll, hperm.mem_iff.mpr (List.mem_cons_self _ _), L2, hL2, (hmem y).mpr hy⟩
    · obtain ⟨x, hx, Lx, h1, h2⟩ := inv.covered y hy
      exact ⟨x, hperm.mem_iff.mpr (List.mem_cons_of_mem _ hx), Lx, h1, h2⟩
  · intro x hx Lx hLx y hy
    rcases List.mem_cons.mp (hperm.mem_iff.mp hx) with rfl | hx
    · rw [hL2] at hLx
      obtain rfl := Option.some.inj hLx
      exact (hseen y).mpr (Or.inl ((hmem y).mp hy))
    · exact (hseen y).mpr (Or.inr (inv.closed x hx Lx hLx y hy))
  · have hp : ((s2.innerComponents ++ s2.outerComponents).map some).Perm
        (some ll :: (s.innerComponents ++ s.outerComponents).map some) := by
      simpa using hperm.map some
    rw [hp.pairwise_iff (fun hab => Apart.symm hab), List.pairwise_cons]
    refine ⟨?_, inv.apart⟩
    intro a ha x1 x2 L1 Lx y h1 h2 h3 h4 h5 h6
    obtain rfl := Option.some.inj h1
    subst h2
    obtain ⟨x, hx, hx2⟩ := List.mem_map.mp ha
    obtain rfl := Option.some.inj hx2
    rw [hL2] at h3
    obtain rfl := Option.some.inj h3
    have hyL : y ∈ L := (hmem y).mp h5
    have := (edgeLoop_mem_of_common hL h4 hyL h6 e).mp heL
    exact he (inv.closed x hx Lx h4 e this)
  · intro x hx
    rcases List.mem_cons.mp (hperm.mem_iff.mp hx) with rfl | hx
    · exact edgeLoopLeftmostLowest_idem hll
    · exact inv.lowest x hx

/-- One iteration of the loop "Find all boundary cycles". -/
theorem scanCycle_spec {h : Heap} {fuel : Nat} {s s2 : CycleScan} {e : Nat}
    (inv : ScanInv h fuel s) (hs : scanCycle fuel h s e = some s2) :
    ScanInv h fuel s2 ∧ e ∈ s2.seen ∧ ∀ y ∈ s.seen, y ∈ s2.seen := by
  unfold scanCycle at hs
  by_cases he : e ∈ s.seen
  · rw [if_pos he] at hs
    obtain rfl : s = s2 := Option.some.inj hs
    exact ⟨inv, he, fun y hy => hy⟩
  · rw [if_neg he] at hs
    simp only [Option.bind_eq_bind, Option.bind_eq_some, Option.pure_def] at hs
    obtain ⟨ll, hll, isOuter, -, seen, hseen, hs2⟩ := hs
    rw [forEachEdge_eq_foldlM h _ _ (fun _ => True) (fun _ _ _ => rfl)
      (fun _ _ _ _ _ => trivial) e fuel s.seen e trivial] at hseen
    cases hL : edgeLoop h e fuel e with
    | none => rw [hL] at hseen; exact Option.noConfusion hseen
    | some L =>
      rw [hL, Option.some_bind, foldlM_some_eq] at hseen
      obtain rfl := Option.some.inj hseen
      have hmem := mem_foldl_cons L s.seen
      obtain rfl := Option.some.inj hs2
      cases isOuter with
      | true =>
        refine ⟨scanInv_add inv he hL hll hmem ?_, ?_, ?_⟩
        · simp only [if_true]
          rw [← List.append_assoc]
          exact List.perm_append_singleton _ _
        · exact (hmem e).mpr (Or.inl (edgeLoop_rotate hL).1)
        · intro y hy; exact (hmem y).mpr (Or.inr hy)
      | false =>
        refine ⟨scanInv_add inv he hL hll hmem ?_, ?_, ?_⟩
        · simp only [Bool.false_eq_true, if_false]
          rw [List.append_assoc, List.singleton_append]
          exact List.perm_middle
        · exact (hmem e).mpr (Or.inl (edgeLoop_rotate hL).1)
        · intro y hy; exact (hmem y).mpr (Or.inr hy)

/-- The loop "Find all boundary cycles". -/
theorem scan_spec {h : Heap} {fuel : Nat} : ∀ (l : List Nat) (s s2 : CycleScan),
    ScanInv h fuel s → l.foldlM (scanCycle fuel h) s = some s2 →
    ScanInv h fuel s2 ∧ (∀ y ∈ s.seen, y ∈ s2.seen) ∧ ∀ e ∈ l, e ∈ s2.seen := by
  intro l
  induction l with
  | nil =>
    intro s s2 inv hs
    obtain rfl : s = s2 := Option.some.inj hs
    exact ⟨inv, fun y hy => hy, fun e he => absurd he (List.not_mem_nil e)⟩
  | cons a rest ih =>
    intro s s2 inv hs
    rw [List.foldlM_cons] at hs
    cases h1 : scanCycle fuel h s a with
    | none => rw [h1] at hs; exact Option.noConfusion hs
    | some s1 =>
      rw [h1] at hs
      obtain ⟨i1, a1, m1⟩ := scanCycle_spec inv h1
      obtain ⟨i2, m2, e2⟩ := ih s1 s2 i1 hs
      refine ⟨i2, fun y hy => m2 y (m1 y hy), ?_⟩
      intro e he
      rcases List.mem_cons.mp he with rfl | he
      · exact m2 e a1
      · exact e2 e he

theorem scanInv_empty (h : Heap) (fuel : Nat) : ScanInv h fuel ⟨[], [], []⟩ :=
  ⟨fun y hy => absurd hy (List.not_mem_nil y), fun x hx => absurd hx (List.not_mem_nil x),
    List.Pairwise.nil, fun x hx => absurd hx (List.not_mem_nil x)⟩

/-! ## The unions of the graph -/

theorem set_perm_cons {α : Type} : ∀ (l : List α) (j : Nat) (b x : α), l[j]? = some b →
    (b :: l.set j x).Perm (x :: l) := by
  intro l
  induction l with
  | nil => intro j b x h; simp at h
  | cons y rest ih =>
    intro j b x h
    cases j with
    | zero =>
      simp only [List.getElem?_cons_zero, Option.some.injEq] at h
      subst h
      exact List.Perm.swap x y rest
    | succ j =>
      simp only [List.getElem?_cons_succ] at h
      simp only [List.set_cons_succ]
      exact ((List.Perm.swap y b _).trans ((ih j b x h).cons y)).trans (List.Perm.swap x y rest)

theorem swap_perm {α : Type} : ∀ (l : List α) (i j : Nat) (a b : α), l[i]? = some a →
    l[j]? = some b → ((l.set i b).set j a).Perm l := by
  intro l
  induction l with
  | nil => intro i j a b h; simp at h
  | cons x rest ih =>
    intro i j a b hi hj
    cases i with
    | zero =>
      simp only [List.getElem?_cons_zero, Option.some.injEq] at hi
      subst hi
      cases j with
      | zero =>
        simp only [List.getElem?_cons_zero, Option.some.injEq] at hj
        subst hj
        simp
      | succ j =>
        simp only [List.getElem?_cons_succ] at hj
        simp only [List.set_cons_zero, List.set_cons_succ]
        exact set_perm_cons rest j b x hj
    | succ i =>
      simp only [List.getElem?_cons_succ] at hi
      cases j with
      | zero =>
        simp only [List.getElem?_cons_zero, Option.some.injEq] at hj
        subst hj
        simp only [List.set_cons_zero, List.set_cons_succ]
        exact set_perm_cons rest i a x hi
      | succ j =>
        simp only [List.getElem?_cons_succ] at hj
        simp only [List.set_cons_succ]
        exact (ih i j a b hi hj).cons x

/-- The swap of two sets of the graph. -/
theorem swapSets_spec {sets s2 : List (List (Option Nat))} {i j : Nat}
    (h : swapSets sets i j = some s2) :
    ∃ a b, sets[i]? = some a ∧ sets[j]? = some b ∧ s2.Perm sets ∧
      s2.length = sets.length ∧ s2[j]? = some a ∧ (i ≠ j → s2[i]? = some b) ∧
      ∀ k, k ≠ i → k ≠ j → s2[k]? = sets[k]? := by
  simp only [swapSets, Option.bind_eq_bind, Option.bind_eq_some, Option.pure_def,
    Option.some.injEq] at h
  obtain ⟨a, ha, b, hb, rfl⟩ := h
  have hi := lt_length_of_getElem?_eq_some ha
  have hj := lt_length_of_getElem?_eq_some hb
  refine ⟨a, b, ha, hb, swap_perm sets i j a b ha hb, by simp, ?_, ?_, ?_⟩
  · rw [List.getElem?_set_self (by simpa using hj)]
  · intro hne
    rw [List.getElem?_set_ne (Ne.symm hne), List.getElem?_set_self hi]
  · intro k hki hkj
    rw [List.getElem?_set_ne (Ne.symm hkj), List.getElem?_set_ne (Ne.symm hki)]

theorem eq_take_append_two {α : Type} (l : List α) (a b : α) (hn : 2 ≤ l.length)
    (hb : l[l.length - 2]? = some b) (ha : l[l.length - 1]? = some a) :
    l = l.take (l.length - 2) ++ [b, a] := by
  apply List.ext_getElem?
  intro k
  by_cases hk : k < l.length - 2
  · rw [List.getElem?_append_left (by simp; omega), List.getElem?_take_of_lt hk]
  · rw [List.getElem?_append_right (by simp; omega)]
    simp only [List.length_take]
    have hmin : min (l.length - 2) l.length = l.length - 2 := by omega
    rw [hmin]
    by_cases h0 : k = l.length - 2
    · subst h0; simp [hb]
    · by_cases h1 : k = l.length - 1
      · have : k - (l.length - 2) = 1 := by omega
        rw [this, h1, ha]; rfl
      · have h2 : l.length ≤ k := by omega
        rw [List.getElem?_eq_none h2]
        have : k - (l.length - 2) = (k - l.length) + 2 := by omega
        rw [this]; rfl

/-- The method `union` rearranges the sets and joins two of them: the elements of
the graph stay those they were. -/
theorem union_perm {sets r : List (List (Option Nat))} {e1 e2 : Option Nat}
    (h : disjointEdgeSet.union sets e1 e2 = some r) : r.flatten.Perm sets.flatten := by
  simp only [disjointEdgeSet.union, Option.bind_eq_bind, Option.bind_eq_some] at h
  obtain ⟨idx1, -, idx2, -, h⟩ := h
  by_cases hne : idx1 = idx2
  · rw [if_pos hne] at h; exact Option.noConfusion h
  · rw [if_neg hne] at h
    simp only [Option.bind_eq_bind, Option.bind_eq_some, Option.pure_def,
      Option.some.injEq] at h
    obtain ⟨set1, h1, set2, h2, sets1, hs1, sets2, hs2, rfl⟩ := h
    have l1 := lt_length_of_getElem?_eq_some h1
    have l2 := lt_length_of_getElem?_eq_some h2
    obtain ⟨a, b, ha, hb, p1, n1, j1, i1, o1⟩ := swapSets_spec hs1
    rw [h1] at ha
    obtain rfl := Option.some.inj ha
    obtain ⟨a2, b2, ha2, hb2, p2, n2, j2, i2, o2⟩ := swapSets_spec hs2
    -- `set2` is at the second index in `sets1`
    have hset2 : a2 = set2 := by
      by_cases hx : idx2 = sets.length - 1
      · rw [if_pos hx] at ha2
        rw [i1 (by omega)] at ha2
        rw [← hx, h2] at hb
        exact (Option.some.inj ha2).symm.trans (Option.some.inj hb).symm
      · rw [if_neg hx] at ha2
        rw [o1 idx2 (Ne.symm hne) hx, h2] at ha2
        exact (Option.some.inj ha2).symm
    subst hset2
    have hidx : (if idx2 = sets.length - 1 then idx1 else idx2) ≠ sets.length - 1 := by
      by_cases hx : idx2 = sets.length - 1
      · rw [if_pos hx]; omega
      · rw [if_neg hx]; exact hx
    have hlast : sets2[sets2.length - 1]? = some set1 := by
      rw [n2, n1, o2 _ (Ne.symm hidx) (by omega)]
      exact j1
    have hprev : sets2[sets2.length - 2]? = some a2 := by
      rw [n2, n1]; exact j2
    have hdec := eq_take_append_two sets2 set1 a2 (by rw [n2, n1]; omega) hprev hlast
    have hlen : sets2.length = sets.length := by rw [n2, n1]
    rw [hlen] at hdec
    have hp : (List.take (sets.length - 2) sets2 ++ [a2, set1]).Perm sets := by
      rw [← hdec]; exact p2.trans p1
    refine List.Perm.trans ?_ hp.flatten
    simp only [List.flatten_append, List.flatten_cons, List.flatten_nil, List.append_nil]
    exact List.Perm.append_left _ List.perm_append_comm

/-- The loop of the unions: the elements of the graph stay those they were. -/
theorem unions_perm {fuel : Nat} {h : Heap} {d : doublyConnectedEdgeList} :
    ∀ (l : List Nat) (sets r : List (List (Option Nat))),
      l.foldlM (unionInner fuel h d) sets = some r → r.flatten.Perm sets.flatten := by
  intro l
  induction l with
  | nil =>
    intro sets r hr
    obtain rfl : sets = r := Option.some.inj hr
    exact List.Perm.refl _
  | cons x rest ih =>
    intro sets r hr
    rw [List.foldlM_cons] at hr
    cases h1 : unionInner fuel h d sets x with
    | none => rw [h1] at hr; exact Option.noConfusion hr
    | some s1 =>
      rw [h1] at hr
      refine (ih s1 r hr).trans ?_
      unfold unionInner at h1
      cases hn : findNextDownEdgeToTheLeft h d x with
      | none => rw [hn] at h1; exact Option.noConfusion h1
      | some nl =>
        rw [hn] at h1
        simp only [Option.bind_eq_bind, Option.some_bind] at h1
        cases nl with
        | none => exact union_perm h1
        | some e =>
          simp only [Option.bind_eq_some] at h1
          obtain ⟨_, -, hu⟩ := h1
          exact union_perm hu

/-- Where no two elements of the graph have loops with a half-edge in common, the
loops of elements of different sets have none. -/
theorem loopsDisjoint_of_pairwise {h : Heap} {fuel : Nat} {sets : List (List (Option Nat))}
    (hp : sets.flatten.Pairwise (Apart h fuel)) : LoopsDisjoint h fuel sets := by
  rw [List.pairwise_flatten] at hp
  have hp2 := List.pairwise_iff_getElem.mp hp.2
  intro i j s1 s2 x1 x2 L1 L2 y hi hj m1 m2 e1 e2 y1 y2
  have li := lt_length_of_getElem?_eq_some hi
  have lj := lt_length_of_getElem?_eq_some hj
  rw [List.getElem?_eq_getElem li] at hi
  rw [List.getElem?_eq_getElem lj] at hj
  obtain rfl := Option.some.inj hi
  obtain rfl := Option.some.inj hj
  rcases Nat.lt_trichotomy i j with hlt | heq | hgt
  · exact absurd y2 (hp2 i j li lj hlt _ m1 _ m2 x1 x2 L1 L2 y rfl rfl e1 e2 y1)
  · exact heq
  · exact absurd y1 (hp2 j i lj li hgt _ m2 _ m1 x2 x1 L2 L1 y rfl rfl e2 e1 y2)

/-! ## The whole of reAssignFaces -/

theorem FaceFrame.leftmostLowest {h g : Heap} (a : FaceFrame h g) (fuel s : Nat) :
    edgeLoopLeftmostLowest fuel g s = edgeLoopLeftmostLowest fuel h s := by
  rw [edgeLoopLeftmostLowest_eq, edgeLoopLeftmostLowest_eq, a.edgeLoop]
  have : (fun x => g.originCoords x) = (fun x => h.originCoords x) := funext a.coords
  have e : g.originCoords = h.originCoords := this
  rw [e]

theorem mem_initialSets_flatten (s : CycleScan) (x : Nat) :
    some x ∈ (initialSets s).flatten ↔ x ∈ s.innerComponents ++ s.outerComponents := by
  simp only [initialSets, List.flatten_append, List.mem_append, List.mem_flatten,
    List.mem_map, List.mem_singleton]
  constructor
  · rintro ((⟨l, ⟨e, he, rfl⟩, hx⟩ | ⟨l, ⟨e, he, rfl⟩, hx⟩) | ⟨l, rfl, hx⟩)
    · simp only [List.mem_singleton, Option.some.injEq] at hx
      subst hx; exact Or.inl he
    · simp only [List.mem_singleton, Option.some.injEq] at hx
      subst hx; exact Or.inr he
    · simp at hx
  · rintro (hx | hx)
    · exact Or.inl (Or.inl ⟨[some x], ⟨x, hx, rfl⟩, List.mem_singleton_self _⟩)
    · exact Or.inl (Or.inr ⟨[some x], ⟨x, hx, rfl⟩, List.mem_singleton_self _⟩)

theorem initialSets_flatten (s : CycleScan) :
    (initialSets s).flatten =
      (s.innerComponents ++ s.outerComponents).map some ++ [none] := by
  simp only [initialSets, List.flatten_append, List.map_append, List.flatten_cons,
    List.flatten_nil, List.append_nil]
  congr 1
  congr 1
  · induction s.innerComponents with
    | nil => rfl
    | cons a rest ih => simp [ih]
  · induction s.outerComponents with
    | nil => rfl
    | cons a rest ih => simp [ih]

/-- What `reAssignFaces` leaves: the heap differs from the one before at most in
the incident faces and the face records; `d.faces` holds one face for each set of
the graph, constructed from it; the loops of elements of different sets have no
half-edge in common; the elements of the graph are the components found and nil;
every half-edge of `d.halfEdges` is on the loop of a component found. -/
theorem reAssignFaces_spec {fuel : Nat} {h hF : Heap} {d dF : doublyConnectedEdgeList}
    (hr : reAssignFaces fuel h d = some (hF, dF)) :
    ∃ scan sets, d.halfEdges.foldlM (scanCycle fuel h) ⟨[], [], []⟩ = some scan ∧
      scan.innerComponents.foldlM (unionInner fuel h d) (initialSets scan) = some sets ∧
      dF = { d with faces := dF.faces } ∧ FaceFrame h hF ∧
      Built (LoopsDisjoint h fuel sets) h fuel hF sets dF.faces ∧
      LoopsDisjoint h fuel sets ∧ ScanInv h fuel scan ∧
      (∀ e ∈ d.halfEdges, e ∈ scan.seen) ∧
      ∀ x, some x ∈ sets.flatten ↔ x ∈ scan.innerComponents ++ scan.outerComponents := by
  obtain ⟨scan, sets, h1, h2, h3, hd⟩ := reAssignFaces_stages hr
  obtain ⟨inv, -, hseen⟩ := scan_spec d.halfEdges _ scan (scanInv_empty h fuel) h1
  have hp := unions_perm _ _ _ h2
  have hpw : sets.flatten.Pairwise (Apart h fuel) := by
    rw [hp.pairwise_iff (fun hab => Apart.symm hab), initialSets_flatten,
      List.pairwise_append]
    refine ⟨inv.apart, List.pairwise_singleton _ _, ?_⟩
    intro a _ b hb x1 x2 L1 L2 y _ e2
    rw [List.mem_singleton.mp hb] at e2
    exact Option.noConfusion e2
  obtain ⟨ff, hb⟩ := reAssignFaces_built h3
  exact ⟨scan, sets, h1, h2, hd, ff, hb, loopsDisjoint_of_pairwise hpw, inv, hseen,
    fun x => (hp.mem_iff).trans (mem_initialSets_flatten scan x)⟩

/-- The steps of the pipeline up to `reAssignFaces`, one after the other. -/
theorem pipeline_stages {fuel : Nat} {polyA polyB : Polygon}
    {s : Heap × doublyConnectedEdgeList} (ho : overlayPolygons fuel polyA polyB = some s) :
    ∃ a b a2 b2 hv halfEdges h2, newDCELFromPolygon Heap.empty polyA true = some a ∧
      newDCELFromPolygon a.1 polyB false = some b ∧
      reNodeGraph fuel b.1 a.2 polyB = some a2 ∧
      reNodeGraph fuel a2.1 b.2 polyA = some b2 ∧
      overlayVertices fuel b2.1 a2.2.vertices b2.2 = some hv ∧
      overlayEdges fuel hv.1 a2.2.halfEdges b2.2 = some halfEdges ∧
      fixVertices radialSort (hv.2.map Prod.fst) hv.1
        { a2.2 with halfEdges := halfEdges, vertices := hv.2 } = some h2 ∧
      reAssignFaces fuel h2 { a2.2 with halfEdges := halfEdges, vertices := hv.2 } = some s := by
  obtain ⟨a, b, a2, b2, h1, h2, h3, h4, h5⟩ := overlayPolygons_stages ho
  obtain ⟨hv, he, g, k1, k2, k3, k4⟩ := overlay_stages h5
  exact ⟨a, b, a2, b2, hv, he, g, h1, h2, h3, h4, k1, k2, k3, k4⟩

theorem disjointSquares_some :
    (overlayPolygons 100 (squarePolygon 0 0 1 1) (squarePolygon 2 2 3 3)).isSome = true := by
  have hf := disjointSquares_faces
  cases hr : overlayPolygons 100 (squarePolygon 0 0 1 1) (squarePolygon 2 2 3 3) with
  | none => rw [hr] at hf; simp at hf
  | some s => rfl

/-! ## Claim C11 -/

/-- C11: where `reAssignFaces` returns, every non-nil `outerComponent` of a face of
`d.faces` is the leftmost, then lowest half-edge of its cycle (the one
`edgeLoopLeftmostLowest` returns from it) and `edgeLoopIsOuterComponent` is true at
it: the orientation of (prev origin, origin, next origin) is leftTurn; every element
of `innerComponents` is the leftmost, then lowest half-edge of its cycle and
`edgeLoopIsOuterComponent` is false at it: the orientation is not leftTurn. -/
theorem C11_component_orientation (fuel : Nat) (h hF : Heap)
    (d dF : doublyConnectedEdgeList) (hr : reAssignFaces fuel h d = some (hF, dF)) :
    ∀ f ∈ dF.faces, ∃ fr, hF.faceRecords[f]? = some fr ∧
      (∀ x, fr.outerComponent = some x →
        edgeLoopLeftmostLowest fuel hF x = some x ∧
        edgeLoopIsOuterComponent hF x = some true) ∧
      (∀ x ∈ fr.innerComponents,
        edgeLoopLeftmostLowest fuel hF x = some x ∧
        edgeLoopIsOuterComponent hF x = some false) := by
  obtain ⟨scan, sets, -, -, -, ff, hb, -, inv, -, hmem⟩ := reAssignFaces_spec hr
  intro f hf
  obtain ⟨set, fr, hset, fo⟩ := built_face_of_mem hb hf
  have hlow : ∀ x, some x ∈ set → edgeLoopLeftmostLowest fuel hF x = some x := by
    intro x hx
    rw [ff.leftmostLowest]
    exact inv.lowest x ((hmem x).mp (List.mem_flatten.mpr ⟨set, hset, hx⟩))
  refine ⟨fr, fo.record, ?_, ?_⟩
  · intro x hx
    exact ⟨hlow x ((fo.components x).mp (Or.inl hx)), (ff.isOuter x).trans (fo.outer x hx)⟩
  · intro x hx
    exact ⟨hlow x ((fo.components x).mp (Or.inr hx)), (ff.isOuter x).trans (fo.inner x hx)⟩

/-- C11 at the overlay of the squares (0,0)-(4,4) and (2,2)-(6,6). -/
theorem C11_component_orientation_witness :
    ∃ a b a2 b2 hv halfEdges h2 hF dF,
      newDCELFromPolygon Heap.empty (squarePolygon 0 0 4 4) true = some a ∧
      newDCELFromPolygon a.1 (squarePolygon 2 2 6 6) false = some b ∧
      reNodeGraph 100 b.1 a.2 (squarePolygon 2 2 6 6) = some a2 ∧
      reNodeGraph 100 a2.1 b.2 (squarePolygon 0 0 4 4) = some b2 ∧
      overlayVertices 100 b2.1 a2.2.vertices b2.2 = some hv ∧
      overlayEdges 100 hv.1 a2.2.halfEdges b2.2 = some halfEdges ∧
      fixVertices radialSort (hv.2.map Prod.fst) hv.1
        { a2.2 with halfEdges := halfEdges, vertices := hv.2 } = some h2 ∧
      reAssignFaces 100 h2 { a2.2 with halfEdges := halfEdges, vertices := hv.2 } =
        some (hF, dF) ∧
      ∀ f ∈ dF.faces, ∃ fr, hF.faceRecords[f]? = some fr ∧
        (∀ x, fr.outerComponent = some x →
          edgeLoopLeftmostLowest 100 hF x = some x ∧
          edgeLoopIsOuterComponent hF x = some true) ∧
        (∀ x ∈ fr.innerComponents,
          edgeLoopLeftmostLowest 100 hF x = some x ∧
          edgeLoopIsOuterComponent hF x = some false) := by
  obtain ⟨s, hs⟩ := Option.isSome_iff_exists.mp overlappingSquares_some
  obtain ⟨a, b, a2, b2, hv, he, h2, k1, k2, k3, k4, k5, k6, k7, k8⟩ := pipeline_stages hs
  exact ⟨a, b, a2, b2, hv, he, h2, s.1, s.2, k1, k2, k3, k4, k5, k6, k7, k8,
    C11_component_orientation 100 h2 s.1 _ s.2 k8⟩

/-! ## Claim C12 -/

/-- C12: where `reAssignFaces` returns, `d.faces` holds one face for each set of
the graph after the unions, in order and no face twice, whose components are the
non-nil elements of the set; every half-edge of `d.halfEdges` has a cycle of `next`
and an incident face that is in `d.faces`, the same for all half-edges of the cycle;
and for every face of `d.faces`, every half-edge on the cycle of its
`outerComponent` and of each of its `innerComponents` has that face as its incident
face. -/
theorem C12_faces_and_incidence (fuel : Nat) (h hF : Heap)
    (d dF : doublyConnectedEdgeList) (hr : reAssignFaces fuel h d = some (hF, dF)) :
    (∃ scan sets, d.halfEdges.foldlM (scanCycle fuel h) ⟨[], [], []⟩ = some scan ∧
      scan.innerComponents.foldlM (unionInner fuel h d) (initialSets scan) = some sets ∧
      dF.faces.length = sets.length ∧ dF.faces.Nodup ∧
      ∀ (i : Nat) (set : List (Option Nat)), sets[i]? = some set →
        ∃ f fr, dF.faces[i]? = some f ∧ hF.faceRecords[f]? = some fr ∧
          ∀ x, (fr.outerComponent = some x ∨ x ∈ fr.innerComponents) ↔ some x ∈ set) ∧
    dF.halfEdges = d.halfEdges ∧
    (∀ e ∈ d.halfEdges, ∃ f ∈ dF.faces, ∃ L, edgeLoop hF e fuel e = some L ∧ e ∈ L ∧
      ∀ y ∈ L, hF.incidentOf y = some f) ∧
    (∀ f ∈ dF.faces, ∃ fr, hF.faceRecords[f]? = some fr ∧
      ∀ x, (fr.outerComponent = some x ∨ x ∈ fr.innerComponents) →
        ∃ L, edgeLoop hF x fuel x = some L ∧ x ∈ L ∧
          ∀ y ∈ L, hF.incidentOf y = some f) := by
  obtain ⟨scan, sets, h1, h2, hd, ff, hb, hD, inv, hseen, hmem⟩ := reAssignFaces_spec hr
  refine ⟨⟨scan, sets, h1, h2, hb.length, hb.nodup, ?_⟩, by rw [hd], ?_, ?_⟩
  · intro i set hi
    obtain ⟨f, fr, e1, fo⟩ := hb.face i set hi
    exact ⟨f, fr, e1, fo.record, fo.components⟩
  · intro e he
    obtain ⟨x, hx, L, hL, heL⟩ := inv.covered e (hseen e he)
    obtain ⟨set, hset, hxs⟩ := List.mem_flatten.mp ((hmem x).mpr hx)
    obtain ⟨i, hi, rfl⟩ := List.getElem_of_mem hset
    obtain ⟨f, fr, e1, fo⟩ := hb.face i _ (List.getElem?_eq_getElem hi)
    obtain ⟨L', hL', hinc⟩ := fo.incident x hxs
    rw [hL] at hL'
    obtain rfl := Option.some.inj hL'
    obtain ⟨L2, hL2, hm2⟩ := (edgeLoop_rotate hL).2.2 e heL
    refine ⟨f, List.getElem?_mem e1, L2, (ff.edgeLoop e fuel e).trans hL2,
      (edgeLoop_rotate hL2).1, ?_⟩
    intro y hy
    exact hinc hD y ((hm2 y).mp hy)
  · intro f hf
    obtain ⟨set, fr, -, fo⟩ := built_face_of_mem hb hf
    refine ⟨fr, fo.record, ?_⟩
    intro x hx
    obtain ⟨L, hL, hinc⟩ := fo.incident x ((fo.components x).mp hx)
    exact ⟨L, (ff.edgeLoop x fuel x).trans hL, (edgeLoop_rotate hL).1, hinc hD⟩

/-- C12 at the overlay of the squares (0,0)-(1,1) and (2,2)-(3,3). -/
theorem C12_faces_and_incidence_witness :
    ∃ a b a2 b2 hv halfEdges h2 hF dF,
      newDCELFromPolygon Heap.empty (squarePolygon 0 0 1 1) true = some a ∧
      newDCELFromPolygon a.1 (squarePolygon 2 2 3 3) false = some b ∧
      reNodeGraph 100 b.1 a.2 (squarePolygon 2 2 3 3) = some a2 ∧
      reNodeGraph 100 a2.1 b.2 (squarePolygon 0 0 1 1) = some b2 ∧
      overlayVertices 100 b2.1 a2.2.vertices b2.2 = some hv ∧
      overlayEdges 100 hv.1 a2.2.halfEdges b2.2 = some halfEdges ∧
      fixVertices radialSort (hv.2.map Prod.fst) hv.1
        { a2.2 with halfEdges := halfEdges, vertices := hv.2 } = some h2 ∧
      reAssignFaces 100 h2 { a2.2 with halfEdges := halfEdges, vertices := hv.2 } =
        some (hF, dF) ∧
      (∃ scan sets, halfEdges.foldlM (scanCycle 100 h2) ⟨[], [], []⟩ = some scan ∧
        scan.innerComponents.foldlM
          (unionInner 100 h2 { a2.2 with halfEdges := halfEdges, vertices := hv.2 })
          (initialSets scan) = some sets ∧
        dF.faces.length = sets.length ∧ dF.faces.Nodup ∧
        ∀ (i : Nat) (set : List (Option Nat)), sets[i]? = some set →
          ∃ f fr, dF.faces[i]? = some f ∧ hF.faceRecords[f]? = some fr ∧
            ∀ x, (fr.outerComponent = some x ∨ x ∈ fr.innerComponents) ↔ some x ∈ set) ∧
      dF.halfEdges = halfEdges ∧
      (∀ e ∈ halfEdges, ∃ f ∈ dF.faces, ∃ L, edgeLoop hF e 100 e = some L ∧ e ∈ L ∧
        ∀ y ∈ L, hF.incidentOf y = some f) ∧
      (∀ f ∈ dF.faces, ∃ fr, hF.faceRecords[f]? = some fr ∧
        ∀ x, (fr.outerComponent = some x ∨ x ∈ fr.innerComponents) →
          ∃ L, edgeLoop hF x 100 x = some L ∧ x ∈ L ∧
            ∀ y ∈ L, hF.incidentOf y = some f) := by
  obtain ⟨s, hs⟩ := Option.isSome_iff_exists.mp disjointSquares_some
  obtain ⟨a, b, a2, b2, hv, he, h2, k1, k2, k3, k4, k5, k6, k7, k8⟩ := pipeline_stages hs
  exact ⟨a, b, a2, b2, hv, he, h2, s.1, s.2, k1, k2, k3, k4, k5, k6, k7, k8,
    C12_faces_and_incidence 100 h2 s.1 _ s.2 k8⟩

/-! ## Claim C25 -/

/-- C25: `signedHorizontalDistanceBetweenXYAndLine(xy, ln)` in exact arithmetic.
For a segment that is not horizontal it is `xy.X − x`, where `(x, xy.Y)` is the one
point of the line through `ln.a` and `ln.b` at the height of `xy`; it is positive
exactly when `xy` is to the right of that point. For a horizontal segment it is
`xy.X − max(ln.a.X, ln.b.X)`. -/
theorem C25_signed_horizontal_distance (xy : XY) (ln : line) :
    (ln.b.Y ≠ ln.a.Y →
      ∃ x : ℚ, signedHorizontalDistanceBetweenXYAndLine xy ln = xy.X - x ∧
        crossProduct ln.a ln.b ⟨x, xy.Y⟩ = 0 ∧
        (∀ x2 : ℚ, crossProduct ln.a ln.b ⟨x2, xy.Y⟩ = 0 → x2 = x) ∧
        (0 < signedHorizontalDistanceBetweenXYAndLine xy ln ↔ x < xy.X)) ∧
    (ln.b.Y = ln.a.Y →
      signedHorizontalDistanceBetweenXYAndLine xy ln = xy.X - max ln.a.X ln.b.X) := by
  constructor
  · intro hY
    have hd : ln.b.Y - ln.a.Y ≠ 0 := sub_ne_zero.mpr hY
    refine ⟨(1 - (xy.Y - ln.a.Y) / (ln.b.Y - ln.a.Y)) * ln.a.X +
      (xy.Y - ln.a.Y) / (ln.b.Y - ln.a.Y) * ln.b.X, ?_, ?_, ?_, ?_⟩
    · simp only [signedHorizontalDistanceBetweenXYAndLine, if_neg hY]
    · simp only [crossProduct]
      field_simp
      ring
    · intro x2 h2
      simp only [crossProduct] at h2
      have h3 : (ln.b.Y - ln.a.Y) * (x2 - ln.a.X) = (ln.b.X - ln.a.X) * (xy.Y - ln.a.Y) := by
        linarith
      have h4 : x2 - ln.a.X = (ln.b.X - ln.a.X) * (xy.Y - ln.a.Y) / (ln.b.Y - ln.a.Y) := by
        rw [eq_div_iff hd]; linarith
      have h5 : x2 = ln.a.X + (ln.b.X - ln.a.X) * (xy.Y - ln.a.Y) / (ln.b.Y - ln.a.Y) := by
        linarith
      rw [h5]
      field_simp
      ring
    · simp only [signedHorizontalDistanceBetweenXYAndLine, if_neg hY]
      constructor <;> intro h <;> linarith
  · intro hY
    simp only [signedHorizontalDistanceBetweenXYAndLine, if_pos hY]

/-- C25 at the point (3,1): the segment (0,0)-(2,2) is at x = 1 at that height, so
the distance is 2; the horizontal segment (0,0)-(2,0) gives 3 − 2 = 1. -/
theorem C25_signed_horizontal_distance_witness :
    signedHorizontalDistanceBetweenXYAndLine ⟨3, 1⟩ ⟨⟨0, 0⟩, ⟨2, 2⟩⟩ = 2 ∧
    signedHorizontalDistanceBetweenXYAndLine ⟨3, 1⟩ ⟨⟨0, 0⟩, ⟨2, 0⟩⟩ = 3 - max 0 2 := by
  refine ⟨by norm_num [signedHorizontalDistanceBetweenXYAndLine], ?_⟩
  exact (C25_signed_horizontal_distance ⟨3, 1⟩ ⟨⟨0, 0⟩, ⟨2, 0⟩⟩).2 rfl

/-! ## Claim C30 -/

/-- The fold of `edgeLoopLeftmostLowest` does not fail where the origins have
coordinates. -/
theorem leftmost_fold_total (h : Heap) (F : Option Nat → Nat → Option (Option Nat))
    (hF : ∀ b e, F (some b) e = (h.originCoords e).bind (fun ce =>
      (h.originCoords b).bind (fun cb => some (if ce.Less cb then some e else some b)))) :
    ∀ (L : List Nat) (b : Nat), (∀ y ∈ L, ∃ c, h.originCoords y = some c) →
      (∃ c, h.originCoords b = some c) → ∃ r, L.foldlM F (some b) = some r := by
  intro L
  induction L with
  | nil => intro b _ _; exact ⟨some b, rfl⟩
  | cons e rest ih =>
    intro b hL hb
    obtain ⟨ce, hce⟩ := hL e (List.mem_cons_self _ _)
    obtain ⟨cb, hcb⟩ := hb
    rw [List.foldlM_cons, hF, hce, hcb]
    simp only [Option.some_bind, Option.bind_eq_bind]
    by_cases hl : ce.Less cb = true
    · rw [if_pos hl]
      exact ih e (fun y hy => hL y (List.mem_cons_of_mem _ hy)) ⟨ce, hce⟩
    · rw [if_neg hl]
      exact ih b (fun y hy => hL y (List.mem_cons_of_mem _ hy)) ⟨cb, hcb⟩

/-- Where the loop of `start` exists and its origins have coordinates,
`edgeLoopLeftmostLowest` returns. -/
theorem edgeLoopLeftmostLowest_total {fuel : Nat} {h : Heap} {s : Nat} {L : List Nat}
    (hL : edgeLoop h s fuel s = some L) (hc : ∀ y ∈ L, ∃ c, h.originCoords y = some c) :
    ∃ b, edgeLoopLeftmostLowest fuel h s = some b := by
  obtain ⟨rest, rfl⟩ := edgeLoop_cons hL
  have key : ∀ F : Option Nat → Nat → Option (Option Nat),
      (∀ e, F none e = some (some e)) →
      (∀ b e, F (some b) e = (h.originCoords e).bind (fun ce =>
        (h.originCoords b).bind (fun cb => some (if ce.Less cb then some e else some b)))) →
      ∃ b, ((some (s :: rest)).bind (fun L => L.foldlM F none)).join = some b := by
    intro F hF0 hF
    obtain ⟨r, hr⟩ := leftmost_fold_total h F hF rest s
      (fun y hy => hc y (List.mem_cons_of_mem _ hy)) (hc s (List.mem_cons_self _ _))
    obtain ⟨b2, rfl, -, -⟩ := leftmost_fold h F hF rest [s] s r
      (List.mem_singleton_self s) (fun y hy => Or.inl (List.mem_singleton.mp hy)) hr
    refine ⟨b2, ?_⟩
    simp only [Option.some_bind, List.foldlM_cons, Option.bind_eq_bind, hF0, hr]
    rfl
  rw [edgeLoopLeftmostLowest_eq, hL]
  exact key _ (fun _ => rfl) (fun _ _ => rfl)

/-- C30: where the cycle of `next` from `start` exists and the origins along it
have coordinates, `edgeLoopLeftmostLowest(start)` returns a half-edge of the cycle
whose origin no origin of the cycle is before in the order "X, then Y"; when only
one half-edge of the cycle has that least origin, every half-edge of the cycle
passed as `start` gives the same result. -/
theorem C30_leftmost_lowest (fuel : Nat) (h : Heap) (start : Nat) (L : List Nat)
    (hL : edgeLoop h start fuel start = some L)
    (hc : ∀ y ∈ L, ∃ c, h.originCoords y = some c) :
    ∃ b cb, edgeLoopLeftmostLowest fuel h start = some b ∧ b ∈ L ∧
      h.originCoords b = some cb ∧
      (∀ y ∈ L, ∀ cy, h.originCoords y = some cy → LexLE cb cy ∧ ¬ LexLT cy cb) ∧
      ((∀ y ∈ L, h.originCoords y = some cb → y = b) →
        ∀ s2 ∈ L, edgeLoopLeftmostLowest fuel h s2 = some b) := by
  obtain ⟨b, hb⟩ := edgeLoopLeftmostLowest_total hL hc
  obtain ⟨L0, hL0, hbL, hmin⟩ := edgeLoopLeftmostLowest_spec hb
  rw [hL] at hL0
  obtain rfl := Option.some.inj hL0
  obtain ⟨cb, hcb⟩ := hc b hbL
  have hle : ∀ y ∈ L, ∀ cy, h.originCoords y = some cy → LexLE cb cy := by
    intro y hy cy hcy
    rcases hmin y hy with rfl | ⟨cy2, cb2, h1, h2, h3⟩
    · rw [hcb] at hcy
      obtain rfl := Option.some.inj hcy
      exact lexLE_refl _
    · rw [hcy] at h1; rw [hcb] at h2
      obtain rfl := Option.some.inj h1
      obtain rfl := Option.some.inj h2
      exact h3
  refine ⟨b, cb, hb, hbL, hcb, ?_, ?_⟩
  · intro y hy cy hcy
    refine ⟨hle y hy cy hcy, fun hlt => ?_⟩
    have := lexLE_antisymm (hle y hy cy hcy) (lexLE_of_lexLT hlt)
    subst this
    exact lexLT_asymm hlt hlt
  · intro huniq s2 hs2
    obtain ⟨L2, hL2, hmem⟩ := (edgeLoop_rotate hL).2.2 s2 hs2
    obtain ⟨b2, hb2⟩ := edgeLoopLeftmostLowest_total hL2
      (fun y hy => hc y ((hmem y).mp hy))
    obtain ⟨L3, hL3, hb2L, hmin2⟩ := edgeLoopLeftmostLowest_spec hb2
    rw [hL2] at hL3
    obtain rfl := Option.some.inj hL3
    have hb2L' : b2 ∈ L := (hmem b2).mp hb2L
    obtain ⟨cb2, hcb2⟩ := hc b2 hb2L'
    have h1 : LexLE cb cb2 := hle b2 hb2L' cb2 hcb2
    have h2 : LexLE cb2 cb := by
      rcases hmin2 b ((hmem b).mpr hbL) with e | ⟨cy, cz, g1, g2, g3⟩
      · rw [e] at hcb; rw [hcb] at hcb2
        obtain rfl := Option.some.inj hcb2
        exact lexLE_refl _
      · rw [hcb] at g1; rw [hcb2] at g2
        obtain rfl := Option.some.inj g1
        obtain rfl := Option.some.inj g2
        exact g3
    have := lexLE_antisymm h1 h2
    subst this
    rw [hb2, huniq b2 hb2L' hcb2]

theorem unitSquare_loop_facts :
    ((newDCELFromPolygon Heap.empty unitSquare true).all (fun s =>
      match edgeLoop s.1 2 10 2 with
      | some L => L.all (fun y => (s.1.originCoords y).isSome) &&
          decide (edgeLoopLeftmostLowest 10 s.1 2 = some 0)
      | none => false)) = true := by
  with_unfolding_all decide

/-- C30 at the unit square: from the half-edge that starts at (1,0) the cycle of the
interior is found, and the result is the half-edge that starts at (0,0). -/
theorem C30_leftmost_lowest_witness :
    ∃ h d L, newDCELFromPolygon Heap.empty unitSquare true = some (h, d) ∧
      edgeLoop h 2 10 2 = some L ∧ (∀ y ∈ L, ∃ c, h.originCoords y = some c) ∧
      edgeLoopLeftmostLowest 10 h 2 = some 0 ∧
      ∃ b cb, edgeLoopLeftmostLowest 10 h 2 = some b ∧ b ∈ L ∧
        h.originCoords b = some cb ∧
        (∀ y ∈ L, ∀ cy, h.originCoords y = some cy → LexLE cb cy ∧ ¬ LexLT cy cb) ∧
        ((∀ y ∈ L, h.originCoords y = some cb → y = b) →
          ∀ s2 ∈ L, edgeLoopLeftmostLowest 10 h s2 = some b) := by
  obtain ⟨h, d, e, -, -⟩ := newDCELFromPolygon_inv Heap.empty unitSquare true unitSquare_closed
  have hf := unitSquare_loop_facts
  rw [e] at hf
  simp only [Option.all_some] at hf
  cases hL : edgeLoop h 2 10 2 with
  | none => rw [hL] at hf; simp at hf
  | some L =>
    rw [hL] at hf
    simp only [Bool.and_eq_true, List.all_eq_true, decide_eq_true_eq] at hf
    have hc : ∀ y ∈ L, ∃ c, h.originCoords y = some c := fun y hy =>
      Option.isSome_iff_exists.mp (hf.1 y hy)
    exact ⟨h, d, L, e, hL, hc, hf.2, C30_leftmost_lowest 10 h 2 L hL hc⟩

/-! ## The search to the left -/

theorem signedHorizontalDistance_reverse (xy a b : XY) :
    signedHorizontalDistanceBetweenXYAndLine xy ⟨a, b⟩ =
      signedHorizontalDistanceBetweenXYAndLine xy ⟨b, a⟩ := by
  simp only [signedHorizontalDistanceBetweenXYAndLine]
  by_cases hY : b.Y = a.Y
  · rw [if_pos hY, if_pos hY.symm, max_comm]
  · rw [if_neg hY, if_neg (Ne.symm hY)]
    have h1 : b.Y - a.Y ≠ 0 := sub_ne_zero.mpr hY
    have h2 : a.Y - b.Y ≠ 0 := sub_ne_zero.mpr (Ne.symm hY)
    field_simp
    ring

/-- One iteration of the loop of `findNextDownEdgeToTheLeft`, where the pointers it
reads are not nil. -/
theorem nextDownStep_eq {h : Heap} {edge e : Nat} {pt o dst : XY} {n : Nat}
    (hpt : h.originCoords edge = some pt) (ho : h.originCoords e = some o)
    (hn : h.nextOf e = some n) (hd : h.originCoords n = some dst) (s : Option Nat × ℚ) :
    nextDownStep h edge s e =
      some (if ¬ (dst.Y ≤ pt.Y ∧ pt.Y ≤ o.Y) then s
        else if signedHorizontalDistanceBetweenXYAndLine pt ⟨o, dst⟩ ≤ 0 then s
        else if s.1 = none ∨ signedHorizontalDistanceBetweenXYAndLine pt ⟨o, dst⟩ < s.2 then
          (some e, signedHorizontalDistanceBetweenXYAndLine pt ⟨o, dst⟩)
        else s) := by
  simp only [nextDownStep, ho, hn, hd, hpt, Option.bind_eq_bind, Option.some_bind,
    Option.pure_def]
  split_ifs <;> rfl

theorem downCandidate_dist {h : Heap} {pt : XY} {e : Nat} {dist : ℚ} {o dst : XY} {n : Nat}
    (ho : h.originCoords e = some o) (hn : h.nextOf e = some n)
    (hd : h.originCoords n = some dst) (hc : DownCandidate h pt e dist) :
    dst.Y ≤ pt.Y ∧ pt.Y ≤ o.Y ∧
      dist = signedHorizontalDistanceBetweenXYAndLine pt ⟨o, dst⟩ ∧ 0 < dist := by
  obtain ⟨o2, n2, dst2, h1, h2, h3, h4, h5, h6, h7⟩ := hc
  rw [ho] at h1; rw [hn] at h2
  obtain rfl := Option.some.inj h1
  obtain rfl := Option.some.inj h2
  rw [hd] at h3
  obtain rfl := Option.some.inj h3
  exact ⟨h4, h5, h6, h7⟩

/-- The loop of `findNextDownEdgeToTheLeft`. -/
theorem nextDown_fold {h : Heap} {edge : Nat} {pt : XY}
    (hpt : h.originCoords edge = some pt) :
    ∀ (l P : List Nat) (s : Option Nat × ℚ),
      (∀ e ∈ l, ∃ o n dst, h.originCoords e = some o ∧ h.nextOf e = some n ∧
        h.originCoords n = some dst) →
      BestOf h pt P s →
      ∃ s2, l.foldlM (nextDownStep h edge) s = some s2 ∧ BestOf h pt (P ++ l) s2 := by
  intro l
  induction l with
  | nil => intro P s _ hb; exact ⟨s, rfl, by simpa using hb⟩
  | cons e rest ih =>
    intro P s hdef hb
    obtain ⟨o, n, dst, ho, hn, hd⟩ := hdef e (List.mem_cons_self _ _)
    rw [List.foldlM_cons, nextDownStep_eq hpt ho hn hd]
    simp only [Option.bind_eq_bind, Option.some_bind]
    have hnext : ∀ s1, BestOf h pt (P ++ [e]) s1 →
        ∃ s2, rest.foldlM (nextDownStep h edge) s1 = some s2 ∧
          BestOf h pt (P ++ e :: rest) s2 := by
      intro s1 hs1
      obtain ⟨s2, e2, b2⟩ := ih (P ++ [e]) s1
        (fun x hx => hdef x (List.mem_cons_of_mem _ hx)) hs1
      exact ⟨s2, e2, by simpa using b2⟩
    have hkeep : (∀ dist, ¬ DownCandidate h pt e dist) → BestOf h pt (P ++ [e]) s := by
      intro hno
      refine ⟨fun hs x hx dist => ?_, fun b hsb => ?_⟩
      · rcases List.mem_append.mp hx with hx | hx
        · exact hb.1 hs x hx dist
        · rw [List.mem_singleton.mp hx]; exact hno dist
      · obtain ⟨b1, b2, b3⟩ := hb.2 b hsb
        refine ⟨List.mem_append_left _ b1, b2, fun x hx dist hc => ?_⟩
        rcases List.mem_append.mp hx with hx | hx
        · exact b3 x hx dist hc
        · rw [List.mem_singleton.mp hx] at hc; exact absurd hc (hno dist)
    by_cases h1 : dst.Y ≤ pt.Y ∧ pt.Y ≤ o.Y
    · rw [if_neg (not_not.mpr h1)]
      by_cases h2 : signedHorizontalDistanceBetweenXYAndLine pt ⟨o, dst⟩ ≤ 0
      · rw [if_pos h2]
        exact hnext s (hkeep (fun dist hc => by
          have := downCandidate_dist ho hn hd hc
          rw [this.2.2.1] at this
          linarith [this.2.2.2]))
      · rw [if_neg h2]
        have hcand : DownCandidate h pt e
            (signedHorizontalDistanceBetweenXYAndLine pt ⟨o, dst⟩) :=
          ⟨o, n, dst, ho, hn, hd, h1.1, h1.2, rfl, not_le.mp h2⟩
        by_cases h3 : s.1 = none ∨ signedHorizontalDistanceBetweenXYAndLine pt ⟨o, dst⟩ < s.2
        · rw [if_pos h3]
          apply hnext
          refine ⟨fun hs => by simp at hs, fun b hsb => ?_⟩
          obtain rfl : e = b := Option.some.inj hsb
          refine ⟨by simp, hcand, fun x hx dist hc => ?_⟩
          rcases List.mem_append.mp hx with hx | hx
          · rcases h3 with h3 | h3
            · exact absurd hc (hb.1 h3 x hx dist)
            · cases hs1 : s.1 with
              | none => exact absurd hc (hb.1 hs1 x hx dist)
              | some b0 =>
                have := (hb.2 b0 hs1).2.2 x hx dist hc
                exact le_of_lt (lt_of_lt_of_le h3 this)
          · rw [List.mem_singleton.mp hx] at hc
            exact le_of_eq (downCandidate_dist ho hn hd hc).2.2.1.symm
        · rw [if_neg h3]
          rw [not_or] at h3
          apply hnext
          refine ⟨fun hs => absurd hs h3.1, fun b hsb => ?_⟩
          obtain ⟨b1, b2, b3⟩ := hb.2 b hsb
          refine ⟨List.mem_append_left _ b1, b2, fun x hx dist hc => ?_⟩
          rcases List.mem_append.mp hx with hx | hx
          · exact b3 x hx dist hc
          · rw [List.mem_singleton.mp hx] at hc
            rw [(downCandidate_dist ho hn hd hc).2.2.1]
            exact not_lt.mp h3.2
    · rw [if_pos h1]
      exact hnext s (hkeep (fun dist hc => h1 ⟨(downCandidate_dist ho hn hd hc).1,
        (downCandidate_dist ho hn hd hc).2.1⟩))

/-- With the twins listed, a half-edge whose y-range contains the height of `pt`
has itself or the one that runs the other way among the half-edges tested, at the
same distance. -/
theorem spanCandidate_down {h : Heap} {d : doublyConnectedEdgeList} {pt : XY}
    (htw : TwinsListed h d) {e : Nat} (he : e ∈ d.halfEdges) {dist : ℚ}
    (hc : SpanCandidate h pt e dist) :
    ∃ e2 ∈ d.halfEdges, DownCandidate h pt e2 dist := by
  obtain ⟨o, n, dst, h1, h2, h3, h4, h5, h6, h7⟩ := hc
  by_cases hdir : dst.Y ≤ o.Y
  · refine ⟨e, he, o, n, dst, h1, h2, h3, ?_, ?_, h6, h7⟩
    · rwa [min_eq_right hdir] at h4
    · rwa [max_eq_left hdir] at h5
  · have hlt : o.Y < dst.Y := not_le.mp hdir
    obtain ⟨t, ht, nt, t1, t2, t3⟩ := htw e he o n dst h1 h2 h3
    refine ⟨t, ht, dst, nt, o, t1, t2, t3, ?_, ?_, ?_, h7⟩
    · rwa [min_eq_left hlt.le] at h4
    · rwa [max_eq_right hlt.le] at h5
    · rw [h6]; exact signedHorizontalDistance_reverse pt o dst

theorem downCandidate_span {h : Heap} {pt : XY} {e : Nat} {dist : ℚ}
    (hc : DownCandidate h pt e dist) : SpanCandidate h pt e dist := by
  obtain ⟨o, n, dst, h1, h2, h3, h4, h5, h6, h7⟩ := hc
  exact ⟨o, n, dst, h1, h2, h3, le_trans (min_le_right _ _) h4,
    le_trans h5 (le_max_left _ _), h6, h7⟩

/-- In a DCEL with the split invariant the twin of a half-edge runs the other way
between the same two points. -/
theorem twinsListed_of_splitInv {h : Heap} {d : doublyConnectedEdgeList}
    (inv : SplitInv h d) : TwinsListed h d := by
  intro e he o n dst ho hn hd
  obtain ⟨t, ht, e1⟩ := inv.twin_mem e he
  obtain ⟨nt, -, e2⟩ := inv.next_mem t ht
  have e3 := inv.twin_origin e t n he e1 hn
  have e4 := inv.twin_origin t e nt ht (inv.twin_twin e t he e1) e2
  refine ⟨t, ht, nt, ?_, e2, ?_⟩
  · rw [← hd]; simp only [Heap.originCoords, e3]
  · rw [← ho]; simp only [Heap.originCoords, e4]

/-! ## Claim C29 -/

theorem unitSquare_nextDown_facts :
    ((newDCELFromPolygon Heap.empty unitSquare true).all (fun s =>
      decide (findNextDownEdgeToTheLeft s.1 s.2 2 = some (some 6)) &&
      decide (s.1.originCoords 2 = some ⟨1, 0⟩) &&
      s.2.halfEdges.all (fun e =>
        match s.1.originCoords e, (s.1.nextOf e).bind s.1.originCoords with
        | some o, some dst => decide (0 ≤ min o.Y dst.Y)
        | _, _ => false))) = true := by
  with_unfolding_all decide

theorem unitSquare_defined_facts :
    ((newDCELFromPolygon Heap.empty unitSquare true).all (fun s =>
      s.2.halfEdges.all (fun e =>
        (s.1.originCoords e).isSome && ((s.1.nextOf e).bind s.1.originCoords).isSome))) =
      true := by
  with_unfolding_all decide

theorem slopeCandidate_span {h : Heap} {pt : XY} {e : Nat} {dist : ℚ}
    (hc : SlopeCandidate h pt e dist) : SpanCandidate h pt e dist := by
  obtain ⟨o, n, dst, h1, h2, h3, -, h4, h5, h6, h7⟩ := hc
  exact ⟨o, n, dst, h1, h2, h3, h4, h5, h6, h7⟩

/-- A half-edge that passes the tests of the loop is not level, or it is level at
the height of `pt`. -/
theorem downCandidate_slope {h : Heap} {pt : XY} {e : Nat} {dist : ℚ}
    (hc : DownCandidate h pt e dist) (hlev : ¬ LevelCandidate h pt e) :
    SlopeCandidate h pt e dist := by
  obtain ⟨o, n, dst, h1, h2, h3, h4, h5, h6, h7⟩ := hc
  have hne : o.Y ≠ dst.Y := by
    intro heq
    apply hlev
    refine ⟨o, n, dst, h1, h2, h3, ?_, ?_, ?_⟩
    · exact le_antisymm (heq ▸ h4) h5
    · exact le_antisymm h4 (heq ▸ h5)
    · rw [← h6]; exact h7
  exact ⟨o, n, dst, h1, h2, h3, hne, le_trans (min_le_right _ _) h4,
    le_trans h5 (le_max_left _ _), h6, h7⟩

theorem notchedPolygon_closed : PolygonClosed notchedPolygon := by
  constructor
  · simp [notchedPolygon, RingClosed]
  · intro r hr; simp [notchedPolygon] at hr

theorem notchedPolygon_nextDown_facts :
    ((newDCELFromPolygon Heap.empty notchedPolygon true).all (fun s =>
      decide (findNextDownEdgeToTheLeft s.1 s.2 8 = some (some 0)) &&
      decide (s.1.originCoords 8 = some ⟨2, 0⟩) &&
      decide (s.1.originCoords 0 = some ⟨0, 0⟩) &&
      decide ((s.1.nextOf 0).bind s.1.originCoords = some ⟨1, 0⟩) &&
      decide (3 ∈ s.2.halfEdges) &&
      decide (s.1.originCoords 3 = some ⟨1, 1⟩) &&
      decide ((s.1.nextOf 3).bind s.1.originCoords = some ⟨1, 0⟩))) = true := by
  with_unfolding_all decide

/-- What the loop of `findNextDownEdgeToTheLeft` computes: where the pointers the
loop reads are not nil, the function returns; it returns, among the half-edges of
`d.halfEdges` that pass its two tests (`destin.Y ≤ p.y ≤ origin.Y` and a positive
signed horizontal distance from p), one with the smallest distance, and nil exactly
when no half-edge passes them. -/
theorem nextDown_spec (h : Heap) (d : doublyConnectedEdgeList) (edge : Nat) (pt : XY)
    (hpt : h.originCoords edge = some pt)
    (hdef : ∀ e ∈ d.halfEdges, ∃ o n dst, h.originCoords e = some o ∧ h.nextOf e = some n ∧
      h.originCoords n = some dst) :
    ∃ r, findNextDownEdgeToTheLeft h d edge = some r ∧
      (r = none ↔ ¬ ∃ e ∈ d.halfEdges, ∃ dist, DownCandidate h pt e dist) ∧
      (∀ b, r = some b → b ∈ d.halfEdges ∧ ∃ db, DownCandidate h pt b db ∧
        ∀ e ∈ d.halfEdges, ∀ dist, DownCandidate h pt e dist → db ≤ dist) := by
  obtain ⟨s2, e2, hb⟩ := nextDown_fold hpt d.halfEdges [] (none, 0) hdef
    ⟨fun _ e he => absurd he (List.not_mem_nil e), fun b hb => Option.noConfusion hb⟩
  simp only [List.nil_append] at hb
  have hnone : s2.1 = none ↔ ¬ ∃ e ∈ d.halfEdges, ∃ dist, DownCandidate h pt e dist := by
    constructor
    · rintro hs ⟨e, he, dist, hc⟩
      exact hb.1 hs e he dist hc
    · intro hno
      cases hs : s2.1 with
      | none => rfl
      | some b =>
        obtain ⟨b1, b2, -⟩ := hb.2 b hs
        exact absurd ⟨b, b1, s2.2, b2⟩ hno
  refine ⟨s2.1, by simp [findNextDownEdgeToTheLeft, e2], hnone, ?_⟩
  intro b hs
  obtain ⟨b1, b2, b3⟩ := hb.2 b hs
  exact ⟨b1, s2.2, b2, b3⟩

/-- C29, as stated, fails, in two ways. In the DCEL of the unit square, for the
half-edge that starts at p = (1,0), no half-edge has a y-range that strictly
contains p.y = 0, yet `findNextDownEdgeToTheLeft` does not return nil: it returns
the half-edge from (0,1) to (0,0), whose y-range has p.y as an end. In the DCEL of
the notched polygon, for the half-edge that starts at p = (2,0), it returns the
level half-edge from (0,0) to (1,0), at distance 1, whose y-range is the single
height p.y, although the half-edge from (1,1) to (1,0), which is not level, is in
the list at the same distance. -/
theorem C29_strict_range_counterexample :
    (∃ h d, newDCELFromPolygon Heap.empty unitSquare true = some (h, d) ∧
      h.originCoords 2 = some ⟨1, 0⟩ ∧
      findNextDownEdgeToTheLeft h d 2 = some (some 6) ∧
      ¬ ∃ e ∈ d.halfEdges, ∃ dist, StrictCandidate h ⟨1, 0⟩ e dist) ∧
    (∃ h d, newDCELFromPolygon Heap.empty notchedPolygon true = some (h, d) ∧
      h.originCoords 8 = some ⟨2, 0⟩ ∧
      findNextDownEdgeToTheLeft h d 8 = some (some 0) ∧
      h.originCoords 0 = some ⟨0, 0⟩ ∧
      (h.nextOf 0).bind h.originCoords = some ⟨1, 0⟩ ∧
      LevelCandidate h ⟨2, 0⟩ 0 ∧
      (∀ dist, ¬ StrictCandidate h ⟨2, 0⟩ 0 dist) ∧
      (∀ dist, ¬ SlopeCandidate h ⟨2, 0⟩ 0 dist) ∧
      3 ∈ d.halfEdges ∧ SlopeCandidate h ⟨2, 0⟩ 3 1) := by
  constructor
  · obtain ⟨h, d, e, -, -⟩ :=
      newDCELFromPolygon_inv Heap.empty unitSquare true unitSquare_closed
    have hf := unitSquare_nextDown_facts
    rw [e] at hf
    simp only [Option.all_some, Bool.and_eq_true, decide_eq_true_eq, List.all_eq_true] at hf
    refine ⟨h, d, e, hf.1.2, hf.1.1, ?_⟩
    rintro ⟨x, hx, dist, o, n, dst, h1, h2, h3, h4, -⟩
    have := hf.2 x hx
    rw [h1, h2] at this
    simp only [Option.some_bind, h3, decide_eq_true_eq] at this
    simp only at h4
    linarith
  · obtain ⟨h, d, e, -, -⟩ :=
      newDCELFromPolygon_inv Heap.empty notchedPolygon true notchedPolygon_closed
    have hf := notchedPolygon_nextDown_facts
    rw [e] at hf
    simp only [Option.all_some, Bool.and_eq_true, decide_eq_true_eq] at hf
    obtain ⟨⟨⟨⟨⟨⟨f1, f2⟩, f3⟩, f4⟩, f5⟩, f6⟩, f7⟩ := hf
    obtain ⟨n0, hn0, hd0⟩ : ∃ n, h.nextOf 0 = some n ∧ h.originCoords n = some ⟨1, 0⟩ := by
      cases hn : h.nextOf 0 with
      | none => rw [hn] at f4; simp at f4
      | some n => rw [hn] at f4; exact ⟨n, rfl, f4⟩
    obtain ⟨n3, hn3, hd3⟩ : ∃ n, h.nextOf 3 = some n ∧ h.originCoords n = some ⟨1, 0⟩ := by
      cases hn : h.nextOf 3 with
      | none => rw [hn] at f7; simp at f7
      | some n => rw [hn] at f7; exact ⟨n, rfl, f7⟩
    have key : ∀ {o dst : XY} {n : Nat}, h.originCoords 0 = some o → h.nextOf 0 = some n →
        h.originCoords n = some dst → o = ⟨0, 0⟩ ∧ dst = ⟨1, 0⟩ := by
      intro o dst n h1 h2 h3
      rw [f3] at h1
      rw [hn0] at h2
      obtain rfl := Option.some.inj h2
      rw [hd0] at h3
      exact ⟨(Option.some.inj h1).symm, (Option.some.inj h3).symm⟩
    refine ⟨h, d, e, f2, f1, f3, f4, ?_, ?_, ?_, f5, ?_⟩
    · refine ⟨⟨0, 0⟩, n0, ⟨1, 0⟩, f3, hn0, hd0, rfl, rfl, ?_⟩
      norm_num [signedHorizontalDistanceBetweenXYAndLine]
    · rintro dist ⟨o, n, dst, h1, h2, h3, h4, -⟩
      obtain ⟨rfl, rfl⟩ := key h1 h2 h3
      simp at h4
    · rintro dist ⟨o, n, dst, h1, h2, h3, h4, -⟩
      obtain ⟨rfl, rfl⟩ := key h1 h2 h3
      exact h4 rfl
    · refine ⟨⟨1, 1⟩, n3, ⟨1, 0⟩, f6, hn3, hd3, ?_, ?_, ?_, ?_, ?_⟩ <;>
        norm_num [signedHorizontalDistanceBetweenXYAndLine]

/-- C29, amended: in a DCEL where the pointers the loop reads are not nil, where
`d.halfEdges` lists with each half-edge one that runs the other way between the
same two points (its twin), and where no half-edge of `d.halfEdges` is level at the
height of p with a positive signed horizontal distance from p,
`findNextDownEdgeToTheLeft(edge)`, with p = edge.origin.coords, returns; it returns,
among the half-edges of `d.halfEdges` that are not level, whose y-range, end points
included, contains p.y and whose signed horizontal distance from p is positive, one
with the smallest such distance, and nil exactly when there is no such half-edge.
A level half-edge at the height of p is kept by the test
`destin.Y <= pt.Y && pt.Y <= origin.Y` of the code, against the comment beside the
test; hence the third condition. -/
theorem C29_next_down_edge (h : Heap) (d : doublyConnectedEdgeList) (edge : Nat) (pt : XY)
    (hpt : h.originCoords edge = some pt)
    (hdef : ∀ e ∈ d.halfEdges, ∃ o n dst, h.originCoords e = some o ∧ h.nextOf e = some n ∧
      h.originCoords n = some dst)
    (htw : TwinsListed h d)
    (hlev : ∀ e ∈ d.halfEdges, ¬ LevelCandidate h pt e) :
    ∃ r, findNextDownEdgeToTheLeft h d edge = some r ∧
      (r = none ↔ ¬ ∃ e ∈ d.halfEdges, ∃ dist, SlopeCandidate h pt e dist) ∧
      (∀ b, r = some b → b ∈ d.halfEdges ∧ ∃ db, SlopeCandidate h pt b db ∧
        ∀ e ∈ d.halfEdges, ∀ dist, SlopeCandidate h pt e dist → db ≤ dist) := by
  obtain ⟨r, hr, hnone, hsome⟩ := nextDown_spec h d edge pt hpt hdef
  refine ⟨r, hr, ?_, ?_⟩
  · rw [hnone]
    constructor
    · rintro hno ⟨e, he, dist, hc⟩
      obtain ⟨e3, he3, hc3⟩ := spanCandidate_down htw he (slopeCandidate_span hc)
      exact hno ⟨e3, he3, dist, hc3⟩
    · rintro hno ⟨e, he, dist, hc⟩
      exact hno ⟨e, he, dist, downCandidate_slope hc (hlev e he)⟩
  · intro b hs
    obtain ⟨b1, db, b2, b3⟩ := hsome b hs
    refine ⟨b1, db, downCandidate_slope b2 (hlev b b1), fun e he dist hc => ?_⟩
    obtain ⟨e3, he3, hc3⟩ := spanCandidate_down htw he (slopeCandidate_span hc)
    exact b3 e3 he3 dist hc3

theorem unitSquare_level_facts :
    ((newDCELFromPolygon Heap.empty unitSquare true).all (fun s =>
      s.2.halfEdges.all (fun e =>
        match s.1.originCoords e, (s.1.nextOf e).bind s.1.originCoords with
        | some o, some dst =>
          decide (¬ (o.Y = 0 ∧ dst.Y = 0 ∧
            0 < signedHorizontalDistanceBetweenXYAndLine ⟨1, 0⟩ ⟨o, dst⟩))
        | _, _ => false))) = true := by
  with_unfolding_all decide

/-- C29, amended, at the unit square and the half-edge that starts at (1,0): the
level half-edges at the height 0 are at distance 0 from (1,0), and the result is
the half-edge from (0,1) to (0,0). -/
theorem C29_next_down_edge_witness :
    ∃ h d, newDCELFromPolygon Heap.empty unitSquare true = some (h, d) ∧
      h.originCoords 2 = some ⟨1, 0⟩ ∧
      (∀ e ∈ d.halfEdges, ∃ o n dst, h.originCoords e = some o ∧ h.nextOf e = some n ∧
        h.originCoords n = some dst) ∧
      TwinsListed h d ∧
      (∀ e ∈ d.halfEdges, ¬ LevelCandidate h ⟨1, 0⟩ e) ∧
      findNextDownEdgeToTheLeft h d 2 = some (some 6) ∧
      ∃ r, findNextDownEdgeToTheLeft h d 2 = some r ∧
        (r = none ↔ ¬ ∃ e ∈ d.halfEdges, ∃ dist, SlopeCandidate h ⟨1, 0⟩ e dist) ∧
        (∀ b, r = some b → b ∈ d.halfEdges ∧ ∃ db, SlopeCandidate h ⟨1, 0⟩ b db ∧
          ∀ e ∈ d.halfEdges, ∀ dist, SlopeCandidate h ⟨1, 0⟩ e dist → db ≤ dist) := by
  obtain ⟨h, d, e, inv, -⟩ := newDCELFromPolygon_inv Heap.empty unitSquare true unitSquare_closed
  have hf := unitSquare_nextDown_facts
  have hg := unitSquare_defined_facts
  have hl := unitSquare_level_facts
  rw [e] at hf hg hl
  simp only [Option.all_some, Bool.and_eq_true, decide_eq_true_eq, List.all_eq_true] at hf hg hl
  have hdef : ∀ x ∈ d.halfEdges, ∃ o n dst, h.originCoords x = some o ∧
      h.nextOf x = some n ∧ h.originCoords n = some dst := by
    intro x hx
    obtain ⟨g1, g2⟩ := hg x hx
    obtain ⟨o, ho⟩ := Option.isSome_iff_exists.mp g1
    obtain ⟨dst, hd⟩ := Option.isSome_iff_exists.mp g2
    cases hn : h.nextOf x with
    | none => rw [hn] at hd; simp at hd
    | some n =>
      rw [hn] at hd
      exact ⟨o, n, dst, ho, rfl, hd⟩
  have hlev : ∀ x ∈ d.halfEdges, ¬ LevelCandidate h ⟨1, 0⟩ x := by
    rintro x hx ⟨o, n, dst, h1, h2, h3, h4, h5, h6⟩
    have := hl x hx
    rw [h1, h2] at this
    simp only [Option.some_bind, h3, decide_eq_true_eq] at this
    exact this ⟨h4, h5, h6⟩
  exact ⟨h, d, e, hf.1.2, hdef, twinsListed_of_splitInv inv, hlev, hf.1.1,
    C29_next_down_edge h d 2 ⟨1, 0⟩ hf.1.2 hdef (twinsListed_of_splitInv inv) hlev⟩

/-! ## The count of one ring segment -/

/-- A horizontal segment is not counted. -/
theorem crossesRay_horizontal {pt : XY} {seg : line} (hY : seg.a.Y = seg.b.Y) :
    crossesRay pt seg = false := by
  simp only [crossesRay, decide_eq_false_iff_not]
  rintro ⟨h1, h2, -⟩
  rw [hY, min_self] at h1
  rw [hY, max_self] at h2
  linarith

/-- A segment that is counted has a point on the ray. -/
theorem common_of_crossesRay {pt : XY} {m : ℚ} {seg : line} (hm : pt.X ≤ m)
    (hxa : seg.a.X ≤ m) (hxb : seg.b.X ≤ m) (hc : crossesRay pt seg = true) :
    ∃ q, InClosedSegment seg.a seg.b q ∧ InClosedSegment pt ⟨m + 1, pt.Y⟩ q := by
  simp only [crossesRay, decide_eq_true_eq] at hc
  obtain ⟨h1, h2, h3⟩ := hc
  have hY : seg.a.Y ≠ seg.b.Y := by
    intro h
    rw [h, min_self] at h1
    rw [h, max_self] at h2
    linarith
  have ht := convex_of_between hY ⟨h1.le, h2⟩
  have hon : InClosedSegment seg.a seg.b (pointAt seg.a seg.b (heightParam seg pt.Y)) :=
    ⟨_, ht.1, ht.2, rfl⟩
  refine ⟨_, hon, (on_ray_iff (by linarith) _).mpr ⟨pointAt_heightParam_Y hY pt.Y, h3.le, ?_⟩⟩
  have := seg_X_le hon hxa hxb
  linarith

/-- Whether a segment that is not horizontal and has a point on the ray is
counted: exactly when one of its ends is strictly below the ray. -/
theorem crossesRay_of_common {pt : XY} {m : ℚ} {seg : line} (hm : pt.X ≤ m)
    (hoff : ¬ InClosedSegment seg.a seg.b pt) (hY : seg.a.Y ≠ seg.b.Y) {q : XY}
    (h1 : InClosedSegment seg.a seg.b q) (h2 : InClosedSegment pt ⟨m + 1, pt.Y⟩ q) :
    q = pointAt seg.a seg.b (heightParam seg pt.Y) ∧
      (crossesRay pt seg = true ↔ min seg.a.Y seg.b.Y < pt.Y) := by
  obtain ⟨r1, r2, -⟩ := (on_ray_iff (by linarith) q).mp h2
  obtain ⟨-, -, hq⟩ := on_seg_height hY h1
  rw [r1] at hq
  have hbox := ((onSegment_iff _ _ _).mp (onSegment_of_inClosedSegment h1)).2
  rw [r1] at hbox
  have hlt : pt.X < q.X := by
    rcases eq_or_lt_of_le r2 with h | h
    · exfalso
      apply hoff
      have : q = pt := (XY.eq_iff _ _).mpr ⟨h.symm, r1⟩
      rw [← this]; exact h1
    · exact h
  refine ⟨hq, ?_⟩
  simp only [crossesRay, decide_eq_true_eq]
  constructor
  · intro h; exact h.1
  · intro h; exact ⟨h, hbox.2, by rw [← hq]; exact hlt⟩

/-- A horizontal segment with a point on the ray has both its ends on the ray. -/
theorem horizontal_on_ray {pt : XY} {m : ℚ} {seg : line} (hm : pt.X ≤ m)
    (hab : seg.a ≠ seg.b) (hoff : ¬ InClosedSegment seg.a seg.b pt)
    (hxa : seg.a.X ≤ m) (hxb : seg.b.X ≤ m) (hY : seg.a.Y = seg.b.Y) {q : XY}
    (h1 : InClosedSegment seg.a seg.b q) (h2 : InClosedSegment pt ⟨m + 1, pt.Y⟩ q) :
    InClosedSegment pt ⟨m + 1, pt.Y⟩ seg.a ∧ InClosedSegment pt ⟨m + 1, pt.Y⟩ seg.b := by
  obtain ⟨r1, r2, -⟩ := (on_ray_iff (by linarith) q).mp h2
  have hbox := (onSegment_iff _ _ _).mp (onSegment_of_inClosedSegment h1)
  have hqa : q.Y = seg.a.Y := by
    have := hbox.2
    rw [hY, min_self, max_self] at this
    rw [hY]; linarith [this.1, this.2]
  have hcol : crossProduct seg.a seg.b pt = 0 := by
    simp only [crossProduct]
    have e1 : pt.Y - seg.a.Y = 0 := by rw [← r1, hqa]; ring
    have e2 : seg.b.Y - seg.a.Y = 0 := by rw [hY]; ring
    rw [e1, e2]; ring
  have hnot : ¬ (min seg.a.X seg.b.X ≤ pt.X) := by
    intro hmin
    apply hoff
    apply inClosedSegment_of_onSegment hab hcol
    rw [onSegment_iff]
    refine ⟨⟨hmin, le_trans r2 hbox.1.2⟩, ?_⟩
    rw [hY, min_self, max_self]
    have : pt.Y = seg.b.Y := by rw [← r1, hqa, hY]
    exact ⟨this.ge, this.le⟩
  have hmin : pt.X < min seg.a.X seg.b.X := not_le.mp hnot
  have ha : pt.X < seg.a.X := lt_of_lt_of_le hmin (min_le_left _ _)
  have hb : pt.X < seg.b.X := lt_of_lt_of_le hmin (min_le_right _ _)
  have hya : seg.a.Y = pt.Y := by rw [← hqa, r1]
  exact ⟨(on_ray_iff (by linarith) _).mpr ⟨hya, ha.le, by linarith⟩,
    (on_ray_iff (by linarith) _).mpr ⟨by rw [← hY]; exact hya, hb.le, by linarith⟩⟩

/-! ## Claim C28 -/

/-- C28: the count of one ring segment in `isPointInsideOrOnRing`, for a point `pt`
that is not on the segment and a ray from `pt` to the right that ends beyond both
ends of the segment (as the ray to `maxX + 1` does). The count stays as it is when
the segment has no point on the ray, and when it has more than one (it lies along
the ray); it grows by one when the one common point is not an end of the segment;
when the one common point is an end of the segment it grows by one exactly when the
other end has `y < pt.y`. So for a vertex `v` on the ray whose neighbours `u` and
`w` are off the line of the ray, the two segments at `v` add one for each neighbour
below the ray: one when `u` and `w` are on opposite sides, none or two when they are
on the same side. -/
theorem C28_only_count_below (pt : XY) (m : ℚ) (seg : line) (n : Nat) (hm : pt.X ≤ m)
    (hab : seg.a ≠ seg.b) (hoff : ¬ InClosedSegment seg.a seg.b pt)
    (hxa : seg.a.X ≤ m) (hxb : seg.b.X ≤ m) :
    ((¬ ∃ q, InClosedSegment seg.a seg.b q ∧ InClosedSegment pt ⟨m + 1, pt.Y⟩ q) →
      countSegment pt ⟨pt, ⟨m + 1, pt.Y⟩⟩ n seg = n) ∧
    ((∃ q1 q2, q1 ≠ q2 ∧
        (InClosedSegment seg.a seg.b q1 ∧ InClosedSegment pt ⟨m + 1, pt.Y⟩ q1) ∧
        (InClosedSegment seg.a seg.b q2 ∧ InClosedSegment pt ⟨m + 1, pt.Y⟩ q2)) →
      seg.a.Y = seg.b.Y ∧ countSegment pt ⟨pt, ⟨m + 1, pt.Y⟩⟩ n seg = n) ∧
    (∀ q, InClosedSegment seg.a seg.b q → InClosedSegment pt ⟨m + 1, pt.Y⟩ q →
      (∀ q2, InClosedSegment seg.a seg.b q2 → InClosedSegment pt ⟨m + 1, pt.Y⟩ q2 → q2 = q) →
      (q ≠ seg.a → q ≠ seg.b → countSegment pt ⟨pt, ⟨m + 1, pt.Y⟩⟩ n seg = n + 1) ∧
      (q = seg.a → countSegment pt ⟨pt, ⟨m + 1, pt.Y⟩⟩ n seg =
        n + (if seg.b.Y < pt.Y then 1 else 0)) ∧
      (q = seg.b → countSegment pt ⟨pt, ⟨m + 1, pt.Y⟩⟩ n seg =
        n + (if seg.a.Y < pt.Y then 1 else 0))) ∧
    (∀ u v w : XY, v.Y = pt.Y → pt.X < v.X → v.X ≤ m → u.X ≤ m → w.X ≤ m →
      u.Y ≠ pt.Y → w.Y ≠ pt.Y →
      countSegment pt ⟨pt, ⟨m + 1, pt.Y⟩⟩ (countSegment pt ⟨pt, ⟨m + 1, pt.Y⟩⟩ n ⟨u, v⟩) ⟨v, w⟩ =
        n + (if u.Y < pt.Y then 1 else 0) + (if w.Y < pt.Y then 1 else 0)) := by
  have hcount := countSegment_eq n hm hab hoff hxa hxb
  refine ⟨?_, ?_, ?_, ?_⟩
  · intro hno
    have : crossesRay pt seg = false := by
      cases hc : crossesRay pt seg
      · rfl
      · exact absurd (common_of_crossesRay hm hxa hxb hc) hno
    rw [hcount, this]; simp
  · rintro ⟨q1, q2, hne, ⟨a1, a2⟩, ⟨b1, b2⟩⟩
    have hY : seg.a.Y = seg.b.Y := by
      by_contra hY
      have e1 := (crossesRay_of_common hm hoff hY a1 a2).1
      have e2 := (crossesRay_of_common hm hoff hY b1 b2).1
      exact hne (e1.trans e2.symm)
    refine ⟨hY, ?_⟩
    rw [hcount, crossesRay_horizontal hY]; simp
  · intro q h1 h2 huniq
    have hY : seg.a.Y ≠ seg.b.Y := by
      intro hY
      obtain ⟨ra, rb⟩ := horizontal_on_ray hm hab hoff hxa hxb hY h1 h2
      have ea := huniq _ (inClosedSegment_left _ _) ra
      have eb := huniq _ (inClosedSegment_right _ _) rb
      exact hab (ea.trans eb.symm)
    obtain ⟨hq, hiff⟩ := crossesRay_of_common hm hoff hY h1 h2
    obtain ⟨r1, -, -⟩ := (on_ray_iff (by linarith) q).mp h2
    have hbox := ((onSegment_iff _ _ _).mp (onSegment_of_inClosedSegment h1)).2
    rw [r1] at hbox
    refine ⟨?_, ?_, ?_⟩
    · intro hqa hqb
      have hmin : min seg.a.Y seg.b.Y < pt.Y := by
        rcases lt_or_eq_of_le hbox.1 with h | h
        · exact h
        · exfalso
          -- the end with the least height is the common point
          rcases le_total seg.a.Y seg.b.Y with hle | hle
          · rw [min_eq_left hle] at h
            apply hqa
            rw [hq, ← h]
            have : heightParam seg seg.a.Y = 0 := by simp [heightParam]
            rw [this, pointAt_zero]
          · rw [min_eq_right hle] at h
            apply hqb
            rw [hq, ← h]
            have hd : seg.b.Y - seg.a.Y ≠ 0 := sub_ne_zero.mpr (Ne.symm hY)
            have : heightParam seg seg.b.Y = 1 := by simp [heightParam, div_self hd]
            rw [this, pointAt_one]
      rw [hcount, hiff.mpr hmin]; simp
    · intro hqa
      have hpa : pt.Y = seg.a.Y := by rw [← r1, hqa]
      rw [hcount]
      by_cases hb : seg.b.Y < pt.Y
      · rw [if_pos hb, hiff.mpr (lt_of_le_of_lt (min_le_right _ _) hb)]; simp
      · rw [if_neg hb]
        have : ¬ crossesRay pt seg = true := by
          rw [hiff]
          have hle : seg.a.Y ≤ seg.b.Y := by rw [← hpa]; exact not_lt.mp hb
          rw [min_eq_left hle, hpa]; exact lt_irrefl _
        simp [this]
    · intro hqb
      have hpb : pt.Y = seg.b.Y := by rw [← r1, hqb]
      rw [hcount]
      by_cases ha : seg.a.Y < pt.Y
      · rw [if_pos ha, hiff.mpr (lt_of_le_of_lt (min_le_left _ _) ha)]; simp
      · rw [if_neg ha]
        have : ¬ crossesRay pt seg = true := by
          rw [hiff]
          have hle : seg.b.Y ≤ seg.a.Y := by rw [← hpb]; exact not_lt.mp ha
          rw [min_eq_right hle, hpb]; exact lt_irrefl _
        simp [this]
  · intro u v w hv hvx hvm hum hwm hu hw
    have hvray : InClosedSegment pt ⟨m + 1, pt.Y⟩ v :=
      (on_ray_iff (by linarith) v).mpr ⟨hv, hvx.le, by linarith⟩
    have hne1 : u ≠ v := fun e => hu (by rw [e]; exact hv)
    have hne2 : v ≠ w := fun e => hw (by rw [← e]; exact hv)
    have hY1 : (line.mk u v).a.Y ≠ (line.mk u v).b.Y := by
      show u.Y ≠ v.Y
      rw [hv]; exact hu
    have hY2 : (line.mk v w).a.Y ≠ (line.mk v w).b.Y := by
      show v.Y ≠ w.Y
      rw [hv]; exact Ne.symm hw
    have off1 : ¬ InClosedSegment u v pt := by
      intro hon
      obtain ⟨-, -, e1⟩ := @on_seg_height ⟨u, v⟩ hY1 pt hon
      obtain ⟨-, -, e2⟩ := @on_seg_height ⟨u, v⟩ hY1 v (inClosedSegment_right u v)
      rw [hv] at e2
      have := e1.trans e2.symm
      rw [this] at hvx
      exact lt_irrefl _ hvx
    have off2 : ¬ InClosedSegment v w pt := by
      intro hon
      obtain ⟨-, -, e1⟩ := @on_seg_height ⟨v, w⟩ hY2 pt hon
      obtain ⟨-, -, e2⟩ := @on_seg_height ⟨v, w⟩ hY2 v (inClosedSegment_left v w)
      rw [hv] at e2
      have := e1.trans e2.symm
      rw [this] at hvx
      exact lt_irrefl _ hvx
    have c1 := @countSegment_eq pt m ⟨u, v⟩ n hm hne1 off1 hum hvm
    have c2 := @countSegment_eq pt m ⟨v, w⟩ (countSegment pt ⟨pt, ⟨m + 1, pt.Y⟩⟩ n ⟨u, v⟩) hm
      hne2 off2 hvm hwm
    have i1 := (@crossesRay_of_common pt m ⟨u, v⟩ hm off1 hY1 v
      (inClosedSegment_right u v) hvray).2
    have i2 := (@crossesRay_of_common pt m ⟨v, w⟩ hm off2 hY2 v
      (inClosedSegment_left v w) hvray).2
    have j1 : crossesRay pt ⟨u, v⟩ = true ↔ u.Y < pt.Y := by
      rw [i1]
      show min u.Y v.Y < pt.Y ↔ _
      rw [hv]
      constructor
      · intro h
        rcases min_lt_iff.mp h with h | h
        · exact h
        · exact absurd h (lt_irrefl _)
      · intro h; exact min_lt_iff.mpr (Or.inl h)
    have j2 : crossesRay pt ⟨v, w⟩ = true ↔ w.Y < pt.Y := by
      rw [i2]
      show min v.Y w.Y < pt.Y ↔ _
      rw [hv]
      constructor
      · intro h
        rcases min_lt_iff.mp h with h | h
        · exact absurd h (lt_irrefl _)
        · exact h
      · intro h; exact min_lt_iff.mpr (Or.inr h)
    rw [c2, c1]
    by_cases k1 : u.Y < pt.Y <;> by_cases k2 : w.Y < pt.Y
    · rw [if_pos k1, if_pos k2, j1.mpr k1, j2.mpr k2]; simp
    · rw [if_pos k1, if_neg k2, j1.mpr k1]
      have : ¬ crossesRay pt ⟨v, w⟩ = true := fun h => k2 (j2.mp h)
      simp [this]
    · rw [if_neg k1, if_pos k2, j2.mpr k2]
      have : ¬ crossesRay pt ⟨u, v⟩ = true := fun h => k1 (j1.mp h)
      simp [this]
    · rw [if_neg k1, if_neg k2]
      have a1 : ¬ crossesRay pt ⟨u, v⟩ = true := fun h => k1 (j1.mp h)
      have a2 : ¬ crossesRay pt ⟨v, w⟩ = true := fun h => k2 (j2.mp h)
      simp [a1, a2]

/-- C28 at the point (0,5) with the ray to x = 11: the segment (10,0)-(10,10) does
not hold the point; the vertex (10,5) with neighbours (8,3) below and (8,7) above
the ray is counted once. -/
theorem C28_only_count_below_witness :
    ((0 : ℚ) ≤ 10 ∧ (XY.mk 10 0) ≠ (XY.mk 10 10) ∧
      ¬ InClosedSegment ⟨10, 0⟩ ⟨10, 10⟩ ⟨0, 5⟩) ∧
    countSegment ⟨0, 5⟩ ⟨⟨0, 5⟩, ⟨10 + 1, 5⟩⟩
        (countSegment ⟨0, 5⟩ ⟨⟨0, 5⟩, ⟨10 + 1, 5⟩⟩ 0 ⟨⟨8, 3⟩, ⟨10, 5⟩⟩) ⟨⟨10, 5⟩, ⟨8, 7⟩⟩ =
      0 + (if (3 : ℚ) < 5 then 1 else 0) + (if (7 : ℚ) < 5 then 1 else 0) := by
  have hab : (XY.mk 10 0) ≠ (XY.mk 10 10) := by simp
  have hoff : ¬ InClosedSegment ⟨10, 0⟩ ⟨10, 10⟩ (XY.mk 0 5) := by
    intro hon
    have := (onSegment_iff _ _ _).mp (onSegment_of_inClosedSegment hon)
    norm_num at this
  exact ⟨⟨by norm_num, hab, hoff⟩,
    (C28_only_count_below ⟨0, 5⟩ 10 ⟨⟨10, 0⟩, ⟨10, 10⟩⟩ 0 (by norm_num) hab hoff
      (le_refl _) (le_refl _)).2.2.2 ⟨8, 3⟩ ⟨10, 5⟩ ⟨8, 7⟩ rfl (by norm_num) (le_refl _)
      (by norm_num) (by norm_num) (by norm_num) (by norm_num)⟩

/-! ## The vertex merge -/

theorem setOrigin_spec {h h2 : Heap} {y : Nat} {v : Option Nat}
    (e : h.setOrigin y v = some h2) :
    h2.vertexRecords = h.vertexRecords ∧ h2.faceRecords = h.faceRecords ∧
      (∀ x, h2.nextOf x = h.nextOf x) ∧ h2.originOf y = v ∧
      ∀ x, x ≠ y → h2.originOf x = h.originOf x := by
  obtain ⟨r, hr, rfl⟩ := updHalfEdge_eq_some e
  have hg : ∀ x, (h.halfEdgeRecords.set y { r with origin := v })[x]? =
      if x = y then some { r with origin := v } else h.halfEdgeRecords[x]? :=
    getElem?_set_halfEdge hr
  refine ⟨rfl, rfl, ?_, ?_, ?_⟩
  · intro x
    simp only [Heap.nextOf, hg]
    by_cases hx : x = y
    · subst hx; simp [hr]
    · simp [hx]
  · simp only [Heap.originOf, hg]; simp
  · intro x hx
    simp only [Heap.originOf, hg, if_neg hx]

theorem originCoords_of {h : Heap} {e o : Nat} {r : vertexRecord}
    (ho : h.originOf e = some o) (hr : h.vertexRecords[o]? = some r) :
    h.originCoords e = some r.coords := by
  simp [Heap.originCoords, ho, hr]

/-- The callback of `overlayVerticesInComponent` at one half-edge. -/
theorem overlayVertexStep_spec {h0 : Heap} {vs0 : List (XY × Nat)} {V : List Nat}
    {s s2 : Heap × List (XY × Nat)} {e : Nat} (inv : MergeInv h0 vs0 V s)
    (hs : overlayVertexStep s e = some s2) : MergeInv h0 vs0 (e :: V) s2 := by
  simp only [overlayVertexStep, Option.bind_eq_bind, Option.bind_eq_some] at hs
  obtain ⟨o, ho, r, hr, hs⟩ := hs
  have hce : s.1.originCoords e = some r.coords := originCoords_of ho hr
  cases hl : s.2.lookup r.coords with
  | some existing =>
    rw [hl] at hs
    simp only [Option.bind_eq_bind, Option.bind_eq_some, Option.pure_def,
      Option.some.injEq] at hs
    obtain ⟨g, hg, rfl⟩ := hs
    obtain ⟨g1, g2, g3, g4, g5⟩ := setOrigin_spec hg
    obtain ⟨rx, hrx, hrxc⟩ := inv.vmap _ _ hl
    have hnew : ∃ o2 r2, g.originOf e = some o2 ∧ g.vertexRecords[o2]? = some r2 ∧
        s.2.lookup r2.coords = some o2 :=
      ⟨existing, rx, g4, by rw [g1]; exact hrx, by rw [hrxc]; exact hl⟩
    refine ⟨g1.trans inv.vertexRecords, g2.trans inv.faceRecords,
      fun x => (g3 x).trans (inv.nextOf x), ?_, ?_, inv.mono, ?_, ?_, ?_⟩
    · intro x
      by_cases hx : x = e
      · subst hx
        rw [originCoords_of g4 (by rw [g1]; exact hrx), hrxc, ← hce]
        exact inv.coords x
      · rw [← inv.coords x]
        simp only [Heap.originCoords, g5 x hx, g1]
    · intro xy v hv
      obtain ⟨r3, h3, h4⟩ := inv.vmap xy v hv
      exact ⟨r3, by rw [g1]; exact h3, h4⟩
    · intro xy v hv
      rcases inv.fresh xy v hv with h1 | ⟨h1, x, hx, h2⟩
      · exact Or.inl h1
      · exact Or.inr ⟨h1, x, List.mem_cons_of_mem _ hx, h2⟩
    · intro x hx
      by_cases hxe : x = e
      · subst hxe; exact hnew
      · rcases List.mem_cons.mp hx with h1 | h1
        · exact absurd h1 hxe
        · obtain ⟨o2, r2, a1, a2, a3⟩ := inv.done x h1
          exact ⟨o2, r2, by rw [g5 x hxe]; exact a1, by rw [g1]; exact a2, a3⟩
    · intro x hx
      have hxe : x ≠ e := fun h => hx (h ▸ List.mem_cons_self _ _)
      rw [g5 x hxe]
      exact inv.rest x (fun h => hx (List.mem_cons_of_mem _ h))
  | none =>
    rw [hl] at hs
    simp only [Option.pure_def, Option.some.injEq] at hs
    subst hs
    have hlk : ∀ x, (s.2 ++ [(r.coords, o)]).lookup x =
        match s.2.lookup x with
        | some w => some w
        | none => if x = r.coords then some o else none :=
      fun x => lookup_append_single s.2 r.coords x o
    have hkeep : ∀ x w, s.2.lookup x = some w → (s.2 ++ [(r.coords, o)]).lookup x = some w := by
      intro x w hw
      rw [hlk, hw]
    have hfresh : (s.2 ++ [(r.coords, o)]).lookup r.coords = some o := by
      rw [hlk, hl]; simp
    have heV : e ∉ V := by
      intro heV
      obtain ⟨o2, r2, a1, a2, a3⟩ := inv.done e heV
      rw [ho] at a1
      obtain rfl := Option.some.inj a1
      rw [hr] at a2
      obtain rfl := Option.some.inj a2
      rw [hl] at a3
      exact Option.noConfusion a3
    refine ⟨inv.vertexRecords, inv.faceRecords, inv.nextOf, inv.coords, ?_,
      fun xy v hv => hkeep xy v (inv.mono xy v hv), ?_, ?_, ?_⟩
    · intro xy v hv
      show ∃ r3, s.1.vertexRecords[v]? = some r3 ∧ r3.coords = xy
      rw [hlk] at hv
      cases hx : s.2.lookup xy with
      | some w =>
        rw [hx] at hv
        obtain rfl := Option.some.inj hv
        exact inv.vmap xy w hx
      | none =>
        rw [hx] at hv
        by_cases hk : xy = r.coords
        · simp only [hk, if_true, Option.some.injEq] at hv
          subst hv
          exact ⟨r, hr, hk.symm⟩
        · simp [hk] at hv
    · intro xy v hv
      rw [hlk] at hv
      cases hx : s.2.lookup xy with
      | some w =>
        rw [hx] at hv
        obtain rfl := Option.some.inj hv
        rcases inv.fresh xy w hx with h1 | ⟨h1, x, hx2, h2⟩
        · exact Or.inl h1
        · exact Or.inr ⟨h1, x, List.mem_cons_of_mem _ hx2, h2⟩
      | none =>
        rw [hx] at hv
        by_cases hk : xy = r.coords
        · simp only [hk, if_true, Option.some.injEq] at hv
          subst hv
          right
          constructor
          · cases h0l : vs0.lookup xy with
            | none => rfl
            | some w =>
              have := inv.mono xy w h0l
              rw [hx] at this
              exact Option.noConfusion this
          · refine ⟨e, List.mem_cons_self _ _, ?_, ?_⟩
            · rw [← inv.rest e heV]; exact ho
            · rw [← inv.coords e, hce, hk]
        · simp [hk] at hv
    · intro x hx
      rcases List.mem_cons.mp hx with h1 | h1
      · subst h1
        exact ⟨o, r, ho, hr, hfresh⟩
      · obtain ⟨o2, r2, a1, a2, a3⟩ := inv.done x h1
        exact ⟨o2, r2, a1, a2, hkeep _ _ a3⟩
    · intro x hx
      exact inv.rest x (fun h => hx (List.mem_cons_of_mem _ h))

/-- The callback along a list of half-edges. -/
theorem overlayVertexSteps_spec {h0 : Heap} {vs0 : List (XY × Nat)} :
    ∀ (L V : List Nat) (s s2 : Heap × List (XY × Nat)), MergeInv h0 vs0 V s →
      L.foldlM overlayVertexStep s = some s2 → MergeInv h0 vs0 (L.reverse ++ V) s2 := by
  intro L
  induction L with
  | nil =>
    intro V s s2 inv hs
    obtain rfl : s = s2 := Option.some.inj hs
    simpa using inv
  | cons e rest ih =>
    intro V s s2 inv hs
    rw [List.foldlM_cons] at hs
    cases h1 : overlayVertexStep s e with
    | none => rw [h1] at hs; exact Option.noConfusion hs
    | some s1 =>
      rw [h1] at hs
      have := ih (e :: V) s1 s2 (overlayVertexStep_spec inv h1) hs
      simpa using this

/-- The method `overlayVerticesInComponent`. -/
theorem overlayComponent_spec {h0 : Heap} {vs0 : List (XY × Nat)} {fuel cmp : Nat}
    {V : List Nat} {s s2 : Heap × List (XY × Nat)} (inv : MergeInv h0 vs0 V s)
    (hs : forEachEdge (fun t e => t.1.nextOf e) overlayVertexStep cmp fuel s cmp = some s2) :
    ∃ L, edgeLoop h0 cmp fuel cmp = some L ∧ MergeInv h0 vs0 (L.reverse ++ V) s2 := by
  rw [forEachEdge_eq_foldlM h0 _ _ (fun t => ∃ W, MergeInv h0 vs0 W t)
    (fun t e ht => by obtain ⟨W, hW⟩ := ht; exact hW.nextOf e)
    (fun t e t2 ht hf => by
      obtain ⟨W, hW⟩ := ht
      exact ⟨_, overlayVertexStep_spec hW hf⟩) cmp fuel s cmp ⟨V, inv⟩] at hs
  cases hL : edgeLoop h0 cmp fuel cmp with
  | none => rw [hL] at hs; exact Option.noConfusion hs
  | some L =>
    rw [hL] at hs
    exact ⟨L, rfl, overlayVertexSteps_spec L V s s2 inv hs⟩

/-- The method `overlayVerticesInComponent` along a list of components. -/
theorem overlayComponents_spec {h0 : Heap} {vs0 : List (XY × Nat)} {fuel : Nat} :
    ∀ (comps V : List Nat) (s s2 : Heap × List (XY × Nat)), MergeInv h0 vs0 V s →
      comps.foldlM (fun t cmp =>
        forEachEdge (fun t e => t.1.nextOf e) overlayVertexStep cmp fuel t cmp) s = some s2 →
      ∃ V2, MergeInv h0 vs0 V2 s2 ∧ (∀ x ∈ V, x ∈ V2) ∧
        (∀ c ∈ comps, ∃ L, edgeLoop h0 c fuel c = some L ∧ ∀ e ∈ L, e ∈ V2) ∧
        (∀ e ∈ V2, e ∈ V ∨ ∃ c ∈ comps, ∃ L, edgeLoop h0 c fuel c = some L ∧ e ∈ L) := by
  intro comps
  induction comps with
  | nil =>
    intro V s s2 inv hs
    obtain rfl : s = s2 := Option.some.inj hs
    exact ⟨V, inv, fun x hx => hx, fun c hc => absurd hc (List.not_mem_nil c),
      fun e he => Or.inl he⟩
  | cons c rest ih =>
    intro V s s2 inv hs
    rw [List.foldlM_cons] at hs
    cases h1 : forEachEdge (fun t e => t.1.nextOf e) overlayVertexStep c fuel s c with
    | none => rw [h1] at hs; exact Option.noConfusion hs
    | some s1 =>
      rw [h1] at hs
      obtain ⟨L, hL, inv1⟩ := overlayComponent_spec inv h1
      obtain ⟨V2, inv2, m1, m2, m3⟩ := ih (L.reverse ++ V) s1 s2 inv1 hs
      refine ⟨V2, inv2, fun x hx => m1 x (List.mem_append_right _ hx), ?_, ?_⟩
      · intro x hx
        rcases List.mem_cons.mp hx with rfl | hx
        · exact ⟨L, hL, fun e he =>
            m1 e (List.mem_append_left _ (List.mem_reverse.mpr he))⟩
        · exact m2 x hx
      · intro e he
        rcases m3 e he with h2 | ⟨x, hx, Lx, h3, h4⟩
        · rcases List.mem_append.mp h2 with h5 | h5
          · exact Or.inr ⟨c, List.mem_cons_self _ _, L, hL, List.mem_reverse.mp h5⟩
          · exact Or.inl h5
        · exact Or.inr ⟨x, List.mem_cons_of_mem _ hx, Lx, h3, h4⟩

/-- The method `overlayVertices` along a list of faces. -/
theorem overlayFaces_spec {h0 : Heap} {vs0 : List (XY × Nat)} {fuel : Nat} :
    ∀ (faces V : List Nat) (s s2 : Heap × List (XY × Nat)), MergeInv h0 vs0 V s →
      forEachComponent (fun t face => t.1.faceRecords[face]?)
        (fun t cmp => forEachEdge (fun t e => t.1.nextOf e) overlayVertexStep cmp fuel t cmp)
        faces s = some s2 →
      ∃ V2, MergeInv h0 vs0 V2 s2 ∧ (∀ x ∈ V, x ∈ V2) ∧
        (∀ e, OnComponent h0 fuel faces e → e ∈ V2) ∧
        (∀ e ∈ V2, e ∈ V ∨ OnComponent h0 fuel faces e) := by
  intro faces
  induction faces with
  | nil =>
    intro V s s2 inv hs
    obtain rfl : s = s2 := Option.some.inj hs
    refine ⟨V, inv, fun x hx => hx, ?_, fun e he => Or.inl he⟩
    rintro e ⟨face, hf, -⟩
    exact absurd hf (List.not_mem_nil face)
  | cons face rest ih =>
    intro V s s2 inv hs
    unfold forEachComponent at hs
    rw [List.foldlM_cons] at hs
    simp only [Option.bind_eq_bind] at hs
    cases hfr0 : s.1.faceRecords[face]? with
    | none => rw [hfr0] at hs; exact Option.noConfusion hs
    | some fr =>
    rw [hfr0] at hs
    simp only [Option.some_bind] at hs
    have hfr : h0.faceRecords[face]? = some fr := by rw [← inv.faceRecords]; exact hfr0
    -- the outer component
    have houter : ∃ sa, ((List.foldlM (fun t cmp =>
          forEachEdge (fun t e => t.1.nextOf e) overlayVertexStep cmp fuel t cmp) sa
          fr.innerComponents).bind (fun init =>
            forEachComponent (fun t face => t.1.faceRecords[face]?)
              (fun t cmp =>
                forEachEdge (fun t e => t.1.nextOf e) overlayVertexStep cmp fuel t cmp)
              rest init)) = some s2 ∧
        ∃ Va, MergeInv h0 vs0 Va sa ∧ (∀ x ∈ V, x ∈ Va) ∧
        (∀ c, fr.outerComponent = some c →
          ∃ L, edgeLoop h0 c fuel c = some L ∧ ∀ e ∈ L, e ∈ Va) ∧
        (∀ e ∈ Va, e ∈ V ∨ ∃ c, fr.outerComponent = some c ∧
          ∃ L, edgeLoop h0 c fuel c = some L ∧ e ∈ L) := by
      cases ho : fr.outerComponent with
      | none =>
        rw [ho] at hs
        simp only [Option.pure_def, Option.some_bind] at hs
        exact ⟨s, hs, V, inv, fun x hx => hx, fun c hc => Option.noConfusion hc,
          fun e he => Or.inl he⟩
      | some c =>
        rw [ho] at hs
        simp only at hs
        cases hsa : forEachEdge (fun t e => t.1.nextOf e) overlayVertexStep c fuel s c with
        | none => rw [hsa] at hs; exact Option.noConfusion hs
        | some sa =>
          rw [hsa] at hs
          simp only [Option.some_bind] at hs
          obtain ⟨L, hL, inv1⟩ := overlayComponent_spec inv hsa
          refine ⟨sa, hs, L.reverse ++ V, inv1, fun x hx => List.mem_append_right _ hx, ?_, ?_⟩
          · intro c2 hc2
            obtain rfl := Option.some.inj hc2
            exact ⟨L, hL, fun e he => List.mem_append_left _ (List.mem_reverse.mpr he)⟩
          · intro e he
            rcases List.mem_append.mp he with h5 | h5
            · exact Or.inr ⟨c, rfl, L, hL, List.mem_reverse.mp h5⟩
            · exact Or.inl h5
    clear hs
    obtain ⟨sa, hs, houter⟩ := houter
    cases hsb : List.foldlM (fun t cmp =>
        forEachEdge (fun t e => t.1.nextOf e) overlayVertexStep cmp fuel t cmp) sa
        fr.innerComponents with
    | none => rw [hsb] at hs; exact Option.noConfusion hs
    | some s1 =>
    rw [hsb] at hs
    simp only [Option.some_bind] at hs
    obtain ⟨Va, inva, a1, a2, a3⟩ := houter
    obtain ⟨Vb, invb, b1, b2, b3⟩ := overlayComponents_spec fr.innerComponents Va sa s1 inva hsb
    obtain ⟨V2, inv2, c1, c2, c3⟩ := ih Vb s1 s2 invb hs
    refine ⟨V2, inv2, fun x hx => c1 x (b1 x (a1 x hx)), ?_, ?_⟩
    · rintro e ⟨f, hf, fr2, hfr2, c, hc, L, hL, heL⟩
      rcases List.mem_cons.mp hf with rfl | hf
      · rw [hfr] at hfr2
        obtain rfl := Option.some.inj hfr2
        rcases hc with hc | hc
        · obtain ⟨L2, hL2, hm⟩ := a2 c hc
          rw [hL] at hL2
          obtain rfl := Option.some.inj hL2
          exact c1 e (b1 e (hm e heL))
        · obtain ⟨L2, hL2, hm⟩ := b2 c hc
          rw [hL] at hL2
          obtain rfl := Option.some.inj hL2
          exact c1 e (hm e heL)
      · exact c2 e ⟨f, hf, fr2, hfr2, c, hc, L, hL, heL⟩
    · intro e he
      rcases c3 e he with h1 | ⟨f, hf, rest2⟩
      · rcases b3 e h1 with h2 | ⟨c, hc, L, hL, heL⟩
        · rcases a3 e h2 with h3 | ⟨c, hc, L, hL, heL⟩
          · exact Or.inl h3
          · exact Or.inr ⟨face, List.mem_cons_self _ _, fr, hfr, c, Or.inl hc, L, hL, heL⟩
        · exact Or.inr ⟨face, List.mem_cons_self _ _, fr, hfr, c, Or.inr hc, L, hL, heL⟩
      · exact Or.inr ⟨f, List.mem_cons_of_mem _ hf, rest2⟩

theorem mergeInv_start {h0 : Heap} {vs0 : List (XY × Nat)} (hok : VMapOK h0 vs0) :
    MergeInv h0 vs0 [] (h0, vs0) :=
  ⟨rfl, rfl, fun _ => rfl, fun _ => rfl, hok, fun _ _ h => h, fun _ _ h => Or.inl h,
    fun e he => absurd he (List.not_mem_nil e), fun _ _ => rfl⟩

/-! ## Claim C24 -/

/-- C24: where every key of `d.vertices` maps to a record with the key's
coordinates and `d.overlayVertices(other)` returns, it leaves the vertex records and
the coordinates of every origin as they were, and keeps every entry `d.vertices`
had; every half-edge on the cycle of a component of a face of `other` then has as
origin the record `d.vertices` holds at the coordinates of that origin; and an entry
`d.vertices` did not have holds the origin that one of those half-edges had before
the call. -/
theorem C24_overlayVertices (fuel : Nat) (h : Heap) (d other : doublyConnectedEdgeList)
    (h2 : Heap) (vs2 : List (XY × Nat)) (hok : VMapOK h d.vertices)
    (hr : overlayVertices fuel h d.vertices other = some (h2, vs2)) :
    h2.vertexRecords = h.vertexRecords ∧ (∀ x, h2.originCoords x = h.originCoords x) ∧
    (∀ xy v, d.vertices.lookup xy = some v → vs2.lookup xy = some v) ∧
    (∀ e, OnComponent h fuel other.faces e →
      ∃ o r, h2.originOf e = some o ∧ h2.vertexRecords[o]? = some r ∧
        vs2.lookup r.coords = some o ∧ h.originCoords e = some r.coords) ∧
    (∀ xy v, vs2.lookup xy = some v → d.vertices.lookup xy = none →
      ∃ e, OnComponent h fuel other.faces e ∧ h.originOf e = some v ∧
        h.originCoords e = some xy) := by
  obtain ⟨V2, inv, -, m2, m3⟩ := overlayFaces_spec other.faces [] (h, d.vertices) (h2, vs2)
    (mergeInv_start hok) hr
  refine ⟨inv.vertexRecords, inv.coords, inv.mono, ?_, ?_⟩
  · intro e he
    obtain ⟨o, r, a1, a2, a3⟩ := inv.done e (m2 e he)
    exact ⟨o, r, a1, a2, a3, by rw [← inv.coords e]; exact originCoords_of a1 a2⟩
  · intro xy v hv hnone
    rcases inv.fresh xy v hv with h1 | ⟨-, e, he, h3, h4⟩
    · rw [hnone] at h1; exact Option.noConfusion h1
    · rcases m3 e he with h5 | h5
      · exact absurd h5 (List.not_mem_nil e)
      · exact ⟨e, h5, h3, h4⟩

theorem vmapOK_of_check {h : Heap} {m : List (XY × Nat)} (hc : vmapCheck h m = true) :
    VMapOK h m := by
  intro xy v hl
  have hk := mem_keys_of_lookup hl
  obtain ⟨p, hp, rfl⟩ := List.mem_map.mp hk
  have := List.all_eq_true.mp hc p hp
  rw [hl] at this
  simp only at this
  cases hr : h.vertexRecords[v]? with
  | none => rw [hr] at this; simp at this
  | some r =>
    rw [hr] at this
    exact ⟨r, rfl, by simpa using this⟩

theorem cornerSquares_merge_facts :
    ((newDCELFromPolygon Heap.empty (squarePolygon 0 0 1 1) true).bind (fun a =>
      (newDCELFromPolygon a.1 (squarePolygon 1 1 2 2) false).bind (fun b =>
        (overlayVertices 100 b.1 a.2.vertices b.2).map (fun _ =>
          vmapCheck b.1 a.2.vertices)))) = some true := by
  with_unfolding_all decide

/-- C24 at the squares (0,0)-(1,1) and (1,1)-(2,2), which share the corner (1,1). -/
theorem C24_overlayVertices_witness :
    ∃ a b h2 vs2, newDCELFromPolygon Heap.empty (squarePolygon 0 0 1 1) true = some a ∧
      newDCELFromPolygon a.1 (squarePolygon 1 1 2 2) false = some b ∧
      VMapOK b.1 a.2.vertices ∧
      overlayVertices 100 b.1 a.2.vertices b.2 = some (h2, vs2) ∧
      h2.vertexRecords = b.1.vertexRecords ∧
      (∀ x, h2.originCoords x = b.1.originCoords x) ∧
      (∀ xy v, a.2.vertices.lookup xy = some v → vs2.lookup xy = some v) ∧
      (∀ e, OnComponent b.1 100 b.2.faces e →
        ∃ o r, h2.originOf e = some o ∧ h2.vertexRecords[o]? = some r ∧
          vs2.lookup r.coords = some o ∧ b.1.originCoords e = some r.coords) ∧
      (∀ xy v, vs2.lookup xy = some v → a.2.vertices.lookup xy = none →
        ∃ e, OnComponent b.1 100 b.2.faces e ∧ b.1.originOf e = some v ∧
          b.1.originCoords e = some xy) := by
  have hf := cornerSquares_merge_facts
  simp only [Option.bind_eq_some, Option.map_eq_some'] at hf
  obtain ⟨a, ha, b, hb, r, hr, hc⟩ := hf
  exact ⟨a, b, r.1, r.2, ha, hb, vmapOK_of_check hc, hr,
    C24_overlayVertices 100 b.1 a.2 b.2 r.1 r.2 (vmapOK_of_check hc) hr⟩

/-! ## The configuration of the TWKB writer -/

theorem SameConfig.unchanged (w : twkbWriter) : SameConfig w w :=
  ⟨rfl, rfl, rfl, rfl, rfl, rfl, rfl, rfl, rfl, rfl, rfl, rfl, rfl, rfl, rfl⟩

theorem SameConfig.chain {a b c : twkbWriter} (h1 : SameConfig a b) (h2 : SameConfig b c) :
    SameConfig a c :=
  ⟨h2.hasSize.trans h1.hasSize, h2.hasBBox.trans h1.hasBBox, h2.hasIDs.trans h1.hasIDs,
    h2.hasExt.trans h1.hasExt, h2.hasZ.trans h1.hasZ, h2.hasM.trans h1.hasM,
    h2.precXY.trans h1.precXY, h2.precZ.trans h1.precZ, h2.precM.trans h1.precM,
    h2.ctype.trans h1.ctype, h2.dimensions.trans h1.dimensions,
    h2.scalings.trans h1.scalings, h2.idList.trans h1.idList,
    h2.closeRings.trans h1.closeRings, h2.twkbBBox.trans h1.twkbBBox⟩

theorem sameConfig_foldlM {α : Type} (f : twkbWriter → α → Option twkbWriter)
    (hf : ∀ t x t2, f t x = some t2 → SameConfig t t2) :
    ∀ (l : List α) (w w2 : twkbWriter), l.foldlM f w = some w2 → SameConfig w w2 := by
  intro l
  induction l with
  | nil =>
    intro w w2 h
    obtain rfl : w = w2 := Option.some.inj h
    exact SameConfig.unchanged w
  | cons x rest ih =>
    intro w w2 h
    rw [List.foldlM_cons] at h
    cases h1 : f w x with
    | none => rw [h1] at h; exact Option.noConfusion h
    | some t =>
      rw [h1] at h
      exact (hf w x t h1).chain (ih t w2 h)

theorem sameConfig_foldl {α : Type} (f : twkbWriter → α → twkbWriter)
    (hf : ∀ t x, SameConfig t (f t x)) :
    ∀ (l : List α) (w : twkbWriter), SameConfig w (l.foldl f w) := by
  intro l
  induction l with
  | nil => intro w; exact SameConfig.unchanged w
  | cons x rest ih => intro w; exact (hf w x).chain (ih (f w x))

theorem writeHeaderByte_config (w : twkbWriter) (b : Nat) :
    SameConfig w (writeHeaderByte w b) :=
  ⟨rfl, rfl, rfl, rfl, rfl, rfl, rfl, rfl, rfl, rfl, rfl, rfl, rfl, rfl, rfl⟩

theorem writeTypeAndPrecision_config (w : twkbWriter) (kind : Nat) :
    SameConfig w (writeTypeAndPrecision w kind) :=
  ⟨rfl, rfl, rfl, rfl, rfl, rfl, rfl, rfl, rfl, rfl, rfl, rfl, rfl, rfl, rfl⟩

theorem writeMetadataHeader_config (w : twkbWriter) (m : Nat) :
    SameConfig w (writeMetadataHeader w m) := by
  unfold writeMetadataHeader
  split_ifs
  · exact ⟨rfl, rfl, rfl, rfl, rfl, rfl, rfl, rfl, rfl, rfl, rfl, rfl, rfl, rfl, rfl⟩
  · exact writeHeaderByte_config w _

theorem writeIsEmptyHeader_config (w : twkbWriter) : SameConfig w (writeIsEmptyHeader w) :=
  (show SameConfig w { w with isEmpty := true } from
    ⟨rfl, rfl, rfl, rfl, rfl, rfl, rfl, rfl, rfl, rfl, rfl, rfl, rfl, rfl, rfl⟩).chain
    (writeMetadataHeader_config { w with isEmpty := true } twkbIsEmpty)

theorem writeExtendedPrecision_config (w : twkbWriter) :
    SameConfig w (writeExtendedPrecision w) :=
  writeHeaderByte_config w _

theorem writeInitialHeaders_config (w : twkbWriter) : SameConfig w (writeInitialHeaders w) := by
  have key : ∀ m : Nat, SameConfig w (if (writeMetadataHeader w m).hasExt then
      writeExtendedPrecision (writeMetadataHeader w m) else writeMetadataHeader w m) := by
    intro m
    split_ifs
    · exact (writeMetadataHeader_config w _).chain (writeExtendedPrecision_config _)
    · exact writeMetadataHeader_config w _
  exact key _

theorem writeCoord_config (w : twkbWriter) (d : Nat) (fval : ℚ) :
    SameConfig w (writeCoord w d fval) := by
  unfold writeCoord
  simp only
  split_ifs <;> exact ⟨rfl, rfl, rfl, rfl, rfl, rfl, rfl, rfl, rfl, rfl, rfl, rfl, rfl, rfl, rfl⟩

theorem writePointAt_config (coords : List ℚ) (w : twkbWriter) (i : Nat) (w2 : twkbWriter)
    (h : writePointAt coords w i = some w2) : SameConfig w w2 := by
  simp only [writePointAt, Option.bind_eq_bind, Option.bind_eq_some, Option.pure_def,
    Option.some.injEq] at h
  obtain ⟨w1, h1, rfl⟩ := h
  have c1 : SameConfig w w1 := by
    refine sameConfig_foldlM _ ?_ _ w w1 h1
    intro t d t2 ht
    simp only [Option.bind_eq_some, Option.some.injEq] at ht
    obtain ⟨fval, -, rfl⟩ := ht
    exact writeCoord_config t d fval
  split_ifs
  · exact c1.chain ⟨rfl, rfl, rfl, rfl, rfl, rfl, rfl, rfl, rfl, rfl, rfl, rfl, rfl, rfl, rfl⟩
  · exact c1

theorem writePointArray_config (w : twkbWriter) (n : Nat) (coords : List ℚ) (w2 : twkbWriter)
    (h : writePointArray w n coords = some w2) : SameConfig w w2 :=
  sameConfig_foldlM _ (writePointAt_config coords) _ w w2 h

theorem writeSignedVarint_config (w : twkbWriter) (v : Int) :
    SameConfig w (writeSignedVarint w v) :=
  ⟨rfl, rfl, rfl, rfl, rfl, rfl, rfl, rfl, rfl, rfl, rfl, rfl, rfl, rfl, rfl⟩

theorem writeUnsignedVarint_config (w : twkbWriter) (v : Nat) :
    SameConfig w (writeUnsignedVarint w v) :=
  ⟨rfl, rfl, rfl, rfl, rfl, rfl, rfl, rfl, rfl, rfl, rfl, rfl, rfl, rfl, rfl⟩

theorem writeIDList_config (w : twkbWriter) (num : Nat) :
    SameConfig w (writeIDList w num).1 := by
  unfold writeIDList
  by_cases h1 : ¬ w.hasIDs
  · rw [if_pos h1]; exact SameConfig.unchanged w
  · rw [if_neg h1]
    by_cases h2 : num ≠ w.idList.length
    · rw [if_pos h2]; exact SameConfig.unchanged w
    · rw [if_neg h2]; exact sameConfig_foldl _ writeSignedVarint_config _ w

theorem writePointCoords_config (w : twkbWriter) (pt : Point) (w2 : twkbWriter)
    (h : writePointCoords w pt = some w2) : SameConfig w w2 := by
  unfold writePointCoords at h
  cases hc : pt.ctype <;> rw [hc] at h <;> exact writePointArray_config _ _ _ _ h

theorem writeLineStringCoords_config (w : twkbWriter) (ls : LineString) (w2 : twkbWriter)
    (h : writeLineStringCoords w ls = some w2) : SameConfig w w2 :=
  (writeUnsignedVarint_config w _).chain (writePointArray_config _ _ _ _ h)

theorem writeRing_config (w : twkbWriter) (ls : LineString) (w2 : twkbWriter)
    (h : writeRing w ls = some w2) : SameConfig w w2 :=
  (writeUnsignedVarint_config w _).chain (writePointArray_config _ _ _ _ h)

theorem writePolygonRings_config (w : twkbWriter) (poly : PolygonValue) (w2 : twkbWriter)
    (h : writePolygonRings w poly = some w2) : SameConfig w w2 := by
  unfold writePolygonRings at h
  simp only at h
  split_ifs at h
  · obtain rfl := Option.some.inj h
    exact writeUnsignedVarint_config w _
  · simp only [Option.bind_eq_bind, Option.bind_eq_some] at h
    obtain ⟨w1, h1, h2⟩ := h
    exact ((writeUnsignedVarint_config w _).chain (writeRing_config _ _ _ h1)).chain
      (sameConfig_foldlM _ writeRing_config _ _ _ h2)

/-- The shape shared by the seven `write…` methods: type and precision, the check
of the coordinates type, the empty header or the initial headers and the body. -/
theorem writeShape_config {w : twkbWriter} {kind : Nat} {mismatch empty : Prop}
    [Decidable mismatch] [Decidable empty] {body : Option (twkbWriter × Bool)}
    {r : twkbWriter × Bool}
    (hb : ∀ r2, body = some r2 →
      SameConfig (writeInitialHeaders (writeTypeAndPrecision w kind)) r2.1)
    (h : (if mismatch then some (writeTypeAndPrecision w kind, true)
      else if empty then some (writeIsEmptyHeader (writeTypeAndPrecision w kind), false)
      else body) = some r) : SameConfig w r.1 := by
  split_ifs at h
  · obtain rfl := Option.some.inj h
    exact writeTypeAndPrecision_config w kind
  · obtain rfl := Option.some.inj h
    exact (writeTypeAndPrecision_config w kind).chain (writeIsEmptyHeader_config _)
  · exact ((writeTypeAndPrecision_config w kind).chain (writeInitialHeaders_config _)).chain
      (hb r h)

theorem map_pair_config {base : twkbWriter} {o : Option twkbWriter}
    (ho : ∀ t, o = some t → SameConfig base t) :
    ∀ r2 : twkbWriter × Bool, o.map (fun t => (t, false)) = some r2 → SameConfig base r2.1 := by
  intro r2 h
  simp only [Option.map_eq_some'] at h
  obtain ⟨t, ht, rfl⟩ := h
  exact ho t ht

theorem writePoint_config (w : twkbWriter) (pt : Point) (r : twkbWriter × Bool)
    (h : writePoint w pt = some r) : SameConfig w r.1 :=
  writeShape_config (map_pair_config (fun t ht => writePointCoords_config _ _ _ ht)) h

theorem writeLineString_config (w : twkbWriter) (ls : LineString) (r : twkbWriter × Bool)
    (h : writeLineString w ls = some r) : SameConfig w r.1 :=
  writeShape_config (map_pair_config (fun t ht => writeLineStringCoords_config _ _ _ ht)) h

theorem writePolygon_config (w : twkbWriter) (poly : PolygonValue) (r : twkbWriter × Bool)
    (h : writePolygon w poly = some r) : SameConfig w r.1 :=
  writeShape_config (map_pair_config (fun t ht => writePolygonRings_config _ _ _ ht)) h

/-- The body shared by the four methods with sub-geometries: the count, the ID
list, and the loop over the parts. -/
theorem writeParts_config {base : twkbWriter} {n : Nat}
    {loop : twkbWriter → Option twkbWriter}
    (hl : ∀ t t2, loop t = some t2 → SameConfig t t2) :
    ∀ r2 : twkbWriter × Bool,
      (if (writeIDList (writeUnsignedVarint base n) n).2 = true then
        some ((writeIDList (writeUnsignedVarint base n) n).1, true)
      else (loop (writeIDList (writeUnsignedVarint base n) n).1).map (fun t => (t, false))) =
        some r2 → SameConfig base r2.1 := by
  intro r2 h
  have c0 : SameConfig base (writeIDList (writeUnsignedVarint base n) n).1 :=
    (writeUnsignedVarint_config base n).chain (writeIDList_config _ _)
  split_ifs at h
  · obtain rfl := Option.some.inj h
    exact c0
  · simp only [Option.map_eq_some'] at h
    obtain ⟨t, ht, rfl⟩ := h
    exact c0.chain (hl _ t ht)

theorem writeMultiPoint_config (w : twkbWriter) (mp : MultiPoint) (r : twkbWriter × Bool)
    (h : writeMultiPoint w mp = some r) : SameConfig w r.1 :=
  writeShape_config (writeParts_config
    (fun t t2 ht => sameConfig_foldlM _ writePointCoords_config _ t t2 ht)) h

theorem writeMultiLineString_config (w : twkbWriter) (ml : MultiLineString)
    (r : twkbWriter × Bool) (h : writeMultiLineString w ml = some r) : SameConfig w r.1 :=
  writeShape_config (writeParts_config
    (fun t t2 ht => sameConfig_foldlM _ writeLineStringCoords_config _ t t2 ht)) h

theorem writeMultiPolygon_config (w : twkbWriter) (mp : MultiPolygon) (r : twkbWriter × Bool)
    (h : writeMultiPolygon w mp = some r) : SameConfig w r.1 :=
  writeShape_config (writeParts_config
    (fun t t2 ht => sameConfig_foldlM _ writePolygonRings_config _ t t2 ht)) h

theorem writeSubGeometries_config : ∀ (geoms : List Geometry) (w w2 : twkbWriter),
    writeSubGeometries w geoms = some w2 → SameConfig w w2 := by
  intro geoms
  induction geoms with
  | nil =>
    intro w w2 h
    rw [writeSubGeometries] at h
    obtain rfl := Option.some.inj h
    exact SameConfig.unchanged w
  | cons g rest ih =>
    intro w w2 h
    rw [writeSubGeometries] at h
    cases hg : writeGeometryByType (copytwkbWriter w) g with
    | none => rw [hg] at h; exact Option.noConfusion h
    | some r =>
      obtain ⟨sub, err⟩ := r
      rw [hg] at h
      have c1 : ∀ bytes : List Nat,
          SameConfig w { w with twkbContents := w.twkbContents ++ bytes } :=
        fun _ => ⟨rfl, rfl, rfl, rfl, rfl, rfl, rfl, rfl, rfl, rfl, rfl, rfl, rfl, rfl, rfl⟩
      exact (c1 _).chain (ih _ w2 h)

/-- The method `writeGeometryByType` leaves the configuration of the writer as it
was. -/
theorem writeGeometryByType_config (w : twkbWriter) (geom : Geometry)
    (r : twkbWriter × Bool) (h : writeGeometryByType w geom = some r) : SameConfig w r.1 := by
  cases geom with
  | point pt => rw [writeGeometryByType] at h; exact writePoint_config w pt r h
  | lineString ls => rw [writeGeometryByType] at h; exact writeLineString_config w ls r h
  | polygon poly => rw [writeGeometryByType] at h; exact writePolygon_config w poly r h
  | multiPoint mp => rw [writeGeometryByType] at h; exact writeMultiPoint_config w mp r h
  | multiLineString ml =>
    rw [writeGeometryByType] at h; exact writeMultiLineString_config w ml r h
  | multiPolygon mp => rw [writeGeometryByType] at h; exact writeMultiPolygon_config w mp r h
  | geometryCollection ctype isEmpty geoms =>
    rw [writeGeometryByType] at h
    exact writeShape_config (writeParts_config
      (fun t t2 ht => writeSubGeometries_config geoms t t2 ht)) h

/-! ## The bytes of the TWKB headers -/

theorem uvarintValue_loop : ∀ (fuel x : Nat), x < 128 ^ (fuel + 1) →
    uvarintValue (putUvarintLoop fuel x) = x := by
  intro fuel
  induction fuel with
  | zero =>
    intro x hx
    simp only [putUvarintLoop, uvarintValue]
    omega
  | succ fuel ih =>
    intro x hx
    simp only [putUvarintLoop]
    by_cases h : x < 128
    · rw [if_pos h]
      simp only [uvarintValue]
      omega
    · rw [if_neg h]
      simp only [uvarintValue]
      have hx2 : x / 128 < 128 ^ (fuel + 1) := by
        rw [Nat.div_lt_iff_lt_mul (by norm_num)]
        calc x < 128 ^ (fuel + 1 + 1) := hx
          _ = 128 ^ (fuel + 1) * 128 := by ring
      rw [ih _ hx2]
      omega

/-- The varint of `binary.PutUvarint` reads back as the value written. -/
theorem uvarintValue_PutUvarint (x : Nat) (hx : x < 2 ^ 64) :
    uvarintValue (PutUvarint x) = x := by
  unfold PutUvarint
  rw [Nat.mod_eq_of_lt hx]
  apply uvarintValue_loop
  calc x < 2 ^ 64 := hx
    _ ≤ 128 ^ (10 + 1) := by norm_num

/-- The bytes of `formTWKB` after `writeAdditionalHeaders`. -/
theorem writeAdditionalHeaders_fields (w : twkbWriter) :
    (writeAdditionalHeaders w).twkbContents = w.twkbContents ∧
    (writeAdditionalHeaders w).twkbBBox =
      (if w.hasBBox then (writeBBoxHeader w).twkbBBox else w.twkbBBox) ∧
    (writeAdditionalHeaders w).twkbHeaders =
      w.twkbHeaders ++ (if w.hasSize then
        PutUvarint ((writeAdditionalHeaders w).twkbBBox.length + w.twkbContents.length)
      else []) := by
  unfold writeAdditionalHeaders
  by_cases hb : w.hasBBox = true <;> by_cases hs : w.hasSize = true
  · have : (writeBBoxHeader w).hasSize = true := hs
    simp [hb, hs, this, writeSizeHeader, writeBBoxHeader]
  · have : ¬ (writeBBoxHeader w).hasSize = true := hs
    simp [hb, hs, this, writeBBoxHeader]
  · simp [hb, hs, writeSizeHeader]
  · simp [hb, hs]

theorem newtwkbWriter_fields (hasZ hasM : Bool) (precXY precZ precM : Int)
    (hasSize hasBBox closeRings : Bool) (idList : List Int) :
    (newtwkbWriter hasZ hasM precXY precZ precM hasSize hasBBox closeRings idList).twkbHeaders
        = [] ∧
    (newtwkbWriter hasZ hasM precXY precZ precM hasSize hasBBox closeRings idList).twkbBBox
        = [] ∧
    (newtwkbWriter hasZ hasM precXY precZ precM hasSize hasBBox closeRings idList).twkbContents
        = [] ∧
    (newtwkbWriter hasZ hasM precXY precZ precM hasSize hasBBox closeRings idList).hasSize
        = hasSize ∧
    (newtwkbWriter hasZ hasM precXY precZ precM hasSize hasBBox closeRings idList).hasBBox
        = hasBBox ∧
    (newtwkbWriter hasZ hasM precXY precZ precM hasSize hasBBox closeRings idList).precXY
        = precXY ∧
    (newtwkbWriter hasZ hasM precXY precZ precM hasSize hasBBox closeRings idList).dimensions
        = dimensionsOf hasZ hasM ∧
    (newtwkbWriter hasZ hasM precXY precZ precM hasSize hasBBox closeRings idList).bboxMin
        = [0, 0, 0, 0] ∧
    (newtwkbWriter hasZ hasM precXY precZ precM hasSize hasBBox closeRings idList).bboxMax
        = [0, 0, 0, 0] ∧
    (newtwkbWriter hasZ hasM precXY precZ precM hasSize hasBBox closeRings idList).ctype
        = coordinatesTypeOf hasZ hasM := by
  unfold newtwkbWriter coordinatesTypeOf dimensionsOf
  cases hasZ <;> cases hasM <;> simp only [] <;> split_ifs <;> simp

/-! ## Claim C26 -/

/-- C26: when `MarshalTWKB` is called with `hasSize = true` and returns bytes, the
headers end with the unsigned varint of `len(bbox bytes) + len(contents bytes)`, the
number of bytes that follow it in the output, which is headers, then bounding box,
then contents; the varint reads back as that number. The contents and the headers
before the size are those `writeGeometryByType` left, and without `hasBBox` there
are no bounding-box bytes. -/
theorem C26_size_header (geom : Geometry) (hasZ hasM : Bool) (precXY precZ precM : Int)
    (hasBBox closeRings : Bool) (idList : List Int) (out : List Nat)
    (h : MarshalTWKB geom hasZ hasM precXY precZ precM true hasBBox closeRings idList =
      some (some out)) :
    ∃ w0 w, writeGeometryByType
        (newtwkbWriter hasZ hasM precXY precZ precM true hasBBox closeRings idList) geom =
        some (w0, false) ∧
      w = writeAdditionalHeaders w0 ∧
      out = w.twkbHeaders ++ w.twkbBBox ++ w.twkbContents ∧
      w.twkbHeaders =
        w0.twkbHeaders ++ PutUvarint (w.twkbBBox.length + w.twkbContents.length) ∧
      w.twkbContents = w0.twkbContents ∧
      out.length = w.twkbHeaders.length + (w.twkbBBox.length + w.twkbContents.length) ∧
      (hasBBox = false → w.twkbBBox = []) ∧
      (w.twkbBBox.length + w.twkbContents.length < 2 ^ 64 →
        uvarintValue (PutUvarint (w.twkbBBox.length + w.twkbContents.length)) =
          w.twkbBBox.length + w.twkbContents.length) := by
  simp only [MarshalTWKB, writeGeometry, Option.map_eq_some'] at h
  obtain ⟨r, ⟨r0, hr0, rfl⟩, hout⟩ := h
  obtain ⟨w0, err⟩ := r0
  have hcfg := writeGeometryByType_config _ geom (w0, err) hr0
  obtain ⟨f1, f2, f3, f4, f5, -⟩ := newtwkbWriter_fields hasZ hasM precXY precZ precM true
    hasBBox closeRings idList
  cases err with
  | true => simp at hout
  | false =>
    simp only [Bool.false_eq_true, if_false, Option.some.injEq] at hout
    obtain ⟨a1, a2, a3⟩ := writeAdditionalHeaders_fields w0
    have hs : w0.hasSize = true := hcfg.hasSize.trans f4
    rw [if_pos hs, ← a1] at a3
    refine ⟨w0, writeAdditionalHeaders w0, hr0, rfl, ?_, a3, a1, ?_, ?_, ?_⟩
    · rw [← hout]; rfl
    · rw [← hout]; simp [formTWKB]
    · intro hb
      have hb0 : w0.hasBBox = false := (hcfg.hasBBox.trans f5).trans hb
      rw [a2, hb0]
      simp only [Bool.false_eq_true, if_false]
      exact hcfg.twkbBBox.trans f2
    · exact uvarintValue_PutUvarint _

/-- C26 at the point (1,2) with size and bounding box: the bytes are type, metadata,
the size 6, four bytes of bounding box and two bytes of contents. -/
theorem C26_size_header_witness :
    MarshalTWKB (Geometry.point ⟨CoordinatesType.DimXY, false, 1, 2, 0, 0⟩) false false 0 0 0
        true true false [] = some (some [1, 3, 6, 2, 0, 4, 0, 2, 4]) ∧
    ∃ w0 w, writeGeometryByType (newtwkbWriter false false 0 0 0 true true false [])
        (Geometry.point ⟨CoordinatesType.DimXY, false, 1, 2, 0, 0⟩) = some (w0, false) ∧
      w = writeAdditionalHeaders w0 ∧
      [1, 3, 6, 2, 0, 4, 0, 2, 4] = w.twkbHeaders ++ w.twkbBBox ++ w.twkbContents ∧
      w.twkbHeaders =
        w0.twkbHeaders ++ PutUvarint (w.twkbBBox.length + w.twkbContents.length) ∧
      w.twkbContents = w0.twkbContents ∧
      ([1, 3, 6, 2, 0, 4, 0, 2, 4] : List Nat).length =
        w.twkbHeaders.length + (w.twkbBBox.length + w.twkbContents.length) ∧
      (true = false → w.twkbBBox = []) ∧
      (w.twkbBBox.length + w.twkbContents.length < 2 ^ 64 →
        uvarintValue (PutUvarint (w.twkbBBox.length + w.twkbContents.length)) =
          w.twkbBBox.length + w.twkbContents.length) := by
  have e : MarshalTWKB (Geometry.point ⟨CoordinatesType.DimXY, false, 1, 2, 0, 0⟩) false false
      0 0 0 true true false [] = some (some [1, 3, 6, 2, 0, 4, 0, 2, 4]) := by
    with_unfolding_all decide
  exact ⟨e, C26_size_header _ false false 0 0 0 true false [] _ e⟩

/-! ## Claim C27 -/

theorem writeIsEmptyHeader_fields (w : twkbWriter) :
    (writeIsEmptyHeader w).twkbHeaders = w.twkbHeaders ++ [twkbIsEmpty] ∧
    (writeIsEmptyHeader w).twkbBBox = w.twkbBBox ∧
    (writeIsEmptyHeader w).twkbContents = w.twkbContents ∧
    (writeIsEmptyHeader w).bboxMin = w.bboxMin ∧
    (writeIsEmptyHeader w).bboxMax = w.bboxMax := by
  unfold writeIsEmptyHeader writeMetadataHeader
  split_ifs <;> simp [writeHeaderByte, twkbIsEmpty]

/-- An empty geometry of the coordinates type of the writer: the type and precision
byte and the empty header are written, and no error is returned. -/
theorem writeGeometryByType_empty (w : twkbWriter) (geom : Geometry)
    (he : geom.IsEmpty = true) (hc : geom.CoordinatesType = w.ctype) :
    writeGeometryByType w geom =
      some (writeIsEmptyHeader (writeTypeAndPrecision w geom.twkbType), false) := by
  have hw : ∀ k, (writeTypeAndPrecision w k).ctype = w.ctype := fun _ => rfl
  cases geom with
  | point pt =>
    simp only [Geometry.IsEmpty, Geometry.CoordinatesType] at he hc
    rw [writeGeometryByType]
    simp [writePoint, hw, hc, he, Geometry.twkbType]
  | lineString ls =>
    simp only [Geometry.IsEmpty, Geometry.CoordinatesType] at he hc
    rw [writeGeometryByType]
    simp [writeLineString, hw, hc, he, Geometry.twkbType]
  | polygon poly =>
    simp only [Geometry.IsEmpty, Geometry.CoordinatesType] at he hc
    rw [writeGeometryByType]
    simp [writePolygon, hw, hc, he, Geometry.twkbType]
  | multiPoint mp =>
    simp only [Geometry.IsEmpty, Geometry.CoordinatesType] at he hc
    rw [writeGeometryByType]
    simp [writeMultiPoint, hw, hc, he, Geometry.twkbType]
  | multiLineString ml =>
    simp only [Geometry.IsEmpty, Geometry.CoordinatesType] at he hc
    rw [writeGeometryByType]
    simp [writeMultiLineString, hw, hc, he, Geometry.twkbType]
  | multiPolygon mp =>
    simp only [Geometry.IsEmpty, Geometry.CoordinatesType] at he hc
    rw [writeGeometryByType]
    simp [writeMultiPolygon, hw, hc, he, Geometry.twkbType]
  | geometryCollection ctype isEmpty geoms =>
    simp only [Geometry.IsEmpty, Geometry.CoordinatesType] at he hc
    rw [writeGeometryByType]
    simp [hw, hc, he, Geometry.twkbType]

theorem PutVarint_zero : PutVarint 0 = [0] := by
  with_unfolding_all decide

theorem getD_zeros (d : Nat) : ([0, 0, 0, 0] : List Int).getD d 0 = 0 := by
  match d with
  | 0 => rfl
  | 1 => rfl
  | 2 => rfl
  | 3 => rfl
  | _ + 4 => rfl

theorem flatMap_const_pair (n : Nat) :
    (List.range n).flatMap (fun _ => ([0, 0] : List Nat)) = List.replicate (2 * n) 0 := by
  induction n with
  | zero => rfl
  | succ n ih =>
    rw [List.range_succ, List.flatMap_append, ih]
    simp only [List.flatMap_cons, List.flatMap_nil, List.append_nil]
    have : 2 * (n + 1) = 2 * n + 2 := by ring
    rw [this, List.replicate_add]
    rfl

theorem bboxBytes_zero (n : Nat) :
    (List.range n).flatMap (fun d => PutVarint (([0, 0, 0, 0] : List Int).getD d 0) ++
      PutVarint (wrapInt64 (([0, 0, 0, 0] : List Int).getD d 0 -
        ([0, 0, 0, 0] : List Int).getD d 0))) = List.replicate (2 * n) 0 := by
  have : (fun d : Nat => PutVarint (([0, 0, 0, 0] : List Int).getD d 0) ++
      PutVarint (wrapInt64 (([0, 0, 0, 0] : List Int).getD d 0 -
        ([0, 0, 0, 0] : List Int).getD d 0))) = fun _ => ([0, 0] : List Nat) := by
    funext d
    rw [getD_zeros, sub_self]
    have : wrapInt64 0 = 0 := by with_unfolding_all decide
    rw [this, PutVarint_zero]
    rfl
  rw [this, flatMap_const_pair]

/-- The bytes a fresh writer gives for an empty geometry. -/
theorem emptyWriter_output (w : twkbWriter) (kind : Nat) (h1 : w.twkbHeaders = [])
    (h2 : w.twkbBBox = []) (h3 : w.twkbContents = []) (h8 : w.bboxMin = [0, 0, 0, 0])
    (h9 : w.bboxMax = [0, 0, 0, 0]) :
    formTWKB (writeAdditionalHeaders (writeIsEmptyHeader (writeTypeAndPrecision w kind))) =
      [((EncodeZigZagInt32 (wrapInt32 w.precXY) * 16) % 256) ||| (kind % 256), twkbIsEmpty] ++
        (if w.hasSize then PutUvarint (if w.hasBBox then 2 * w.dimensions else 0) else []) ++
        (if w.hasBBox then List.replicate (2 * w.dimensions) 0 else []) := by
  obtain ⟨e1, e2, e3, e4, e5⟩ := writeIsEmptyHeader_fields (writeTypeAndPrecision w kind)
  obtain ⟨a1, a2, a3⟩ := writeAdditionalHeaders_fields
    (writeIsEmptyHeader (writeTypeAndPrecision w kind))
  have hcfg : SameConfig w (writeIsEmptyHeader (writeTypeAndPrecision w kind)) :=
    (writeTypeAndPrecision_config w kind).chain (writeIsEmptyHeader_config _)
  have t1 : (writeTypeAndPrecision w kind).twkbHeaders =
      [((EncodeZigZagInt32 (wrapInt32 w.precXY) * 16) % 256) ||| (kind % 256)] := by
    show w.twkbHeaders ++ [_] = _
    rw [h1]; rfl
  have t2 : (writeTypeAndPrecision w kind).twkbBBox = [] := h2
  have t3 : (writeTypeAndPrecision w kind).twkbContents = [] := h3
  have t4 : (writeTypeAndPrecision w kind).bboxMin = [0, 0, 0, 0] := h8
  have t5 : (writeTypeAndPrecision w kind).bboxMax = [0, 0, 0, 0] := h9
  rw [t1] at e1; rw [t2] at e2; rw [t3] at e3; rw [t4] at e4; rw [t5] at e5
  have hbox : (writeBBoxHeader (writeIsEmptyHeader (writeTypeAndPrecision w kind))).twkbBBox =
      List.replicate (2 * w.dimensions) 0 := by
    show (writeIsEmptyHeader (writeTypeAndPrecision w kind)).twkbBBox ++
      (List.range (writeIsEmptyHeader (writeTypeAndPrecision w kind)).dimensions).flatMap
        (fun d => PutVarint ((writeIsEmptyHeader (writeTypeAndPrecision w kind)).bboxMin.getD d 0)
          ++ PutVarint (wrapInt64
            ((writeIsEmptyHeader (writeTypeAndPrecision w kind)).bboxMax.getD d 0 -
              (writeIsEmptyHeader (writeTypeAndPrecision w kind)).bboxMin.getD d 0))) = _
    rw [e2, e4, e5, hcfg.dimensions, List.nil_append]
    exact bboxBytes_zero _
  unfold formTWKB
  rw [a3, a2, a1, e1, e3, hcfg.hasSize, hcfg.hasBBox, hbox, e2]
  cases w.hasBBox <;> cases w.hasSize <;> simp

/-- C27, as the code has it: for every empty geometry whose coordinates type is the
one of `hasZ` and `hasM`, `MarshalTWKB` returns the type-and-precision byte and the
metadata byte with just the is-empty bit, and after them, although the metadata
byte announces neither, the size varint when `hasSize` is set and two zero bytes
for each dimension when `hasBBox` is set: `writeGeometry` calls
`writeAdditionalHeaders` for an empty geometry too. Only with both flags clear are
the two bytes all that is written. -/
theorem C27_empty_geometry_bytes (geom : Geometry) (hasZ hasM : Bool)
    (precXY precZ precM : Int) (hasSize hasBBox closeRings : Bool) (idList : List Int)
    (he : geom.IsEmpty = true) (hc : geom.CoordinatesType = coordinatesTypeOf hasZ hasM) :
    MarshalTWKB geom hasZ hasM precXY precZ precM hasSize hasBBox closeRings idList =
      some (some ([((EncodeZigZagInt32 (wrapInt32 precXY) * 16) % 256) |||
            (geom.twkbType % 256), twkbIsEmpty] ++
        (if hasSize then
          PutUvarint (if hasBBox then 2 * dimensionsOf hasZ hasM else 0) else []) ++
        (if hasBBox then List.replicate (2 * dimensionsOf hasZ hasM) 0 else []))) := by
  obtain ⟨f1, f2, f3, f4, f5, f6, f7, f8, f9, f10⟩ := newtwkbWriter_fields hasZ hasM precXY
    precZ precM hasSize hasBBox closeRings idList
  have hg := writeGeometryByType_empty
    (newtwkbWriter hasZ hasM precXY precZ precM hasSize hasBBox closeRings idList) geom he
    (hc.trans f10.symm)
  simp only [MarshalTWKB, writeGeometry, hg, Option.map_some', Bool.false_eq_true, if_false]
  rw [emptyWriter_output _ _ f1 f2 f3 f8 f9, f4, f5, f6, f7]

/-- C27 at the failing input, an empty XY point with `hasSize` set: three bytes are
returned, the third the size varint 0; with `hasBBox` set too, the size 4 and four
zero bytes follow the two. -/
theorem C27_empty_geometry_bytes_witness :
    (Geometry.point ⟨CoordinatesType.DimXY, true, 0, 0, 0, 0⟩).IsEmpty = true ∧
    (Geometry.point ⟨CoordinatesType.DimXY, true, 0, 0, 0, 0⟩).CoordinatesType =
      coordinatesTypeOf false false ∧
    MarshalTWKB (Geometry.point ⟨CoordinatesType.DimXY, true, 0, 0, 0, 0⟩) false false 0 0 0
      true false false [] = some (some [1, 16, 0]) ∧
    MarshalTWKB (Geometry.point ⟨CoordinatesType.DimXY, true, 0, 0, 0, 0⟩) false false 0 0 0
      true true false [] = some (some [1, 16, 4, 0, 0, 0, 0]) := by
  refine ⟨rfl, rfl, ?_, ?_⟩
  · exact (C27_empty_geometry_bytes (Geometry.point ⟨CoordinatesType.DimXY, true, 0, 0, 0, 0⟩)
      false false 0 0 0 true false false [] rfl rfl).trans (by with_unfolding_all decide)
  · exact (C27_empty_geometry_bytes (Geometry.point ⟨CoordinatesType.DimXY, true, 0, 0, 0, 0⟩)
      false false 0 0 0 true true false [] rfl rfl).trans (by with_unfolding_all decide)

/-! ## The face records during construction -/

theorem updFace_get {h : Heap} {p : Nat} {r : faceRecord} (f : faceRecord → faceRecord)
    (hr : h.faceRecords[p]? = some r) :
    ∃ h2, h.updFace p f = some h2 ∧ h2.halfEdgeRecords = h.halfEdgeRecords ∧
      h2.vertexRecords = h.vertexRecords ∧
      ∀ x, h2.faceRecords[x]? = if x = p then some (f r) else h.faceRecords[x]? := by
  have hp := lt_length_of_getElem?_eq_some hr
  refine ⟨{ h with faceRecords := h.faceRecords.set p (f r) }, ?_, rfl, rfl, ?_⟩
  · simp [Heap.updFace, hr]
  · intro x
    show (h.faceRecords.set p (f r))[x]? = _
    rw [List.getElem?_set]
    by_cases hx : x = p
    · subst hx; simp [hp]
    · rw [if_neg (Ne.symm hx), if_neg hx]

/-- The face records after the linkage block. -/
theorem linkFaces_faces {h : Heap} (ringIdx : Nat) {interiorFace exteriorFace : Nat} (a b : Nat)
    (hi : interiorFace < h.faceRecords.length) (he : exteriorFace < h.faceRecords.length)
    (hne : interiorFace ≠ exteriorFace) :
    ∃ h2, linkFaces h ringIdx interiorFace exteriorFace a b = some h2 ∧
      ∀ x, h2.faceRecords[x]? =
        (h.faceRecords[x]?).map (linkedFace ringIdx interiorFace exteriorFace a b x) := by
  obtain ⟨ri, hri⟩ : ∃ r, h.faceRecords[interiorFace]? = some r :=
    ⟨_, List.getElem?_eq_getElem hi⟩
  obtain ⟨re, hre⟩ : ∃ r, h.faceRecords[exteriorFace]? = some r :=
    ⟨_, List.getElem?_eq_getElem he⟩
  unfold linkFaces
  split_ifs with h0
  · obtain ⟨h1, e1, -, -, q1⟩ := updFace_get
      (fun f => { f with innerComponents := f.innerComponents ++ [b] }) hre
    have hi1 : h1.faceRecords[interiorFace]? = some ri := by
      rw [q1, if_neg hne, hri]
    simp only [Option.bind_eq_bind, e1, Option.some_bind, hi1]
    by_cases hn : ri.outerComponent = none
    · obtain ⟨h2, e2, -, -, q2⟩ := updFace_get
        (fun f => { f with outerComponent := some a }) hi1
      rw [if_pos hn]
      refine ⟨h2, e2, fun x => ?_⟩
      rw [q2]
      by_cases x1 : x = interiorFace
      · subst x1
        rw [if_pos rfl, hri]
        simp [linkedFace, h0, hne, hn]
      · rw [if_neg x1, q1]
        by_cases x2 : x = exteriorFace
        · subst x2
          rw [if_pos rfl, hre]
          simp [linkedFace, h0]
        · rw [if_neg x2]
          cases h.faceRecords[x]? with
          | none => rfl
          | some r => simp [linkedFace, h0, x1, x2]
    · rw [if_neg hn]
      refine ⟨h1, rfl, fun x => ?_⟩
      rw [q1]
      by_cases x2 : x = exteriorFace
      · subst x2
        rw [if_pos rfl, hre]
        simp [linkedFace, h0]
      · rw [if_neg x2]
        by_cases x1 : x = interiorFace
        · subst x1
          rw [hri]
          simp [linkedFace, h0, hne, hn]
        · cases h.faceRecords[x]? with
          | none => rfl
          | some r => simp [linkedFace, h0, x1, x2]
  · obtain ⟨h1, e1, -, -, q1⟩ := updFace_get
      (fun f => { f with innerComponents := f.innerComponents ++ [a] }) hri
    have he1 : h1.faceRecords[exteriorFace]? = some re := by
      rw [q1, if_neg (Ne.symm hne), hre]
    simp only [Option.bind_eq_bind, e1, Option.some_bind, he1]
    by_cases hn : re.outerComponent = none
    · obtain ⟨h2, e2, -, -, q2⟩ := updFace_get
        (fun f => { f with outerComponent := some b }) he1
      rw [if_pos hn]
      refine ⟨h2, e2, fun x => ?_⟩
      rw [q2]
      by_cases x2 : x = exteriorFace
      · subst x2
        rw [if_pos rfl, hre]
        simp [linkedFace, h0, Ne.symm hne, hn]
      · rw [if_neg x2, q1]
        by_cases x1 : x = interiorFace
        · subst x1
          rw [if_pos rfl, hri]
          simp [linkedFace, h0]
        · rw [if_neg x1]
          cases h.faceRecords[x]? with
          | none => rfl
          | some r => simp [linkedFace, h0, x1, x2]
    · rw [if_neg hn]
      refine ⟨h1, rfl, fun x => ?_⟩
      rw [q1]
      by_cases x1 : x = interiorFace
      · subst x1
        rw [if_pos rfl, hri]
        simp [linkedFace, h0]
      · rw [if_neg x1]
        by_cases x2 : x = exteriorFace
        · subst x2
          rw [hre]
          simp [linkedFace, h0, Ne.symm hne, hn]
        · cases h.faceRecords[x]? with
          | none => rfl
          | some r => simp [linkedFace, h0, x1, x2]

theorem updHalfEdge_faces {h h2 : Heap} {p : Nat} {f : halfEdgeRecord → halfEdgeRecord}
    (e : h.updHalfEdge p f = some h2) : h2.faceRecords = h.faceRecords := by
  unfold Heap.updHalfEdge at e
  cases hr : h.halfEdgeRecords[p]? with
  | none => rw [hr] at e; exact Option.noConfusion e
  | some r =>
    rw [hr] at e
    obtain rfl := Option.some.inj e
    rfl

theorem updVertex_faces {h h2 : Heap} {p : Nat} {f : vertexRecord → vertexRecord}
    (e : h.updVertex p f = some h2) : h2.faceRecords = h.faceRecords := by
  unfold Heap.updVertex at e
  cases hr : h.vertexRecords[p]? with
  | none => rw [hr] at e; exact Option.noConfusion e
  | some r =>
    rw [hr] at e
    obtain rfl := Option.some.inj e
    rfl

theorem allocRingEdge_faces {vertices : List (XY × Nat)} {interiorFace exteriorFace : Nat}
    {h h4 : Heap} {ln : line}
    (e : allocRingEdge vertices interiorFace exteriorFace h ln = some h4) :
    h4.faceRecords = h.faceRecords := by
  simp only [allocRingEdge, Option.bind_eq_bind, Option.bind_eq_some] at e
  obtain ⟨h3, e3, va, -, e4⟩ := e
  rw [updVertex_faces e4, updHalfEdge_faces e3]
  rfl

/-- One iteration of the loop over the lines of a ring, on the face records: the
first iteration links the faces, the later ones leave them alone. -/
theorem addRingEdge_faces {vertices : List (XY × Nat)} {ringIdx interiorFace exteriorFace : Nat}
    {s s2 : RingState} {ln : line}
    (e : addRingEdge vertices ringIdx interiorFace exteriorFace s ln = some s2)
    (hi : interiorFace < s.heap.faceRecords.length)
    (he : exteriorFace < s.heap.faceRecords.length) (hne : interiorFace ≠ exteriorFace) :
    s2.first = false ∧
    ∀ x, s2.heap.faceRecords[x]? =
      if s.first = true then
        (s.heap.faceRecords[x]?).map (linkedFace ringIdx interiorFace exteriorFace
          s.heap.halfEdgeRecords.length (s.heap.halfEdgeRecords.length + 1) x)
      else s.heap.faceRecords[x]? := by
  unfold addRingEdge at e
  cases e4 : allocRingEdge vertices interiorFace exteriorFace s.heap ln with
  | none =>
    rw [e4] at e
    exact Option.noConfusion e
  | some h4 =>
    have f4 := allocRingEdge_faces e4
    rw [e4] at e
    simp only [Option.bind_eq_bind, Option.some_bind] at e
    by_cases hf : s.first = true
    · rw [if_pos hf] at e
      obtain ⟨h5, e5, q5⟩ := linkFaces_faces ringIdx s.heap.halfEdgeRecords.length
        (s.heap.halfEdgeRecords.length + 1) (f4 ▸ hi : interiorFace < h4.faceRecords.length)
        (f4 ▸ he : exteriorFace < h4.faceRecords.length) hne
      rw [e5] at e
      simp only [Option.some_bind, Option.pure_def, Option.some.injEq] at e
      subst e
      refine ⟨rfl, fun x => ?_⟩
      rw [if_pos hf]
      show h5.faceRecords[x]? = _
      rw [q5, f4]
    · rw [if_neg hf] at e
      simp only [Option.pure_def, Option.some.injEq] at e
      subst e
      refine ⟨rfl, fun x => ?_⟩
      rw [if_neg hf]
      show h4.faceRecords[x]? = _
      rw [f4]

/-- The loop over the lines of a ring, on the face records. -/
theorem addRingEdges_faces {vertices : List (XY × Nat)} {ringIdx interiorFace exteriorFace : Nat}
    (hne : interiorFace ≠ exteriorFace) :
    ∀ (ls : List line) (s s2 : RingState),
      ls.foldlM (addRingEdge vertices ringIdx interiorFace exteriorFace) s = some s2 →
      interiorFace < s.heap.faceRecords.length → exteriorFace < s.heap.faceRecords.length →
      ∀ x, s2.heap.faceRecords[x]? =
        if s.first = true ∧ ls ≠ [] then
          (s.heap.faceRecords[x]?).map (linkedFace ringIdx interiorFace exteriorFace
            s.heap.halfEdgeRecords.length (s.heap.halfEdgeRecords.length + 1) x)
        else s.heap.faceRecords[x]? := by
  intro ls
  induction ls with
  | nil =>
    intro s s2 e _ _ x
    simp only [List.foldlM_nil, Option.pure_def, Option.some.injEq] at e
    subst e
    rw [if_neg (by simp)]
  | cons ln rest ih =>
    intro s s2 e hi he x
    simp only [List.foldlM_cons, Option.bind_eq_bind, Option.bind_eq_some] at e
    obtain ⟨s1, e1, e2⟩ := e
    obtain ⟨hf1, q1⟩ := addRingEdge_faces e1 hi he hne
    have len1 : s1.heap.faceRecords.length = s.heap.faceRecords.length := by
      have hl : ∀ x : Nat, (s1.heap.faceRecords[x]?).isSome = (s.heap.faceRecords[x]?).isSome := by
        intro x
        rw [q1]
        split_ifs
        · cases s.heap.faceRecords[x]? <;> rfl
        · rfl
      apply le_antisymm
      · by_contra hc
        have := hl s.heap.faceRecords.length
        rw [List.getElem?_eq_none (le_refl _), List.getElem?_eq_getElem (by omega)] at this
        exact Bool.noConfusion this
      · by_contra hc
        have := hl s1.heap.faceRecords.length
        rw [List.getElem?_eq_none (le_refl _), List.getElem?_eq_getElem (by omega)] at this
        exact Bool.noConfusion this
    have q2 := ih s1 s2 e2 (len1 ▸ hi) (len1 ▸ he) x
    rw [if_neg (by simp [hf1])] at q2
    rw [q2, q1]
    by_cases hf : s.first = true
    · rw [if_pos hf, if_pos ⟨hf, by simp⟩]
    · rw [if_neg hf, if_neg (fun hh => hf hh.1)]

/-! ## The state of the construction loop -/

theorem mod_succ_double_odd_pos {i k : Nat} (hi : i < k) :
    (2 * i + 1 + 2) % (2 * k) = 2 * ((i + 1) % k) + 1 := by
  by_cases hk : 2 ≤ k
  · exact mod_succ_double_odd hi hk
  · have h1 : k = 1 := by omega
    subst h1
    have h0 : i = 0 := by omega
    subst h0
    rfl

/-- What `processRing` does, for any ring: the block of half-edge records it
appends, fully wired, with the incident faces, and the face records it leaves. -/
theorem processRing_full {h : Heap} {d : doublyConnectedEdgeList} (infFace polyFace idx : Nat)
    (ring : List XY)
    (hv : ∀ l ∈ ringLines ring,
      ∃ va, d.vertices.lookup l.a = some va ∧ va < h.vertexRecords.length)
    (hi : infFace < h.faceRecords.length) (hp : polyFace < h.faceRecords.length)
    (hne : polyFace ≠ infFace) :
    ∃ h2 d2, processRing infFace polyFace (h, d) (idx, ring) = some (h2, d2) ∧
      d2.halfEdges = d.halfEdges ++
        List.range' h.halfEdgeRecords.length (2 * (ringLines ring).length) ∧
      d2.vertices = d.vertices ∧
      d2.faces = (if idx > 0 then d.faces ++ [h.faceRecords.length] else d.faces) ∧
      h2.vertexRecords.length = h.vertexRecords.length ∧
      (∀ x : Nat, (h2.vertexRecords[x]?).map vertexRecord.coords =
        (h.vertexRecords[x]?).map vertexRecord.coords) ∧
      h2.halfEdgeRecords.length = h.halfEdgeRecords.length + 2 * (ringLines ring).length ∧
      (∀ x, x < h.halfEdgeRecords.length → h2.halfEdgeRecords[x]? = h.halfEdgeRecords[x]?) ∧
      (∀ i l, (ringLines ring)[i]? = some l →
          h2.halfEdgeRecords[h.halfEdgeRecords.length + 2 * i]? =
            some ⟨d.vertices.lookup l.a, some (h.halfEdgeRecords.length + 2 * i + 1),
              some polyFace,
              some (h.halfEdgeRecords.length + 2 * ((i + 1) % (ringLines ring).length)),
              some (h.halfEdgeRecords.length +
                2 * ((i + (ringLines ring).length - 1) % (ringLines ring).length))⟩ ∧
          h2.halfEdgeRecords[h.halfEdgeRecords.length + (2 * i + 1)]? =
            some ⟨d.vertices.lookup l.b, some (h.halfEdgeRecords.length + 2 * i),
              some (if idx > 0 then h.faceRecords.length else infFace),
              some (h.halfEdgeRecords.length +
                (2 * ((i + (ringLines ring).length - 1) % (ringLines ring).length) + 1)),
              some (h.halfEdgeRecords.length +
                (2 * ((i + 1) % (ringLines ring).length) + 1))⟩) ∧
      (∀ x : Nat, h2.faceRecords[x]? =
        if ringLines ring ≠ [] then
          ((if idx > 0 then h.faceRecords ++ [⟨none, [], false, false⟩]
            else h.faceRecords)[x]?).map
            (linkedFace idx polyFace (if idx > 0 then h.faceRecords.length else infFace)
              h.halfEdgeRecords.length (h.halfEdgeRecords.length + 1) x)
        else (if idx > 0 then h.faceRecords ++ [⟨none, [], false, false⟩]
            else h.faceRecords)[x]?) := by
  -- the exterior face and the heap the line loop starts from
  let eF : Nat := if idx > 0 then h.faceRecords.length else infFace
  let h0 : Heap := if idx > 0 then (h.allocFace ⟨none, [], false, false⟩).1 else h
  have h0s : h0.halfEdgeRecords = h.halfEdgeRecords := by
    show (if idx > 0 then _ else h).halfEdgeRecords = _
    split_ifs <;> rfl
  have h0v : h0.vertexRecords = h.vertexRecords := by
    show (if idx > 0 then _ else h).vertexRecords = _
    split_ifs <;> rfl
  have h0r : h0.faceRecords =
      if idx > 0 then h.faceRecords ++ [⟨none, [], false, false⟩] else h.faceRecords := by
    show (if idx > 0 then _ else h).faceRecords = _
    split_ifs <;> rfl
  have h0f : h.faceRecords.length ≤ h0.faceRecords.length ∧ eF < h0.faceRecords.length := by
    show h.faceRecords.length ≤ (if idx > 0 then _ else h).faceRecords.length ∧
      (if idx > 0 then h.faceRecords.length else infFace) <
        (if idx > 0 then _ else h).faceRecords.length
    split_ifs
    · show _ ≤ (h.faceRecords ++ [_]).length ∧ _ < (h.faceRecords ++ [_]).length
      simp
    · exact ⟨le_refl _, hi⟩
  have hneF : polyFace ≠ eF := by
    show polyFace ≠ (if idx > 0 then h.faceRecords.length else infFace)
    split_ifs
    · omega
    · exact hne
  obtain ⟨rs, e1, b1, n1, v1, c1, f1⟩ := addRingEdges_spec d.vertices idx polyFace eF
    (ringLines ring) ⟨h0, [], true⟩
    (fun l hl => by
      obtain ⟨w, g1, g2⟩ := hv l hl
      exact ⟨w, g1, (by show w < h0.vertexRecords.length; rw [h0v]; exact g2)⟩)
    (lt_of_lt_of_le hp h0f.1) h0f.2
  have q1 := addRingEdges_faces hneF (ringLines ring) ⟨h0, [], true⟩ rs e1
    (lt_of_lt_of_le hp h0f.1) h0f.2
  simp only [List.nil_append] at n1
  have b1x : rs.heap.halfEdgeRecords = h.halfEdgeRecords ++
      blockRecords d.vertices polyFace eF h.halfEdgeRecords.length (ringLines ring) := by
    rw [b1]; show h0.halfEdgeRecords ++ _ = _; rw [h0s]
  have n1x : rs.newEdges =
      List.range' h.halfEdgeRecords.length (2 * (ringLines ring).length) := by
    rw [n1]; show List.range' h0.halfEdgeRecords.length _ = _; rw [h0s]
  have lenA : rs.heap.halfEdgeRecords.length =
      h.halfEdgeRecords.length + 2 * (ringLines ring).length := by
    rw [b1x, List.length_append, blockRecords_length]
  obtain ⟨h2, e2, v2, f2, l2, q2⟩ := @wireRing_spec rs.heap h.halfEdgeRecords.length
    (2 * (ringLines ring).length) (ringLines ring).length rfl (by omega)
    (ringLines ring).length (le_refl _)
  refine ⟨h2, ⟨if idx > 0 then d.faces ++ [eF] else d.faces,
    d.halfEdges ++ List.range' h.halfEdgeRecords.length (2 * (ringLines ring).length),
    d.vertices⟩, ?_, rfl, rfl, ?_, ?_, ?_, ?_, ?_, ?_, ?_⟩
  · simp only [processRing, Option.bind_eq_bind]
    show Option.bind (List.foldlM _ (⟨h0, [], true⟩ : RingState) (ringLines ring)) _ = _
    rw [e1]
    have hdiv2 : (List.range' h.halfEdgeRecords.length (2 * (ringLines ring).length)).length / 2
        = (ringLines ring).length := by
      rw [List.length_range']; omega
    simp only [Option.some_bind, n1x, hdiv2, e2]
    rfl
  · show (if idx > 0 then d.faces ++ [if idx > 0 then h.faceRecords.length else infFace]
      else d.faces) = _
    by_cases hx : idx > 0
    · rw [if_pos hx, if_pos hx, if_pos hx]
    · rw [if_neg hx, if_neg hx]
  · rw [v2, v1]; show h0.vertexRecords.length = _; rw [h0v]
  · intro x
    rw [v2, c1]; show Option.map _ (h0.vertexRecords[x]?) = _; rw [h0v]
  · rw [l2, lenA]
  · intro x hx
    rw [q2, if_neg (by omega), b1x, List.getElem?_append_left hx]
  · intro i l hl
    have hik : i < (ringLines ring).length := lt_length_of_getElem?_eq_some hl
    refine ⟨?_, ?_⟩
    · rw [q2, if_pos (by omega), b1x, List.getElem?_append_right (by omega)]
      have : h.halfEdgeRecords.length + 2 * i - h.halfEdgeRecords.length = 2 * i := by omega
      rw [this, blockRecords_even _ _ _ _ _ i l hl]
      simp only [Option.map_some', wiredRecord]
      rw [if_pos (by omega), mod_succ_double hik, mod_pred_double hik]
    · rw [q2, if_pos (by omega), b1x, List.getElem?_append_right (by omega)]
      have : h.halfEdgeRecords.length + (2 * i + 1) - h.halfEdgeRecords.length = 2 * i + 1 := by
        omega
      rw [this, blockRecords_odd _ _ _ _ _ i l hl]
      simp only [Option.map_some', wiredRecord]
      rw [if_neg (by omega), mod_succ_double_odd_pos hik, mod_pred_double_odd hik]
  · intro x
    rw [f2, q1]
    show (if (true = true ∧ ringLines ring ≠ []) then
        (h0.faceRecords[x]?).map (linkedFace idx polyFace eF h0.halfEdgeRecords.length
          (h0.halfEdgeRecords.length + 1) x)
      else h0.faceRecords[x]?) = _
    rw [h0s, h0r]
    by_cases hl : ringLines ring = []
    · rw [if_neg (show ¬ (true = true ∧ ringLines ring ≠ []) from fun hh => hh.2 hl),
        if_neg (show ¬ (ringLines ring ≠ []) from fun hh => hh hl)]
    · rw [if_pos (show true = true ∧ ringLines ring ≠ [] from ⟨rfl, hl⟩),
        if_pos (show ringLines ring ≠ [] from hl)]

theorem incidentOf_of_record {h : Heap} {x : Nat} {r : halfEdgeRecord}
    (hr : h.halfEdgeRecords[x]? = some r) : h.incidentOf x = r.incident := by
  simp [Heap.incidentOf, hr]

theorem length_eq_of_isSome {α β : Type} (l1 : List α) (l2 : List β)
    (hl : ∀ x : Nat, (l1[x]?).isSome = (l2[x]?).isSome) : l1.length = l2.length := by
  apply le_antisymm
  · by_contra hc
    have := hl l2.length
    rw [List.getElem?_eq_none (le_refl _), List.getElem?_eq_getElem (by omega)] at this
    exact Bool.noConfusion this
  · by_contra hc
    have := hl l1.length
    rw [List.getElem?_eq_none (le_refl _), List.getElem?_eq_getElem (by omega)] at this
    exact Bool.noConfusion this

/-- Later rings leave the block of an earlier ring as it was. -/
theorem ringCycle_frame {h h2 : Heap} {ls : List line} {L iF eF : Nat}
    (rc : RingCycle h ls L iF eF)
    (old : ∀ x, x < h.halfEdgeRecords.length → h2.halfEdgeRecords[x]? = h.halfEdgeRecords[x]?)
    (hlen : h.halfEdgeRecords.length ≤ h2.halfEdgeRecords.length)
    (hco : ∀ x : Nat, (h2.vertexRecords[x]?).map vertexRecord.coords =
      (h.vertexRecords[x]?).map vertexRecord.coords) :
    RingCycle h2 ls L iF eF := by
  have b := rc.bound
  have N : ∀ x, x < L + 2 * ls.length → h2.nextOf x = h.nextOf x := fun x hx => by
    simp only [Heap.nextOf, old x (by omega)]
  have T : ∀ x, x < L + 2 * ls.length → h2.twinOf x = h.twinOf x := fun x hx => by
    simp only [Heap.twinOf, old x (by omega)]
  have I : ∀ x, x < L + 2 * ls.length → h2.incidentOf x = h.incidentOf x := fun x hx => by
    simp only [Heap.incidentOf, old x (by omega)]
  have O : ∀ x, x < L + 2 * ls.length → h2.originOf x = h.originOf x := fun x hx => by
    simp only [Heap.originOf, old x (by omega)]
  have C : ∀ x, x < L + 2 * ls.length → h2.originCoords x = h.originCoords x := fun x hx =>
    originCoords_congr (O x hx) hco
  constructor
  · omega
  · intro i hi; rw [N _ (by omega)]; exact rc.next_even i hi
  · intro i hi; rw [N _ (by omega)]; exact rc.next_odd i hi
  · intro i hi; rw [T _ (by omega)]; exact rc.twin_even i hi
  · intro i hi; rw [T _ (by omega)]; exact rc.twin_odd i hi
  · intro i hi; rw [I _ (by omega)]; exact rc.incident_even i hi
  · intro i hi; rw [I _ (by omega)]; exact rc.incident_odd i hi
  · intro i l hl
    have hi := lt_length_of_getElem?_eq_some hl
    rw [C _ (by omega)]; exact rc.coords_even i l hl
  · intro i l hl
    have hi := lt_length_of_getElem?_eq_some hl
    rw [C _ (by omega)]; exact rc.coords_odd i l hl

/-- The block of records `processRing` appends is a ring cycle. -/
theorem ringCycle_block {h2 : Heap} {vertices : List (XY × Nat)} {ls : List line}
    {L iF eF : Nat} (hlen : L + 2 * ls.length ≤ h2.halfEdgeRecords.length)
    (hok : VMapOK h2 vertices)
    (hla : ∀ l ∈ ls, ∃ v, vertices.lookup l.a = some v)
    (hlb : ∀ l ∈ ls, ∃ v, vertices.lookup l.b = some v)
    (blk : ∀ i l, ls[i]? = some l →
      h2.halfEdgeRecords[L + 2 * i]? =
        some ⟨vertices.lookup l.a, some (L + 2 * i + 1), some iF,
          some (L + 2 * ((i + 1) % ls.length)),
          some (L + 2 * ((i + ls.length - 1) % ls.length))⟩ ∧
      h2.halfEdgeRecords[L + (2 * i + 1)]? =
        some ⟨vertices.lookup l.b, some (L + 2 * i), some eF,
          some (L + (2 * ((i + ls.length - 1) % ls.length) + 1)),
          some (L + (2 * ((i + 1) % ls.length) + 1))⟩) :
    RingCycle h2 ls L iF eF := by
  have getl : ∀ i, i < ls.length → ∃ l, ls[i]? = some l :=
    fun i hi => ⟨_, List.getElem?_eq_getElem hi⟩
  constructor
  · exact hlen
  · intro i hi
    obtain ⟨l, hl⟩ := getl i hi
    rw [nextOf_of_record (blk i l hl).1]
  · intro i hi
    obtain ⟨l, hl⟩ := getl i hi
    rw [nextOf_of_record (blk i l hl).2]
  · intro i hi
    obtain ⟨l, hl⟩ := getl i hi
    rw [twinOf_of_record (blk i l hl).1]
    rfl
  · intro i hi
    obtain ⟨l, hl⟩ := getl i hi
    rw [twinOf_of_record (blk i l hl).2]
  · intro i hi
    obtain ⟨l, hl⟩ := getl i hi
    rw [incidentOf_of_record (blk i l hl).1]
  · intro i hi
    obtain ⟨l, hl⟩ := getl i hi
    rw [incidentOf_of_record (blk i l hl).2]
  · intro i l hl
    obtain ⟨v, hv⟩ := hla l (List.getElem?_mem hl)
    obtain ⟨r, hr, hrc⟩ := hok _ _ hv
    have ho : h2.originOf (L + 2 * i) = some v := by
      rw [originOf_of_record (blk i l hl).1]; exact hv
    rw [originCoords_of ho hr, hrc]
  · intro i l hl
    obtain ⟨v, hv⟩ := hlb l (List.getElem?_mem hl)
    obtain ⟨r, hr, hrc⟩ := hok _ _ hv
    have ho : h2.originOf (L + (2 * i + 1)) = some v := by
      rw [originOf_of_record (blk i l hl).2]; exact hv
    rw [originCoords_of ho hr, hrc]

theorem linkedFace_labels (r i e a b f : Nat) (fr : faceRecord) :
    (linkedFace r i e a b f fr).labelA = fr.labelA ∧
      (linkedFace r i e a b f fr).labelB = fr.labelB := by
  unfold linkedFace
  split_ifs <;> exact ⟨rfl, rfl⟩

theorem linkedFace_outer {r i e a b f : Nat} (fr : faceRecord) (hi : f ≠ i)
    (he : r = 0 ∨ f ≠ e) : (linkedFace r i e a b f fr).outerComponent = fr.outerComponent := by
  unfold linkedFace
  split_ifs <;> first | rfl | (exfalso; omega)

theorem linkedFace_comps {r i e a b f : Nat} {fr : faceRecord} {y : Nat}
    (hy : (linkedFace r i e a b f fr).outerComponent = some y ∨
      y ∈ (linkedFace r i e a b f fr).innerComponents) :
    (fr.outerComponent = some y ∨ y ∈ fr.innerComponents) ∨ (y = a ∧ f = i) ∨
      (y = b ∧ f = e) := by
  unfold linkedFace at hy
  split_ifs at hy with h1 h2 h3 h4 h5 h6 h7 h8 <;>
    (try simp only [List.mem_append, List.mem_singleton, Option.some.injEq] at hy) <;>
    rcases hy with hy | hy <;> first
      | exact Or.inl (Or.inl hy)
      | exact Or.inl (Or.inr hy)
      | (subst hy; tauto)
      | tauto

/-- The body of the loop over the rings keeps the state of the construction. -/
theorem processRing_build {infFace : Nat} {isPolyA : Bool} {done : List (Nat × List XY)}
    {h : Heap} {d : doublyConnectedEdgeList} (idx : Nat) (ring : List XY)
    (inv : BuildInv infFace isPolyA done h d) (hok : VMapOK h d.vertices)
    (hmap : ∀ xy ∈ ring, ∃ v, d.vertices.lookup xy = some v) :
    ∃ h2 d2, processRing infFace (infFace + 1) (h, d) (idx, ring) = some (h2, d2) ∧
      BuildInv infFace isPolyA (done ++ [(idx, ring)]) h2 d2 ∧ VMapOK h2 d2.vertices ∧
      d2.vertices = d.vertices := by
  have hfl := inv.faceLen
  have look : ∀ xy ∈ ring, ∃ v, d.vertices.lookup xy = some v ∧ v < h.vertexRecords.length := by
    intro xy hxy
    obtain ⟨v, hv⟩ := hmap xy hxy
    obtain ⟨r, hr, -⟩ := hok xy v hv
    exact ⟨v, hv, lt_length_of_getElem?_eq_some hr⟩
  obtain ⟨h2, d2, e, hd2, hvs, hfs, hvl, hco, hlen, hold, hblk, hfr⟩ :=
    processRing_full (h := h) (d := d) infFace (infFace + 1) idx ring
      (fun l hl => look l.a (ringLines_mem ring l hl).1) (by omega) (by omega) (by omega)
  have ok2 : VMapOK h2 d.vertices := vmapOK_of_coords hok hco
  have rcNew : RingCycle h2 (ringLines ring) h.halfEdgeRecords.length (infFace + 1)
      (if idx > 0 then h.faceRecords.length else infFace) :=
    ringCycle_block (by omega) ok2 (fun l hl => hmap _ (ringLines_mem ring l hl).1)
      (fun l hl => hmap _ (ringLines_mem ring l hl).2) hblk
  have oldlt : ∀ x ∈ d.halfEdges, x < h.halfEdgeRecords.length := by
    intro x hx
    obtain ⟨ir, -, L, eF, -, -, rc, -, hx2, -⟩ := inv.blocks x hx
    have := rc.bound
    omega
  have Iold : ∀ x ∈ d.halfEdges, h2.incidentOf x = h.incidentOf x := fun x hx => by
    simp only [Heap.incidentOf, hold x (oldlt x hx)]
  have mem2 : ∀ x, x ∈ d2.halfEdges ↔ (x ∈ d.halfEdges ∨
      (h.halfEdgeRecords.length ≤ x ∧
        x < h.halfEdgeRecords.length + 2 * (ringLines ring).length)) := by
    intro x
    rw [hd2, List.mem_append, List.mem_range'_1]
  -- the face records
  generalize hb : (if idx > 0 then h.faceRecords ++ [(⟨none, [], false, false⟩ : faceRecord)]
    else h.faceRecords) = base at hfr
  have hbase : ∀ (x : Nat) (fr : faceRecord), base[x]? = some fr →
      h.faceRecords[x]? = some fr ∨
        (fr = ⟨none, [], false, false⟩ ∧ x = h.faceRecords.length ∧ 0 < idx) := by
    intro x fr hx
    rw [← hb] at hx
    by_cases hi : idx > 0
    · rw [if_pos hi] at hx
      by_cases hxl : x < h.faceRecords.length
      · rw [List.getElem?_append_left hxl] at hx; exact Or.inl hx
      · rw [List.getElem?_append_right (not_lt.mp hxl)] at hx
        right
        have h0 : x - h.faceRecords.length = 0 := by
          by_contra hne
          rw [List.getElem?_eq_none (by simp; omega)] at hx
          exact Option.noConfusion hx
        rw [h0] at hx
        simp only [List.getElem?_cons_zero, Option.some.injEq] at hx
        exact ⟨hx.symm, by omega, hi⟩
    · rw [if_neg hi] at hx; exact Or.inl hx
  have hbase2 : ∀ (x : Nat) (fr : faceRecord), h.faceRecords[x]? = some fr →
      base[x]? = some fr := by
    intro x fr hx
    rw [← hb]
    split_ifs
    · rw [List.getElem?_append_left (lt_length_of_getElem?_eq_some hx)]; exact hx
    · exact hx
  have hblen : base.length = h.faceRecords.length + (if idx > 0 then 1 else 0) := by
    rw [← hb]; split_ifs <;> simp
  have h2len : h2.faceRecords.length = base.length := by
    apply length_eq_of_isSome
    intro x; rw [hfr]
    by_cases hl : ringLines ring ≠ []
    · rw [if_pos hl]; cases base[x]? <;> rfl
    · rw [if_neg hl]
  have hget : ∀ (x : Nat) (fr2 : faceRecord), h2.faceRecords[x]? = some fr2 →
      ∃ fr, base[x]? = some fr ∧ fr2.labelA = fr.labelA ∧ fr2.labelB = fr.labelB ∧
        (x = infFace → fr2.outerComponent = fr.outerComponent) ∧
        (∀ y, (fr2.outerComponent = some y ∨ y ∈ fr2.innerComponents) →
          (fr.outerComponent = some y ∨ y ∈ fr.innerComponents) ∨
          (ringLines ring ≠ [] ∧ ((y = h.halfEdgeRecords.length ∧ x = infFace + 1) ∨
            (y = h.halfEdgeRecords.length + 1 ∧
              x = (if idx > 0 then h.faceRecords.length else infFace))))) := by
    intro x fr2 hx
    rw [hfr] at hx
    by_cases hl : ringLines ring ≠ []
    · rw [if_pos hl] at hx
      cases hbx : base[x]? with
      | none => rw [hbx] at hx; exact Option.noConfusion hx
      | some fr =>
        rw [hbx] at hx
        simp only [Option.map_some', Option.some.injEq] at hx
        subst hx
        refine ⟨fr, rfl, (linkedFace_labels _ _ _ _ _ _ _).1,
          (linkedFace_labels _ _ _ _ _ _ _).2, ?_, ?_⟩
        · intro hxi
          apply linkedFace_outer
          · omega
          · by_cases hi : idx > 0
            · right; rw [if_pos hi]; omega
            · left; omega
        · intro y hy
          rcases linkedFace_comps hy with h1 | h1 | h1
          · exact Or.inl h1
          · exact Or.inr ⟨hl, Or.inl h1⟩
          · exact Or.inr ⟨hl, Or.inr h1⟩
    · rw [if_neg hl] at hx
      exact ⟨fr2, hx, rfl, rfl, fun _ => rfl, fun y hy => Or.inl hy⟩
  have hsome : ∀ (x : Nat) (fr : faceRecord), base[x]? = some fr →
      ∃ fr2, h2.faceRecords[x]? = some fr2 := by
    intro x fr hx
    rw [hfr, hx]
    by_cases hl : ringLines ring ≠ []
    · rw [if_pos hl]; exact ⟨_, rfl⟩
    · rw [if_neg hl]; exact ⟨_, rfl⟩
  have hcount : (done ++ [(idx, ring)]).countP (fun ir => decide (0 < ir.1)) =
      done.countP (fun ir => decide (0 < ir.1)) + (if idx > 0 then 1 else 0) := by
    rw [List.countP_append]
    congr 1
    by_cases hi : idx > 0
    · simp [List.countP_cons, hi]
    · simp [List.countP_cons, hi]
  refine ⟨h2, d2, e, ?_, hvs ▸ ok2, hvs⟩
  constructor
  · -- faces
    rw [hfs, hcount, inv.faces]
    by_cases hi : idx > 0
    · rw [if_pos hi, if_pos hi, hfl,
        show 2 + (done.countP (fun ir => decide (0 < ir.1)) + 1) =
          (2 + done.countP (fun ir => decide (0 < ir.1))) + 1 by omega,
        List.range'_1_concat]
      congr 2
      omega
    · rw [if_neg hi, if_neg hi]; rfl
  · -- faceLen
    rw [h2len, hblen, hcount, hfl]
    omega
  · -- inf_rec
    obtain ⟨fr, hfr0, ho, la, lb⟩ := inv.inf_rec
    obtain ⟨fr2, h2r⟩ := hsome _ _ (hbase2 _ _ hfr0)
    obtain ⟨fr1, hb1, a1, a2, a3, -⟩ := hget _ _ h2r
    rw [hbase2 _ _ hfr0] at hb1
    obtain rfl := Option.some.inj hb1
    exact ⟨fr2, h2r, (a3 rfl).trans ho, a1.trans la, a2.trans lb⟩
  · -- poly_rec
    obtain ⟨fr, hfr0, la, lb⟩ := inv.poly_rec
    obtain ⟨fr2, h2r⟩ := hsome _ _ (hbase2 _ _ hfr0)
    obtain ⟨fr1, hb1, a1, a2, -, -⟩ := hget _ _ h2r
    rw [hbase2 _ _ hfr0] at hb1
    obtain rfl := Option.some.inj hb1
    exact ⟨fr2, h2r, a1.trans la, a2.trans lb⟩
  · -- hole_rec
    intro f hf1 hf2
    obtain ⟨fr2, h2r⟩ : ∃ r, h2.faceRecords[f]? = some r := ⟨_, List.getElem?_eq_getElem hf2⟩
    obtain ⟨fr1, hb1, a1, a2, -, -⟩ := hget _ _ h2r
    refine ⟨fr2, h2r, ?_, ?_⟩
    · rcases hbase _ _ hb1 with h1 | ⟨h1, -, -⟩
      · obtain ⟨fr0, g0, la, lb⟩ := inv.hole_rec f hf1 (lt_length_of_getElem?_eq_some h1)
        rw [h1] at g0
        obtain rfl := Option.some.inj g0
        exact a1.trans la
      · rw [a1, h1]
    · rcases hbase _ _ hb1 with h1 | ⟨h1, -, -⟩
      · obtain ⟨fr0, g0, la, lb⟩ := inv.hole_rec f hf1 (lt_length_of_getElem?_eq_some h1)
        rw [h1] at g0
        obtain rfl := Option.some.inj g0
        exact a2.trans lb
      · rw [a2, h1]
  · -- comps
    intro f fr2 hf h2r y hy
    obtain ⟨fr1, hb1, -, -, -, a4⟩ := hget _ _ h2r
    rcases a4 y hy with h1 | ⟨hl, h1 | h1⟩
    · rcases hbase _ _ hb1 with g1 | ⟨g1, -, -⟩
      · obtain ⟨m1, m2⟩ := inv.comps f fr1 hf g1 y h1
        exact ⟨(mem2 y).mpr (Or.inl m1), (Iold y m1).trans m2⟩
      · rw [g1] at h1
        simp at h1
    · have hpos : 0 < (ringLines ring).length := List.length_pos.mpr hl
      obtain ⟨rfl, rfl⟩ := h1
      refine ⟨(mem2 _).mpr (Or.inr ⟨le_refl _, by omega⟩), ?_⟩
      have := rcNew.incident_even 0 hpos
      simpa using this
    · have hpos : 0 < (ringLines ring).length := List.length_pos.mpr hl
      obtain ⟨rfl, rfl⟩ := h1
      refine ⟨(mem2 _).mpr (Or.inr ⟨by omega, by omega⟩), ?_⟩
      have := rcNew.incident_odd 0 hpos
      simpa using this
  · -- blocks
    intro x hx
    rcases (mem2 x).mp hx with h1 | h1
    · obtain ⟨ir, hir, L, eF, b1, b2, rc, b3, b4, b5⟩ := inv.blocks x h1
      refine ⟨ir, List.mem_append_left _ hir, L, eF, b1, ?_,
        ringCycle_frame rc hold (by omega) hco, b3, b4,
        fun z hz1 hz2 => (mem2 z).mpr (Or.inl (b5 z hz1 hz2))⟩
      rw [h2len, hblen]; omega
    · refine ⟨(idx, ring), List.mem_append_right _ (List.mem_singleton.mpr rfl),
        h.halfEdgeRecords.length, (if idx > 0 then h.faceRecords.length else infFace),
        ?_, ?_, rcNew, h1.1, h1.2, fun z hz1 hz2 => (mem2 z).mpr (Or.inr ⟨hz1, hz2⟩)⟩
      · split_ifs <;> omega
      · rw [h2len, hblen]; split_ifs <;> omega

/-- The loop over the rings keeps the state of the construction. -/
theorem processRings_build {infFace : Nat} {isPolyA : Bool} :
    ∀ (irs done : List (Nat × List XY)) (h : Heap) (d : doublyConnectedEdgeList),
      BuildInv infFace isPolyA done h d → VMapOK h d.vertices →
      (∀ ir ∈ irs, ∀ xy ∈ ir.2, ∃ v, d.vertices.lookup xy = some v) →
      ∃ h2 d2, irs.foldlM (processRing infFace (infFace + 1)) (h, d) = some (h2, d2) ∧
        BuildInv infFace isPolyA (done ++ irs) h2 d2 ∧ VMapOK h2 d2.vertices := by
  intro irs
  induction irs with
  | nil =>
    intro done h d inv hok _
    exact ⟨h, d, rfl, by simpa using inv, hok⟩
  | cons ir rest ih =>
    intro done h d inv hok hm
    obtain ⟨idx, ring⟩ := ir
    obtain ⟨h1, d1, e1, inv1, ok1, hv1⟩ :=
      processRing_build idx ring inv hok (hm _ (List.mem_cons_self _ _))
    obtain ⟨h2, d2, e2, inv2, ok2⟩ := ih (done ++ [(idx, ring)]) h1 d1 inv1 ok1
      (fun ir hir => by rw [hv1]; exact hm ir (List.mem_cons_of_mem _ hir))
    refine ⟨h2, d2, ?_, ?_, ok2⟩
    · simp only [List.foldlM_cons, Option.bind_eq_bind, e1, Option.some_bind, e2]
    · rw [List.append_assoc, List.singleton_append] at inv2
      exact inv2

theorem countP_enumFrom_pos {α : Type} (l : List α) :
    ∀ n, 0 < n → (List.enumFrom n l).countP (fun ir => decide (0 < ir.1)) = l.length := by
  induction l with
  | nil => intro n _; rfl
  | cons a rest ih =>
    intro n hn
    rw [List.enumFrom_cons, List.countP_cons, ih (n + 1) (by omega)]
    simp [hn]

theorem getElem?_two_appended {α : Type} (l : List α) (a b : α) :
    (l ++ [a] ++ [b])[l.length]? = some a ∧ (l ++ [a] ++ [b])[l.length + 1]? = some b := by
  constructor
  · rw [List.append_assoc, List.getElem?_append_right (le_refl _)]
    simp
  · rw [List.append_assoc, List.getElem?_append_right (by omega)]
    simp

/-- The state in which `newDCELFromPolygon` returns, for every polygon. -/
theorem newDCELFromPolygon_build (h0 : Heap) (poly : Polygon) (isPolyA : Bool) :
    ∃ h d, newDCELFromPolygon h0 poly isPolyA = some (h, d) ∧
      BuildInv h0.faceRecords.length isPolyA
        (poly.ForceCCW.exterior :: poly.ForceCCW.interiors).enum h d ∧
      VMapOK h d.vertices := by
  obtain ⟨p1, p2, -, p4, p5⟩ := populateRings_spec
    (poly.ForceCCW.exterior :: poly.ForceCCW.interiors) (h0, [])
    (fun xy v hl => by simp at hl)
  have hF : (populateVertices h0
      (poly.ForceCCW.exterior :: poly.ForceCCW.interiors)).1.faceRecords.length =
      h0.faceRecords.length := congrArg List.length p5
  have init : BuildInv
      (populateVertices h0
        (poly.ForceCCW.exterior :: poly.ForceCCW.interiors)).1.faceRecords.length isPolyA []
      (((populateVertices h0 (poly.ForceCCW.exterior :: poly.ForceCCW.interiors)).1.allocFace
        ⟨none, [], false, false⟩).1.allocFace ⟨none, [], isPolyA, !isPolyA⟩).1
      ⟨[(populateVertices h0
          (poly.ForceCCW.exterior :: poly.ForceCCW.interiors)).1.faceRecords.length,
        (populateVertices h0
          (poly.ForceCCW.exterior :: poly.ForceCCW.interiors)).1.faceRecords.length + 1], [],
        (populateVertices h0 (poly.ForceCCW.exterior :: poly.ForceCCW.interiors)).2⟩ := by
    generalize (populateVertices h0 (poly.ForceCCW.exterior :: poly.ForceCCW.interiors)) = hv
    have g := getElem?_two_appended hv.1.faceRecords (⟨none, [], false, false⟩ : faceRecord)
      ⟨none, [], isPolyA, !isPolyA⟩
    have hl : (((hv.1.allocFace ⟨none, [], false, false⟩).1.allocFace
        ⟨none, [], isPolyA, !isPolyA⟩).1).faceRecords =
        hv.1.faceRecords ++ [⟨none, [], false, false⟩] ++ [⟨none, [], isPolyA, !isPolyA⟩] := rfl
    constructor
    · rfl
    · rw [hl]; simp
    · rw [hl]; exact ⟨_, g.1, rfl, rfl, rfl⟩
    · rw [hl]; exact ⟨_, g.2, rfl, rfl⟩
    · intro f hf1 hf2
      rw [hl] at hf2
      simp at hf2
      omega
    · intro f fr hf hr x hx
      rw [hl] at hr
      have hlt := lt_length_of_getElem?_eq_some hr
      simp at hlt
      have hcase : f = hv.1.faceRecords.length ∨ f = hv.1.faceRecords.length + 1 := by omega
      rcases hcase with rfl | rfl
      · rw [g.1] at hr
        obtain rfl := Option.some.inj hr
        simp at hx
      · rw [g.2] at hr
        obtain rfl := Option.some.inj hr
        simp at hx
    · intro e he
      simp at he
  obtain ⟨h, d, e, inv, ok⟩ := processRings_build
    (poly.ForceCCW.exterior :: poly.ForceCCW.interiors).enum [] _ _ init p1
    (fun ir hir xy hxy => p2 ir.2 (List.snd_mem_of_mem_enum hir) xy hxy)
  have hpf : ((populateVertices h0
      (poly.ForceCCW.exterior :: poly.ForceCCW.interiors)).1.allocFace
        ⟨none, [], false, false⟩).1.faceRecords.length =
      (populateVertices h0
        (poly.ForceCCW.exterior :: poly.ForceCCW.interiors)).1.faceRecords.length + 1 := by
    show (_ ++ [_]).length = _
    simp
  refine ⟨h, d, ?_, ?_, ok⟩
  · rw [← e]
    unfold newDCELFromPolygon
    simp only [hpf]
  · rw [List.nil_append, hF] at inv
    exact inv

/-! ## Claims on the faces and cycles of a constructed DCEL -/

theorem countP_rings (r0 : List XY) (rs : List (List XY)) :
    ((r0 :: rs).enum).countP (fun ir => decide (0 < ir.1)) = rs.length := by
  rw [List.enum, List.enumFrom_cons, List.countP_cons, countP_enumFrom_pos rs 1 (by omega)]
  simp

theorem forceCCW_interiors_length (poly : Polygon) :
    poly.ForceCCW.interiors.length = poly.interiors.length := by
  show (poly.interiors.map _).length = _
  rw [List.length_map]

theorem block_parity {L e k : Nat} (h1 : L ≤ e) (h2 : e < L + 2 * k) :
    ∃ j, j < k ∧ (e = L + 2 * j ∨ e = L + (2 * j + 1)) :=
  ⟨(e - L) / 2, by omega, by omega⟩

/-- C21: for every polygon with `n` interior rings and either label,
`newDCELFromPolygon` returns a DCEL whose face list is the `2 + n` fresh face
pointers, all distinct: the first is the unbounded face, whose `outerComponent` is
nil, the second the polygon face, which carries the label, and then one face for
each interior ring; every face pointer has a record, and every half-edge has one
of these faces as its incident face. -/
theorem C21_newDCEL_face_count (h0 : Heap) (poly : Polygon) (isPolyA : Bool) :
    ∃ h d, newDCELFromPolygon h0 poly isPolyA = some (h, d) ∧
      d.faces = List.range' h0.faceRecords.length (2 + poly.interiors.length) ∧
      d.faces.length = 2 + poly.interiors.length ∧ d.faces.Nodup ∧
      h.faceRecords.length = h0.faceRecords.length + 2 + poly.interiors.length ∧
      (∃ fr, h.faceRecords[h0.faceRecords.length]? = some fr ∧ fr.outerComponent = none) ∧
      (∃ fr, h.faceRecords[h0.faceRecords.length + 1]? = some fr ∧ fr.labelA = isPolyA ∧
        fr.labelB = !isPolyA) ∧
      (∀ f ∈ d.faces, ∃ fr, h.faceRecords[f]? = some fr) ∧
      (∀ e ∈ d.halfEdges, ∃ f ∈ d.faces, h.incidentOf e = some f) := by
  obtain ⟨h, d, e, inv, -⟩ := newDCELFromPolygon_build h0 poly isPolyA
  have hc : ((poly.ForceCCW.exterior :: poly.ForceCCW.interiors).enum).countP
      (fun ir => decide (0 < ir.1)) = poly.interiors.length := by
    rw [countP_rings, forceCCW_interiors_length]
  have hfaces := inv.faces
  have hlen := inv.faceLen
  rw [hc] at hfaces hlen
  obtain ⟨fr0, g0, o0, -, -⟩ := inv.inf_rec
  have memf : ∀ f, f ∈ d.faces ↔ (h0.faceRecords.length ≤ f ∧ f < h.faceRecords.length) := by
    intro f
    rw [hfaces, List.mem_range'_1, hlen]
    constructor
    · rintro ⟨a, b⟩; exact ⟨a, by omega⟩
    · rintro ⟨a, b⟩; exact ⟨a, by omega⟩
  refine ⟨h, d, e, hfaces, ?_, ?_, hlen, ⟨fr0, g0, o0⟩, inv.poly_rec, ?_, ?_⟩
  · rw [hfaces, List.length_range']
  · rw [hfaces]; exact List.nodup_range' _ _
  · intro f hf
    exact ⟨_, List.getElem?_eq_getElem ((memf f).mp hf).2⟩
  · intro x hx
    obtain ⟨ir, -, L, eF, b1, b2, rc, b3, b4, -⟩ := inv.blocks x hx
    obtain ⟨j, hj, rfl | rfl⟩ := block_parity b3 b4
    · exact ⟨_, (memf _).mpr ⟨by omega, by omega⟩, rc.incident_even j hj⟩
    · exact ⟨eF, (memf _).mpr ⟨b1, b2⟩, rc.incident_odd j hj⟩

theorem mod_shift_ne {j i k : Nat} (hj : j < k) (h0 : 0 < i) (hi : i < k) : (j + i) % k ≠ j := by
  by_cases hlt : j + i < k
  · rw [Nat.mod_eq_of_lt hlt]; omega
  · rw [Nat.mod_eq_sub_mod (not_lt.mp hlt), Nat.mod_eq_of_lt (by omega)]
    omega

/-- A family of `k` distinct half-edges on which `next` goes from each member to
the following one is a cycle of `next` of length `k`. -/
theorem cycle_reaches {h : Heap} {k : Nat} (c : Nat → Nat)
    (hinj : ∀ a b, a < k → b < k → c a = c b → a = b)
    (hstep : ∀ m, m < k → h.nextOf (c m) = some (c ((m + 1) % k))) (j : Nat) (hj : j < k) :
    (∀ i, h.nextD^[i] (c j) = c ((j + i) % k)) ∧ ReachesIn h (c j) (c j) k := by
  have hk : 0 < k := by omega
  have iter : ∀ i, h.nextD^[i] (c j) = c ((j + i) % k) := by
    intro i
    induction i with
    | zero => rw [Function.iterate_zero, id_eq, Nat.add_zero, Nat.mod_eq_of_lt hj]
    | succ i ih =>
      rw [Function.iterate_succ_apply', ih, nextD_of_some (hstep _ (Nat.mod_lt _ hk)),
        Nat.mod_add_mod, Nat.add_assoc]
  refine ⟨iter, hk, ?_, ?_, ?_⟩
  · intro i _
    rw [iter, iter, hstep _ (Nat.mod_lt _ hk), Nat.mod_add_mod, Nat.add_assoc]
  · rw [iter, Nat.add_mod_right, Nat.mod_eq_of_lt hj]
  · intro i h0 hi heq
    rw [iter] at heq
    exact mod_shift_ne hj h0 hi (hinj _ _ (Nat.mod_lt _ hk) hj heq)

theorem rev_index_step {m k : Nat} (hm : m < k) :
    (k - 1 - m + k - 1) % k = k - 1 - (m + 1) % k := by
  by_cases h : m + 1 < k
  · rw [Nat.mod_eq_of_lt h]
    have : k - 1 - m + k - 1 = (k - 1 - (m + 1)) + k := by omega
    rw [this, Nat.add_mod_right, Nat.mod_eq_of_lt (by omega)]
  · have h1 : m + 1 = k := by omega
    rw [h1, Nat.mod_self]
    have : k - 1 - m + k - 1 = k - 1 := by omega
    rw [this, Nat.mod_eq_of_lt (by omega)]
    omega

theorem rev_index_back {j i k : Nat} (hj : j < k) :
    (k - 1 - (k - 1 - j + i) % k + i) % k = j := by
  have hk : 0 < k := by omega
  have hq : (k - 1 - j + i) % k < k := Nat.mod_lt _ hk
  have hdm := Nat.div_add_mod (k - 1 - j + i) k
  have e : k - 1 - (k - 1 - j + i) % k + i = j + k * ((k - 1 - j + i) / k) := by omega
  rw [e, Nat.add_mul_mod_self_left, Nat.mod_eq_of_lt hj]

/-- The cycles of `next` in the block of one ring: from the internal edge of line
`j`, `i` steps lead to the internal edge of line `(j + i) % k`; from the external
edge of line `j`, `i` steps lead to the external edge of the line `m` with
`(m + i) % k = j`; both cycles have length `k`. -/
theorem ringCycle_walk {h : Heap} {ls : List line} {L iF eF : Nat}
    (rc : RingCycle h ls L iF eF) (j : Nat) (hj : j < ls.length) :
    (ReachesIn h (L + 2 * j) (L + 2 * j) ls.length ∧
      ∀ i, h.nextD^[i] (L + 2 * j) = L + 2 * ((j + i) % ls.length)) ∧
    (ReachesIn h (L + (2 * j + 1)) (L + (2 * j + 1)) ls.length ∧
      ∀ i, ∃ m, m < ls.length ∧ (m + i) % ls.length = j ∧
        h.nextD^[i] (L + (2 * j + 1)) = L + (2 * m + 1)) := by
  have hk : 0 < ls.length := by omega
  constructor
  · obtain ⟨it, r⟩ := cycle_reaches (h := h) (k := ls.length) (fun m => L + 2 * m)
      (fun a b _ _ hab => by simp only at hab; omega)
      (fun m hm => rc.next_even m hm) j hj
    exact ⟨r, it⟩
  · obtain ⟨it, r⟩ := cycle_reaches (h := h) (k := ls.length)
      (fun m => L + (2 * (ls.length - 1 - m) + 1))
      (fun a b _ _ hab => by simp only at hab; omega)
      (fun m hm => by
        show h.nextOf (L + (2 * (ls.length - 1 - m) + 1)) = _
        rw [rc.next_odd _ (by omega), rev_index_step hm])
      (ls.length - 1 - j) (by omega)
    have hc : L + (2 * (ls.length - 1 - (ls.length - 1 - j)) + 1) = L + (2 * j + 1) := by
      congr 2; omega
    simp only [hc] at it r
    refine ⟨r, fun i => ⟨ls.length - 1 - (ls.length - 1 - j + i) % ls.length, ?_, ?_, it i⟩⟩
    · omega
    · exact rev_index_back hj

/-- C22: for every polygon and either label, `newDCELFromPolygon` returns a DCEL in
which every half-edge `e` lies in the block of a ring with `k` segments, as the
internal (`L + 2 j`) or the external (`L + 2 j + 1`) edge of segment `j`: `k`
steps of `next` from `e` lead back to `e` for the first time, through `k` distinct
half-edges; so the loop of `forEachEdge` from `e` ends after `k` calls of the
callback, with any fuel of at least `k`. After `i` steps from an internal edge one
is at the internal edge of segment `(j + i) % k`, which runs from the start to
the end of that segment; after `i` steps from an external edge one is at the
external edge of the segment `m` with `(m + i) % k = j`, which runs from the end
to the start of that segment. -/
theorem C22_next_cycles (h0 : Heap) (poly : Polygon) (isPolyA : Bool) :
    ∃ h d, newDCELFromPolygon h0 poly isPolyA = some (h, d) ∧
      ∀ e ∈ d.halfEdges, ∃ ring ∈ poly.ForceCCW.exterior :: poly.ForceCCW.interiors,
        ∃ L j, j < (ringLines ring).length ∧ (e = L + 2 * j ∨ e = L + (2 * j + 1)) ∧
          ReachesIn h e e (ringLines ring).length ∧
          (List.iterate h.nextD e (ringLines ring).length).Nodup ∧
          (∀ fuel, (ringLines ring).length ≤ fuel →
            edgeLoop h e fuel e = some (List.iterate h.nextD e (ringLines ring).length)) ∧
          (∀ (σ : Type) (fn : σ → Nat → Option σ) (s : σ) (fuel : Nat),
            (ringLines ring).length ≤ fuel →
            forEachEdge (fun _ x => h.nextOf x) fn e fuel s e =
              (List.iterate h.nextD e (ringLines ring).length).foldlM fn s) ∧
          (e = L + 2 * j → ∀ i, ∃ l, (ringLines ring)[(j + i) % (ringLines ring).length]? = some l ∧
            h.nextD^[i] e = L + 2 * ((j + i) % (ringLines ring).length) ∧
            h.originCoords (h.nextD^[i] e) = some l.a ∧
            h.destCoords (h.nextD^[i] e) = some l.b) ∧
          (e = L + (2 * j + 1) → ∀ i, ∃ m l, (m + i) % (ringLines ring).length = j ∧
            (ringLines ring)[m]? = some l ∧ h.nextD^[i] e = L + (2 * m + 1) ∧
            h.originCoords (h.nextD^[i] e) = some l.b ∧
            h.destCoords (h.nextD^[i] e) = some l.a) := by
  obtain ⟨h, d, e, inv, -⟩ := newDCELFromPolygon_build h0 poly isPolyA
  refine ⟨h, d, e, fun x hx => ?_⟩
  obtain ⟨ir, hir, L, eF, -, -, rc, b3, b4, -⟩ := inv.blocks x hx
  obtain ⟨j, hj, hcase⟩ := block_parity b3 b4
  obtain ⟨⟨r0, it0⟩, ⟨r1, it1⟩⟩ := ringCycle_walk rc j hj
  have hk : 0 < (ringLines ir.2).length := by omega
  have r : ReachesIn h x x (ringLines ir.2).length := by
    rcases hcase with rfl | rfl
    · exact r0
    · exact r1
  have hloop : ∀ fuel, (ringLines ir.2).length ≤ fuel →
      edgeLoop h x fuel x = some (List.iterate h.nextD x (ringLines ir.2).length) :=
    fun fuel hf => (edgeLoop_eq_some fuel x _).mpr ⟨_, hf, r, rfl⟩
  refine ⟨ir.2, List.snd_mem_of_mem_enum hir, L, j, hj, hcase, r, r.nodup, hloop, ?_, ?_, ?_⟩
  · intro σ fn s fuel hf
    rw [forEachEdge_eq_foldlM h (fun _ x => h.nextOf x) fn (fun _ => True)
      (fun _ _ _ => rfl) (fun _ _ _ _ _ => trivial) x fuel s x trivial, hloop fuel hf]
    rfl
  · intro hx0 i
    subst hx0
    have hm : (j + i) % (ringLines ir.2).length < (ringLines ir.2).length := Nat.mod_lt _ hk
    obtain ⟨l, hl⟩ : ∃ l, (ringLines ir.2)[(j + i) % (ringLines ir.2).length]? = some l :=
      ⟨_, List.getElem?_eq_getElem hm⟩
    refine ⟨l, hl, it0 i, ?_, ?_⟩
    · rw [it0 i]; exact rc.coords_even _ l hl
    · rw [it0 i]
      unfold Heap.destCoords
      rw [rc.twin_even _ hm]
      exact rc.coords_odd _ l hl
  · intro hx1 i
    subst hx1
    obtain ⟨m, hm, hmi, hit⟩ := it1 i
    obtain ⟨l, hl⟩ : ∃ l, (ringLines ir.2)[m]? = some l := ⟨_, List.getElem?_eq_getElem hm⟩
    refine ⟨m, l, hmi, hl, hit, ?_, ?_⟩
    · rw [hit]; exact rc.coords_odd _ l hl
    · rw [hit]
      unfold Heap.destCoords
      rw [rc.twin_odd _ hm]
      exact rc.coords_even _ l hl

/-! ## Consistent incidence -/

/-- The DCEL `newDCELFromPolygon` returns has consistent incidence. -/
theorem incidenceInv_of_build {infFace : Nat} {isPolyA : Bool} {done : List (Nat × List XY)}
    {h : Heap} {d : doublyConnectedEdgeList} (inv : BuildInv infFace isPolyA done h d) :
    IncidenceInv h d := by
  constructor
  · intro x hx n hn
    obtain ⟨ir, -, L, eF, -, -, rc, b3, b4, -⟩ := inv.blocks x hx
    obtain ⟨j, hj, rfl | rfl⟩ := block_parity b3 b4
    · have hk : 0 < (ringLines ir.2).length := by omega
      rw [rc.next_even j hj] at hn
      obtain rfl := Option.some.inj hn
      rw [rc.incident_even j hj, rc.incident_even _ (Nat.mod_lt _ hk)]
    · have hk : 0 < (ringLines ir.2).length := by omega
      rw [rc.next_odd j hj] at hn
      obtain rfl := Option.some.inj hn
      rw [rc.incident_odd j hj, rc.incident_odd _ (Nat.mod_lt _ hk)]
  · intro f hf
    rw [inv.faces, List.mem_range'_1] at hf
    have hlt : f < h.faceRecords.length := by rw [inv.faceLen]; omega
    exact ⟨_, List.getElem?_eq_getElem hlt, inv.comps f _ hf.1 (List.getElem?_eq_getElem hlt)⟩

/-- An edge split keeps the incidence consistent. -/
theorem incidenceInv_split {h : Heap} {d : doublyConnectedEdgeList} (inv : SplitInv h d)
    (inc : IncidenceInv h d) {e cut : Nat} (he : e ∈ d.halfEdges)
    (hc : cut < h.vertexRecords.length) {h2 : Heap} {d2 : doublyConnectedEdgeList}
    (hs : reNodeEdge h d e cut = some (h2, d2)) : IncidenceInv h2 d2 := by
  obtain ⟨t, n, p, nt, pt, dv, ⟨ht, hn, hp, hnt, hpt⟩,
    ⟨a1, a2, a3, a4, a5, a6, a7, a8, a9, a10, a11, a12, a13⟩,
    ⟨d1, d2', d3, d4, d5, d6, d7, d8⟩, hdv⟩ := inv.around he
  obtain ⟨h3, r1, rf, -, -, rl, -, N, -, -, I⟩ := reNodeEdge_fields inv he hc a1 a2 a4 a6
  rw [hs] at r1
  obtain ⟨rfl, rfl⟩ := Prod.mk.inj (Option.some.inj r1)
  have lt : ∀ x ∈ d.halfEdges, x < h.halfEdgeRecords.length := inv.lt_length
  have Iold : ∀ x ∈ d.halfEdges, h2.incidentOf x = h.incidentOf x := by
    intro x hx
    have := lt x hx
    rw [I, if_neg (by omega), if_neg (by omega)]
  constructor
  · intro x hx m hm
    have hx2 : x ∈ d.halfEdges ∨ x = h.halfEdgeRecords.length ∨
        x = h.halfEdgeRecords.length + 1 := by
      have : x ∈ d.halfEdges ++ [h.halfEdgeRecords.length, h.halfEdgeRecords.length + 1] := hx
      simpa [List.mem_append] using this
    rw [N] at hm
    by_cases x1 : x = h.halfEdgeRecords.length
    · rw [if_pos x1] at hm
      obtain rfl := Option.some.inj hm
      rw [Iold _ hn, x1, I, if_pos rfl]
      exact inc.step e he _ a2
    · rw [if_neg x1] at hm
      by_cases x2 : x = h.halfEdgeRecords.length + 1
      · rw [if_pos x2] at hm
        obtain rfl := Option.some.inj hm
        rw [Iold _ ht, x2, I, if_neg (by omega), if_pos rfl]
      · rw [if_neg x2] at hm
        have hxd : x ∈ d.halfEdges := by
          rcases hx2 with g | g | g
          · exact g
          · exact absurd g x1
          · exact absurd g x2
        by_cases x3 : x = nt
        · rw [if_pos x3] at hm
          obtain rfl := Option.some.inj hm
          rw [I, if_neg (by omega), if_pos rfl, Iold _ hxd, x3]
          exact inc.step nt hnt _ a9
        · rw [if_neg x3] at hm
          by_cases x4 : x = e
          · rw [if_pos x4] at hm
            obtain rfl := Option.some.inj hm
            rw [I, if_pos rfl, Iold _ hxd, x4]
          · rw [if_neg x4] at hm
            obtain ⟨m2, hm2, hm3⟩ := inv.next_mem x hxd
            rw [hm] at hm3
            obtain rfl := Option.some.inj hm3
            rw [Iold _ hm2, Iold _ hxd]
            exact inc.step x hxd _ hm
  · intro f hf
    obtain ⟨fr, g1, g2⟩ := inc.comps f hf
    refine ⟨fr, by rw [rf]; exact g1, fun x hx => ?_⟩
    obtain ⟨m1, m2⟩ := g2 x hx
    exact ⟨List.mem_append_left _ m1, (Iold x m1).trans m2⟩

/-- Every DCEL obtained from `newDCELFromPolygon` by edge splits has consistent
incidence. -/
theorem SplitReachable.incidence {h : Heap} {d : doublyConnectedEdgeList}
    (hr : SplitReachable h d) : IncidenceInv h d := by
  induction hr with
  | construct h0 poly isPolyA h d hc he =>
    obtain ⟨h2, d2, e2, inv, -⟩ := newDCELFromPolygon_build h0 poly isPolyA
    rw [he] at e2
    obtain ⟨rfl, rfl⟩ := Prod.mk.inj (Option.some.inj e2)
    exact incidenceInv_of_build inv
  | split h d e cut h2 d2 hr0 he hc hs ih =>
    exact incidenceInv_split hr0.inv ih he hc hs
  | vertex h d r vs _ ih =>
    exact ⟨fun e he n hn => ih.step e he n hn, fun f hf => ih.comps f hf⟩

/-- C23: in every DCEL obtained from `newDCELFromPolygon` (on a polygon with closed
rings) by any number of edge splits with `reNodeEdge`, every face of the face list
has a record, and each of its components, the outer one and every inner one, is a
half-edge of the DCEL all of whose `next`-successors have that face as incident
face; and from every half-edge of the DCEL, every `next`-successor is again a
half-edge of the DCEL, with a `next` that is not nil and with the same incident
face. -/
theorem C23_face_incidence (h : Heap) (d : doublyConnectedEdgeList)
    (hr : SplitReachable h d) :
    (∀ f ∈ d.faces, ∃ fr, h.faceRecords[f]? = some fr ∧
      ∀ x, (fr.outerComponent = some x ∨ x ∈ fr.innerComponents) →
        x ∈ d.halfEdges ∧ ∀ i, h.incidentOf (h.nextD^[i] x) = some f) ∧
    (∀ e ∈ d.halfEdges, ∀ i, h.nextD^[i] e ∈ d.halfEdges ∧
      h.nextOf (h.nextD^[i] e) = some (h.nextD^[i + 1] e) ∧
      h.incidentOf (h.nextD^[i] e) = h.incidentOf e) := by
  have inc := hr.incidence
  have inv := hr.inv
  have walk : ∀ e ∈ d.halfEdges, ∀ i, h.nextD^[i] e ∈ d.halfEdges ∧
      h.nextOf (h.nextD^[i] e) = some (h.nextD^[i + 1] e) ∧
      h.incidentOf (h.nextD^[i] e) = h.incidentOf e := by
    intro e he i
    induction i with
    | zero =>
      obtain ⟨n, -, hn⟩ := inv.next_mem e he
      refine ⟨he, ?_, rfl⟩
      rw [Function.iterate_zero, id_eq, Function.iterate_succ_apply', Function.iterate_zero,
        id_eq, nextD_of_some hn, hn]
    | succ i ih =>
      obtain ⟨m1, m2, m3⟩ := ih
      have hmem : h.nextD^[i + 1] e ∈ d.halfEdges := by
        obtain ⟨n, hn, hn2⟩ := inv.next_mem _ m1
        rw [m2] at hn2
        rw [Option.some.inj hn2]
        exact hn
      obtain ⟨n, -, hn⟩ := inv.next_mem _ hmem
      refine ⟨hmem, ?_, ?_⟩
      · rw [Function.iterate_succ_apply' h.nextD (i + 1), nextD_of_some hn, hn]
      · rw [inc.step _ m1 _ m2, m3]
  refine ⟨fun f hf => ?_, walk⟩
  obtain ⟨fr, g1, g2⟩ := inc.comps f hf
  refine ⟨fr, g1, fun x hx => ?_⟩
  obtain ⟨m1, m2⟩ := g2 x hx
  exact ⟨m1, fun i => ((walk x m1 i).2.2).trans m2⟩

/-- C23 at the unit square after one edge split: the first half-edge is split at
the vertex record 2. -/
theorem C23_face_incidence_witness :
    ∃ h d h2 d2, newDCELFromPolygon Heap.empty unitSquare true = some (h, d) ∧
      reNodeEdge h d 0 2 = some (h2, d2) ∧ SplitReachable h2 d2 ∧
      (∀ f ∈ d2.faces, ∃ fr, h2.faceRecords[f]? = some fr ∧
        ∀ x, (fr.outerComponent = some x ∨ x ∈ fr.innerComponents) →
          x ∈ d2.halfEdges ∧ ∀ i, h2.incidentOf (h2.nextD^[i] x) = some f) ∧
      (∀ e ∈ d2.halfEdges, ∀ i, h2.nextD^[i] e ∈ d2.halfEdges ∧
        h2.nextOf (h2.nextD^[i] e) = some (h2.nextD^[i + 1] e) ∧
        h2.incidentOf (h2.nextD^[i] e) = h2.incidentOf e) := by
  obtain ⟨h, d, e, -, -⟩ := newDCELFromPolygon_inv Heap.empty unitSquare true unitSquare_closed
  have hf := unitSquare_dcel_facts
  rw [e] at hf
  simp only [Option.all_some, Bool.and_eq_true, decide_eq_true_eq] at hf
  have hr : SplitReachable h d :=
    SplitReachable.construct Heap.empty unitSquare true h d unitSquare_closed e
  obtain ⟨h2, r, -⟩ := reNodeEdge_preserves hr.inv hf.1 hf.2
  have hr2 := SplitReachable.split h d 0 2 h2 _ hr hf.1 hf.2 r
  exact ⟨h, d, h2, _, e, r, hr2, C23_face_incidence h2 _ hr2⟩

/-! ## Claims on labels and the mirror law -/

/-- C32: for every polygon and either label, `newDCELFromPolygon` returns a DCEL
whose faces are the fresh pointers `F, F + 1, …`; the second one, `F + 1`, is the
polygon face: every half-edge has it as incident face or its twin has; its record
has `labelA = isPolyA` and `labelB = !isPolyA`. Every other face of the list, the
unbounded face `F` (whose `outerComponent` is nil) and the face of each interior
ring, has both labels false. -/
theorem C32_newDCEL_labels (h0 : Heap) (poly : Polygon) (isPolyA : Bool) :
    ∃ h d, newDCELFromPolygon h0 poly isPolyA = some (h, d) ∧
      d.faces = List.range' h0.faceRecords.length (2 + poly.interiors.length) ∧
      (∀ e ∈ d.halfEdges, h.incidentOf e = some (h0.faceRecords.length + 1) ∨
        (h.twinOf e).bind h.incidentOf = some (h0.faceRecords.length + 1)) ∧
      (∃ fr, h.faceRecords[h0.faceRecords.length + 1]? = some fr ∧ fr.labelA = isPolyA ∧
        fr.labelB = !isPolyA) ∧
      (∃ fr, h.faceRecords[h0.faceRecords.length]? = some fr ∧ fr.outerComponent = none ∧
        fr.labelA = false ∧ fr.labelB = false) ∧
      (∀ f ∈ d.faces, f ≠ h0.faceRecords.length + 1 →
        ∃ fr, h.faceRecords[f]? = some fr ∧ fr.labelA = false ∧ fr.labelB = false) := by
  obtain ⟨h, d, e, inv, -⟩ := newDCELFromPolygon_build h0 poly isPolyA
  have hc : ((poly.ForceCCW.exterior :: poly.ForceCCW.interiors).enum).countP
      (fun ir => decide (0 < ir.1)) = poly.interiors.length := by
    rw [countP_rings, forceCCW_interiors_length]
  have hfaces := inv.faces
  have hlen := inv.faceLen
  rw [hc] at hfaces hlen
  refine ⟨h, d, e, hfaces, ?_, inv.poly_rec, inv.inf_rec, ?_⟩
  · intro x hx
    obtain ⟨ir, -, L, eF, -, -, rc, b3, b4, -⟩ := inv.blocks x hx
    obtain ⟨j, hj, rfl | rfl⟩ := block_parity b3 b4
    · exact Or.inl (rc.incident_even j hj)
    · right
      rw [rc.twin_odd j hj]
      exact rc.incident_even j hj
  · intro f hf hne
    rw [hfaces, List.mem_range'_1] at hf
    by_cases h0f : f = h0.faceRecords.length
    · subst h0f
      obtain ⟨fr, g, -, la, lb⟩ := inv.inf_rec
      exact ⟨fr, g, la, lb⟩
    · exact inv.hole_rec f (by omega) (by omega)

/-- C39: in every DCEL obtained from `newDCELFromPolygon` (on a polygon with closed
rings) by any number of `reNodeEdge` calls, every half-edge `e` has
`e.twin.prev = e.next.twin` and `e.twin.next = e.prev.twin`, none of these
pointers nil; a further `reNodeEdge(e, cut)` returns a DCEL in which the same
holds of every half-edge, the two new ones included, and there the `prev` of the
new twin is the old `next.twin`, whose `next` is the new twin. -/
theorem C39_ring_mirror (h : Heap) (d : doublyConnectedEdgeList) (hr : SplitReachable h d) :
    (∀ e ∈ d.halfEdges, ∃ t n p nt pt, h.twinOf e = some t ∧ h.nextOf e = some n ∧
      h.prevOf e = some p ∧ h.twinOf n = some nt ∧ h.twinOf p = some pt ∧
      h.prevOf t = some nt ∧ h.nextOf t = some pt) ∧
    (∀ e ∈ d.halfEdges, ∀ cut, cut < h.vertexRecords.length →
      ∃ h2 d2 n nt, reNodeEdge h d e cut = some (h2, d2) ∧
        d2.halfEdges = d.halfEdges ++ [h.halfEdgeRecords.length, h.halfEdgeRecords.length + 1] ∧
        h.nextOf e = some n ∧ h.twinOf n = some nt ∧
        h2.prevOf (h.halfEdgeRecords.length + 1) = some nt ∧
        h2.nextOf nt = some (h.halfEdgeRecords.length + 1) ∧
        ∀ x ∈ d2.halfEdges, ∃ t2 n2 p2 nt2 pt2, h2.twinOf x = some t2 ∧
          h2.nextOf x = some n2 ∧ h2.prevOf x = some p2 ∧ h2.twinOf n2 = some nt2 ∧
          h2.twinOf p2 = some pt2 ∧ h2.prevOf t2 = some nt2 ∧ h2.nextOf t2 = some pt2) := by
  have law : ∀ (g : Heap) (c : doublyConnectedEdgeList), SplitInv g c →
      ∀ x ∈ c.halfEdges, ∃ t n p nt pt, g.twinOf x = some t ∧ g.nextOf x = some n ∧
        g.prevOf x = some p ∧ g.twinOf n = some nt ∧ g.twinOf p = some pt ∧
        g.prevOf t = some nt ∧ g.nextOf t = some pt := by
    intro g c inv x hx
    obtain ⟨t, n, p, nt, pt, dv, -, ⟨a1, a2, a3, a4, a5, a6, a7, a8, a9, a10, a11, a12, a13⟩,
      -, -⟩ := inv.around hx
    exact ⟨t, n, p, nt, pt, a1, a2, a3, a4, a5, a8,
      (inv.mirror x t p hx a1 a3).trans a5⟩
  have inv := hr.inv
  refine ⟨law h d inv, fun e he cut hc => ?_⟩
  obtain ⟨t, n, p, nt, pt, dv, ⟨ht, hn, hp, hnt, hpt⟩,
    ⟨a1, a2, a3, a4, a5, a6, a7, a8, a9, a10, a11, a12, a13⟩,
    ⟨d1, d2, d3, d4, d5, d6, d7, d8⟩, hdv⟩ := inv.around he
  obtain ⟨h2, r1, -, -, -, rl, T, N, P, O, I⟩ := reNodeEdge_fields inv he hc a1 a2 a4 a6
  obtain ⟨h3, r3, inv3⟩ := reNodeEdge_preserves inv he hc
  rw [r1] at r3
  obtain rfl : h2 = h3 := (Prod.mk.inj (Option.some.inj r3)).1
  have lnt := inv.lt_length nt hnt
  refine ⟨h2, _, n, nt, r1, rfl, a2, a4, ?_, ?_, law h2 _ inv3⟩
  · rw [P, if_neg (by omega), if_pos rfl]
  · rw [N, if_neg (by omega), if_neg (by omega), if_pos rfl]

theorem unitSquare_split_facts :
    ((newDCELFromPolygon Heap.empty unitSquare true).all
      (fun s => decide (0 ∈ s.2.halfEdges) && decide (2 < s.1.vertexRecords.length) &&
        decide (s.2.halfEdges.length = 8))) = true := by
  with_unfolding_all decide

/-- C39 at the unit square after one edge split: the first half-edge is split at
the vertex record 2, and the law is read off the eight old and two new
half-edges. -/
theorem C39_ring_mirror_witness :
    ∃ h d h2 d2, newDCELFromPolygon Heap.empty unitSquare true = some (h, d) ∧
      reNodeEdge h d 0 2 = some (h2, d2) ∧ SplitReachable h2 d2 ∧
      d2.halfEdges.length = 10 ∧
      (∀ e ∈ d2.halfEdges, ∃ t n p nt pt, h2.twinOf e = some t ∧ h2.nextOf e = some n ∧
        h2.prevOf e = some p ∧ h2.twinOf n = some nt ∧ h2.twinOf p = some pt ∧
        h2.prevOf t = some nt ∧ h2.nextOf t = some pt) := by
  obtain ⟨h, d, e, -, -⟩ := newDCELFromPolygon_inv Heap.empty unitSquare true unitSquare_closed
  have hf := unitSquare_split_facts
  rw [e] at hf
  simp only [Option.all_some, Bool.and_eq_true, decide_eq_true_eq] at hf
  have hr : SplitReachable h d :=
    SplitReachable.construct Heap.empty unitSquare true h d unitSquare_closed e
  obtain ⟨h2, r, -⟩ := reNodeEdge_preserves hr.inv hf.1.1 hf.1.2
  have hr2 := SplitReachable.split h d 0 2 h2 _ hr hf.1.1 hf.1.2 r
  refine ⟨h, d, h2, _, e, r, hr2, ?_, (C39_ring_mirror h2 _ hr2).1⟩
  show (d.halfEdges ++ [_, _]).length = 10
  rw [List.length_append, hf.2]
  rfl

/-! ## The disjoint edge set -/

theorem findSetIndex_eq_some {sets : List (List (Option Nat))} {e : Option Nat} {i : Nat} :
    findSetIndex sets e = some i ↔ occurrenceIndices sets e = [i] := by
  unfold findSetIndex
  show (match occurrenceIndices sets e with | [i] => some i | _ => none) = some i ↔ _
  generalize occurrenceIndices sets e = l
  cases l with
  | nil => simp
  | cons a t =>
    cases t with
    | nil => simp
    | cons b t2 => simp

theorem findSetIndex_eq_none {sets : List (List (Option Nat))} {e : Option Nat}
    (h : occurrenceIndices sets e = []) : findSetIndex sets e = none := by
  unfold findSetIndex
  show (match occurrenceIndices sets e with | [i] => some i | _ => none) = none
  rw [h]

theorem mem_occurrenceIndices {sets : List (List (Option Nat))} {e : Option Nat} {k : Nat} :
    k ∈ occurrenceIndices sets e ↔ ∃ S, sets[k]? = some S ∧ e ∈ S := by
  unfold occurrenceIndices
  simp only [List.mem_flatMap, List.mem_map, List.mem_filter, decide_eq_true_eq]
  constructor
  · rintro ⟨⟨i, S⟩, hp, x, ⟨hx, hxe⟩, rfl⟩
    exact ⟨S, List.mk_mem_enum_iff_getElem?.mp hp, hxe ▸ hx⟩
  · rintro ⟨S, hS, he⟩
    exact ⟨(k, S), List.mk_mem_enum_iff_getElem?.mpr hS, e, ⟨he, rfl⟩, rfl⟩

theorem length_occurrences_from (e : Option Nat) :
    ∀ (sets : List (List (Option Nat))) (n : Nat),
      ((sets.enumFrom n).flatMap
        (fun p => (p.2.filter (fun x => decide (x = e))).map (fun _ => p.1))).length =
      (sets.flatten.filter (fun x => decide (x = e))).length := by
  intro sets
  induction sets with
  | nil => intro n; rfl
  | cons S rest ih =>
    intro n
    rw [List.enumFrom_cons, List.flatMap_cons, List.length_append, ih (n + 1),
      List.flatten_cons, List.filter_append, List.length_append, List.length_map]

theorem length_occurrenceIndices (sets : List (List (Option Nat))) (e : Option Nat) :
    (occurrenceIndices sets e).length =
      (sets.flatten.filter (fun x => decide (x = e))).length :=
  length_occurrences_from e sets 0

theorem length_filter_eq_one {e : Option Nat} :
    ∀ (l : List (Option Nat)), l.Nodup → e ∈ l →
      (l.filter (fun x => decide (x = e))).length = 1 := by
  intro l
  induction l with
  | nil => intro _ he; simp at he
  | cons a t ih =>
    intro hn he
    obtain ⟨hat, hnt⟩ := List.nodup_cons.mp hn
    by_cases hae : a = e
    · subst hae
      have hnil : t.filter (fun x => decide (x = a)) = [] := by
        apply List.filter_eq_nil_iff.mpr
        intro x hx
        simp only [decide_eq_true_eq]
        intro hxa
        exact hat (hxa ▸ hx)
      rw [List.filter_cons_of_pos (by simp), hnil]
      rfl
    · rw [List.filter_cons_of_neg (by simpa using hae)]
      rcases List.mem_cons.mp he with h1 | h1
      · exact absurd h1.symm hae
      · exact ih hnt h1

/-- Where no element occurs twice, `union` finds the index of the set of `e`. -/
theorem findSetIndex_of_nodup {sets : List (List (Option Nat))} {e : Option Nat} {i : Nat}
    {S : List (Option Nat)} (hn : sets.flatten.Nodup) (hS : sets[i]? = some S) (he : e ∈ S) :
    findSetIndex sets e = some i := by
  rw [findSetIndex_eq_some]
  have hmem : i ∈ occurrenceIndices sets e := mem_occurrenceIndices.mpr ⟨S, hS, he⟩
  have hfl : e ∈ sets.flatten := List.mem_flatten.mpr ⟨S, List.getElem?_mem hS, he⟩
  have hlen : (occurrenceIndices sets e).length = 1 := by
    rw [length_occurrenceIndices]
    exact length_filter_eq_one _ hn hfl
  obtain ⟨a, ha⟩ := List.length_eq_one.mp hlen
  rw [ha] at hmem ⊢
  rw [List.mem_singleton.mp hmem]

theorem swapSets_some {sets : List (List (Option Nat))} {i j : Nat} (hi : i < sets.length)
    (hj : j < sets.length) : ∃ s2, swapSets sets i j = some s2 := by
  unfold swapSets
  rw [List.getElem?_eq_getElem hi, List.getElem?_eq_getElem hj]
  exact ⟨_, rfl⟩

/-- What `union` returns when it returns: the two sets it found, joined, after the
other sets. -/
theorem union_struct {sets r : List (List (Option Nat))} {e1 e2 : Option Nat}
    (h : disjointEdgeSet.union sets e1 e2 = some r) :
    ∃ i j S1 S2 rest, findSetIndex sets e1 = some i ∧ findSetIndex sets e2 = some j ∧ i ≠ j ∧
      sets[i]? = some S1 ∧ sets[j]? = some S2 ∧ r = rest ++ [S1 ++ S2] ∧
      (rest ++ [S2, S1]).Perm sets := by
  simp only [disjointEdgeSet.union, Option.bind_eq_bind, Option.bind_eq_some] at h
  obtain ⟨idx1, f1, idx2, f2, h⟩ := h
  by_cases hne : idx1 = idx2
  · rw [if_pos hne] at h; exact Option.noConfusion h
  · rw [if_neg hne] at h
    simp only [Option.bind_eq_bind, Option.bind_eq_some, Option.pure_def,
      Option.some.injEq] at h
    obtain ⟨set1, h1, set2, h2, sets1, hs1, sets2, hs2, rfl⟩ := h
    have l1 := lt_length_of_getElem?_eq_some h1
    have l2 := lt_length_of_getElem?_eq_some h2
    obtain ⟨a, b, ha, hb, p1, n1, j1, i1, o1⟩ := swapSets_spec hs1
    rw [h1] at ha
    obtain rfl := Option.some.inj ha
    obtain ⟨a2, b2, ha2, hb2, p2, n2, j2, i2, o2⟩ := swapSets_spec hs2
    have hset2 : a2 = set2 := by
      by_cases hx : idx2 = sets.length - 1
      · rw [if_pos hx] at ha2
        rw [i1 (by omega)] at ha2
        rw [← hx, h2] at hb
        exact (Option.some.inj ha2).symm.trans (Option.some.inj hb).symm
      · rw [if_neg hx] at ha2
        rw [o1 idx2 (Ne.symm hne) hx, h2] at ha2
        exact (Option.some.inj ha2).symm
    subst hset2
    have hidx : (if idx2 = sets.length - 1 then idx1 else idx2) ≠ sets.length - 1 := by
      by_cases hx : idx2 = sets.length - 1
      · rw [if_pos hx]; omega
      · rw [if_neg hx]; exact hx
    have hlast : sets2[sets2.length - 1]? = some set1 := by
      rw [n2, n1, o2 _ (Ne.symm hidx) (by omega)]
      exact j1
    have hprev : sets2[sets2.length - 2]? = some a2 := by
      rw [n2, n1]; exact j2
    have hdec := eq_take_append_two sets2 set1 a2 (by rw [n2, n1]; omega) hprev hlast
    have hlen : sets2.length = sets.length := by rw [n2, n1]
    rw [hlen] at hdec
    refine ⟨idx1, idx2, set1, a2, List.take (sets.length - 2) sets2, f1, f2, hne, h1, h2, rfl, ?_⟩
    rw [← hdec]
    exact p2.trans p1

/-- C33: `union(e1, e2)` on the sets of a disjoint edge set. Where no element
occurs twice and `e1`, `e2` lie in the sets `S1`, `S2` at two different indices, the
call returns, and the new list of sets is the other sets, each as it was, followed
by the one set `S1 ++ S2`: one set fewer, over the same elements, again without
repetition. The call panics where `e1` is in no set, where `e2` is in no set, and
where one set holds both (so also for `e1 = e2`). `addSingleton(e)` appends the
set `[e]`. -/
theorem C33_union (sets : List (List (Option Nat))) (e1 e2 : Option Nat) :
    (sets.flatten.Nodup → ∀ (i j : Nat) S1 S2, sets[i]? = some S1 → sets[j]? = some S2 → i ≠ j →
      e1 ∈ S1 → e2 ∈ S2 →
      ∃ rest, disjointEdgeSet.union sets e1 e2 = some (rest ++ [S1 ++ S2]) ∧
        (S1 :: S2 :: rest).Perm sets ∧ (rest ++ [S1 ++ S2]).length + 1 = sets.length ∧
        (rest ++ [S1 ++ S2]).flatten.Perm sets.flatten ∧
        (rest ++ [S1 ++ S2]).flatten.Nodup) ∧
    ((∀ S ∈ sets, e1 ∉ S) → disjointEdgeSet.union sets e1 e2 = none) ∧
    ((∀ S ∈ sets, e2 ∉ S) → disjointEdgeSet.union sets e1 e2 = none) ∧
    ((∃ S ∈ sets, e1 ∈ S ∧ e2 ∈ S) → disjointEdgeSet.union sets e1 e2 = none) ∧
    (∀ e, disjointEdgeSet.addSingleton sets e = sets ++ [[e]] ∧
      (disjointEdgeSet.addSingleton sets e).length = sets.length + 1) := by
  have absent : ∀ e, (∀ S ∈ sets, e ∉ S) → findSetIndex sets e = none := by
    intro e he
    apply findSetIndex_eq_none
    apply List.eq_nil_iff_forall_not_mem.mpr
    intro k hk
    obtain ⟨S, hS, hm⟩ := mem_occurrenceIndices.mp hk
    exact he S (List.getElem?_mem hS) hm
  refine ⟨?_, ?_, ?_, ?_, fun e => ⟨rfl, by simp [disjointEdgeSet.addSingleton]⟩⟩
  · intro hn i j S1 S2 hS1 hS2 hij h1 h2
    have f1 := findSetIndex_of_nodup hn hS1 h1
    have f2 := findSetIndex_of_nodup hn hS2 h2
    have li := lt_length_of_getElem?_eq_some hS1
    have lj := lt_length_of_getElem?_eq_some hS2
    obtain ⟨sets1, hs1⟩ := swapSets_some li (show sets.length - 1 < sets.length by omega)
    have n1 : sets1.length = sets.length := (swapSets_spec hs1).choose_spec.choose_spec.2.2.2.1
    obtain ⟨sets2, hs2⟩ := swapSets_some
      (show (if j = sets.length - 1 then i else j) < sets1.length by
        rw [n1]; split_ifs <;> omega)
      (show sets.length - 2 < sets1.length by rw [n1]; omega)
    have hu : disjointEdgeSet.union sets e1 e2 =
        some (sets2.take (sets.length - 2) ++ [S1 ++ S2]) := by
      simp only [disjointEdgeSet.union, Option.bind_eq_bind, f1, f2, Option.some_bind,
        if_neg hij, hS1, hS2, hs1, hs2, Option.pure_def]
    obtain ⟨i2, j2, T1, T2, rest, g1, g2, -, gS1, gS2, hr, hp⟩ := union_struct hu
    obtain rfl : i = i2 := Option.some.inj (f1.symm.trans g1)
    obtain rfl : j = j2 := Option.some.inj (f2.symm.trans g2)
    obtain rfl : S1 = T1 := Option.some.inj (hS1.symm.trans gS1)
    obtain rfl : S2 = T2 := Option.some.inj (hS2.symm.trans gS2)
    have hp2 : (S1 :: S2 :: rest).Perm sets := by
      refine List.Perm.trans ?_ hp
      have : ([S2, S1] ++ rest).Perm (rest ++ [S2, S1]) := List.perm_append_comm
      exact (List.Perm.swap S2 S1 rest).trans this
    have hfl : (rest ++ [S1 ++ S2]).flatten.Perm sets.flatten := by
      rw [← hr]; exact union_perm hu
    refine ⟨rest, by rw [hu, hr], hp2, ?_, hfl, hfl.nodup_iff.mpr hn⟩
    have := hp2.length_eq
    simp only [List.length_cons, List.length_append, List.length_nil] at this ⊢
    omega
  · intro he
    simp [disjointEdgeSet.union, absent e1 he]
  · intro he
    simp only [disjointEdgeSet.union, Option.bind_eq_bind, absent e2 he]
    cases findSetIndex sets e1 <;> rfl
  · rintro ⟨S, hS, h1, h2⟩
    obtain ⟨k, hk⟩ := List.getElem?_of_mem hS
    cases f1 : findSetIndex sets e1 with
    | none => simp [disjointEdgeSet.union, f1]
    | some i =>
      cases f2 : findSetIndex sets e2 with
      | none => simp [disjointEdgeSet.union, f1, f2]
      | some j =>
        have m1 : k ∈ occurrenceIndices sets e1 := mem_occurrenceIndices.mpr ⟨S, hk, h1⟩
        have m2 : k ∈ occurrenceIndices sets e2 := mem_occurrenceIndices.mpr ⟨S, hk, h2⟩
        rw [findSetIndex_eq_some.mp f1] at m1
        rw [findSetIndex_eq_some.mp f2] at m2
        have hij : i = j := (List.mem_singleton.mp m1).symm.trans (List.mem_singleton.mp m2)
        simp [disjointEdgeSet.union, f1, f2, hij]

/-- The sets `reAssignFaces` starts from are built by `addSingleton`, for the
inner components, the outer components and nil, in that order. -/
theorem initialSets_eq_addSingleton (s : CycleScan) :
    initialSets s = (s.innerComponents.map some ++ s.outerComponents.map some ++ [none]).foldl
      disjointEdgeSet.addSingleton [] := by
  have key : ∀ (l : List (Option Nat)) (acc : List (List (Option Nat))),
      l.foldl disjointEdgeSet.addSingleton acc = acc ++ l.map (fun e => [e]) := by
    intro l
    induction l with
    | nil => intro acc; simp
    | cons a rest ih =>
      intro acc
      rw [List.foldl_cons, ih]
      simp [disjointEdgeSet.addSingleton]
  rw [key]
  simp [initialSets, List.map_append, List.map_map, Function.comp_def]

/-- C33 on the sets {1}, {2, 3}, {nil}: the union of 1 and 3 leaves {nil}, {1, 2, 3};
the union of 2 and 3, and the union of 1 and 4, panic. -/
theorem C33_union_witness :
    disjointEdgeSet.union [[some 1], [some 2, some 3], [none]] (some 1) (some 3) =
      some [[none], [some 1, some 2, some 3]] ∧
    disjointEdgeSet.union [[some 1], [some 2, some 3], [none]] (some 2) (some 3) = none ∧
    disjointEdgeSet.union [[some 1], [some 2, some 3], [none]] (some 1) (some 4) = none ∧
    ∃ rest, disjointEdgeSet.union [[some 1], [some 2, some 3], [none]] (some 1) (some 3) =
        some (rest ++ [[some 1] ++ [some 2, some 3]]) ∧
      ([some 1] :: [some 2, some 3] :: rest).Perm [[some 1], [some 2, some 3], [none]] ∧
      (rest ++ [[some 1] ++ [some 2, some 3]]).length + 1 =
        [[some 1], [some 2, some 3], [none]].length ∧
      (rest ++ [[some 1] ++ [some 2, some 3]]).flatten.Perm
        [[some 1], [some 2, some 3], [none]].flatten ∧
      (rest ++ [[some 1] ++ [some 2, some 3]]).flatten.Nodup :=
  ⟨by decide, by decide, by decide,
    (C33_union [[some 1], [some 2, some 3], [none]] (some 1) (some 3)).1 (by decide) 0 1
      [some 1] [some 2, some 3] rfl rfl (by decide) (by decide) (by decide)⟩

/-! ## The union groups of reAssignFaces -/

/-- The loop "Find all boundary cycles" files each cycle by
`edgeLoopIsOuterComponent`. -/
theorem scan_class {h : Heap} {fuel : Nat} : ∀ (l : List Nat) (s s2 : CycleScan),
    (∀ x ∈ s.innerComponents, edgeLoopIsOuterComponent h x = some false) →
    (∀ x ∈ s.outerComponents, edgeLoopIsOuterComponent h x = some true) →
    l.foldlM (scanCycle fuel h) s = some s2 →
    (∀ x ∈ s2.innerComponents, edgeLoopIsOuterComponent h x = some false) ∧
    (∀ x ∈ s2.outerComponents, edgeLoopIsOuterComponent h x = some true) := by
  intro l
  induction l with
  | nil =>
    intro s s2 hi ho hs
    obtain rfl : s = s2 := Option.some.inj hs
    exact ⟨hi, ho⟩
  | cons e rest ih =>
    intro s s2 hi ho hs
    rw [List.foldlM_cons] at hs
    cases h1 : scanCycle fuel h s e with
    | none => rw [h1] at hs; exact Option.noConfusion hs
    | some s1 =>
      rw [h1] at hs
      have hs' : rest.foldlM (scanCycle fuel h) s1 = some s2 := hs
      refine ih s1 s2 ?_ ?_ hs'
      · unfold scanCycle at h1
        by_cases he : e ∈ s.seen
        · rw [if_pos he] at h1
          obtain rfl : s = s1 := Option.some.inj h1
          exact hi
        · rw [if_neg he] at h1
          simp only [Option.bind_eq_bind, Option.bind_eq_some, Option.pure_def] at h1
          obtain ⟨ll, -, isOuter, hio, seen, -, hs2⟩ := h1
          obtain rfl := Option.some.inj hs2
          cases isOuter with
          | true => simpa using hi
          | false =>
            intro x hx
            simp only [Bool.false_eq_true, if_false, List.mem_append, List.mem_singleton] at hx
            rcases hx with hx | rfl
            · exact hi x hx
            · exact hio
      · unfold scanCycle at h1
        by_cases he : e ∈ s.seen
        · rw [if_pos he] at h1
          obtain rfl : s = s1 := Option.some.inj h1
          exact ho
        · rw [if_neg he] at h1
          simp only [Option.bind_eq_bind, Option.bind_eq_some, Option.pure_def] at h1
          obtain ⟨ll, -, isOuter, hio, seen, -, hs2⟩ := h1
          obtain rfl := Option.some.inj hs2
          cases isOuter with
          | false => simpa using ho
          | true =>
            intro x hx
            simp only [if_true, List.mem_append, List.mem_singleton] at hx
            rcases hx with hx | rfl
            · exact ho x hx
            · exact hio

/-- The components the scan has found are pairwise different. -/
theorem scan_nodup {h : Heap} {fuel : Nat} {s : CycleScan} (inv : ScanInv h fuel s) :
    (s.innerComponents ++ s.outerComponents).Nodup := by
  have hp := inv.apart
  have hl := inv.lowest
  generalize s.innerComponents ++ s.outerComponents = C at hp hl
  induction C with
  | nil => exact List.nodup_nil
  | cons a rest ih =>
    rw [List.map_cons, List.pairwise_cons] at hp
    refine List.nodup_cons.mpr ⟨?_, ih hp.2 (fun x hx => hl x (List.mem_cons_of_mem _ hx))⟩
    intro ha
    obtain ⟨L, hL, -, -⟩ := edgeLoopLeftmostLowest_spec (hl a (List.mem_cons_self _ _))
    exact hp.1 (some a) (List.mem_map.mpr ⟨a, ha, rfl⟩) a a L L a rfl rfl hL hL
      (edgeLoop_rotate hL).1 (edgeLoop_rotate hL).1

theorem length_filter_remove {α : Type} [DecidableEq α] (p : α → Bool) (a : α) :
    ∀ (S : List α), S.Nodup → a ∈ S → p a = true →
      (S.filter (fun e => p e && decide (e ≠ a))).length + 1 = (S.filter p).length := by
  intro S
  induction S with
  | nil => intro _ ha; simp at ha
  | cons b t ih =>
    intro hn ha hpa
    obtain ⟨hbt, hnt⟩ := List.nodup_cons.mp hn
    by_cases hba : b = a
    · subst hba
      have hsame : t.filter (fun e => p e && decide (e ≠ b)) = t.filter p := by
        apply List.filter_congr
        intro x hx
        have : x ≠ b := fun hxb => hbt (hxb ▸ hx)
        simp [this]
      rw [List.filter_cons_of_neg (by simp), List.filter_cons_of_pos hpa, hsame]
      rfl
    · have hat : a ∈ t := by
        rcases List.mem_cons.mp ha with h1 | h1
        · exact absurd h1.symm hba
        · exact h1
      by_cases hpb : p b = true
      · rw [List.filter_cons_of_pos (by simp [hpb, hba]), List.filter_cons_of_pos hpb,
          List.length_cons, List.length_cons, ← ih hnt hat hpa]
      · rw [List.filter_cons_of_neg (by simp [hpb]), List.filter_cons_of_neg hpb]
        exact ih hnt hat hpa

/-- Uniting one more inner component does not change the pending count of a set
that does not hold it. -/
theorem pendingCount_snoc_of_not_mem {P : List Nat} {L : Nat} {S : List (Option Nat)}
    (hL : some L ∉ S) : pendingCount (P ++ [L]) S = pendingCount P S := by
  unfold pendingCount
  congr 1
  apply List.filter_congr
  intro x hx
  have hne : x ≠ some L := fun hxl => hL (hxl ▸ hx)
  by_cases hxp : x ∈ P.map some
  · have : x ∈ (P ++ [L]).map some := by
      rw [List.map_append]; exact List.mem_append_left _ hxp
    simp [hxp, this]
  · have : x ∉ (P ++ [L]).map some := by
      rw [List.map_append, List.mem_append]
      rintro (h1 | h1)
      · exact hxp h1
      · simp at h1
        exact hne h1
    simp only [hxp, this, not_false_eq_true, decide_True]

/-- Uniting the inner component `L` lowers by one the pending count of the set that
holds it. -/
theorem pendingCount_snoc_of_mem {P : List Nat} {L : Nat} {S : List (Option Nat)}
    (hn : S.Nodup) (hL : some L ∈ S) (hP : L ∉ P) :
    pendingCount (P ++ [L]) S + 1 = pendingCount P S := by
  unfold pendingCount
  have hpa : (fun e : Option Nat => decide (e ∉ P.map some)) (some L) = true := by
    simp only [decide_eq_true_eq, List.mem_map, not_exists, not_and]
    intro x hx hxl
    exact hP (Option.some.inj hxl ▸ hx)
  rw [← length_filter_remove (fun e => decide (e ∉ P.map some)) (some L) S hn hL hpa]
  congr 2
  apply List.filter_congr
  intro x _
  by_cases hxl : x = some L
  · subst hxl
    simp
  · by_cases hxp : x ∈ P.map some
    · have : x ∈ (P ++ [L]).map some := by
        rw [List.map_append]; exact List.mem_append_left _ hxp
      simp [hxp, this]
    · have : x ∉ (P ++ [L]).map some := by
        rw [List.map_append, List.mem_append]
        rintro (h1 | h1)
        · exact hxp h1
        · simp at h1
          exact hxl h1
      simp [hxp, this, hxl]

theorem pendingCount_append (P : List Nat) (S1 S2 : List (Option Nat)) :
    pendingCount P (S1 ++ S2) = pendingCount P S1 + pendingCount P S2 := by
  unfold pendingCount
  rw [List.filter_append, List.length_append]

/-- One union of the loop over the inner components: every set keeps exactly one
element that is not an inner component already united. -/
theorem unionInner_pending {fuel : Nat} {h : Heap} {d : doublyConnectedEdgeList}
    {sets r : List (List (Option Nat))} {P : List Nat} {L : Nat}
    (hn : sets.flatten.Nodup) (hP : L ∉ P) (hw : ∀ S ∈ sets, pendingCount P S = 1)
    (hu : unionInner fuel h d sets L = some r) :
    r.flatten.Nodup ∧ (∀ S ∈ r, pendingCount (P ++ [L]) S = 1) ∧
      r.length + 1 = sets.length := by
  have hu2 : ∃ nl, disjointEdgeSet.union sets (some L) nl = some r := by
    unfold unionInner at hu
    cases hnd : findNextDownEdgeToTheLeft h d L with
    | none => rw [hnd] at hu; exact Option.noConfusion hu
    | some nl =>
      rw [hnd] at hu
      simp only [Option.bind_eq_bind, Option.some_bind] at hu
      cases nl with
      | none => exact ⟨none, hu⟩
      | some e =>
        simp only [Option.bind_eq_some] at hu
        obtain ⟨nl2, -, hu3⟩ := hu
        exact ⟨nl2, hu3⟩
  obtain ⟨nl, hnl⟩ := hu2
  obtain ⟨i, j, S1, S2, rest, f1, f2, hij, hS1, hS2, rfl, hp⟩ := union_struct hnl
  have hmem1 : some L ∈ S1 := by
    have : i ∈ occurrenceIndices sets (some L) := by
      rw [findSetIndex_eq_some.mp f1]; exact List.mem_singleton.mpr rfl
    obtain ⟨S, hS, hm⟩ := mem_occurrenceIndices.mp this
    rw [hS1] at hS
    exact (Option.some.inj hS) ▸ hm
  have hn2 : (rest ++ [S2, S1]).flatten.Nodup := (hp.flatten).nodup_iff.mpr hn
  have hn3 : (rest.flatten ++ (S2 ++ S1)).Nodup := by
    simpa [List.flatten_append] using hn2
  have hnr := (List.nodup_append.mp hn3)
  have hn21 := List.nodup_append.mp hnr.2.1
  have hmemsets : ∀ S, S ∈ rest ++ [S2, S1] ↔ S ∈ sets := fun S => hp.mem_iff
  have hrest : ∀ S ∈ rest, some L ∉ S := by
    intro S hS hm
    exact hnr.2.2 (List.mem_flatten.mpr ⟨S, hS, hm⟩) (List.mem_append_right _ hmem1)
  have hS2L : some L ∉ S2 := fun hm => hn21.2.2 hm hmem1
  refine ⟨(union_perm hnl).nodup_iff.mpr hn, ?_, ?_⟩
  · intro S hS
    rcases List.mem_append.mp hS with h1 | h1
    · rw [pendingCount_snoc_of_not_mem (hrest S h1)]
      exact hw S ((hmemsets S).mp (List.mem_append_left _ h1))
    · obtain rfl := List.mem_singleton.mp h1
      have w1 := hw S1 ((hmemsets S1).mp (by simp))
      have w2 := hw S2 ((hmemsets S2).mp (by simp))
      have a1 := pendingCount_snoc_of_mem (P := P) hn21.2.1 hmem1 hP
      have a2 := pendingCount_snoc_of_not_mem (P := P) hS2L
      rw [pendingCount_append, a2, w2]
      omega
  · have := hp.length_eq
    simp only [List.length_append, List.length_cons, List.length_nil] at this ⊢
    omega

/-- The loop of the unions: in the end every set holds exactly one element that is
not an inner component, and there is one set fewer for each inner component. -/
theorem unions_pending {fuel : Nat} {h : Heap} {d : doublyConnectedEdgeList} :
    ∀ (R : List Nat) (P : List Nat) (sets r : List (List (Option Nat))),
      sets.flatten.Nodup → (P ++ R).Nodup → (∀ S ∈ sets, pendingCount P S = 1) →
      R.foldlM (unionInner fuel h d) sets = some r →
      r.flatten.Nodup ∧ (∀ S ∈ r, pendingCount (P ++ R) S = 1) ∧
        r.length + R.length = sets.length := by
  intro R
  induction R with
  | nil =>
    intro P sets r hn _ hw hr
    obtain rfl : sets = r := Option.some.inj hr
    exact ⟨hn, by simpa using hw, rfl⟩
  | cons L rest ih =>
    intro P sets r hn hPR hw hr
    rw [List.foldlM_cons] at hr
    cases h1 : unionInner fuel h d sets L with
    | none => rw [h1] at hr; exact Option.noConfusion hr
    | some s1 =>
      rw [h1] at hr
      have hr' : rest.foldlM (unionInner fuel h d) s1 = some r := hr
      have hLP : L ∉ P := by
        intro hm
        have := List.nodup_append.mp hPR
        exact this.2.2 hm (List.mem_cons_self _ _)
      obtain ⟨n1, w1, l1⟩ := unionInner_pending hn hLP hw h1
      have hPR2 : ((P ++ [L]) ++ rest).Nodup := by
        rw [List.append_assoc, List.singleton_append]; exact hPR
      obtain ⟨n2, w2, l2⟩ := ih (P ++ [L]) s1 r n1 hPR2 w1 hr'
      refine ⟨n2, ?_, ?_⟩
      · rw [List.append_assoc, List.singleton_append] at w2
        exact w2
      · rw [List.length_cons]; omega

/-- The sets after the unions: no element occurs twice, there is one set more than
outer cycles, every set holds exactly one element that is nil or an outer cycle,
and every other element is an inner cycle. -/
theorem unions_one_outer {fuel : Nat} {h : Heap} {d : doublyConnectedEdgeList}
    {scan : CycleScan} {sets : List (List (Option Nat))}
    (hscan : d.halfEdges.foldlM (scanCycle fuel h) ⟨[], [], []⟩ = some scan)
    (hun : scan.innerComponents.foldlM (unionInner fuel h d) (initialSets scan) = some sets) :
    ScanInv h fuel scan ∧
    (∀ x ∈ scan.innerComponents, edgeLoopIsOuterComponent h x = some false) ∧
    (∀ x ∈ scan.outerComponents, edgeLoopIsOuterComponent h x = some true) ∧
    sets.flatten.Nodup ∧ sets.length = scan.outerComponents.length + 1 ∧
    (∀ S ∈ sets, (S.filter (isOuterOrNil h)).length = 1) ∧
    sets.flatten.Perm ((scan.innerComponents ++ scan.outerComponents).map some ++ [none]) := by
  obtain ⟨inv, -, -⟩ := scan_spec d.halfEdges ⟨[], [], []⟩ scan (scanInv_empty h fuel) hscan
  obtain ⟨ci, co⟩ := scan_class d.halfEdges ⟨[], [], []⟩ scan
    (fun x hx => absurd hx (List.not_mem_nil x)) (fun x hx => absurd hx (List.not_mem_nil x))
    hscan
  have hnd := scan_nodup inv
  have hinit : (initialSets scan).flatten.Nodup := by
    rw [initialSets_flatten]
    apply List.nodup_append.mpr
    refine ⟨hnd.map (fun a b hab => Option.some.inj hab), List.nodup_singleton _, ?_⟩
    intro e he hn
    obtain rfl := List.mem_singleton.mp hn
    simp at he
  have hw0 : ∀ S ∈ initialSets scan, pendingCount [] S = 1 := by
    intro S hS
    have : ∃ e, S = [e] := by
      unfold initialSets at hS
      simp only [List.mem_append, List.mem_map, List.mem_singleton] at hS
      rcases hS with (⟨a, -, rfl⟩ | ⟨a, -, rfl⟩) | rfl
      · exact ⟨_, rfl⟩
      · exact ⟨_, rfl⟩
      · exact ⟨_, rfl⟩
    obtain ⟨e, rfl⟩ := this
    simp [pendingCount]
  have hni : scan.innerComponents.Nodup := (List.nodup_append.mp hnd).1
  obtain ⟨n2, w2, l2⟩ := unions_pending scan.innerComponents [] (initialSets scan) sets hinit
    (by simpa using hni) hw0 hun
  simp only [List.nil_append] at w2
  have hperm : sets.flatten.Perm
      ((scan.innerComponents ++ scan.outerComponents).map some ++ [none]) := by
    rw [← initialSets_flatten]
    exact unions_perm _ _ _ hun
  refine ⟨inv, ci, co, n2, ?_, ?_, hperm⟩
  · have : (initialSets scan).length =
        scan.innerComponents.length + scan.outerComponents.length + 1 := by
      simp [initialSets]
      omega
    omega
  · intro S hS
    rw [← w2 S hS]
    unfold pendingCount
    congr 1
    apply List.filter_congr
    intro e he
    have hfl : e ∈ sets.flatten := List.mem_flatten.mpr ⟨S, hS, he⟩
    have := hperm.mem_iff.mp hfl
    rw [List.mem_append, List.mem_map, List.mem_singleton] at this
    rcases this with ⟨x, hx, rfl⟩ | rfl
    · rcases List.mem_append.mp hx with h1 | h1
      · have m : some x ∈ scan.innerComponents.map some := List.mem_map.mpr ⟨x, h1, rfl⟩
        simp [isOuterOrNil, ci x h1, m]
      · have m : some x ∉ scan.innerComponents.map some := by
          intro hm
          obtain ⟨y, hy, hyx⟩ := List.mem_map.mp hm
          obtain rfl := Option.some.inj hyx
          exact (List.nodup_append.mp hnd).2.2 hy h1
        simp only [isOuterOrNil, co x h1, decide_True, m, not_false_eq_true]
    · simp [isOuterOrNil]

theorem foldlM_setIncident_total {f : Nat} : ∀ (L : List Nat) (t : Heap),
    (∀ y ∈ L, y < t.halfEdgeRecords.length) →
    ∃ t2, L.foldlM (fun (t : Heap) y => t.setIncident y (some f)) t = some t2 := by
  intro L
  induction L with
  | nil => intro t _; exact ⟨t, rfl⟩
  | cons y rest ih =>
    intro t hl
    obtain ⟨r, hr⟩ : ∃ r, t.halfEdgeRecords[y]? = some r :=
      ⟨_, List.getElem?_eq_getElem (hl y (List.mem_cons_self _ _))⟩
    obtain ⟨t1, e1, -, -, l1, -⟩ :=
      updHalfEdge_spec (fun r => { r with incident := some f }) hr
    obtain ⟨t2, e2⟩ := ih t1 (fun z hz => by rw [l1]; exact hl z (List.mem_cons_of_mem _ hz))
    refine ⟨t2, ?_⟩
    rw [List.foldlM_cons]
    show Option.bind (t.updHalfEdge y _) _ = _
    rw [e1]
    exact e2

/-- The loop that sets the incident face along a cycle returns where the cycle
closes within the fuel. -/
theorem assignLoop_total {h1 : Heap} {x fuel f : Nat} {L : List Nat}
    (hL : edgeLoop h1 x fuel x = some L) :
    ∃ h2, forEachEdge (fun (t : Heap) y => t.nextOf y)
      (fun (t : Heap) y => t.setIncident y (some f)) x fuel h1 x = some h2 := by
  rw [forEachEdge_eq_foldlM h1 (fun (t : Heap) y => t.nextOf y)
    (fun (t : Heap) y => t.setIncident y (some f)) (fun t => FaceFrame h1 t)
    (fun t e ht => ht.nextOf e)
    (fun t e t2 ht he => ht.andThen (setIncident_spec he).1) x fuel h1 x (FaceFrame.same h1),
    hL, Option.some_bind]
  apply foldlM_setIncident_total
  intro y hy
  obtain ⟨k, -, r, rfl⟩ := (edgeLoop_eq_some fuel x L).mp hL
  obtain ⟨i, hi, rfl⟩ := List.mem_iterate.mp hy
  obtain ⟨rec, hrec, -⟩ := nextOf_eq_some (r.defined i hi)
  exact lt_length_of_getElem?_eq_some hrec

theorem setOuterComponent_total {t : Heap} {f : Nat} {fr0 : faceRecord} (e : Option Nat)
    (hf : t.faceRecords[f]? = some fr0) (ho : fr0.outerComponent = none) :
    ∃ t1, setOuterComponent t f e = some t1 := by
  obtain ⟨t1, e1, -⟩ := updFace_get (fun r => { r with outerComponent := e }) hf
  refine ⟨t1, ?_⟩
  simp only [setOuterComponent, Option.bind_eq_bind, hf, Option.some_bind, ho, ne_eq,
    not_true_eq_false, if_false]
  exact e1

/-- One element of a set is assigned without a panic where its cycle closes, its
kind is defined, and, if it is nil or an outer cycle, the face has no outer
component yet. -/
theorem assignComponent_total {h0 t : Heap} {fuel f : Nat} {fr0 : faceRecord}
    (e : Option Nat) (ff : FaceFrame h0 t) (hf : t.faceRecords[f]? = some fr0)
    (hx : ∀ x, e = some x → ∃ b L, edgeLoopIsOuterComponent h0 x = some b ∧
      edgeLoop h0 x fuel x = some L)
    (ho : isOuterOrNil h0 e = true → fr0.outerComponent = none) :
    ∃ t1, assignComponent fuel f t e = some t1 := by
  cases e with
  | none => exact setOuterComponent_total none hf (ho rfl)
  | some x =>
    obtain ⟨b, L, hb, hL⟩ := hx x rfl
    have hb2 : edgeLoopIsOuterComponent t x = some b := (ff.isOuter x).trans hb
    unfold assignComponent
    simp only [Option.bind_eq_bind, hb2, Option.some_bind]
    cases b with
    | true =>
      obtain ⟨t1, e1⟩ := setOuterComponent_total (some x) hf
        (ho (by simp [isOuterOrNil, hb]))
      obtain ⟨-, -, -, f1, -⟩ := setOuterComponent_spec e1
      have hL1 : edgeLoop t1 x fuel x = some L := by
        rw [f1.edgeLoop, ff.edgeLoop]; exact hL
      obtain ⟨t2, e2⟩ := assignLoop_total (f := f) hL1
      exact ⟨t2, by simp only [if_true, e1, Option.some_bind]; exact e2⟩
    | false =>
      obtain ⟨t1, e1, -⟩ := updFace_get
        (fun r => { r with innerComponents := r.innerComponents ++ [x] }) hf
      obtain ⟨-, -, f1, -⟩ := updFace_frame e1
      have hL1 : edgeLoop t1 x fuel x = some L := by
        rw [f1.edgeLoop, ff.edgeLoop]; exact hL
      obtain ⟨t2, e2⟩ := assignLoop_total (f := f) hL1
      exact ⟨t2, by simp only [Bool.false_eq_true, if_false, e1, Option.some_bind]; exact e2⟩

/-- The elements of a set are assigned without a panic where at most one of them
is nil or an outer cycle and the face has no outer component before it. -/
theorem assignSet_total (h0 : Heap) (fuel f : Nat) : ∀ (set : List (Option Nat)) (t : Heap)
    (fr0 : faceRecord), FaceFrame h0 t → t.faceRecords[f]? = some fr0 →
    (∀ x, some x ∈ set → ∃ b L, edgeLoopIsOuterComponent h0 x = some b ∧
      edgeLoop h0 x fuel x = some L) →
    ((set.filter (isOuterOrNil h0)).length = 0 ∨
      ((set.filter (isOuterOrNil h0)).length ≤ 1 ∧ fr0.outerComponent = none)) →
    ∃ g, set.foldlM (assignComponent fuel f) t = some g := by
  intro set
  induction set with
  | nil => intro t _ _ _ _ _; exact ⟨t, rfl⟩
  | cons e rest ih =>
    intro t fr0 ff hf hx hc
    have hxr : ∀ x, some x ∈ rest → ∃ b L, edgeLoopIsOuterComponent h0 x = some b ∧
        edgeLoop h0 x fuel x = some L := fun x hm => hx x (List.mem_cons_of_mem _ hm)
    by_cases hop : isOuterOrNil h0 e = true
    · -- `e` is nil or an outer cycle
      have hlen : (rest.filter (isOuterOrNil h0)).length = 0 ∧ fr0.outerComponent = none := by
        rw [List.filter_cons_of_pos hop, List.length_cons] at hc
        rcases hc with h1 | ⟨h1, h2⟩
        · omega
        · exact ⟨by omega, h2⟩
      obtain ⟨t1, e1⟩ := assignComponent_total e ff hf
        (fun x hxe => hx x (hxe ▸ List.mem_cons_self _ _)) (fun _ => hlen.2)
      obtain ⟨ff1, fr1, hf1⟩ : FaceFrame h0 t1 ∧ ∃ fr1, t1.faceRecords[f]? = some fr1 := by
        cases e with
        | none =>
          obtain ⟨a1, -, -, a4, -⟩ := assignComponent_none hf e1
          exact ⟨ff.andThen a1, _, a4⟩
        | some x =>
          obtain ⟨a1, -, -, b, L, -, -, a4, -⟩ := assignComponent_some hf e1
          exact ⟨ff.andThen a1, _, a4⟩
      obtain ⟨g, eg⟩ := ih t1 fr1 ff1 hf1 hxr (Or.inl hlen.1)
      exact ⟨g, by rw [List.foldlM_cons, e1]; exact eg⟩
    · -- `e` is an inner cycle
      have hrest : (rest.filter (isOuterOrNil h0)).length =
          ((e :: rest).filter (isOuterOrNil h0)).length := by
        rw [List.filter_cons_of_neg hop]
      obtain ⟨t1, e1⟩ := assignComponent_total e ff hf
        (fun x hxe => hx x (hxe ▸ List.mem_cons_self _ _)) (fun hh => absurd hh hop)
      cases e with
      | none => exact absurd rfl hop
      | some x =>
        obtain ⟨a1, -, -, b, L, hb, -, a4, -⟩ := assignComponent_some hf e1
        have hbf : b = false := by
          cases b with
          | false => rfl
          | true =>
            exfalso
            apply hop
            have : edgeLoopIsOuterComponent h0 x = some true := (ff.isOuter x).symm.trans hb
            simp [isOuterOrNil, this]
        subst hbf
        simp only [Bool.false_eq_true, if_false] at a4
        obtain ⟨g, eg⟩ := ih t1 _ (ff.andThen a1) a4 hxr (by
          rw [hrest]
          rcases hc with h1 | ⟨h1, h2⟩
          · exact Or.inl h1
          · exact Or.inr ⟨h1, h2⟩)
        exact ⟨g, by rw [List.foldlM_cons, e1]; exact eg⟩

/-- The loop "Construct new faces" does not panic where every set holds exactly one
element that is nil or an outer cycle. -/
theorem constructFaces_total (h0 : Heap) (fuel : Nat) :
    ∀ (sets : List (List (Option Nat))) (g : Heap) (faces : List Nat), FaceFrame h0 g →
    (∀ S ∈ sets, (S.filter (isOuterOrNil h0)).length = 1 ∧
      ∀ x, some x ∈ S → ∃ b L, edgeLoopIsOuterComponent h0 x = some b ∧
        edgeLoop h0 x fuel x = some L) →
    ∃ r, sets.foldlM (constructFace fuel) (g, faces) = some r := by
  intro sets
  induction sets with
  | nil => intro g faces _ _; exact ⟨_, rfl⟩
  | cons S rest ih =>
    intro g faces ff hS
    obtain ⟨h1, hx⟩ := hS S (List.mem_cons_self _ _)
    have ffa : FaceFrame h0 (g.allocFace ⟨none, [], false, false⟩).1 :=
      ff.andThen (faceFrame_of_faces rfl rfl)
    have hrec : (g.allocFace ⟨none, [], false, false⟩).1.faceRecords[
        (g.allocFace ⟨none, [], false, false⟩).2]? = some ⟨none, [], false, false⟩ := by
      show (g.faceRecords ++ [_])[g.faceRecords.length]? = _
      rw [List.getElem?_append_right (le_refl _)]
      simp
    obtain ⟨g2, e2⟩ := assignSet_total h0 fuel _ S _ _ ffa hrec hx
      (Or.inr ⟨by omega, rfl⟩)
    obtain ⟨ff2, -⟩ := assignSet_spec h0 fuel _ S _ g2 _ ffa hrec e2
    obtain ⟨r, er⟩ := ih g2 (faces ++ [(g.allocFace ⟨none, [], false, false⟩).2]) ff2
      (fun T hT => hS T (List.mem_cons_of_mem _ hT))
    refine ⟨r, ?_⟩
    rw [List.foldlM_cons]
    show Option.bind (constructFace fuel (g, faces) S) _ = _
    have : constructFace fuel (g, faces) S =
        some (g2, faces ++ [(g.allocFace ⟨none, [], false, false⟩).2]) := by
      simp only [constructFace, Option.bind_eq_bind, e2, Option.some_bind, Option.pure_def]
    rw [this]
    exact er

theorem index_unique_of_flatten_nodup {α : Type} : ∀ (sets : List (List α)),
    sets.flatten.Nodup → ∀ (i j : Nat) (S T : List α) (e : α), sets[i]? = some S →
      sets[j]? = some T → e ∈ S → e ∈ T → i = j := by
  intro sets
  induction sets with
  | nil => intro _ i j S T e hi; simp at hi
  | cons a rest ih =>
    intro hn i j S T e hi hj hS hT
    rw [List.flatten_cons] at hn
    obtain ⟨-, hn2, hdis⟩ := List.nodup_append.mp hn
    cases i with
    | zero =>
      cases j with
      | zero => rfl
      | succ j =>
        exfalso
        rw [List.getElem?_cons_zero] at hi
        rw [List.getElem?_cons_succ] at hj
        obtain rfl := Option.some.inj hi
        exact hdis hS (List.mem_flatten.mpr ⟨T, List.getElem?_mem hj, hT⟩)
    | succ i =>
      cases j with
      | zero =>
        exfalso
        rw [List.getElem?_cons_zero] at hj
        rw [List.getElem?_cons_succ] at hi
        obtain rfl := Option.some.inj hj
        exact hdis hT (List.mem_flatten.mpr ⟨S, List.getElem?_mem hi, hS⟩)
      | succ j =>
        rw [List.getElem?_cons_succ] at hi hj
        rw [ih hn2 i j S T e hi hj hS hT]

theorem eq_of_filter_length_one {α : Type} (p : α → Bool) : ∀ (S : List α),
    (S.filter p).length = 1 → ∀ a ∈ S, ∀ b ∈ S, p a = true → p b = true → a = b := by
  intro S h1 a ha b hb pa pb
  have ma : a ∈ S.filter p := List.mem_filter.mpr ⟨ha, pa⟩
  have mb : b ∈ S.filter p := List.mem_filter.mpr ⟨hb, pb⟩
  obtain ⟨c, hc⟩ := List.length_eq_one.mp h1
  rw [hc] at ma mb
  rw [List.mem_singleton.mp ma, List.mem_singleton.mp mb]

theorem unitSquare_union_facts :
    ((newDCELFromPolygon Heap.empty unitSquare true).all (fun s =>
      match s.2.halfEdges.foldlM (scanCycle 10 s.1) ⟨[], [], []⟩ with
      | some scan =>
        decide (scan.outerComponents.length = 1) &&
          (scan.innerComponents.foldlM (unionInner 10 s.1 s.2) (initialSets scan)).isSome
      | none => false)) = true := by
  with_unfolding_all decide

/-- C38: where the loop that finds the boundary cycles has returned and no union
of `reAssignFaces` has panicked, every set of the graph holds exactly one element
that is nil or an outer cycle; `reAssignFaces` then returns (the panic "double
outer component" is not reached), the face list it builds has no face twice and
one face more than there are outer cycles, one face of it has a nil
`outerComponent`, and every other face has an `outerComponent` that is not nil and
is an outer cycle. -/
theorem C38_one_outer_per_group (fuel : Nat) (h : Heap) (d : doublyConnectedEdgeList)
    (scan : CycleScan) (sets : List (List (Option Nat)))
    (hscan : d.halfEdges.foldlM (scanCycle fuel h) ⟨[], [], []⟩ = some scan)
    (hun : scan.innerComponents.foldlM (unionInner fuel h d) (initialSets scan) = some sets) :
    (∀ S ∈ sets, (S.filter (isOuterOrNil h)).length = 1) ∧
    ∃ hF dF, reAssignFaces fuel h d = some (hF, dF) ∧
      dF.faces.length = scan.outerComponents.length + 1 ∧ dF.faces.Nodup ∧
      ∃ f0 ∈ dF.faces, (∃ fr, hF.faceRecords[f0]? = some fr ∧ fr.outerComponent = none) ∧
        ∀ f ∈ dF.faces, f ≠ f0 → ∃ fr x, hF.faceRecords[f]? = some fr ∧
          fr.outerComponent = some x ∧ x ∈ scan.outerComponents ∧
          edgeLoopIsOuterComponent h x = some true := by
  obtain ⟨inv, ci, co, hnd, hlen, hone, hperm⟩ := unions_one_outer hscan hun
  have hcomp : ∀ S ∈ sets, ∀ x, some x ∈ S →
      x ∈ scan.innerComponents ++ scan.outerComponents := by
    intro S hS x hxS
    have h1 : some x ∈ sets.flatten := List.mem_flatten.mpr ⟨S, hS, hxS⟩
    have h2 := hperm.mem_iff.mp h1
    rw [List.mem_append, List.mem_map, List.mem_singleton] at h2
    rcases h2 with ⟨y, hy, hyx⟩ | h2
    · exact (Option.some.inj hyx) ▸ hy
    · exact Option.noConfusion h2
  have hx : ∀ S ∈ sets, ∀ x, some x ∈ S → ∃ b L, edgeLoopIsOuterComponent h x = some b ∧
      edgeLoop h x fuel x = some L := by
    intro S hS x hxS
    have hxc := hcomp S hS x hxS
    obtain ⟨L, hL, -, -⟩ := edgeLoopLeftmostLowest_spec (inv.lowest x hxc)
    rcases List.mem_append.mp hxc with h1 | h1
    · exact ⟨false, L, ci x h1, hL⟩
    · exact ⟨true, L, co x h1, hL⟩
  obtain ⟨⟨hF, faces⟩, hr⟩ := constructFaces_total h fuel sets h [] (FaceFrame.same h)
    (fun S hS => ⟨hone S hS, hx S hS⟩)
  obtain ⟨-, hb⟩ := reAssignFaces_built hr
  have hret : reAssignFaces fuel h d = some (hF, { d with faces := faces }) := by
    simp only [reAssignFaces, Option.bind_eq_bind, hscan, Option.some_bind, hun, hr,
      Option.pure_def]
  -- the set that holds nil, and its face
  have hnone : none ∈ sets.flatten :=
    hperm.mem_iff.mpr (List.mem_append_right _ (List.mem_singleton.mpr rfl))
  obtain ⟨S0, hS0, hn0⟩ := List.mem_flatten.mp hnone
  obtain ⟨i0, hi0, hS0i⟩ := List.getElem_of_mem hS0
  have hs0 : sets[i0]? = some S0 := by rw [List.getElem?_eq_getElem hi0, hS0i]
  obtain ⟨f0, fr0, hf0, fo0⟩ := hb.face i0 S0 hs0
  refine ⟨hone, hF, _, hret, ?_, hb.nodup, f0, List.getElem?_mem hf0, ⟨fr0, fo0.record, ?_⟩, ?_⟩
  · show faces.length = _
    rw [hb.length, hlen]
  · cases ho : fr0.outerComponent with
    | none => rfl
    | some x =>
      exfalso
      have m1 : some x ∈ S0 := (fo0.components x).mp (Or.inl ho)
      have m2 : isOuterOrNil h (some x) = true := by
        simp [isOuterOrNil, fo0.outer x ho]
      have := eq_of_filter_length_one (isOuterOrNil h) S0 (hone S0 hS0) _ m1 _ hn0 m2 rfl
      exact Option.noConfusion this
  · intro f hf hne
    have hf' : f ∈ faces := hf
    obtain ⟨i, hi, hfi⟩ := List.getElem_of_mem hf'
    have hi2 : i < sets.length := by rw [← hb.length]; exact hi
    obtain ⟨f2, fr, e1, fo⟩ := hb.face i _ (List.getElem?_eq_getElem hi2)
    rw [List.getElem?_eq_getElem hi, hfi] at e1
    obtain rfl : f = f2 := Option.some.inj e1
    have hSm : sets[i] ∈ sets := List.getElem_mem hi2
    have h1 := hone _ hSm
    obtain ⟨c, hc⟩ := List.length_eq_one.mp h1
    have hcm : c ∈ (sets[i]).filter (isOuterOrNil h) := by rw [hc]; exact List.mem_singleton.mpr rfl
    obtain ⟨hcS, hcp⟩ := List.mem_filter.mp hcm
    cases c with
    | none =>
      exfalso
      have := index_unique_of_flatten_nodup sets hnd i i0 _ _ none
        (List.getElem?_eq_getElem hi2) hs0 hcS hn0
      subst this
      rw [List.getElem?_eq_getElem hi, hfi] at hf0
      exact hne (Option.some.inj hf0)
    | some x =>
      have hot : edgeLoopIsOuterComponent h x = some true := by
        simpa [isOuterOrNil] using hcp
      have hxo : x ∈ scan.outerComponents := by
        rcases List.mem_append.mp (hcomp _ hSm x hcS) with g | g
        · rw [ci x g] at hot
          exact absurd (Option.some.inj hot) (by decide)
        · exact g
      refine ⟨fr, x, fo.record, ?_, hxo, hot⟩
      rcases (fo.components x).mpr hcS with g | g
      · exact g
      · rw [fo.inner x g] at hot
        exact absurd (Option.some.inj hot) (by decide)

/-- C38 at the unit square: the scan finds one outer cycle, the union of the other
cycle with nil does not panic, and `reAssignFaces` returns two faces. -/
theorem C38_one_outer_per_group_witness :
    ∃ h d scan sets, newDCELFromPolygon Heap.empty unitSquare true = some (h, d) ∧
      d.halfEdges.foldlM (scanCycle 10 h) ⟨[], [], []⟩ = some scan ∧
      scan.innerComponents.foldlM (unionInner 10 h d) (initialSets scan) = some sets ∧
      scan.outerComponents.length = 1 ∧
      (∀ S ∈ sets, (S.filter (isOuterOrNil h)).length = 1) ∧
      ∃ hF dF, reAssignFaces 10 h d = some (hF, dF) ∧
        dF.faces.length = scan.outerComponents.length + 1 ∧ dF.faces.Nodup ∧
        ∃ f0 ∈ dF.faces, (∃ fr, hF.faceRecords[f0]? = some fr ∧ fr.outerComponent = none) ∧
          ∀ f ∈ dF.faces, f ≠ f0 → ∃ fr x, hF.faceRecords[f]? = some fr ∧
            fr.outerComponent = some x ∧ x ∈ scan.outerComponents ∧
            edgeLoopIsOuterComponent h x = some true := by
  obtain ⟨h, d, e, -, -⟩ := newDCELFromPolygon_build Heap.empty unitSquare true
  have hf := unitSquare_union_facts
  rw [e] at hf
  simp only [Option.all_some] at hf
  cases hs : d.halfEdges.foldlM (scanCycle 10 h) ⟨[], [], []⟩ with
  | none => rw [hs] at hf; simp at hf
  | some scan =>
    rw [hs] at hf
    simp only [Bool.and_eq_true, decide_eq_true_eq] at hf
    obtain ⟨sets, hu⟩ := Option.isSome_iff_exists.mp hf.2
    exact ⟨h, d, scan, sets, e, hs, hu, hf.1, C38_one_outer_per_group 10 h d scan sets hs hu⟩

/-! ## The binary heap of line_heap.go -/

theorem heap_swap_spec {h : List Int} {i j : Nat} {a b : Int}
    (ha : h[i]? = some a) (hb : h[j]? = some b) (hij : i ≠ j) :
    ∃ h2, heap.swap h i j = some h2 ∧ h2.length = h.length ∧ h2.Perm h ∧
      ∀ k : Nat, h2[k]? = if k = j then some a else if k = i then some b else h[k]? := by
  have hi := lt_length_of_getElem?_eq_some ha
  have hj := lt_length_of_getElem?_eq_some hb
  have key : ∀ (l : List Int) (k : Nat) (x y : Int), l[k]? = some x →
      (y :: l).Perm (x :: l.set k y) := by
    intro l
    induction l with
    | nil => intro k x y hk; simp at hk
    | cons c t ih =>
      intro k x y hk
      cases k with
      | zero =>
        rw [List.getElem?_cons_zero] at hk
        obtain rfl := Option.some.inj hk
        exact List.Perm.swap _ _ _
      | succ k =>
        rw [List.getElem?_cons_succ] at hk
        rw [List.set_cons_succ]
        exact (List.Perm.swap c y t).trans (((ih k x y hk).cons c).trans (List.Perm.swap x c _))
  refine ⟨(h.set i b).set j a, ?_, by simp, ?_, ?_⟩
  · simp [heap.swap, ha, hb]
  · have p1 := key h i a b ha
    have hb2 : (h.set i b)[j]? = some b := by
      rw [List.getElem?_set_ne hij]; exact hb
    have p2 := key (h.set i b) j b a hb2
    exact ((p1.trans p2).cons_inv).symm
  · intro k
    by_cases hkj : k = j
    · subst hkj
      rw [if_pos rfl, List.getElem?_set_eq]
      simp [hj]
    · rw [if_neg hkj, List.getElem?_set_ne (Ne.symm hkj)]
      by_cases hki : k = i
      · subst hki
        rw [if_pos rfl, List.getElem?_set_eq]
        simp [hi]
      · rw [if_neg hki, List.getElem?_set_ne (Ne.symm hki)]

theorem StrictWeakOrder.asymm {lt : Int → Int → Bool} (hs : StrictWeakOrder lt) {a b : Int}
    (hab : lt a b = true) : lt b a = false := by
  cases hba : lt b a with
  | false => rfl
  | true =>
    have := hs.trans a b a hab hba
    rw [hs.irrefl a] at this
    exact Bool.noConfusion this

theorem StrictWeakOrder.not_lt_trans {lt : Int → Int → Bool} (hs : StrictWeakOrder lt)
    {a b c : Int} (hab : lt a b = false) (hbc : lt b c = false) : lt a c = false := by
  cases hac : lt a c with
  | false => rfl
  | true =>
    rcases hs.between a b c hac with h1 | h1
    · rw [hab] at h1; exact Bool.noConfusion h1
    · rw [hbc] at h1; exact Bool.noConfusion h1

theorem elementLess_eq {lt : Int → Int → Bool} {h : List Int} {i j : Nat} {a b : Int}
    (ha : h[i]? = some a) (hb : h[j]? = some b) : elementLess lt h i j = lt a b := by
  simp [elementLess, ha, hb]

/-- The loop of `heap.push` returns, whatever the comparator, and only permutes the
heap. -/
theorem pushLoop_total (less : List Int → Nat → Nat → Bool) : ∀ (fuel : Nat) (h : List Int)
    (i : Nat), i ≤ fuel → i < h.length →
    ∃ h2, heap.pushLoop less fuel h i = some h2 ∧ h2.length = h.length ∧ h2.Perm h := by
  intro fuel
  induction fuel with
  | zero =>
    intro h i hi _
    have : i = 0 := by omega
    subst this
    exact ⟨h, by simp [heap.pushLoop], rfl, List.Perm.refl _⟩
  | succ fuel ih =>
    intro h i hi hl
    by_cases h0 : i > 0
    · by_cases hless : less h ((i - 1) / 2) i = true
      · exact ⟨h, by simp [heap.pushLoop, h0, hless], rfl, List.Perm.refl _⟩
      · have hp : (i - 1) / 2 < h.length := by omega
        obtain ⟨h1, e1, l1, p1, -⟩ := heap_swap_spec (List.getElem?_eq_getElem hp)
          (List.getElem?_eq_getElem hl) (by omega)
        obtain ⟨h2, e2, l2, p2⟩ := ih h1 ((i - 1) / 2) (by omega) (by omega)
        refine ⟨h2, ?_, l2.trans l1, p2.trans p1⟩
        simp only [heap.pushLoop, h0, if_true, hless, Bool.false_eq_true, if_false,
          Option.bind_eq_bind, e1, Option.some_bind]
        exact e2
    · exact ⟨h, by simp [heap.pushLoop, h0], rfl, List.Perm.refl _⟩

/-- The loop of `heap.push` with a comparator of the stored elements restores the
heap invariant. -/
theorem pushLoop_ordered {lt : Int → Int → Bool} (hs : StrictWeakOrder lt) :
    ∀ (fuel : Nat) (h : List Int) (i : Nat) (h2 : List Int), i < h.length → UpInv lt h i →
      heap.pushLoop (elementLess lt) fuel h i = some h2 → HeapOrdered lt h2 := by
  have base : ∀ (h : List Int), UpInv lt h 0 → HeapOrdered lt h := by
    intro h inv p c a b hc ha hb
    exact inv.1 p c a b hc (by omega) ha hb
  intro fuel
  induction fuel with
  | zero =>
    intro h i h2 _ inv hr
    by_cases h0 : i > 0
    · simp [heap.pushLoop, h0] at hr
    · have : i = 0 := by omega
      subst this
      simp only [heap.pushLoop, gt_iff_lt, lt_self_iff_false, if_false, Option.some.injEq] at hr
      subst hr
      exact base h inv
  | succ fuel ih =>
    intro h i h2 hl inv hr
    by_cases h0 : i > 0
    · have hp : (i - 1) / 2 < h.length := by omega
      have ha : h[(i - 1) / 2]? = some (h[(i - 1) / 2]) := List.getElem?_eq_getElem hp
      have hb : h[i]? = some (h[i]) := List.getElem?_eq_getElem hl
      generalize h[(i - 1) / 2] = a at ha
      generalize h[i] = b at hb
      have hle : elementLess lt h ((i - 1) / 2) i = lt a b := elementLess_eq ha hb
      by_cases hless : lt a b = true
      · simp only [heap.pushLoop, h0, if_true, hle, hless, Option.some.injEq] at hr
        subst hr
        intro p c x y hc hx hy
        by_cases hci : c = i
        · have hpp : p = (i - 1) / 2 := by omega
          subst hci hpp
          rw [ha] at hx
          rw [hb] at hy
          obtain rfl := Option.some.inj hx
          obtain rfl := Option.some.inj hy
          exact hs.asymm hless
        · exact inv.1 p c x y hc hci hx hy
      · have hless2 : lt a b = false := by
          cases hlt : lt a b with
          | false => rfl
          | true => exact absurd hlt hless
        obtain ⟨h1, e1, l1, -, g1⟩ := heap_swap_spec ha hb (by omega)
        simp only [heap.pushLoop, h0, if_true, hle, hless2, Bool.false_eq_true, if_false,
          Option.bind_eq_bind, e1, Option.some_bind] at hr
        refine ih h1 ((i - 1) / 2) h2 (by omega) ⟨?_, ?_⟩ hr
        · intro p c x y hc hcp hx hy
          rw [g1] at hx hy
          by_cases hci : c = i
          · have hpp : p = (i - 1) / 2 := by omega
            rw [if_pos hci] at hy
            rw [if_neg (by omega), if_pos hpp] at hx
            obtain rfl := Option.some.inj hx
            obtain rfl := Option.some.inj hy
            exact hless2
          · rw [if_neg hci, if_neg hcp] at hy
            by_cases hpi : p = i
            · rw [if_pos hpi] at hx
              obtain rfl := Option.some.inj hx
              exact inv.2 c _ y h0 (by omega) ha hy
            · rw [if_neg hpi] at hx
              by_cases hpp : p = (i - 1) / 2
              · rw [if_pos hpp] at hx
                obtain rfl := Option.some.inj hx
                have h3 := inv.1 ((i - 1) / 2) c a y (by omega) hci ha hy
                exact hs.not_lt_trans h3 hless2
              · rw [if_neg hpp] at hx
                exact inv.1 p c x y hc hci hx hy
        · intro c x y hpos hc hx hy
          rw [g1] at hx hy
          rw [if_neg (by omega), if_neg (by omega)] at hx
          have h4 := inv.1 (((i - 1) / 2 - 1) / 2) ((i - 1) / 2) x a (by omega) (by omega) hx ha
          by_cases hci : c = i
          · rw [if_pos hci] at hy
            obtain rfl := Option.some.inj hy
            exact h4
          · rw [if_neg hci, if_neg (by omega)] at hy
            have h3 := inv.1 ((i - 1) / 2) c a y hc hci ha hy
            exact hs.not_lt_trans h3 h4
    · have : i = 0 := by omega
      subst this
      simp only [heap.pushLoop, gt_iff_lt, lt_self_iff_false, if_false, Option.some.injEq] at hr
      subst hr
      exact base h inv

/-- The position `heap.pop` swaps with is a child position in range. -/
theorem swapWith_range {less : List Int → Nat → Nat → Bool} {h : List Int} {i s : Nat}
    (hw : heap.swapWith less h i = some s) :
    (s = 2 * i + 1 ∨ s = 2 * i + 2) ∧ s < h.length := by
  simp only [heap.swapWith] at hw
  split_ifs at hw <;> first
    | exact Option.noConfusion hw
    | (obtain rfl := Option.some.inj hw; constructor <;> omega)

/-- The loop of `heap.pop` returns, whatever the comparator, and only permutes the
heap. -/
theorem popLoop_total (less : List Int → Nat → Nat → Bool) : ∀ (fuel : Nat) (h : List Int)
    (i : Nat), i ≤ h.length → h.length < fuel + i →
    ∃ h2, heap.popLoop less fuel h i = some h2 ∧ h2.length = h.length ∧ h2.Perm h := by
  intro fuel
  induction fuel with
  | zero => intro h i h1 h2; omega
  | succ fuel ih =>
    intro h i hi hf
    cases hw : heap.swapWith less h i with
    | none => exact ⟨h, by simp [heap.popLoop, hw], rfl, List.Perm.refl _⟩
    | some s =>
      obtain ⟨hc, hsl⟩ := swapWith_range hw
      have hil : i < h.length := by omega
      obtain ⟨h1, e1, l1, p1, -⟩ := heap_swap_spec (List.getElem?_eq_getElem hsl)
        (List.getElem?_eq_getElem hil) (by omega)
      obtain ⟨h2, e2, l2, p2⟩ := ih h1 s (by omega) (by omega)
      refine ⟨h2, ?_, l2.trans l1, p2.trans p1⟩
      simp only [heap.popLoop, hw, Option.bind_eq_bind, e1, Option.some_bind]
      exact e2

/-- Where `heap.pop` stops, the children of the position are not less than it. -/
theorem swapWith_none {lt : Int → Int → Bool} (hs : StrictWeakOrder lt) {h : List Int}
    {i : Nat} (hw : heap.swapWith (elementLess lt) h i = none) :
    ∀ (c : Nat) (a b : Int), (c = 2 * i + 1 ∨ c = 2 * i + 2) → h[i]? = some a →
      h[c]? = some b → lt b a = false := by
  intro c a b hc ha hb
  have hcl := lt_length_of_getElem?_eq_some hb
  by_cases hB : 2 * i + 2 < h.length
  · have hA : 2 * i + 1 < h.length := by omega
    have hxa : h[2 * i + 1]? = some (h[2 * i + 1]) := List.getElem?_eq_getElem hA
    have hxb : h[2 * i + 2]? = some (h[2 * i + 2]) := List.getElem?_eq_getElem hB
    generalize h[2 * i + 1] = x at hxa
    generalize h[2 * i + 2] = y at hxb
    simp only [heap.swapWith, hA, hB, and_self, if_true, elementLess_eq ha hxa,
      elementLess_eq hxb ha, elementLess_eq hxb hxa] at hw
    by_cases h1 : lt a x = true
    · rw [if_pos h1] at hw
      by_cases h2 : lt y a = true
      · rw [if_pos h2] at hw; exact Option.noConfusion hw
      · rcases hc with rfl | rfl
        · rw [hxa] at hb
          obtain rfl := Option.some.inj hb
          exact hs.asymm h1
        · rw [hxb] at hb
          obtain rfl := Option.some.inj hb
          exact Bool.eq_false_iff.mpr h2
    · rw [if_neg h1] at hw
      split_ifs at hw
  · have hcA : c = 2 * i + 1 := by omega
    subst hcA
    simp only [heap.swapWith, hcl, hB, and_false, if_false, if_true, elementLess_eq hb ha] at hw
    cases h3 : lt b a with
    | false => rfl
    | true => rw [h3] at hw; simp at hw

/-- Where `heap.pop` swaps, the element that moves up is not greater than the one
that moves down, and no child is less than it. -/
theorem swapWith_some {lt : Int → Int → Bool} (hs : StrictWeakOrder lt) {h : List Int}
    {i s : Nat} {a b : Int} (hw : heap.swapWith (elementLess lt) h i = some s)
    (ha : h[i]? = some a) (hb : h[s]? = some b) :
    lt a b = false ∧ ∀ (c : Nat) (t : Int), (c = 2 * i + 1 ∨ c = 2 * i + 2) →
      h[c]? = some t → lt t b = false := by
  by_cases hB : 2 * i + 2 < h.length
  · have hA : 2 * i + 1 < h.length := by omega
    have hxa : h[2 * i + 1]? = some (h[2 * i + 1]) := List.getElem?_eq_getElem hA
    have hxb : h[2 * i + 2]? = some (h[2 * i + 2]) := List.getElem?_eq_getElem hB
    generalize h[2 * i + 1] = x at hxa
    generalize h[2 * i + 2] = y at hxb
    simp only [heap.swapWith, hA, hB, and_self, if_true, elementLess_eq ha hxa,
      elementLess_eq hxb ha, elementLess_eq hxb hxa] at hw
    have fin : ∀ (u v : Int), lt a b = false → lt x b = false → lt y b = false →
        lt a b = false ∧ ∀ (c : Nat) (t : Int), (c = 2 * i + 1 ∨ c = 2 * i + 2) →
          h[c]? = some t → lt t b = false := by
      intro _ _ g1 g2 g3
      refine ⟨g1, fun c t hc ht => ?_⟩
      rcases hc with rfl | rfl
      · rw [hxa] at ht; obtain rfl := Option.some.inj ht; exact g2
      · rw [hxb] at ht; obtain rfl := Option.some.inj ht; exact g3
    by_cases h1 : lt a x = true
    · rw [if_pos h1] at hw
      by_cases h2 : lt y a = true
      · rw [if_pos h2] at hw
        obtain rfl := Option.some.inj hw
        rw [hxb] at hb
        obtain rfl := Option.some.inj hb
        exact fin 0 0 (hs.asymm h2) (hs.asymm (hs.trans _ _ _ h2 h1)) (hs.irrefl _)
      · rw [if_neg h2] at hw; exact Option.noConfusion hw
    · rw [if_neg h1] at hw
      have h1f : lt a x = false := by
        cases h3 : lt a x with
        | false => rfl
        | true => exact absurd h3 h1
      by_cases h2 : lt y x = true
      · rw [if_pos h2] at hw
        obtain rfl := Option.some.inj hw
        rw [hxb] at hb
        obtain rfl := Option.some.inj hb
        refine fin 0 0 ?_ (hs.asymm h2) (hs.irrefl _)
        cases h3 : lt a y with
        | false => rfl
        | true =>
          have := hs.trans _ _ _ h3 h2
          rw [h1f] at this
          exact Bool.noConfusion this
      · rw [if_neg h2] at hw
        obtain rfl := Option.some.inj hw
        rw [hxa] at hb
        obtain rfl := Option.some.inj hb
        refine fin 0 0 h1f (hs.irrefl _) ?_
        cases h3 : lt y x with
        | false => rfl
        | true => exact absurd h3 h2
  · obtain ⟨hc, hsl⟩ := swapWith_range hw
    have hsA : s = 2 * i + 1 := by omega
    subst hsA
    refine ⟨?_, fun c t hc2 ht => ?_⟩
    · simp only [heap.swapWith, hsl, hB, and_false, if_false, if_true,
        elementLess_eq hb ha] at hw
      cases h3 : lt b a with
      | false => rw [h3] at hw; simp at hw
      | true => exact hs.asymm h3
    · have := lt_length_of_getElem?_eq_some ht
      have hcA : c = 2 * i + 1 := by omega
      subst hcA
      rw [hb] at ht
      obtain rfl := Option.some.inj ht
      exact hs.irrefl _

/-- The loop of `heap.pop` with a comparator of the stored elements restores the
heap invariant. -/
theorem popLoop_ordered {lt : Int → Int → Bool} (hs : StrictWeakOrder lt) :
    ∀ (fuel : Nat) (h : List Int) (i : Nat) (h2 : List Int), DownInv lt h i →
      heap.popLoop (elementLess lt) fuel h i = some h2 → HeapOrdered lt h2 := by
  intro fuel
  induction fuel with
  | zero => intro h i h2 _ hr; exact Option.noConfusion hr
  | succ fuel ih =>
    intro h i h2 inv hr
    cases hw : heap.swapWith (elementLess lt) h i with
    | none =>
      simp only [heap.popLoop, hw, Option.some.injEq] at hr
      subst hr
      intro p c x y hc hx hy
      by_cases hpi : p = i
      · subst hpi
        exact swapWith_none hs hw c x y hc hx hy
      · exact inv.1 p c x y hc hpi hx hy
    | some s =>
      obtain ⟨hc, hsl⟩ := swapWith_range hw
      have hil : i < h.length := by omega
      have hb : h[s]? = some (h[s]) := List.getElem?_eq_getElem hsl
      have ha : h[i]? = some (h[i]) := List.getElem?_eq_getElem hil
      generalize h[s] = b at hb
      generalize h[i] = a at ha
      obtain ⟨k1, k2⟩ := swapWith_some hs hw ha hb
      obtain ⟨h1, e1, l1, -, g1⟩ := heap_swap_spec hb ha (by omega)
      simp only [heap.popLoop, hw, Option.bind_eq_bind, e1, Option.some_bind] at hr
      refine ih h1 s h2 ⟨?_, ?_⟩ hr
      · intro p c x y hcc hps hx hy
        rw [g1] at hx hy
        by_cases hpi : p = i
        · rw [if_pos hpi] at hx
          obtain rfl := Option.some.inj hx
          subst hpi
          rw [if_neg (by omega)] at hy
          by_cases hcs : c = s
          · rw [if_pos hcs] at hy
            obtain rfl := Option.some.inj hy
            exact k1
          · rw [if_neg hcs] at hy
            exact k2 c y hcc hy
        · rw [if_neg hpi, if_neg hps] at hx
          by_cases hci : c = i
          · rw [if_pos hci] at hy
            obtain rfl := Option.some.inj hy
            have hpp : p = (i - 1) / 2 := by omega
            subst hpp
            exact inv.2 s x _ (by omega) hc hx hb
          · rw [if_neg hci, if_neg (by omega)] at hy
            exact inv.1 p c x y hcc hpi hx hy
      · intro c x y _ hcc hx hy
        have hpar : (s - 1) / 2 = i := by omega
        rw [hpar, g1, if_pos rfl] at hx
        obtain rfl := Option.some.inj hx
        rw [g1, if_neg (by omega), if_neg (by omega)] at hy
        exact inv.1 s c _ y hcc (by omega) hb hy

/-- The method `heap.push` returns, whatever the comparator: the heap is one
longer, and holds the pushed element and the elements it held. -/
theorem push_spec (less : List Int → Nat → Nat → Bool) (h : List Int) (x : Int) :
    ∃ h2, heap.push h x less = some h2 ∧ h2.length = h.length + 1 ∧ h2.Perm (x :: h) := by
  obtain ⟨h2, e, l, p⟩ := pushLoop_total less (h ++ [x]).length (h ++ [x])
    ((h ++ [x]).length - 1) (by omega) (by simp)
  refine ⟨h2, e, ?_, ?_⟩
  · rw [l]; simp
  · exact p.trans (List.perm_append_comm)

/-- The method `heap.push` with a comparator of the stored elements keeps the heap
invariant. -/
theorem push_ordered {lt : Int → Int → Bool} (hs : StrictWeakOrder lt) {h h2 : List Int}
    {x : Int} (ho : HeapOrdered lt h) (hp : heap.push h x (elementLess lt) = some h2) :
    HeapOrdered lt h2 := by
  refine pushLoop_ordered hs _ (h ++ [x]) ((h ++ [x]).length - 1) h2 (by simp) ⟨?_, ?_⟩ hp
  · intro p c a b hc hci ha hb
    have hcl := lt_length_of_getElem?_eq_some hb
    simp only [List.length_append, List.length_singleton, Nat.add_sub_cancel] at hcl hci
    have hc2 : c < h.length := by omega
    rw [List.getElem?_append_left hc2] at hb
    rw [List.getElem?_append_left (by omega)] at ha
    exact ho p c a b hc ha hb
  · intro c a b _ hc _ hb
    have hcl := lt_length_of_getElem?_eq_some hb
    simp only [List.length_append, List.length_singleton, Nat.add_sub_cancel] at hcl hc
    omega

/-- The first two statements of `heap.pop`: the last element is put at the
position 0 and the heap is cut by one. -/
theorem pop_start (a : Int) (t : List Int) :
    ∃ last h1, (a :: t)[(a :: t).length - 1]? = some last ∧
      ((a :: t).set 0 last).take ((a :: t).length - 1) = h1 ∧ h1.Perm t ∧
      ∀ k : Nat, 0 < k → h1[k]? = if k < t.length then (a :: t)[k]? else none := by
  have hl : (a :: t).length - 1 < (a :: t).length := by simp
  refine ⟨(a :: t)[(a :: t).length - 1], _, List.getElem?_eq_getElem hl, rfl, ?_, ?_⟩
  · cases t with
    | nil => simp
    | cons b u =>
      have h1 : ((a :: b :: u).set 0 ((a :: b :: u)[(a :: b :: u).length - 1])).take
          ((a :: b :: u).length - 1) = (b :: u).getLast (by simp) :: (b :: u).dropLast := by
        rw [List.dropLast_eq_take]
        simp [List.getLast_eq_getElem]
      rw [h1]
      have h2 := List.dropLast_append_getLast (l := b :: u) (by simp)
      have h3 : ((b :: u).getLast (by simp) :: (b :: u).dropLast).Perm
          ((b :: u).dropLast ++ [(b :: u).getLast (by simp)]) :=
        (List.perm_append_comm : ([(b :: u).getLast (by simp)] ++ (b :: u).dropLast).Perm _)
      exact h3.trans (List.Perm.of_eq h2)
  · intro k hk
    rw [List.getElem?_take]
    simp only [List.length_cons, Nat.add_sub_cancel]
    by_cases hkt : k < t.length
    · rw [if_pos hkt, if_pos hkt, List.getElem?_set_ne (by omega)]
    · rw [if_neg hkt, if_neg hkt]

/-- The method `heap.pop` returns on a heap that is not empty, whatever the
comparator: the heap is one shorter, and holds the elements it held but for one
occurrence of the element that was at the position 0. -/
theorem pop_spec (less : List Int → Nat → Nat → Bool) (h : List Int) (a : Int)
    (ha : h[0]? = some a) :
    ∃ h2, heap.pop h less = some h2 ∧ h2.length + 1 = h.length ∧ (a :: h2).Perm h := by
  cases h with
  | nil => simp at ha
  | cons a2 t =>
    rw [List.getElem?_cons_zero] at ha
    obtain rfl := Option.some.inj ha
    obtain ⟨last, h1, e1, e2, p1, -⟩ := pop_start a2 t
    obtain ⟨h2, e3, l3, p3⟩ := popLoop_total less (h1.length + 1) h1 0 (by omega) (by omega)
    refine ⟨h2, ?_, ?_, (p3.trans p1).cons a2⟩
    · unfold heap.pop
      rw [if_neg (by simp)]
      simp only [Option.bind_eq_bind, e1, Option.some_bind]
      rw [e2]
      exact e3
    · rw [l3, p1.length_eq]; rfl

/-- The method `heap.pop` with a comparator of the stored elements keeps the heap
invariant. -/
theorem pop_ordered {lt : Int → Int → Bool} (hs : StrictWeakOrder lt) {h h2 : List Int}
    (ho : HeapOrdered lt h) (hp : heap.pop h (elementLess lt) = some h2) :
    HeapOrdered lt h2 := by
  cases h with
  | nil => simp [heap.pop] at hp
  | cons a t =>
    obtain ⟨last, h1, e1, e2, -, g1⟩ := pop_start a t
    unfold heap.pop at hp
    rw [if_neg (by simp)] at hp
    simp only [Option.bind_eq_bind, e1, Option.some_bind] at hp
    rw [e2] at hp
    refine popLoop_ordered hs _ h1 0 h2 ⟨?_, ?_⟩ hp
    · intro p c x y hc hp0 hx hy
      rw [g1 p (by omega)] at hx
      rw [g1 c (by omega)] at hy
      by_cases hct : c < t.length
      · rw [if_pos hct] at hy
        rw [if_pos (by omega)] at hx
        exact ho p c x y hc hx hy
      · rw [if_neg hct] at hy
        exact Option.noConfusion hy
    · intro c x y h0
      omega

/-- In a heap with the heap invariant, no element is less than the one at the
position 0. -/
theorem root_minimum {lt : Int → Int → Bool} (hs : StrictWeakOrder lt) {h : List Int}
    (ho : HeapOrdered lt h) {a : Int} (ha : h[0]? = some a) : ∀ b ∈ h, lt b a = false := by
  have key : ∀ (n k : Nat) (b : Int), k ≤ n → h[k]? = some b → lt b a = false := by
    intro n
    induction n with
    | zero =>
      intro k b hk hb
      have : k = 0 := by omega
      subst this
      rw [ha] at hb
      obtain rfl := Option.some.inj hb
      exact hs.irrefl _
    | succ n ih =>
      intro k b hk hb
      by_cases h0 : k = 0
      · subst h0
        rw [ha] at hb
        obtain rfl := Option.some.inj hb
        exact hs.irrefl _
      · have hkl := lt_length_of_getElem?_eq_some hb
        have hpl : (k - 1) / 2 < h.length := by omega
        have hm := ih ((k - 1) / 2) _ (by omega) (List.getElem?_eq_getElem hpl)
        have hbm := ho ((k - 1) / 2) k _ b (by omega) (List.getElem?_eq_getElem hpl) hb
        exact hs.not_lt_trans hbm hm
  intro b hb
  obtain ⟨k, hk, rfl⟩ := List.getElem_of_mem hb
  exact key k k _ (le_refl _) (List.getElem?_eq_getElem hk)

theorem heapOrdered_nil (lt : Int → Int → Bool) : HeapOrdered lt [] := by
  intro i c a b _ ha _
  simp at ha

/-- A sequence of operations keeps the heap invariant. -/
theorem run_ordered {lt : Int → Int → Bool} (hs : StrictWeakOrder lt) :
    ∀ (ops : List heapOp) (h h2 : List Int), HeapOrdered lt h →
      heap.run (elementLess lt) ops h = some h2 → HeapOrdered lt h2 := by
  intro ops
  induction ops with
  | nil =>
    intro h h2 ho hr
    obtain rfl : h = h2 := Option.some.inj hr
    exact ho
  | cons op rest ih =>
    intro h h2 ho hr
    unfold heap.run at hr
    rw [List.foldlM_cons] at hr
    cases h1 : heap.apply (elementLess lt) h op with
    | none => rw [h1] at hr; exact Option.noConfusion hr
    | some m =>
      rw [h1] at hr
      refine ih m h2 ?_ hr
      cases op with
      | push x => exact push_ordered hs ho h1
      | pop => exact pop_ordered hs ho h1

theorem pushCount_cons_push (x : Int) (ops : List heapOp) :
    pushCount (heapOp.push x :: ops) = pushCount ops + 1 ∧
      popCount (heapOp.push x :: ops) = popCount ops := by
  simp [pushCount, popCount]

theorem pushCount_cons_pop (ops : List heapOp) :
    pushCount (heapOp.pop :: ops) = pushCount ops ∧
      popCount (heapOp.pop :: ops) = popCount ops + 1 := by
  simp [pushCount, popCount]

/-- The length of the heap after a sequence of operations. -/
theorem run_length (less : List Int → Nat → Nat → Bool) :
    ∀ (ops : List heapOp) (h h2 : List Int), heap.run less ops h = some h2 →
      h2.length + popCount ops = h.length + pushCount ops := by
  intro ops
  induction ops with
  | nil =>
    intro h h2 hr
    obtain rfl : h = h2 := Option.some.inj hr
    rfl
  | cons op rest ih =>
    intro h h2 hr
    unfold heap.run at hr
    rw [List.foldlM_cons] at hr
    cases h1 : heap.apply less h op with
    | none => rw [h1] at hr; exact Option.noConfusion hr
    | some m =>
      rw [h1] at hr
      have h3 := ih m h2 hr
      cases op with
      | push x =>
        obtain ⟨m2, e2, l2, -⟩ := push_spec less h x
        have : m = m2 := Option.some.inj (h1.symm.trans e2)
        subst this
        obtain ⟨c1, c2⟩ := pushCount_cons_push x rest
        rw [c1, c2]
        omega
      | pop =>
        cases h with
        | nil => simp [heap.apply, heap.pop] at h1
        | cons a t =>
          obtain ⟨m2, e2, l2, -⟩ := pop_spec less (a :: t) a (by simp)
          have : m = m2 := Option.some.inj (h1.symm.trans e2)
          subst this
          obtain ⟨c1, c2⟩ := pushCount_cons_pop rest
          rw [c1, c2]
          omega

theorem intLess_strictWeakOrder : StrictWeakOrder intLess := by
  refine ⟨fun a => by simp [intLess], fun a b c h1 h2 => ?_, fun a b c h1 => ?_⟩
  · simp only [intLess, decide_eq_true_eq] at h1 h2 ⊢
    omega
  · simp only [intLess, decide_eq_true_eq] at h1 ⊢
    omega

/-- C34: from the empty heap, after any sequence of pushes and pops that has
returned (no pop on the empty heap), with a comparator that compares the elements
stored at two positions by a strict weak order, the element at a child position
`2i+1` or `2i+2` is not less than the element at `i`, and no element is less than
the one at the position 0; a further push returns and keeps this, and so does a
further pop where the heap is not empty. -/
theorem C34_heap_invariant (lt : Int → Int → Bool) (ops : List heapOp) (h : List Int)
    (hs : StrictWeakOrder lt) (hr : heap.run (elementLess lt) ops [] = some h) :
    (∀ (i c : Nat) (a b : Int), (c = 2 * i + 1 ∨ c = 2 * i + 2) → h[i]? = some a →
      h[c]? = some b → lt b a = false) ∧
    (∀ a, h[0]? = some a → ∀ b ∈ h, lt b a = false) ∧
    (∀ x, ∃ h2, heap.push h x (elementLess lt) = some h2 ∧ HeapOrdered lt h2) ∧
    (h ≠ [] → ∃ h2, heap.pop h (elementLess lt) = some h2 ∧ HeapOrdered lt h2) := by
  have ho := run_ordered hs ops [] h (heapOrdered_nil lt) hr
  refine ⟨ho, fun a ha => root_minimum hs ho ha, fun x => ?_, fun hne => ?_⟩
  · obtain ⟨h2, e, -⟩ := push_spec (elementLess lt) h x
    exact ⟨h2, e, push_ordered hs ho e⟩
  · cases h with
    | nil => exact absurd rfl hne
    | cons a t =>
      obtain ⟨h2, e, -⟩ := pop_spec (elementLess lt) (a :: t) a (by simp)
      exact ⟨h2, e, pop_ordered hs ho e⟩

/-- C34 at the pushes of 3, 1, 2 and one pop, with the order of the integers: the
heap is then 2, 3. -/
theorem C34_heap_invariant_witness :
    StrictWeakOrder intLess ∧
    heap.run (elementLess intLess)
      [heapOp.push 3, heapOp.push 1, heapOp.push 2, heapOp.pop] [] = some [2, 3] ∧
    (∀ (i c : Nat) (a b : Int), (c = 2 * i + 1 ∨ c = 2 * i + 2) →
      ([2, 3] : List Int)[i]? = some a → ([2, 3] : List Int)[c]? = some b →
      intLess b a = false) ∧
    (∀ a, ([2, 3] : List Int)[0]? = some a → ∀ b ∈ ([2, 3] : List Int), intLess b a = false) ∧
    (∀ x, ∃ h2, heap.push [2, 3] x (elementLess intLess) = some h2 ∧
      HeapOrdered intLess h2) ∧
    (([2, 3] : List Int) ≠ [] → ∃ h2, heap.pop [2, 3] (elementLess intLess) = some h2 ∧
      HeapOrdered intLess h2) :=
  ⟨intLess_strictWeakOrder, by decide,
    C34_heap_invariant intLess [heapOp.push 3, heapOp.push 1, heapOp.push 2, heapOp.pop]
      [2, 3] intLess_strictWeakOrder (by decide)⟩

/-- C35: whatever the comparator, `heap.push` returns a heap that is one longer and
holds the pushed element and the elements held before; `heap.pop` on a heap that
is not empty returns a heap that is one shorter and holds the elements held
before but for one occurrence of the element that was at the position 0, and on
the empty heap it panics; so after a sequence of operations the length is the
number of pushes less the number of pops, and after as many pops as pushes, from
the empty heap, the heap is empty. -/
theorem C35_push_pop_multiset (less : List Int → Nat → Nat → Bool) (h : List Int) :
    (∀ x, ∃ h2, heap.push h x less = some h2 ∧ h2.length = h.length + 1 ∧
      h2.Perm (x :: h)) ∧
    (∀ a, h[0]? = some a → ∃ h2, heap.pop h less = some h2 ∧ h2.length + 1 = h.length ∧
      (a :: h2).Perm h) ∧
    (h = [] → heap.pop h less = none) ∧
    (∀ ops h2, heap.run less ops h = some h2 →
      h2.length + popCount ops = h.length + pushCount ops) ∧
    (∀ ops h2, heap.run less ops [] = some h2 → pushCount ops = popCount ops → h2 = []) := by
  refine ⟨fun x => push_spec less h x, fun a ha => pop_spec less h a ha, ?_,
    fun ops h2 hr => run_length less ops h h2 hr, fun ops h2 hr hc => ?_⟩
  · rintro rfl
    simp [heap.pop]
  · have := run_length less ops [] h2 hr
    rw [hc] at this
    simp only [List.length_nil, Nat.zero_add, Nat.add_left_eq_self] at this
    exact List.length_eq_zero.mp this

/-- C35 at the heap 1, 3, 2 and the comparator of the test, which compares the
positions: the pop returns 2, 3 (in some order), and two pushes and two pops from
the empty heap leave it empty. -/
theorem C35_push_pop_multiset_witness :
    heap.pop [1, 3, 2] positionLess = some [2, 3] ∧
    heap.run positionLess [heapOp.push 5, heapOp.push 4, heapOp.pop, heapOp.pop] [] =
      some [] ∧
    ∃ h2, heap.pop [1, 3, 2] positionLess = some h2 ∧ h2.length + 1 = 3 ∧
      ((1 : Int) :: h2).Perm [1, 3, 2] :=
  ⟨by decide, by decide, (C35_push_pop_multiset positionLess [1, 3, 2]).2.1 1 rfl⟩

/-! ## The point arrays of the TWKB writer -/

theorem wrapInt64_range (x : Int) : -2 ^ 63 ≤ wrapInt64 x ∧ wrapInt64 x < 2 ^ 63 := by
  unfold wrapInt64
  norm_num
  omega

theorem wrapInt64_of_range {x : Int} (h1 : -2 ^ 63 ≤ x) (h2 : x < 2 ^ 63) : wrapInt64 x = x := by
  unfold wrapInt64
  norm_num at h1 h2 ⊢
  omega

theorem wrapInt64_add_sub {iv : Int} (r : Int) (h1 : -2 ^ 63 ≤ iv) (h2 : iv < 2 ^ 63) :
    wrapInt64 (r + wrapInt64 (iv - r)) = iv := by
  unfold wrapInt64
  norm_num at h1 h2 ⊢
  omega

theorem toInt64_range (x : float64) : -2 ^ 63 ≤ x.toInt64 ∧ x.toInt64 < 2 ^ 63 := by
  cases x with
  | finite q =>
    simp only [float64.toInt64]
    split_ifs with h
    · exact h
    · norm_num
  | inf s => simp only [float64.toInt64]; norm_num
  | nan => simp only [float64.toInt64]; norm_num

theorem scaledCoord_range (w : twkbWriter) (d : Nat) (f : ℚ) :
    -2 ^ 63 ≤ scaledCoord w d f ∧ scaledCoord w d f < 2 ^ 63 :=
  toInt64_range _

theorem scaledCoord_congr {w t : twkbWriter} (h : t.scalings = w.scalings) (d : Nat) (f : ℚ) :
    scaledCoord t d f = scaledCoord w d f := by
  unfold scaledCoord
  rw [h]

theorem getD_set_self {α : Type} (l : List α) (d : Nat) (v x : α) (h : d < l.length) :
    (l.set d v).getD d x = v := by
  simp [List.getD, List.getElem?_set_eq, h]

theorem getD_set_other {α : Type} (l : List α) (d e : Nat) (v x : α) (h : d ≠ e) :
    (l.set d v).getD e x = l.getD e x := by
  simp [List.getD, List.getElem?_set_ne h]

/-- What one pass of the inner loop of `writePointArray` does: the difference to
the reference point is appended, the reference point becomes the scaled
coordinate, and the bounding box is widened (or set, while it is not valid). -/
theorem writeCoord_spec (t : twkbWriter) (d : Nat) (f : ℚ) (ht : ArraysOK t) (hd : d < 4) :
    ArraysOK (writeCoord t d f) ∧
    (writeCoord t d f).twkbHeaders = t.twkbHeaders ∧
    (writeCoord t d f).bboxValid = t.bboxValid ∧
    (writeCoord t d f).twkbContents = t.twkbContents ++
      PutVarint (wrapInt64 (scaledCoord t d f - t.refpoint.getD d 0)) ∧
    (writeCoord t d f).refpoint.getD d 0 = scaledCoord t d f ∧
    (∀ e, e ≠ d → (writeCoord t d f).refpoint.getD e 0 = t.refpoint.getD e 0 ∧
      (writeCoord t d f).bboxMin.getD e 0 = t.bboxMin.getD e 0 ∧
      (writeCoord t d f).bboxMax.getD e 0 = t.bboxMax.getD e 0) ∧
    (t.bboxValid = false → (writeCoord t d f).bboxMin.getD d 0 = scaledCoord t d f ∧
      (writeCoord t d f).bboxMax.getD d 0 = scaledCoord t d f) ∧
    (t.bboxValid = true → t.bboxMin.getD d 0 ≤ t.bboxMax.getD d 0 →
      (writeCoord t d f).bboxMin.getD d 0 = min (t.bboxMin.getD d 0) (scaledCoord t d f) ∧
      (writeCoord t d f).bboxMax.getD d 0 = max (t.bboxMax.getD d 0) (scaledCoord t d f)) := by
  obtain ⟨a1, a2, a3, a4⟩ := ht
  have hr := scaledCoord_range t d f
  have key := wrapInt64_add_sub (t.refpoint.getD d 0) hr.1 hr.2
  unfold writeCoord
  simp only
  by_cases hv : t.bboxValid = true
  · rw [if_neg (by simpa using hv)]
    by_cases h1 : scaledCoord t d f < t.bboxMin.getD d 0
    · rw [if_pos h1]
      refine ⟨⟨a1, by simp [a2], by simp [a3], a4⟩, rfl, rfl, rfl, ?_, ?_, ?_, ?_⟩
      · simp only [key]
        exact getD_set_self _ _ _ _ (by omega)
      · intro e he
        exact ⟨getD_set_other _ _ _ _ _ (Ne.symm he), getD_set_other _ _ _ _ _ (Ne.symm he), rfl⟩
      · intro h; rw [h] at hv; exact Bool.noConfusion hv
      · intro _ hle
        refine ⟨?_, ?_⟩
        · show (t.bboxMin.set d _).getD d 0 = _
          rw [getD_set_self _ _ _ _ (by omega)]
          omega
        · show t.bboxMax.getD d 0 = _
          omega
    · rw [if_neg h1]
      by_cases h2 : scaledCoord t d f > t.bboxMax.getD d 0
      · rw [if_pos h2]
        refine ⟨⟨a1, by simp [a2], a3, by simp [a4]⟩, rfl, rfl, rfl, ?_, ?_, ?_, ?_⟩
        · simp only [key]
          exact getD_set_self _ _ _ _ (by omega)
        · intro e he
          exact ⟨getD_set_other _ _ _ _ _ (Ne.symm he), rfl,
            getD_set_other _ _ _ _ _ (Ne.symm he)⟩
        · intro h; rw [h] at hv; exact Bool.noConfusion hv
        · intro _ hle
          refine ⟨?_, ?_⟩
          · show t.bboxMin.getD d 0 = _
            omega
          · show (t.bboxMax.set d _).getD d 0 = _
            rw [getD_set_self _ _ _ _ (by omega)]
            omega
      · rw [if_neg h2]
        refine ⟨⟨a1, by simp [a2], a3, a4⟩, rfl, rfl, rfl, ?_, ?_, ?_, ?_⟩
        · simp only [key]
          exact getD_set_self _ _ _ _ (by omega)
        · intro e he
          exact ⟨getD_set_other _ _ _ _ _ (Ne.symm he), rfl, rfl⟩
        · intro h; rw [h] at hv; exact Bool.noConfusion hv
        · intro _ hle
          refine ⟨?_, ?_⟩
          · show t.bboxMin.getD d 0 = _
            omega
          · show t.bboxMax.getD d 0 = _
            omega
  · rw [if_pos (by simpa using hv)]
    refine ⟨⟨a1, by simp [a2], by simp [a3], by simp [a4]⟩, rfl, rfl, rfl, ?_, ?_, ?_, ?_⟩
    · simp only [key]
      exact getD_set_self _ _ _ _ (by omega)
    · intro e he
      exact ⟨getD_set_other _ _ _ _ _ (Ne.symm he), getD_set_other _ _ _ _ _ (Ne.symm he),
        getD_set_other _ _ _ _ _ (Ne.symm he)⟩
    · intro _
      exact ⟨getD_set_self _ _ _ _ (by omega), getD_set_self _ _ _ _ (by omega)⟩
    · intro h; exact absurd h hv

theorem scaledAt_congr {w t : twkbWriter} (h1 : t.scalings = w.scalings)
    (h2 : t.dimensions = w.dimensions) (coords : List ℚ) (i d : Nat) :
    scaledAt t coords i d = scaledAt w coords i d := by
  unfold scaledAt
  rw [h2, scaledCoord_congr h1]

/-- The inner loop of `writePointArray` over the dimensions `ds` of the point `i`
(`D` is the number of dimensions the index is computed with). -/
theorem writeDims_spec (coords : List ℚ) (i D : Nat) : ∀ (ds : List Nat) (t : twkbWriter),
    ds.Nodup → (∀ d ∈ ds, d < 4 ∧ i * D + d < coords.length) → ArraysOK t →
    ∃ t2, ds.foldlM (fun (t : twkbWriter) d => do
        let fval ← coords[i * D + d]?
        pure (writeCoord t d fval)) t = some t2 ∧
      ArraysOK t2 ∧ SameConfig t t2 ∧ t2.twkbHeaders = t.twkbHeaders ∧
      t2.bboxValid = t.bboxValid ∧
      t2.twkbContents = t.twkbContents ++ (ds.map (fun d =>
        wrapInt64 (scaledCoord t d (coords.getD (i * D + d) 0) - t.refpoint.getD d 0))).flatMap
          PutVarint ∧
      (∀ d ∈ ds, t2.refpoint.getD d 0 = scaledCoord t d (coords.getD (i * D + d) 0)) ∧
      (∀ e, e ∉ ds → t2.refpoint.getD e 0 = t.refpoint.getD e 0 ∧
        t2.bboxMin.getD e 0 = t.bboxMin.getD e 0 ∧ t2.bboxMax.getD e 0 = t.bboxMax.getD e 0) ∧
      (t.bboxValid = false → ∀ d ∈ ds,
        t2.bboxMin.getD d 0 = scaledCoord t d (coords.getD (i * D + d) 0) ∧
        t2.bboxMax.getD d 0 = scaledCoord t d (coords.getD (i * D + d) 0)) ∧
      (t.bboxValid = true → ∀ d ∈ ds, t.bboxMin.getD d 0 ≤ t.bboxMax.getD d 0 →
        t2.bboxMin.getD d 0 =
          min (t.bboxMin.getD d 0) (scaledCoord t d (coords.getD (i * D + d) 0)) ∧
        t2.bboxMax.getD d 0 =
          max (t.bboxMax.getD d 0) (scaledCoord t d (coords.getD (i * D + d) 0))) := by
  intro ds
  induction ds with
  | nil =>
    intro t _ _ ht
    exact ⟨t, rfl, ht, SameConfig.unchanged t, rfl, rfl, by simp,
      fun d hd => absurd hd (List.not_mem_nil d), fun e _ => ⟨rfl, rfl, rfl⟩,
      fun _ d hd => absurd hd (List.not_mem_nil d),
      fun _ d hd => absurd hd (List.not_mem_nil d)⟩
  | cons d rest ih =>
    intro t hn hb ht
    obtain ⟨hdr, hnr⟩ := List.nodup_cons.mp hn
    obtain ⟨hd4, hdc⟩ := hb d (List.mem_cons_self _ _)
    have hget : coords[i * D + d]? = some (coords.getD (i * D + d) 0) := by
      rw [List.getD_eq_getElem?_getD, List.getElem?_eq_getElem hdc]
      rfl
    obtain ⟨b1, b2, b3, b4, b5, b6, b7, b8⟩ :=
      writeCoord_spec t d (coords.getD (i * D + d) 0) ht hd4
    have cfg := writeCoord_config t d (coords.getD (i * D + d) 0)
    obtain ⟨t2, e2, c1, c2, c3, c4, c5, c6, c7, c8, c9⟩ :=
      ih (writeCoord t d (coords.getD (i * D + d) 0)) hnr
        (fun x hx => hb x (List.mem_cons_of_mem _ hx)) b1
    have hsc : ∀ x f, scaledCoord (writeCoord t d (coords.getD (i * D + d) 0)) x f =
        scaledCoord t x f := fun x f => scaledCoord_congr cfg.scalings x f
    have hne : ∀ x ∈ rest, x ≠ d := fun x hx hxd => hdr (hxd ▸ hx)
    refine ⟨t2, ?_, c1, cfg.chain c2, c3.trans b2, c4.trans b3, ?_, ?_, ?_, ?_, ?_⟩
    · rw [List.foldlM_cons]
      simp only [hget, Option.bind_eq_bind, Option.some_bind, Option.pure_def]
      exact e2
    · rw [c5, b4, List.map_cons, List.flatMap_cons, List.append_assoc]
      have hm : rest.map (fun x => wrapInt64
            (scaledCoord (writeCoord t d (coords.getD (i * D + d) 0)) x
                (coords.getD (i * D + x) 0) -
              (writeCoord t d (coords.getD (i * D + d) 0)).refpoint.getD x 0)) =
          rest.map (fun x => wrapInt64 (scaledCoord t x (coords.getD (i * D + x) 0) -
            t.refpoint.getD x 0)) :=
        List.map_congr_left (fun x hx => by rw [hsc, (b6 x (hne x hx)).1])
      rw [hm]
    · intro x hx
      rcases List.mem_cons.mp hx with rfl | hx
      · rw [(c7 x hdr).1, b5]
      · rw [c6 x hx, hsc]
    · intro e he
      have he1 : e ≠ d := fun h => he (h ▸ List.mem_cons_self _ _)
      have he2 : e ∉ rest := fun h => he (List.mem_cons_of_mem _ h)
      obtain ⟨g1, g2, g3⟩ := c7 e he2
      obtain ⟨k1, k2, k3⟩ := b6 e he1
      exact ⟨g1.trans k1, g2.trans k2, g3.trans k3⟩
    · intro hv x hx
      rcases List.mem_cons.mp hx with rfl | hx
      · obtain ⟨-, g2, g3⟩ := c7 x hdr
        rw [g2, g3]
        exact b7 hv
      · have := c8 (b3.trans hv) x hx
        rw [hsc] at this
        exact this
    · intro hv x hx hle
      rcases List.mem_cons.mp hx with rfl | hx
      · obtain ⟨-, g2, g3⟩ := c7 x hdr
        rw [g2, g3]
        exact b8 hv hle
      · obtain ⟨-, k2, k3⟩ := b6 x (hne x hx)
        have := c9 (b3.trans hv) x hx (by rw [k2, k3]; exact hle)
        rw [hsc, k2, k3] at this
        exact this

theorem scaledPoint_getD (w : twkbWriter) (coords : List ℚ) (i d : Nat)
    (hd : d < w.dimensions) : (scaledPoint w coords i).getD d 0 = scaledAt w coords i d := by
  unfold scaledPoint
  rw [List.getD_eq_getElem?_getD, List.getElem?_map, List.getElem?_range hd]
  rfl

/-- The body of the outer loop of `writePointArray` for the point `i`. -/
theorem writePointAt_spec (coords : List ℚ) (w : twkbWriter) (i : Nat) (hw : ArraysOK w)
    (hc : (i + 1) * w.dimensions ≤ coords.length) :
    ∃ w2, writePointAt coords w i = some w2 ∧ ArraysOK w2 ∧ SameConfig w w2 ∧
      w2.twkbHeaders = w.twkbHeaders ∧
      w2.bboxValid = (w.bboxValid || decide (i = 0)) ∧
      w2.twkbContents = w.twkbContents ++ ((List.range w.dimensions).map (fun d =>
        wrapInt64 (scaledAt w coords i d - w.refpoint.getD d 0))).flatMap PutVarint ∧
      (∀ d, d < w.dimensions → w2.refpoint.getD d 0 = scaledAt w coords i d) ∧
      (∀ pts, (i = 0 ∨ w.bboxValid = true) → Box w.dimensions w pts →
        Box w.dimensions w2 (pts ++ [scaledPoint w coords i])) := by
  have hdims := hw.dims
  obtain ⟨w1, e1, c1, c2, c3, c4, c5, c6, c7, c8, c9⟩ := writeDims_spec coords i w.dimensions
    (List.range w.dimensions) w (List.nodup_range _)
    (fun d hd => by
      have := List.mem_range.mp hd
      refine ⟨by omega, ?_⟩
      have : i * w.dimensions + d < (i + 1) * w.dimensions := by
        rw [Nat.add_mul, Nat.one_mul]; omega
      omega) hw
  have hres : writePointAt coords w i =
      some (if i = 0 then { w1 with bboxValid := true } else w1) := by
    unfold writePointAt
    rw [e1]
    rfl
  have hmin : ∀ (v : twkbWriter), v = (if i = 0 then { w1 with bboxValid := true } else w1) →
      v.bboxMin = w1.bboxMin ∧ v.bboxMax = w1.bboxMax ∧ v.refpoint = w1.refpoint ∧
      v.twkbContents = w1.twkbContents ∧ v.twkbHeaders = w1.twkbHeaders ∧
      v.bboxValid = (w1.bboxValid || decide (i = 0)) ∧ SameConfig w1 v ∧ ArraysOK v := by
    intro v hv
    by_cases h0 : i = 0
    · rw [if_pos h0] at hv
      subst hv
      exact ⟨rfl, rfl, rfl, rfl, rfl, by simp [h0],
        ⟨rfl, rfl, rfl, rfl, rfl, rfl, rfl, rfl, rfl, rfl, rfl, rfl, rfl, rfl, rfl⟩,
        ⟨c1.dims, c1.refpoint, c1.bboxMin, c1.bboxMax⟩⟩
    · rw [if_neg h0] at hv
      subst hv
      exact ⟨rfl, rfl, rfl, rfl, rfl, by simp [h0], SameConfig.unchanged _, c1⟩
  obtain ⟨m1, m2, m3, m4, m5, m6, m7, m8⟩ := hmin _ rfl
  refine ⟨_, hres, m8, c2.chain m7, m5.trans c3, ?_, ?_, ?_, ?_⟩
  · rw [m6, c4]
  · rw [m4, c5]
    rfl
  · intro d hd
    rw [m3, c6 d (List.mem_range.mpr hd)]
    rfl
  · intro pts hv box
    constructor
    · intro hf
      rw [m6, c4] at hf
      rcases hv with h0 | h1
      · simp [h0] at hf
      · simp [h1] at hf
    · intro _ d hd
      have hdm := List.mem_range.mpr hd
      have hp : (scaledPoint w coords i).getD d 0 =
          scaledCoord w d (coords.getD (i * w.dimensions + d) 0) := scaledPoint_getD w coords i d hd
      rw [m1, m2]
      by_cases hval : w.bboxValid = true
      · obtain ⟨q1, ⟨pa, hpa, ea⟩, ⟨pb, hpb, eb⟩⟩ := box.bounds hval d hd
        have hle : w.bboxMin.getD d 0 ≤ w.bboxMax.getD d 0 := by
          have := (q1 pa hpa).2
          rw [ea] at this
          exact this
        obtain ⟨g1, g2⟩ := c9 hval d hdm hle
        rw [g1, g2, ← hp]
        refine ⟨?_, ?_, ?_⟩
        · intro p hp2
          rcases List.mem_append.mp hp2 with h1 | h1
          · have := q1 p h1
            exact ⟨le_trans (min_le_left _ _) this.1, le_trans this.2 (le_max_left _ _)⟩
          · obtain rfl := List.mem_singleton.mp h1
            exact ⟨min_le_right _ _, le_max_right _ _⟩
        · by_cases hlt : (scaledPoint w coords i).getD d 0 < w.bboxMin.getD d 0
          · exact ⟨_, List.mem_append_right _ (List.mem_singleton.mpr rfl),
              (min_eq_right (le_of_lt hlt)).symm⟩
          · exact ⟨pa, List.mem_append_left _ hpa,
              ea.trans (min_eq_left (not_lt.mp hlt)).symm⟩
        · by_cases hlt : w.bboxMax.getD d 0 < (scaledPoint w coords i).getD d 0
          · exact ⟨_, List.mem_append_right _ (List.mem_singleton.mpr rfl),
              (max_eq_right (le_of_lt hlt)).symm⟩
          · exact ⟨pb, List.mem_append_left _ hpb,
              eb.trans (max_eq_left (not_lt.mp hlt)).symm⟩
      · have hvf : w.bboxValid = false := by
          cases hb : w.bboxValid with
          | false => rfl
          | true => exact absurd hb hval
        obtain ⟨g1, g2⟩ := c8 hvf d hdm
        rw [g1, g2, ← hp, box.start hvf]
        refine ⟨?_, ?_, ?_⟩
        · intro p hp2
          obtain rfl := List.mem_singleton.mp (by simpa using hp2)
          exact ⟨le_refl _, le_refl _⟩
        · exact ⟨_, by simp, rfl⟩
        · exact ⟨_, by simp, rfl⟩

/-- The outer loop of `writePointArray` from the point `s` on, for `k` points, in a
writer `t` whose dimensions and scalings are those of `w`. -/
theorem writePointRange_spec (w : twkbWriter) (coords : List ℚ) : ∀ (k s : Nat)
    (t : twkbWriter), ArraysOK t → t.dimensions = w.dimensions → t.scalings = w.scalings →
    (s + k) * w.dimensions ≤ coords.length →
    ∃ t2, (List.range' s k).foldlM (writePointAt coords) t = some t2 ∧ ArraysOK t2 ∧
      SameConfig t t2 ∧ t2.twkbHeaders = t.twkbHeaders ∧
      t2.twkbContents = t.twkbContents ++ ((List.range' s k).flatMap (fun i =>
        (List.range w.dimensions).map (fun d => wrapInt64 (scaledAt w coords i d -
          (if i = s then t.refpoint.getD d 0 else scaledAt w coords (i - 1) d))))).flatMap
            PutVarint ∧
      (∀ d, d < w.dimensions → t2.refpoint.getD d 0 =
        if k = 0 then t.refpoint.getD d 0 else scaledAt w coords (s + k - 1) d) ∧
      ((s = 0 ∨ t.bboxValid = true) → 0 < k → t2.bboxValid = true) ∧ (k = 0 → t2 = t) ∧
      (∀ pts, (s = 0 ∨ t.bboxValid = true) → Box w.dimensions t pts →
        Box w.dimensions t2 (pts ++ (List.range' s k).map (scaledPoint w coords))) := by
  intro k
  induction k with
  | zero =>
    intro s t ht _ _ _
    exact ⟨t, rfl, ht, SameConfig.unchanged t, rfl, by simp, fun d _ => by simp,
      fun _ h => absurd h (lt_irrefl 0), fun _ => rfl, fun pts _ hb => by simpa using hb⟩
  | succ k ih =>
    intro s t ht hdim hsc hc
    have hc1 : (s + 1) * t.dimensions ≤ coords.length := by
      rw [hdim]
      refine le_trans (Nat.mul_le_mul_right _ ?_) hc
      omega
    obtain ⟨t1, e1, a1, a2, a3, a4, a5, a6, a7⟩ := writePointAt_spec coords t s ht hc1
    have hsa : ∀ i d, scaledAt t coords i d = scaledAt w coords i d :=
      fun i d => scaledAt_congr hsc hdim coords i d
    have hsp : scaledPoint t coords s = scaledPoint w coords s := by
      unfold scaledPoint
      rw [hdim]
      exact List.map_congr_left (fun d _ => hsa s d)
    obtain ⟨t2, e2, b1, b2, b3, b4, b5, b6, b7, b8⟩ := ih (s + 1) t1 a1
      (a2.dimensions.trans hdim) (a2.scalings.trans hsc) (by
        have : s + 1 + k = s + (k + 1) := by omega
        rw [this]; exact hc)
    have hv1 : (s = 0 ∨ t.bboxValid = true) → t1.bboxValid = true := by
      intro hv
      rw [a4]
      rcases hv with h0 | h1
      · simp [h0]
      · simp [h1]
    refine ⟨t2, ?_, b1, a2.chain b2, b3.trans a3, ?_, ?_, fun hv _ => ?_, fun h => by omega, ?_⟩
    · rw [List.range'_succ, List.foldlM_cons, e1]
      exact e2
    · rw [b4, a5, List.range'_succ, List.flatMap_cons, List.flatMap_append, List.append_assoc,
        hdim]
      congr 2
      · congr 1
        apply List.map_congr_left
        intro d _
        rw [hsa, if_pos rfl]
      · congr 1
        apply List.flatMap_congr
        intro i hi
        have hi1 : s + 1 ≤ i := (List.mem_range'_1.mp hi).1
        apply List.map_congr_left
        intro d hd
        rw [if_neg (show ¬ i = s by omega)]
        by_cases his : i = s + 1
        · rw [if_pos his, a6 d (by rw [hdim]; exact List.mem_range.mp hd), hsa, his]
          rfl
        · rw [if_neg his]
    · intro d hd
      rw [if_neg (Nat.succ_ne_zero k), b5 d hd]
      by_cases hk : k = 0
      · rw [if_pos hk, a6 d (by rw [hdim]; exact hd), hsa, hk]
        rfl
      · rw [if_neg hk]
        have : s + 1 + k - 1 = s + (k + 1) - 1 := by omega
        rw [this]
    · by_cases hk : k = 0
      · rw [b7 hk]
        exact hv1 hv
      · exact b6 (Or.inr (hv1 hv)) (by omega)
    · intro pts hv box
      have box0 : Box t.dimensions t pts := by rw [hdim]; exact box
      have box1 := a7 pts hv box0
      rw [hdim, hsp] at box1
      have box2 := b8 _ (Or.inr (hv1 hv)) box1
      rw [List.range'_succ, List.map_cons]
      rw [List.append_assoc] at box2
      exact box2

/-- The method `writePointArray` on an array that holds the coordinates of
`numPoints` points: it returns, appends the differences of each point to the one
before it (for the first point, to the reference point of the writer), leaves the
last point as reference point, and widens the bounding box by the points. -/
theorem writePointArray_spec (w : twkbWriter) (numPoints : Nat) (coords : List ℚ)
    (hw : ArraysOK w) (hc : numPoints * w.dimensions ≤ coords.length) :
    ∃ w2, writePointArray w numPoints coords = some w2 ∧ ArraysOK w2 ∧ SameConfig w w2 ∧
      w2.twkbHeaders = w.twkbHeaders ∧
      w2.twkbContents = w.twkbContents ++ (arrayDeltas w numPoints coords).flatMap PutVarint ∧
      (∀ d, d < w.dimensions → w2.refpoint.getD d 0 =
        if numPoints = 0 then w.refpoint.getD d 0 else scaledAt w coords (numPoints - 1) d) ∧
      (0 < numPoints → w2.bboxValid = true) ∧ (numPoints = 0 → w2 = w) ∧
      (∀ pts, Box w.dimensions w pts →
        Box w.dimensions w2 (pts ++ scaledPoints w numPoints coords)) := by
  obtain ⟨w2, e, a1, a2, a3, a4, a5, a6, a7, a8⟩ := writePointRange_spec w coords numPoints 0 w
    hw rfl rfl (by rw [Nat.zero_add]; exact hc)
  refine ⟨w2, ?_, a1, a2, a3, ?_, ?_, a6 (Or.inl rfl), a7, ?_⟩
  · unfold writePointArray
    rw [List.range_eq_range']
    exact e
  · rw [a4]
    unfold arrayDeltas pointDeltas refBefore
    rw [List.range_eq_range' (n := numPoints)]
  · intro d hd
    rw [a5 d hd, Nat.zero_add]
  · intro pts box
    have := a8 pts (Or.inl rfl) box
    unfold scaledPoints
    rw [List.range_eq_range' (n := numPoints)]
    exact this

/-- The writer `newtwkbWriter` returns has arrays of the length `twkbMaxDimensions`,
at most that many dimensions, and the reference point 0 in every dimension. -/
theorem newtwkbWriter_arrays (hasZ hasM : Bool) (precXY precZ precM : Int)
    (hasSize hasBBox closeRings : Bool) (idList : List Int) :
    ArraysOK (newtwkbWriter hasZ hasM precXY precZ precM hasSize hasBBox closeRings idList) ∧
    (newtwkbWriter hasZ hasM precXY precZ precM hasSize hasBBox closeRings idList).refpoint =
      [0, 0, 0, 0] ∧
    (newtwkbWriter hasZ hasM precXY precZ precM hasSize hasBBox closeRings idList).bboxValid =
      false := by
  unfold newtwkbWriter
  cases hasZ <;> cases hasM <;> simp only [] <;> split_ifs <;>
    exact ⟨⟨by simp, rfl, rfl, rfl⟩, rfl, rfl⟩

theorem wrapInt64_add_left (x y : Int) : wrapInt64 (wrapInt64 x + y) = wrapInt64 (x + y) := by
  unfold wrapInt64
  norm_num
  omega

theorem scaledAt_range (w : twkbWriter) (coords : List ℚ) (i d : Nat) :
    -2 ^ 63 ≤ scaledAt w coords i d ∧ scaledAt w coords i d < 2 ^ 63 :=
  scaledCoord_range _ _ _

/-- The running sums of the differences written, in `int64` arithmetic, are the
scaled coordinates. -/
theorem running_sum (w : twkbWriter) (coords : List ℚ) (d : Nat) : ∀ (i : Nat),
    wrapInt64 (w.refpoint.getD d 0 + ((List.range (i + 1)).map (fun j =>
      wrapInt64 (scaledAt w coords j d - refBefore w coords j d))).sum) =
      scaledAt w coords i d := by
  intro i
  induction i with
  | zero =>
    have h0 : refBefore w coords 0 d = w.refpoint.getD d 0 := by simp [refBefore]
    rw [List.range_succ, List.range_zero, List.nil_append, List.map_singleton,
      List.sum_singleton, h0]
    exact wrapInt64_add_sub (w.refpoint.getD d 0) (scaledAt_range w coords 0 d).1
      (scaledAt_range w coords 0 d).2
  | succ i ih =>
    have h1 : refBefore w coords (i + 1) d = scaledAt w coords i d := by
      simp [refBefore]
    rw [List.range_succ, List.map_append, List.sum_append, List.map_singleton,
      List.sum_singleton, ← Int.add_assoc, ← wrapInt64_add_left, ih, h1]
    exact wrapInt64_add_sub (scaledAt w coords i d) (scaledAt_range w coords (i + 1) d).1
      (scaledAt_range w coords (i + 1) d).2

/-- C36: on a coordinate array that holds `numPoints` points, `writePointArray`
returns; it appends to the contents, point by point and for each dimension in
order, the signed varint of the difference (in `int64` arithmetic) between the
scaled integer coordinate of the point and the reference point, which is the scaled
coordinate of the point before it and, for the first point, the reference point the
writer has at the call (0 in a new writer); after the call the reference point is
the scaled coordinate of the last point; the reference point plus the running sum
of the differences, in `int64`, is the scaled coordinate of each point; and a
difference that fits in an `int64` is written as it is. -/
theorem C36_delta_encoding (w : twkbWriter) (numPoints : Nat) (coords : List ℚ)
    (hw : ArraysOK w) (hc : numPoints * w.dimensions ≤ coords.length) :
    ∃ w2, writePointArray w numPoints coords = some w2 ∧
      w2.twkbContents = w.twkbContents ++ ((List.range numPoints).flatMap (fun i =>
        (List.range w.dimensions).map (fun d =>
          wrapInt64 (scaledAt w coords i d - refBefore w coords i d)))).flatMap PutVarint ∧
      (∀ d, d < w.dimensions → 0 < numPoints →
        w2.refpoint.getD d 0 = scaledAt w coords (numPoints - 1) d) ∧
      (∀ i d, wrapInt64 (w.refpoint.getD d 0 + ((List.range (i + 1)).map (fun j =>
        wrapInt64 (scaledAt w coords j d - refBefore w coords j d))).sum) =
          scaledAt w coords i d) ∧
      (∀ i d, -2 ^ 63 ≤ scaledAt w coords i d - refBefore w coords i d →
        scaledAt w coords i d - refBefore w coords i d < 2 ^ 63 →
        wrapInt64 (scaledAt w coords i d - refBefore w coords i d) =
          scaledAt w coords i d - refBefore w coords i d) ∧
      ∀ (hasZ hasM : Bool) (precXY precZ precM : Int) (hasSize hasBBox closeRings : Bool)
        (idList : List Int),
        (newtwkbWriter hasZ hasM precXY precZ precM hasSize hasBBox closeRings
          idList).refpoint = [0, 0, 0, 0] := by
  obtain ⟨w2, e, -, -, -, a4, a5, -⟩ := writePointArray_spec w numPoints coords hw hc
  refine ⟨w2, e, a4, fun d hd hn => ?_, fun i d => running_sum w coords d i,
    fun i d h1 h2 => wrapInt64_of_range h1 h2,
    fun hasZ hasM precXY precZ precM hasSize hasBBox closeRings idList =>
      (newtwkbWriter_arrays hasZ hasM precXY precZ precM hasSize hasBBox closeRings idList).2.1⟩
  rw [a5 d hd, if_neg (by omega)]

/-- C36 at a new writer for two dimensions with the scale 1 and the points (1, 2)
and (4, 6): the differences 1, 2, 3, 4 are written, as the bytes 2, 4, 6, 8. -/
theorem C36_delta_encoding_witness :
    ∃ w2, writePointArray (newtwkbWriter false false 0 0 0 false false false []) 2
        [1, 2, 4, 6] = some w2 ∧
      w2.twkbContents = [2, 4, 6, 8] ∧ w2.refpoint = [4, 6, 0, 0] ∧
      w2.twkbContents = (newtwkbWriter false false 0 0 0 false false false []).twkbContents ++
        ((List.range 2).flatMap (fun i =>
          (List.range (newtwkbWriter false false 0 0 0 false false false []).dimensions).map
            (fun d => wrapInt64
              (scaledAt (newtwkbWriter false false 0 0 0 false false false []) [1, 2, 4, 6] i d -
                refBefore (newtwkbWriter false false 0 0 0 false false false []) [1, 2, 4, 6]
                  i d)))).flatMap PutVarint := by
  obtain ⟨w2, e, a, -⟩ := C36_delta_encoding
    (newtwkbWriter false false 0 0 0 false false false []) 2 [1, 2, 4, 6]
    (newtwkbWriter_arrays false false 0 0 0 false false false []).1 (by decide)
  have hv : writePointArray (newtwkbWriter false false 0 0 0 false false false []) 2
      [1, 2, 4, 6] = some { newtwkbWriter false false 0 0 0 false false false [] with
        twkbContents := [2, 4, 6, 8], refpoint := [4, 6, 0, 0], bboxValid := true,
        bboxMin := [1, 2, 0, 0], bboxMax := [4, 6, 0, 0] } := by
    with_unfolding_all decide
  rw [hv] at e
  obtain rfl := Option.some.inj e
  exact ⟨_, hv, rfl, rfl, a⟩

/-! ## The ID list of the TWKB writer -/

theorem appends_refl (w : twkbWriter) : Appends w w := ⟨rfl, [], by simp⟩

theorem appends_trans {a b c : twkbWriter} (h1 : Appends a b) (h2 : Appends b c) :
    Appends a c := by
  obtain ⟨r1, e1⟩ := h1.contents
  obtain ⟨r2, e2⟩ := h2.contents
  exact ⟨h2.headers.trans h1.headers, r1 ++ r2, by rw [e2, e1, List.append_assoc]⟩

theorem appends_foldlM {α : Type} (f : twkbWriter → α → Option twkbWriter)
    (hf : ∀ t x t2, f t x = some t2 → Appends t t2) :
    ∀ (l : List α) (w w2 : twkbWriter), l.foldlM f w = some w2 → Appends w w2 := by
  intro l
  induction l with
  | nil =>
    intro w w2 h
    obtain rfl : w = w2 := Option.some.inj h
    exact appends_refl w
  | cons x rest ih =>
    intro w w2 h
    rw [List.foldlM_cons] at h
    cases h1 : f w x with
    | none => rw [h1] at h; exact Option.noConfusion h
    | some t =>
      rw [h1] at h
      exact appends_trans (hf w x t h1) (ih t w2 h)

theorem writeCoord_appends (w : twkbWriter) (d : Nat) (fval : ℚ) :
    Appends w (writeCoord w d fval) := by
  unfold writeCoord
  simp only
  split_ifs <;> exact ⟨rfl, _, rfl⟩

theorem writePointAt_appends (coords : List ℚ) (w : twkbWriter) (i : Nat) (w2 : twkbWriter)
    (h : writePointAt coords w i = some w2) : Appends w w2 := by
  simp only [writePointAt, Option.bind_eq_bind, Option.bind_eq_some, Option.pure_def,
    Option.some.injEq] at h
  obtain ⟨w1, h1, rfl⟩ := h
  have c1 : Appends w w1 := by
    refine appends_foldlM _ ?_ _ w w1 h1
    intro t d t2 ht
    simp only [Option.bind_eq_some, Option.some.injEq] at ht
    obtain ⟨fval, -, rfl⟩ := ht
    exact writeCoord_appends t d fval
  split_ifs
  · exact appends_trans c1 ⟨rfl, [], by simp⟩
  · exact c1

theorem writePointArray_appends (w : twkbWriter) (n : Nat) (coords : List ℚ) (w2 : twkbWriter)
    (h : writePointArray w n coords = some w2) : Appends w w2 :=
  appends_foldlM _ (writePointAt_appends coords) _ w w2 h

theorem writeUnsignedVarint_appends (w : twkbWriter) (v : Nat) :
    Appends w (writeUnsignedVarint w v) := ⟨rfl, _, rfl⟩

theorem writePointCoords_appends (w : twkbWriter) (pt : Point) (w2 : twkbWriter)
    (h : writePointCoords w pt = some w2) : Appends w w2 := by
  unfold writePointCoords at h
  cases hc : pt.ctype <;> rw [hc] at h <;> exact writePointArray_appends _ _ _ _ h

theorem writeLineStringCoords_appends (w : twkbWriter) (ls : LineString) (w2 : twkbWriter)
    (h : writeLineStringCoords w ls = some w2) : Appends w w2 :=
  appends_trans (writeUnsignedVarint_appends w _) (writePointArray_appends _ _ _ _ h)

theorem writeRing_appends (w : twkbWriter) (ls : LineString) (w2 : twkbWriter)
    (h : writeRing w ls = some w2) : Appends w w2 :=
  appends_trans (writeUnsignedVarint_appends w _) (writePointArray_appends _ _ _ _ h)

theorem writePolygonRings_appends (w : twkbWriter) (poly : PolygonValue) (w2 : twkbWriter)
    (h : writePolygonRings w poly = some w2) : Appends w w2 := by
  unfold writePolygonRings at h
  simp only at h
  split_ifs at h
  · obtain rfl := Option.some.inj h
    exact writeUnsignedVarint_appends w _
  · simp only [Option.bind_eq_bind, Option.bind_eq_some] at h
    obtain ⟨w1, h1, h2⟩ := h
    exact appends_trans
      (appends_trans (writeUnsignedVarint_appends w _) (writeRing_appends _ _ _ h1))
      (appends_foldlM _ writeRing_appends _ _ _ h2)

theorem writeSubGeometries_appends : ∀ (geoms : List Geometry) (w w2 : twkbWriter),
    writeSubGeometries w geoms = some w2 → Appends w w2 := by
  intro geoms
  induction geoms with
  | nil =>
    intro w w2 h
    rw [writeSubGeometries] at h
    obtain rfl := Option.some.inj h
    exact appends_refl w
  | cons g rest ih =>
    intro w w2 h
    rw [writeSubGeometries] at h
    cases hg : writeGeometryByType (copytwkbWriter w) g with
    | none => rw [hg] at h; exact Option.noConfusion h
    | some r =>
      obtain ⟨sub, err⟩ := r
      rw [hg] at h
      have c1 : ∀ bytes : List Nat,
          Appends w { w with twkbContents := w.twkbContents ++ bytes } :=
        fun _ => ⟨rfl, _, rfl⟩
      exact appends_trans (c1 _) (ih _ w2 h)

/-- The loop over the sub-geometries only appends to the contents. -/
theorem partsLoop_appends (g : Geometry) (t t2 : twkbWriter) (h : partsLoop g t = some t2) :
    Appends t t2 := by
  cases g with
  | point pt => obtain rfl := Option.some.inj h; exact appends_refl _
  | lineString ls => obtain rfl := Option.some.inj h; exact appends_refl _
  | polygon poly => obtain rfl := Option.some.inj h; exact appends_refl _
  | multiPoint mp => exact appends_foldlM _ writePointCoords_appends _ _ _ h
  | multiLineString ml => exact appends_foldlM _ writeLineStringCoords_appends _ _ _ h
  | multiPolygon mp => exact appends_foldlM _ writePolygonRings_appends _ _ _ h
  | geometryCollection ctype isEmpty geoms => exact writeSubGeometries_appends geoms _ _ h

/-- The method that writes a geometry with `n` sub-geometries, as one expression:
type and precision, the check of the coordinates type, the empty header or the
initial headers, the count, the ID list and the loop over the sub-geometries. -/
theorem writeGeometryByType_parts (w : twkbWriter) (g : Geometry) (n : Nat)
    (hn : g.numParts = some n) :
    writeGeometryByType w g =
      (if g.CoordinatesType ≠ (writeTypeAndPrecision w g.twkbType).ctype then
        some (writeTypeAndPrecision w g.twkbType, true)
      else if g.IsEmpty then
        some (writeIsEmptyHeader (writeTypeAndPrecision w g.twkbType), false)
      else if (writeIDList (writeUnsignedVarint
          (writeInitialHeaders (writeTypeAndPrecision w g.twkbType)) n) n).2 = true then
        some ((writeIDList (writeUnsignedVarint
          (writeInitialHeaders (writeTypeAndPrecision w g.twkbType)) n) n).1, true)
      else (partsLoop g (writeIDList (writeUnsignedVarint
          (writeInitialHeaders (writeTypeAndPrecision w g.twkbType)) n) n).1).map
            (fun t => (t, false))) := by
  cases g with
  | point pt => exact Option.noConfusion hn
  | lineString ls => exact Option.noConfusion hn
  | polygon poly => exact Option.noConfusion hn
  | multiPoint mp =>
    obtain rfl := Option.some.inj hn
    rw [writeGeometryByType]
    rfl
  | multiLineString ml =>
    obtain rfl := Option.some.inj hn
    rw [writeGeometryByType]
    rfl
  | multiPolygon mp =>
    obtain rfl := Option.some.inj hn
    rw [writeGeometryByType]
    rfl
  | geometryCollection ctype isEmpty geoms =>
    obtain rfl := Option.some.inj hn
    rw [writeGeometryByType]
    rfl

theorem writeMetadataHeader_fields (w : twkbWriter) (m : Nat) :
    (writeMetadataHeader w m).twkbHeaders = w.twkbHeaders ++ [m % 256] ∧
    (writeMetadataHeader w m).twkbContents = w.twkbContents ∧
    (writeMetadataHeader w m).hasExt = w.hasExt := by
  unfold writeMetadataHeader writeHeaderByte
  split_ifs <;> exact ⟨rfl, rfl, rfl⟩

theorem writeExtendedPrecision_fields (w : twkbWriter) :
    (∃ b, (writeExtendedPrecision w).twkbHeaders = w.twkbHeaders ++ [b]) ∧
    (writeExtendedPrecision w).twkbContents = w.twkbContents := by
  unfold writeExtendedPrecision writeHeaderByte
  exact ⟨⟨_, rfl⟩, rfl⟩

theorem metadata_ids_bit (e s b i : Bool) :
    (initialMetaheader e s b i % 256) &&& twkbHasIDs ≠ 0 ↔ i = true := by
  cases e <;> cases s <;> cases b <;> cases i <;> decide

theorem writeInitialHeaders_eq (w : twkbWriter) :
    writeInitialHeaders w =
      if (writeMetadataHeader w
          (initialMetaheader w.hasExt w.hasSize w.hasBBox w.hasIDs)).hasExt then
        writeExtendedPrecision (writeMetadataHeader w
          (initialMetaheader w.hasExt w.hasSize w.hasBBox w.hasIDs))
      else writeMetadataHeader w (initialMetaheader w.hasExt w.hasSize w.hasBBox w.hasIDs) :=
  rfl

/-- The headers after `writeInitialHeaders`: the metadata byte, in which the bit
`twkbHasIDs` is set where the writer has IDs, and the byte of the extended
precision where there is one; the contents are left as they are. -/
theorem writeInitialHeaders_bytes (w : twkbWriter) :
    (∃ m ext, (writeInitialHeaders w).twkbHeaders = w.twkbHeaders ++ m :: ext ∧
      (m &&& twkbHasIDs ≠ 0 ↔ w.hasIDs = true)) ∧
    (writeInitialHeaders w).twkbContents = w.twkbContents := by
  rw [writeInitialHeaders_eq]
  obtain ⟨f1, f2, f3⟩ := writeMetadataHeader_fields w
    (initialMetaheader w.hasExt w.hasSize w.hasBBox w.hasIDs)
  have hbit := metadata_ids_bit w.hasExt w.hasSize w.hasBBox w.hasIDs
  by_cases hx : (writeMetadataHeader w
      (initialMetaheader w.hasExt w.hasSize w.hasBBox w.hasIDs)).hasExt = true
  · rw [if_pos hx]
    obtain ⟨⟨b, g1⟩, g2⟩ := writeExtendedPrecision_fields (writeMetadataHeader w
      (initialMetaheader w.hasExt w.hasSize w.hasBBox w.hasIDs))
    refine ⟨⟨_, [b], ?_, hbit⟩, g2.trans f2⟩
    rw [g1, f1, List.append_assoc]
    rfl
  · rw [if_neg hx]
    exact ⟨⟨_, [], f1, hbit⟩, f2⟩

theorem newtwkbWriter_ids (hasZ hasM : Bool) (precXY precZ precM : Int)
    (hasSize hasBBox closeRings : Bool) (idList : List Int) :
    (newtwkbWriter hasZ hasM precXY precZ precM hasSize hasBBox closeRings idList).idList =
      idList ∧
    ((newtwkbWriter hasZ hasM precXY precZ precM hasSize hasBBox closeRings idList).hasIDs =
      true ↔ idList ≠ []) := by
  unfold newtwkbWriter
  cases idList with
  | nil => cases hasZ <;> cases hasM <;> simp
  | cons a t => cases hasZ <;> cases hasM <;> simp

theorem foldl_writeSignedVarint (l : List Int) : ∀ (w : twkbWriter),
    (l.foldl writeSignedVarint w).twkbContents = w.twkbContents ++ l.flatMap PutVarint ∧
    (l.foldl writeSignedVarint w).twkbHeaders = w.twkbHeaders := by
  induction l with
  | nil => intro w; simp
  | cons a t ih =>
    intro w
    obtain ⟨e1, e2⟩ := ih (writeSignedVarint w a)
    rw [List.foldl_cons, e1, e2]
    simp [writeSignedVarint]

/-- The method `writeIDList`: nothing without IDs, an error where the lengths
differ, and else the IDs as signed varints, in order. -/
theorem writeIDList_spec (w : twkbWriter) (n : Nat) :
    (w.hasIDs = false → writeIDList w n = (w, false)) ∧
    (w.hasIDs = true → n ≠ w.idList.length → writeIDList w n = (w, true)) ∧
    (w.hasIDs = true → n = w.idList.length →
      (writeIDList w n).2 = false ∧
      (writeIDList w n).1.twkbContents = w.twkbContents ++ w.idList.flatMap PutVarint ∧
      (writeIDList w n).1.twkbHeaders = w.twkbHeaders) := by
  unfold writeIDList
  refine ⟨fun h => ?_, fun h hne => ?_, fun h he => ?_⟩
  · simp [h]
  · simp [h, hne]
  · simp only [h, not_true_eq_false, if_false, he, ne_eq]
    exact ⟨trivial, foldl_writeSignedVarint w.idList w⟩

theorem writeTypeAndPrecision_fields (w : twkbWriter) (kind : Nat) :
    (∃ b, (writeTypeAndPrecision w kind).twkbHeaders = w.twkbHeaders ++ [b]) ∧
    (writeTypeAndPrecision w kind).twkbContents = w.twkbContents :=
  ⟨⟨_, rfl⟩, rfl⟩

/-- The writer of a geometry with `n` sub-geometries after the count and the ID
list, from a new writer: whether an error is returned, and the bytes so far. -/
theorem writeIDs_from_new (kind n : Nat) (hasZ hasM : Bool) (precXY precZ precM : Int)
    (hasSize hasBBox closeRings : Bool) (idList : List Int) :
    ((writeIDList (writeUnsignedVarint (writeInitialHeaders (writeTypeAndPrecision
      (newtwkbWriter hasZ hasM precXY precZ precM hasSize hasBBox closeRings idList)
        kind)) n) n).2 = true ↔ (idList ≠ [] ∧ idList.length ≠ n)) ∧
    ((idList = [] ∨ idList.length = n) →
      (writeIDList (writeUnsignedVarint (writeInitialHeaders (writeTypeAndPrecision
        (newtwkbWriter hasZ hasM precXY precZ precM hasSize hasBBox closeRings idList)
          kind)) n) n).1.twkbContents = PutUvarint n ++ idList.flatMap PutVarint ∧
      ∃ tb m more, (writeIDList (writeUnsignedVarint (writeInitialHeaders
        (writeTypeAndPrecision
          (newtwkbWriter hasZ hasM precXY precZ precM hasSize hasBBox closeRings idList)
            kind)) n) n).1.twkbHeaders = tb :: m :: more ∧
        (m &&& twkbHasIDs ≠ 0 ↔ idList ≠ [])) := by
  obtain ⟨i1, i2⟩ := newtwkbWriter_ids hasZ hasM precXY precZ precM hasSize hasBBox closeRings
    idList
  obtain ⟨n1, -, n3, -⟩ := newtwkbWriter_fields hasZ hasM precXY precZ precM hasSize hasBBox
    closeRings idList
  generalize newtwkbWriter hasZ hasM precXY precZ precM hasSize hasBBox closeRings idList = w0
    at i1 i2 n1 n3
  have c1 := writeTypeAndPrecision_config w0 kind
  obtain ⟨⟨tb, t1⟩, t2⟩ := writeTypeAndPrecision_fields w0 kind
  generalize writeTypeAndPrecision w0 kind = w1 at c1 t1 t2
  have c2 := writeInitialHeaders_config w1
  obtain ⟨⟨m, ext, u1, u2⟩, u3⟩ := writeInitialHeaders_bytes w1
  generalize writeInitialHeaders w1 = wi at c2 u1 u3
  have c3 := writeUnsignedVarint_config wi n
  have v1 : (writeUnsignedVarint wi n).twkbContents = wi.twkbContents ++ PutUvarint n := rfl
  have v2 : (writeUnsignedVarint wi n).twkbHeaders = wi.twkbHeaders := rfl
  generalize writeUnsignedVarint wi n = w2 at c3 v1 v2
  have hid : w2.idList = idList := by rw [c3.idList, c2.idList, c1.idList, i1]
  have hhas : w2.hasIDs = true ↔ idList ≠ [] := by rw [c3.hasIDs, c2.hasIDs, c1.hasIDs]; exact i2
  have hcon : w2.twkbContents = PutUvarint n := by rw [v1, u3, t2, n3]; rfl
  have hhdr : w2.twkbHeaders = tb :: m :: ext := by rw [v2, u1, t1, n1]; rfl
  have hbit : m &&& twkbHasIDs ≠ 0 ↔ idList ≠ [] := by
    rw [u2, c1.hasIDs]; exact i2
  obtain ⟨s1, s2, s3⟩ := writeIDList_spec w2 n
  by_cases hl : idList = []
  · have hf : w2.hasIDs = false := by
      cases hb : w2.hasIDs with
      | false => rfl
      | true => exact absurd hl (hhas.mp hb)
    rw [s1 hf]
    refine ⟨⟨fun h => Bool.noConfusion h, fun h => absurd hl h.1⟩, fun _ => ?_⟩
    refine ⟨by rw [hcon, hl]; simp, tb, m, ext, hhdr, hbit⟩
  · have ht : w2.hasIDs = true := hhas.mpr hl
    by_cases hlen : idList.length = n
    · obtain ⟨q1, q2, q3⟩ := s3 ht (by rw [hid]; exact hlen.symm)
      refine ⟨⟨fun h => ?_, fun h => absurd hlen h.2⟩, fun _ => ?_⟩
      · rw [q1] at h; exact Bool.noConfusion h
      · refine ⟨by rw [q2, hcon, hid], tb, m, ext, by rw [q3, hhdr], hbit⟩
    · rw [s2 ht (by rw [hid]; exact fun h => hlen h.symm)]
      refine ⟨⟨fun _ => ⟨hl, hlen⟩, fun _ => rfl⟩, fun h => ?_⟩
      rcases h with h | h
      · exact absurd h hl
      · exact absurd h hlen

/-- What `MarshalTWKB` returns for a geometry with sub-geometries that is not
empty and has the coordinates type of the writer, by the error flag of the ID list
and the loop over the sub-geometries. -/
theorem marshal_parts (g : Geometry) (n : Nat) (hasZ hasM : Bool) (precXY precZ precM : Int)
    (hasSize hasBBox closeRings : Bool) (idList : List Int)
    (hn : g.numParts = some n) (hne : g.IsEmpty = false)
    (hct : g.CoordinatesType = coordinatesTypeOf hasZ hasM) :
    MarshalTWKB g hasZ hasM precXY precZ precM hasSize hasBBox closeRings idList =
      if (writeIDList (writeUnsignedVarint (writeInitialHeaders (writeTypeAndPrecision
        (newtwkbWriter hasZ hasM precXY precZ precM hasSize hasBBox closeRings idList)
          g.twkbType)) n) n).2 = true then some none
      else (partsLoop g (writeIDList (writeUnsignedVarint (writeInitialHeaders
        (writeTypeAndPrecision
          (newtwkbWriter hasZ hasM precXY precZ precM hasSize hasBBox closeRings idList)
            g.twkbType)) n) n).1).map
        (fun t => some (formTWKB (writeAdditionalHeaders t))) := by
  have hshape := writeGeometryByType_parts (newtwkbWriter hasZ hasM precXY precZ precM hasSize
    hasBBox closeRings idList) g n hn
  have hctype : (writeTypeAndPrecision (newtwkbWriter hasZ hasM precXY precZ precM hasSize
      hasBBox closeRings idList) g.twkbType).ctype = coordinatesTypeOf hasZ hasM :=
    (writeTypeAndPrecision_config _ _).ctype.trans
      (newtwkbWriter_fields hasZ hasM precXY precZ precM hasSize hasBBox closeRings
        idList).2.2.2.2.2.2.2.2.2
  rw [if_neg (by rw [hctype]; exact not_not.mpr hct), hne,
    if_neg (by exact Bool.noConfusion)] at hshape
  unfold MarshalTWKB writeGeometry
  rw [hshape]
  by_cases hr : (writeIDList (writeUnsignedVarint (writeInitialHeaders (writeTypeAndPrecision
      (newtwkbWriter hasZ hasM precXY precZ precM hasSize hasBBox closeRings idList)
        g.twkbType)) n) n).2 = true
  · rw [if_pos hr, if_pos hr]
    rfl
  · rw [if_neg hr, if_neg hr]
    cases partsLoop g (writeIDList (writeUnsignedVarint (writeInitialHeaders
      (writeTypeAndPrecision
        (newtwkbWriter hasZ hasM precXY precZ precM hasSize hasBBox closeRings idList)
          g.twkbType)) n) n).1 with
    | none => rfl
    | some t => rfl

/-- C37, amended: for a MultiPoint, MultiLineString, MultiPolygon or
GeometryCollection with `n` sub-geometries that is not empty and whose coordinates
type is the one `hasZ` and `hasM` give: with an ID list that is not empty,
`MarshalTWKB` returns an error if and only if the length of the list differs from
`n`; with the empty ID list it returns no error; and where it returns bytes, they
are the headers, the bounding box and the contents of a writer whose contents start
with the unsigned varint of `n` and then the IDs as signed varints, in order (none
for the empty list), and in whose metadata byte, the second byte of the headers, the
bit `twkbHasIDs` is set if and only if the ID list is not empty. -/
theorem C37_id_list (g : Geometry) (n : Nat) (hasZ hasM : Bool) (precXY precZ precM : Int)
    (hasSize hasBBox closeRings : Bool) (idList : List Int)
    (hn : g.numParts = some n) (hne : g.IsEmpty = false)
    (hct : g.CoordinatesType = coordinatesTypeOf hasZ hasM) :
    (idList ≠ [] →
      (MarshalTWKB g hasZ hasM precXY precZ precM hasSize hasBBox closeRings idList = some none
        ↔ idList.length ≠ n)) ∧
    (idList = [] →
      MarshalTWKB g hasZ hasM precXY precZ precM hasSize hasBBox closeRings idList ≠
        some none) ∧
    (∀ out, MarshalTWKB g hasZ hasM precXY precZ precM hasSize hasBBox closeRings idList =
        some (some out) →
      ∃ wF : twkbWriter, out = wF.twkbHeaders ++ wF.twkbBBox ++ wF.twkbContents ∧
        (∃ rest, wF.twkbContents = PutUvarint n ++ idList.flatMap PutVarint ++ rest) ∧
        ∃ tb m more, wF.twkbHeaders = tb :: m :: more ∧
          (m &&& twkbHasIDs ≠ 0 ↔ idList ≠ [])) := by
  have hM := marshal_parts g n hasZ hasM precXY precZ precM hasSize hasBBox closeRings idList
    hn hne hct
  obtain ⟨a1, a2⟩ := writeIDs_from_new g.twkbType n hasZ hasM precXY precZ precM hasSize hasBBox
    closeRings idList
  generalize writeIDList (writeUnsignedVarint (writeInitialHeaders (writeTypeAndPrecision
      (newtwkbWriter hasZ hasM precXY precZ precM hasSize hasBBox closeRings idList)
        g.twkbType)) n) n = R at hM a1 a2
  have hnoerr : R.2 ≠ true →
      MarshalTWKB g hasZ hasM precXY precZ precM hasSize hasBBox closeRings idList ≠
        some none := by
    intro hr he
    rw [hM, if_neg hr] at he
    cases hp : partsLoop g R.1 with
    | none => rw [hp] at he; exact Option.noConfusion he
    | some t =>
      rw [hp] at he
      exact Option.noConfusion (Option.some.inj he)
  refine ⟨fun hl => ⟨fun he => ?_, fun hlen => ?_⟩, fun hl => ?_, fun out ho => ?_⟩
  · by_cases hr : R.2 = true
    · exact (a1.mp hr).2
    · exact absurd he (hnoerr hr)
  · rw [hM, if_pos (a1.mpr ⟨hl, hlen⟩)]
  · exact hnoerr (fun hr => (a1.mp hr).1 hl)
  · by_cases hr : R.2 = true
    · rw [hM, if_pos hr] at ho
      exact Option.noConfusion (Option.some.inj ho)
    · rw [hM, if_neg hr] at ho
      have hok : idList = [] ∨ idList.length = n := by
        by_cases h1 : idList = []
        · exact Or.inl h1
        · by_cases h2 : idList.length = n
          · exact Or.inr h2
          · exact absurd (a1.mpr ⟨h1, h2⟩) hr
      obtain ⟨b1, tb, m, more, b2, b3⟩ := a2 hok
      cases hp : partsLoop g R.1 with
      | none => rw [hp] at ho; exact Option.noConfusion ho
      | some t =>
        rw [hp] at ho
        obtain rfl : formTWKB (writeAdditionalHeaders t) = out :=
          Option.some.inj (Option.some.inj ho)
        obtain ⟨k1, ⟨rest, k2⟩⟩ := partsLoop_appends g R.1 t hp
        obtain ⟨f1, -, f3⟩ := writeAdditionalHeaders_fields t
        refine ⟨writeAdditionalHeaders t, rfl, ⟨rest, by rw [f1, k2, b1]⟩, tb, m,
          more ++ (if t.hasSize then
            PutUvarint ((writeAdditionalHeaders t).twkbBBox.length + t.twkbContents.length)
          else []), ?_, b3⟩
        rw [f3, k1, b2]
        rfl

/-- C37 as it was stated does not hold: a MultiPoint with one point and three
coordinates per point, which is not empty, marshalled for two dimensions with an ID
list of the length 1, the number of its points: an error is returned, for the
coordinates type, though the lengths agree. -/
theorem C37_dimension_mismatch_counterexample :
    (Geometry.multiPoint ⟨CoordinatesType.DimXYZ, false,
      [⟨CoordinatesType.DimXYZ, false, 1, 2, 3, 0⟩]⟩).numParts = some [(7 : Int)].length ∧
    (Geometry.multiPoint ⟨CoordinatesType.DimXYZ, false,
      [⟨CoordinatesType.DimXYZ, false, 1, 2, 3, 0⟩]⟩).IsEmpty = false ∧
    MarshalTWKB (Geometry.multiPoint ⟨CoordinatesType.DimXYZ, false,
      [⟨CoordinatesType.DimXYZ, false, 1, 2, 3, 0⟩]⟩) false false 0 0 0 false false false
        [7] = some none := by
  refine ⟨rfl, rfl, ?_⟩
  with_unfolding_all decide

/-- C37, amended, at a MultiPoint of the points (1, 2) and (3, 4) with the IDs 5
and 6: the bytes are the type byte 4, the metadata byte 4 (`twkbHasIDs`), the count
2, the IDs 5 and 6 as the varints 10 and 12, and the differences of the points. -/
theorem C37_id_list_witness :
    MarshalTWKB (Geometry.multiPoint ⟨CoordinatesType.DimXY, false,
      [⟨CoordinatesType.DimXY, false, 1, 2, 0, 0⟩, ⟨CoordinatesType.DimXY, false, 3, 4, 0, 0⟩]⟩)
        false false 0 0 0 false false false [5, 6] =
      some (some [4, 4, 2, 10, 12, 2, 4, 4, 4]) ∧
    ∃ wF : twkbWriter, [4, 4, 2, 10, 12, 2, 4, 4, 4] = wF.twkbHeaders ++ wF.twkbBBox ++ wF.twkbContents ∧
      (∃ rest, wF.twkbContents = PutUvarint 2 ++ [(5 : Int), 6].flatMap PutVarint ++ rest) ∧
      ∃ tb m more, wF.twkbHeaders = tb :: m :: more ∧
        (m &&& twkbHasIDs ≠ 0 ↔ [(5 : Int), 6] ≠ []) := by
  have hv : MarshalTWKB (Geometry.multiPoint ⟨CoordinatesType.DimXY, false,
      [⟨CoordinatesType.DimXY, false, 1, 2, 0, 0⟩, ⟨CoordinatesType.DimXY, false, 3, 4, 0, 0⟩]⟩)
        false false 0 0 0 false false false [5, 6] =
      some (some [4, 4, 2, 10, 12, 2, 4, 4, 4]) := by
    with_unfolding_all decide
  exact ⟨hv, (C37_id_list (Geometry.multiPoint ⟨CoordinatesType.DimXY, false,
      [⟨CoordinatesType.DimXY, false, 1, 2, 0, 0⟩, ⟨CoordinatesType.DimXY, false, 3, 4, 0, 0⟩]⟩)
        2 false false 0 0 0 false false false [5, 6] rfl rfl rfl).2.2 _ hv⟩

/-! ## The bounding box of the TWKB writer -/

theorem sameBox_refl (t : twkbWriter) : SameBox t t := ⟨rfl, rfl, rfl, rfl⟩

theorem sameBox_trans {a b c : twkbWriter} (h1 : SameBox a b) (h2 : SameBox b c) :
    SameBox a c :=
  ⟨h2.bboxValid.trans h1.bboxValid, h2.bboxMin.trans h1.bboxMin, h2.bboxMax.trans h1.bboxMax,
    h2.refpoint.trans h1.refpoint⟩

theorem tracks_of_sameBox {dims : Nat} {t t2 : twkbWriter} (ha : ArraysOK t)
    (hc : SameConfig t t2) (hb : SameBox t t2) : Tracks dims t t2 [] := by
  refine ⟨⟨by rw [hc.dimensions]; exact ha.dims, by rw [hb.refpoint]; exact ha.refpoint,
    by rw [hb.bboxMin]; exact ha.bboxMin, by rw [hb.bboxMax]; exact ha.bboxMax⟩, hc, ?_⟩
  intro pts box
  rw [List.append_nil]
  exact ⟨fun h => box.start (hb.bboxValid ▸ h), fun h d hd => by
    have := box.bounds (hb.bboxValid ▸ h) d hd
    rw [hb.bboxMin, hb.bboxMax]
    exact this⟩

theorem tracks_trans {dims : Nat} {a b c : twkbWriter} {n1 n2 : List (List Int)}
    (h1 : Tracks dims a b n1) (h2 : Tracks dims b c n2) : Tracks dims a c (n1 ++ n2) :=
  ⟨h2.arrays, h1.config.chain h2.config, fun pts box => by
    rw [← List.append_assoc]
    exact h2.box _ (h1.box pts box)⟩

theorem scaledPoints_congr {w t : twkbWriter} (h1 : t.scalings = w.scalings)
    (h2 : t.dimensions = w.dimensions) (n : Nat) (coords : List ℚ) :
    scaledPoints t n coords = scaledPoints w n coords := by
  unfold scaledPoints scaledPoint
  rw [h2]
  apply List.map_congr_left
  intro i _
  apply List.map_congr_left
  intro d _
  exact scaledAt_congr h1 h2 coords i d

/-- The method `writePointArray`, as a step of the writer `w0`. -/
theorem writePointArray_tracks {w0 t : twkbWriter} (n : Nat) (coords : List ℚ)
    (ha : ArraysOK t) (hc : SameConfig w0 t) (hfit : n * w0.dimensions ≤ coords.length) :
    ∃ t2, writePointArray t n coords = some t2 ∧
      Tracks w0.dimensions t t2 (scaledPoints w0 n coords) := by
  obtain ⟨t2, e, a1, a2, -, -, -, -, -, a8⟩ := writePointArray_spec t n coords ha
    (by rw [hc.dimensions]; exact hfit)
  refine ⟨t2, e, a1, a2, fun pts box => ?_⟩
  have := a8 pts (by rw [hc.dimensions]; exact box)
  rw [hc.dimensions, scaledPoints_congr hc.scalings hc.dimensions] at this
  exact this

theorem writeUnsignedVarint_sameBox (t : twkbWriter) (v : Nat) :
    SameBox t (writeUnsignedVarint t v) := ⟨rfl, rfl, rfl, rfl⟩

/-- A loop over the parts of a geometry, each of which is a step of the writer. -/
theorem tracks_foldlM {α : Type} {w0 : twkbWriter} (f : twkbWriter → α → Option twkbWriter)
    (pts : α → List (List Int)) (ok : α → Prop)
    (hf : ∀ t x, ArraysOK t → SameConfig w0 t → ok x →
      ∃ t2, f t x = some t2 ∧ Tracks w0.dimensions t t2 (pts x)) :
    ∀ (l : List α) (t : twkbWriter), ArraysOK t → SameConfig w0 t → (∀ x ∈ l, ok x) →
      ∃ t2, l.foldlM f t = some t2 ∧ Tracks w0.dimensions t t2 (l.flatMap pts) := by
  intro l
  induction l with
  | nil =>
    intro t ha _ _
    exact ⟨t, rfl, tracks_of_sameBox ha (SameConfig.unchanged t) (sameBox_refl t)⟩
  | cons x rest ih =>
    intro t ha hc hok
    obtain ⟨t1, e1, k1⟩ := hf t x ha hc (hok x (List.mem_cons_self _ _))
    obtain ⟨t2, e2, k2⟩ := ih t1 k1.arrays (hc.chain k1.config)
      (fun y hy => hok y (List.mem_cons_of_mem _ hy))
    refine ⟨t2, ?_, by rw [List.flatMap_cons]; exact tracks_trans k1 k2⟩
    rw [List.foldlM_cons, e1]
    exact e2

theorem writePointCoords_eq (t : twkbWriter) (pt : Point) :
    writePointCoords t pt = writePointArray t 1 pt.coordList := by
  unfold writePointCoords Point.coordList writePoints
  cases pt.ctype <;> rfl

theorem writePointCoords_tracks {w0 t : twkbWriter} (pt : Point)
    (ha : ArraysOK t) (hc : SameConfig w0 t) (hfit : w0.dimensions ≤ pt.coordList.length) :
    ∃ t2, writePointCoords t pt = some t2 ∧
      Tracks w0.dimensions t t2 (scaledPoints w0 1 pt.coordList) := by
  rw [writePointCoords_eq]
  exact writePointArray_tracks 1 pt.coordList ha hc (by rw [Nat.one_mul]; exact hfit)

theorem writeUnsignedVarint_tracks {dims : Nat} {t : twkbWriter} (v : Nat) (ha : ArraysOK t) :
    Tracks dims t (writeUnsignedVarint t v) [] :=
  tracks_of_sameBox ha (writeUnsignedVarint_config t v) (writeUnsignedVarint_sameBox t v)

theorem writeLineStringCoords_tracks {w0 t : twkbWriter} (ls : LineString)
    (ha : ArraysOK t) (hc : SameConfig w0 t) (hfit : ls.fits w0.dimensions) :
    ∃ t2, writeLineStringCoords t ls = some t2 ∧
      Tracks w0.dimensions t t2 (scaledPoints w0 ls.numPoints ls.floats) := by
  have k1 : Tracks w0.dimensions t (writeUnsignedVarint t ls.numPoints) [] :=
    writeUnsignedVarint_tracks ls.numPoints ha
  obtain ⟨t2, e2, k2⟩ := writePointArray_tracks ls.numPoints ls.floats k1.arrays
    (hc.chain k1.config) hfit
  exact ⟨t2, e2, by simpa using tracks_trans k1 k2⟩

theorem ringCount_le (w : twkbWriter) (ls : LineString) : ringCount w ls ≤ ls.numPoints := by
  unfold ringCount
  split_ifs <;> omega

theorem writeRing_tracks {w0 t : twkbWriter} (ls : LineString)
    (ha : ArraysOK t) (hc : SameConfig w0 t) (hfit : ls.fits w0.dimensions) :
    ∃ t2, writeRing t ls = some t2 ∧
      Tracks w0.dimensions t t2 (scaledPoints w0 (ringCount w0 ls) ls.floats) := by
  have hrc : (if ¬ t.closeRings ∧ ls.numPoints ≥ 2 then ls.numPoints - 1 else ls.numPoints) =
      ringCount w0 ls := by
    unfold ringCount
    rw [hc.closeRings]
  have k1 : Tracks w0.dimensions t (writeUnsignedVarint t (ringCount w0 ls)) [] :=
    writeUnsignedVarint_tracks _ ha
  obtain ⟨t2, e2, k2⟩ := writePointArray_tracks (ringCount w0 ls) ls.floats k1.arrays
    (hc.chain k1.config)
    (le_trans (Nat.mul_le_mul_right _ (ringCount_le w0 ls)) hfit)
  refine ⟨t2, ?_, by simpa using tracks_trans k1 k2⟩
  unfold writeRing
  simp only
  rw [hrc]
  exact e2

theorem writePolygonRings_tracks {w0 t : twkbWriter} (poly : PolygonValue)
    (ha : ArraysOK t) (hc : SameConfig w0 t) (hfit : poly.fits w0.dimensions) :
    ∃ t2, writePolygonRings t poly = some t2 ∧
      Tracks w0.dimensions t t2 (polygonPoints w0 poly) := by
  have k1 : Tracks w0.dimensions t (writeUnsignedVarint t poly.numRings) [] :=
    writeUnsignedVarint_tracks _ ha
  unfold writePolygonRings polygonPoints
  simp only
  by_cases h0 : poly.numRings = 0
  · rw [if_pos h0, if_pos h0]
    exact ⟨_, rfl, k1⟩
  · rw [if_neg h0, if_neg h0]
    obtain ⟨t2, e2, k2⟩ := writeRing_tracks poly.exteriorRing k1.arrays (hc.chain k1.config)
      hfit.1
    obtain ⟨t3, e3, k3⟩ := @tracks_foldlM _ w0 writeRing
      (fun ls => scaledPoints w0 (ringCount w0 ls) ls.floats) (fun ls => ls.fits w0.dimensions)
      (fun t x ha hc hok => writeRing_tracks x ha hc hok) poly.interiorRings t2 k2.arrays
      ((hc.chain k1.config).chain k2.config) hfit.2
    refine ⟨t3, ?_, by simpa using tracks_trans k1 (tracks_trans k2 k3)⟩
    simp only [Option.bind_eq_bind, e2, Option.some_bind]
    exact e3

/-- The loop that writes the coordinates of a geometry that is not a collection
returns where the coordinate arrays hold the coordinates of the points, and widens
the bounding box by the points of the geometry. -/
theorem coordsLoop_tracks {w0 t : twkbWriter} (g : Geometry) (hcoll : g.isCollection = false)
    (ha : ArraysOK t) (hc : SameConfig w0 t) (hwf : g.WellFormed w0.dimensions) :
    ∃ t2, coordsLoop g t = some t2 ∧ Tracks w0.dimensions t t2 (g.scaledPointsOf w0) := by
  cases g with
  | point pt => exact writePointCoords_tracks pt ha hc hwf
  | lineString ls => exact writeLineStringCoords_tracks ls ha hc hwf
  | polygon poly => exact writePolygonRings_tracks poly ha hc hwf
  | multiPoint mp =>
    exact @tracks_foldlM _ w0 writePointCoords (fun pt => scaledPoints w0 1 pt.coordList)
      (fun pt => w0.dimensions ≤ pt.coordList.length)
      (fun t x ha hc hok => writePointCoords_tracks x ha hc hok) mp.points t ha hc hwf
  | multiLineString ml =>
    exact @tracks_foldlM _ w0 writeLineStringCoords
      (fun ls => scaledPoints w0 ls.numPoints ls.floats) (fun ls => ls.fits w0.dimensions)
      (fun t x ha hc hok => writeLineStringCoords_tracks x ha hc hok) ml.lineStrings t ha hc hwf
  | multiPolygon mp =>
    exact @tracks_foldlM _ w0 writePolygonRings (polygonPoints w0)
      (fun poly => poly.fits w0.dimensions)
      (fun t x ha hc hok => writePolygonRings_tracks x ha hc hok) mp.polygons t ha hc hwf
  | geometryCollection ctype isEmpty geoms => exact Bool.noConfusion hcoll

theorem foldl_min_spec : ∀ (rest : List Int) (a : Int),
    (∀ x ∈ a :: rest, rest.foldl min a ≤ x) ∧ rest.foldl min a ∈ a :: rest := by
  intro rest
  induction rest with
  | nil => intro a; simp
  | cons b t ih =>
    intro a
    obtain ⟨h1, h2⟩ := ih (min a b)
    rw [List.foldl_cons]
    refine ⟨fun x hx => ?_, ?_⟩
    · have hm := h1 (min a b) (List.mem_cons_self _ _)
      rcases List.mem_cons.mp hx with hx | hx
      · rw [hx]; exact le_trans hm (min_le_left _ _)
      · rcases List.mem_cons.mp hx with hx | hx
        · rw [hx]; exact le_trans hm (min_le_right _ _)
        · exact h1 x (List.mem_cons_of_mem _ hx)
    · rcases List.mem_cons.mp h2 with h | h
      · rw [h]
        rcases min_choice a b with h3 | h3
        · rw [h3]; exact List.mem_cons_self _ _
        · rw [h3]; exact List.mem_cons_of_mem _ (List.mem_cons_self _ _)
      · exact List.mem_cons_of_mem _ (List.mem_cons_of_mem _ h)

theorem foldl_max_spec : ∀ (rest : List Int) (a : Int),
    (∀ x ∈ a :: rest, x ≤ rest.foldl max a) ∧ rest.foldl max a ∈ a :: rest := by
  intro rest
  induction rest with
  | nil => intro a; simp
  | cons b t ih =>
    intro a
    obtain ⟨h1, h2⟩ := ih (max a b)
    rw [List.foldl_cons]
    refine ⟨fun x hx => ?_, ?_⟩
    · have hm := h1 (max a b) (List.mem_cons_self _ _)
      rcases List.mem_cons.mp hx with hx | hx
      · rw [hx]; exact le_trans (le_max_left _ _) hm
      · rcases List.mem_cons.mp hx with hx | hx
        · rw [hx]; exact le_trans (le_max_right _ _) hm
        · exact h1 x (List.mem_cons_of_mem _ hx)
    · rcases List.mem_cons.mp h2 with h | h
      · rw [h]
        rcases max_choice a b with h3 | h3
        · rw [h3]; exact List.mem_cons_self _ _
        · rw [h3]; exact List.mem_cons_of_mem _ (List.mem_cons_self _ _)
      · exact List.mem_cons_of_mem _ (List.mem_cons_of_mem _ h)

/-- The minimum of the coordinates of a list of points that is not empty is below
every coordinate, and is the coordinate of a point. -/
theorem minScaledCoord_spec (pts : List (List Int)) (d : Nat) (h : pts ≠ []) :
    (∀ p ∈ pts, minScaledCoord pts d ≤ p.getD d 0) ∧
    ∃ p ∈ pts, p.getD d 0 = minScaledCoord pts d := by
  unfold minScaledCoord
  cases e : pts.map (fun p => p.getD d 0) with
  | nil => exact absurd (List.map_eq_nil_iff.mp e) h
  | cons a rest =>
    simp only
    obtain ⟨h1, h2⟩ := foldl_min_spec rest a
    rw [← e] at h1 h2
    refine ⟨fun p hp => h1 _ (List.mem_map_of_mem _ hp), ?_⟩
    obtain ⟨p, hp, hpe⟩ := List.mem_map.mp h2
    exact ⟨p, hp, hpe⟩

/-- The maximum of the coordinates of a list of points that is not empty is above
every coordinate, and is the coordinate of a point. -/
theorem maxScaledCoord_spec (pts : List (List Int)) (d : Nat) (h : pts ≠ []) :
    (∀ p ∈ pts, p.getD d 0 ≤ maxScaledCoord pts d) ∧
    ∃ p ∈ pts, p.getD d 0 = maxScaledCoord pts d := by
  unfold maxScaledCoord
  cases e : pts.map (fun p => p.getD d 0) with
  | nil => exact absurd (List.map_eq_nil_iff.mp e) h
  | cons a rest =>
    simp only
    obtain ⟨h1, h2⟩ := foldl_max_spec rest a
    rw [← e] at h1 h2
    refine ⟨fun p hp => h1 _ (List.mem_map_of_mem _ hp), ?_⟩
    obtain ⟨p, hp, hpe⟩ := List.mem_map.mp h2
    exact ⟨p, hp, hpe⟩

/-- A valid bounding box of points holds their minimum and their maximum. -/
theorem box_min_max {dims : Nat} {w : twkbWriter} {pts : List (List Int)}
    (box : Box dims w pts) (hne : pts ≠ []) (d : Nat) (hd : d < dims) :
    w.bboxMin.getD d 0 = minScaledCoord pts d ∧ w.bboxMax.getD d 0 = maxScaledCoord pts d := by
  have hv : w.bboxValid = true := by
    cases hb : w.bboxValid with
    | true => rfl
    | false => exact absurd (box.start hb) hne
  obtain ⟨b1, ⟨p, hp, b2⟩, ⟨q, hq, b3⟩⟩ := box.bounds hv d hd
  obtain ⟨m1, ⟨p2, hp2, m2⟩⟩ := minScaledCoord_spec pts d hne
  obtain ⟨x1, ⟨q2, hq2, x2⟩⟩ := maxScaledCoord_spec pts d hne
  constructor
  · apply le_antisymm
    · rw [← m2]; exact (b1 p2 hp2).1
    · rw [← b2]; exact m1 p hp
  · apply le_antisymm
    · rw [← b3]; exact x1 q hq
    · rw [← x2]; exact (b1 q2 hq2).2

theorem writeTypeAndPrecision_sameBox (w : twkbWriter) (kind : Nat) :
    SameBox w (writeTypeAndPrecision w kind) := ⟨rfl, rfl, rfl, rfl⟩

theorem writeMetadataHeader_sameBox (w : twkbWriter) (m : Nat) :
    SameBox w (writeMetadataHeader w m) := by
  unfold writeMetadataHeader
  split_ifs <;> exact ⟨rfl, rfl, rfl, rfl⟩

theorem writeInitialHeaders_sameBox (w : twkbWriter) : SameBox w (writeInitialHeaders w) := by
  rw [writeInitialHeaders_eq]
  split_ifs
  · exact sameBox_trans (writeMetadataHeader_sameBox w _) ⟨rfl, rfl, rfl, rfl⟩
  · exact writeMetadataHeader_sameBox w _

theorem foldl_writeSignedVarint_sameBox (l : List Int) : ∀ (w : twkbWriter),
    SameBox w (l.foldl writeSignedVarint w) := by
  induction l with
  | nil => intro w; exact sameBox_refl w
  | cons a t ih =>
    intro w
    exact sameBox_trans (show SameBox w (writeSignedVarint w a) from ⟨rfl, rfl, rfl, rfl⟩)
      (ih (writeSignedVarint w a))

theorem writeIDList_sameBox (w : twkbWriter) (n : Nat) : SameBox w (writeIDList w n).1 := by
  unfold writeIDList
  split_ifs
  · exact sameBox_refl w
  · exact foldl_writeSignedVarint_sameBox w.idList w
  · exact sameBox_refl w

/-- The flag of `writeIDList` where the writer has no IDs or as many as there are
parts. -/
theorem writeIDList_accepts (w : twkbWriter) (n : Nat)
    (h : w.hasIDs = false ∨ n = w.idList.length) : (writeIDList w n).2 = false := by
  unfold writeIDList
  rcases h with h | h
  · simp [h]
  · split_ifs with h1 h2
    · exact absurd h h2
    · rfl
    · rfl

/-- The method `writeGeometryByType` on a geometry that is not a collection, is not
empty, has the coordinates type of the writer and, where it has parts, as many as
the writer has IDs: the headers, the count and the IDs are written, which leave the
bounding box as it is, and then the coordinates. -/
theorem writeGeometryByType_coords (w : twkbWriter) (g : Geometry)
    (hcoll : g.isCollection = false) (hne : g.IsEmpty = false)
    (hct : g.CoordinatesType = w.ctype)
    (hid : ∀ n, g.numParts = some n → w.hasIDs = false ∨ n = w.idList.length) :
    ∃ t, SameBox w t ∧ SameConfig w t ∧
      writeGeometryByType w g = (coordsLoop g t).map (fun t2 => (t2, false)) := by
  have simple : SameBox w (writeInitialHeaders (writeTypeAndPrecision w g.twkbType)) ∧
      SameConfig w (writeInitialHeaders (writeTypeAndPrecision w g.twkbType)) :=
    ⟨sameBox_trans (writeTypeAndPrecision_sameBox w _) (writeInitialHeaders_sameBox _),
      (writeTypeAndPrecision_config w _).chain (writeInitialHeaders_config _)⟩
  have multi : ∀ n, g.numParts = some n →
      ∃ t, SameBox w t ∧ SameConfig w t ∧
        writeGeometryByType w g = (partsLoop g t).map (fun t2 => (t2, false)) := by
    intro n hn
    have hshape := writeGeometryByType_parts w g n hn
    have hctype : (writeTypeAndPrecision w g.twkbType).ctype = w.ctype := rfl
    rw [if_neg (by rw [hctype]; exact not_not.mpr hct), hne,
      if_neg (by exact Bool.noConfusion)] at hshape
    have c3 : SameConfig w (writeUnsignedVarint
        (writeInitialHeaders (writeTypeAndPrecision w g.twkbType)) n) :=
      simple.2.chain (writeUnsignedVarint_config _ n)
    have b3 : SameBox w (writeUnsignedVarint
        (writeInitialHeaders (writeTypeAndPrecision w g.twkbType)) n) :=
      sameBox_trans simple.1 (writeUnsignedVarint_sameBox _ n)
    have hflag := writeIDList_accepts (writeUnsignedVarint
        (writeInitialHeaders (writeTypeAndPrecision w g.twkbType)) n) n
      (by rw [c3.hasIDs, c3.idList]; exact hid n hn)
    rw [if_neg (by rw [hflag]; exact Bool.noConfusion)] at hshape
    exact ⟨_, sameBox_trans b3 (writeIDList_sameBox _ n),
      c3.chain (writeIDList_config _ n), hshape⟩
  cases g with
  | point pt =>
    refine ⟨_, simple.1, simple.2, ?_⟩
    have h1 : pt.ctype = w.ctype := hct
    have h2 : pt.isEmpty = false := hne
    rw [writeGeometryByType]
    unfold writePoint
    simp only
    rw [if_neg (by
      show ¬ pt.ctype ≠ (writeTypeAndPrecision w twkbTypePoint).ctype
      exact not_not.mpr h1), h2, if_neg (by exact Bool.noConfusion)]
    rfl
  | lineString ls =>
    refine ⟨_, simple.1, simple.2, ?_⟩
    have h1 : ls.ctype = w.ctype := hct
    have h2 : ls.isEmpty = false := hne
    rw [writeGeometryByType]
    unfold writeLineString
    simp only
    rw [if_neg (by
      show ¬ ls.ctype ≠ (writeTypeAndPrecision w twkbTypeLineString).ctype
      exact not_not.mpr h1), h2, if_neg (by exact Bool.noConfusion)]
    rfl
  | polygon poly =>
    refine ⟨_, simple.1, simple.2, ?_⟩
    have h1 : poly.ctype = w.ctype := hct
    have h2 : poly.isEmpty = false := hne
    rw [writeGeometryByType]
    unfold writePolygon
    simp only
    rw [if_neg (by
      show ¬ poly.ctype ≠ (writeTypeAndPrecision w twkbTypePolygon).ctype
      exact not_not.mpr h1), h2, if_neg (by exact Bool.noConfusion)]
    rfl
  | multiPoint mp => exact multi _ rfl
  | multiLineString ml => exact multi _ rfl
  | multiPolygon mp => exact multi _ rfl
  | geometryCollection ctype isEmpty geoms => exact Bool.noConfusion hcoll

theorem flatMap_congr_mem {α β : Type} {f g : α → List β} : ∀ (l : List α),
    (∀ x ∈ l, f x = g x) → l.flatMap f = l.flatMap g := by
  intro l
  induction l with
  | nil => intro _; rfl
  | cons a t ih =>
    intro h
    rw [List.flatMap_cons, List.flatMap_cons, h a (List.mem_cons_self _ _),
      ih (fun x hx => h x (List.mem_cons_of_mem _ hx))]

/-- C40, amended: for every geometry that is not a GeometryCollection, is not
empty, has the coordinates type `hasZ` and `hasM` give, holds the coordinates of its
points, has as many parts as there are IDs where there are IDs, and of which at
least one point is written: `MarshalTWKB` with `hasBBox = true` returns bytes, the
headers, the bounding box and the contents of a writer, and the bounding-box header
holds, for each dimension `d` in order, the signed varint of the minimum scaled
integer coordinate of the geometry in `d` followed by the signed varint of the
extent, maximum − minimum as an `int64`; the minimum is at most every scaled
coordinate written, which is at most the maximum, both bounds are attained, so
maximum − minimum is not negative, and where it is below 2^63 it is the extent that
is written. -/
theorem C40_bbox_header (g : Geometry) (hasZ hasM : Bool) (precXY precZ precM : Int)
    (hasSize closeRings : Bool) (idList : List Int) (pts : List (List Int))
    (hcoll : g.isCollection = false) (hne : g.IsEmpty = false)
    (hct : g.CoordinatesType = coordinatesTypeOf hasZ hasM)
    (hwf : g.WellFormed (dimensionsOf hasZ hasM))
    (hid : ∀ n, g.numParts = some n → idList = [] ∨ idList.length = n)
    (hpts : pts = g.scaledPointsOf
      (newtwkbWriter hasZ hasM precXY precZ precM hasSize true closeRings idList))
    (hsome : pts ≠ []) :
    ∃ wF : twkbWriter,
      MarshalTWKB g hasZ hasM precXY precZ precM hasSize true closeRings idList =
        some (some (wF.twkbHeaders ++ wF.twkbBBox ++ wF.twkbContents)) ∧
      wF.twkbBBox = (List.range (dimensionsOf hasZ hasM)).flatMap (fun d =>
        PutVarint (minScaledCoord pts d) ++
          PutVarint (wrapInt64 (maxScaledCoord pts d - minScaledCoord pts d))) ∧
      ∀ d, (∀ p ∈ pts, minScaledCoord pts d ≤ p.getD d 0 ∧ p.getD d 0 ≤ maxScaledCoord pts d) ∧
        (∃ p ∈ pts, p.getD d 0 = minScaledCoord pts d) ∧
        (∃ p ∈ pts, p.getD d 0 = maxScaledCoord pts d) ∧
        0 ≤ maxScaledCoord pts d - minScaledCoord pts d ∧
        (maxScaledCoord pts d - minScaledCoord pts d < 2 ^ 63 →
          wrapInt64 (maxScaledCoord pts d - minScaledCoord pts d) =
            maxScaledCoord pts d - minScaledCoord pts d) := by
  have hnonneg : ∀ d, 0 ≤ maxScaledCoord pts d - minScaledCoord pts d := by
    intro d
    obtain ⟨m1, -⟩ := minScaledCoord_spec pts d hsome
    obtain ⟨-, ⟨q, hq, x2⟩⟩ := maxScaledCoord_spec pts d hsome
    have := m1 q hq
    rw [x2] at this
    omega
  obtain ⟨-, n2, -, -, n5, -, n7, -, -, n10⟩ := newtwkbWriter_fields hasZ hasM precXY precZ
    precM hasSize true closeRings idList
  obtain ⟨i1, i2⟩ := newtwkbWriter_ids hasZ hasM precXY precZ precM hasSize true closeRings
    idList
  obtain ⟨a1, -, a3⟩ := newtwkbWriter_arrays hasZ hasM precXY precZ precM hasSize true
    closeRings idList
  unfold MarshalTWKB writeGeometry
  generalize newtwkbWriter hasZ hasM precXY precZ precM hasSize true closeRings idList = w0
    at n2 n5 n7 n10 i1 i2 a1 a3 hpts ⊢
  have hid0 : ∀ n, g.numParts = some n → w0.hasIDs = false ∨ n = w0.idList.length := by
    intro n hn
    rcases hid n hn with h | h
    · left
      cases hb : w0.hasIDs with
      | false => rfl
      | true => exact absurd h (i2.mp hb)
    · right
      rw [i1]
      exact h.symm
  obtain ⟨t, sb, sc, e⟩ := writeGeometryByType_coords w0 g hcoll hne (hct.trans n10.symm) hid0
  have k0 : Tracks w0.dimensions w0 t [] := tracks_of_sameBox a1 sc sb
  have box0 : Box w0.dimensions w0 [] :=
    ⟨fun _ => rfl, fun h => by rw [a3] at h; exact Bool.noConfusion h⟩
  obtain ⟨t2, e2, k⟩ := coordsLoop_tracks g hcoll k0.arrays sc (by rw [n7]; exact hwf)
  have box2 : Box w0.dimensions t2 pts := by
    have := k.box _ (k0.box [] box0)
    rw [List.append_nil, List.nil_append, ← hpts] at this
    exact this
  have c2 : SameConfig w0 t2 := sc.chain k.config
  obtain ⟨-, f2, -⟩ := writeAdditionalHeaders_fields t2
  have hb : t2.hasBBox = true := c2.hasBBox.trans n5
  rw [if_pos hb] at f2
  refine ⟨writeAdditionalHeaders t2, ?_, ?_, fun d => ?_⟩
  · rw [e, e2]
    rfl
  · rw [f2]
    unfold writeBBoxHeader
    simp only
    rw [c2.twkbBBox, n2, List.nil_append, c2.dimensions, n7]
    apply flatMap_congr_mem
    intro d hd
    obtain ⟨h1, h2⟩ := box_min_max box2 hsome d (by rw [n7]; exact List.mem_range.mp hd)
    rw [h1, h2]
  · obtain ⟨m1, m2⟩ := minScaledCoord_spec pts d hsome
    obtain ⟨x1, x2⟩ := maxScaledCoord_spec pts d hsome
    exact ⟨fun p hp => ⟨m1 p hp, x1 p hp⟩, m2, x2, hnonneg d,
      fun h => wrapInt64_of_range (by have := hnonneg d; omega) h⟩

/-- C40 as it was stated does not hold. A GeometryCollection that is not empty and
holds the point (5, 7), marshalled with `hasBBox = true`: the sub-geometry is
written by a writer of its own, the bounding box of the collection is never
updated, and the header holds the minimum 0 and the extent 0 in both dimensions,
though the coordinates written are 5 and 7. And a MultiPoint of the points
(−6917529027641081856, 0) and (6917529027641081856, 0): the difference of the
maximum and the minimum does not fit in an `int64`, and the extent written in the
first dimension is −4611686018427387904, which is negative. -/
theorem C40_bbox_header_counterexample :
    (Geometry.geometryCollection CoordinatesType.DimXY false
      [Geometry.point ⟨CoordinatesType.DimXY, false, 5, 7, 0, 0⟩]).IsEmpty = false ∧
    MarshalTWKB (Geometry.geometryCollection CoordinatesType.DimXY false
      [Geometry.point ⟨CoordinatesType.DimXY, false, 5, 7, 0, 0⟩])
        false false 0 0 0 false true false [] =
      some (some ([7, 1] ++ (PutVarint 0 ++ PutVarint 0 ++ (PutVarint 0 ++ PutVarint 0)) ++
        [1, 1, 0, 10, 14])) ∧
    PutVarint 5 = [10] ∧ PutVarint 7 = [14] ∧
    (Geometry.multiPoint ⟨CoordinatesType.DimXY, false,
      [⟨CoordinatesType.DimXY, false, -6917529027641081856, 0, 0, 0⟩,
        ⟨CoordinatesType.DimXY, false, 6917529027641081856, 0, 0, 0⟩]⟩).IsEmpty = false ∧
    MarshalTWKB (Geometry.multiPoint ⟨CoordinatesType.DimXY, false,
      [⟨CoordinatesType.DimXY, false, -6917529027641081856, 0, 0, 0⟩,
        ⟨CoordinatesType.DimXY, false, 6917529027641081856, 0, 0, 0⟩]⟩)
        false false 0 0 0 false true false [] =
      some (some ([4, 1] ++
        (PutVarint (-6917529027641081856) ++ PutVarint (-4611686018427387904) ++
          (PutVarint 0 ++ PutVarint 0)) ++
        ([2] ++ PutVarint (-6917529027641081856) ++ PutVarint 0 ++
          PutVarint (-4611686018427387904) ++ PutVarint 0))) := by
  refine ⟨rfl, ?_, ?_, ?_, rfl, ?_⟩
  · with_unfolding_all decide
  · with_unfolding_all decide
  · with_unfolding_all decide
  · set_option maxRecDepth 2000 in
    with_unfolding_all decide

/-- C40, amended, at the LineString of the points (1, 2), (4, 6) and (−3, 5): the
bounding-box header holds the minimum −3 and the extent 7, then the minimum 2 and
the extent 4, as the varints 5, 14, 4 and 8. -/
theorem C40_bbox_header_witness :
    MarshalTWKB (Geometry.lineString ⟨CoordinatesType.DimXY, false, 3, [1, 2, 4, 6, -3, 5]⟩)
        false false 0 0 0 false true false [] =
      some (some [2, 1, 5, 14, 4, 8, 3, 2, 4, 6, 8, 13, 1]) ∧
    ∃ wF : twkbWriter,
      MarshalTWKB (Geometry.lineString ⟨CoordinatesType.DimXY, false, 3, [1, 2, 4, 6, -3, 5]⟩)
          false false 0 0 0 false true false [] =
        some (some (wF.twkbHeaders ++ wF.twkbBBox ++ wF.twkbContents)) ∧
      wF.twkbBBox = [5, 14, 4, 8] := by
  have hv : MarshalTWKB
      (Geometry.lineString ⟨CoordinatesType.DimXY, false, 3, [1, 2, 4, 6, -3, 5]⟩)
        false false 0 0 0 false true false [] =
      some (some [2, 1, 5, 14, 4, 8, 3, 2, 4, 6, 8, 13, 1]) := by
    with_unfolding_all decide
  obtain ⟨wF, e, b, -⟩ := C40_bbox_header
    (Geometry.lineString ⟨CoordinatesType.DimXY, false, 3, [1, 2, 4, 6, -3, 5]⟩)
    false false 0 0 0 false false [] [[1, 2], [4, 6], [-3, 5]] rfl rfl rfl
    (show 3 * 2 ≤ 6 by decide) (fun n hn => Or.inl rfl) (by with_unfolding_all decide)
    (by decide)
  refine ⟨hv, wF, e, ?_⟩
  rw [b]
  with_unfolding_all decide

/-! ## The vertex invariant -/

theorem incStep_refl (h : Heap) : IncStep h h := ⟨fun _ _ e => e, fun _ e => e⟩

theorem incStep_trans {a b c : Heap} (h1 : IncStep a b) (h2 : IncStep b c) : IncStep a c :=
  ⟨fun x v e => h2.origins x v (h1.origins x v e), fun v e => h2.incident v (h1.incident v e)⟩

/-- A step that keeps the vertex records and the origins. -/
theorem incStep_of_same {h h2 : Heap} (hv : h2.vertexRecords = h.vertexRecords)
    (ho : ∀ x v, h.originOf x = some v → h2.originOf x = some v) : IncStep h h2 := by
  refine ⟨ho, ?_⟩
  rintro v ⟨r, inc, e1, e2, e3⟩
  exact ⟨r, inc, by rw [hv]; exact e1, e2, ho inc v e3⟩

theorem updHalfEdge_incStep {h h2 : Heap} {p : Nat} {f : halfEdgeRecord → halfEdgeRecord}
    (e : h.updHalfEdge p f = some h2) (hf : ∀ r, (f r).origin = r.origin) :
    IncStep h h2 ∧ h2.vertexRecords = h.vertexRecords ∧ ∀ x, h2.originOf x = h.originOf x := by
  unfold Heap.updHalfEdge at e
  cases hr : h.halfEdgeRecords[p]? with
  | none => rw [hr] at e; exact Option.noConfusion e
  | some r =>
    rw [hr] at e
    obtain rfl := Option.some.inj e
    have ho : ∀ x, Heap.originOf { h with halfEdgeRecords := h.halfEdgeRecords.set p (f r) } x =
        h.originOf x := by
      intro x
      show ((h.halfEdgeRecords.set p (f r))[x]?).bind _ = _
      rw [getElem?_set_halfEdge hr]
      by_cases hx : x = p
      · subst hx
        rw [if_pos rfl]
        show (f r).origin = (h.halfEdgeRecords[x]?).bind _
        rw [hr, hf]
        rfl
      · rw [if_neg hx]
        rfl
    exact ⟨@incStep_of_same h _ rfl (fun x v hx => by rw [ho]; exact hx), rfl, ho⟩

theorem allocHalfEdge_incStep (h : Heap) (r : halfEdgeRecord) :
    IncStep h (h.allocHalfEdge r).1 := by
  refine @incStep_of_same h (h.allocHalfEdge r).1 rfl ?_
  intro x v hx
  obtain ⟨rx, hrx, hro⟩ := originOf_eq_some hx
  show ((h.halfEdgeRecords ++ [r])[x]?).bind _ = _
  rw [List.getElem?_append_left (lt_length_of_getElem?_eq_some hrx), hrx]
  exact hro

/-- The write `v.incident = inc` where `inc` starts at `v`. -/
theorem setVertexIncident_incStep {h h2 : Heap} {v inc : Nat}
    (e : h.setVertexIncident v (some inc) = some h2) (ho : h.originOf inc = some v) :
    IncStep h h2 ∧ IncidentOK h2 v ∧ h2.halfEdgeRecords = h.halfEdgeRecords := by
  unfold Heap.setVertexIncident Heap.updVertex at e
  cases hr : h.vertexRecords[v]? with
  | none => rw [hr] at e; exact Option.noConfusion e
  | some r =>
    rw [hr] at e
    obtain rfl := Option.some.inj e
    have hlt := lt_length_of_getElem?_eq_some hr
    have hnew :
        IncidentOK { h with vertexRecords := h.vertexRecords.set v { r with incident := inc } }
          v := by
      refine ⟨{ r with incident := some inc }, inc, ?_, rfl, ho⟩
      show (h.vertexRecords.set v _)[v]? = _
      rw [List.getElem?_set_self hlt]
    refine ⟨⟨fun x w hx => hx, ?_⟩, hnew, rfl⟩
    rintro w ⟨rw0, i0, e1, e2, e3⟩
    by_cases hw : w = v
    · rw [hw]; exact hnew
    · refine ⟨rw0, i0, ?_, e2, e3⟩
      show (h.vertexRecords.set v _)[w]? = _
      rw [List.getElem?_set_ne (Ne.symm hw)]
      exact e1

theorem incStep_of_records {h h2 : Heap} (hs : h2.halfEdgeRecords = h.halfEdgeRecords)
    (hv : h2.vertexRecords = h.vertexRecords) : IncStep h h2 :=
  incStep_of_same hv (fun x v hx => by
    unfold Heap.originOf at hx ⊢
    rw [hs]
    exact hx)

theorem updFace_same {h h2 : Heap} {p : Nat} {f : faceRecord → faceRecord}
    (e : h.updFace p f = some h2) :
    h2.halfEdgeRecords = h.halfEdgeRecords ∧ h2.vertexRecords = h.vertexRecords := by
  unfold Heap.updFace at e
  cases hr : h.faceRecords[p]? with
  | none => rw [hr] at e; exact Option.noConfusion e
  | some r =>
    rw [hr] at e
    obtain rfl := Option.some.inj e
    exact ⟨rfl, rfl⟩

theorem linkFaces_same {h h2 : Heap} {ringIdx iF eF a b : Nat}
    (e : linkFaces h ringIdx iF eF a b = some h2) :
    h2.halfEdgeRecords = h.halfEdgeRecords ∧ h2.vertexRecords = h.vertexRecords := by
  unfold linkFaces at e
  split_ifs at e with h0
  · simp only [Option.bind_eq_bind, Option.bind_eq_some] at e
    obtain ⟨h1, e1, fi, -, e2⟩ := e
    obtain ⟨a1, a2⟩ := updFace_same e1
    split_ifs at e2
    · obtain ⟨b1, b2⟩ := updFace_same e2
      exact ⟨b1.trans a1, b2.trans a2⟩
    · obtain rfl := Option.some.inj e2
      exact ⟨a1, a2⟩
  · simp only [Option.bind_eq_bind, Option.bind_eq_some] at e
    obtain ⟨h1, e1, fi, -, e2⟩ := e
    obtain ⟨a1, a2⟩ := updFace_same e1
    split_ifs at e2
    · obtain ⟨b1, b2⟩ := updFace_same e2
      exact ⟨b1.trans a1, b2.trans a2⟩
    · obtain rfl := Option.some.inj e2
      exact ⟨a1, a2⟩

/-- The allocations and writes for one line of a ring: the vertex of `ln.a` has the
new internal edge, which starts at it, as its incident half-edge. -/
theorem allocRingEdge_incStep {vertices : List (XY × Nat)} {iF eF : Nat} {h h4 : Heap}
    {ln : line} (e : allocRingEdge vertices iF eF h ln = some h4) :
    IncStep h h4 ∧ ∀ va, vertices.lookup ln.a = some va → IncidentOK h4 va := by
  simp only [allocRingEdge, Option.bind_eq_bind, Option.bind_eq_some] at e
  obtain ⟨h3, e3, va, hva, e4⟩ := e
  have s1 := allocHalfEdge_incStep h ⟨vertices.lookup ln.a, none, some iF, none, none⟩
  have s2 := allocHalfEdge_incStep
    (h.allocHalfEdge ⟨vertices.lookup ln.a, none, some iF, none, none⟩).1
    ⟨vertices.lookup ln.b, some h.halfEdgeRecords.length, some eF, none, none⟩
  obtain ⟨s3, -, o3⟩ := updHalfEdge_incStep e3 (fun r => rfl)
  have horig : h3.originOf h.halfEdgeRecords.length = some va := by
    rw [o3]
    show (((h.halfEdgeRecords ++ [_]) ++ [_])[h.halfEdgeRecords.length]?).bind _ = _
    rw [List.getElem?_append_left (by simp)]
    simp [hva]
  obtain ⟨s4, ok, -⟩ := setVertexIncident_incStep e4 horig
  refine ⟨incStep_trans (incStep_trans (incStep_trans s1 s2) s3) s4, fun va2 h2 => ?_⟩
  rw [hva] at h2
  obtain rfl := Option.some.inj h2
  exact ok

theorem addRingEdge_incStep {vertices : List (XY × Nat)} {ringIdx iF eF : Nat}
    {s s2 : RingState} {ln : line}
    (e : addRingEdge vertices ringIdx iF eF s ln = some s2) :
    IncStep s.heap s2.heap ∧ ∀ va, vertices.lookup ln.a = some va → IncidentOK s2.heap va := by
  simp only [addRingEdge, Option.bind_eq_bind, Option.bind_eq_some] at e
  obtain ⟨h4, e4, e5⟩ := e
  obtain ⟨k1, k2⟩ := allocRingEdge_incStep e4
  split_ifs at e5
  · simp only [Option.bind_eq_bind, Option.bind_eq_some, Option.pure_def,
      Option.some.injEq] at e5
    obtain ⟨h5, e6, rfl⟩ := e5
    obtain ⟨a1, a2⟩ := linkFaces_same e6
    have k3 : IncStep h4 h5 := incStep_of_records a1 a2
    exact ⟨incStep_trans k1 k3, fun va hva => k3.incident va (k2 va hva)⟩
  · simp only [Option.pure_def, Option.some.injEq] at e5
    subst e5
    exact ⟨k1, k2⟩

theorem addRingEdges_incStep {vertices : List (XY × Nat)} {ringIdx iF eF : Nat} :
    ∀ (ls : List line) (s s2 : RingState),
      ls.foldlM (addRingEdge vertices ringIdx iF eF) s = some s2 →
      IncStep s.heap s2.heap ∧
        ∀ l ∈ ls, ∀ va, vertices.lookup l.a = some va → IncidentOK s2.heap va := by
  intro ls
  induction ls with
  | nil =>
    intro s s2 e
    obtain rfl : s = s2 := Option.some.inj e
    exact ⟨incStep_refl _, fun l hl => absurd hl (List.not_mem_nil _)⟩
  | cons ln rest ih =>
    intro s s2 e
    rw [List.foldlM_cons] at e
    cases e1 : addRingEdge vertices ringIdx iF eF s ln with
    | none => rw [e1] at e; exact Option.noConfusion e
    | some s1 =>
      rw [e1] at e
      obtain ⟨k1, k2⟩ := addRingEdge_incStep e1
      obtain ⟨k3, k4⟩ := ih s1 s2 e
      refine ⟨incStep_trans k1 k3, fun l hl va hva => ?_⟩
      rcases List.mem_cons.mp hl with hl | hl
      · rw [hl] at hva
        exact k3.incident va (k2 va hva)
      · exact k4 l hl va hva

theorem wireRingEdge_incStep {newEdges : List Nat} {h h2 : Heap} {i : Nat}
    (e : wireRingEdge newEdges h i = some h2) : IncStep h h2 := by
  simp only [wireRingEdge, Option.bind_eq_bind, Option.bind_eq_some] at e
  obtain ⟨e0, -, e1, -, n0, -, h1, a1, n1, -, h2b, a2, p0, -, h3, a3, p1, -, a4⟩ := e
  exact incStep_trans (incStep_trans (incStep_trans
    (updHalfEdge_incStep a1 (fun r => rfl)).1 (updHalfEdge_incStep a2 (fun r => rfl)).1)
    (updHalfEdge_incStep a3 (fun r => rfl)).1) (updHalfEdge_incStep a4 (fun r => rfl)).1

theorem incStep_foldlM {α : Type} (f : Heap → α → Option Heap)
    (hf : ∀ h x h2, f h x = some h2 → IncStep h h2) :
    ∀ (l : List α) (h h2 : Heap), l.foldlM f h = some h2 → IncStep h h2 := by
  intro l
  induction l with
  | nil =>
    intro h h2 e
    obtain rfl : h = h2 := Option.some.inj e
    exact incStep_refl h
  | cons x rest ih =>
    intro h h2 e
    rw [List.foldlM_cons] at e
    cases e1 : f h x with
    | none => rw [e1] at e; exact Option.noConfusion e
    | some h1 =>
      rw [e1] at e
      exact incStep_trans (hf h x h1 e1) (ih h1 h2 e)

/-- The body of the loop over the rings: the half-edges keep their origins, the
vertices their incident half-edges, and the vertex of the start of every line of
the ring has an incident half-edge that starts at it. -/
theorem processRing_incStep {infFace polyFace idx : Nat} {ring : List XY} {h h2 : Heap}
    {d d2 : doublyConnectedEdgeList}
    (e : processRing infFace polyFace (h, d) (idx, ring) = some (h2, d2)) :
    IncStep h h2 ∧
      ∀ l ∈ ringLines ring, ∀ va, d.vertices.lookup l.a = some va → IncidentOK h2 va := by
  simp only [processRing, Option.bind_eq_bind, Option.bind_eq_some, Option.pure_def,
    Option.some.injEq, Prod.mk.injEq] at e
  obtain ⟨rs, e1, h1, e2, rfl, -⟩ := e
  obtain ⟨k1, k2⟩ := addRingEdges_incStep _ _ _ e1
  have k0 : IncStep h (if idx > 0 then (h.allocFace ⟨none, [], false, false⟩).1 else h) := by
    split_ifs
    · exact @incStep_of_records h (h.allocFace ⟨none, [], false, false⟩).1 rfl rfl
    · exact incStep_refl h
  have k3 : IncStep rs.heap h1 :=
    incStep_foldlM _ (fun a x b hx => wireRingEdge_incStep hx) _ _ _ e2
  exact ⟨incStep_trans (incStep_trans k0 k1) k3, fun l hl va hva => k3.incident va (k2 l hl va hva)⟩

/-- The body of the loop over the rings keeps the vertex invariant, on a closed ring
whose points are all in the vertex map. -/
theorem processRing_vertexInv {h : Heap} {d : doublyConnectedEdgeList}
    (infFace polyFace idx : Nat) {ring : List XY} (inv : SplitInv h d) (vi : VertexInv h d)
    (hc : RingClosed ring)
    (hmap : ∀ xy ∈ ring, ∃ v, d.vertices.lookup xy = some v)
    (hi : infFace < h.faceRecords.length) (hp : polyFace < h.faceRecords.length) :
    ∃ h2 d2, processRing infFace polyFace (h, d) (idx, ring) = some (h2, d2) ∧
      SplitInv h2 d2 ∧ VertexInv h2 d2 ∧ d2.vertices = d.vertices ∧
      h.faceRecords.length ≤ h2.faceRecords.length := by
  obtain ⟨h2, d2, e, inv2, ok2, hvs, hfl, hd2, hlen⟩ :=
    processRing_inv infFace polyFace idx inv vi.keys hc hmap hi hp
  obtain ⟨k1, k2⟩ := processRing_incStep e
  have hk1 := ringLines_length_ne_one hc
  have look : ∀ xy ∈ ring, ∃ v, d.vertices.lookup xy = some v ∧ v < h.vertexRecords.length := by
    intro xy hxy
    obtain ⟨v, hv⟩ := hmap xy hxy
    obtain ⟨r, hr, -⟩ := vi.keys xy v hv
    exact ⟨v, hv, lt_length_of_getElem?_eq_some hr⟩
  obtain ⟨h3, d3, e3, -, -, -, hco, -, -, hold, hblk⟩ :=
    processRing_spec (h := h) (d := d) infFace polyFace idx ring
      (fun l hl => look l.a (ringLines_mem ring l hl).1) hi hp (by omega)
  rw [e] at e3
  obtain ⟨rfl, rfl⟩ := Prod.mk.inj (Option.some.inj e3)
  have new_ok : ∀ l ∈ ringLines ring, ∀ v, d.vertices.lookup l.a = some v →
      (∃ r, h2.vertexRecords[v]? = some r ∧ d2.vertices.lookup r.coords = some v) ∧
        IncidentOK h2 v := by
    intro l hl v hv
    refine ⟨?_, k2 l hl v hv⟩
    obtain ⟨r, hr, hrc⟩ := ok2 l.a v (by rw [hvs]; exact hv)
    exact ⟨r, hr, by rw [hrc, hvs]; exact hv⟩
  have key : ∀ x ∈ d2.halfEdges, ∀ v, h2.originOf x = some v →
      (∃ r, h2.vertexRecords[v]? = some r ∧ d2.vertices.lookup r.coords = some v) ∧
        IncidentOK h2 v := by
    intro x hx v hv
    rw [hd2] at hx
    rcases List.mem_append.mp hx with hx | hx
    · have hlt := inv.lt_length x hx
      have hv0 : h.originOf x = some v := by
        unfold Heap.originOf at hv ⊢
        rw [← hold x hlt]
        exact hv
      obtain ⟨r, hr, hrl⟩ := vi.origins x hx v hv0
      have hcv := hco v
      rw [hr] at hcv
      cases h2v : h2.vertexRecords[v]? with
      | none => rw [h2v] at hcv; exact Option.noConfusion hcv
      | some r2 =>
        rw [h2v] at hcv
        have hcc : r2.coords = r.coords := Option.some.inj hcv
        exact ⟨⟨r2, rfl, by rw [hcc, hvs]; exact hrl⟩, k1.incident v (vi.incident x hx v hv0)⟩
    · obtain ⟨hx1, hx2⟩ := List.mem_range'_1.mp hx
      have hi2 : (x - h.halfEdgeRecords.length) / 2 < (ringLines ring).length := by omega
      obtain ⟨l, l2, hl, hl2, hab⟩ := ringLines_cycle hc _ hi2
      obtain ⟨f, r0, r1⟩ := hblk _ l hl
      by_cases hpar : (x - h.halfEdgeRecords.length) % 2 = 0
      · have hxe : x = h.halfEdgeRecords.length + 2 * ((x - h.halfEdgeRecords.length) / 2) := by
          omega
        rw [hxe, originOf_of_record r0] at hv
        exact new_ok l (List.getElem?_mem hl) v hv
      · have hxe : x = h.halfEdgeRecords.length +
            (2 * ((x - h.halfEdgeRecords.length) / 2) + 1) := by omega
        rw [hxe, originOf_of_record r1, hab] at hv
        exact new_ok l2 (List.getElem?_mem hl2) v hv
  exact ⟨h2, d2, e, inv2, ⟨ok2, fun x hx v hv => (key x hx v hv).1,
    fun x hx v hv => (key x hx v hv).2⟩, hvs, hfl⟩

/-- The loop over the rings keeps the vertex invariant. -/
theorem processRings_vertexInv (infFace polyFace : Nat) :
    ∀ (irs : List (Nat × List XY)) (h : Heap) (d : doublyConnectedEdgeList),
      SplitInv h d → VertexInv h d →
      (∀ ir ∈ irs, RingClosed ir.2 ∧ ∀ xy ∈ ir.2, ∃ v, d.vertices.lookup xy = some v) →
      infFace < h.faceRecords.length → polyFace < h.faceRecords.length →
      ∃ h2 d2, irs.foldlM (processRing infFace polyFace) (h, d) = some (h2, d2) ∧
        SplitInv h2 d2 ∧ VertexInv h2 d2 := by
  intro irs
  induction irs with
  | nil =>
    intro h d inv vi _ _ _
    exact ⟨h, d, rfl, inv, vi⟩
  | cons ir rest ih =>
    intro h d inv vi hr hi hp
    obtain ⟨idx, ring⟩ := ir
    obtain ⟨hc, hmap⟩ := hr (idx, ring) (List.mem_cons_self _ _)
    obtain ⟨h1, d1, e1, inv1, vi1, hv1, hf1⟩ :=
      processRing_vertexInv infFace polyFace idx inv vi hc hmap hi hp
    obtain ⟨h2, d2, e2, inv2, vi2⟩ := ih h1 d1 inv1 vi1
      (fun ir hir => by
        rw [hv1]; exact hr ir (List.mem_cons_of_mem _ hir))
      (lt_of_lt_of_le hi hf1) (lt_of_lt_of_le hp hf1)
    refine ⟨h2, d2, ?_, inv2, vi2⟩
    simp only [List.foldlM_cons, Option.bind_eq_bind, e1, Option.some_bind, e2]

/-- The function `newDCELFromPolygon` on a polygon with closed rings returns a DCEL
with the split invariant and the vertex invariant. -/
theorem newDCELFromPolygon_vertexInv (h0 : Heap) (poly : Polygon) (isPolyA : Bool)
    (hc : PolygonClosed poly) :
    ∃ h d, newDCELFromPolygon h0 poly isPolyA = some (h, d) ∧ SplitInv h d ∧
      VertexInv h d := by
  have hcc := polygonClosed_forceCCW hc
  obtain ⟨p1, p2, -, p4, p5⟩ := populateRings_spec
    (poly.ForceCCW.exterior :: poly.ForceCCW.interiors) (h0, [])
    (fun xy v hl => by simp at hl)
  exact processRings_vertexInv
    (populateVertices h0 (poly.ForceCCW.exterior :: poly.ForceCCW.interiors)).1.faceRecords.length
    (((populateVertices h0
      (poly.ForceCCW.exterior :: poly.ForceCCW.interiors)).1.allocFace
        ⟨none, [], false, false⟩).1.faceRecords.length)
    (poly.ForceCCW.exterior :: poly.ForceCCW.interiors).enum
    (((populateVertices h0 (poly.ForceCCW.exterior :: poly.ForceCCW.interiors)).1.allocFace
        ⟨none, [], false, false⟩).1.allocFace ⟨none, [], isPolyA, !isPolyA⟩).1
    ⟨[(populateVertices h0
        (poly.ForceCCW.exterior :: poly.ForceCCW.interiors)).1.faceRecords.length,
      ((populateVertices h0 (poly.ForceCCW.exterior :: poly.ForceCCW.interiors)).1.allocFace
        ⟨none, [], false, false⟩).1.faceRecords.length], [],
      (populateVertices h0 (poly.ForceCCW.exterior :: poly.ForceCCW.interiors)).2⟩
    (splitInv_nil _ _ rfl)
    ⟨p1, fun e he => absurd he (List.not_mem_nil _), fun e he => absurd he (List.not_mem_nil _)⟩
    (fun ir hir => by
      have hm := List.snd_mem_of_mem_enum hir
      refine ⟨?_, fun xy hxy => p2 ir.2 hm xy hxy⟩
      rcases List.mem_cons.mp hm with h1 | h1
      · rw [h1]; exact hcc.1
      · exact hcc.2 _ h1)
    (by
      show _ < ((_ ++ [_]) ++ [_]).length
      simp only [List.length_append, List.length_singleton]; omega)
    (by
      show (_ ++ [_]).length < ((_ ++ [_]) ++ [_]).length
      simp only [List.length_append, List.length_singleton]; omega)

theorem updHalfEdge_vertexRecords {h h2 : Heap} {p : Nat} {f : halfEdgeRecord → halfEdgeRecord}
    (e : h.updHalfEdge p f = some h2) : h2.vertexRecords = h.vertexRecords := by
  unfold Heap.updHalfEdge at e
  cases hr : h.halfEdgeRecords[p]? with
  | none => rw [hr] at e; exact Option.noConfusion e
  | some r =>
    rw [hr] at e
    obtain rfl := Option.some.inj e
    rfl

theorem updVertex_halfEdgeRecords {h h2 : Heap} {p : Nat} {f : vertexRecord → vertexRecord}
    (e : h.updVertex p f = some h2) : h2.halfEdgeRecords = h.halfEdgeRecords := by
  unfold Heap.updVertex at e
  cases hr : h.vertexRecords[p]? with
  | none => rw [hr] at e; exact Option.noConfusion e
  | some r =>
    rw [hr] at e
    obtain rfl := Option.some.inj e
    rfl

theorem reNodeEdgeRewire_vertexRecords {h3 h8 : Heap} {e cut n a b : Nat}
    (hs : reNodeEdgeRewire h3 e cut n a b = some h8) : h8.vertexRecords = h3.vertexRecords := by
  simp only [reNodeEdgeRewire, Option.bind_eq_bind, Option.bind_eq_some] at hs
  obtain ⟨t1, -, h4, e4, h5, e5, nt, -, h6, e6, h7, e7, t2, -, e8⟩ := hs
  rw [updHalfEdge_vertexRecords e8, updHalfEdge_vertexRecords e7, updHalfEdge_vertexRecords e6,
    updHalfEdge_vertexRecords e5, updHalfEdge_vertexRecords e4]

theorem reNodeEdgePrevTwin_vertexRecords {h8 h9 : Heap} {e : Nat}
    (hs : reNodeEdgePrevTwin h8 e = some h9) : h9.vertexRecords = h8.vertexRecords := by
  simp only [reNodeEdgePrevTwin, Option.bind_eq_bind, Option.bind_eq_some] at hs
  obtain ⟨p, -, pt, -, er2, -, e9⟩ := hs
  exact updHalfEdge_vertexRecords e9

/-- The stages of `reNodeEdge`: up to the vertex writes the vertex records are
left as they are. -/
theorem reNodeEdge_stages {h h2 : Heap} {d d2 : doublyConnectedEdgeList} {e cut : Nat}
    (hs : reNodeEdge h d e cut = some (h2, d2)) :
    ∃ h9, h9.vertexRecords = h.vertexRecords ∧
      reNodeEdgeVertices h9 cut ((h.twinOf e).bind h.originOf) h.halfEdgeRecords.length
        (h.halfEdgeRecords.length + 1) = some h2 := by
  simp only [reNodeEdge, Option.bind_eq_bind, Option.bind_eq_some, Option.pure_def,
    Option.some.injEq, Prod.mk.injEq] at hs
  obtain ⟨er, he, t, het, tr, htr, n, hn, nr, hnr, h3, e3, h8, e8, h9, e9, h11, e11, rfl, -⟩ := hs
  refine ⟨h9, ?_, ?_⟩
  · rw [reNodeEdgePrevTwin_vertexRecords e9, reNodeEdgeRewire_vertexRecords e8,
      updHalfEdge_vertexRecords e3]
    rfl
  · have hd : (h.twinOf e).bind h.originOf = tr.origin := by
      simp [Heap.twinOf, Heap.originOf, he, het, htr]
    rw [hd]
    have hl : ((h.allocHalfEdge ⟨some cut, none, er.incident, er.next, some e⟩).1).halfEdgeRecords.length
        = h.halfEdgeRecords.length + 1 := by
      show (h.halfEdgeRecords ++ [_]).length = _
      simp
    rw [hl] at e11
    exact e11

/-- The method `reNodeEdge(e, cut)` keeps the vertex invariant, where `e` is a
half-edge of the DCEL and `cut` the vertex the map holds for its coordinates. -/
theorem reNodeEdge_vertexInv {h : Heap} {d : doublyConnectedEdgeList} (inv : SplitInv h d)
    (vi : VertexInv h d) {e cut : Nat} (he : e ∈ d.halfEdges)
    (hcut : ∃ r, h.vertexRecords[cut]? = some r ∧ d.vertices.lookup r.coords = some cut) :
    ∃ h2, reNodeEdge h d e cut =
        some (h2, { d with halfEdges := d.halfEdges ++
          [h.halfEdgeRecords.length, h.halfEdgeRecords.length + 1] }) ∧
      SplitInv h2 { d with halfEdges := d.halfEdges ++
          [h.halfEdgeRecords.length, h.halfEdgeRecords.length + 1] } ∧
      VertexInv h2 { d with halfEdges := d.halfEdges ++
          [h.halfEdgeRecords.length, h.halfEdgeRecords.length + 1] } := by
  obtain ⟨rc, hrc, hrcl⟩ := hcut
  have hc : cut < h.vertexRecords.length := lt_length_of_getElem?_eq_some hrc
  obtain ⟨t, n, p, nt, pt, dv, ⟨ht, hn, hp, hnt, hpt⟩,
    ⟨a1, a2, a3, a4, a5, a6, a7, a8, a9, a10, a11, a12, a13⟩,
    ⟨d1, d2, d3, d4, d5, d6, d7, d8⟩, hdv⟩ := inv.around he
  obtain ⟨h2, r1, -, rvl, rco, rl, -, -, -, O, -⟩ := reNodeEdge_fields inv he hc a1 a2 a4 a6
  obtain ⟨h3, r3, inv3⟩ := reNodeEdge_preserves inv he hc
  rw [r1] at r3
  obtain rfl : h2 = h3 := (Prod.mk.inj (Option.some.inj r3)).1
  obtain ⟨h9, v9, s9⟩ := reNodeEdge_stages r1
  rw [a1, Option.some_bind, a6] at s9
  simp only [reNodeEdgeVertices, Option.bind_eq_bind, Option.bind_eq_some,
    Option.some.injEq, exists_eq_left'] at s9
  obtain ⟨h10, e10, e11⟩ := s9
  have hs9 : h2.halfEdgeRecords = h9.halfEdgeRecords :=
    (updVertex_halfEdgeRecords e11).trans (updVertex_halfEdgeRecords e10)
  have O9 : ∀ x, h9.originOf x = h2.originOf x := fun x => by
    unfold Heap.originOf
    rw [hs9]
  have oL : h9.originOf h.halfEdgeRecords.length = some cut := by rw [O9, O, if_pos rfl]
  obtain ⟨st10, ok10, -⟩ := setVertexIncident_incStep e10 oL
  have oL1 : h10.originOf (h.halfEdgeRecords.length + 1) = some dv :=
    st10.origins _ _ (by rw [O9, O, if_neg (by omega), if_pos rfl])
  obtain ⟨st11, ok11, -⟩ := setVertexIncident_incStep e11 oL1
  have okc : IncidentOK h2 cut := st11.incident cut ok10
  have oko : ∀ v, v ≠ dv → IncidentOK h v → IncidentOK h2 v := by
    rintro v hvd ⟨r, inc, e1, e2, e3⟩
    apply st11.incident v
    apply st10.incident v
    refine ⟨r, inc, by rw [v9]; exact e1, e2, ?_⟩
    obtain ⟨ri, hri, -⟩ := originOf_eq_some e3
    have hlt := lt_length_of_getElem?_eq_some hri
    have hnt : inc ≠ t := by
      intro hh
      rw [hh, a6] at e3
      exact hvd (Option.some.inj e3).symm
    rw [O9, O, if_neg (by omega), if_neg (by omega), if_neg hnt]
    exact e3
  have carry : ∀ v, (∃ r, h.vertexRecords[v]? = some r ∧ d.vertices.lookup r.coords = some v) →
      ∃ r, h2.vertexRecords[v]? = some r ∧ d.vertices.lookup r.coords = some v := by
    rintro v ⟨r, hr, hl⟩
    have hcv := rco v
    rw [hr] at hcv
    cases h2v : h2.vertexRecords[v]? with
    | none => rw [h2v] at hcv; exact Option.noConfusion hcv
    | some r2 =>
      rw [h2v] at hcv
      have hcc : r2.coords = r.coords := Option.some.inj hcv
      exact ⟨r2, rfl, by rw [hcc]; exact hl⟩
  have key : ∀ x ∈ d.halfEdges ++ [h.halfEdgeRecords.length, h.halfEdgeRecords.length + 1],
      ∀ v, h2.originOf x = some v →
      (∃ r, h2.vertexRecords[v]? = some r ∧ d.vertices.lookup r.coords = some v) ∧
        IncidentOK h2 v := by
    intro x hx v hv
    have atcut : (∃ r, h2.vertexRecords[cut]? = some r ∧
        d.vertices.lookup r.coords = some cut) ∧ IncidentOK h2 cut :=
      ⟨carry cut ⟨rc, hrc, hrcl⟩, okc⟩
    have atdv : (∃ r, h2.vertexRecords[dv]? = some r ∧
        d.vertices.lookup r.coords = some dv) ∧ IncidentOK h2 dv :=
      ⟨carry dv (vi.origins t ht dv a6), ok11⟩
    rw [O] at hv
    split_ifs at hv with x1 x2 x3
    · rw [← Option.some.inj hv]; exact atcut
    · rw [← Option.some.inj hv]; exact atdv
    · rw [← Option.some.inj hv]; exact atcut
    · have hxd : x ∈ d.halfEdges := by
        rcases List.mem_append.mp hx with hx | hx
        · exact hx
        · simp only [List.mem_cons, List.mem_singleton, List.not_mem_nil, or_false] at hx
          rcases hx with hx | hx
          · exact absurd hx x1
          · exact absurd hx x2
      by_cases hvd : v = dv
      · rw [hvd]; exact atdv
      · exact ⟨carry v (vi.origins x hxd v hv), oko v hvd (vi.incident x hxd v hv)⟩
  exact ⟨h2, r1, inv3, ⟨vmapOK_of_coords vi.keys rco, fun x hx v hv => (key x hx v hv).1,
    fun x hx v hv => (key x hx v hv).2⟩⟩

/-- The lookup of the cut vertex in `reNodeComponent`, with the new entry where
there is none, keeps the invariants, and the vertex it gives is the one the map
holds for its coordinates. -/
theorem findOrCreateVertex_vertexInv {h : Heap} {d : doublyConnectedEdgeList}
    (inv : SplitInv h d) (vi : VertexInv h d) (xy : XY) :
    SplitInv (findOrCreateVertex h d xy).1 (findOrCreateVertex h d xy).2.1 ∧
    VertexInv (findOrCreateVertex h d xy).1 (findOrCreateVertex h d xy).2.1 ∧
    (findOrCreateVertex h d xy).2.1.halfEdges = d.halfEdges ∧
    ∃ r, (findOrCreateVertex h d xy).1.vertexRecords[(findOrCreateVertex h d xy).2.2]? =
        some r ∧ r.coords = xy ∧
      (findOrCreateVertex h d xy).2.1.vertices.lookup r.coords =
        some (findOrCreateVertex h d xy).2.2 := by
  obtain ⟨h1, vs, v, eq, hs, ⟨ext, hext⟩, ok1, hl, hmono⟩ := findOrCreateVertex_spec h d xy vi.keys
  rw [eq]
  have O : ∀ x, h1.originOf x = h.originOf x := fun x => by
    unfold Heap.originOf
    rw [hs]
  have rec : ∀ (w : Nat) (r : vertexRecord), h.vertexRecords[w]? = some r →
      h1.vertexRecords[w]? = some r := by
    intro w r hr
    rw [hext, List.getElem?_append_left (lt_length_of_getElem?_eq_some hr)]
    exact hr
  refine ⟨splitInv_frame inv hs (by rw [hext]; simp) rfl, ⟨ok1, ?_, ?_⟩, rfl, ?_⟩
  · intro e he w hw
    rw [O] at hw
    obtain ⟨r, hr, hrl⟩ := vi.origins e he w hw
    exact ⟨r, rec w r hr, hmono _ _ hrl⟩
  · intro e he w hw
    rw [O] at hw
    obtain ⟨r, inc, e1, e2, e3⟩ := vi.incident e he w hw
    exact ⟨r, inc, rec w r e1, e2, by rw [O]; exact e3⟩
  · obtain ⟨r, hr, hrc⟩ := ok1 xy v hl
    exact ⟨r, hr, hrc, by rw [hrc]; exact hl⟩

/-- The callback of `overlayVerticesInComponent` at the half-edge `e` keeps the
vertex invariant of the DCEL whose vertex map it works on. -/
theorem overlayVertexStep_vertexInv {h h2 : Heap} {d : doublyConnectedEdgeList}
    {vs2 : List (XY × Nat)} {e : Nat} (vi : VertexInv h d)
    (hs : overlayVertexStep (h, d.vertices) e = some (h2, vs2)) :
    VertexInv h2 { d with vertices := vs2 } := by
  simp only [overlayVertexStep, Option.bind_eq_bind, Option.bind_eq_some] at hs
  obtain ⟨o, ho, r, hr, hm⟩ := hs
  cases hl : d.vertices.lookup r.coords with
  | some existing =>
    rw [hl] at hm
    simp only [Option.bind_eq_bind, Option.bind_eq_some, Option.pure_def, Option.some.injEq,
      Prod.mk.injEq] at hm
    obtain ⟨h3, e3, rfl, rfl⟩ := hm
    have hv3 : h3.vertexRecords = h.vertexRecords := updHalfEdge_vertexRecords e3
    obtain ⟨er, her, -⟩ := originOf_eq_some ho
    have O : ∀ x, h3.originOf x = if x = e then some existing else h.originOf x := by
      intro x
      unfold Heap.setOrigin Heap.updHalfEdge at e3
      rw [her] at e3
      obtain rfl := Option.some.inj e3
      show ((h.halfEdgeRecords.set e _)[x]?).bind _ = _
      rw [getElem?_set_halfEdge her]
      by_cases hx : x = e
      · rw [if_pos hx, if_pos hx]; rfl
      · rw [if_neg hx, if_neg hx]; rfl
    -- a vertex of the map at which `e` starts is the vertex found
    have same : ∀ v, h.originOf e = some v →
        (∃ rv, h.vertexRecords[v]? = some rv ∧ d.vertices.lookup rv.coords = some v) →
        existing = v := by
      rintro v hv ⟨rv, hrv, hrl⟩
      rw [ho] at hv
      obtain rfl := Option.some.inj hv
      rw [hr] at hrv
      obtain rfl := Option.some.inj hrv
      rw [hl] at hrl
      exact Option.some.inj hrl
    have back : ∀ x ∈ d.halfEdges, ∀ v, h3.originOf x = some v → h.originOf x = some v := by
      intro x hx v hv
      rw [O] at hv
      split_ifs at hv with hxe
      · rw [hxe] at hx ⊢
        have := same o ho (vi.origins e hx o ho)
        rw [ho, ← this]
        exact hv
      · exact hv
    refine ⟨?_, ?_, ?_⟩
    · intro xy v hxy
      obtain ⟨rv, hrv, hrc⟩ := vi.keys xy v hxy
      exact ⟨rv, by rw [hv3]; exact hrv, hrc⟩
    · intro x hx v hv
      obtain ⟨rv, hrv, hrl⟩ := vi.origins x hx v (back x hx v hv)
      exact ⟨rv, by rw [hv3]; exact hrv, hrl⟩
    · intro x hx v hv
      have hv0 := back x hx v hv
      obtain ⟨rv, inc, e1, e2, e4⟩ := vi.incident x hx v hv0
      refine ⟨rv, inc, by rw [hv3]; exact e1, e2, ?_⟩
      rw [O]
      split_ifs with hie
      · rw [hie] at e4
        rw [same v e4 (vi.origins x hx v hv0)]
      · exact e4
  | none =>
    rw [hl] at hm
    simp only [Option.pure_def, Option.some.injEq, Prod.mk.injEq] at hm
    obtain ⟨rfl, rfl⟩ := hm
    have mono : ∀ k w, d.vertices.lookup k = some w →
        (d.vertices ++ [(r.coords, o)]).lookup k = some w := by
      intro k w hk
      rw [lookup_append_single, hk]
    refine ⟨?_, ?_, vi.incident⟩
    · intro xy v hxy
      show ∃ rv, h.vertexRecords[v]? = some rv ∧ rv.coords = xy
      have hxy2 : (d.vertices ++ [(r.coords, o)]).lookup xy = some v := hxy
      rw [lookup_append_single] at hxy2
      cases hk : d.vertices.lookup xy with
      | some w =>
        rw [hk] at hxy2
        obtain rfl := Option.some.inj hxy2
        exact vi.keys xy w hk
      | none =>
        rw [hk] at hxy2
        simp only at hxy2
        split_ifs at hxy2 with hkx
        obtain rfl := Option.some.inj hxy2
        exact ⟨r, hr, hkx.symm⟩
    · intro x hx v hv
      obtain ⟨rv, hrv, hrl⟩ := vi.origins x hx v hv
      exact ⟨rv, hrv, mono _ _ hrl⟩

/-- The callback of `overlayVerticesInComponent` returns at a half-edge whose
origin is an allocated vertex. -/
theorem overlayVertexStep_total (h : Heap) (vs : List (XY × Nat)) {e o : Nat}
    (ho : h.originOf e = some o) (hlt : o < h.vertexRecords.length) :
    ∃ h2 vs2, overlayVertexStep (h, vs) e = some (h2, vs2) := by
  obtain ⟨er, her, -⟩ := originOf_eq_some ho
  simp only [overlayVertexStep, Option.bind_eq_bind, ho, Option.some_bind,
    List.getElem?_eq_getElem hlt]
  cases vs.lookup (h.vertexRecords[o]).coords with
  | none => exact ⟨_, _, rfl⟩
  | some existing =>
    obtain ⟨h2, e2, -⟩ := updHalfEdge_spec (fun r => { r with origin := some existing }) her
    refine ⟨h2, vs, ?_⟩
    show (Heap.setOrigin h e (some existing)).bind _ = _
    unfold Heap.setOrigin
    rw [e2]
    rfl

/-- The callback of `overlayVerticesInComponent`, where every vertex of the map has
an incident half-edge that starts at it, and so has the origin of the half-edge
visited: afterwards every vertex of the map has one. -/
theorem overlayVertexStep_incident {h h2 : Heap} {vs vs2 : List (XY × Nat)} {e : Nat}
    (keys : VMapOK h vs) (hall : ∀ xy v, vs.lookup xy = some v → IncidentOK h v)
    (hnew : ∀ o, h.originOf e = some o → IncidentOK h o)
    (hs : overlayVertexStep (h, vs) e = some (h2, vs2)) :
    ∀ xy v, vs2.lookup xy = some v → IncidentOK h2 v := by
  simp only [overlayVertexStep, Option.bind_eq_bind, Option.bind_eq_some] at hs
  obtain ⟨o, ho, r, hr, hm⟩ := hs
  cases hl : vs.lookup r.coords with
  | some existing =>
    rw [hl] at hm
    simp only [Option.bind_eq_bind, Option.bind_eq_some, Option.pure_def, Option.some.injEq,
      Prod.mk.injEq] at hm
    obtain ⟨h3, e3, rfl, rfl⟩ := hm
    have hv3 : h3.vertexRecords = h.vertexRecords := updHalfEdge_vertexRecords e3
    obtain ⟨er, her, -⟩ := originOf_eq_some ho
    have O : ∀ x, h3.originOf x = if x = e then some existing else h.originOf x := by
      intro x
      unfold Heap.setOrigin Heap.updHalfEdge at e3
      rw [her] at e3
      obtain rfl := Option.some.inj e3
      show ((h.halfEdgeRecords.set e _)[x]?).bind _ = _
      rw [getElem?_set_halfEdge her]
      by_cases hx : x = e
      · rw [if_pos hx, if_pos hx]; rfl
      · rw [if_neg hx, if_neg hx]; rfl
    intro xy v hxy
    obtain ⟨rv, inc, e1, e2, e4⟩ := hall xy v hxy
    refine ⟨rv, inc, by rw [hv3]; exact e1, e2, ?_⟩
    rw [O]
    split_ifs with hie
    · rw [hie, ho] at e4
      obtain rfl := Option.some.inj e4
      rw [hr] at e1
      obtain rfl := Option.some.inj e1
      obtain ⟨rk, hrk, hrc⟩ := keys xy o hxy
      rw [hr] at hrk
      obtain rfl := Option.some.inj hrk
      rw [hrc, hxy] at hl
      rw [Option.some.inj hl]
    · exact e4
  | none =>
    rw [hl] at hm
    simp only [Option.pure_def, Option.some.injEq, Prod.mk.injEq] at hm
    obtain ⟨rfl, rfl⟩ := hm
    intro xy v hxy
    rw [lookup_append_single] at hxy
    cases hk : vs.lookup xy with
    | some w =>
      rw [hk] at hxy
      obtain rfl := Option.some.inj hxy
      exact hall xy w hk
    | none =>
      rw [hk] at hxy
      simp only at hxy
      split_ifs at hxy with hkx
      obtain rfl := Option.some.inj hxy
      exact hnew o ho

theorem unitSquare_vertex_facts :
    ((newDCELFromPolygon Heap.empty unitSquare true).all
      (fun s => decide (0 ∈ s.2.halfEdges) &&
        decide ((s.1.vertexRecords[2]?).bind (fun r => s.2.vertices.lookup r.coords) =
          some 2))) = true := by
  with_unfolding_all decide

/-- C31: the vertex invariant `VertexInv` of a DCEL says that each key `xy` of
`d.vertices` maps to a record whose `coords` equal `xy` (so two entries of the map
with the same coordinates are the same entry), that the origin of every half-edge
of `d.halfEdges` is the vertex the map holds for its coordinates, and that every
vertex that is the origin of a half-edge of `d.halfEdges` has an incident half-edge,
not nil, whose origin is that vertex. On a polygon with closed rings
`newDCELFromPolygon` returns a DCEL with this invariant; the lookup of the cut
vertex in `reNodeComponent` (with the new map entry where there is none) keeps it
and gives a vertex of the map; `reNodeEdge(e, cut)` on a half-edge `e` of the DCEL
and a vertex `cut` of the map returns and keeps it; and each step of
`overlayVertices`, the callback at one half-edge, returns where the origin of the
half-edge is an allocated vertex, and keeps it; where moreover every vertex of the
map has an incident half-edge that starts at it, and so has the origin of the
half-edge visited, every vertex of the map has one after the step. -/
theorem C31_vertex_invariant :
    (∀ (h0 : Heap) (poly : Polygon) (isPolyA : Bool), PolygonClosed poly →
      ∃ h d, newDCELFromPolygon h0 poly isPolyA = some (h, d) ∧ SplitInv h d ∧
        VertexInv h d) ∧
    (∀ (h : Heap) (d : doublyConnectedEdgeList) (xy : XY), SplitInv h d → VertexInv h d →
      SplitInv (findOrCreateVertex h d xy).1 (findOrCreateVertex h d xy).2.1 ∧
      VertexInv (findOrCreateVertex h d xy).1 (findOrCreateVertex h d xy).2.1 ∧
      (findOrCreateVertex h d xy).2.1.halfEdges = d.halfEdges ∧
      ∃ r, (findOrCreateVertex h d xy).1.vertexRecords[(findOrCreateVertex h d xy).2.2]? =
          some r ∧ r.coords = xy ∧
        (findOrCreateVertex h d xy).2.1.vertices.lookup r.coords =
          some (findOrCreateVertex h d xy).2.2) ∧
    (∀ (h : Heap) (d : doublyConnectedEdgeList) (e cut : Nat), SplitInv h d → VertexInv h d →
      e ∈ d.halfEdges →
      (∃ r, h.vertexRecords[cut]? = some r ∧ d.vertices.lookup r.coords = some cut) →
      ∃ h2 d2, reNodeEdge h d e cut = some (h2, d2) ∧ SplitInv h2 d2 ∧ VertexInv h2 d2) ∧
    (∀ (h : Heap) (d : doublyConnectedEdgeList) (e : Nat), VertexInv h d →
      (∀ o, h.originOf e = some o → o < h.vertexRecords.length →
        ∃ h2 vs2, overlayVertexStep (h, d.vertices) e = some (h2, vs2)) ∧
      ∀ h2 vs2, overlayVertexStep (h, d.vertices) e = some (h2, vs2) →
        VertexInv h2 { d with vertices := vs2 } ∧
        ((∀ xy v, d.vertices.lookup xy = some v → IncidentOK h v) →
          (∀ o, h.originOf e = some o → IncidentOK h o) →
          ∀ xy v, vs2.lookup xy = some v → IncidentOK h2 v)) ∧
    (∀ (h : Heap) (d : doublyConnectedEdgeList), VertexInv h d →
      (∀ xy v, d.vertices.lookup xy = some v →
        ∃ r, h.vertexRecords[v]? = some r ∧ r.coords = xy) ∧
      (∀ xy1 xy2 v1 v2 r1 r2, d.vertices.lookup xy1 = some v1 →
        d.vertices.lookup xy2 = some v2 → h.vertexRecords[v1]? = some r1 →
        h.vertexRecords[v2]? = some r2 → r1.coords = r2.coords → xy1 = xy2 ∧ v1 = v2) ∧
      (∀ e ∈ d.halfEdges, ∀ v, h.originOf e = some v →
        ∃ r inc, h.vertexRecords[v]? = some r ∧ r.incident = some inc ∧
          h.originOf inc = some v)) := by
  refine ⟨newDCELFromPolygon_vertexInv, fun h d xy inv vi => findOrCreateVertex_vertexInv inv vi xy,
    fun h d e cut inv vi he hcut => ?_, fun h d e vi => ⟨fun o ho hlt =>
      overlayVertexStep_total h d.vertices ho hlt, fun h2 vs2 hs =>
      ⟨overlayVertexStep_vertexInv vi hs, fun hall hnew =>
        overlayVertexStep_incident vi.keys hall hnew hs⟩⟩, fun h d vi => ⟨vi.keys, ?_, vi.incident⟩⟩
  · obtain ⟨h2, e2, inv2, vi2⟩ := reNodeEdge_vertexInv inv vi he hcut
    exact ⟨h2, _, e2, inv2, vi2⟩
  · intro xy1 xy2 v1 v2 r1 r2 l1 l2 g1 g2 hc
    obtain ⟨q1, hq1, c1⟩ := vi.keys xy1 v1 l1
    obtain ⟨q2, hq2, c2⟩ := vi.keys xy2 v2 l2
    rw [g1] at hq1
    rw [g2] at hq2
    obtain rfl := Option.some.inj hq1
    obtain rfl := Option.some.inj hq2
    have hxy : xy1 = xy2 := by rw [← c1, ← c2]; exact hc
    refine ⟨hxy, ?_⟩
    rw [hxy, l2] at l1
    exact (Option.some.inj l1).symm

/-- C31 at the unit square in the empty heap: the DCEL `newDCELFromPolygon` returns
has the vertex invariant; so has the DCEL after its first half-edge is split at the
vertex record 2, and the DCEL after any step of `overlayVertices` from there. -/
theorem C31_vertex_invariant_witness :
    PolygonClosed unitSquare ∧
    ∃ h d, newDCELFromPolygon Heap.empty unitSquare true = some (h, d) ∧ VertexInv h d ∧
      0 ∈ d.halfEdges ∧
      (∃ r, h.vertexRecords[2]? = some r ∧ d.vertices.lookup r.coords = some 2) ∧
      ∃ h2 d2, reNodeEdge h d 0 2 = some (h2, d2) ∧ VertexInv h2 d2 ∧
        ∀ e h3 vs3, overlayVertexStep (h2, d2.vertices) e = some (h3, vs3) →
          VertexInv h3 { d2 with vertices := vs3 } := by
  obtain ⟨h, d, e, inv, vi⟩ := C31_vertex_invariant.1 Heap.empty unitSquare true unitSquare_closed
  have hf := unitSquare_vertex_facts
  rw [e] at hf
  simp only [Option.all_some, Bool.and_eq_true, decide_eq_true_eq, Option.bind_eq_some] at hf
  obtain ⟨h2, d2, e2, -, vi2⟩ := C31_vertex_invariant.2.2.1 h d 0 2 inv vi hf.1 hf.2
  exact ⟨unitSquare_closed, h, d, e, vi, hf.1, hf.2, h2, d2, e2, vi2,
    fun x h3 vs3 hs => ((C31_vertex_invariant.2.2.2.1 h2 d2 x vi2).2 h3 vs3 hs).1⟩

/-! ## The rounding of the scaled coordinates -/

/-- The scaled coordinates follow the rounding of `float64`. The point whose
coordinates are the `float64` values nearest to 0.3 and 0.7, both below these
numbers, at the precision 1: the products with 10 are below 3 and 7 and round to 3
and 7, and the point is written as the bytes 33, 0, 6, 14; with a bounding box the
minima are 3 and 7, written as 6 and 14, and the extents are 0. -/
theorem marshalTWKB_rounded_product :
    isFloat64 (5404319552844595 / 18014398509481984) = true ∧
    isFloat64 (3152519739159347 / 4503599627370496) = true ∧
    (5404319552844595 / 18014398509481984 : ℚ) * 10 < 3 ∧
    (3152519739159347 / 4503599627370496 : ℚ) * 10 < 7 ∧
    MarshalTWKB (Geometry.point ⟨CoordinatesType.DimXY, false,
      5404319552844595 / 18014398509481984, 3152519739159347 / 4503599627370496, 0, 0⟩)
      false false 1 0 0 false false false [] = some (some [33, 0, 6, 14]) ∧
    MarshalTWKB (Geometry.point ⟨CoordinatesType.DimXY, false,
      5404319552844595 / 18014398509481984, 3152519739159347 / 4503599627370496, 0, 0⟩)
      false false 1 0 0 false true false [] = some (some [33, 1, 6, 0, 14, 0, 6, 14]) := by
  refine ⟨?_, ?_, ?_, ?_, ?_, ?_⟩
  · with_unfolding_all decide
  · with_unfolding_all decide
  · norm_num
  · norm_num
  · set_option maxRecDepth 2000 in
    with_unfolding_all decide
  · set_option maxRecDepth 2000 in
    with_unfolding_all decide

end Geom
